import Mathlib

/-!
# Ubahn: verification development

A shallow embedding of the `ubahn` program: the Euler tour extraction
(`solver/euler.cpp`), the station model and its lazy connectivity separator
(`solver/station_solver.cpp`), the tour of a solution (`solver/cplex_solver.cpp`)
and the graph builder (`graph_builder.cpp`), together with theorems about them.

Conventions of the embedding.

* The graph of the Euler tour extraction is a number of nodes and a list of
  arcs.  Node `v` is the `v`-th node in `forall_nodes` order, arc `e` is the
  `e`-th arc in `forall_edges` order, and the out-arcs of a node are visited in
  arc order (arcs are only ever appended with `new_edge`).
* The problem graph keeps stable handles for nodes and arcs, because the
  builder deletes nodes; the variable of an arc is its position in the arc list.
* A `nullptr` node is `none`.
* `assert` and `throw` are both modelled as `Except.error`, and so is
  undefined behaviour of the C++ code (a `nullptr` node handed to LEDA, the
  first element of an empty container).
* Costs and candidate values are rational numbers.
* `std::map` and `std::set` are lists in key order.
-/

namespace Ubahn

/-! ## Graphs (`base/graph.h`, LEDA) -/

/-- A directed multigraph: `nNodes` nodes and the arcs `(source, target)` in arc order. -/
structure Graph where
  nNodes : Nat
  edges : List (Nat × Nat)
deriving Repr, DecidableEq

namespace Graph

/-- The source node of arc `e` (LEDA `source(e)`). -/
def source (g : Graph) (e : Nat) : Nat := (g.edges.getD e (0, 0)).1

/-- The target node of arc `e` (LEDA `target(e)`). -/
def target (g : Graph) (e : Nat) : Nat := (g.edges.getD e (0, 0)).2

/-- The arcs leaving `v`, in adjacency order (LEDA `forall_out_edges`). -/
def outEdges (g : Graph) (v : Nat) : List Nat :=
  (List.range g.edges.length).filter (fun e => g.source e == v)

/-- The arcs entering `v`, in adjacency order (LEDA `forall_in_edges`). -/
def inEdges (g : Graph) (v : Nat) : List Nat :=
  (List.range g.edges.length).filter (fun e => g.target e == v)

/-- Out-degree of a node (LEDA `outdeg`). -/
def outdeg (g : Graph) (v : Nat) : Nat := (g.outEdges v).length

/-- In-degree of a node (LEDA `indeg`). -/
def indeg (g : Graph) (v : Nat) : Nat := (g.inEdges v).length

/-- LEDA `G.empty()`: the graph has no node. -/
def empty (g : Graph) : Bool := g.nNodes == 0

/-- LEDA `G.first_node()`. -/
def firstNode (_g : Graph) : Nat := 0

/-- Every arc joins two nodes of the graph. -/
def WellFormed (g : Graph) : Prop :=
  ∀ p ∈ g.edges, p.1 < g.nNodes ∧ p.2 < g.nNodes

instance (g : Graph) : Decidable g.WellFormed := by
  unfold WellFormed; infer_instance

/-- Two nodes are joined by an arc, in either direction. -/
def Adj (g : Graph) (u v : Nat) : Prop := (u, v) ∈ g.edges ∨ (v, u) ∈ g.edges

/-- Two nodes lie in the same connected component of the undirected view. -/
def Connected (g : Graph) (u v : Nat) : Prop := Relation.ReflTransGen g.Adj u v

end Graph

/-! ## Euler tours (`solver/euler.cpp`) -/

/-- The mutable data of `Euler::eulerRec`: the list `cycle` passed by reference
and the member `_arc_visited`. -/
structure EulerState where
  cycle : List Nat
  visited : Nat → Bool

/-- Mark one arc as visited (`_arc_visited[e] = true`). -/
def markVisited (vis : Nat → Bool) (e : Nat) : Nat → Bool :=
  fun i => if i = e then true else vis i

/-- The text of the exception thrown by `eulerRec`. -/
def notEulerian : String := "The Graph is not Eulerian"

/-- The error of the embedding when the recursion budget is used up. -/
def outOfFuel : String := "out of fuel"

/-- The loop `forall_out_edges(e, current)` of `Euler::eulerRec`.  `es` are the
out-arcs still to be looked at, `first` is `first_edge`, `pos` is the index in
`cycle` of the element `listPos` points to; `rec` is the recursive call. -/
def eulerLoop (rec : Nat → Nat → EulerState → Except String EulerState)
    (g : Graph) (current start : Nat) :
    List Nat → Bool → Nat → EulerState → Except String (Bool × EulerState)
  | [], first, _, st => .ok (first, st)
  | e :: es, first, pos, st =>
    if st.visited e then
      eulerLoop rec g current start es first pos st
    else if first then
      -- cycle.push_back(e); _arc_visited[e] = true; listPos = --cycle.end()
      match rec (g.target e) start ⟨st.cycle ++ [e], markVisited st.visited e⟩ with
      | .error m => .error m
      | .ok st2 => eulerLoop rec g current start es false st.cycle.length st2
    else
      -- a new cycle from `current`, inserted before `listPos`
      match rec current current ⟨[], st.visited⟩ with
      | .error m => .error m
      | .ok st2 =>
        eulerLoop rec g current start es false (pos + st2.cycle.length)
          ⟨st.cycle.take pos ++ st2.cycle ++ st.cycle.drop pos, st2.visited⟩

/-- The function `Euler::eulerRec(current, start, cycle)`, with a recursion budget. -/
def eulerRec (g : Graph) : Nat → Nat → Nat → EulerState → Except String EulerState
  | 0, _, _, _ => .error outOfFuel
  | fuel + 1, current, start, st =>
    match eulerLoop (eulerRec g fuel) g current start (g.outEdges current) true 0 st with
    | .error m => .error m
    | .ok (first, st2) =>
      if first && current != start then .error notEulerian else .ok st2

/-- The function `Euler::getEulerTour(start)`.  The recursion budget is one more
than the number of arcs, which the recursion never exceeds. -/
def getEulerTour (g : Graph) (start : Option Nat) : Except String (List Nat) :=
  if g.empty then .ok []
  else
    let s := match start with
      | some s => s
      | none => g.firstNode
    match eulerRec g (g.edges.length + 1) s s ⟨[], fun _ => false⟩ with
    | .error m => .error m
    | .ok st => .ok st.cycle

/-! ### Specification vocabulary for walks and visited arcs -/

/-- The list `w` of arcs is a walk from `a` to `b`: every arc exists, the first
leaves `a`, the target of each arc is the source of the next, the last enters
`b`; the empty list is a walk from a node to itself. -/
def IsWalk (g : Graph) : List Nat → Nat → Nat → Prop
  | [], a, b => a = b
  | e :: w, a, b => e < g.edges.length ∧ g.source e = a ∧ IsWalk g w (g.target e) b

/-- Number of unvisited arcs leaving `v`. -/
def unvisOut (g : Graph) (vis : Nat → Bool) (v : Nat) : Nat :=
  (List.range g.edges.length).countP (fun e => !vis e && g.source e == v)

/-- Number of unvisited arcs entering `v`. -/
def unvisIn (g : Graph) (vis : Nat → Bool) (v : Nat) : Nat :=
  (List.range g.edges.length).countP (fun e => !vis e && g.target e == v)

/-- Number of unvisited arcs. -/
def unvisCount (g : Graph) (vis : Nat → Bool) : Nat :=
  (List.range g.edges.length).countP (fun e => !vis e)

/-- The unvisited arcs are balanced except for an open trail from `s` to `c`. -/
def OpenBal (g : Graph) (c s : Nat) (vis : Nat → Bool) : Prop :=
  ∀ v, unvisOut g vis v + (if v = s then 1 else 0) = unvisIn g vis v + (if v = c then 1 else 0)

/-- The unvisited arcs are balanced: at every node as many enter as leave. -/
def Balanced (g : Graph) (vis : Nat → Bool) : Prop :=
  ∀ v, unvisOut g vis v = unvisIn g vis v

/-- Every arc leaving `v` is visited. -/
def AllOut (g : Graph) (vis : Nat → Bool) (v : Nat) : Prop :=
  ∀ e, e < g.edges.length → g.source e = v → vis e = true

/-- The arcs of `w` are distinct, were unvisited in `vis0`, and `vis1` is `vis0`
with exactly the arcs of `w` marked. -/
structure Fresh (vis0 : Nat → Bool) (w : List Nat) (vis1 : Nat → Bool) : Prop where
  nodup : w.Nodup
  unvisited : ∀ e ∈ w, vis0 e = false
  marks : ∀ e, vis1 e = true ↔ (vis0 e = true ∨ e ∈ w)

/-- What a normal return of `eulerRec current start` guarantees. -/
structure EulerPost (g : Graph) (c s : Nat) (vis0 : Nat → Bool) (w : List Nat)
    (vis1 : Nat → Bool) : Prop where
  walk : IsWalk g w c s
  fresh : Fresh vis0 w vis1
  bal : Balanced g vis1
  sat : ∀ e ∈ w, AllOut g vis1 (g.source e)
  outC : AllOut g vis1 c

/-- The recursive call meets the contract of `eulerRec` for states with fewer
than `fuel` unvisited arcs. -/
def RecSpec (g : Graph) (rec : Nat → Nat → EulerState → Except String EulerState)
    (fuel : Nat) : Prop :=
  ∀ c s st, OpenBal g c s st.visited → unvisCount g st.visited < fuel →
    ∃ w vis1, rec c s st = .ok ⟨st.cycle ++ w, vis1⟩ ∧ EulerPost g c s st.visited w vis1

/-! ## The problem graph (LEDA `graph` with stable handles) -/

/-- An arc of the problem graph.  `id` is the handle of the arc: it keys the arc
maps (`edge_map`, `edge_array`) and is never reused. -/
structure Edge where
  id : Nat
  src : Nat
  tgt : Nat
deriving Repr, DecidableEq

/-- A LEDA `graph` whose nodes and arcs can be deleted.  `nodes` are the node
handles in `forall_nodes` order, `edges` the arcs in `forall_edges` order;
`nextNode` and `nextEdge` are the handles the next `new_node` and `new_edge`
hand out. -/
structure LGraph where
  nodes : List Nat
  edges : List Edge
  nextNode : Nat
  nextEdge : Nat
deriving Repr, DecidableEq

namespace LGraph

/-- The arcs leaving `v`, in adjacency order (`forall_out_edges`). -/
def outEdges (g : LGraph) (v : Nat) : List Edge := g.edges.filter (fun e => e.src == v)

/-- The arcs entering `v`, in adjacency order (`forall_in_edges`). -/
def inEdges (g : LGraph) (v : Nat) : List Edge := g.edges.filter (fun e => e.tgt == v)

/-- LEDA `outdeg`. -/
def outdeg (g : LGraph) (v : Nat) : Nat := (g.outEdges v).length

/-- LEDA `indeg`. -/
def indeg (g : LGraph) (v : Nat) : Nat := (g.inEdges v).length

/-- LEDA `degree`: in-degree plus out-degree. -/
def degree (g : LGraph) (v : Nat) : Nat := g.indeg v + g.outdeg v

/-- LEDA `number_of_nodes`. -/
def numberOfNodes (g : LGraph) : Nat := g.nodes.length

/-- The invariants of a LEDA graph: handles are distinct and every arc joins
two nodes of the graph. -/
structure WellFormed (g : LGraph) : Prop where
  nodup_nodes : g.nodes.Nodup
  nodup_ids : (g.edges.map Edge.id).Nodup
  src_mem : ∀ e ∈ g.edges, e.src ∈ g.nodes
  tgt_mem : ∀ e ∈ g.edges, e.tgt ∈ g.nodes

instance (g : LGraph) : Decidable g.WellFormed :=
  decidable_of_iff (g.nodes.Nodup ∧ (g.edges.map Edge.id).Nodup ∧
      (∀ e ∈ g.edges, e.src ∈ g.nodes) ∧ (∀ e ∈ g.edges, e.tgt ∈ g.nodes))
    ⟨fun h => ⟨h.1, h.2.1, h.2.2.1, h.2.2.2⟩, fun h => ⟨h.1, h.2, h.3, h.4⟩⟩

end LGraph

/-! ## Connected components (LEDA `COMPONENTS`) -/

/-- Two nodes are joined by one of the arcs `es`, in either direction. -/
def AdjIn (es : List (Nat × Nat)) (u v : Nat) : Prop := (u, v) ∈ es ∨ (v, u) ∈ es

/-- Two nodes are connected by the arcs `es`, read as undirected. -/
def ConnIn (es : List (Nat × Nat)) (u v : Nat) : Prop := Relation.ReflTransGen (AdjIn es) u v

/-- Source and target of every arc of a list. -/
def endpoints (es : List Edge) : List (Nat × Nat) := es.map (fun e => (e.src, e.tgt))

/-- Give the class of `v` the label of the class of `u`. -/
def mergeLabel (lab : Nat → Nat) (u v : Nat) : Nat → Nat :=
  fun w => if lab w = lab v then lab u else lab w

/-- A labelling of the nodes that is constant exactly on the connected
components of the undirected view of the arcs. -/
def compLabel : List (Nat × Nat) → Nat → Nat
  | [] => id
  | (u, v) :: es => mergeLabel (compLabel es) u v

/-- The label a table gives to a node; a node without entry labels itself. -/
def labelOf (tab : List (Nat × Nat)) (w : Nat) : Nat :=
  match tab.find? (fun p => p.1 == w) with
  | some p => p.2
  | none => w

/-- Give the class of `v` the label of the class of `u`, in a table of labels. -/
def mergeTable (tab : List (Nat × Nat)) (u v : Nat) : List (Nat × Nat) :=
  let lu := labelOf tab u
  let lv := labelOf tab v
  tab.map (fun p => if p.2 = lv then (p.1, lu) else p)

/-- The table of the labels `compLabel es` of the nodes `nodes`, computed by
merging the classes of the end nodes of one arc after the other. -/
def compTable (nodes : List Nat) : List (Nat × Nat) → List (Nat × Nat)
  | [] => nodes.map (fun n => (n, n))
  | (u, v) :: es => mergeTable (compTable nodes es) u v

/-- LEDA `COMPONENTS(G, compnum)`: numbers the connected components of the
undirected view of `G` with `0 .. k-1`, stores the number of the component of
each node in `compnum` and returns `k`.  LEDA documents no particular order of
the numbers; here components are numbered in the order of their labels in
`nodes`. -/
def COMPONENTS (nodes : List Nat) (es : List (Nat × Nat)) : (Nat → Int) × Nat :=
  let tab := compTable nodes es
  let labels := (tab.map Prod.snd).dedup
  (fun v => (labels.indexOf (labelOf tab v) : Nat), labels.length)

/-! ### Correctness of the labelling

These lemmas precede the remaining definitions because the decision procedure
for connectivity rests on them. -/

theorem adjIn_symm {es : List (Nat × Nat)} {u v : Nat} (h : AdjIn es u v) : AdjIn es v u :=
  Or.symm h

theorem connIn_refl (es : List (Nat × Nat)) (u : Nat) : ConnIn es u u :=
  Relation.ReflTransGen.refl

theorem connIn_symm {es : List (Nat × Nat)} {u v : Nat} (h : ConnIn es u v) : ConnIn es v u := by
  induction h with
  | refl => exact Relation.ReflTransGen.refl
  | tail _ hbc ih => exact Relation.ReflTransGen.head (adjIn_symm hbc) ih

theorem connIn_trans {es : List (Nat × Nat)} {u v w : Nat} (h1 : ConnIn es u v)
    (h2 : ConnIn es v w) : ConnIn es u w := Relation.ReflTransGen.trans h1 h2

theorem connIn_of_mem {es : List (Nat × Nat)} {u v : Nat} (h : (u, v) ∈ es) : ConnIn es u v :=
  Relation.ReflTransGen.single (Or.inl h)

theorem connIn_mono {es es' : List (Nat × Nat)} (hsub : ∀ p ∈ es, p ∈ es') {u v : Nat}
    (h : ConnIn es u v) : ConnIn es' u v := by
  apply Relation.ReflTransGen.mono _ h
  intro a b hab
  rcases hab with h1 | h1
  · exact Or.inl (hsub _ h1)
  · exact Or.inr (hsub _ h1)

theorem connIn_nil {u v : Nat} : ConnIn [] u v ↔ u = v := by
  constructor
  · intro h
    induction h with
    | refl => rfl
    | tail _ hbc _ => simp [AdjIn] at hbc
  · rintro rfl; exact connIn_refl _ _

/-- The labelling `compLabel` is constant exactly on the connected components. -/
theorem compLabel_eq_iff (es : List (Nat × Nat)) (x y : Nat) :
    compLabel es x = compLabel es y ↔ ConnIn es x y := by
  induction es generalizing x y with
  | nil => simp [compLabel, connIn_nil]
  | cons p es ih =>
    obtain ⟨u, v⟩ := p
    have hmono : ∀ {a b}, ConnIn es a b → ConnIn ((u, v) :: es) a b :=
      fun h => connIn_mono (fun p hp => List.mem_cons_of_mem _ hp) h
    have huv : ConnIn ((u, v) :: es) u v := connIn_of_mem (List.mem_cons_self _ _)
    simp only [compLabel, mergeLabel]
    constructor
    · intro h
      by_cases hx : compLabel es x = compLabel es v <;>
        by_cases hy : compLabel es y = compLabel es v
      · exact connIn_trans (hmono ((ih x v).1 hx)) (connIn_symm (hmono ((ih y v).1 hy)))
      · simp only [hx, hy, if_true, if_false] at h
        exact connIn_trans (connIn_trans (hmono ((ih x v).1 hx)) (connIn_symm huv))
          (hmono ((ih u y).1 h))
      · simp only [hx, hy, if_true, if_false] at h
        exact connIn_trans (connIn_trans (hmono ((ih x u).1 h)) huv)
          (connIn_symm (hmono ((ih y v).1 hy)))
      · simp only [hx, hy, if_false] at h
        exact hmono ((ih x y).1 h)
    · intro h
      induction h with
      | refl => rfl
      | @tail b c _ hbc ihc =>
        rw [ihc]
        have hstep : ∀ a b, (a, b) ∈ (u, v) :: es →
            (if compLabel es a = compLabel es v then compLabel es u else compLabel es a) =
              (if compLabel es b = compLabel es v then compLabel es u else compLabel es b) := by
          intro a b hab
          rcases List.mem_cons.1 hab with h1 | h1
          · simp only [Prod.mk.injEq] at h1
            obtain ⟨rfl, rfl⟩ := h1
            by_cases h2 : compLabel es a = compLabel es b <;> simp [h2]
          · rw [(ih a b).2 (connIn_of_mem h1)]
        rcases hbc with h1 | h1
        · exact hstep b c h1
        · exact (hstep c b h1).symm

theorem labelOf_map (nodes : List Nat) (f : Nat → Nat) {w : Nat} (hw : w ∈ nodes) :
    labelOf (nodes.map (fun n => (n, f n))) w = f w := by
  induction nodes with
  | nil => simp at hw
  | cons a l ih =>
    by_cases h : a = w
    · subst h; simp [labelOf]
    · have hw' : w ∈ l := by
        rcases List.mem_cons.1 hw with h1 | h1
        · exact absurd h1.symm h
        · exact h1
      have hb : (a == w) = false := by simpa using h
      have := ih hw'
      simp only [labelOf, List.map_cons, List.find?_cons, hb] at this ⊢
      exact this

/-- The table holds the labels `compLabel es` of the nodes, when the arcs join
nodes of the list. -/
theorem compTable_eq (nodes : List Nat) (es : List (Nat × Nat))
    (h : ∀ p ∈ es, p.1 ∈ nodes ∧ p.2 ∈ nodes) :
    compTable nodes es = nodes.map (fun n => (n, compLabel es n)) := by
  induction es with
  | nil => simp [compTable, compLabel]
  | cons p es ih =>
    obtain ⟨u, v⟩ := p
    obtain ⟨hu, hv⟩ := h (u, v) (List.mem_cons_self _ _)
    have ih' := ih (fun p hp => h p (List.mem_cons_of_mem _ hp))
    simp only [compTable, mergeTable, ih', labelOf_map nodes (compLabel es) hu,
      labelOf_map nodes (compLabel es) hv, List.map_map, compLabel, mergeLabel]
    apply List.map_congr_left
    intro n _
    simp only [Function.comp]
    split <;> rfl

/-- The end nodes of the arcs of a list, with two further nodes. -/
def withEndNodes (es : List (Nat × Nat)) (u v : Nat) : List Nat :=
  u :: v :: es.flatMap (fun p => [p.1, p.2])

theorem connIn_iff_table (es : List (Nat × Nat)) (u v : Nat) :
    labelOf (compTable (withEndNodes es u v) es) u = labelOf (compTable (withEndNodes es u v) es) v
      ↔ ConnIn es u v := by
  have h : ∀ p ∈ es, p.1 ∈ withEndNodes es u v ∧ p.2 ∈ withEndNodes es u v := by
    intro p hp
    simp only [withEndNodes, List.mem_cons, List.mem_flatMap, List.mem_singleton,
      List.not_mem_nil, or_false]
    exact ⟨Or.inr (Or.inr ⟨p, hp, Or.inl rfl⟩), Or.inr (Or.inr ⟨p, hp, Or.inr rfl⟩)⟩
  rw [compTable_eq _ _ h, labelOf_map _ _ (by simp [withEndNodes]),
    labelOf_map _ _ (by simp [withEndNodes])]
  exact compLabel_eq_iff es u v

/-- Connectivity is decided by comparing labels. -/
instance (es : List (Nat × Nat)) (u v : Nat) : Decidable (ConnIn es u v) :=
  decidable_of_iff _ (connIn_iff_table es u v)

/-! ## The optimisation model (CPLEX Concert objects) -/

/-- A linear range `lb <= sum of coefficient * variable <= ub`; `ub = none` is
`IloInfinity`.  Variables are named by their index in `_edge_vars`. -/
structure Row where
  lb : ℚ
  ub : Option ℚ
  terms : List (Nat × ℚ)
deriving Repr, DecidableEq

/-- A decision variable: bounds and whether it is integral. -/
structure Var where
  lb : ℚ
  ub : ℚ
  integral : Bool
deriving Repr, DecidableEq

/-- An `IloBoolVar`: an integral variable with domain 0..1. -/
def IloBoolVar : Var := ⟨0, 1, true⟩

/-- The model the solver hands to CPLEX: a minimisation objective, the
variables `_edge_vars`, the flow rows `in_out_cons` and the coverage rows
`out_cons`. -/
structure CplexModel where
  objective : List (Nat × ℚ)
  vars : List Var
  inOutCons : List Row
  outCons : List Row
deriving Repr, DecidableEq

/-- Value of a linear expression at the point `x`. -/
def evalTerms (terms : List (Nat × ℚ)) (x : Nat → ℚ) : ℚ :=
  (terms.map (fun t => t.2 * x t.1)).sum

/-- The point `x` satisfies the range. -/
def Row.Holds (r : Row) (x : Nat → ℚ) : Prop :=
  r.lb ≤ evalTerms r.terms x ∧ ∀ u, r.ub = some u → evalTerms r.terms x ≤ u

/-! ## The station solver (`solver/station_solver.cpp`, `solver/cplex_solver.h`) -/

/-- The type `std::map<std::string, std::set<node>>`: the clusters in key order. -/
abbrev StationNodes := List (String × List Nat)

/-- The function `contains` of `base/utils.h`. -/
def contains (container : List Nat) (val : Nat) : Bool := container.contains val

/-- The function `countNonStationInEdges`: the number of arcs that enter a node
of the cluster from a node outside it. -/
def countNonStationInEdges (g : LGraph) (station_nodes : List Nat) : Nat :=
  station_nodes.foldl
    (fun result n =>
      (g.inEdges n).foldl
        (fun result e => if !contains station_nodes e.src then result + 1 else result) result)
    0

/-- The function `findUniqueStation`: the first cluster entered by exactly one
arc, `none` for `stations.end()`. -/
def findUniqueStation (g : LGraph) (stations : StationNodes) : Option (String × List Nat) :=
  stations.find? (fun station => countNonStationInEdges g station.2 == 1)

/-- Error of `initializeStations` when no cluster is entered by exactly one arc. -/
def noUniqueStation : String :=
  "Invalid input: Optimality can only be guaranteed, if the graph contains at least one unique station"

/-- Error of `initializeStations` for a node listed twice. -/
def duplicateNode (station : String) : String :=
  "Invalid input: Station " ++ station ++ " has a station allready contained in a different station"

/-- Error of `initializeStations` for a node in no cluster. -/
def notAllAssigned : String := "Invalid input: Not all nodes are assigned to stations"

/-- The data `initializeStations` fills: `_node_to_station_id`, the set
`nodes_in_stations` and `_n_stations`. -/
structure StationIndex where
  nodeToStationId : Nat → Int
  nodesInStations : List Nat
  nStations : Nat

/-- The inner loop of `initializeStations` over the nodes of one cluster. -/
def assignStation (name : String) : List Nat → StationIndex → Except String StationIndex
  | [], idx => .ok idx
  | n :: ns, idx =>
    if contains idx.nodesInStations n then .error (duplicateNode name)
    else
      assignStation name ns
        { idx with
          nodeToStationId := fun v => if v = n then (idx.nStations : Int) else idx.nodeToStationId v
          nodesInStations := idx.nodesInStations ++ [n] }

/-- The outer loop of `initializeStations` over the clusters. -/
def assignStations : StationNodes → StationIndex → Except String StationIndex
  | [], idx => .ok idx
  | station :: rest, idx =>
    match assignStation station.1 station.2 idx with
    | .error m => .error m
    | .ok idx1 => assignStations rest { idx1 with nStations := idx1.nStations + 1 }

/-- The function `StationSolver::initializeStations`. -/
def initializeStations (g : LGraph) (stations : StationNodes) : Except String StationIndex :=
  if (findUniqueStation g stations).isNone then .error noUniqueStation
  else
    match assignStations stations ⟨fun _ => -1, [], 0⟩ with
    | .error m => .error m
    | .ok idx =>
      if g.numberOfNodes != idx.nodesInStations.length then .error notAllAssigned
      else .ok idx

/-- Add a term to row `i` of a range array (`rows[i](coefficient)` in a column). -/
def addToRow (rows : List Row) (i : Nat) (t : Nat × ℚ) : List Row :=
  rows.modify (fun r => { r with terms := r.terms ++ [t] }) i

/-- What step (1) of `createCplexModel` builds: the objective, the flow rows,
the variables and `_edge_to_var_id`. -/
structure ArcModel where
  objective : List (Nat × ℚ)
  inOutCons : List Row
  vars : List Var
  edgeToVarId : Nat → Int

/-- The loop `forall_edges` of step (1): one `IloBoolVar` per arc, entered with
its cost in the objective, with -1 in the row of its source and with +1 in the
row of its target. -/
def addArcVariables (g : LGraph) (dist : Nat → ℚ) : List Edge → ArcModel → ArcModel
  | [], m => m
  | e :: es, m =>
    let narcs := m.vars.length
    let rows1 := addToRow m.inOutCons (g.nodes.indexOf e.src) (narcs, -1)
    let rows2 := addToRow rows1 (g.nodes.indexOf e.tgt) (narcs, 1)
    addArcVariables g dist es
      { objective := m.objective ++ [(narcs, dist e.id)]
        inOutCons := rows2
        vars := m.vars ++ [IloBoolVar]
        edgeToVarId := fun i => if i = e.id then (narcs : Int) else m.edgeToVarId i }

/-- Lines 286-324 of `createCplexModel`: `node_to_constraint_id[n]` is the
position of `n` in `forall_nodes` order, `in_out_cons` starts as one empty
range `0 <= . <= 0` per node. -/
def createArcModel (g : LGraph) (dist : Nat → ℚ) : ArcModel :=
  addArcVariables g dist g.edges
    ⟨[], List.replicate g.nodes.length ⟨0, some 0, []⟩, [], fun _ => -1⟩

/-- Text of the failed assertion `!connection_arcs[e]`. -/
def assertConnection : String := "Assertion failed: !connection_arcs[e]"

/-- The loop `forall_out_edges(e, n)` of step (2) for one node of a cluster. -/
def coverOutEdges (edgeToVarId : Nat → Int) (connection_arcs : Nat → Bool)
    (station_nodes : List Nat) : List Edge → List (Nat × ℚ) → Except String (List (Nat × ℚ))
  | [], lhs => .ok lhs
  | e :: es, lhs =>
    if !contains station_nodes e.tgt then
      if connection_arcs e.id then .error assertConnection
      else
        coverOutEdges edgeToVarId connection_arcs station_nodes es
          (lhs ++ [((edgeToVarId e.id).toNat, 1)])
    else coverOutEdges edgeToVarId connection_arcs station_nodes es lhs

/-- The loop over the nodes of one cluster of step (2). -/
def coverNodes (g : LGraph) (edgeToVarId : Nat → Int) (connection_arcs : Nat → Bool)
    (station_nodes : List Nat) : List Nat → List (Nat × ℚ) → Except String (List (Nat × ℚ))
  | [], lhs => .ok lhs
  | n :: ns, lhs =>
    match coverOutEdges edgeToVarId connection_arcs station_nodes (g.outEdges n) lhs with
    | .error m => .error m
    | .ok lhs1 => coverNodes g edgeToVarId connection_arcs station_nodes ns lhs1

/-- Lines 326-356 of `createCplexModel`: one range `1 <= lhs` per cluster. -/
def createCoverage (g : LGraph) (edgeToVarId : Nat → Int) (connection_arcs : Nat → Bool) :
    StationNodes → Except String (List Row)
  | [] => .ok []
  | station :: rest =>
    match coverNodes g edgeToVarId connection_arcs station.2 station.2 [] with
    | .error m => .error m
    | .ok lhs =>
      match createCoverage g edgeToVarId connection_arcs rest with
      | .error m => .error m
      | .ok rows => .ok (⟨1, none, lhs⟩ :: rows)

/-- The function `StationSolver::createCplexModel`, together with the
`_edge_to_var_id` it fills.  Names of variables and rows are not modelled. -/
def createCplexModel (g : LGraph) (dist : Nat → ℚ) (station_names : StationNodes)
    (connection_arcs : Nat → Bool) : Except String (CplexModel × (Nat → Int)) :=
  let am := createArcModel g dist
  match createCoverage g am.edgeToVarId connection_arcs station_names with
  | .error m => .error m
  | .ok outCons => .ok (⟨am.objective, am.vars, am.inOutCons, outCons⟩, am.edgeToVarId)

/-- The members of a constructed `StationSolver`.  `epInt` is the integrality
tolerance `IloCplex::EpInt` read from the backend. -/
structure StationSolver where
  g : LGraph
  epInt : ℚ
  nodeToStationId : Nat → Int
  nStations : Nat
  model : CplexModel
  edgeToVarId : Nat → Int

/-- The constructor `StationSolver::StationSolver`. -/
def StationSolver.new (epInt : ℚ) (g : LGraph) (dist : Nat → ℚ) (stations : StationNodes)
    (connection_arcs : Nat → Bool) : Except String StationSolver :=
  match initializeStations g stations with
  | .error m => .error m
  | .ok idx =>
    match createCplexModel g dist stations connection_arcs with
    | .error m => .error m
    | .ok (model, edgeToVarId) =>
      .ok ⟨g, epInt, idx.nodeToStationId, idx.nStations, model, edgeToVarId⟩

/-! ### Specification vocabulary for the model -/

/-- The terms the arcs `es`, numbered from `k`, contribute to the flow row
number `j`: `-1` for an arc leaving the `j`-th node, `+1` for an arc entering it. -/
def rowTermsFrom (g : LGraph) (j k : Nat) (es : List Edge) : List (Nat × ℚ) :=
  (es.enumFrom k).flatMap (fun p =>
    (if g.nodes.indexOf p.2.src = j then [(p.1, (-1 : ℚ))] else []) ++
    (if g.nodes.indexOf p.2.tgt = j then [(p.1, (1 : ℚ))] else []))

/-- Sum of `x` over the arcs entering node `v`; arcs are named by their position. -/
def inFlow (g : LGraph) (x : Nat → ℚ) (v : Nat) : ℚ :=
  ((g.edges.enum.filter (fun p => p.2.tgt == v)).map (fun p => x p.1)).sum

/-- Sum of `x` over the arcs leaving node `v`; arcs are named by their position. -/
def outFlow (g : LGraph) (x : Nat → ℚ) (v : Nat) : ℚ :=
  ((g.edges.enum.filter (fun p => p.2.src == v)).map (fun p => x p.1)).sum

/-- The number of arcs that enter the cluster from a node outside it. -/
def enteringArcs (g : LGraph) (cluster : List Nat) : Nat :=
  g.edges.countP (fun e => decide (e.tgt ∈ cluster) && decide (e.src ∉ cluster))

/-- The arc at position `i` leaves the cluster: its source is in the cluster,
its target is not. -/
def LeavesCluster (g : LGraph) (cluster : List Nat) (i : Nat) : Prop :=
  ∃ e, g.edges[i]? = some e ∧ e.src ∈ cluster ∧ e.tgt ∉ cluster

/-- No arc that leaves its cluster is flagged as a connection arc: the
condition asserted by `createCplexModel`. -/
def NoConnectionLeaves (g : LGraph) (stations : StationNodes) (connection_arcs : Nat → Bool) :
    Prop :=
  ∀ station ∈ stations, ∀ e ∈ g.edges, e.src ∈ station.2 → e.tgt ∉ station.2 →
    connection_arcs e.id = false

instance (g : LGraph) (stations : StationNodes) (connection_arcs : Nat → Bool) :
    Decidable (NoConnectionLeaves g stations connection_arcs) := by
  unfold NoConnectionLeaves; infer_instance

/-- The left-hand side of the coverage row of a cluster, as the loops of step
(2) of `createCplexModel` build it. -/
def coverTerms (g : LGraph) (edgeToVarId : Nat → Int) (cluster : List Nat) (ns : List Nat) :
    List (Nat × ℚ) :=
  ns.flatMap (fun n =>
    ((g.outEdges n).filter (fun e => !contains cluster e.tgt)).map
      (fun e => ((edgeToVarId e.id).toNat, (1 : ℚ))))

/-! ## The lazy connectivity separator (`StationLazyCallback`) -/

namespace StationSolver

/-- The function `CplexSolver::isZero`. -/
def isZero (s : StationSolver) (val : ℚ) : Bool := decide (-s.epInt ≤ val) && decide (val ≤ s.epInt)

/-- The function `CplexSolver::isOne`. -/
def isOne (s : StationSolver) (val : ℚ) : Bool :=
  decide (1 - s.epInt ≤ val) && decide (val ≤ 1 + s.epInt)

/-- The function `CplexSolver::getCplexId`. -/
def getCplexId (s : StationSolver) (e : Edge) : Int := s.edgeToVarId e.id

/-- The function `StationSolver::getStation`. -/
def getStation (s : StationSolver) (n : Nat) : Int := s.nodeToStationId n

/-- Error of `getSelectedEdges` for a value that is neither 0 nor 1. -/
def notBinary : String := "Illegal value: Not binary"

/-- The loop of `getSelectedEdges` over the arcs of the graph. -/
def selectEdges (s : StationSolver) (vals : Nat → ℚ) : List Edge → Except String (List Edge)
  | [] => .ok []
  | e :: es =>
    let var_id := (s.getCplexId e).toNat
    if s.isOne (vals var_id) then
      match selectEdges s vals es with
      | .error m => .error m
      | .ok edges => .ok (e :: edges)
    else if !s.isZero (vals var_id) then .error notBinary
    else selectEdges s vals es

/-- The function `StationSolver::getSelectedEdges`. -/
def getSelectedEdges (s : StationSolver) (vals : Nat → ℚ) : Except String (List Edge) :=
  selectEdges s vals s.g.edges

end StationSolver

/-- The graph `Gx` of the separator: a LEDA `GRAPH<node, edge>` whose nodes and
arcs carry the node and the arc of the problem graph they copy.  A node of
`Gx` is named by the node it copies. -/
structure SubGraph where
  nodes : List Nat
  edges : List Edge
deriving Repr, DecidableEq

/-- LEDA `CopyGraph(H, G, E)`: the subgraph of `G` induced by the arcs `E`; its
nodes are the end nodes of these arcs. -/
def CopyGraph (selected_edges : List Edge) : SubGraph :=
  ⟨(selected_edges.flatMap (fun e => [e.src, e.tgt])).dedup, selected_edges⟩

/-- The function `StationSolver::createNewSubgraph`: the graph induced by the
selected arcs and `nodemap`, which sends a node of the problem graph to its
copy, `none` (`nullptr`) if it has none. -/
def StationSolver.createNewSubgraph (s : StationSolver) (arc_vals : Nat → ℚ) :
    Except String (SubGraph × (Nat → Option Nat)) :=
  match s.getSelectedEdges arc_vals with
  | .error m => .error m
  | .ok selected_edges =>
    let subgraph := CopyGraph selected_edges
    .ok (subgraph, fun n => if n ∈ subgraph.nodes then some n else none)

/-- Insertion into a `std::set<int>`, kept as an increasing list. -/
def setInsert (s : List Int) (c : Int) : List Int :=
  if c ∈ s then s else List.orderedInsert (fun a b => a ≤ b) c s

/-- Text of a failed bounds check of the embedding (undefined behaviour in C++). -/
def outOfRange : String := "index out of range"

/-- The function `getFirstElement` of `base/utils.h`; dereferencing `begin()`
of an empty container is an error. -/
def getFirstElement (container : List Int) : Except String Int :=
  match container with
  | [] => .error outOfRange
  | c :: _ => .ok c

/-- Text of the failed assertion `compnum[n] >= 0`. -/
def assertCompnum : String := "Assertion failed: compnum[n] >= 0"

/-- Text of the failed assertion `!components.empty()`. -/
def assertComponents : String := "Assertion failed: !components.empty()"

/-- Text of the failed assertion `components_with_excl_station.size() >= 1`. -/
def assertExclusive : String := "Assertion failed: components_with_excl_station.size() >= 1"

/-- Text of the failed assertion of `getComponent`. -/
def assertStationComponents : String :=
  "Assertion failed: !components_per_station[station].empty()"

/-- The loop `forall_nodes(n, Gx)` of the separator, which sorts the components
by the station they meet. -/
def collectComponents (s : StationSolver) (compnum : Nat → Int) :
    List Nat → List (List Int) → Except String (List (List Int))
  | [], cps => .ok cps
  | n :: ns, cps =>
    if compnum n < 0 then .error assertCompnum
    else
      let station_id := s.getStation n
      if station_id < 0 ∨ (cps.length : Int) ≤ station_id then .error outOfRange
      else
        collectComponents s compnum ns
          (cps.modify (fun components => setInsert components (compnum n)) station_id.toNat)

/-- The loop of the separator over `components_per_station`, which collects the
components that have a station of their own. -/
def exclusiveComponents : List (List Int) → List Int → Except String (List Int)
  | [], excl => .ok excl
  | components :: rest, excl =>
    if components.isEmpty then .error assertComponents
    else if components.length == 1 then
      match getFirstElement components with
      | .error m => .error m
      | .ok component => exclusiveComponents rest (setInsert excl component)
    else exclusiveComponents rest excl

namespace StationSolver

/-- The function `StationSolver::getComponent`. -/
def getComponent (s : StationSolver) (n : Nat) (nodemap : Nat → Option Nat)
    (compnum : Nat → Int) (components_per_station : List (List Int)) : Except String Int :=
  match nodemap n with
  | some transformed => .ok (compnum transformed)
  | none =>
    let station := s.getStation n
    if station < 0 ∨ (components_per_station.length : Int) ≤ station then .error outOfRange
    else
      let components := components_per_station.getD station.toNat []
      if components.isEmpty then .error assertStationComponents
      else getFirstElement components

/-- The loop `forall_edges` of `createDeaggregatedCut`; the state is the pair
`(row_out, row_in)`. -/
def deaggregatedLoop (s : StationSolver) (comp : Int) (nodemap : Nat → Option Nat)
    (compnum : Nat → Int) (cps : List (List Int)) :
    List Edge → List (Nat × ℚ) × List (Nat × ℚ) →
      Except String (List (Nat × ℚ) × List (Nat × ℚ))
  | [], rows => .ok rows
  | e :: es, rows =>
    match s.getComponent e.src nodemap compnum cps with
    | .error m => .error m
    | .ok comp_s =>
      match s.getComponent e.tgt nodemap compnum cps with
      | .error m => .error m
      | .ok comp_t =>
        let row_out :=
          if comp_s == comp && !(comp_t == comp) then rows.1 ++ [((s.getCplexId e).toNat, (1 : ℚ))]
          else rows.1
        let row_in :=
          if !(comp_s == comp) && comp_t == comp then rows.2 ++ [((s.getCplexId e).toNat, (1 : ℚ))]
          else rows.2
        deaggregatedLoop s comp nodemap compnum cps es (row_out, row_in)

/-- The function `StationSolver::createDeaggregatedCut`. -/
def createDeaggregatedCut (s : StationSolver) (comp : Int) (nodemap : Nat → Option Nat)
    (compnum : Nat → Int) (cps : List (List Int)) :
    Except String (List (Nat × ℚ) × List (Nat × ℚ)) :=
  deaggregatedLoop s comp nodemap compnum cps s.g.edges ([], [])

/-- The loop of the separator over the exclusive components: two cuts each,
`row_out >= 1` and `row_in >= 1`. -/
def addCuts (s : StationSolver) (nodemap : Nat → Option Nat) (compnum : Nat → Int)
    (cps : List (List Int)) : List Int → List Row → Except String (List Row)
  | [], cuts => .ok cuts
  | comp :: rest, cuts =>
    match s.createDeaggregatedCut comp nodemap compnum cps with
    | .error m => .error m
    | .ok (row_out, row_in) =>
      addCuts s nodemap compnum cps rest (cuts ++ [⟨1, none, row_out⟩, ⟨1, none, row_in⟩])

end StationSolver

/-- The callback `StationLazyCallback`: the candidate `x` is the argument, the
result is the list of the cuts passed to `add`, in order. -/
def StationLazyCallback (solver : StationSolver) (x : Nat → ℚ) : Except String (List Row) :=
  match solver.createNewSubgraph x with
  | .error m => .error m
  | .ok (Gx, original_to_solution_graph) =>
    let compnum := (COMPONENTS Gx.nodes (endpoints Gx.edges)).1
    match collectComponents solver compnum Gx.nodes (List.replicate solver.nStations []) with
    | .error m => .error m
    | .ok components_per_station =>
      match exclusiveComponents components_per_station [] with
      | .error m => .error m
      | .ok components_with_excl_station =>
        if ¬ (1 ≤ components_with_excl_station.length) then .error assertExclusive
        else if components_with_excl_station.length = 1 then .ok []
        else
          solver.addCuts original_to_solution_graph compnum components_per_station
            components_with_excl_station []

/-! ### Specification vocabulary for the separator -/

/-- The arcs the candidate `x` selects: those whose value is within the
tolerance of 1, in arc order.  Arc values are indexed by arc position. -/
def StationSolver.selected (s : StationSolver) (x : Nat → ℚ) : List Edge :=
  (s.g.edges.enum.filter (fun p => s.isOne (x p.1))).map Prod.snd

/-- The candidate is binary: every arc value is within the tolerance of 0 or of 1. -/
def StationSolver.IsBinary (s : StationSolver) (x : Nat → ℚ) : Prop :=
  ∀ i, i < s.g.edges.length → s.isOne (x i) = true ∨ s.isZero (x i) = true

/-- The end nodes of the selected arcs. -/
def selNodes (sel : List Edge) : List Nat := sel.flatMap (fun e => [e.src, e.tgt])

/-- The node lies on a selected arc. -/
def OnSelected (sel : List Edge) (n : Nat) : Prop := n ∈ selNodes sel

/-- Two nodes lie in the same connected component of the subgraph induced by
the selected arcs. -/
def SameComp (sel : List Edge) (u v : Nat) : Prop := ConnIn (endpoints sel) u v

/-- The cluster has a node on a selected arc. -/
def Touched (sel : List Edge) (cluster : List Nat) : Prop := ∃ n ∈ cluster, OnSelected sel n

/-- The component of `r` is the only component that meets the cluster. -/
def OnlyComponent (sel : List Edge) (cluster : List Nat) (r : Nat) : Prop :=
  Touched sel cluster ∧ ∀ n ∈ cluster, OnSelected sel n → SameComp sel n r

/-- The component of the node `r` is exclusive: it is the only component that
meets some station. -/
def ExclusiveComp (sel : List Edge) (stations : StationNodes) (r : Nat) : Prop :=
  OnSelected sel r ∧ ∃ station ∈ stations, OnlyComponent sel station.2 r

/-- The list `reps` names every exclusive component exactly once, by one of its nodes. -/
def ExclusiveReps (sel : List Edge) (stations : StationNodes) (reps : List Nat) : Prop :=
  (∀ r ∈ reps, ExclusiveComp sel stations r) ∧
  reps.Pairwise (fun a b => ¬ SameComp sel a b) ∧
  ∀ n ∈ selNodes sel, ExclusiveComp sel stations n → ∃ r ∈ reps, SameComp sel n r

/-- The row is the cut `arcs leaving the component of r >= 1`: among the arcs
between nodes of the induced subgraph it holds exactly those that leave the
component, each with coefficient 1. -/
def LeavingCut (g : LGraph) (sel : List Edge) (r : Nat) (row : Row) : Prop :=
  row.lb = 1 ∧ row.ub = none ∧ (∀ t ∈ row.terms, t.2 = 1 ∧ t.1 < g.edges.length) ∧
  ∀ (i : Nat) (e : Edge), g.edges[i]? = some e → OnSelected sel e.src → OnSelected sel e.tgt →
    ((i, (1 : ℚ)) ∈ row.terms ↔ SameComp sel e.src r ∧ ¬ SameComp sel e.tgt r)

/-- The row is the cut `arcs entering the component of r >= 1`. -/
def EnteringCut (g : LGraph) (sel : List Edge) (r : Nat) (row : Row) : Prop :=
  row.lb = 1 ∧ row.ub = none ∧ (∀ t ∈ row.terms, t.2 = 1 ∧ t.1 < g.edges.length) ∧
  ∀ (i : Nat) (e : Edge), g.edges[i]? = some e → OnSelected sel e.src → OnSelected sel e.tgt →
    ((i, (1 : ℚ)) ∈ row.terms ↔ ¬ SameComp sel e.src r ∧ SameComp sel e.tgt r)

/-- The component `getComponent` derives for a node of the problem graph when
none of its checks fails. -/
def derivedComp (s : StationSolver) (nodemap : Nat → Option Nat) (compnum : Nat → Int)
    (cps : List (List Int)) (n : Nat) : Int :=
  match nodemap n with
  | some transformed => compnum transformed
  | none => ((cps.getD (s.getStation n).toNat []).head?).getD 0

instance (sel : List Edge) (n : Nat) : Decidable (OnSelected sel n) := by
  unfold OnSelected; infer_instance

instance (sel : List Edge) (u v : Nat) : Decidable (SameComp sel u v) := by
  unfold SameComp; infer_instance

instance (sel : List Edge) (cluster : List Nat) : Decidable (Touched sel cluster) := by
  unfold Touched; infer_instance

instance (sel : List Edge) (cluster : List Nat) (r : Nat) :
    Decidable (OnlyComponent sel cluster r) := by
  unfold OnlyComponent; infer_instance

instance (sel : List Edge) (stations : StationNodes) (r : Nat) :
    Decidable (ExclusiveComp sel stations r) := by
  unfold ExclusiveComp; infer_instance

instance (sel : List Edge) (stations : StationNodes) (reps : List Nat) :
    Decidable (ExclusiveReps sel stations reps) := by
  unfold ExclusiveReps; infer_instance

/-- What a successful constructor establishes about the members of the solver. -/
structure SolverOk (g : LGraph) (dist : Nat → ℚ) (stations : StationNodes)
    (s : StationSolver) : Prop where
  graph : s.g = g
  varId : s.edgeToVarId = (createArcModel g dist).edgeToVarId
  nStations : s.nStations = stations.length
  stationOf : ∀ k (hk : k < stations.length), ∀ n ∈ stations[k].2,
    s.nodeToStationId n = (k : Int)
  covered : ∀ n ∈ g.nodes, ∃ station ∈ stations, n ∈ station.2

/-- The terms `createDeaggregatedCut` puts into `row_out` for the component
`comp` when no check of `getComponent` fails. -/
def cutOut (s : StationSolver) (nodemap : Nat → Option Nat) (compnum : Nat → Int)
    (cps : List (List Int)) (comp : Int) (es : List Edge) : List (Nat × ℚ) :=
  (es.filter (fun e => derivedComp s nodemap compnum cps e.src == comp &&
      !(derivedComp s nodemap compnum cps e.tgt == comp))).map
    (fun e => ((s.getCplexId e).toNat, (1 : ℚ)))

/-- The terms `createDeaggregatedCut` puts into `row_in` for the component
`comp` when no check of `getComponent` fails. -/
def cutIn (s : StationSolver) (nodemap : Nat → Option Nat) (compnum : Nat → Int)
    (cps : List (List Int)) (comp : Int) (es : List Edge) : List (Nat × ℚ) :=
  (es.filter (fun e => !(derivedComp s nodemap compnum cps e.src == comp) &&
      derivedComp s nodemap compnum cps e.tgt == comp)).map
    (fun e => ((s.getCplexId e).toNat, (1 : ℚ)))

/-- The check of `getComponent` passes at node `n`: the node is in the induced
subgraph, or the set of components of its station is not empty. -/
def ComponentKnown (s : StationSolver) (nodemap : Nat → Option Nat) (cps : List (List Int))
    (n : Nat) : Prop :=
  (nodemap n).isSome = true ∨
    ∃ k : Nat, k < cps.length ∧ s.getStation n = (k : Int) ∧ cps.getD k [] ≠ []

/-- The arc vector that is 1 on the arcs at the positions `arcs` and 0 elsewhere. -/
def indicator (arcs : List Nat) : Nat → ℚ := fun i => if i ∈ arcs then 1 else 0

/-! ### A small instance

Five nodes, the arcs 0→1, 1→0, 2→3, 3→2, 1→2, 2→1, 3→4, 4→2 (in this order), and
the stations `A = {0}`, `B = {1}`, `C = {2, 3}`, `D = {4}`. -/

/-- The graph of the small instance. -/
def smallGraph : LGraph :=
  ⟨[0, 1, 2, 3, 4],
    [⟨0, 0, 1⟩, ⟨1, 1, 0⟩, ⟨2, 2, 3⟩, ⟨3, 3, 2⟩, ⟨4, 1, 2⟩, ⟨5, 2, 1⟩, ⟨6, 3, 4⟩, ⟨7, 4, 2⟩], 5, 8⟩

/-- The stations of the small instance. -/
def smallStations : StationNodes := [("A", [0]), ("B", [1]), ("C", [2, 3]), ("D", [4])]

/-- The solver constructed on the small instance, all arc costs 1, no
connection arcs, tolerance 1/100000. -/
def smallSolver : StationSolver :=
  match StationSolver.new (1 / 100000) smallGraph (fun _ => 1) smallStations (fun _ => false) with
  | .ok s => s
  | .error _ => ⟨⟨[], [], 0, 0⟩, 0, fun _ => -1, 0, ⟨[], [], [], []⟩, fun _ => -1⟩


/-- The arcs at the positions `arcs` enter every node as often as they leave it. -/
def BalancedAt (g : LGraph) (arcs : List Nat) : Prop :=
  ∀ v ∈ g.nodes,
    ((g.edges.enum.filter (fun p => p.2.tgt == v)).filter (fun p => decide (p.1 ∈ arcs))).length =
      ((g.edges.enum.filter (fun p => p.2.src == v)).filter (fun p => decide (p.1 ∈ arcs))).length

instance (g : LGraph) (arcs : List Nat) : Decidable (BalancedAt g arcs) := by
  unfold BalancedAt; infer_instance

/-- Every cluster has an arc among the positions `arcs` that leaves it. -/
def LeavesAll (g : LGraph) (stations : StationNodes) (arcs : List Nat) : Prop :=
  ∀ station ∈ stations, ∃ i ∈ arcs, ∃ e ∈ g.edges,
    g.edges[i]? = some e ∧ e.src ∈ station.2 ∧ e.tgt ∉ station.2

instance (g : LGraph) (stations : StationNodes) (arcs : List Nat) :
    Decidable (LeavesAll g stations arcs) := by
  unfold LeavesAll; infer_instance
/-! ## The network (`transport_defs.h`) -/

/-- The reserved label of switch and transfer arcs. -/
def CHANGE_NAME : String := "<->"

/-- The class `Station`; `lines` is a `std::set<std::string>` in increasing order. -/
structure Station where
  name : String
  location : String
  lines : List String
deriving Repr, DecidableEq

/-- The class `Line`; `times` holds `unsigned int` values. -/
structure Line where
  name : String
  stations : List String
  times : List Nat
deriving Repr, DecidableEq

/-- The type `std::map<std::string, Station*>`, in key order. -/
abbrev t_stationmap := List (String × Station)

/-- The type `std::map<std::string, Line*>`, in key order. -/
abbrev t_linemap := List (String × Line)

/-- The enumeration `ProblemType`. -/
inductive ProblemType where
  | STATION
  | SEGMENT
deriving Repr, DecidableEq

/-! ## LEDA graph updates -/

namespace LGraph

/-- LEDA `new_node`: the new node is appended to the node list. -/
def newNode (g : LGraph) : LGraph × Nat :=
  ({ g with nodes := g.nodes ++ [g.nextNode], nextNode := g.nextNode + 1 }, g.nextNode)

/-- LEDA `new_edge(s, t)`: the new arc is appended to the arc list and to the
adjacency lists of its end nodes. -/
def newEdge (g : LGraph) (s t : Nat) : LGraph × Edge :=
  ({ g with edges := g.edges ++ [⟨g.nextEdge, s, t⟩], nextEdge := g.nextEdge + 1 },
    ⟨g.nextEdge, s, t⟩)

/-- LEDA `del_node(n)`: deletes the node and all arcs incident to it. -/
def delNode (g : LGraph) (n : Nat) : LGraph :=
  { g with
    nodes := g.nodes.filter (fun v => v != n)
    edges := g.edges.filter (fun e => e.src != n && e.tgt != n) }

/-- The empty graph. -/
def emptyGraph : LGraph := ⟨[], [], 0, 0⟩

end LGraph

/-! ## The graph builder (`graph_builder.cpp`) -/

/-- A map `std::map<string, std::map<string, node>>` from line name and station
name to a node; `none` is an absent entry (a `nullptr` node when read). -/
abbrev NodeMap := String → String → Option Nat

/-- Assignment `nodemap[line][station] = n`. -/
def NodeMap.set (m : NodeMap) (line station : String) (n : Nat) : NodeMap :=
  fun l s => if l = line ∧ s = station then some n else m l s

/-- The members of `GraphBuilder`. -/
structure GraphBuilder where
  _stations : t_stationmap
  _lines : t_linemap
  _nodes_removed : Bool
  _change_cost : ℚ
  _switch_cost : ℚ
  _g : LGraph
  _dist : Nat → ℚ
  _station_nodes : StationNodes
  _connection_arcs : Nat → Bool
  _arc_names : Nat → String
  _node_names : Nat → String

/-- Insertion `_station_nodes[station].insert(n)` into the map of clusters, kept
in key order. -/
def insertStationNode : StationNodes → String → Nat → StationNodes
  | [], station, n => [(station, [n])]
  | (k, ns) :: rest, station, n =>
    if station = k then (k, if n ∈ ns then ns else ns ++ [n]) :: rest
    else if station < k then (station, [n]) :: (k, ns) :: rest
    else (k, ns) :: insertStationNode rest station n

/-- Conversion of an `unsigned int` difference to `int` (32 bit, two's complement). -/
def toInt32 (a b : Nat) : Int :=
  let d : Nat := (a % 2 ^ 32 + 2 ^ 32 - b % 2 ^ 32) % 2 ^ 32
  if d < 2 ^ 31 then (d : Int) else (d : Int) - 2 ^ 32

/-- Text of the failed assertion `travel_time > 0`. -/
def assertTravelTime : String := "Assertion failed: travel_time > 0"

/-- Text of a `nullptr` node handed to LEDA (undefined behaviour in C++). -/
def nullNode : String := "null node"

namespace GraphBuilder

/-- Body of the loops of `createNodesAndTravelArcs` after the new node exists:
the travel arc from `lastNode`, its name, flag and cost.  `hi` and `lo` are the
two indices into `times` whose difference is the travel time. -/
def addTravelArc (b : GraphBuilder) (lineName : String) (times : List Nat)
    (lastNode : Option Nat) (currentNode hi lo : Nat) : Except String GraphBuilder :=
  match lastNode with
  | none => .ok b
  | some last =>
    let (g1, e) := b._g.newEdge last currentNode
    let travel_time := toInt32 (times.getD hi 0) (times.getD lo 0)
    if ¬ (travel_time > 0) then .error assertTravelTime
    else
      .ok { b with
        _g := g1
        _arc_names := fun i => if i = e.id then lineName else b._arc_names i
        _connection_arcs := fun i => if i = e.id then false else b._connection_arcs i
        _dist := fun i => if i = e.id then (travel_time : ℚ) else b._dist i }

/-- The new node of a loop of `createNodesAndTravelArcs`: its name and its
entry in the cluster of its station. -/
def addStationNode (b : GraphBuilder) (station : String) : GraphBuilder × Nat :=
  let (g1, currentNode) := b._g.newNode
  ({ b with
    _g := g1
    _node_names := fun i => if i = currentNode then station else b._node_names i
    _station_nodes := insertStationNode b._station_nodes station currentNode }, currentNode)

/-- The inner loop of the first half of `createNodesAndTravelArcs`: the nodes
and arcs of one line in the original direction. -/
def wayLoop (lineName : String) (times : List Nat) :
    List String → Nat → Option Nat → GraphBuilder × NodeMap →
      Except String (GraphBuilder × NodeMap)
  | [], _, _, st => .ok st
  | station :: rest, station_index, lastNode, (b, way_nodemap) =>
    let (b1, currentNode) := b.addStationNode station
    match b1.addTravelArc lineName times lastNode currentNode station_index (station_index - 1) with
    | .error m => .error m
    | .ok b2 =>
      wayLoop lineName times rest (station_index + 1) (some currentNode)
        (b2, way_nodemap.set lineName station currentNode)

/-- The inner loop of the second half of `createNodesAndTravelArcs`: the nodes
and arcs of one line in the reversed direction.  The list holds the stations in
reversed order, `station_index` counts down (as an `int`). -/
def backLoop (lineName : String) (times : List Nat) :
    List String → Int → Option Nat → GraphBuilder × NodeMap →
      Except String (GraphBuilder × NodeMap)
  | [], _, _, st => .ok st
  | station :: rest, station_index, lastNode, (b, back_nodemap) =>
    let (b1, currentNode) := b.addStationNode station
    match b1.addTravelArc lineName times lastNode currentNode (station_index + 1).toNat
        station_index.toNat with
    | .error m => .error m
    | .ok b2 =>
      backLoop lineName times rest (station_index - 1) (some currentNode)
        (b2, back_nodemap.set lineName station currentNode)

/-- The first outer loop of `createNodesAndTravelArcs`. -/
def wayLines : t_linemap → GraphBuilder × NodeMap → Except String (GraphBuilder × NodeMap)
  | [], st => .ok st
  | it :: rest, st =>
    match wayLoop it.2.name it.2.times it.2.stations 0 none st with
    | .error m => .error m
    | .ok st1 => wayLines rest st1

/-- The second outer loop of `createNodesAndTravelArcs`. -/
def backLines : t_linemap → GraphBuilder × NodeMap → Except String (GraphBuilder × NodeMap)
  | [], st => .ok st
  | it :: rest, st =>
    match backLoop it.2.name it.2.times it.2.stations.reverse
        ((it.2.stations.length : Int) - 1) none st with
    | .error m => .error m
    | .ok st1 => backLines rest st1

/-- The function `GraphBuilder::createNodesAndTravelArcs`; the result holds the
builder and the maps `way_nodemap`, `back_nodemap`. -/
def createNodesAndTravelArcs (b : GraphBuilder) (way_nodemap back_nodemap : NodeMap) :
    Except String (GraphBuilder × NodeMap × NodeMap) :=
  match wayLines b._lines (b, way_nodemap) with
  | .error m => .error m
  | .ok (b1, way1) =>
    match backLines b1._lines (b1, back_nodemap) with
    | .error m => .error m
    | .ok (b2, back1) => .ok (b2, way1, back1)

/-- The statements `e = _g.new_edge(s, t); _dist[e] = _switch_cost;
_connection_arcs[e] = true` of the switching functions; a `nullptr` end node is
an error. -/
def addSwitchArc (b : GraphBuilder) (s t : Option Nat) : Except String GraphBuilder :=
  match s, t with
  | some s, some t =>
    let (g1, e) := b._g.newEdge s t
    .ok { b with
      _g := g1
      _dist := fun i => if i = e.id then b._switch_cost else b._dist i
      _connection_arcs := fun i => if i = e.id then true else b._connection_arcs i }
  | _, _ => .error nullNode

end GraphBuilder

/-- The function `isTerminalStation`; the iterator is given by its index. -/
def isTerminalStation (i : Nat) (stations : List String) : Bool :=
  i == 0 || i + 1 == stations.length

/-- Text of the failed assertion `pos != stationMap.end()`. -/
def assertStationKnown : String := "Assertion failed: pos != stationMap.end()"

/-- The function `std::map::find` on a station map. -/
def findStation (stationMap : t_stationmap) (name : String) : Option Station :=
  (stationMap.find? (fun p => p.1 == name)).map Prod.snd

/-- The function `isConnectingStation`; the iterator is given by the station
name it points to. -/
def isConnectingStation (name : String) (stationMap : t_stationmap) : Except String Bool :=
  match findStation stationMap name with
  | none => .error assertStationKnown
  | some station => .ok (decide (station.lines.length > 1))

/-- The loop of `hasFollowingConnectingStation` and of
`hasPrecedingConnectingStation` over a range of stations. -/
def anyConnectingStation (stationMap : t_stationmap) : List String → Except String Bool
  | [] => .ok false
  | name :: rest =>
    match isConnectingStation name stationMap with
    | .error m => .error m
    | .ok true => .ok true
    | .ok false => anyConnectingStation stationMap rest

/-- The function `hasFollowingConnectingStation`; the iterator is given by its index. -/
def hasFollowingConnectingStation (i : Nat) (stations : List String)
    (stationMap : t_stationmap) : Except String Bool :=
  anyConnectingStation stationMap (stations.drop (i + 1))

/-- The function `hasPrecedingConnectingStation`; the iterator is given by its index. -/
def hasPrecedingConnectingStation (i : Nat) (stations : List String)
    (stationMap : t_stationmap) : Except String Bool :=
  anyConnectingStation stationMap (stations.take i)

namespace GraphBuilder

/-- The inner loop of `addAllSwitchingArcs` over the stations of one line. -/
def allSwitchingLoop (lineName : String) (way_nodemap back_nodemap : NodeMap) :
    List String → GraphBuilder → Except String GraphBuilder
  | [], b => .ok b
  | station_name :: rest, b =>
    match b.addSwitchArc (way_nodemap lineName station_name) (back_nodemap lineName station_name) with
    | .error m => .error m
    | .ok b1 =>
      match b1.addSwitchArc (back_nodemap lineName station_name)
          (way_nodemap lineName station_name) with
      | .error m => .error m
      | .ok b2 => allSwitchingLoop lineName way_nodemap back_nodemap rest b2

/-- The function `GraphBuilder::addAllSwitchingArcs`; the list is the part of
`_lines` still to be visited. -/
def addAllSwitchingArcs (way_nodemap back_nodemap : NodeMap) :
    t_linemap → GraphBuilder → Except String GraphBuilder
  | [], b => .ok b
  | it :: rest, b =>
    match allSwitchingLoop it.2.name way_nodemap back_nodemap it.2.stations b with
    | .error m => .error m
    | .ok b1 => addAllSwitchingArcs way_nodemap back_nodemap rest b1

/-- The switch arc of a terminal station: from the reverse node to the forward
node at the first stop, from the forward node to the reverse node otherwise. -/
def addTerminalSwitch (b : GraphBuilder) (lineName : String)
    (way_nodemap back_nodemap : NodeMap) (i : Nat) (station : String) :
    Except String GraphBuilder :=
  if i == 0 then b.addSwitchArc (back_nodemap lineName station) (way_nodemap lineName station)
  else b.addSwitchArc (way_nodemap lineName station) (back_nodemap lineName station)

/-- The inner loop of `addSwitchingArcsAtTerminals`; the list holds the stations
still to be visited with their indices. -/
def terminalSwitchingLoop (lineName : String) (lineStations : List String)
    (way_nodemap back_nodemap : NodeMap) :
    List (Nat × String) → GraphBuilder → Except String GraphBuilder
  | [], b => .ok b
  | (i, station) :: rest, b =>
    if isTerminalStation i lineStations then
      match b.addTerminalSwitch lineName way_nodemap back_nodemap i station with
      | .error m => .error m
      | .ok b1 => terminalSwitchingLoop lineName lineStations way_nodemap back_nodemap rest b1
    else terminalSwitchingLoop lineName lineStations way_nodemap back_nodemap rest b

/-- The function `GraphBuilder::addSwitchingArcsAtTerminals`. -/
def addSwitchingArcsAtTerminals (way_nodemap back_nodemap : NodeMap) :
    t_linemap → GraphBuilder → Except String GraphBuilder
  | [], b => .ok b
  | it :: rest, b =>
    match terminalSwitchingLoop it.2.name it.2.stations way_nodemap back_nodemap
        it.2.stations.enum b with
    | .error m => .error m
    | .ok b1 => addSwitchingArcsAtTerminals way_nodemap back_nodemap rest b1

/-- The last part of the loop body of `addStationProblemSwitchingArcs`: the
switch arcs of a station between two connecting stations. -/
def addNeighbourSwitches (b : GraphBuilder) (lineName : String) (lineStations : List String)
    (way_nodemap back_nodemap : NodeMap) (i : Nat) (station : String) :
    Except String GraphBuilder :=
  match isConnectingStation (lineStations.getD (i + 1) "") b._stations with
  | .error m => .error m
  | .ok next =>
    match (if next then
        b.addSwitchArc (way_nodemap lineName station) (back_nodemap lineName station)
      else .ok b) with
    | .error m => .error m
    | .ok b1 =>
      match isConnectingStation (lineStations.getD (i - 1) "") b1._stations with
      | .error m => .error m
      | .ok prev =>
        if prev then
          b1.addSwitchArc (back_nodemap lineName station) (way_nodemap lineName station)
        else .ok b1

/-- The loop body of `addStationProblemSwitchingArcs` for one station. -/
def stationSwitchingStep (b : GraphBuilder) (lineName : String) (lineStations : List String)
    (way_nodemap back_nodemap : NodeMap) (i : Nat) (station : String) :
    Except String GraphBuilder :=
  match isConnectingStation station b._stations with
  | .error m => .error m
  | .ok true => .ok b
  | .ok false =>
    if isTerminalStation i lineStations then
      b.addTerminalSwitch lineName way_nodemap back_nodemap i station
    else
      match hasPrecedingConnectingStation i lineStations b._stations with
      | .error m => .error m
      | .ok false => .ok b
      | .ok true =>
        match hasFollowingConnectingStation i lineStations b._stations with
        | .error m => .error m
        | .ok false => .ok b
        | .ok true => b.addNeighbourSwitches lineName lineStations way_nodemap back_nodemap i station

/-- The inner loop of `addStationProblemSwitchingArcs`. -/
def stationSwitchingLoop (lineName : String) (lineStations : List String)
    (way_nodemap back_nodemap : NodeMap) :
    List (Nat × String) → GraphBuilder → Except String GraphBuilder
  | [], b => .ok b
  | (i, station) :: rest, b =>
    match b.stationSwitchingStep lineName lineStations way_nodemap back_nodemap i station with
    | .error m => .error m
    | .ok b1 => stationSwitchingLoop lineName lineStations way_nodemap back_nodemap rest b1

/-- The function `GraphBuilder::addStationProblemSwitchingArcs`. -/
def addStationProblemSwitchingArcs (way_nodemap back_nodemap : NodeMap) :
    t_linemap → GraphBuilder → Except String GraphBuilder
  | [], b => .ok b
  | it :: rest, b =>
    match stationSwitchingLoop it.2.name it.2.stations way_nodemap back_nodemap
        it.2.stations.enum b with
    | .error m => .error m
    | .ok b1 => addStationProblemSwitchingArcs way_nodemap back_nodemap rest b1

/-- The function `GraphBuilder::addConnectionEdge` followed by
`setDistance(e, _change_cost)`: the arc is added only if a non-connection arc
enters `s` and a non-connection arc leaves `t`. -/
def addConnectionEdge (b : GraphBuilder) (s t : Option Nat) : Except String GraphBuilder :=
  match s, t with
  | some s, some t =>
    let has_in := (b._g.inEdges s).any (fun e => !b._connection_arcs e.id)
    let has_out := (b._g.outEdges t).any (fun e => !b._connection_arcs e.id)
    if has_in && has_out then
      let (g1, e) := b._g.newEdge s t
      .ok { b with
        _g := g1
        _dist := fun i => if i = e.id then b._change_cost else b._dist i
        _connection_arcs := fun i => if i = e.id then true else b._connection_arcs i }
    else .ok b
  | _, _ => .error nullNode

/-- A sequence of calls of `addConnectionEdge`. -/
def addConnectionEdges : List (Option Nat × Option Nat) → GraphBuilder → Except String GraphBuilder
  | [], b => .ok b
  | (s, t) :: rest, b =>
    match b.addConnectionEdge s t with
    | .error m => .error m
    | .ok b1 => addConnectionEdges rest b1

/-- The eight calls of `addConnectionEdge` for a pair of lines at a station, in
the order of the source. -/
def connectionPairs (way_nodemap back_nodemap : NodeMap) (station_name line line2 : String) :
    List (Option Nat × Option Nat) :=
  [(way_nodemap line station_name, way_nodemap line2 station_name),
   (way_nodemap line station_name, back_nodemap line2 station_name),
   (back_nodemap line station_name, way_nodemap line2 station_name),
   (back_nodemap line station_name, back_nodemap line2 station_name),
   (way_nodemap line2 station_name, way_nodemap line station_name),
   (way_nodemap line2 station_name, back_nodemap line station_name),
   (back_nodemap line2 station_name, way_nodemap line station_name),
   (back_nodemap line2 station_name, back_nodemap line station_name)]

/-- The innermost loop of `addAllConnectionArcs`: `line_it2` runs over the lines
after `line_it`. -/
def connectionLoop2 (way_nodemap back_nodemap : NodeMap) (station_name line : String) :
    List String → GraphBuilder → Except String GraphBuilder
  | [], b => .ok b
  | line2 :: rest, b =>
    match addConnectionEdges (connectionPairs way_nodemap back_nodemap station_name line line2) b with
    | .error m => .error m
    | .ok b1 => connectionLoop2 way_nodemap back_nodemap station_name line rest b1

/-- The middle loop of `addAllConnectionArcs` over `line_it`. -/
def connectionLoop1 (way_nodemap back_nodemap : NodeMap) (station_name : String) :
    List String → GraphBuilder → Except String GraphBuilder
  | [], b => .ok b
  | line :: rest, b =>
    match connectionLoop2 way_nodemap back_nodemap station_name line rest b with
    | .error m => .error m
    | .ok b1 => connectionLoop1 way_nodemap back_nodemap station_name rest b1

/-- The function `GraphBuilder::addAllConnectionArcs`; the list is the part of
`_stations` still to be visited. -/
def addAllConnectionArcs (way_nodemap back_nodemap : NodeMap) :
    t_stationmap → GraphBuilder → Except String GraphBuilder
  | [], b => .ok b
  | it :: rest, b =>
    match connectionLoop1 way_nodemap back_nodemap it.2.name it.2.lines b with
    | .error m => .error m
    | .ok b1 => addAllConnectionArcs way_nodemap back_nodemap rest b1

end GraphBuilder

/-! ### Chain contraction -/

/-- Text of the failed assertion `g.degree(n) >= 2`. -/
def assertDegreeGe2 : String := "Assertion failed: g.degree(n) >= 2"

/-- Text of the failed assertion `g.degree(n) == 2`. -/
def assertDegreeEq2 : String := "Assertion failed: g.degree(n) == 2"

/-- Text of the exception of `computeDegree2Chains`. -/
def graphHasCycle : String := "The graph contains a cycle"

/-- Text of the failed assertion `_g.indeg(n) == 1 && _g.outdeg(n) == 1`. -/
def assertInOut : String := "Assertion failed: _g.indeg(n) == 1 && _g.outdeg(n) == 1"

/-- Text of the failed assertion on the names of the two arcs of a chain node. -/
def assertArcNames : String :=
  "Assertion failed: _arc_names[in_edge].compare(_arc_names[out_edge]) == 0"

/-- The first loop of `computeDegree2Chains`: the nodes of degree greater than 2. -/
def nodesToHide (g : LGraph) : List Nat → Except String (List Nat)
  | [] => .ok []
  | n :: ns =>
    if ¬ (g.degree n ≥ 2) then .error assertDegreeGe2
    else
      match nodesToHide g ns with
      | .error m => .error m
      | .ok rest => .ok (if g.degree n > 2 then n :: rest else rest)

/-- The loop `forall_edges` of `computeDegree2Chains` that hides the end nodes
of the arcs to keep; `hidden` are the nodes hidden so far.  `forall_edges`
visits the arcs that are not hidden: an arc with a hidden end node is skipped. -/
def hideKeepEndpoints (keep_edge : Nat → Bool) : List Edge → List Nat → List Nat
  | [], hidden => hidden
  | e :: es, hidden =>
    if e.src ∉ hidden ∧ e.tgt ∉ hidden ∧ keep_edge e.id = true then
      hideKeepEndpoints keep_edge es (hidden ++ [e.src, e.tgt])
    else hideKeepEndpoints keep_edge es hidden

/-- The part of the graph that is not hidden. -/
def visiblePart (g : LGraph) (hidden : List Nat) : LGraph :=
  { g with
    nodes := g.nodes.filter (fun v => v ∉ hidden)
    edges := g.edges.filter (fun e => e.src ∉ hidden ∧ e.tgt ∉ hidden) }

/-- One step of the loop over the arcs leaving the node taken from the queue of
LEDA `TOPSORT`: the in-degree counter of the target drops, a target whose
counter reaches zero joins the queue. -/
def topsortRelax (es : List Edge) (st : (Nat → Nat) × List Nat) : (Nat → Nat) × List Nat :=
  es.foldl
    (fun st e =>
      let d := st.1 e.tgt - 1
      (fun v => if v = e.tgt then d else st.1 v, if d = 0 then st.2 ++ [e.tgt] else st.2))
    st

/-- The main loop of LEDA `TOPSORT`; the budget is the number of nodes. -/
def topsortLoop (g : LGraph) : Nat → List Nat → (Nat → Nat) → List Nat → List Nat
  | 0, _, _, sorted => sorted
  | _ + 1, [], _, sorted => sorted
  | fuel + 1, v :: queue, INDEG, sorted =>
    let st := topsortRelax (g.outEdges v) (INDEG, queue)
    topsortLoop g fuel st.2 st.1 (sorted ++ [v])

/-- LEDA `TOPSORT(G, L)`: returns whether `G` is acyclic and, in that case, the
nodes in a topological order.  The nodes without entering arc are queued in
node order. -/
def TOPSORT (g : LGraph) : Bool × List Nat :=
  let sorted := topsortLoop g g.nodes.length (g.nodes.filter (fun v => g.indeg v == 0))
    (fun v => g.indeg v) []
  (sorted.length == g.nodes.length, sorted)

/-- The last loop of `computeDegree2Chains`, which distributes the sorted nodes
over the chains. -/
def fillChains (g : LGraph) (comp_num : Nat → Int) :
    List Nat → List (List Nat) → Except String (List (List Nat))
  | [], chains => .ok chains
  | n :: ns, chains =>
    if ¬ (g.degree n = 2) then .error assertDegreeEq2
    else if comp_num n < 0 ∨ (chains.length : Int) ≤ comp_num n then .error outOfRange
    else fillChains g comp_num ns (chains.modify (fun chain => chain ++ [n]) (comp_num n).toNat)

/-- The function `computeDegree2Chains`.  Hidden nodes are kept in a list; after
`restore_all_nodes` and `restore_all_edges` the graph is as before. -/
def computeDegree2Chains (g : LGraph) (keep_edge : Nat → Bool) :
    Except String (List (List Nat)) :=
  match nodesToHide g g.nodes with
  | .error m => .error m
  | .ok nodes_to_hide =>
    let hidden := hideKeepEndpoints keep_edge g.edges nodes_to_hide
    let visible := visiblePart g hidden
    let sorted := TOPSORT visible
    if ¬ sorted.1 then .error graphHasCycle
    else
      let comps := COMPONENTS visible.nodes (endpoints visible.edges)
      fillChains g comps.1 sorted.2 (List.replicate comps.2 [])

namespace GraphBuilder

/-- The loop of `preprocessGraph` that removes a chain node by node. -/
def removeChain : List Nat → GraphBuilder × List Nat → Except String (GraphBuilder × List Nat)
  | [], st => .ok st
  | n :: ns, (b, redundant_nodes) =>
    if ¬ (b._g.indeg n = 1 ∧ b._g.outdeg n = 1) then .error assertInOut
    else
      match (b._g.inEdges n).head?, (b._g.outEdges n).head? with
      | some in_edge, some out_edge =>
        if b._arc_names in_edge.id ≠ b._arc_names out_edge.id then .error assertArcNames
        else
          let (g1, new_edge) := b._g.newEdge in_edge.src out_edge.tgt
          removeChain ns
            ({ b with
              _g := g1.delNode n
              _dist := fun i =>
                if i = new_edge.id then b._dist in_edge.id + b._dist out_edge.id else b._dist i
              _connection_arcs := fun i =>
                if i = new_edge.id then false else b._connection_arcs i
              _arc_names := fun i =>
                if i = new_edge.id then b._arc_names in_edge.id else b._arc_names i },
              redundant_nodes ++ [n])
      | _, _ => .error outOfRange

/-- The test of `preprocessGraph` in station mode: the nodes before and after
the chain both have in-degree greater than 1. -/
def chainIsKept (b : GraphBuilder) (list : List Nat) : Except String Bool :=
  match list.head?, list.getLast? with
  | some front, some back =>
    match (b._g.inEdges front).head?, (b._g.outEdges back).head? with
    | some in_edge, some out_edge =>
      .ok (decide (b._g.indeg in_edge.src > 1) && decide (b._g.indeg out_edge.tgt > 1))
    | _, _ => .error outOfRange
  | _, _ => .error outOfRange

/-- The loop of `preprocessGraph` over the chains. -/
def removeChains (type : ProblemType) :
    List (List Nat) → GraphBuilder × List Nat → Except String (GraphBuilder × List Nat)
  | [], st => .ok st
  | list :: rest, st =>
    match (if type = ProblemType.STATION then chainIsKept st.1 list else .ok false) with
    | .error m => .error m
    | .ok true => removeChains type rest st
    | .ok false =>
      match removeChain list st with
      | .error m => .error m
      | .ok st1 => removeChains type rest st1

/-- The last loop of `preprocessGraph`: the removed nodes leave their clusters,
a cluster that becomes empty is erased. -/
def cleanStations (redundant_nodes : List Nat) (station_nodes : StationNodes) : StationNodes :=
  (station_nodes.map (fun p => (p.1, p.2.filter (fun n => n ∉ redundant_nodes)))).filter
    (fun p => !p.2.isEmpty)

/-- The function `GraphBuilder::preprocessGraph`. -/
def preprocessGraph (b : GraphBuilder) (type : ProblemType) : Except String GraphBuilder :=
  match computeDegree2Chains b._g b._connection_arcs with
  | .error m => .error m
  | .ok chains =>
    match removeChains type chains (b, []) with
    | .error m => .error m
    | .ok (b1, redundant_nodes) =>
      .ok { b1 with _station_nodes := cleanStations redundant_nodes b1._station_nodes }

/-- The text of the exception of `checkConnectivity`. -/
def noConnection (first other : String) : String :=
  "No connection between stations " ++ first ++ " and " ++ other

/-- The function `GraphBuilder::checkConnectivity`. -/
def checkConnectivity (b : GraphBuilder) : Except String Unit :=
  let comps := COMPONENTS b._g.nodes (endpoints b._g.edges)
  if comps.2 > 1 then
    match b._g.nodes with
    | [] => .ok ()
    | first_node :: _ =>
      match b._g.nodes.find? (fun n => comps.1 n != comps.1 first_node) with
      | some n => .error (noConnection (b._node_names first_node) (b._node_names n))
      | none => .ok ()
  else .ok ()

/-- The builder before the constructor body runs: an empty graph and the
default values of the arc and node maps. -/
def init (stations : t_stationmap) (lines : t_linemap) (change_cost switch_cost : ℚ) :
    GraphBuilder :=
  { _stations := stations
    _lines := lines
    _nodes_removed := false
    _change_cost := change_cost
    _switch_cost := switch_cost
    _g := LGraph.emptyGraph
    _dist := fun _ => change_cost
    _station_nodes := []
    _connection_arcs := fun _ => true
    _arc_names := fun _ => CHANGE_NAME
    _node_names := fun _ => "" }

/-- The arcs added after the travel arcs, by build configuration. -/
def addSpecialArcs (b : GraphBuilder) (way_nodemap back_nodemap : NodeMap)
    (type : ProblemType) (preprocess : Bool) : Except String GraphBuilder :=
  match (if !preprocess then addAllSwitchingArcs way_nodemap back_nodemap b._lines b
      else if type = ProblemType.SEGMENT then
        addSwitchingArcsAtTerminals way_nodemap back_nodemap b._lines b
      else addStationProblemSwitchingArcs way_nodemap back_nodemap b._lines b) with
  | .error m => .error m
  | .ok b1 => addAllConnectionArcs way_nodemap back_nodemap b1._stations b1

/-- The constructor `GraphBuilder::GraphBuilder`.  The call `_g.make_map()` only
records which arcs are reversals of each other and is not modelled. -/
def new (stations : t_stationmap) (lines : t_linemap) (change_cost switch_cost : ℚ)
    (type : ProblemType) (preprocess : Bool) : Except String GraphBuilder :=
  match createNodesAndTravelArcs (init stations lines change_cost switch_cost)
      (fun _ _ => none) (fun _ _ => none) with
  | .error m => .error m
  | .ok (b1, way_nodemap, back_nodemap) =>
    match b1.addSpecialArcs way_nodemap back_nodemap type preprocess with
    | .error m => .error m
    | .ok b2 =>
      match (if preprocess then b2.preprocessGraph type else .ok b2) with
      | .error m => .error m
      | .ok b3 =>
        match b3.checkConnectivity with
        | .error m => .error m
        | .ok _ => .ok b3

end GraphBuilder


/-! ## A network of two lines

The line `U1` serves `A`, `B`, `C` and the line `U2` serves `B`, `C`. -/

/-- The stations of the network of two lines. -/
def twoLineStations : t_stationmap :=
  [("A", ⟨"A", "", ["U1"]⟩), ("B", ⟨"B", "", ["U1", "U2"]⟩), ("C", ⟨"C", "", ["U1", "U2"]⟩)]

/-- The lines of the network of two lines, with their cumulated travel times. -/
def twoLineLines : t_linemap :=
  [("U1", ⟨"U1", ["A", "B", "C"], [0, 4, 9]⟩), ("U2", ⟨"U2", ["B", "C"], [0, 3]⟩)]

/-- The builder of the network of two lines, without preprocessing. -/
def twoLineBuilder : GraphBuilder :=
  match GraphBuilder.new twoLineStations twoLineLines 5 5 .STATION false with
  | .ok b => b
  | .error _ => GraphBuilder.init twoLineStations twoLineLines 5 5

/-- The graph of the network of two lines: the nodes 0, 1, 2 are `A`, `B`, `C`
on `U1`, the nodes 3, 4 are `B`, `C` on `U2`, the nodes 5, 6, 7 are `C`, `B`, `A`
on `U1` backwards and the nodes 8, 9 are `C`, `B` on `U2` backwards; the arcs 0
to 5 are travel arcs, the others change direction or line. -/
def twoLineGraph : LGraph :=
  ⟨[0, 1, 2, 3, 4, 5, 6, 7, 8, 9],
    [⟨0, 0, 1⟩, ⟨1, 1, 2⟩, ⟨2, 3, 4⟩, ⟨3, 5, 6⟩, ⟨4, 6, 7⟩, ⟨5, 8, 9⟩, ⟨6, 0, 7⟩, ⟨7, 7, 0⟩,
      ⟨8, 1, 6⟩, ⟨9, 6, 1⟩, ⟨10, 2, 5⟩, ⟨11, 5, 2⟩, ⟨12, 3, 9⟩, ⟨13, 9, 3⟩, ⟨14, 4, 8⟩,
      ⟨15, 8, 4⟩, ⟨16, 1, 3⟩, ⟨17, 6, 3⟩, ⟨18, 9, 1⟩, ⟨19, 9, 6⟩, ⟨20, 2, 8⟩, ⟨21, 4, 5⟩],
    10, 22⟩

/-- The clusters of the network of two lines. -/
def twoLineClusters : StationNodes := [("A", [0, 7]), ("B", [1, 3, 6, 9]), ("C", [2, 4, 5, 8])]

/-- The station solver of the network of two lines. -/
def twoLineSolver : StationSolver :=
  match StationSolver.new (1 / 100000) twoLineGraph twoLineBuilder._dist twoLineClusters
      twoLineBuilder._connection_arcs with
  | .ok s => s
  | .error _ => ⟨⟨[], [], 0, 0⟩, 0, fun _ => -1, 0, ⟨[], [], [], []⟩, fun _ => -1⟩

/-- The round trip `A B C B A` on `U1` together with the round trip `B C B` on `U2`. -/
def twoRoundTrips : List Nat := [0, 1, 10, 3, 4, 7, 2, 14, 5, 13]

/-! ## Two clusters of three nodes

The nodes 0, 1, 2 form the cluster `U`, the nodes 3, 4, 5 the cluster `V`.  The
arcs are 3→0, 0→3, 1→2, 2→1, 4→5, 5→4, 0→1, 3→4 (in this order); the arc 3→0 is
the only arc that enters `U` from outside. -/

/-- The graph of the two clusters. -/
def clusterGraph : LGraph :=
  ⟨[0, 1, 2, 3, 4, 5],
    [⟨0, 3, 0⟩, ⟨1, 0, 3⟩, ⟨2, 1, 2⟩, ⟨3, 2, 1⟩, ⟨4, 4, 5⟩, ⟨5, 5, 4⟩, ⟨6, 0, 1⟩, ⟨7, 3, 4⟩], 6, 8⟩

/-- The two clusters. -/
def clusterStations : StationNodes := [("U", [0, 1, 2]), ("V", [3, 4, 5])]

/-- The station solver of the two clusters. -/
def clusterSolver : StationSolver :=
  match StationSolver.new (1 / 100000) clusterGraph (fun _ => 1) clusterStations
      (fun _ => false) with
  | .ok s => s
  | .error _ => ⟨⟨[], [], 0, 0⟩, 0, fun _ => -1, 0, ⟨[], [], [], []⟩, fun _ => -1⟩

/-- The three cycles 0→3→0, 1→2→1 and 4→5→4. -/
def threeCycles : List Nat := [0, 1, 2, 3, 4, 5]

/-! ## A network with lines that list a station twice

The line `L1` serves `A`, `B`; the line `L2` lists `A` twice, the line `L3` lists
`B` twice.  Every station is served by two lines. -/

/-- The stations of the network with repeated stops. -/
def loopStations : t_stationmap :=
  [("A", ⟨"A", "", ["L1", "L2"]⟩), ("B", ⟨"B", "", ["L1", "L3"]⟩)]

/-- The lines of the network with repeated stops. -/
def loopLines : t_linemap :=
  [("L1", ⟨"L1", ["A", "B"], [0, 4]⟩), ("L2", ⟨"L2", ["A", "A"], [0, 3]⟩),
    ("L3", ⟨"L3", ["B", "B"], [0, 3]⟩)]

/-- The builder of the network with repeated stops, without preprocessing. -/
def loopBuilder : GraphBuilder :=
  match GraphBuilder.new loopStations loopLines 5 5 .STATION false with
  | .ok b => b
  | .error _ => GraphBuilder.init loopStations loopLines 5 5

/-- The graph of the network with repeated stops. -/
def loopGraph : LGraph :=
  ⟨[0, 1, 2, 3, 4, 5, 6, 7, 8, 9, 10, 11],
    [⟨0, 0, 1⟩, ⟨1, 2, 3⟩, ⟨2, 4, 5⟩, ⟨3, 6, 7⟩, ⟨4, 8, 9⟩, ⟨5, 10, 11⟩, ⟨6, 0, 7⟩, ⟨7, 7, 0⟩,
      ⟨8, 1, 6⟩, ⟨9, 6, 1⟩, ⟨10, 3, 9⟩, ⟨11, 9, 3⟩, ⟨12, 3, 9⟩, ⟨13, 9, 3⟩, ⟨14, 5, 11⟩,
      ⟨15, 11, 5⟩, ⟨16, 5, 11⟩, ⟨17, 11, 5⟩, ⟨18, 3, 0⟩, ⟨19, 9, 0⟩, ⟨20, 5, 6⟩, ⟨21, 11, 6⟩],
    12, 22⟩

/-- The clusters of the network with repeated stops. -/
def loopClusters : StationNodes := [("A", [0, 2, 3, 7, 8, 9]), ("B", [1, 4, 5, 6, 10, 11])]

/-- The station solver of the network with repeated stops. -/
def loopSolver : StationSolver :=
  match StationSolver.new (1 / 100000) loopGraph loopBuilder._dist loopClusters
      loopBuilder._connection_arcs with
  | .ok s => s
  | .error _ => ⟨⟨[], [], 0, 0⟩, 0, fun _ => -1, 0, ⟨[], [], [], []⟩, fun _ => -1⟩

/-! ## Two lines through the same three stations

The line `L1` serves `A`, `B`, `C` and the line `L2` serves `B`, `A`, `C`; every
station is served by both lines. -/

/-- The stations of the two lines through three stations. -/
def sharedStations : t_stationmap :=
  [("A", ⟨"A", "", ["L1", "L2"]⟩), ("B", ⟨"B", "", ["L1", "L2"]⟩),
    ("C", ⟨"C", "", ["L1", "L2"]⟩)]

/-- The two lines through three stations, with their cumulated travel times. -/
def sharedLines : t_linemap :=
  [("L1", ⟨"L1", ["A", "B", "C"], [0, 4, 9]⟩), ("L2", ⟨"L2", ["B", "A", "C"], [0, 3, 7]⟩)]

/-- The builder of the two lines through three stations, for the station
problem with preprocessing. -/
def sharedBuilder : GraphBuilder :=
  match GraphBuilder.new sharedStations sharedLines 5 5 .STATION true with
  | .ok b => b
  | .error _ => GraphBuilder.init sharedStations sharedLines 5 5

/-- The builder and the node maps of the network of two lines after
`createNodesAndTravelArcs`. -/
def twoLineTravel : GraphBuilder × NodeMap × NodeMap :=
  match GraphBuilder.createNodesAndTravelArcs
      (GraphBuilder.init twoLineStations twoLineLines 5 5) (fun _ _ => none) (fun _ _ => none) with
  | .ok r => r
  | .error _ => (GraphBuilder.init twoLineStations twoLineLines 5 5, fun _ _ => none,
      fun _ _ => none)

/-! ## A line whose times decrease by more than `2 ^ 31`

The line `L` serves `A` at the time 3000000000 and `B` at the time 0. -/

/-- The stations of the line with decreasing times. -/
def wrapStations : t_stationmap := [("A", ⟨"A", "", ["L"]⟩), ("B", ⟨"B", "", ["L"]⟩)]

/-- The line with decreasing times. -/
def wrapLines : t_linemap := [("L", ⟨"L", ["A", "B"], [3000000000, 0]⟩)]

/-- The builder of the line with decreasing times, without preprocessing. -/
def wrapBuilder : GraphBuilder :=
  match GraphBuilder.new wrapStations wrapLines 5 5 .STATION false with
  | .ok b => b
  | .error _ => GraphBuilder.init wrapStations wrapLines 5 5

/-- The builder of the network of two lines after `addAllSwitchingArcs`, before
the transfer arcs are added. -/
def twoLineSwitched : GraphBuilder :=
  match GraphBuilder.addAllSwitchingArcs twoLineTravel.2.1 twoLineTravel.2.2 twoLineLines
      twoLineTravel.1 with
  | .ok b => b
  | .error _ => twoLineTravel.1

/-! ## A single line of four stations

The line `L` serves `A`, `B`, `C`, `D` at the times 0, 4, 9, 11. -/

/-- The stations of the single line. -/
def chainStations : t_stationmap :=
  [("A", ⟨"A", "", ["L"]⟩), ("B", ⟨"B", "", ["L"]⟩), ("C", ⟨"C", "", ["L"]⟩),
    ("D", ⟨"D", "", ["L"]⟩)]

/-- The single line. -/
def chainLines : t_linemap := [("L", ⟨"L", ["A", "B", "C", "D"], [0, 4, 9, 11]⟩)]

/-- The builder and the node maps of the single line after
`createNodesAndTravelArcs`. -/
def chainTravel : GraphBuilder × NodeMap × NodeMap :=
  match GraphBuilder.createNodesAndTravelArcs
      (GraphBuilder.init chainStations chainLines 5 5) (fun _ _ => none) (fun _ _ => none) with
  | .ok r => r
  | .error _ => (GraphBuilder.init chainStations chainLines 5 5, fun _ _ => none,
      fun _ _ => none)

/-- The builder of the single line after `addSpecialArcs` in segment mode with
preprocessing: the nodes 0 to 3 are `A`, `B`, `C`, `D` forwards, the nodes 4 to
7 are `D`, `C`, `B`, `A` backwards; the arcs 0 to 5 are travel arcs, the arc 6
leads from 7 to 0 and the arc 7 from 3 to 4. -/
def chainSpecial : GraphBuilder :=
  match chainTravel.1.addSpecialArcs chainTravel.2.1 chainTravel.2.2 .SEGMENT true with
  | .ok b => b
  | .error _ => chainTravel.1

/-- The builder of the network of two lines after `addSpecialArcs` in station
mode with preprocessing. -/
def twoLineRestricted : GraphBuilder :=
  match twoLineTravel.1.addSpecialArcs twoLineTravel.2.1 twoLineTravel.2.2 .STATION true with
  | .ok b => b
  | .error _ => twoLineTravel.1

/-! ## The tour of a solution (`CplexSolver::buildSolutionTour`) -/

/-- Text of the failed assertion `startNode` of `buildSolutionTour`. -/
def assertStartNode : String := "Assertion failed: startNode"

/-- Text of the exception of `buildSolutionTour` for an Euler tour that does not
use every selected arc. -/
def subTours : String := "Invalid solution: Solution contains sub tours"

/-- The function `CplexSolver::buildSolutionTour`.  The Euler graph has one node
per node of the problem graph, named by its position in the node list, and
`int_vals[getCplexId(e)]` parallel copies of every arc `e`; `edgeRef` is the list
of the arcs the copies stand for.  The start node is the source of the first arc
with a positive value. -/
def StationSolver.buildSolutionTour (s : StationSolver) (int_vals : Nat → Int) :
    Except String (List Edge) :=
  let edgeRef := s.g.edges.flatMap
    (fun e => List.replicate (int_vals (s.getCplexId e).toNat).toNat e)
  let eulerGraph : Graph :=
    ⟨s.g.nodes.length, edgeRef.map (fun e => (s.g.nodes.indexOf e.src, s.g.nodes.indexOf e.tgt))⟩
  match s.g.edges.find? (fun e => decide (int_vals (s.getCplexId e).toNat > 0)) with
  | none => .error assertStartNode
  | some e0 =>
    match getEulerTour eulerGraph (some (s.g.nodes.indexOf e0.src)) with
    | .error m => .error ("Invalid solution: " ++ m)
    | .ok eulerTour =>
      let selected_arcs := (s.g.edges.map (fun e => int_vals (s.getCplexId e).toNat)).sum
      if selected_arcs ≠ (eulerTour.length : Int) then .error subTours
      else
        eulerTour.foldr (fun i rest =>
          match edgeRef[i]?, rest with
          | some e, .ok tour => .ok (e :: tour)
          | none, .ok _ => .error outOfRange
          | _, .error m => .error m) (.ok [])

/-! ## Specification vocabulary for networks and built graphs -/

/-- The conditions the reader of a network establishes, and the condition that
no line lists a station twice: the lines have names of their own, none is the
reserved label of transfer arcs, every stop of a line is a station that lists
the line, and the lines of a station form a set. -/
structure ValidNetwork (stations : t_stationmap) (lines : t_linemap) : Prop where
  line_names : (lines.map (fun it => it.2.name)).Nodup
  reserved : ∀ it ∈ lines, it.2.name ≠ CHANGE_NAME
  stops_nodup : ∀ it ∈ lines, it.2.stations.Nodup
  stops_known : ∀ it ∈ lines, ∀ s ∈ it.2.stations,
    ∃ st ∈ stations, st.2.name = s ∧ it.2.name ∈ st.2.lines
  lines_set : ∀ st ∈ stations, st.2.lines.Nodup

instance (stations : t_stationmap) (lines : t_linemap) : Decidable (ValidNetwork stations lines) :=
  decidable_of_iff ((lines.map (fun it => it.2.name)).Nodup ∧
      (∀ it ∈ lines, it.2.name ≠ CHANGE_NAME) ∧ (∀ it ∈ lines, it.2.stations.Nodup) ∧
      (∀ it ∈ lines, ∀ s ∈ it.2.stations,
        ∃ st ∈ stations, st.2.name = s ∧ it.2.name ∈ st.2.lines) ∧
      (∀ st ∈ stations, st.2.lines.Nodup))
    ⟨fun h => ⟨h.1, h.2.1, h.2.2.1, h.2.2.2.1, h.2.2.2.2⟩,
      fun h => ⟨h.1, h.2, h.3, h.4, h.5⟩⟩

namespace GraphBuilder

/-- A travel arc enters the node. -/
def HasIn (b : GraphBuilder) (n : Nat) : Prop :=
  ∃ e ∈ b._g.edges, e.tgt = n ∧ b._connection_arcs e.id = false

/-- A travel arc leaves the node. -/
def HasOut (b : GraphBuilder) (n : Nat) : Prop :=
  ∃ e ∈ b._g.edges, e.src = n ∧ b._connection_arcs e.id = false

/-- A travel arc of the line `l` enters the node. -/
def HasInOf (b : GraphBuilder) (l : String) (n : Nat) : Prop :=
  ∃ e ∈ b._g.edges, e.tgt = n ∧ b._connection_arcs e.id = false ∧ b._arc_names e.id = l

/-- The facts about the graph under construction that every step keeps: the
nodes and arcs are numbered below the counters, arcs not yet created have the
reserved name, a travel arc has the name of a line and joins two stations, any
other arc has the reserved name and stays inside a station, and the cluster of
a station holds exactly the nodes named after it. -/
structure Base (b : GraphBuilder) : Prop where
  node_lt : ∀ n, n ∈ b._g.nodes ↔ n < b._g.nextNode
  edge_lt : ∀ e ∈ b._g.edges,
    e.id < b._g.nextEdge ∧ e.src < b._g.nextNode ∧ e.tgt < b._g.nextNode
  unset : ∀ i, b._g.nextEdge ≤ i → b._arc_names i = CHANGE_NAME
  arcs : ∀ e ∈ b._g.edges,
    (b._connection_arcs e.id = false ∧ b._arc_names e.id ≠ CHANGE_NAME ∧
      b._node_names e.src ≠ b._node_names e.tgt) ∨
    (b._connection_arcs e.id = true ∧ b._arc_names e.id = CHANGE_NAME ∧
      b._node_names e.src = b._node_names e.tgt)
  sorted : (b._station_nodes.map Prod.fst).Pairwise (fun a c => a < c)
  clusters : ∀ p ∈ b._station_nodes, p.2.Nodup ∧ p.2 ≠ [] ∧
    ∀ n, n ∈ p.2 ↔ (n < b._g.nextNode ∧ b._node_names n = p.1)
  covered : ∀ n, n < b._g.nextNode → ∃ p ∈ b._station_nodes, p.1 = b._node_names n

/-- The builder `b'` arises from `b` by adding nodes and arcs. -/
structure Ext (b b' : GraphBuilder) : Prop where
  nextNode_le : b._g.nextNode ≤ b'._g.nextNode
  nextEdge_le : b._g.nextEdge ≤ b'._g.nextEdge
  edges : ∀ e ∈ b._g.edges, e ∈ b'._g.edges
  conn : ∀ i, i < b._g.nextEdge → b'._connection_arcs i = b._connection_arcs i
  names : ∀ i, i < b._g.nextEdge → b'._arc_names i = b._arc_names i
  node_names : ∀ n, n < b._g.nextNode → b'._node_names n = b._node_names n
  stations : b'._stations = b._stations
  lines : b'._lines = b._lines

/-- The builder `b'` arises from `b` by adding arcs only. -/
structure SameNodes (b b' : GraphBuilder) : Prop where
  nextNode : b'._g.nextNode = b._g.nextNode
  node_names : b'._node_names = b._node_names
  station_nodes : b'._station_nodes = b._station_nodes

end GraphBuilder

/-- What a loop over the stops `rest` of the line `lineName` achieves, from the
builder `b` and the node map `m` to the builder `b'` and the node map `m'`: one
new node per stop, registered in the node map under the line and the stop; a
travel arc of the line enters the node of every stop but the first (of the
first too when there is a previous node), a travel arc leaves the node of every
stop but the last, and the previous node. -/
def LinePost (lineName : String) (rest : List String) (lastNode : Option Nat)
    (b : GraphBuilder) (m : NodeMap) (b' : GraphBuilder) (m' : NodeMap) : Prop :=
  b'.Base ∧ b.Ext b' ∧ b'._g.nextNode = b._g.nextNode + rest.length ∧
  (∀ pre S post, rest = pre ++ S :: post →
    ∃ w, m' lineName S = some w ∧ b._g.nextNode ≤ w ∧ w < b'._g.nextNode ∧
      b'._node_names w = S ∧
      ((pre ≠ [] ∨ lastNode ≠ none) → b'.HasInOf lineName w) ∧
      (post ≠ [] → b'.HasOut w)) ∧
  (∀ l S, (l ≠ lineName ∨ S ∉ rest) → m' l S = m l S) ∧
  (∀ n, b._g.nextNode ≤ n → n < b'._g.nextNode → ∃ S ∈ rest, m' lineName S = some n) ∧
  (∀ l, lastNode = some l → rest ≠ [] → b'.HasOut l)

/-- What a loop over the lines `ls` achieves, each line visiting the stops
`stops line`: the statement of `LinePost` for every line. -/
def LinesPost (stops : Line → List String) (ls : t_linemap) (b : GraphBuilder) (m : NodeMap)
    (b' : GraphBuilder) (m' : NodeMap) : Prop :=
  b'.Base ∧ b.Ext b' ∧
  (∀ it ∈ ls, ∀ pre S post, stops it.2 = pre ++ S :: post →
    ∃ w, m' it.2.name S = some w ∧ b._g.nextNode ≤ w ∧ w < b'._g.nextNode ∧
      b'._node_names w = S ∧
      (pre ≠ [] → b'.HasInOf it.2.name w) ∧ (post ≠ [] → b'.HasOut w)) ∧
  (∀ l S, (∀ it ∈ ls, it.2.name = l → S ∉ stops it.2) → m' l S = m l S) ∧
  (∀ n, b._g.nextNode ≤ n → n < b'._g.nextNode →
    ∃ it ∈ ls, ∃ S ∈ stops it.2, m' it.2.name S = some n)

namespace GraphBuilder

/-- A transfer arc leads from `u` to `v`. -/
def Linked (b : GraphBuilder) (u v : Nat) : Prop :=
  ∃ e ∈ b._g.edges, e.src = u ∧ e.tgt = v ∧ b._connection_arcs e.id = true

/-- The call of `addConnectionEdge` for the pair of nodes has been made between
`b` and `b'`: both nodes exist, and the transfer arc is there when a travel arc
enters the first node and a travel arc leaves the second. -/
def PairDone (b b' : GraphBuilder) (pr : Option Nat × Option Nat) : Prop :=
  ∃ u v, pr.1 = some u ∧ pr.2 = some v ∧ (b.HasIn u → b.HasOut v → b'.Linked u v)

/-- The node maps name nodes of the graph, each named after its station. -/
def MapsOk (b : GraphBuilder) (way back : NodeMap) : Prop :=
  ∀ l S n, (way l S = some n ∨ back l S = some n) → n < b._g.nextNode ∧ b._node_names n = S

/-- The state after `createNodesAndTravelArcs`: the two nodes of every stop of
every line are registered in the node maps and carry the travel arcs of the
line, and every node is registered. -/
structure Travel (lines : t_linemap) (b : GraphBuilder) (way back : NodeMap) : Prop where
  pair : ∀ it ∈ lines, ∀ S ∈ it.2.stations, ∃ w k,
    way it.2.name S = some w ∧ back it.2.name S = some k ∧
    (2 ≤ it.2.stations.length →
      (b.HasInOf it.2.name w ∨ b.HasInOf it.2.name k) ∧ (b.HasOut w ∨ b.HasOut k) ∧
      (b.HasIn w ∨ b.HasOut w) ∧ (b.HasIn k ∨ b.HasOut k))
  maps : b.MapsOk way back
  known : ∀ l S n, (way l S = some n ∨ back l S = some n) →
    ∃ it ∈ lines, it.2.name = l ∧ S ∈ it.2.stations
  reg : ∀ n, n < b._g.nextNode →
    ∃ it ∈ lines, ∃ S ∈ it.2.stations, way it.2.name S = some n ∨ back it.2.name S = some n

end GraphBuilder

namespace GraphBuilder

/-- The builder `b'` arises from `b` by adding transfer arcs, and keeps the invariants. -/
structure Grown (way back : NodeMap) (b b' : GraphBuilder) : Prop where
  base : b'.Base
  maps : b'.MapsOk way back
  ext : b.Ext b'
  same : b.SameNodes b'

end GraphBuilder

/-- The pairs handed to `addConnectionEdge` name nodes of one station. -/
def FromMaps (way back : NodeMap) (S : String) (pr : Option Nat × Option Nat) : Prop :=
  (∃ l, pr.1 = way l S ∨ pr.1 = back l S) ∧ (∃ l, pr.2 = way l S ∨ pr.2 = back l S)


/-- No node can be contracted: a node with one entering and one leaving arc has
arcs of different names. -/
def GraphBuilder.NoChain (b : GraphBuilder) : Prop :=
  ∀ n, b._g.indeg n = 1 → b._g.outdeg n = 1 →
    ∀ ein ∈ b._g.inEdges n, ∀ eout ∈ b._g.outEdges n, b._arc_names ein.id ≠ b._arc_names eout.id

/-! ## Specification vocabulary for the arcs the builder adds -/

namespace GraphBuilder

/-- The builder after the statements `e = _g.new_edge(s, t); _dist[e] = cost;
_connection_arcs[e] = true`. -/
def addArc (b : GraphBuilder) (cost : ℚ) (s t : Nat) : GraphBuilder :=
  { b with
    _g := (b._g.newEdge s t).1
    _dist := fun i => if i = b._g.nextEdge then cost else b._dist i
    _connection_arcs := fun i => if i = b._g.nextEdge then true else b._connection_arcs i }

/-- The builder after a sequence of arcs `(s, t)` has been added with `addArc`. -/
def addArcs (b : GraphBuilder) (cost : ℚ) (arcs : List (Nat × Nat)) : GraphBuilder :=
  arcs.foldl (fun b p => b.addArc cost p.1 p.2) b

/-- A sequence of calls of `addSwitchArc`, one for each pair of end nodes. -/
def runSwitches : List (Option Nat × Option Nat) → GraphBuilder → Except String GraphBuilder
  | [], b => .ok b
  | (s, t) :: rest, b =>
    match b.addSwitchArc s t with
    | .error m => .error m
    | .ok b1 => runSwitches rest b1

/-- The arcs numbered from `e0` that join the given pairs of end nodes, in order. -/
def arcsFrom (e0 : Nat) (arcs : List (Nat × Nat)) : List Edge :=
  (arcs.enumFrom e0).map (fun p => ⟨p.1, p.2.1, p.2.2⟩)

/-- The guard of `addConnectionEdge`: an arc that is not flagged as connection
arc enters `s`, and one leaves `t`. -/
def transferGuard (b : GraphBuilder) (p : Nat × Nat) : Bool :=
  (b._g.inEdges p.1).any (fun e => !b._connection_arcs e.id) &&
    (b._g.outEdges p.2).any (fun e => !b._connection_arcs e.id)

/-- The arcs of the graph are numbered below the counter of the graph. -/
def FreshIds (b : GraphBuilder) : Prop := ∀ e ∈ b._g.edges, e.id < b._g.nextEdge

end GraphBuilder

/-- The pair of end nodes as `addSwitchArc` and `addConnectionEdge` receive it. -/
def somePair (p : Nat × Nat) : Option Nat × Option Nat := (some p.1, some p.2)

/-! ### The switch arcs of the three switching rules, as lists of calls -/

/-- Full switching at one stop: forward node to reverse node, and back. -/
def fullSwitches (way_nodemap back_nodemap : NodeMap) (lineName station : String) :
    List (Option Nat × Option Nat) :=
  [(way_nodemap lineName station, back_nodemap lineName station),
   (back_nodemap lineName station, way_nodemap lineName station)]

/-- Full switching at every stop of every line. -/
def allSwitchingPlan (way_nodemap back_nodemap : NodeMap) (lines : t_linemap) :
    List (Option Nat × Option Nat) :=
  lines.flatMap (fun it => it.2.stations.flatMap (fullSwitches way_nodemap back_nodemap it.2.name))

/-- The switch arc of a terminal stop: reverse node to forward node at the first
stop, forward node to reverse node at another one. -/
def terminalSwitch (way_nodemap back_nodemap : NodeMap) (lineName : String) (i : Nat)
    (station : String) : Option Nat × Option Nat :=
  if i = 0 then (back_nodemap lineName station, way_nodemap lineName station)
  else (way_nodemap lineName station, back_nodemap lineName station)

/-- Switching at the terminal stops of one line. -/
def terminalPlanLine (way_nodemap back_nodemap : NodeMap) (lineName : String)
    (lineStations : List String) : List (Nat × String) → List (Option Nat × Option Nat)
  | [] => []
  | (i, station) :: rest =>
    (if isTerminalStation i lineStations then
      [terminalSwitch way_nodemap back_nodemap lineName i station] else []) ++
      terminalPlanLine way_nodemap back_nodemap lineName lineStations rest

/-- Switching at the terminal stops of every line. -/
def terminalPlan (way_nodemap back_nodemap : NodeMap) (lines : t_linemap) :
    List (Option Nat × Option Nat) :=
  lines.flatMap (fun it =>
    terminalPlanLine way_nodemap back_nodemap it.2.name it.2.stations it.2.stations.enum)

/-- A station of the station map that serves more than one line. -/
def servesSeveralLines (stationMap : t_stationmap) (name : String) : Bool :=
  match findStation stationMap name with
  | some station => decide (station.lines.length > 1)
  | none => false

/-- The restricted switching rule at the stop with index `i` of a line, in the
words of the specification: nothing at a station that serves several lines; at a
terminal stop the single arc of `terminalSwitch`; at another stop, provided a
station serving several lines exists both earlier and later on the line, the arc
from the forward to the reverse node if the next stop serves several lines, and
the arc from the reverse to the forward node if the previous stop does. -/
def restrictedSwitchesAt (stationMap : t_stationmap) (way_nodemap back_nodemap : NodeMap)
    (lineName : String) (lineStations : List String) (i : Nat) (station : String) :
    List (Option Nat × Option Nat) :=
  if servesSeveralLines stationMap station then []
  else if isTerminalStation i lineStations then
    [terminalSwitch way_nodemap back_nodemap lineName i station]
  else if (lineStations.take i).any (servesSeveralLines stationMap) &&
      (lineStations.drop (i + 1)).any (servesSeveralLines stationMap) then
    (if servesSeveralLines stationMap (lineStations.getD (i + 1) "") then
      [(way_nodemap lineName station, back_nodemap lineName station)] else []) ++
    (if servesSeveralLines stationMap (lineStations.getD (i - 1) "") then
      [(back_nodemap lineName station, way_nodemap lineName station)] else [])
  else []

/-- The restricted switching rule along one line. -/
def restrictedPlanLine (stationMap : t_stationmap) (way_nodemap back_nodemap : NodeMap)
    (lineName : String) (lineStations : List String) :
    List (Nat × String) → List (Option Nat × Option Nat)
  | [] => []
  | (i, station) :: rest =>
    restrictedSwitchesAt stationMap way_nodemap back_nodemap lineName lineStations i station ++
      restrictedPlanLine stationMap way_nodemap back_nodemap lineName lineStations rest

/-- The restricted switching rule along every line. -/
def restrictedPlan (stationMap : t_stationmap) (way_nodemap back_nodemap : NodeMap)
    (lines : t_linemap) : List (Option Nat × Option Nat) :=
  lines.flatMap (fun it =>
    restrictedPlanLine stationMap way_nodemap back_nodemap it.2.name it.2.stations
      it.2.stations.enum)

/-! ### The calls of `addConnectionEdge`, as a list -/

/-- The pairs `(line_it, line_it2)` of `addAllConnectionArcs` at one station:
every line of the station with every later one. -/
def laterPairs : List String → List (String × String)
  | [] => []
  | line :: rest => rest.map (fun line2 => (line, line2)) ++ laterPairs rest

/-- All calls of `addConnectionEdge` made by `addAllConnectionArcs`, in order. -/
def transferPlan (way_nodemap back_nodemap : NodeMap) (stations : t_stationmap) :
    List (Option Nat × Option Nat) :=
  stations.flatMap (fun it =>
    (laterPairs it.2.lines).flatMap (fun p =>
      GraphBuilder.connectionPairs way_nodemap back_nodemap it.2.name p.1 p.2))

/-! ## Specification vocabulary for the nodes and travel arcs -/

/-- An arc with its attributes: number, end nodes, cost (`_dist`), label
(`_arc_names`) and connection flag (`_connection_arcs`). -/
structure ArcRecord where
  id : Nat
  src : Nat
  tgt : Nat
  cost : ℚ
  label : String
  connection : Bool
deriving DecidableEq

namespace GraphBuilder

/-- The arcs of the graph with their attributes, in the order of the graph. -/
def arcRecords (b : GraphBuilder) : List ArcRecord :=
  b._g.edges.map (fun e =>
    ⟨e.id, e.src, e.tgt, b._dist e.id, b._arc_names e.id, b._connection_arcs e.id⟩)

/-- The builder after the statements that create a travel arc, when the
assertion on the travel time holds. -/
def addTravel (b : GraphBuilder) (lineName : String) (travel_time : Int) (last current : Nat) :
    GraphBuilder :=
  { b with
    _g := (b._g.newEdge last current).1
    _arc_names := fun i => if i = b._g.nextEdge then lineName else b._arc_names i
    _connection_arcs := fun i => if i = b._g.nextEdge then false else b._connection_arcs i
    _dist := fun i => if i = b._g.nextEdge then (travel_time : ℚ) else b._dist i }

/-- The common shape of the two inner loops of `createNodesAndTravelArcs`: the
list holds the stops in the order of the visit, each with the travel time of
the arc that enters its node. -/
def lineLoop (lineName : String) :
    List (String × Int) → Option Nat → GraphBuilder × NodeMap →
      Except String (GraphBuilder × NodeMap)
  | [], _, st => .ok st
  | (station, travel_time) :: rest, lastNode, (b, nodemap) =>
    match lastNode with
    | none =>
      lineLoop lineName rest (some b._g.nextNode)
        ((b.addStationNode station).1, nodemap.set lineName station b._g.nextNode)
    | some last =>
      if ¬ (travel_time > 0) then .error assertTravelTime
      else
        lineLoop lineName rest (some b._g.nextNode)
          (((b.addStationNode station).1.addTravel lineName travel_time last b._g.nextNode),
            nodemap.set lineName station b._g.nextNode)

/-- The nodes of the graph are numbered below the counter, and so are the arcs. -/
def Fresh (b : GraphBuilder) : Prop :=
  (∀ n, n ∈ b._g.nodes ↔ n < b._g.nextNode) ∧ ∀ e ∈ b._g.edges, e.id < b._g.nextEdge

/-- Every arc of the graph joins two nodes of the graph. -/
def Closed (b : GraphBuilder) : Prop :=
  ∀ e ∈ b._g.edges, e.src ∈ b._g.nodes ∧ e.tgt ∈ b._g.nodes

/-- The node map names nodes of the graph. -/
def MapIn (b : GraphBuilder) (nodemap : NodeMap) : Prop :=
  ∀ l s n, nodemap l s = some n → n ∈ b._g.nodes

/-- The builder without its arcs and their attributes. -/
def noArcs (b : GraphBuilder) : GraphBuilder :=
  { b with
    _g := { b._g with edges := [], nextEdge := 0 }
    _dist := fun _ => 0
    _connection_arcs := fun _ => true
    _arc_names := fun _ => CHANGE_NAME }

/-- The facts every step of the construction keeps, whatever the network: the
numbering of nodes and arcs, arcs between nodes of the graph, and clusters that
hold exactly the nodes named after their station. -/
def Sound (b : GraphBuilder) : Prop := b.Fresh ∧ b.Closed ∧ b.noArcs.Base

end GraphBuilder

/-- The stops of the first inner loop of `createNodesAndTravelArcs` from the
index `station_index` on, with the travel times the loop computes. -/
def waySteps (times : List Nat) : List String → Nat → List (String × Int)
  | [], _ => []
  | station :: rest, station_index =>
    (station, toInt32 (times.getD station_index 0) (times.getD (station_index - 1) 0)) ::
      waySteps times rest (station_index + 1)

/-- The stops of the second inner loop of `createNodesAndTravelArcs` from the
index `station_index` down, with the travel times the loop computes. -/
def backSteps (times : List Nat) : List String → Int → List (String × Int)
  | [], _ => []
  | station :: rest, station_index =>
    (station, toInt32 (times.getD (station_index + 1).toNat 0)
        (times.getD station_index.toNat 0)) ::
      backSteps times rest (station_index - 1)

/-- The travel arcs of one visit of a line, by the recursion of the loop: nodes
are numbered from `n0`, arcs from `e0`. -/
def lineArcs (lineName : String) : List (String × Int) → Option Nat → Nat → Nat → List ArcRecord
  | [], _, _, _ => []
  | _ :: rest, none, n0, e0 => lineArcs lineName rest (some n0) (n0 + 1) e0
  | (_, travel_time) :: rest, some last, n0, e0 =>
    ⟨e0, last, n0, (travel_time : ℚ), lineName, false⟩ ::
      lineArcs lineName rest (some n0) (n0 + 1) (e0 + 1)

/-- The travel times a visit of a line needs to be positive: all but the first
when there is no previous node. -/
def neededTimes : List (String × Int) → Option Nat → List Int
  | [], _ => []
  | _ :: rest, none => rest.map Prod.snd
  | steps, some _ => steps.map Prod.snd

/-- The delta between the cumulative times of the stops `i - 1` and `i`, as the
code computes it. -/
def Line.delta (line : Line) (i : Nat) : Int :=
  toInt32 (line.times.getD i 0) (line.times.getD (i - 1) 0)

/-- The forward travel arcs of a line in the words of the specification: for
each `i` from 1 to `n - 1` an arc from the forward node of stop `i - 1` to the
forward node of stop `i`, with the delta of the times as cost.  The forward
node of stop `i` is `n0 + i`, the arcs are numbered from `e0`. -/
def forwardArcs (line : Line) (n0 e0 : Nat) : List ArcRecord :=
  (List.range (line.stations.length - 1)).map (fun k =>
    ⟨e0 + k, n0 + k, n0 + (k + 1), (line.delta (k + 1) : ℚ), line.name, false⟩)

/-- The reverse travel arcs of a line in the words of the specification: for
each `i` from `n - 1` down to 1 an arc from the reverse node of stop `i` to the
reverse node of stop `i - 1`, with the delta of the times as cost.  The reverse
node of stop `i` is `n0 + (n - 1 - i)`, the arcs are numbered from `e0`. -/
def reverseArcs (line : Line) (n0 e0 : Nat) : List ArcRecord :=
  (List.range (line.stations.length - 1)).map (fun r =>
    ⟨e0 + r, n0 + r, n0 + (r + 1), (line.delta (line.stations.length - 1 - r) : ℚ),
      line.name, false⟩)

/-- The travel arcs of one direction of all lines: the nodes of the lines follow
each other from `n0` on, the arcs from `e0` on. -/
def allLineArcs (arcsOf : Line → Nat → Nat → List ArcRecord) : t_linemap → Nat → Nat →
    List ArcRecord
  | [], _, _ => []
  | it :: rest, n0, e0 =>
    arcsOf it.2 n0 e0 ++
      allLineArcs arcsOf rest (n0 + it.2.stations.length) (e0 + (it.2.stations.length - 1))

/-- The number of stops of all lines. -/
def totalStops (lines : t_linemap) : Nat := (lines.map (fun it => it.2.stations.length)).sum

/-- The number of travel arcs of one direction of all lines. -/
def totalSegments (lines : t_linemap) : Nat :=
  (lines.map (fun it => it.2.stations.length - 1)).sum

/-- The travel arcs of a network in the words of the specification: the forward
arcs of all lines, then the reverse arcs of all lines. -/
def travelArcs (lines : t_linemap) : List ArcRecord :=
  allLineArcs forwardArcs lines 0 0 ++
    allLineArcs reverseArcs lines (totalStops lines) (totalSegments lines)

/-- All deltas of the cumulative times of a line are positive. -/
def Line.DeltasPositive (line : Line) : Prop :=
  ∀ i, 1 ≤ i → i < line.stations.length → 0 < line.delta i

instance (line : Line) : Decidable line.DeltasPositive :=
  decidable_of_iff (∀ i ∈ List.range line.stations.length, 1 ≤ i → 0 < line.delta i)
    ⟨fun h i h1 h2 => h i (List.mem_range.2 h2) h1,
      fun h i hi h1 => h i h1 (List.mem_range.1 hi)⟩

/-- The value is an entry of one of the two node maps. -/
def InMaps (way_nodemap back_nodemap : NodeMap) (o : Option Nat) : Prop :=
  ∃ l s, o = way_nodemap l s ∨ o = back_nodemap l s

/-- The switching plan of a build configuration. -/
def switchingPlan (stationMap : t_stationmap) (way_nodemap back_nodemap : NodeMap)
    (lines : t_linemap) (type : ProblemType) (preprocess : Bool) :
    List (Option Nat × Option Nat) :=
  if !preprocess then allSwitchingPlan way_nodemap back_nodemap lines
  else if type = ProblemType.SEGMENT then terminalPlan way_nodemap back_nodemap lines
  else restrictedPlan stationMap way_nodemap back_nodemap lines

namespace GraphBuilder

/-- The body of the constructor before the call of `checkConnectivity`. -/
def finalGraph (stations : t_stationmap) (lines : t_linemap) (change_cost switch_cost : ℚ)
    (type : ProblemType) (preprocess : Bool) : Except String GraphBuilder :=
  match createNodesAndTravelArcs (init stations lines change_cost switch_cost)
      (fun _ _ => none) (fun _ _ => none) with
  | .error m => .error m
  | .ok (b1, way_nodemap, back_nodemap) =>
    match b1.addSpecialArcs way_nodemap back_nodemap type preprocess with
    | .error m => .error m
    | .ok b2 => if preprocess then b2.preprocessGraph type else .ok b2

end GraphBuilder

namespace GraphBuilder

/-- The builder after one round of the loop of `preprocessGraph` that removes
the node `n` with the entering arc `in_edge` and the leaving arc `out_edge`. -/
def contractNode (b : GraphBuilder) (n : Nat) (in_edge out_edge : Edge) : GraphBuilder :=
  { b with
    _g := (b._g.newEdge in_edge.src out_edge.tgt).1.delNode n
    _dist := fun i =>
      if i = b._g.nextEdge then b._dist in_edge.id + b._dist out_edge.id else b._dist i
    _connection_arcs := fun i => if i = b._g.nextEdge then false else b._connection_arcs i
    _arc_names := fun i =>
      if i = b._g.nextEdge then b._arc_names in_edge.id else b._arc_names i }

/-- A chain in the graph: the arc `ein` enters the first node of `vs`; every
node of `vs` has exactly one entering and exactly one leaving arc; the leaving
arcs are `outs` in order, each leads to the next node of `vs` and the last one
to `q`; consecutive arcs carry the same label. -/
def ChainFrom (b : GraphBuilder) : Edge → List Nat → List Edge → Nat → Prop
  | ein, [], [], q => ein.tgt = q
  | ein, v :: vs, eout :: outs, q =>
    b._g.inEdges v = [ein] ∧ b._g.outEdges v = [eout] ∧
      b._arc_names ein.id = b._arc_names eout.id ∧ ChainFrom b eout vs outs q
  | _, _, _, _ => False

end GraphBuilder

namespace GraphBuilder

/-- The builder `b'` is `b` with the chain `vs` contracted: the nodes of the
chain and their arcs are gone, one new arc leads from the source of `ein` to
`q`, with the summed cost of the arcs of the chain, the label of `ein` and no
connection flag; the attributes of the other arcs are as before. -/
structure Contracted (b : GraphBuilder) (ein : Edge) (vs : List Nat) (outs : List Edge)
    (q : Nat) (b' : GraphBuilder) : Prop where
  nodes : b'._g.nodes = b._g.nodes.filter (fun n => n ∉ vs)
  edges : b'._g.edges =
    b._g.edges.filter (fun e => e.src ∉ vs ∧ e.tgt ∉ vs) ++
      [Edge.mk (b._g.nextEdge + (vs.length - 1)) ein.src q]
  nextEdge : b'._g.nextEdge = b._g.nextEdge + vs.length
  nextNode : b'._g.nextNode = b._g.nextNode
  dist : b'._dist (b._g.nextEdge + (vs.length - 1)) =
    b._dist ein.id + (outs.map (fun e => b._dist e.id)).sum
  label : b'._arc_names (b._g.nextEdge + (vs.length - 1)) = b._arc_names ein.id
  flag : b'._connection_arcs (b._g.nextEdge + (vs.length - 1)) = false
  old : ∀ i, i < b._g.nextEdge → b'._dist i = b._dist i ∧ b'._arc_names i = b._arc_names i ∧
    b'._connection_arcs i = b._connection_arcs i
  names : b'._node_names = b._node_names
  clusters : b'._station_nodes = b._station_nodes

end GraphBuilder

/-- The number of connected components of the undirected view of the graph, as
`checkConnectivity` computes it. -/
def GraphBuilder.componentCount (b : GraphBuilder) : Nat :=
  (COMPONENTS b._g.nodes (endpoints b._g.edges)).2

/-- Every entry of the node map is a node with a number from `lo` up to `hi`
(excluded) that carries the name of the station of the entry, and no node is
the entry of two lines. -/
def GraphBuilder.Named (b : GraphBuilder) (lo hi : Nat) (nodemap : NodeMap) : Prop :=
  ∀ l s n, nodemap l s = some n →
    lo ≤ n ∧ n < hi ∧ b._node_names n = s ∧ ∀ l' s', nodemap l' s' = some n → l' = l

/-- The arc of a record. -/
def ArcRecord.toEdge (r : ArcRecord) : Edge := ⟨r.id, r.src, r.tgt⟩

instance (b : GraphBuilder) (n : Nat) : Decidable (b.HasIn n) := by
  unfold GraphBuilder.HasIn
  infer_instance

instance (b : GraphBuilder) (n : Nat) : Decidable (b.HasOut n) := by
  unfold GraphBuilder.HasOut
  infer_instance

/-- Terminal switching at one line, in the words of the specification: an arc
from the reverse node to the forward node at the first stop and, when the line
has at least two stops, an arc from the forward node to the reverse node at the
last stop. -/
def terminalSwitchesOf (way_nodemap back_nodemap : NodeMap) (line : Line) :
    List (Option Nat × Option Nat) :=
  match line.stations.head?, line.stations.getLast? with
  | some first, some last =>
    if 2 ≤ line.stations.length then
      [(back_nodemap line.name first, way_nodemap line.name first),
        (way_nodemap line.name last, back_nodemap line.name last)]
    else [(back_nodemap line.name first, way_nodemap line.name first)]
  | _, _ => []

/-- The arc joins the forward and the reverse node of the line at the station,
in one of the two directions. -/
def JoinsPair (way_nodemap back_nodemap : NodeMap) (l s : String) (e : Edge) : Prop :=
  (way_nodemap l s = some e.src ∧ back_nodemap l s = some e.tgt) ∨
    (back_nodemap l s = some e.src ∧ way_nodemap l s = some e.tgt)
/-! ## Specification vocabulary for Euler tours of arbitrary multigraphs -/

/-- The node `v` can be reached from the node `s` along arcs, in their direction. -/
def Graph.Reach (g : Graph) (s v : Nat) : Prop :=
  Relation.ReflTransGen (fun a b => (a, b) ∈ g.edges) s v

/-- What a normal return of `eulerRec current start` guarantees in any
multigraph: the arcs added form a walk from `current` to `start`, they are
distinct and were unvisited, and every arc that leaves a node of the walk is
visited. -/
structure EulerPart (g : Graph) (c s : Nat) (vis0 : Nat → Bool) (w : List Nat)
    (vis1 : Nat → Bool) : Prop where
  walk : IsWalk g w c s
  fresh : Fresh vis0 w vis1
  sat : ∀ e ∈ w, AllOut g vis1 (g.source e)
  outC : AllOut g vis1 c

/-- The recursive call either throws `The Graph is not Eulerian` or returns
normally with the guarantee `EulerPart`, for states with fewer than `fuel`
unvisited arcs. -/
def GenSpec (g : Graph) (rec : Nat → Nat → EulerState → Except String EulerState)
    (fuel : Nat) : Prop :=
  ∀ c s st, unvisCount g st.visited < fuel →
    rec c s st = .error notEulerian ∨
      ∃ w vis1, rec c s st = .ok ⟨st.cycle ++ w, vis1⟩ ∧ EulerPart g c s st.visited w vis1

/-- Two visited maps agree on the arcs that leave a node of the region `R`. -/
def AgreeOn (g : Graph) (R : Nat → Prop) (v v' : Nat → Bool) : Prop :=
  ∀ e, e < g.edges.length → R (g.source e) → v e = v' e

/-- Two states of `eulerRec` hold the same cycle and visited maps that agree on
the arcs leaving the region. -/
def SimState (g : Graph) (R : Nat → Prop) (a b : EulerState) : Prop :=
  a.cycle = b.cycle ∧ AgreeOn g R a.visited b.visited

/-- Two results of `eulerRec` are the same error or similar states. -/
def SimRes (g : Graph) (R : Nat → Prop) :
    Except String EulerState → Except String EulerState → Prop
  | .ok a, .ok b => SimState g R a b
  | .error m, .error m' => m = m'
  | _, _ => False

/-- Two results of the loop of `eulerRec` are the same error or similar states
with the same value of `first_edge`. -/
def SimLoop (g : Graph) (R : Nat → Prop) :
    Except String (Bool × EulerState) → Except String (Bool × EulerState) → Prop
  | .ok a, .ok b => a.1 = b.1 ∧ SimState g R a.2 b.2
  | .error m, .error m' => m = m'
  | _, _ => False

/-- The recursive call treats similar states alike when it starts in the region. -/
def RecSim (g : Graph) (R : Nat → Prop)
    (rec : Nat → Nat → EulerState → Except String EulerState) : Prop :=
  ∀ c s st st', R c → SimState g R st st' → SimRes g R (rec c s st) (rec c s st')

/-- Two disjoint cycles: the arcs 0→1, 1→0, 2→3, 3→2. -/
def twoCycles : Graph := ⟨4, [(0, 1), (1, 0), (2, 3), (3, 2)]⟩

/-- A cycle with an arc that enters it from outside: the arcs 0→1, 1→0, 2→1. -/
def cycleWithEntry : Graph := ⟨3, [(0, 1), (1, 0), (2, 1)]⟩

/-! ## Specification vocabulary for the tour of a solution -/

namespace StationSolver

/-- The map `edgeRef` of `buildSolutionTour` as a list: the arc every copy-arc of
the Euler graph stands for, in the order the copies are created. -/
def edgeRef (s : StationSolver) (int_vals : Nat → Int) : List Edge :=
  s.g.edges.flatMap (fun e => List.replicate (int_vals (s.getCplexId e).toNat).toNat e)

/-- The graph `eulerGraph` of `buildSolutionTour`: one copy-node per node of the
problem graph, named by its position in the node list, and the copy-arcs. -/
def eulerGraph (s : StationSolver) (int_vals : Nat → Int) : Graph :=
  ⟨s.g.nodes.length,
    (s.edgeRef int_vals).map (fun e => (s.g.nodes.indexOf e.src, s.g.nodes.indexOf e.tgt))⟩

/-- The value `selected_arcs` of `buildSolutionTour`: the sum of the arc values. -/
def selectedArcs (s : StationSolver) (int_vals : Nat → Int) : Int :=
  (s.g.edges.map (fun e => int_vals (s.getCplexId e).toNat)).sum

end StationSolver

/-- The arcs of the list follow each other from the node `a` to the node `b`:
the first leaves `a`, each arc ends where the next begins, the last enters `b`. -/
def ArcWalk : List Edge → Nat → Nat → Prop
  | [], a, b => a = b
  | e :: w, a, b => e.src = a ∧ ArcWalk w e.tgt b

/-- Arc values on the small instance: every arc but the arc 3→2 is used once. -/
def roundValues : Nat → Int := fun i => if i = 3 then 0 else 1

/-! ## The solution of the solver (`CplexSolver::solve`, `solver/cplex_solver.h`) -/

/-- The text of the exception of the accessors of the solution. -/
def noSolution : String := "No solution available"

/-- The text of the exception of `solve` for a backend that ends without an
optimal solution. -/
def noOptimalSolution : String := "Invalid model: No optimal solution found"

/-- What the backend does during one call of `solve`: a call of the backend
throws an `IloCplex::Exception` with a message; or an exception of another kind
escapes from the backend (the separator throws `std::runtime_error`); or
`_cplex->solve()` returns `cplex_solved`, and the status, the time, the
objective value and the values of the variables (as `x.toIntArray()`) are read. -/
inductive Backend where
  | cplexException (message : String)
  | otherException (message : String)
  | finished (cplex_solved : Bool) (optimal : Bool) (time : ℚ) (objValue : ℚ)
      (int_vals : Nat → Int)

/-- The members of `CplexSolver` that store the solution. -/
structure Solution where
  _solution_found : Bool
  _solution_value : ℚ
  _solving_time : ℚ
  _solution_tour : List Edge

namespace Solution

/-- The members after the constructor `CplexSolver::CplexSolver`; the two
numbers are not initialised. -/
def initial (value time : ℚ) : Solution := ⟨false, value, time, []⟩

/-- The function `CplexSolver::getSolutionTour`. -/
def getSolutionTour (sol : Solution) : Except String (List Edge) :=
  if !sol._solution_found then .error noSolution else .ok sol._solution_tour

/-- The function `CplexSolver::getSolutionValue`. -/
def getSolutionValue (sol : Solution) : Except String ℚ :=
  if !sol._solution_found then .error noSolution else .ok sol._solution_value

/-- The function `CplexSolver::getTime`. -/
def getTime (sol : Solution) : Except String ℚ :=
  if !sol._solution_found then .error noSolution else .ok sol._solving_time

end Solution

/-- The function `CplexSolver::solve`, as `StationSolver::solve` calls it: the
result is the state of the members after the call, and the exception if one
leaves the call. -/
def StationSolver.solve (s : StationSolver) (sol : Solution) (backend : Backend) :
    Solution × Except String Unit :=
  -- reset the current solution
  let sol0 : Solution :=
    { sol with _solution_found := false, _solution_value := 0, _solution_tour := [] }
  match backend with
  | .cplexException message => (sol0, .error ("Cplex Exception: " ++ message))
  | .otherException message => (sol0, .error message)
  | .finished cplex_solved optimal time objValue int_vals =>
    if !cplex_solved || !optimal then (sol0, .error noOptimalSolution)
    else
      let sol1 : Solution := { sol0 with _solving_time := time, _solution_value := objValue }
      match s.buildSolutionTour int_vals with
      | .error m => (sol1, .error m)
      | .ok tour => ({ sol1 with _solution_tour := tour, _solution_found := true }, .ok ())

/-- Arc values on the small instance: the two cycles 0→1→0 and 2→3→2. -/
def cycleValues : Nat → Int := fun i => if i < 4 then 1 else 0

/-- Arc values on the small instance that are not binary: the arc 0→1 has the
value 2. -/
def doubleValues : Nat → ℚ := fun i => if i = 0 then 2 else 0

/-! ## Specification vocabulary for the cluster index -/

/-- The clusters restricted to the nodes of a graph: a node that is not in the
graph leaves its cluster, and a cluster without a node is dropped. -/
def restrictClusters (nodes : List Nat) (station_nodes : StationNodes) : StationNodes :=
  (station_nodes.map (fun p => (p.1, p.2.filter (fun n => decide (n ∈ nodes))))).filter
    (fun p => !p.2.isEmpty)

/-- The builder of the single line of four stations, for the segment problem
with preprocessing: the nodes of `B` and `C` are contracted. -/
def chainBuilder : GraphBuilder :=
  match GraphBuilder.new chainStations chainLines 5 5 .SEGMENT true with
  | .ok b => b
  | .error _ => GraphBuilder.init chainStations chainLines 5 5

/-! ## Specification vocabulary for tours of the model -/

/-- The arcs on which the arc vector has the value 1, in arc order. -/
def support (g : LGraph) (y : Nat → ℚ) : List Edge :=
  (g.edges.enum.filter (fun p => decide (y p.1 = 1))).map Prod.snd

/-- The arc vector is a tour of the model: it takes only the values 0 and 1, it
satisfies every flow row and every coverage row, and the arcs with the value 1
induce a connected subgraph. -/
structure TourVector (s : StationSolver) (y : Nat → ℚ) : Prop where
  binary : ∀ i, i < s.g.edges.length → y i = 0 ∨ y i = 1
  flow : ∀ r ∈ s.model.inOutCons, r.Holds y
  cover : ∀ r ∈ s.model.outCons, r.Holds y
  connected : ∀ u ∈ selNodes (support s.g y), ∀ v ∈ selNodes (support s.g y),
    SameComp (support s.g y) u v

/-! ## The aggregated cut and the data of the separator -/

namespace StationSolver

/-- The loop `forall_edges` of `createAggregatedCut`; the state is `row`. -/
def aggregatedLoop (s : StationSolver) (comp : Int) (nodemap : Nat → Option Nat)
    (compnum : Nat → Int) (cps : List (List Int)) :
    List Edge → List (Nat × ℚ) → Except String (List (Nat × ℚ))
  | [], row => .ok row
  | e :: es, row =>
    match s.getComponent e.src nodemap compnum cps with
    | .error m => .error m
    | .ok comp_s =>
      match s.getComponent e.tgt nodemap compnum cps with
      | .error m => .error m
      | .ok comp_t =>
        aggregatedLoop s comp nodemap compnum cps es
          (if Bool.xor (comp_s == comp) (comp_t == comp) then
            row ++ [((s.getCplexId e).toNat, (1 : ℚ))]
          else row)

/-- The function `StationSolver::createAggregatedCut`. -/
def createAggregatedCut (s : StationSolver) (comp : Int) (nodemap : Nat → Option Nat)
    (compnum : Nat → Int) (cps : List (List Int)) : Except String (List (Nat × ℚ)) :=
  aggregatedLoop s comp nodemap compnum cps s.g.edges []

/-- The array `compnum` of the separator for the candidate `x`: the number of
the connected component of every node of the graph induced by the selected
arcs. -/
def sepCompnum (s : StationSolver) (x : Nat → ℚ) : Nat → Int :=
  (COMPONENTS (CopyGraph (s.selected x)).nodes (endpoints (CopyGraph (s.selected x)).edges)).1

/-- The array `original_to_solution_graph` of the separator for the candidate `x`. -/
def sepNodemap (s : StationSolver) (x : Nat → ℚ) : Nat → Option Nat :=
  fun n => if n ∈ (CopyGraph (s.selected x)).nodes then some n else none

end StationSolver

/-- The vector `components_per_station` of the separator for the candidate `x`:
it is what the loop over the nodes of the induced graph returns, it has one
entry per station, and the entry of a station holds, in increasing order and
without repetition, the numbers of the components of the nodes of the station
that lie on selected arcs. -/
structure SepData (s : StationSolver) (stations : StationNodes) (x : Nat → ℚ)
    (cps : List (List Int)) : Prop where
  collect : collectComponents s (s.sepCompnum x) (CopyGraph (s.selected x)).nodes
    (List.replicate s.nStations []) = .ok cps
  length : cps.length = stations.length
  mem : ∀ k (hk : k < stations.length) c, c ∈ cps.getD k [] ↔
    ∃ n ∈ stations[k].2, OnSelected (s.selected x) n ∧ s.sepCompnum x n = c
  sorted : ∀ k, (cps.getD k []).Sorted (fun a b => a ≤ b)
  nodup : ∀ k, (cps.getD k []).Nodup

/-- The terms `createAggregatedCut` puts into `row` for the component `comp`
when no check of `getComponent` fails. -/
def cutAgg (s : StationSolver) (nodemap : Nat → Option Nat) (compnum : Nat → Int)
    (cps : List (List Int)) (comp : Int) (es : List Edge) : List (Nat × ℚ) :=
  (es.filter (fun e => Bool.xor (derivedComp s nodemap compnum cps e.src == comp)
      (derivedComp s nodemap compnum cps e.tgt == comp))).map
    (fun e => ((s.getCplexId e).toNat, (1 : ℚ)))

/-! ## A single line

The line `L` serves `A`, `B`, `C` with the cumulated times 0, 4, 9. -/

/-- The stations of the single line of three stations. -/
def lineStations : t_stationmap :=
  [("A", ⟨"A", "", ["L"]⟩), ("B", ⟨"B", "", ["L"]⟩), ("C", ⟨"C", "", ["L"]⟩)]

/-- The single line of three stations, with its cumulated travel times. -/
def lineLines : t_linemap := [("L", ⟨"L", ["A", "B", "C"], [0, 4, 9]⟩)]

/-- The graph of the single line without preprocessing: the nodes 0, 1, 2 are
`A`, `B`, `C` forwards, the nodes 3, 4, 5 are `C`, `B`, `A` backwards; the arcs 0
to 3 are the travel arcs `A→B`, `B→C`, `C→B`, `B→A`, the arcs 4 to 9 change the
direction at `A`, `B` and `C`. -/
def lineGraph : LGraph :=
  ⟨[0, 1, 2, 3, 4, 5],
    [⟨0, 0, 1⟩, ⟨1, 1, 2⟩, ⟨2, 3, 4⟩, ⟨3, 4, 5⟩, ⟨4, 0, 5⟩, ⟨5, 5, 0⟩, ⟨6, 1, 4⟩, ⟨7, 4, 1⟩,
      ⟨8, 2, 3⟩, ⟨9, 3, 2⟩], 6, 10⟩

/-- The graph of the single line after the switching arcs of a build with
preprocessing are added: the direction changes at the terminals `A` and `C`
only, from the arriving to the leaving node. -/
def lineGraphTerminal : LGraph :=
  ⟨[0, 1, 2, 3, 4, 5],
    [⟨0, 0, 1⟩, ⟨1, 1, 2⟩, ⟨2, 3, 4⟩, ⟨3, 4, 5⟩, ⟨4, 5, 0⟩, ⟨5, 2, 3⟩], 6, 6⟩

/-- The graph of the single line after preprocessing: the two nodes of `B` are
contracted, the arc 6 leads from `A` to `C` and the arc 7 from `C` to `A`. -/
def lineGraphContracted : LGraph :=
  ⟨[0, 2, 3, 5], [⟨4, 5, 0⟩, ⟨5, 2, 3⟩, ⟨6, 0, 2⟩, ⟨7, 3, 5⟩], 6, 8⟩

/-- The clusters of the single line. -/
def lineClusters : StationNodes := [("A", [0, 5]), ("B", [1, 4]), ("C", [2, 3])]

/-- The clusters of the single line after preprocessing. -/
def lineClustersContracted : StationNodes := [("A", [0, 5]), ("C", [2, 3])]

/-- The round trip `A→B→C`, change of direction at `C`, `C→B→A`, change of
direction at `A`, as positions of arcs; after preprocessing the two travel arcs
of a direction are one arc. -/
def lineTour (preprocess : Bool) : List Nat :=
  if preprocess then [2, 1, 3, 0] else [0, 1, 8, 2, 3, 5]

namespace GraphBuilder

/-- The body of the constructor before the call of `preprocessGraph`. -/
def specialGraph (stations : t_stationmap) (lines : t_linemap) (change_cost switch_cost : ℚ)
    (type : ProblemType) (preprocess : Bool) : Except String GraphBuilder :=
  match createNodesAndTravelArcs (init stations lines change_cost switch_cost)
      (fun _ _ => none) (fun _ _ => none) with
  | .error m => .error m
  | .ok (b1, way_nodemap, back_nodemap) =>
    b1.addSpecialArcs way_nodemap back_nodemap type preprocess

end GraphBuilder

/-! ## Printing a tour (`GraphBuilder::printTour`, `GraphBuilder::getTourOutput`)

A tour is a list of arcs.  The four column vectors of `getTourOutput` always
have the same length and are kept as one list of rows.  The conversion
`boost::lexical_cast<string>(round(time))` of a time to text is a parameter,
`showTime`; the output stream is the list of the lines written to it. -/

/-- One entry of each of the four columns of `getTourOutput`. -/
structure TourRow where
  start : String
  line : String
  destination : String
  time : String
deriving Repr, DecidableEq

namespace GraphBuilder

/-- Text of the failed assertion of `getTourOutput`. -/
def assertTourColumn : String :=
  "Assertion failed: column[2].size() == 1 || " ++
    "column[2].back().compare(_node_names[source(*it)]) == 0"

/-- The loop of `getTourOutput` over the arcs of the tour; `time` is the time
summed up so far. -/
def tourRows (b : GraphBuilder) (showTime : ℚ → String) (compact : Bool) :
    List Edge → ℚ → List TourRow → Except String (List TourRow)
  | [], _, rows => .ok rows
  | e :: es, time, rows =>
    match rows.getLast? with
    | none => .error outOfRange
    | some last =>
      if ¬ (rows.length = 1 ∨ last.destination = b._node_names e.src) then
        .error assertTourColumn
      else
        if compact = true ∧ 1 < rows.length ∧ last.line = b._arc_names e.id ∧
            last.destination = b._node_names e.src then
          tourRows b showTime compact es (time + b._dist e.id)
            (rows.dropLast ++ [{ last with
              destination := b._node_names e.tgt
              time := showTime (time + b._dist e.id) }])
        else
          tourRows b showTime compact es (time + b._dist e.id)
            (rows ++ [⟨b._node_names e.src, b._arc_names e.id, b._node_names e.tgt,
              showTime (time + b._dist e.id)⟩])

/-- The second loop of `getTourOutput`, run for a compact output: a row of a
change is erased unless it is the first or the last row.  `first` says that the
iterator is at `begin()`. -/
def eraseChanges : Bool → List TourRow → List TourRow
  | _, [] => []
  | _, [r] => [r]
  | first, r :: r1 :: rest =>
    if r.line = CHANGE_NAME ∧ first = false then eraseChanges false (r1 :: rest)
    else r :: eraseChanges false (r1 :: rest)

/-- The function `GraphBuilder::getTourOutput`. -/
def getTourOutput (b : GraphBuilder) (showTime : ℚ → String) (tour : List Edge)
    (compact : Bool) : Except String (List TourRow) :=
  match b.tourRows showTime compact tour 0 [⟨"Start", "Line", "Destination", "Time (m)"⟩] with
  | .error m => .error m
  | .ok rows => .ok (if compact then eraseChanges true rows else rows)

/-- The function `GraphBuilder::tourGetChanges`. -/
def tourGetChanges (b : GraphBuilder) (tour : List Edge) : Nat :=
  tour.countP (fun e => b._arc_names e.id == CHANGE_NAME)

/-- The entry of a column followed by `std::setw(length - size + 2) << "\t"`:
the tabulator is padded with blanks on its left. -/
def padCell (length : Nat) (cell : String) : String :=
  cell ++ String.mk (List.replicate (length - cell.utf8ByteSize + 1) ' ') ++ "\t"

/-- The greatest length of an entry of a column (the class `MaxStringLength`). -/
def maxLength (column : List String) : Nat :=
  column.foldl (fun m s => max m s.utf8ByteSize) 0

/-- The function `GraphBuilder::printTour(tour, compact, O)`; the result is the
list of the lines written. -/
def printTour (b : GraphBuilder) (showTime : ℚ → String) (tour : List Edge) (compact : Bool) :
    Except String (List String) :=
  let compact := if b._nodes_removed then true else compact
  let edge_count := fun (e : Edge) => tour.countP (fun t => t.id == e.id)
  let segments := (b._g.edges.filter (fun e => decide (1 < edge_count e))).map (fun e =>
    "The segment " ++ b._node_names e.src ++ "->" ++ b._node_names e.tgt ++ " is used " ++
      toString (edge_count e) ++ " times.")
  match b.getTourOutput showTime tour compact with
  | .error m => .error m
  | .ok rows =>
    .ok (segments ++
      ["The following tour contains " ++ toString (b.tourGetChanges tour) ++ " changes"] ++
      rows.map (fun r =>
        " " ++ padCell (maxLength (rows.map TourRow.start)) r.start ++
          padCell (maxLength (rows.map TourRow.line)) r.line ++
          padCell (maxLength (rows.map TourRow.destination)) r.destination ++
          padCell (maxLength (rows.map TourRow.time)) r.time))

end GraphBuilder

/-- The round trip on the single line of four stations after preprocessing, as
a tour: `A→D`, the change of direction at `D`, `D→A`, the change at `A`. -/
def chainTour : List Edge := [⟨9, 0, 3⟩, ⟨7, 3, 4⟩, ⟨11, 4, 7⟩, ⟨6, 7, 0⟩]

/-! ## Specification vocabulary for the arcs of a preprocessed graph -/

namespace GraphBuilder

/-- The facts about the arcs of a graph built from a network that the
contraction of a node keeps: the arcs are numbered below the counter and join
nodes of the graph; an arc without the connection flag carries the name of a
line, which is not the reserved label, has a positive cost and leads to a node
with a greater number; an arc with the flag carries the reserved label and joins
two nodes named after the same station; every node lies on an arc without the
flag. -/
structure ArcsOk (lines : t_linemap) (b : GraphBuilder) : Prop where
  fresh : b.FreshIds
  closed : b.Closed
  arcs : ∀ e ∈ b._g.edges,
    (b._connection_arcs e.id = false ∧ b._arc_names e.id ≠ CHANGE_NAME ∧
      (∃ it ∈ lines, b._arc_names e.id = it.2.name) ∧ 0 < b._dist e.id ∧ e.src < e.tgt) ∨
    (b._connection_arcs e.id = true ∧ b._arc_names e.id = CHANGE_NAME ∧
      b._node_names e.src = b._node_names e.tgt)
  travel : ∀ n ∈ b._g.nodes,
    ∃ e ∈ b._g.edges, (e.src = n ∨ e.tgt = n) ∧ b._connection_arcs e.id = false

/-- The builder `b` arises from the builder `b2` by contraction of nodes: the
arcs of `b2` keep their attributes, an arc of `b` with a number of `b2` is an
arc of `b2`, an arc with a later number has no connection flag, an arc of `b2`
between nodes of `b` is an arc of `b`, and the nodes keep their names. -/
structure After (b2 b : GraphBuilder) : Prop where
  nextEdge_le : b2._g.nextEdge ≤ b._g.nextEdge
  old : ∀ i, i < b2._g.nextEdge → b._dist i = b2._dist i ∧
    b._arc_names i = b2._arc_names i ∧ b._connection_arcs i = b2._connection_arcs i
  old_edges : ∀ e ∈ b._g.edges, e.id < b2._g.nextEdge → e ∈ b2._g.edges
  new_flags : ∀ e ∈ b._g.edges, b2._g.nextEdge ≤ e.id → b._connection_arcs e.id = false
  kept : ∀ e ∈ b2._g.edges, e.src ∈ b._g.nodes → e.tgt ∈ b._g.nodes → e ∈ b._g.edges
  node_names : b._node_names = b2._node_names
  nodes : ∀ n ∈ b._g.nodes, n ∈ b2._g.nodes

/-- The two kinds of arcs of a graph of the builder: an arc without connection
flag carries the name of a line, which is not the reserved label, and has a
positive cost; an arc with the flag carries the reserved label and joins two
nodes named after the same station. -/
structure ArcKinds (lines : t_linemap) (b : GraphBuilder) : Prop where
  fresh : b.FreshIds
  closed : b.Closed
  arcs : ∀ e ∈ b._g.edges,
    (b._connection_arcs e.id = false ∧ b._arc_names e.id ≠ CHANGE_NAME ∧
      (∃ it ∈ lines, b._arc_names e.id = it.2.name) ∧ 0 < b._dist e.id) ∨
    (b._connection_arcs e.id = true ∧ b._arc_names e.id = CHANGE_NAME ∧
      b._node_names e.src = b._node_names e.tgt)

end GraphBuilder

/-! ## Specification vocabulary for the chains of a graph -/

/-- A graph in which every arc leads from a node to the node with the next
number and no two arcs leave the same node: a disjoint union of directed paths
of consecutive nodes. -/
structure StepGraph (g : LGraph) : Prop where
  nodup_nodes : g.nodes.Nodup
  nodup_edges : g.edges.Nodup
  closed : ∀ e ∈ g.edges, e.src ∈ g.nodes ∧ e.tgt ∈ g.nodes
  step : ∀ e ∈ g.edges, e.tgt = e.src + 1
  unique : ∀ e ∈ g.edges, ∀ e' ∈ g.edges, e.src = e'.src → e = e'

/-- The structure of the graphs on which `computeDegree2Chains` is called: an
arc that is not to be kept leads from a node to the node with the next number,
no two such arcs leave the same node, every node lies on such an arc and has at
least two arcs, and the two end nodes of an arc to keep both have more than two
arcs or both have at most two. -/
structure ChainGraph (g : LGraph) (keep_edge : Nat → Bool) : Prop where
  nodup_nodes : g.nodes.Nodup
  nodup_edges : g.edges.Nodup
  closed : ∀ e ∈ g.edges, e.src ∈ g.nodes ∧ e.tgt ∈ g.nodes
  step : ∀ e ∈ g.edges, keep_edge e.id = false → e.tgt = e.src + 1
  unique : ∀ e ∈ g.edges, ∀ e' ∈ g.edges, keep_edge e.id = false → keep_edge e'.id = false →
    e.src = e'.src → e = e'
  travel : ∀ n ∈ g.nodes, ∃ e ∈ g.edges, keep_edge e.id = false ∧ (e.src = n ∨ e.tgt = n)
  degree_ge : ∀ n ∈ g.nodes, 2 ≤ g.degree n
  keep_pair : ∀ e ∈ g.edges, keep_edge e.id = true → (2 < g.degree e.src ↔ 2 < g.degree e.tgt)

/-- The structure of every graph on which `computeDegree2Chains` is called,
whatever the network: an arc that is not to be kept leads from a node to the
node with the next number, and no two such arcs leave the same node. -/
structure PathGraph (g : LGraph) (keep_edge : Nat → Bool) : Prop where
  nodup_nodes : g.nodes.Nodup
  nodup_edges : g.edges.Nodup
  closed : ∀ e ∈ g.edges, e.src ∈ g.nodes ∧ e.tgt ∈ g.nodes
  step : ∀ e ∈ g.edges, keep_edge e.id = false → e.tgt = e.src + 1
  unique : ∀ e ∈ g.edges, ∀ e' ∈ g.edges, keep_edge e.id = false → keep_edge e'.id = false →
    e.src = e'.src → e = e'

/-- No arc leads from a later node of the list to an earlier one: the list is
in a topological order of the graph. -/
def TopOrder (g : LGraph) (l : List Nat) : Prop :=
  l.Pairwise (fun a c => ∀ e ∈ g.edges, ¬ (e.src = c ∧ e.tgt = a))

/-- The nodes `computeDegree2Chains` hides on a graph in which every node has at
least two arcs: the nodes with more than two arcs, then the end nodes of the
arcs to keep. -/
def hiddenNodes (g : LGraph) (keep_edge : Nat → Bool) : List Nat :=
  hideKeepEndpoints keep_edge g.edges (g.nodes.filter (fun n => decide (2 < g.degree n)))

/-! ## Specification vocabulary for the stops of a built graph -/

/-- The station map is a map keyed by the names of its stations, as the reader
of a network builds it. -/
structure StationKeys (stations : t_stationmap) : Prop where
  key_name : ∀ st ∈ stations, st.1 = st.2.name
  keys_nodup : (stations.map Prod.fst).Nodup

instance (stations : t_stationmap) : Decidable (StationKeys stations) :=
  decidable_of_iff ((∀ st ∈ stations, st.1 = st.2.name) ∧ (stations.map Prod.fst).Nodup)
    ⟨fun h => ⟨h.1, h.2⟩, fun h => ⟨h.1, h.2⟩⟩

/-- The graph `b2` after `createNodesAndTravelArcs` and `addSpecialArcs` for a
valid network in which every line has at least two stops. -/
structure Built (stations : t_stationmap) (lines : t_linemap) (cc sc : ℚ) (type : ProblemType)
    (preprocess : Bool) (b1 : GraphBuilder) (way back : NodeMap) (b2 : GraphBuilder) : Prop where
  valid : ValidNetwork stations lines
  keys : StationKeys stations
  two_stops : ∀ it ∈ lines, 2 ≤ it.2.stations.length
  travel : GraphBuilder.createNodesAndTravelArcs (GraphBuilder.init stations lines cc sc)
    (fun _ _ => none) (fun _ _ => none) = .ok (b1, way, back)
  special : b1.addSpecialArcs way back type preprocess = .ok b2

/-- The graph `b2` after `createNodesAndTravelArcs` and `addSpecialArcs`, for
any network and any build configuration. -/
structure Phases (stations : t_stationmap) (lines : t_linemap) (cc sc : ℚ) (type : ProblemType)
    (preprocess : Bool) (b1 : GraphBuilder) (way back : NodeMap) (b2 : GraphBuilder) : Prop where
  travel : GraphBuilder.createNodesAndTravelArcs (GraphBuilder.init stations lines cc sc)
    (fun _ _ => none) (fun _ _ => none) = .ok (b1, way, back)
  special : b1.addSpecialArcs way back type preprocess = .ok b2

namespace GraphBuilder

/-- The stop with index `k` of a line at the station `s`, with the forward node
`w` and the reverse node `r` of the line at the station: a travel arc enters the
forward node unless the stop is the first, a travel arc leaves it unless the
stop is the last, and the other way round for the reverse node. -/
structure StopAt (b : GraphBuilder) (way back : NodeMap) (lines : t_linemap)
    (it : String × Line) (k : Nat) (s : String) (w r : Nat) : Prop where
  line : it ∈ lines
  stop : it.2.stations[k]? = some s
  way_node : way it.2.name s = some w
  back_node : back it.2.name s = some r
  way_in : b.HasIn w ↔ 0 < k
  way_out : b.HasOut w ↔ k + 1 < it.2.stations.length
  back_in : b.HasIn r ↔ k + 1 < it.2.stations.length
  back_out : b.HasOut r ↔ 0 < k

end GraphBuilder

/-- The facts LEDA `TOPSORT` keeps on a union of paths: the nodes taken from the
queue and the queue together hold no node twice, hold every node without
entering arc and, with a node taken from the queue, its successor; a node whose
predecessor has not been taken from the queue is in neither list and its
counter is its in-degree; no arc leads backwards. -/
structure TopsortInv (g : LGraph) (fuel : Nat) (queue : List Nat) (INDEG : Nat → Nat)
    (sorted : List Nat) : Prop where
  nodup : (sorted ++ queue).Nodup
  nodes : ∀ n ∈ sorted ++ queue, n ∈ g.nodes
  sources : ∀ n ∈ g.nodes, g.indeg n = 0 → n ∈ sorted ++ queue
  succ : ∀ e ∈ g.edges, e.src ∈ sorted → e.tgt ∈ sorted ++ queue
  pred : ∀ e ∈ g.edges, e.tgt ∈ sorted ++ queue → e.src ∈ sorted
  counter : ∀ n ∈ g.nodes, n ∉ sorted ++ queue → INDEG n = g.indeg n
  order : TopOrder g (sorted ++ queue)
  fuel_eq : fuel + sorted.length = g.nodes.length

namespace GraphBuilder

/-- The nodes `u` and `v` are the two nodes of one stop of the line `a` at the
station `S`: one is the forward node and the other the reverse node, a travel
arc enters the one exactly if a travel arc leaves the other, and a travel arc
lies on each. -/
structure Twin (b : GraphBuilder) (way back : NodeMap) (S a : String) (u v : Nat) : Prop where
  maps : (way a S = some u ∧ back a S = some v) ∨ (back a S = some u ∧ way a S = some v)
  ne : u ≠ v
  in_out : b.HasIn u ↔ b.HasOut v
  out_in : b.HasOut u ↔ b.HasIn v
  travel : b.HasIn u ∨ b.HasOut u

end GraphBuilder

namespace GraphBuilder

/-- The rounds of the inner loop of `preprocessGraph` over the nodes of a chain
whose arcs carry the label `l`: the node of the round has exactly one entering
arc and exactly one leaving arc, both carry the label `l`, and the round
replaces the node and the two arcs by one arc, which carries the label `l` and
no connection flag. -/
def NodesTrace (l : String) :
    List Nat → GraphBuilder × List Nat → GraphBuilder × List Nat → Prop
  | [], st, r => r = st
  | n :: ns, st, r =>
    ∃ ein eout, st.1._g.inEdges n = [ein] ∧ st.1._g.outEdges n = [eout] ∧
      st.1._arc_names ein.id = l ∧ st.1._arc_names eout.id = l ∧
      (st.1.contractNode n ein eout)._arc_names st.1._g.nextEdge = l ∧
      (st.1.contractNode n ein eout)._connection_arcs st.1._g.nextEdge = false ∧
      NodesTrace l ns (st.1.contractNode n ein eout, st.2 ++ [n]) r

/-- The test of `preprocessGraph` on a chain that the arc `ein` enters and that
leads to the node `q`, evaluated on the graph `b0`: the mode is the station mode
and the node before the chain and the node after the chain both have in-degree
greater than 1. -/
def KeptChain (type : ProblemType) (b0 : GraphBuilder) (ein : Edge) (q : Nat) : Prop :=
  type = ProblemType.STATION ∧ 1 < b0._g.indeg ein.src ∧ 1 < b0._g.indeg q

instance (type : ProblemType) (b0 : GraphBuilder) (ein : Edge) (q : Nat) :
    Decidable (KeptChain type b0 ein q) := by
  unfold KeptChain
  infer_instance

/-- The rounds of the outer loop of `preprocessGraph` over the chains, from the
graph `b0` before preprocessing: when its round comes, a chain is in the
current graph the chain it is in `b0`, with the in-degrees of the nodes before
and after it and the costs of its arcs as in `b0`; the round leaves the graph
as it is when the test `KeptChain` holds, and contracts the chain otherwise. -/
def ChainsTrace (type : ProblemType) (b0 : GraphBuilder) :
    List (List Nat) → GraphBuilder × List Nat → GraphBuilder × List Nat → Prop
  | [], st, r => r = st
  | c :: rest, st, r =>
    ∃ ein outs q, c ≠ [] ∧ b0.ChainFrom ein c outs q ∧ st.1.ChainFrom ein c outs q ∧
      st.1._g.indeg ein.src = b0._g.indeg ein.src ∧ st.1._g.indeg q = b0._g.indeg q ∧
      (∀ e ∈ ein :: outs, st.1._dist e.id = b0._dist e.id) ∧
      ((KeptChain type b0 ein q ∧ ChainsTrace type b0 rest st r) ∨
        (¬ KeptChain type b0 ein q ∧
          ∃ b1, st.1.Contracted ein c outs q b1 ∧ ChainsTrace type b0 rest (b1, st.2 ++ c) r))

/-- A path of nodes of in-degree 1 and out-degree 1 in the graph: the arc `ein`
enters the first node of `vs`; every node of `vs` has exactly one entering and
exactly one leaving arc; the leaving arcs are `outs` in order, each leads to the
next node of `vs` and the last one to `q`.  The labels of the arcs are
arbitrary. -/
def PathFrom (b : GraphBuilder) : Edge → List Nat → List Edge → Nat → Prop
  | ein, [], [], q => ein.tgt = q
  | ein, v :: vs, eout :: outs, q =>
    b._g.inEdges v = [ein] ∧ b._g.outEdges v = [eout] ∧ PathFrom b eout vs outs q
  | _, _, _, _ => False

/-- The rounds of the outer loop of `preprocessGraph` over the chains, from the
graph `b0` before preprocessing, for any graph on which the loop returns: when
its round comes, a chain is in the current graph the path it is in `b0`, entered
by the arc `ein` from the node before it and left to the node `q` after it, and
the in-degrees of these two nodes and the costs of the arcs of the path are as
in `b0`.  The round leaves the graph as it is when the test `KeptChain` holds;
otherwise the arcs of the path carry one label and the round contracts the
chain. -/
def RoundsTrace (type : ProblemType) (b0 : GraphBuilder) :
    List (List Nat) → GraphBuilder × List Nat → GraphBuilder × List Nat → Prop
  | [], st, r => r = st
  | c :: rest, st, r =>
    ∃ ein outs q, c ≠ [] ∧ b0.PathFrom ein c outs q ∧ st.1.PathFrom ein c outs q ∧
      ein.src ∉ c ∧ q ∉ c ∧
      st.1._g.indeg ein.src = b0._g.indeg ein.src ∧ st.1._g.indeg q = b0._g.indeg q ∧
      (∀ e ∈ ein :: outs, st.1._dist e.id = b0._dist e.id) ∧
      ((KeptChain type b0 ein q ∧ RoundsTrace type b0 rest st r) ∨
        (¬ KeptChain type b0 ein q ∧ b0.ChainFrom ein c outs q ∧
          ∃ b1, st.1.Contracted ein c outs q b1 ∧
            RoundsTrace type b0 rest (b1, st.2 ++ c) r))

/-- The rounds of the outer loop of `preprocessGraph` over the chains, node by
node: a chain is skipped, in station mode only, or all its nodes are removed in
rounds of `NodesTrace` for the name of one line, which is not the label of the
transfer arcs. -/
def LabelsTrace (lines : t_linemap) (type : ProblemType) :
    List (List Nat) → GraphBuilder × List Nat → GraphBuilder × List Nat → Prop
  | [], st, r => r = st
  | c :: rest, st, r =>
    (type = ProblemType.STATION ∧ chainIsKept st.1 c = .ok true ∧
        LabelsTrace lines type rest st r) ∨
      ∃ it ∈ lines, it.2.name ≠ CHANGE_NAME ∧
        ∃ st1, NodesTrace it.2.name c st st1 ∧ LabelsTrace lines type rest st1 r

end GraphBuilder

namespace GraphBuilder

/-- The state of the loop of `preprocessGraph` over the chains `all` of the
graph `b0`: the nodes of the graph are the nodes of `b0` that have not been
removed; an arc with a number of `b0` is an arc of `b0` between nodes that have
not been removed; an arc with a later number leads from the node before a chain
to the node after it, and the nodes of this chain have been removed; every node
removed belongs to a chain all of whose nodes have been removed; the clusters
are those of `b0`. -/
structure FinalInv (all : List (List Nat)) (b0 : GraphBuilder)
    (st : GraphBuilder × List Nat) : Prop where
  fresh : st.1.FreshIds
  le : b0._g.nextEdge ≤ st.1._g.nextEdge
  nodes : st.1._g.nodes = b0._g.nodes.filter (fun n => n ∉ st.2)
  old : ∀ e ∈ st.1._g.edges, e.id < b0._g.nextEdge →
    e ∈ b0._g.edges ∧ e.src ∉ st.2 ∧ e.tgt ∉ st.2
  synthetic : ∀ e ∈ st.1._g.edges, b0._g.nextEdge ≤ e.id →
    ∃ c ∈ all, ∃ ein outs, c ≠ [] ∧ b0.ChainFrom ein c outs e.tgt ∧ ein.src = e.src ∧
      ∀ m ∈ c, m ∈ st.2
  removed : ∀ n ∈ st.2, ∃ c ∈ all, n ∈ c ∧ ∀ m ∈ c, m ∈ st.2
  clusters : st.1._station_nodes = b0._station_nodes

end GraphBuilder

/-! ## Specification vocabulary for the switch arcs at the stops of a line

The nodes of a line are created stop by stop: the forward node of the stop with
index `k` is `w0 + k`, where `w0` is the number of stops of the lines before
it; the reverse nodes follow all forward nodes and are created from the last
stop to the first, so the reverse node of the stop `k` of a line with `n` stops
is `r0 + (n - 1 - k)`, where `r0` is the number of all stops plus `w0`. -/

/-- Full switching at a line, in the words of the specification: at every stop
an arc from the forward node to the reverse node of the stop and one back. -/
def fullSwitchArcs (line : Line) (w0 r0 : Nat) : List (Nat × Nat) :=
  (List.range line.stations.length).flatMap (fun k =>
    [(w0 + k, r0 + (line.stations.length - 1 - k)),
      (r0 + (line.stations.length - 1 - k), w0 + k)])

/-- The switch arcs of all lines: the forward nodes of the lines follow each
other from `w0` on, the reverse nodes from `r0` on. -/
def allLineSwitches (arcsOf : Line → Nat → Nat → List (Nat × Nat)) :
    t_linemap → Nat → Nat → List (Nat × Nat)
  | [], _, _ => []
  | it :: rest, w0, r0 =>
    arcsOf it.2 w0 r0 ++
      allLineSwitches arcsOf rest (w0 + it.2.stations.length) (r0 + it.2.stations.length)

/-! ## Lines that call at a station twice -/

/-- The stations of the network in which `L` serves `Q`, `A`, `C`, `A`, `U`. -/
def detourStations : t_stationmap :=
  [("A", ⟨"A", "", ["L"]⟩), ("C", ⟨"C", "", ["L"]⟩), ("Q", ⟨"Q", "", ["L", "X"]⟩),
    ("U", ⟨"U", "", ["L", "Y"]⟩), ("W", ⟨"W", "", ["Y"]⟩), ("Z", ⟨"Z", "", ["X"]⟩)]

/-- The lines of the network in which `L` serves `Q`, `A`, `C`, `A`, `U`. -/
def detourLines : t_linemap :=
  [("L", ⟨"L", ["Q", "A", "C", "A", "U"], [0, 3, 6, 9, 12]⟩), ("X", ⟨"X", ["Q", "Z"], [0, 3]⟩),
    ("Y", ⟨"Y", ["U", "W"], [0, 3]⟩)]

/-- The builder of this network for the station problem with preprocessing. -/
def detourBuilder : GraphBuilder :=
  match GraphBuilder.new detourStations detourLines 5 5 .STATION true with
  | .ok b => b
  | .error _ => GraphBuilder.init detourStations detourLines 5 5

/-- The stations of a network of two lines: `L0` serves `C`, `B`, `E` and `L1`
serves `E`, `C`, `A`, `C`, `B`; the line `L1` stops twice at `C`. -/
def bendStations : t_stationmap :=
  [("A", ⟨"A", "", ["L1"]⟩), ("B", ⟨"B", "", ["L0", "L1"]⟩), ("C", ⟨"C", "", ["L0", "L1"]⟩),
    ("E", ⟨"E", "", ["L0", "L1"]⟩)]

/-- The lines of this network. -/
def bendLines : t_linemap :=
  [("L0", ⟨"L0", ["C", "B", "E"], [0, 3, 6]⟩),
    ("L1", ⟨"L1", ["E", "C", "A", "C", "B"], [0, 3, 6, 9, 12]⟩)]

/-- The builder and the node maps of this network after
`createNodesAndTravelArcs`. -/
def bendTravel : GraphBuilder × NodeMap × NodeMap :=
  match GraphBuilder.createNodesAndTravelArcs
      (GraphBuilder.init bendStations bendLines 5 5) (fun _ _ => none) (fun _ _ => none) with
  | .ok r => r
  | .error _ => (GraphBuilder.init bendStations bendLines 5 5, fun _ _ => none,
      fun _ _ => none)

/-- The builder of this network after `addSpecialArcs` in station mode with
preprocessing. -/
def bendSpecial : GraphBuilder :=
  match bendTravel.1.addSpecialArcs bendTravel.2.1 bendTravel.2.2 .STATION true with
  | .ok b => b
  | .error _ => bendTravel.1

/-- The builder of this network after `preprocessGraph` in station mode. -/
def bendPreprocessed : GraphBuilder :=
  match bendSpecial.preprocessGraph .STATION with
  | .ok b => b
  | .error _ => bendSpecial
/-! ## Theorems: Euler tours -/

section EulerLemmas

variable {g : Graph}

theorem isWalk_append {w1 w2 : List Nat} {a b c : Nat}
    (h1 : IsWalk g w1 a b) (h2 : IsWalk g w2 b c) : IsWalk g (w1 ++ w2) a c := by
  induction w1 generalizing a with
  | nil => simp only [IsWalk] at h1; subst h1; simpa using h2
  | cons e w ih =>
    obtain ⟨he, hs, hw⟩ := h1
    exact ⟨he, hs, ih hw⟩

theorem isWalk_lt {w : List Nat} {a b : Nat} (h : IsWalk g w a b) :
    ∀ e ∈ w, e < g.edges.length := by
  induction w generalizing a with
  | nil => simp
  | cons e w ih =>
    obtain ⟨he, _, hw⟩ := h
    intro x hx
    rcases List.mem_cons.1 hx with rfl | hx
    · exact he
    · exact ih hw x hx

/-- In a walk ending in `b`, the target of every arc is `b` or the source of an arc of the walk. -/
theorem isWalk_target {w : List Nat} {a b : Nat} (h : IsWalk g w a b) :
    ∀ e ∈ w, g.target e = b ∨ ∃ f ∈ w, g.source f = g.target e := by
  induction w generalizing a with
  | nil => simp
  | cons e w ih =>
    obtain ⟨_, _, hw⟩ := h
    intro x hx
    rcases List.mem_cons.1 hx with rfl | hx
    · cases w with
      | nil => left; exact hw
      | cons f w' => right; exact ⟨f, by simp, hw.2.1⟩
    · rcases ih hw x hx with h1 | ⟨f, hf, hfe⟩
      · exact Or.inl h1
      · exact Or.inr ⟨f, List.mem_cons_of_mem _ hf, hfe⟩

/-- Changing a predicate from true to false at one point of a duplicate-free list
lowers the count by one. -/
theorem countP_point {l : List Nat} (hnd : l.Nodup) {e : Nat} (he : e ∈ l)
    {p q : Nat → Bool} (hpe : p e = true) (hqe : q e = false)
    (hpq : ∀ x, x ≠ e → q x = p x) : l.countP q + 1 = l.countP p := by
  induction l with
  | nil => simp at he
  | cons a l ih =>
    rw [List.nodup_cons] at hnd
    by_cases hae : a = e
    · subst hae
      have hrest : l.countP q = l.countP p := by
        apply List.countP_congr
        intro x hx
        have : x ≠ a := fun h => hnd.1 (h ▸ hx)
        rw [hpq x this]
      simp [List.countP_cons, hpe, hqe, hrest]
    · have hel : e ∈ l := by
        rcases List.mem_cons.1 he with h | h
        · exact absurd h.symm hae
        · exact h
      have := ih hnd.2 hel
      simp only [List.countP_cons, hpq a hae]
      omega

theorem unvisOut_mark {vis : Nat → Bool} {e : Nat} (he : e < g.edges.length)
    (hv : vis e = false) (v : Nat) :
    unvisOut g (markVisited vis e) v + (if g.source e = v then 1 else 0) = unvisOut g vis v := by
  unfold unvisOut
  by_cases hs : g.source e = v
  · rw [if_pos hs]
    apply countP_point (List.nodup_range _) (List.mem_range.2 he)
    · simp [hv, hs]
    · simp [markVisited]
    · intro x hx; simp [markVisited, hx]
  · rw [if_neg hs, Nat.add_zero]
    apply List.countP_congr
    intro x _
    by_cases hx : x = e
    · subst hx; simp [markVisited, hv, hs]
    · simp [markVisited, hx]

theorem unvisIn_mark {vis : Nat → Bool} {e : Nat} (he : e < g.edges.length)
    (hv : vis e = false) (v : Nat) :
    unvisIn g (markVisited vis e) v + (if g.target e = v then 1 else 0) = unvisIn g vis v := by
  unfold unvisIn
  by_cases hs : g.target e = v
  · rw [if_pos hs]
    apply countP_point (List.nodup_range _) (List.mem_range.2 he)
    · simp [hv, hs]
    · simp [markVisited]
    · intro x hx; simp [markVisited, hx]
  · rw [if_neg hs, Nat.add_zero]
    apply List.countP_congr
    intro x _
    by_cases hx : x = e
    · subst hx; simp [markVisited, hv, hs]
    · simp [markVisited, hx]

theorem unvisCount_mark {vis : Nat → Bool} {e : Nat} (he : e < g.edges.length)
    (hv : vis e = false) : unvisCount g (markVisited vis e) + 1 = unvisCount g vis := by
  unfold unvisCount
  apply countP_point (List.nodup_range _) (List.mem_range.2 he)
  · simp [hv]
  · simp [markVisited]
  · intro x hx; simp [markVisited, hx]

theorem unvisCount_mono {v0 v1 : Nat → Bool} (h : ∀ e, v0 e = true → v1 e = true) :
    unvisCount g v1 ≤ unvisCount g v0 := by
  unfold unvisCount
  apply List.countP_mono_left
  intro x _ hx
  cases h0 : v0 x
  · rfl
  · rw [h x h0] at hx; simp at hx

theorem openBal_mark {vis : Nat → Bool} {c s e : Nat} (hb : OpenBal g c s vis)
    (he : e < g.edges.length) (hv : vis e = false) (hs : g.source e = c) :
    OpenBal g (g.target e) s (markVisited vis e) := by
  intro v
  have h1 := unvisOut_mark he hv v
  have h2 := unvisIn_mark he hv v
  have h3 := hb v
  rw [hs] at h1
  have e1 : (if c = v then 1 else 0 : Nat) = if v = c then 1 else 0 := by
    by_cases h : v = c
    · subst h; simp
    · rw [if_neg h, if_neg (fun h' => h h'.symm)]
  have e2 : (if g.target e = v then 1 else 0 : Nat) = if v = g.target e then 1 else 0 := by
    by_cases h : v = g.target e
    · rw [if_pos h, if_pos h.symm]
    · rw [if_neg h, if_neg (fun h' => h h'.symm)]
  rw [e1] at h1
  rw [e2] at h2
  omega

theorem unvisOut_eq_zero {vis : Nat → Bool} {v : Nat} (h : AllOut g vis v) :
    unvisOut g vis v = 0 := by
  unfold unvisOut
  rw [List.countP_eq_zero]
  intro e he
  have hlt := List.mem_range.1 he
  by_cases hs : g.source e = v
  · simp [h e hlt hs]
  · simp [hs]

theorem allOut_of_unvisOut {vis : Nat → Bool} {v : Nat} (h : unvisOut g vis v = 0) :
    AllOut g vis v := by
  unfold unvisOut at h
  rw [List.countP_eq_zero] at h
  intro e he hs
  have := h e (List.mem_range.2 he)
  simpa [hs] using this

theorem fresh_mono {v0 v1 : Nat → Bool} {w : List Nat} (h : Fresh v0 w v1) :
    ∀ e, v0 e = true → v1 e = true := fun e he => (h.marks e).2 (Or.inl he)

theorem fresh_mem {v0 v1 : Nat → Bool} {w : List Nat} (h : Fresh v0 w v1) {e : Nat}
    (he : e ∈ w) : v1 e = true := (h.marks e).2 (Or.inr he)

theorem fresh_nil (v : Nat → Bool) : Fresh v [] v :=
  ⟨List.nodup_nil, by simp, by simp⟩

theorem fresh_single {v : Nat → Bool} {e : Nat} (hv : v e = false) :
    Fresh v [e] (markVisited v e) := by
  refine ⟨List.nodup_singleton e, by simpa using hv, ?_⟩
  intro x
  by_cases hx : x = e
  · subst hx; simp [markVisited]
  · simp [markVisited, hx]

theorem fresh_append {v0 v1 v2 : Nat → Bool} {w1 w2 : List Nat}
    (h1 : Fresh v0 w1 v1) (h2 : Fresh v1 w2 v2) : Fresh v0 (w1 ++ w2) v2 := by
  refine ⟨?_, ?_, ?_⟩
  · rw [List.nodup_append]
    refine ⟨h1.nodup, h2.nodup, ?_⟩
    intro x hx1 hx2
    have := (h1.marks x).2 (Or.inr hx1)
    rw [h2.unvisited x hx2] at this
    exact Bool.false_ne_true this
  · intro e he
    rcases List.mem_append.1 he with h | h
    · exact h1.unvisited e h
    · have := h2.unvisited e h
      cases h0 : v0 e
      · rfl
      · rw [fresh_mono h1 e h0] at this; exact absurd this (by simp)
  · intro e
    rw [h2.marks, h1.marks, List.mem_append, or_assoc]

theorem fresh_perm {v0 v1 : Nat → Bool} {w w' : List Nat} (h : Fresh v0 w v1)
    (hp : w.Perm w') : Fresh v0 w' v1 :=
  ⟨hp.nodup_iff.1 h.nodup, fun e he => h.unvisited e (hp.mem_iff.2 he),
    fun e => by rw [h.marks, hp.mem_iff]⟩

theorem allOut_mono {v0 v1 : Nat → Bool} {v : Nat} (h : AllOut g v0 v)
    (hm : ∀ e, v0 e = true → v1 e = true) : AllOut g v1 v :=
  fun e he hs => hm e (h e he hs)

theorem openBal_self {vis : Nat → Bool} {a : Nat} : OpenBal g a a vis ↔ Balanced g vis := by
  constructor
  · intro h v
    have := h v
    omega
  · intro h v
    have := h v
    omega

/-- The loop of `eulerRec` after the first arc has been taken: every further
unvisited out-arc splices a closed walk in front of `listPos`. -/
theorem eulerLoop_rest {rec : Nat → Nat → EulerState → Except String EulerState} {fuel : Nat}
    (hrec : RecSpec g rec fuel) (c s : Nat) :
    ∀ (es pre rest : List Nat) (vis : Nat → Bool), Balanced g vis → unvisCount g vis < fuel →
      (∀ e ∈ es, e < g.edges.length ∧ g.source e = c) →
      ∃ n vis1, eulerLoop rec g c s es false pre.length ⟨pre ++ rest, vis⟩
          = .ok (false, ⟨pre ++ n ++ rest, vis1⟩) ∧
        IsWalk g n c c ∧ Fresh vis n vis1 ∧ Balanced g vis1 ∧
        (∀ e ∈ n, AllOut g vis1 (g.source e)) ∧ (∀ e ∈ es, vis1 e = true) := by
  intro es
  induction es with
  | nil =>
    intro pre rest vis hb _ _
    exact ⟨[], vis, by simp [eulerLoop], rfl, fresh_nil vis, hb, by simp, by simp⟩
  | cons e es ih =>
    intro pre rest vis hb hfuel hes
    have hes' : ∀ x ∈ es, x < g.edges.length ∧ g.source x = c :=
      fun x hx => hes x (List.mem_cons_of_mem _ hx)
    by_cases hv : vis e = true
    · obtain ⟨n, vis1, hrun, hw, hf, hb1, hsat, hall⟩ := ih pre rest vis hb hfuel hes'
      refine ⟨n, vis1, ?_, hw, hf, hb1, hsat, ?_⟩
      · simp only [eulerLoop, hv, if_true]; exact hrun
      · intro x hx
        rcases List.mem_cons.1 hx with rfl | hx
        · exact fresh_mono hf _ hv
        · exact hall x hx
    · have hv' : vis e = false := by simpa using hv
      obtain ⟨w, v2, hcall, hpost⟩ := hrec c c ⟨[], vis⟩ (openBal_self.2 hb) hfuel
      have hfuel2 : unvisCount g v2 < fuel :=
        lt_of_le_of_lt (unvisCount_mono (fresh_mono hpost.fresh)) hfuel
      obtain ⟨n, vis1, hrun, hw, hf, hb1, hsat, hall⟩ :=
        ih (pre ++ w) rest v2 hpost.bal hfuel2 hes'
      refine ⟨w ++ n, vis1, ?_, isWalk_append hpost.walk hw, fresh_append hpost.fresh hf, hb1, ?_, ?_⟩
      · simp only [eulerLoop, hv', Bool.false_eq_true, if_false, hcall]
        simp only [List.nil_append, List.take_left', List.drop_left',
          ← List.length_append]
        rw [hrun]
        simp [List.append_assoc]
      · intro x hx
        rcases List.mem_append.1 hx with h | h
        · exact allOut_mono (hpost.sat x h) (fresh_mono hf)
        · exact hsat x h
      · intro x hx
        rcases List.mem_cons.1 hx with rfl | hx
        · exact fresh_mono hf _ (hpost.outC _ (hes _ (List.mem_cons_self _ _)).1
            (hes _ (List.mem_cons_self _ _)).2)
        · exact hall x hx

/-- The loop of `eulerRec` before the first arc has been taken. -/
theorem eulerLoop_first {rec : Nat → Nat → EulerState → Except String EulerState} {fuel : Nat}
    (hrec : RecSpec g rec fuel) (c s : Nat) :
    ∀ (es : List Nat) (pos : Nat) (st : EulerState), OpenBal g c s st.visited →
      unvisCount g st.visited < fuel + 1 →
      (∀ e ∈ es, e < g.edges.length ∧ g.source e = c) →
      (∀ e, e < g.edges.length → g.source e = c → e ∉ es → st.visited e = true) →
      ∃ first w vis1, eulerLoop rec g c s es true pos st = .ok (first, ⟨st.cycle ++ w, vis1⟩) ∧
        (first = true → c = s) ∧ EulerPost g c s st.visited w vis1 := by
  intro es
  induction es with
  | nil =>
    intro pos st hb _ _ hprev
    have hout : AllOut g st.visited c := fun e he hs => hprev e he hs (by simp)
    have hcs : c = s := by
      have := hb c
      rw [unvisOut_eq_zero hout] at this
      by_contra hne
      simp [hne] at this
    subst hcs
    exact ⟨true, [], st.visited, by simp [eulerLoop], fun _ => rfl,
      ⟨rfl, fresh_nil _, openBal_self.1 hb, by simp, hout⟩⟩
  | cons e es ih =>
    intro pos st hb hfuel hes hprev
    have hes' : ∀ x ∈ es, x < g.edges.length ∧ g.source x = c :=
      fun x hx => hes x (List.mem_cons_of_mem _ hx)
    obtain ⟨helt, hesrc⟩ := hes e (List.mem_cons_self _ _)
    by_cases hv : st.visited e = true
    · have hprev' : ∀ x, x < g.edges.length → g.source x = c → x ∉ es →
          st.visited x = true := by
        intro x hx hs hnot
        by_cases hxe : x = e
        · subst hxe; exact hv
        · exact hprev x hx hs (by simp [hxe, hnot])
      obtain ⟨first, w, vis1, hrun, hfirst, hpost⟩ := ih pos st hb hfuel hes' hprev'
      exact ⟨first, w, vis1, by simp only [eulerLoop, hv, if_true]; exact hrun, hfirst, hpost⟩
    · have hv' : st.visited e = false := by simpa using hv
      have hcnt := unvisCount_mark (g := g) helt hv'
      have hfuel1 : unvisCount g (markVisited st.visited e) < fuel := by omega
      obtain ⟨w1, v2, hcall, hpost⟩ :=
        hrec (g.target e) s ⟨st.cycle ++ [e], markVisited st.visited e⟩
          (openBal_mark hb helt hv' hesrc) hfuel1
      have hfuel2 : unvisCount g v2 < fuel :=
        lt_of_le_of_lt (unvisCount_mono (fresh_mono hpost.fresh)) hfuel1
      obtain ⟨n, vis1, hrun, hw, hf, hb1, hsat, hall⟩ :=
        eulerLoop_rest hrec c s es st.cycle (e :: w1) v2 hpost.bal hfuel2 hes'
      have hfr : Fresh st.visited (e :: w1 ++ n) vis1 :=
        fresh_append (fresh_append (fresh_single hv') hpost.fresh) hf
      have houtC : AllOut g vis1 c := by
        intro x hx hs
        by_cases hxe : x = e
        · subst hxe; exact fresh_mem hfr (by simp)
        · by_cases hxes : x ∈ es
          · exact hall x hxes
          · exact fresh_mono hfr x (hprev x hx hs (by simp [hxe, hxes]))
      refine ⟨false, n ++ e :: w1, vis1, ?_, by simp, ?_⟩
      · simp only [eulerLoop, hv', Bool.false_eq_true, if_false, if_true, hcall]
        simp only [List.append_assoc, List.singleton_append] at hrun ⊢
        exact hrun
      · refine ⟨isWalk_append hw ⟨helt, hesrc, hpost.walk⟩, fresh_perm hfr ?_, hb1, ?_, houtC⟩
        · exact List.perm_append_comm
        · intro x hx
          rcases List.mem_append.1 hx with h | h
          · exact hsat x h
          · rcases List.mem_cons.1 h with rfl | h
            · rw [hesrc]; exact houtC
            · exact allOut_mono (hpost.sat x h) (fresh_mono hf)

/-- Contract of `Euler::eulerRec`: started in a state whose unvisited arcs are
balanced up to an open trail from `start` to `current`, with enough budget, it
returns normally and appends to `cycle` a trail from `current` to `start`. -/
theorem eulerRec_spec (g : Graph) : ∀ fuel, RecSpec g (eulerRec g fuel) fuel := by
  intro fuel
  induction fuel with
  | zero => intro c s st _ h; exact absurd h (Nat.not_lt_zero _)
  | succ fuel ih =>
    intro c s st hb hfuel
    have hmem : ∀ e ∈ g.outEdges c, e < g.edges.length ∧ g.source e = c := by
      intro e he
      simpa [Graph.outEdges, List.mem_filter, List.mem_range] using he
    have hprev : ∀ e, e < g.edges.length → g.source e = c → e ∉ g.outEdges c →
        st.visited e = true := by
      intro e he hs hnot
      exact absurd (by simp [Graph.outEdges, List.mem_filter, List.mem_range, he, hs]) hnot
    obtain ⟨first, w, vis1, hrun, hfirst, hpost⟩ :=
      eulerLoop_first ih c s (g.outEdges c) 0 st hb hfuel hmem hprev
    refine ⟨w, vis1, ?_, hpost⟩
    simp only [eulerRec, hrun]
    cases first with
    | false => simp
    | true => simp [hfirst rfl]

end EulerLemmas
section EulerMain

variable {g : Graph}

theorem graph_edge_mem {e : Nat} (he : e < g.edges.length) :
    (g.source e, g.target e) ∈ g.edges := by
  have h : g.edges.getD e (0, 0) = g.edges[e] := by
    simp [List.getD_eq_getElem?_getD, List.getElem?_eq_getElem he]
  simp only [Graph.source, Graph.target, h]
  exact List.getElem_mem he

theorem graph_exists_index {p : Nat × Nat} (hp : p ∈ g.edges) :
    ∃ e, e < g.edges.length ∧ g.source e = p.1 ∧ g.target e = p.2 := by
  obtain ⟨i, hi, hget⟩ := List.getElem_of_mem hp
  refine ⟨i, hi, ?_, ?_⟩ <;>
    simp [Graph.source, Graph.target, List.getD_eq_getElem?_getD, List.getElem?_eq_getElem hi, hget]

theorem graph_adj_symm {u v : Nat} (h : g.Adj u v) : g.Adj v u := Or.symm h

theorem graph_connected_symm {u v : Nat} (h : g.Connected u v) : g.Connected v u := by
  induction h with
  | refl => exact Relation.ReflTransGen.refl
  | tail _ hbc ih => exact Relation.ReflTransGen.head (graph_adj_symm hbc) ih

theorem graph_connected_trans {u v w : Nat} (h1 : g.Connected u v) (h2 : g.Connected v w) :
    g.Connected u w := Relation.ReflTransGen.trans h1 h2

theorem unvisOut_init (g : Graph) (v : Nat) : unvisOut g (fun _ => false) v = g.outdeg v := by
  simp [unvisOut, Graph.outdeg, Graph.outEdges, List.countP_eq_length_filter]

theorem unvisIn_init (g : Graph) (v : Nat) : unvisIn g (fun _ => false) v = g.indeg v := by
  simp [unvisIn, Graph.indeg, Graph.inEdges, List.countP_eq_length_filter]

theorem unvisCount_init (g : Graph) : unvisCount g (fun _ => false) = g.edges.length := by
  simp [unvisCount]

theorem unvisIn_eq_zero_iff {vis : Nat → Bool} {v : Nat} :
    unvisIn g vis v = 0 ↔ ∀ e, e < g.edges.length → g.target e = v → vis e = true := by
  unfold unvisIn
  rw [List.countP_eq_zero]
  constructor
  · intro h e he hs
    have := h e (List.mem_range.2 he)
    simpa [hs] using this
  · intro h e he
    have hlt := List.mem_range.1 he
    by_cases hs : g.target e = v
    · simp [h e hlt hs]
    · simp [hs]

/-- Degrees of nodes outside the graph are zero, so balance at the nodes of a
well-formed graph is balance everywhere. -/
theorem balanced_init (hwf : g.WellFormed)
    (hbal : ∀ v, v < g.nNodes → g.indeg v = g.outdeg v) : Balanced g (fun _ => false) := by
  intro v
  rw [unvisOut_init, unvisIn_init]
  by_cases hv : v < g.nNodes
  · exact (hbal v hv).symm
  · have h1 : g.outdeg v = 0 := by
      rw [← unvisOut_init]
      apply unvisOut_eq_zero
      intro e he hs
      exact absurd (hs ▸ (hwf _ (graph_edge_mem he)).1) hv
    have h2 : g.indeg v = 0 := by
      rw [← unvisIn_init, unvisIn_eq_zero_iff]
      intro e he hs
      exact absurd (hs ▸ (hwf _ (graph_edge_mem he)).2) hv
    rw [h1, h2]

/-- After a normal return of the top call every node connected to the start node
has all its out-arcs visited. -/
theorem saturated_of_connected {s : Nat} {w : List Nat} {vis1 : Nat → Bool}
    (hpost : EulerPost g s s (fun _ => false) w vis1) :
    ∀ v, g.Connected s v → AllOut g vis1 v := by
  have hmem : ∀ e, vis1 e = true → e ∈ w := by
    intro e he
    rcases (hpost.fresh.marks e).1 he with h | h
    · exact absurd h (by simp)
    · exact h
  intro v hv
  induction hv with
  | refl => exact hpost.outC
  | @tail u v _ hadj ih =>
    rcases hadj with h | h
    · obtain ⟨i, hi, hsrc, htgt⟩ := graph_exists_index h
      have hiw : i ∈ w := hmem i (ih i hi hsrc)
      rcases isWalk_target hpost.walk i hiw with ht | ⟨f, hf, hfe⟩
      · have : v = s := by rw [← ht]; exact htgt.symm
        rw [this]; exact hpost.outC
      · have : g.source f = v := by rw [hfe]; exact htgt
        rw [← this]; exact hpost.sat f hf
    · obtain ⟨i, hi, hsrc, htgt⟩ := graph_exists_index h
      have hin : unvisIn g vis1 u = 0 := by
        rw [← hpost.bal u]; exact unvisOut_eq_zero ih
      have hiw : i ∈ w := hmem i (unvisIn_eq_zero_iff.1 hin i hi htgt)
      have := hpost.sat i hiw
      rw [hsrc] at this
      exact this

end EulerMain

/-- C1. On a finite directed multigraph in which every node has in-degree equal
to out-degree and all arcs lie in one connected component, for a start node that
is incident to an arc, `Euler::getEulerTour(start)` returns without error a
closed walk from `start` to `start` that contains every arc exactly once; its
length is the number of arcs. -/
theorem getEulerTour_eulerian (g : Graph) (start : Nat) (hwf : g.WellFormed)
    (hbal : ∀ v, v < g.nNodes → g.indeg v = g.outdeg v)
    (hcomp : ∀ p ∈ g.edges, ∀ q ∈ g.edges, g.Connected p.1 q.1)
    (hstart : ∃ p ∈ g.edges, p.1 = start ∨ p.2 = start) :
    ∃ tour, getEulerTour g (some start) = .ok tour ∧ IsWalk g tour start start ∧
      (∀ e, e < g.edges.length → tour.count e = 1) ∧
      (∀ e ∈ tour, e < g.edges.length) ∧ tour.length = g.edges.length := by
  have hconn : ∀ p ∈ g.edges, g.Connected start p.1 := by
    obtain ⟨q, hq, hqs⟩ := hstart
    intro p hp
    rcases hqs with h | h
    · rw [← h]; exact hcomp q hq p hp
    · have : g.Connected start q.1 := by
        rw [← h]
        exact Relation.ReflTransGen.single (Or.inr (by simpa using hq))
      exact graph_connected_trans this (hcomp q hq p hp)
  have hb := balanced_init hwf hbal
  obtain ⟨w, vis1, hrun, hpost⟩ :=
    eulerRec_spec g (g.edges.length + 1) start start ⟨[], fun _ => false⟩
      (openBal_self.2 hb) (by rw [unvisCount_init]; exact Nat.lt_succ_self _)
  have hne : g.empty = false := by
    obtain ⟨q, hq, _⟩ := hstart
    have := (hwf q hq).1
    simp only [Graph.empty, beq_eq_false_iff_ne]
    omega
  have hall : ∀ e, e < g.edges.length → e ∈ w := by
    intro e he
    have hsat := saturated_of_connected hpost (g.source e) (hconn _ (graph_edge_mem he))
    rcases (hpost.fresh.marks e).1 (hsat e he rfl) with h | h
    · exact absurd h (by simp)
    · exact h
  have hlt := isWalk_lt hpost.walk
  have hperm : w.Perm (List.range g.edges.length) := by
    rw [List.perm_ext_iff_of_nodup hpost.fresh.nodup (List.nodup_range _)]
    intro e
    rw [List.mem_range]
    exact ⟨hlt e, hall e⟩
  refine ⟨w, ?_, hpost.walk, ?_, hlt, ?_⟩
  · simp only [getEulerTour, hne, Bool.false_eq_true, if_false, hrun, List.nil_append]
  · intro e he
    exact List.count_eq_one_of_mem hpost.fresh.nodup (hall e he)
  · rw [hperm.length_eq, List.length_range]

/-- C1, witness: the multigraph with arcs 0→1, 1→0, 1→2, 2→1 and start node 0. -/
theorem getEulerTour_eulerian_witness :
    ∃ tour, getEulerTour ⟨3, [(0, 1), (1, 0), (1, 2), (2, 1)]⟩ (some 0) = .ok tour ∧
      IsWalk ⟨3, [(0, 1), (1, 0), (1, 2), (2, 1)]⟩ tour 0 0 ∧
      (∀ e, e < 4 → tour.count e = 1) ∧ (∀ e ∈ tour, e < 4) ∧ tour.length = 4 := by
  have h0 : ∀ p ∈ [((0 : Nat), (1 : Nat)), (1, 0), (1, 2), (2, 1)],
      Graph.Connected ⟨3, [(0, 1), (1, 0), (1, 2), (2, 1)]⟩ 0 p.1 := by
    have h01 : Graph.Connected ⟨3, [(0, 1), (1, 0), (1, 2), (2, 1)]⟩ 0 1 :=
      Relation.ReflTransGen.single (Or.inl (by decide))
    have h12 : Graph.Connected ⟨3, [(0, 1), (1, 0), (1, 2), (2, 1)]⟩ 1 2 :=
      Relation.ReflTransGen.single (Or.inl (by decide))
    intro p hp
    simp only [List.mem_cons, List.mem_singleton, List.not_mem_nil, or_false] at hp
    rcases hp with rfl | rfl | rfl | rfl
    · exact Relation.ReflTransGen.refl
    · exact h01
    · exact h01
    · exact graph_connected_trans h01 h12
  exact getEulerTour_eulerian ⟨3, [(0, 1), (1, 0), (1, 2), (2, 1)]⟩ 0 (by decide) (by decide)
    (fun p hp q hq => graph_connected_trans (graph_connected_symm (h0 p hp)) (h0 q hq)) ⟨(0, 1), by decide, Or.inl rfl⟩
/-! ## Theorems: the model built by `createCplexModel` -/

section ArcModel

variable (g : LGraph) (dist : Nat → ℚ)

theorem rowTermsFrom_cons (j k : Nat) (e : Edge) (es : List Edge) :
    rowTermsFrom g j k (e :: es) =
      ((if g.nodes.indexOf e.src = j then [(k, (-1 : ℚ))] else []) ++
        (if g.nodes.indexOf e.tgt = j then [(k, (1 : ℚ))] else [])) ++
        rowTermsFrom g j (k + 1) es := by
  simp [rowTermsFrom, List.enumFrom_cons, List.flatMap_cons]

theorem addArcVariables_vars (es : List Edge) (m : ArcModel) :
    (addArcVariables g dist es m).vars = m.vars ++ List.replicate es.length IloBoolVar := by
  induction es generalizing m with
  | nil => simp [addArcVariables]
  | cons e es ih =>
    simp only [addArcVariables, ih, List.length_cons, List.replicate_succ, List.append_assoc,
      List.singleton_append]

theorem addArcVariables_objective (es : List Edge) (m : ArcModel) :
    (addArcVariables g dist es m).objective =
      m.objective ++ (es.enumFrom m.vars.length).map (fun p => (p.1, dist p.2.id)) := by
  induction es generalizing m with
  | nil => simp [addArcVariables]
  | cons e es ih =>
    simp only [addArcVariables, ih, List.length_append, List.length_singleton,
      List.enumFrom_cons, List.map_cons, List.append_assoc, List.singleton_append]

theorem addArcVariables_rows (es : List Edge) (m : ArcModel) (j : Nat) :
    (addArcVariables g dist es m).inOutCons[j]? =
      (m.inOutCons[j]?).map
        (fun r => { r with terms := r.terms ++ rowTermsFrom g j m.vars.length es }) := by
  induction es generalizing m with
  | nil =>
    cases h : m.inOutCons[j]? <;> simp [addArcVariables, rowTermsFrom, h]
  | cons e es ih =>
    simp only [addArcVariables, ih, addToRow, List.getElem?_modify, List.length_append,
      List.length_singleton, rowTermsFrom_cons]
    cases h : m.inOutCons[j]? with
    | none => simp
    | some r =>
      by_cases h1 : g.nodes.indexOf e.src = j <;> by_cases h2 : g.nodes.indexOf e.tgt = j <;>
        simp [h1, h2, List.append_assoc]

theorem addArcVariables_length (es : List Edge) (m : ArcModel) :
    (addArcVariables g dist es m).inOutCons.length = m.inOutCons.length := by
  induction es generalizing m with
  | nil => simp [addArcVariables]
  | cons e es ih => simp [addArcVariables, ih, addToRow]

theorem addArcVariables_varId_other (es : List Edge) (m : ArcModel) (i : Nat)
    (hi : ∀ e ∈ es, e.id ≠ i) :
    (addArcVariables g dist es m).edgeToVarId i = m.edgeToVarId i := by
  induction es generalizing m with
  | nil => simp [addArcVariables]
  | cons e es ih =>
    simp only [addArcVariables]
    rw [ih _ (fun x hx => hi x (List.mem_cons_of_mem _ hx))]
    simp [(hi e (List.mem_cons_self _ _)).symm]

theorem addArcVariables_varId (es : List Edge) (m : ArcModel)
    (hnd : (es.map Edge.id).Nodup) (i : Nat) (e : Edge) (he : es[i]? = some e) :
    (addArcVariables g dist es m).edgeToVarId e.id = ((m.vars.length + i : Nat) : Int) := by
  induction es generalizing m i with
  | nil => simp at he
  | cons a es ih =>
    rw [List.map_cons, List.nodup_cons] at hnd
    cases i with
    | zero =>
      simp only [List.getElem?_cons_zero, Option.some.injEq] at he
      subst he
      simp only [addArcVariables]
      rw [addArcVariables_varId_other]
      · simp
      · intro x hx hxa
        exact hnd.1 (hxa ▸ List.mem_map_of_mem Edge.id hx)
    | succ i =>
      simp only [List.getElem?_cons_succ] at he
      simp only [addArcVariables]
      rw [ih _ hnd.2 i he]
      simp only [List.length_append, List.length_singleton]
      congr 1
      omega

end ArcModel
section FlowRows

variable (g : LGraph)

theorem mem_rowTermsFrom (j k : Nat) (es : List Edge) (i : Nat) (c : ℚ) :
    (i, c) ∈ rowTermsFrom g j k es ↔
      ∃ e, k ≤ i ∧ es[i - k]? = some e ∧
        ((c = 1 ∧ g.nodes.indexOf e.tgt = j) ∨ (c = -1 ∧ g.nodes.indexOf e.src = j)) := by
  induction es generalizing k with
  | nil => simp [rowTermsFrom]
  | cons a es ih =>
    rw [rowTermsFrom_cons, List.mem_append, ih]
    constructor
    · rintro (h | ⟨e, hk, he, hc⟩)
      · refine ⟨a, ?_⟩
        rw [List.mem_append] at h
        rcases h with h | h
        · split_ifs at h with h1
          · simp only [List.mem_singleton, Prod.mk.injEq] at h
            obtain ⟨rfl, rfl⟩ := h
            simp [h1]
          · simp at h
        · split_ifs at h with h1
          · simp only [List.mem_singleton, Prod.mk.injEq] at h
            obtain ⟨rfl, rfl⟩ := h
            simp [h1]
          · simp at h
      · refine ⟨e, by omega, ?_, hc⟩
        have : i - k = (i - (k + 1)) + 1 := by omega
        rw [this, List.getElem?_cons_succ]; exact he
    · rintro ⟨e, hk, he, hc⟩
      by_cases hik : i = k
      · left
        subst hik
        simp only [Nat.sub_self, List.getElem?_cons_zero, Option.some.injEq] at he
        subst he
        rcases hc with ⟨rfl, h⟩ | ⟨rfl, h⟩ <;> simp [h]
      · right
        refine ⟨e, by omega, ?_, hc⟩
        have : i - k = (i - (k + 1)) + 1 := by omega
        rw [this, List.getElem?_cons_succ] at he; exact he

theorem rowTermsFrom_nodup (j k : Nat) (es : List Edge) : (rowTermsFrom g j k es).Nodup := by
  induction es generalizing k with
  | nil => simp [rowTermsFrom]
  | cons a es ih =>
    rw [rowTermsFrom_cons, List.nodup_append]
    refine ⟨?_, ih (k + 1), ?_⟩
    · by_cases h1 : g.nodes.indexOf a.src = j <;> by_cases h2 : g.nodes.indexOf a.tgt = j <;>
        simp [h1, h2]
      norm_num
    · intro p hp hq
      obtain ⟨i, c⟩ := p
      rw [mem_rowTermsFrom] at hq
      obtain ⟨e, hk, _, _⟩ := hq
      have : i = k := by
        by_cases h1 : g.nodes.indexOf a.src = j <;> by_cases h2 : g.nodes.indexOf a.tgt = j <;>
          simp [h1, h2] at hp <;> omega
      omega

theorem evalTerms_append (t1 t2 : List (Nat × ℚ)) (x : Nat → ℚ) :
    evalTerms (t1 ++ t2) x = evalTerms t1 x + evalTerms t2 x := by
  simp [evalTerms]

theorem evalTerms_rowTermsFrom (j k : Nat) (es : List Edge) (x : Nat → ℚ) :
    evalTerms (rowTermsFrom g j k es) x =
      (((es.enumFrom k).filter (fun p => g.nodes.indexOf p.2.tgt == j)).map (fun p => x p.1)).sum -
      (((es.enumFrom k).filter (fun p => g.nodes.indexOf p.2.src == j)).map (fun p => x p.1)).sum := by
  induction es generalizing k with
  | nil => simp [rowTermsFrom, evalTerms]
  | cons a es ih =>
    rw [rowTermsFrom_cons, evalTerms_append, ih]
    by_cases h1 : g.nodes.indexOf a.src = j <;> by_cases h2 : g.nodes.indexOf a.tgt = j <;>
      simp [h1, h2, evalTerms, List.enumFrom_cons, List.filter_cons] <;> ring

theorem indexOf_eq_iff_of_nodup {l : List Nat} (hnd : l.Nodup) {j : Nat} (hj : j < l.length)
    (a : Nat) : l.indexOf a = j ↔ a = l[j] := by
  constructor
  · intro h
    have hlt : l.indexOf a < l.length := h ▸ hj
    have := List.getElem_indexOf hlt
    simp only [h] at this
    exact this.symm
  · intro h
    rw [h]
    exact List.indexOf_getElem hnd j hj

theorem createArcModel_row (dist : Nat → ℚ) (j : Nat) (hj : j < g.nodes.length) :
    (createArcModel g dist).inOutCons[j]? =
      some ⟨0, some 0, rowTermsFrom g j 0 g.edges⟩ := by
  simp [createArcModel, addArcVariables_rows, List.getElem?_replicate, hj]

end FlowRows

theorem createArcModel_rows_length (g : LGraph) (dist : Nat → ℚ) :
    (createArcModel g dist).inOutCons.length = g.nodes.length := by
  simp [createArcModel, addArcVariables_length]

theorem evalTerms_flowRow (g : LGraph) (hwf : g.WellFormed) (j : Nat) (hj : j < g.nodes.length)
    (x : Nat → ℚ) :
    evalTerms (rowTermsFrom g j 0 g.edges) x = inFlow g x g.nodes[j] - outFlow g x g.nodes[j] := by
  rw [evalTerms_rowTermsFrom]
  have h1 : (g.edges.enumFrom 0).filter (fun p => g.nodes.indexOf p.2.tgt == j) =
      g.edges.enum.filter (fun p => p.2.tgt == g.nodes[j]) := by
    apply List.filter_congr
    intro p _
    have := indexOf_eq_iff_of_nodup hwf.nodup_nodes hj p.2.tgt
    rw [Bool.eq_iff_iff]
    simpa using this
  have h2 : (g.edges.enumFrom 0).filter (fun p => g.nodes.indexOf p.2.src == j) =
      g.edges.enum.filter (fun p => p.2.src == g.nodes[j]) := by
    apply List.filter_congr
    intro p _
    have := indexOf_eq_iff_of_nodup hwf.nodup_nodes hj p.2.src
    rw [Bool.eq_iff_iff]
    simpa using this
  rw [h1, h2, inFlow, outFlow]

/-- The flow rows hold at `x` exactly when `x` is balanced at every node. -/
theorem flow_rows_hold_iff (g : LGraph) (hwf : g.WellFormed) (dist : Nat → ℚ) (x : Nat → ℚ) :
    (∀ r ∈ (createArcModel g dist).inOutCons, r.Holds x) ↔
      ∀ v ∈ g.nodes, inFlow g x v = outFlow g x v := by
  have hlen := createArcModel_rows_length g dist
  have heval := evalTerms_flowRow g hwf
  constructor
  · intro h v hv
    obtain ⟨j, hj, rfl⟩ := List.getElem_of_mem hv
    have hmem := List.getElem?_mem (createArcModel_row g dist j hj)
    have := h _ hmem
    simp only [Row.Holds, heval j hj, Option.some.injEq, forall_eq'] at this
    linarith [this.1, this.2]
  · intro h r hr
    obtain ⟨j, hj, hjr⟩ := List.getElem_of_mem hr
    rw [hlen] at hj
    have h1 := createArcModel_row g dist j hj
    rw [List.getElem?_eq_getElem (by rw [hlen]; exact hj), hjr] at h1
    simp only [Option.some.injEq] at h1
    subst h1
    have := h _ (List.getElem_mem hj)
    simp only [Row.Holds, heval j hj, Option.some.injEq, forall_eq', this, sub_self, le_refl,
      and_self]

/-- C6. `createCplexModel` creates for every node exactly one equality row with
bounds `[0,0]`, in which every arc entering the node has coefficient `+1`,
every arc leaving it has coefficient `-1`, and no other term occurs; a point
`x` satisfies these rows if and only if at every node the sum of `x` over the
entering arcs equals the sum over the leaving arcs.  The rows are those built
by lines 286-324, and every model returned by `createCplexModel` contains them. -/
theorem createCplexModel_flow_rows (g : LGraph) (dist : Nat → ℚ) (stations : StationNodes)
    (connection_arcs : Nat → Bool) (hwf : g.WellFormed) :
    (createArcModel g dist).inOutCons.length = g.nodes.length ∧
    (∀ j (hj : j < g.nodes.length), ∃ r, (createArcModel g dist).inOutCons[j]? = some r ∧
      r.lb = 0 ∧ r.ub = some 0 ∧ r.terms.Nodup ∧
      (∀ i c, (i, c) ∈ r.terms ↔ ∃ e, g.edges[i]? = some e ∧
        ((c = 1 ∧ e.tgt = g.nodes[j]) ∨ (c = -1 ∧ e.src = g.nodes[j]))) ∧
      ∀ x, evalTerms r.terms x = inFlow g x g.nodes[j] - outFlow g x g.nodes[j]) ∧
    (∀ x, (∀ r ∈ (createArcModel g dist).inOutCons, r.Holds x) ↔
      ∀ v ∈ g.nodes, inFlow g x v = outFlow g x v) ∧
    (∀ m ev, createCplexModel g dist stations connection_arcs = .ok (m, ev) →
      m.inOutCons = (createArcModel g dist).inOutCons) := by
  have hlen := createArcModel_rows_length g dist
  have heval := evalTerms_flowRow g hwf
  refine ⟨hlen, ?_, ?_, ?_⟩
  · intro j hj
    refine ⟨_, createArcModel_row g dist j hj, rfl, rfl, rowTermsFrom_nodup g j 0 g.edges, ?_,
      heval j hj⟩
    intro i c
    simp only [mem_rowTermsFrom, Nat.zero_le, Nat.sub_zero, true_and,
      indexOf_eq_iff_of_nodup hwf.nodup_nodes hj]
  · intro x
    exact flow_rows_hold_iff g hwf dist x
  · intro m ev h
    simp only [createCplexModel] at h
    split at h
    · exact absurd h (by simp)
    · simp only [Except.ok.injEq, Prod.mk.injEq] at h
      rw [← h.1]
section Variables

theorem createArcModel_varId (g : LGraph) (dist : Nat → ℚ) (hwf : g.WellFormed)
    (i : Nat) (e : Edge) (he : g.edges[i]? = some e) :
    (createArcModel g dist).edgeToVarId e.id = (i : Int) := by
  have := addArcVariables_varId g dist g.edges
    ⟨[], List.replicate g.nodes.length ⟨0, some 0, []⟩, [], fun _ => -1⟩ hwf.nodup_ids i e he
  simpa [createArcModel] using this

theorem createCplexModel_ok_eq {g : LGraph} {dist : Nat → ℚ} {stations : StationNodes}
    {connection_arcs : Nat → Bool} {m : CplexModel} {ev : Nat → Int}
    (h : createCplexModel g dist stations connection_arcs = .ok (m, ev)) :
    m.objective = (createArcModel g dist).objective ∧ m.vars = (createArcModel g dist).vars ∧
      m.inOutCons = (createArcModel g dist).inOutCons ∧
      ev = (createArcModel g dist).edgeToVarId ∧
      createCoverage g (createArcModel g dist).edgeToVarId connection_arcs stations
        = .ok m.outCons := by
  simp only [createCplexModel] at h
  split at h
  · exact absurd h (by simp)
  · rename_i rows hrows
    simp only [Except.ok.injEq, Prod.mk.injEq] at h
    obtain ⟨rfl, rfl⟩ := h
    exact ⟨rfl, rfl, rfl, rfl, hrows⟩

end Variables

/-- C8. The model built by `createCplexModel` has exactly one decision variable
per arc: the arc at position `i` of the graph gets the variable index `i`, so
the arc-to-variable index is a bijection onto `0 .. narcs-1`; every variable is
an `IloBoolVar` (integral, domain 0..1); the minimised objective has the
coefficient `dist[e]` on the variable of arc `e`, so its value at `x` is the sum
over the arcs of cost times `x`.  Every model returned by `createCplexModel`
has these variables and this objective. -/
theorem createCplexModel_variables (g : LGraph) (dist : Nat → ℚ) (stations : StationNodes)
    (connection_arcs : Nat → Bool) (hwf : g.WellFormed) :
    (createArcModel g dist).vars.length = g.edges.length ∧
    (∀ v ∈ (createArcModel g dist).vars, v = IloBoolVar) ∧
    (IloBoolVar.lb = 0 ∧ IloBoolVar.ub = 1 ∧ IloBoolVar.integral = true) ∧
    (∀ (i : Nat) (e : Edge), g.edges[i]? = some e →
      (createArcModel g dist).edgeToVarId e.id = (i : Int)) ∧
    (createArcModel g dist).objective = g.edges.enum.map (fun p => (p.1, dist p.2.id)) ∧
    (∀ x, evalTerms (createArcModel g dist).objective x =
      (g.edges.enum.map (fun p => dist p.2.id * x p.1)).sum) ∧
    (∀ m ev, createCplexModel g dist stations connection_arcs = .ok (m, ev) →
      m.vars = (createArcModel g dist).vars ∧ m.objective = (createArcModel g dist).objective ∧
        ev = (createArcModel g dist).edgeToVarId) := by
  have hobj : (createArcModel g dist).objective = g.edges.enum.map (fun p => (p.1, dist p.2.id)) := by
    simp [createArcModel, addArcVariables_objective, List.enum]
  refine ⟨?_, ?_, ⟨rfl, rfl, rfl⟩, createArcModel_varId g dist hwf, hobj, ?_, ?_⟩
  · simp [createArcModel, addArcVariables_vars]
  · intro v hv
    simp only [createArcModel, addArcVariables_vars, List.nil_append] at hv
    exact List.eq_of_mem_replicate hv
  · intro x
    rw [hobj, evalTerms, List.map_map]
    rfl
  · intro m ev h
    obtain ⟨h1, h2, _, h4, _⟩ := createCplexModel_ok_eq h
    exact ⟨h2, h1, h4⟩
section Coverage

variable (g : LGraph)

theorem coverOutEdges_ok (ev : Nat → Int) (conn : Nat → Bool) (cluster : List Nat)
    (es : List Edge) (lhs : List (Nat × ℚ))
    (h : ∀ e ∈ es, e.tgt ∉ cluster → conn e.id = false) :
    coverOutEdges ev conn cluster es lhs =
      .ok (lhs ++ (es.filter (fun e => !contains cluster e.tgt)).map
        (fun e => ((ev e.id).toNat, (1 : ℚ)))) := by
  induction es generalizing lhs with
  | nil => simp [coverOutEdges]
  | cons e es ih =>
    have ih' := fun lhs => ih lhs (fun x hx => h x (List.mem_cons_of_mem _ hx))
    by_cases ht : e.tgt ∈ cluster
    · simp [coverOutEdges, contains, ht, ih']
    · have := h e (List.mem_cons_self _ _) ht
      simp [coverOutEdges, contains, ht, this, ih']

theorem coverNodes_ok (ev : Nat → Int) (conn : Nat → Bool) (cluster ns : List Nat)
    (lhs : List (Nat × ℚ))
    (h : ∀ e ∈ g.edges, e.src ∈ ns → e.tgt ∉ cluster → conn e.id = false) :
    coverNodes g ev conn cluster ns lhs = .ok (lhs ++ coverTerms g ev cluster ns) := by
  induction ns generalizing lhs with
  | nil => simp [coverNodes, coverTerms]
  | cons n ns ih =>
    have h1 : ∀ e ∈ g.outEdges n, e.tgt ∉ cluster → conn e.id = false := by
      intro e he
      simp only [LGraph.outEdges, List.mem_filter, beq_iff_eq] at he
      exact h e he.1 (by simp [he.2])
    have ih' := fun lhs => ih lhs
      (fun e he hs => h e he (List.mem_cons_of_mem _ hs))
    simp only [coverNodes, coverOutEdges_ok ev conn cluster _ lhs h1, ih', coverTerms,
      List.flatMap_cons, List.append_assoc]

theorem createCoverage_ok (ev : Nat → Int) (conn : Nat → Bool) (stations : StationNodes)
    (h : NoConnectionLeaves g stations conn) :
    createCoverage g ev conn stations =
      .ok (stations.map (fun station => ⟨1, none, coverTerms g ev station.2 station.2⟩)) := by
  induction stations with
  | nil => simp [createCoverage]
  | cons station rest ih =>
    have h1 := coverNodes_ok g ev conn station.2 station.2 []
      (fun e he hs ht => h station (List.mem_cons_self _ _) e he hs ht)
    have h2 := ih (fun st hst => h st (List.mem_cons_of_mem _ hst))
    simp only [createCoverage, h1, h2, List.nil_append, List.map_cons]

variable {g}

theorem edge_eq_of_id (hwf : g.WellFormed) {a b : Edge} (ha : a ∈ g.edges) (hb : b ∈ g.edges)
    (h : a.id = b.id) : a = b :=
  List.inj_on_of_nodup_map hwf.nodup_ids ha hb h

theorem mem_coverTerms (hwf : g.WellFormed) (dist : Nat → ℚ) (cluster : List Nat) (i : Nat)
    (c : ℚ) :
    (i, c) ∈ coverTerms g (createArcModel g dist).edgeToVarId cluster cluster ↔
      c = 1 ∧ LeavesCluster g cluster i := by
  simp only [coverTerms, List.mem_flatMap, List.mem_map, List.mem_filter, LGraph.outEdges,
    contains, Prod.mk.injEq, LeavesCluster]
  constructor
  · rintro ⟨n, hn, e, ⟨⟨he, hsrc⟩, htgt⟩, hi, rfl⟩
    obtain ⟨k, hk⟩ := List.mem_iff_getElem?.1 he
    rw [createArcModel_varId g dist hwf k e hk] at hi
    simp only [Int.toNat_ofNat] at hi
    subst hi
    refine ⟨rfl, e, hk, ?_, by simpa using htgt⟩
    simp only [beq_iff_eq] at hsrc
    rw [hsrc]; exact hn
  · rintro ⟨rfl, e, hk, hsrc, htgt⟩
    refine ⟨e.src, hsrc, e, ⟨⟨List.getElem?_mem hk, by simp⟩, by simpa using htgt⟩, ?_, rfl⟩
    rw [createArcModel_varId g dist hwf i e hk]
    simp

theorem coverTerms_nodup (hwf : g.WellFormed) (dist : Nat → ℚ) (cluster : List Nat)
    (hnd : cluster.Nodup) :
    (coverTerms g (createArcModel g dist).edgeToVarId cluster cluster).Nodup := by
  have hedges : g.edges.Nodup := List.Nodup.of_map Edge.id hwf.nodup_ids
  have hinj : ∀ a ∈ g.edges, ∀ b ∈ g.edges,
      (((createArcModel g dist).edgeToVarId a.id).toNat, (1 : ℚ)) =
        (((createArcModel g dist).edgeToVarId b.id).toNat, (1 : ℚ)) → a = b := by
    intro a ha b hb h
    obtain ⟨ka, hka⟩ := List.mem_iff_getElem?.1 ha
    obtain ⟨kb, hkb⟩ := List.mem_iff_getElem?.1 hb
    rw [createArcModel_varId g dist hwf ka a hka, createArcModel_varId g dist hwf kb b hkb] at h
    simp only [Int.toNat_ofNat, Prod.mk.injEq, and_true] at h
    subst h
    rw [hka] at hkb
    exact Option.some.inj hkb
  unfold coverTerms
  rw [List.nodup_flatMap]
  constructor
  · intro n _
    apply List.Nodup.map_on
    · intro a ha b hb h
      simp only [List.mem_filter, LGraph.outEdges] at ha hb
      exact hinj a ha.1.1 b hb.1.1 h
    · exact ((hedges.filter _).filter _)
  · apply hnd.pairwise_of_forall_ne
    intro n _ n' _ hne p hp hp'
    simp only [List.mem_map, List.mem_filter, LGraph.outEdges, beq_iff_eq] at hp hp'
    obtain ⟨a, ⟨⟨ha, hsa⟩, _⟩, rfl⟩ := hp
    obtain ⟨b, ⟨⟨hb, hsb⟩, _⟩, hab⟩ := hp'
    have := hinj b hb a ha hab
    subst this
    exact hne (hsa.symm.trans hsb)

/-- A sum of values that are each 0 or 1 is at least 1 exactly when one of them is 1. -/
theorem one_le_sum_binary (l : List (Nat × ℚ)) (x : Nat → ℚ)
    (hc : ∀ t ∈ l, t.2 = 1) (hx : ∀ t ∈ l, x t.1 = 0 ∨ x t.1 = 1) :
    1 ≤ evalTerms l x ↔ ∃ t ∈ l, x t.1 = 1 := by
  have hnonneg : ∀ (l : List (Nat × ℚ)), (∀ t ∈ l, t.2 = 1) →
      (∀ t ∈ l, x t.1 = 0 ∨ x t.1 = 1) → 0 ≤ evalTerms l x := by
    intro l
    induction l with
    | nil => intro _ _; simp [evalTerms]
    | cons a l ih =>
      intro hc hx
      have := ih (fun t ht => hc t (List.mem_cons_of_mem _ ht))
        (fun t ht => hx t (List.mem_cons_of_mem _ ht))
      simp only [evalTerms, List.map_cons, List.sum_cons] at this ⊢
      rw [hc a (List.mem_cons_self _ _)]
      rcases hx a (List.mem_cons_self _ _) with h | h <;> rw [h] <;> linarith
  induction l with
  | nil => simp [evalTerms]
  | cons a l ih =>
    have hc' := fun t ht => hc t (List.mem_cons_of_mem _ ht)
    have hx' := fun t ht => hx t (List.mem_cons_of_mem _ ht)
    have ih' := ih hc' hx'
    have hnn := hnonneg l hc' hx'
    simp only [evalTerms, List.map_cons, List.sum_cons] at ih' hnn ⊢
    rw [hc a (List.mem_cons_self _ _)]
    rcases hx a (List.mem_cons_self _ _) with h | h
    · rw [h]
      simp only [mul_zero, zero_add, List.mem_cons, exists_eq_or_imp, h, zero_ne_one, false_or]
      exact ih'
    · rw [h]
      constructor
      · intro _; exact ⟨a, List.mem_cons_self _ _, h⟩
      · intro _; linarith

theorem coverOutEdges_inv (ev : Nat → Int) (conn : Nat → Bool) (cluster : List Nat) :
    ∀ (es : List Edge) (lhs lhs' : List (Nat × ℚ)),
      coverOutEdges ev conn cluster es lhs = .ok lhs' →
      ∀ e ∈ es, e.tgt ∉ cluster → conn e.id = false := by
  intro es
  induction es with
  | nil => intro _ _ _ e he; exact absurd he (by simp)
  | cons a es ih =>
    intro lhs lhs' h e he ht
    simp only [coverOutEdges] at h
    split at h
    · split at h
      · exact absurd h (by simp)
      · rename_i hconn
        rcases List.mem_cons.1 he with rfl | he'
        · simpa using hconn
        · exact ih _ _ h e he' ht
    · rename_i hin
      rcases List.mem_cons.1 he with rfl | he'
      · exact absurd (by simpa [contains] using hin) ht
      · exact ih _ _ h e he' ht

theorem coverNodes_inv (g : LGraph) (ev : Nat → Int) (conn : Nat → Bool) (cluster : List Nat) :
    ∀ (ns : List Nat) (lhs lhs' : List (Nat × ℚ)),
      coverNodes g ev conn cluster ns lhs = .ok lhs' →
      ∀ e ∈ g.edges, e.src ∈ ns → e.tgt ∉ cluster → conn e.id = false := by
  intro ns
  induction ns with
  | nil => intro _ _ _ e _ hs; exact absurd hs (by simp)
  | cons n ns ih =>
    intro lhs lhs' h e he hs ht
    simp only [coverNodes] at h
    split at h
    · exact absurd h (by simp)
    · rename_i lhs1 h1
      rcases List.mem_cons.1 hs with hsn | hsn
      · exact coverOutEdges_inv ev conn cluster _ _ _ h1 e
          (by simp [LGraph.outEdges, he, hsn]) ht
      · exact ih _ _ h e he hsn ht

/-- The coverage rows are created only if no arc that leaves a cluster is
flagged as a connection arc. -/
theorem createCoverage_inv (g : LGraph) (ev : Nat → Int) (conn : Nat → Bool) :
    ∀ (stations : StationNodes) (rows : List Row),
      createCoverage g ev conn stations = .ok rows → NoConnectionLeaves g stations conn := by
  intro stations
  induction stations with
  | nil => intro _ _ st hst; exact absurd hst (by simp)
  | cons station rest ih =>
    intro rows h st hst e he hs ht
    simp only [createCoverage] at h
    split at h
    · exact absurd h (by simp)
    · rename_i lhs h1
      split at h
      · exact absurd h (by simp)
      · rename_i rows1 h2
        rcases List.mem_cons.1 hst with rfl | hst'
        · exact coverNodes_inv g ev conn _ _ _ _ h1 e he hs ht
        · exact ih rows1 h2 st hst' e he hs ht

end Coverage

/-- C7. `createCplexModel` returns a model exactly when no arc leaving a
cluster is flagged as a connection arc (the condition asserted in the loop).
Every model it returns has exactly one coverage row per station cluster, in
cluster order; the row of a cluster is `1 <= sum` with no upper bound, it
contains with coefficient 1 the variable of every arc whose source is in the
cluster and whose target is outside it, once each, and no other term; so a
binary `x` satisfies it if and only if `x` selects at least one arc leaving the
cluster. -/
theorem createCplexModel_coverage_rows (g : LGraph) (dist : Nat → ℚ) (stations : StationNodes)
    (connection_arcs : Nat → Bool) (hwf : g.WellFormed)
    (hsets : ∀ station ∈ stations, station.2.Nodup) :
    ((∃ m ev, createCplexModel g dist stations connection_arcs = .ok (m, ev)) ↔
      NoConnectionLeaves g stations connection_arcs) ∧
    ∀ m ev, createCplexModel g dist stations connection_arcs = .ok (m, ev) →
      m.outCons.length = stations.length ∧
      ∀ k (hk : k < stations.length), ∃ r, m.outCons[k]? = some r ∧
        r.lb = 1 ∧ r.ub = none ∧ r.terms.Nodup ∧
        (∀ i c, (i, c) ∈ r.terms ↔ c = 1 ∧ LeavesCluster g stations[k].2 i) ∧
        ∀ x : Nat → ℚ, (∀ i, i < g.edges.length → x i = 0 ∨ x i = 1) →
          (r.Holds x ↔ ∃ i, LeavesCluster g stations[k].2 i ∧ x i = 1) := by
  have hpre_of : ∀ m ev, createCplexModel g dist stations connection_arcs = .ok (m, ev) →
      NoConnectionLeaves g stations connection_arcs := by
    intro m ev h
    simp only [createCplexModel] at h
    split at h
    · exact absurd h (by simp)
    · rename_i rows hrows
      exact createCoverage_inv g _ connection_arcs stations rows hrows
  constructor
  · constructor
    · rintro ⟨m, ev, h⟩
      exact hpre_of m ev h
    · intro hpre
      have hcov := createCoverage_ok g (createArcModel g dist).edgeToVarId connection_arcs
        stations hpre
      exact ⟨⟨(createArcModel g dist).objective, (createArcModel g dist).vars,
          (createArcModel g dist).inOutCons,
          stations.map (fun station =>
            ⟨1, none, coverTerms g (createArcModel g dist).edgeToVarId station.2 station.2⟩)⟩,
        (createArcModel g dist).edgeToVarId, by simp only [createCplexModel, hcov]⟩
  intro m ev hm
  have hpre := hpre_of m ev hm
  have hcov := createCoverage_ok g (createArcModel g dist).edgeToVarId connection_arcs stations hpre
  simp only [createCplexModel, hcov, Except.ok.injEq, Prod.mk.injEq] at hm
  obtain ⟨rfl, _⟩ := hm
  refine ⟨by simp, ?_⟩
  intro k hk
  have hmem := mem_coverTerms hwf dist stations[k].2
  refine ⟨⟨1, none, coverTerms g (createArcModel g dist).edgeToVarId stations[k].2 stations[k].2⟩,
    by simp [List.getElem?_map, List.getElem?_eq_getElem hk], rfl, rfl,
    coverTerms_nodup hwf dist _ (hsets _ (List.getElem_mem hk)), hmem, ?_⟩
  intro x hx
  have hlt : ∀ i, LeavesCluster g stations[k].2 i → i < g.edges.length := by
    rintro i ⟨e, he, _⟩
    exact (List.getElem?_eq_some_iff.1 he).1
  simp only [Row.Holds, reduceCtorEq, false_implies, implies_true, and_true]
  rw [one_le_sum_binary _ x (fun t ht => ((hmem t.1 t.2).1 ht).1)
    (fun t ht => hx t.1 (hlt _ ((hmem t.1 t.2).1 ht).2))]
  constructor
  · rintro ⟨t, ht, hxt⟩
    exact ⟨t.1, ((hmem t.1 t.2).1 ht).2, hxt⟩
  · rintro ⟨i, hi, hxi⟩
    exact ⟨(i, 1), (hmem i 1).2 ⟨rfl, hi⟩, hxi⟩
/-! ## Theorems: the unique-station precondition -/

section UniqueStation

theorem duplicateNode_ne (name : String) : duplicateNode name ≠ noUniqueStation := by
  intro h
  have h1 := congrArg (fun s => s.data[15]?) h
  simp only [duplicateNode, noUniqueStation, String.data_append, List.append_assoc] at h1
  simp at h1

theorem notAllAssigned_ne : notAllAssigned ≠ noUniqueStation := by decide

theorem assertConnection_ne : assertConnection ≠ noUniqueStation := by decide

theorem foldl_count (l : List Edge) (p : Edge → Bool) (r : Nat) :
    l.foldl (fun result e => if p e then result + 1 else result) r = r + l.countP p := by
  induction l generalizing r with
  | nil => simp
  | cons a l ih =>
    by_cases h : p a
    · simp [List.foldl_cons, h, ih, List.countP_cons]; omega
    · simp [List.foldl_cons, h, ih, List.countP_cons]

theorem countP_or_disjoint (l : List Edge) (p q : Edge → Bool)
    (h : ∀ e, ¬ (p e = true ∧ q e = true)) :
    l.countP (fun e => p e || q e) = l.countP p + l.countP q := by
  induction l with
  | nil => simp
  | cons a l ih =>
    have := h a
    cases hp : p a <;> cases hq : q a <;> simp_all [List.countP_cons] <;> omega

theorem countNonStation_fold (g : LGraph) (cluster ns : List Nat) (hnd : ns.Nodup) (r : Nat) :
    ns.foldl
      (fun result n =>
        (g.inEdges n).foldl
          (fun result e => if !contains cluster e.src then result + 1 else result) result) r =
      r + g.edges.countP (fun e => decide (e.tgt ∈ ns) && decide (e.src ∉ cluster)) := by
  induction ns generalizing r with
  | nil => simp
  | cons n ns ih =>
    rw [List.nodup_cons] at hnd
    rw [List.foldl_cons, ih hnd.2, foldl_count, LGraph.inEdges, List.countP_filter]
    have hsplit : g.edges.countP (fun e => decide (e.tgt ∈ n :: ns) && decide (e.src ∉ cluster)) =
        g.edges.countP (fun e => (!contains cluster e.src) && (e.tgt == n)) +
        g.edges.countP (fun e => decide (e.tgt ∈ ns) && decide (e.src ∉ cluster)) := by
      rw [← countP_or_disjoint]
      · apply List.countP_congr
        intro e _
        by_cases h1 : e.tgt = n <;> by_cases h2 : e.src ∈ cluster <;>
          simp [h1, h2, contains]
      · intro e ⟨h1, h2⟩
        simp only [Bool.and_eq_true, beq_iff_eq, decide_eq_true_eq] at h1 h2
        exact hnd.1 (h1.2 ▸ h2.1)
    rw [hsplit]
    omega

theorem countNonStationInEdges_eq (g : LGraph) (cluster : List Nat) (hnd : cluster.Nodup) :
    countNonStationInEdges g cluster = enteringArcs g cluster := by
  rw [countNonStationInEdges, countNonStation_fold g cluster cluster hnd 0, enteringArcs,
    Nat.zero_add]

theorem findUniqueStation_none_iff (g : LGraph) (stations : StationNodes)
    (hsets : ∀ station ∈ stations, station.2.Nodup) :
    findUniqueStation g stations = none ↔ ∀ station ∈ stations, enteringArcs g station.2 ≠ 1 := by
  rw [findUniqueStation, List.find?_eq_none]
  constructor
  · intro h station hs
    have := h station hs
    rw [countNonStationInEdges_eq g _ (hsets station hs)] at this
    simpa using this
  · intro h station hs
    rw [countNonStationInEdges_eq g _ (hsets station hs)]
    simpa using h station hs

theorem assignStation_error (name : String) (ns : List Nat) (idx : StationIndex) (m : String)
    (h : assignStation name ns idx = .error m) : m = duplicateNode name := by
  induction ns generalizing idx with
  | nil => simp [assignStation] at h
  | cons n ns ih =>
    simp only [assignStation] at h
    split at h
    · simpa using h.symm
    · exact ih _ h

theorem assignStations_error (stations : StationNodes) (idx : StationIndex) (m : String)
    (h : assignStations stations idx = .error m) : ∃ name, m = duplicateNode name := by
  induction stations generalizing idx with
  | nil => simp [assignStations] at h
  | cons station rest ih =>
    simp only [assignStations] at h
    split at h
    · rename_i m' hm'
      simp only [Except.error.injEq] at h
      exact ⟨station.1, h ▸ assignStation_error _ _ _ _ hm'⟩
    · exact ih _ h

theorem initializeStations_error_iff (g : LGraph) (stations : StationNodes) :
    initializeStations g stations = .error noUniqueStation ↔
      findUniqueStation g stations = none := by
  unfold initializeStations
  cases hf : findUniqueStation g stations with
  | none => simp
  | some st =>
    simp only [Option.isNone_some, Bool.false_eq_true, if_false, reduceCtorEq, iff_false]
    split
    · rename_i m hm
      obtain ⟨name, rfl⟩ := assignStations_error _ _ _ hm
      simp only [Except.error.injEq]
      exact duplicateNode_ne name
    · split
      · simp only [Except.error.injEq]; exact notAllAssigned_ne
      · simp

theorem createCplexModel_error (g : LGraph) (dist : Nat → ℚ) (stations : StationNodes)
    (conn : Nat → Bool) (m : String) (h : createCplexModel g dist stations conn = .error m) :
    m = assertConnection := by
  have hout : ∀ ev cluster es lhs m, coverOutEdges ev conn cluster es lhs = .error m →
      m = assertConnection := by
    intro ev cluster es
    induction es with
    | nil => intro lhs m h; simp [coverOutEdges] at h
    | cons e es ih =>
      intro lhs m h
      simp only [coverOutEdges] at h
      split at h
      · split at h
        · simpa using h.symm
        · exact ih _ _ h
      · exact ih _ _ h
  have hnodes : ∀ ev cluster ns lhs m, coverNodes g ev conn cluster ns lhs = .error m →
      m = assertConnection := by
    intro ev cluster ns
    induction ns with
    | nil => intro lhs m h; simp [coverNodes] at h
    | cons n ns ih =>
      intro lhs m h
      simp only [coverNodes] at h
      split at h
      · rename_i m' hm'
        simp only [Except.error.injEq] at h
        exact h ▸ hout _ _ _ _ _ hm'
      · exact ih _ _ h
  have hcov : ∀ ev sts m, createCoverage g ev conn sts = .error m → m = assertConnection := by
    intro ev sts
    induction sts with
    | nil => intro m h; simp [createCoverage] at h
    | cons st rest ih =>
      intro m h
      simp only [createCoverage] at h
      split at h
      · rename_i m' hm'
        simp only [Except.error.injEq] at h
        exact h ▸ hnodes _ _ _ _ _ hm'
      · split at h
        · rename_i m' hm'
          simp only [Except.error.injEq] at h
          exact h ▸ ih _ hm'
        · simp at h
  simp only [createCplexModel] at h
  split at h
  · rename_i m' hm'
    simp only [Except.error.injEq] at h
    exact h ▸ hcov _ _ _ hm'
  · simp at h

end UniqueStation

/-- C9. Constructing a `StationSolver` fails with the error `Optimality can only
be guaranteed, if the graph contains at least one unique station` if and only
if no station cluster is entered by exactly one arc from a node outside the
cluster; the error is raised by `initializeStations`, before `createCplexModel`
builds the model. -/
theorem stationSolver_unique_station_error (epInt : ℚ) (g : LGraph) (dist : Nat → ℚ)
    (stations : StationNodes) (connection_arcs : Nat → Bool)
    (hsets : ∀ station ∈ stations, station.2.Nodup) :
    (StationSolver.new epInt g dist stations connection_arcs = .error noUniqueStation ↔
      ∀ station ∈ stations, enteringArcs g station.2 ≠ 1) ∧
    (initializeStations g stations = .error noUniqueStation ↔
      ∀ station ∈ stations, enteringArcs g station.2 ≠ 1) := by
  have hinit := (initializeStations_error_iff g stations).trans
    (findUniqueStation_none_iff g stations hsets)
  refine ⟨?_, hinit⟩
  rw [← hinit]
  unfold StationSolver.new
  cases h1 : initializeStations g stations with
  | error m => simp
  | ok idx =>
    simp only [reduceCtorEq, iff_false]
    cases h2 : createCplexModel g dist stations connection_arcs with
    | error m =>
      simp only [Except.error.injEq]
      rw [createCplexModel_error g dist stations connection_arcs m h2]
      exact assertConnection_ne
    | ok p => simp
/-! ## Theorems: connected components -/

section Components

/-- LEDA contract of `COMPONENTS`: two nodes of the graph get the same number
exactly when they are connected. -/
theorem COMPONENTS_eq_iff (nodes : List Nat) (es : List (Nat × Nat))
    (hes : ∀ p ∈ es, p.1 ∈ nodes ∧ p.2 ∈ nodes) {u v : Nat}
    (hu : u ∈ nodes) (hv : v ∈ nodes) :
    (COMPONENTS nodes es).1 u = (COMPONENTS nodes es).1 v ↔ ConnIn es u v := by
  simp only [COMPONENTS, Nat.cast_inj, compTable_eq nodes es hes, List.map_map,
    labelOf_map nodes (compLabel es) hu, labelOf_map nodes (compLabel es) hv]
  have hf : (Prod.snd ∘ fun n => (n, compLabel es n)) = compLabel es := rfl
  rw [hf, List.indexOf_inj (List.mem_dedup.2 (List.mem_map.2 ⟨u, hu, rfl⟩))
    (List.mem_dedup.2 (List.mem_map.2 ⟨v, hv, rfl⟩))]
  exact compLabel_eq_iff es u v

/-- LEDA contract of `COMPONENTS`: the numbers are `0 .. k-1`. -/
theorem COMPONENTS_range (nodes : List Nat) (es : List (Nat × Nat))
    (hes : ∀ p ∈ es, p.1 ∈ nodes ∧ p.2 ∈ nodes) {u : Nat} (hu : u ∈ nodes) :
    0 ≤ (COMPONENTS nodes es).1 u ∧
      (COMPONENTS nodes es).1 u < ((COMPONENTS nodes es).2 : Int) := by
  simp only [COMPONENTS, Nat.cast_nonneg, Nat.cast_lt, true_and, compTable_eq nodes es hes,
    List.map_map, labelOf_map nodes (compLabel es) hu]
  have hf : (Prod.snd ∘ fun n => (n, compLabel es n)) = compLabel es := rfl
  rw [hf]
  exact List.indexOf_lt_length.2 (List.mem_dedup.2 (List.mem_map.2 ⟨u, hu, rfl⟩))

end Components
/-! ## Theorems: the constructed solver -/

section SolverFacts

theorem assignStation_spec (name : String) (ns : List Nat) (idx idx1 : StationIndex)
    (h : assignStation name ns idx = .ok idx1) (hnd : idx.nodesInStations.Nodup) :
    idx1.nStations = idx.nStations ∧ idx1.nodesInStations = idx.nodesInStations ++ ns ∧
      idx1.nodesInStations.Nodup ∧
      (∀ n ∈ ns, idx1.nodeToStationId n = (idx.nStations : Int)) ∧
      (∀ n, n ∉ ns → idx1.nodeToStationId n = idx.nodeToStationId n) := by
  induction ns generalizing idx with
  | nil =>
    simp only [assignStation, Except.ok.injEq] at h
    subst h
    simp [hnd]
  | cons n ns ih =>
    simp only [assignStation] at h
    split at h
    · exact absurd h (by simp)
    · rename_i hc
      have hn : n ∉ idx.nodesInStations := by simpa [contains] using hc
      have hnd1 : (idx.nodesInStations ++ [n]).Nodup := by
        rw [List.nodup_append]
        exact ⟨hnd, List.nodup_singleton n, by
          intro a ha hb
          rw [List.mem_singleton] at hb
          exact hn (hb ▸ ha)⟩
      obtain ⟨h1, h2, h3, h4, h5⟩ := ih _ h hnd1
      simp only at h1 h2 h4 h5
      refine ⟨h1, by simp [h2], h3, ?_, ?_⟩
      · intro a ha
        by_cases han : a ∈ ns
        · exact h4 a han
        · have : a = n := by simpa [han] using ha
          rw [h5 a han]; simp [this]
      · intro a ha
        have h6 : a ∉ ns := fun h' => ha (List.mem_cons_of_mem _ h')
        have h7 : a ≠ n := fun h' => ha (h' ▸ List.mem_cons_self _ _)
        rw [h5 a h6]; simp [h7]

theorem assignStations_spec (stations : StationNodes) (idx idx1 : StationIndex)
    (h : assignStations stations idx = .ok idx1) (hnd : idx.nodesInStations.Nodup) :
    idx1.nStations = idx.nStations + stations.length ∧
      idx1.nodesInStations = idx.nodesInStations ++ stations.flatMap (fun st => st.2) ∧
      idx1.nodesInStations.Nodup ∧
      (∀ k (hk : k < stations.length), ∀ n ∈ stations[k].2,
        idx1.nodeToStationId n = ((idx.nStations + k : Nat) : Int)) := by
  induction stations generalizing idx with
  | nil =>
    simp only [assignStations, Except.ok.injEq] at h
    subst h
    simp [hnd]
  | cons st rest ih =>
    simp only [assignStations] at h
    split at h
    · exact absurd h (by simp)
    · rename_i idx2 h2
      obtain ⟨a1, a2, a3, a4, a5⟩ := assignStation_spec _ _ _ _ h2 hnd
      obtain ⟨b1, b2, b3, b4⟩ := ih _ h (by simpa using a3)
      simp only at b1 b2 b4
      refine ⟨by rw [b1, a1, List.length_cons]; omega, by simp [b2, a2], b3, ?_⟩
      intro k hk n hn
      cases k with
      | zero =>
        simp only [List.getElem_cons_zero] at hn
        have hnot : n ∉ rest.flatMap (fun st => st.2) := by
          intro hmem
          rw [b2, a2] at b3
          have := (List.nodup_append.1 b3).2.2
          exact this (List.mem_append_right _ hn) hmem
        -- the node is not assigned again by the remaining stations
        have hrest : ∀ (sts : StationNodes) (i i1 : StationIndex),
            assignStations sts i = .ok i1 → n ∉ sts.flatMap (fun st => st.2) →
            i1.nodeToStationId n = i.nodeToStationId n := by
          intro sts
          induction sts with
          | nil =>
            intro i i1 hi _
            simp only [assignStations, Except.ok.injEq] at hi
            subst hi; rfl
          | cons s1 sts ihs =>
            intro i i1 hi hmem
            simp only [assignStations] at hi
            split at hi
            · exact absurd hi (by simp)
            · rename_i i2 hi2
              simp only [List.flatMap_cons, List.mem_append, not_or] at hmem
              have e1 := ihs _ _ hi hmem.2
              simp only at e1
              rw [e1]
              -- the inner loop leaves other nodes alone
              have hinner : ∀ (ns : List Nat) (j j1 : StationIndex),
                  assignStation s1.1 ns j = .ok j1 → n ∉ ns →
                  j1.nodeToStationId n = j.nodeToStationId n := by
                intro ns
                induction ns with
                | nil =>
                  intro j j1 hj _
                  simp only [assignStation, Except.ok.injEq] at hj
                  subst hj; rfl
                | cons a ns ihn =>
                  intro j j1 hj hna
                  simp only [assignStation] at hj
                  split at hj
                  · exact absurd hj (by simp)
                  · simp only [List.mem_cons, not_or] at hna
                    rw [ihn _ _ hj hna.2]
                    simp [hna.1]
              exact hinner _ _ _ hi2 hmem.1
        have := hrest rest _ _ h hnot
        simp only at this
        rw [this, a4 n hn]
        simp
      | succ k =>
        simp only [List.getElem_cons_succ] at hn
        have := b4 k (by simpa using hk) n hn
        rw [this, a1]
        congr 1
        omega

theorem solverOk_of_new {epInt : ℚ} {g : LGraph} {dist : Nat → ℚ} {stations : StationNodes}
    {conn : Nat → Bool} {s : StationSolver}
    (hnodes : ∀ station ∈ stations, ∀ n ∈ station.2, n ∈ g.nodes)
    (hs : StationSolver.new epInt g dist stations conn = .ok s) :
    SolverOk g dist stations s := by
  unfold StationSolver.new at hs
  cases h1 : initializeStations g stations with
  | error m => rw [h1] at hs; exact absurd hs (by simp)
  | ok idx =>
    rw [h1] at hs
    cases h2 : createCplexModel g dist stations conn with
    | error m => rw [h2] at hs; exact absurd hs (by simp)
    | ok p =>
      obtain ⟨m, ev⟩ := p
      rw [h2] at hs
      simp only [Except.ok.injEq] at hs
      subst hs
      unfold initializeStations at h1
      split at h1
      · exact absurd h1 (by simp)
      · split at h1
        · exact absurd h1 (by simp)
        · rename_i idx0 hidx
          split at h1
          · exact absurd h1 (by simp)
          · rename_i hlen
            simp only [Except.ok.injEq] at h1
            subst h1
            obtain ⟨b1, b2, b3, b4⟩ := assignStations_spec stations _ _ hidx (by simp)
            simp only [List.nil_append, Nat.zero_add] at b1 b2 b4
            refine ⟨rfl, (createCplexModel_ok_eq h2).2.2.2.1, b1, b4, ?_⟩
            have hsub : idx0.nodesInStations ⊆ g.nodes := by
              intro n hn
              rw [b2, List.mem_flatMap] at hn
              obtain ⟨st, hst, hn⟩ := hn
              exact hnodes st hst n hn
            have hlen' : g.nodes.length = idx0.nodesInStations.length := by
              simpa [LGraph.numberOfNodes] using hlen
            have hperm := (List.Nodup.subperm b3 hsub).perm_of_length_le (le_of_eq hlen')
            intro n hn
            have := hperm.symm.subset hn
            rw [b2, List.mem_flatMap] at this
            exact this

variable {g : LGraph} {dist : Nat → ℚ} {stations : StationNodes} {s : StationSolver}

theorem SolverOk.cplexId (hok : SolverOk g dist stations s) (hwf : g.WellFormed) (i : Nat)
    (e : Edge) (he : g.edges[i]? = some e) : (s.getCplexId e).toNat = i := by
  rw [StationSolver.getCplexId, hok.varId, createArcModel_varId g dist hwf i e he]
  simp

/-- Every node of the graph lies in exactly one station, whose index
`getStation` returns. -/
theorem SolverOk.station (hok : SolverOk g dist stations s) {n : Nat} (hn : n ∈ g.nodes) :
    ∃ k, ∃ hk : k < stations.length, n ∈ stations[k].2 ∧ s.getStation n = (k : Int) := by
  obtain ⟨st, hst, hnst⟩ := hok.covered n hn
  obtain ⟨k, hk, rfl⟩ := List.getElem_of_mem hst
  exact ⟨k, hk, hnst, hok.stationOf k hk n hnst⟩

theorem selectEdges_eq (s : StationSolver) (x : Nat → ℚ) (es : List Edge) (k : Nat)
    (hpos : ∀ i e, es[i]? = some e → (s.getCplexId e).toNat = k + i)
    (hbin : ∀ i, i < es.length → s.isOne (x (k + i)) = true ∨ s.isZero (x (k + i)) = true) :
    s.selectEdges x es =
      .ok (((es.enumFrom k).filter (fun p => s.isOne (x p.1))).map Prod.snd) := by
  induction es generalizing k with
  | nil => simp [StationSolver.selectEdges]
  | cons e es ih =>
    have h0 : (s.getCplexId e).toNat = k := by simpa using hpos 0 e (by simp)
    have ih' := ih (k + 1)
      (fun i a ha => by rw [hpos (i + 1) a (by simpa using ha)]; omega)
      (fun i hi => by
        have := hbin (i + 1) (by simpa using hi)
        rwa [show k + (i + 1) = k + 1 + i by omega] at this)
    have hb := hbin 0 (by simp)
    simp only [Nat.add_zero] at hb
    simp only [StationSolver.selectEdges, h0, ih', List.enumFrom_cons, List.filter_cons]
    by_cases h1 : s.isOne (x k) = true
    · simp [h1]
    · have h2 : s.isZero (x k) = true := hb.resolve_left h1
      simp [h1, h2]

theorem getSelectedEdges_eq (hok : SolverOk g dist stations s) (hwf : g.WellFormed)
    (x : Nat → ℚ) (hbin : s.IsBinary x) : s.getSelectedEdges x = .ok (s.selected x) := by
  rw [StationSolver.getSelectedEdges, StationSolver.selected, List.enum]
  apply selectEdges_eq
  · intro i e he
    rw [hok.graph] at he
    rw [hok.cplexId hwf i e he, Nat.zero_add]
  · intro i hi
    rw [Nat.zero_add]
    exact hbin i hi

theorem mem_selected (s : StationSolver) (x : Nat → ℚ) (e : Edge) :
    e ∈ s.selected x ↔ ∃ i, s.g.edges[i]? = some e ∧ s.isOne (x i) = true := by
  simp only [StationSolver.selected, List.mem_map, List.mem_filter, Prod.exists,
    exists_and_right, exists_eq_right, List.mem_enum_iff_getElem?]

theorem selected_sub (s : StationSolver) (x : Nat → ℚ) : ∀ e ∈ s.selected x, e ∈ s.g.edges := by
  intro e he
  obtain ⟨i, hi, _⟩ := (mem_selected s x e).1 he
  exact List.getElem?_mem hi

end SolverFacts
/-! ## Theorems: the loops of the separator -/

section CallbackLoops

theorem mem_setInsert (l : List Int) (c a : Int) : a ∈ setInsert l c ↔ a = c ∨ a ∈ l := by
  unfold setInsert
  split
  · rename_i h
    constructor
    · exact Or.inr
    · rintro (rfl | h1)
      · exact h
      · exact h1
  · rw [List.mem_orderedInsert]

theorem nodup_setInsert (l : List Int) (c : Int) (h : l.Nodup) : (setInsert l c).Nodup := by
  unfold setInsert
  split
  · exact h
  · rename_i hc
    rw [(List.perm_orderedInsert _ c l).nodup_iff, List.nodup_cons]
    exact ⟨hc, h⟩

theorem getD_modify (l : List (List Int)) (f : List Int → List Int) (i k : Nat) :
    (l.modify f i).getD k [] = if i = k ∧ k < l.length then f (l.getD k []) else l.getD k [] := by
  simp only [List.getD_eq_getElem?_getD, List.getElem?_modify]
  by_cases hk : k < l.length
  · rw [List.getElem?_eq_getElem hk]
    by_cases hik : i = k <;> simp [hik, hk]
  · rw [List.getElem?_eq_none (by omega)]
    simp [hk]

theorem collectComponents_spec (s : StationSolver) (compnum : Nat → Int) (ns : List Nat)
    (cps0 : List (List Int)) (hc : ∀ n ∈ ns, 0 ≤ compnum n)
    (hst : ∀ n ∈ ns, ∃ k : Nat, k < cps0.length ∧ s.getStation n = (k : Int)) :
    ∃ cps, collectComponents s compnum ns cps0 = .ok cps ∧ cps.length = cps0.length ∧
      (∀ (k : Nat) c, c ∈ cps.getD k [] ↔
        c ∈ cps0.getD k [] ∨ ∃ n ∈ ns, s.getStation n = (k : Int) ∧ compnum n = c) ∧
      ((∀ k, (cps0.getD k []).Nodup) → ∀ k, (cps.getD k []).Nodup) := by
  induction ns generalizing cps0 with
  | nil => exact ⟨cps0, by simp [collectComponents], rfl, by simp, fun h => h⟩
  | cons n ns ih =>
    obtain ⟨k0, hk0, hk0s⟩ := hst n (List.mem_cons_self _ _)
    have hc0 := hc n (List.mem_cons_self _ _)
    obtain ⟨cps, hrun, hlen, hmem, hnd⟩ :=
      ih (cps0.modify (fun components => setInsert components (compnum n)) k0)
        (fun a ha => hc a (List.mem_cons_of_mem _ ha))
        (fun a ha => by simpa using hst a (List.mem_cons_of_mem _ ha))
    refine ⟨cps, ?_, by simpa using hlen, ?_, ?_⟩
    · simp only [collectComponents, hk0s, Int.toNat_ofNat]
      rw [if_neg (by omega), if_neg (by omega)]
      exact hrun
    · intro k c
      rw [hmem, getD_modify]
      by_cases hk : k0 = k
      · subst hk
        simp only [hk0, and_self, if_true, mem_setInsert, List.mem_cons, exists_eq_or_imp, hk0s,
          true_and]
        constructor
        · rintro ((rfl | h) | h)
          · exact Or.inr (Or.inl rfl)
          · exact Or.inl h
          · exact Or.inr (Or.inr h)
        · rintro (h | h | h)
          · exact Or.inl (Or.inr h)
          · exact Or.inl (Or.inl h.symm)
          · exact Or.inr h
      · have hne : s.getStation n ≠ (k : Int) := by rw [hk0s]; exact_mod_cast hk
        simp [hk, hne]
    · intro h0 k
      apply hnd
      intro k'
      rw [getD_modify]
      split
      · exact nodup_setInsert _ _ (h0 k')
      · exact h0 k'

theorem exclusiveComponents_spec (cps : List (List Int)) (excl0 : List Int)
    (hne : ∀ components ∈ cps, components ≠ []) :
    ∃ excl, exclusiveComponents cps excl0 = .ok excl ∧
      (∀ c, c ∈ excl ↔ c ∈ excl0 ∨ [c] ∈ cps) ∧ (excl0.Nodup → excl.Nodup) := by
  induction cps generalizing excl0 with
  | nil => exact ⟨excl0, by simp [exclusiveComponents], by simp, fun h => h⟩
  | cons components rest ih =>
    have hne' := fun c hc => hne c (List.mem_cons_of_mem _ hc)
    have h0 := hne components (List.mem_cons_self _ _)
    by_cases h1 : components.length = 1
    · obtain ⟨c0, rfl⟩ := List.length_eq_one.1 h1
      obtain ⟨excl, hrun, hmem, hnd⟩ := ih (setInsert excl0 c0) hne'
      refine ⟨excl, by simpa [exclusiveComponents, getFirstElement] using hrun, ?_, ?_⟩
      · intro c
        rw [hmem, mem_setInsert]
        simp only [List.mem_cons, List.cons.injEq, and_true]
        constructor
        · rintro ((h | h) | h)
          · exact Or.inr (Or.inl h)
          · exact Or.inl h
          · exact Or.inr (Or.inr h)
        · rintro (h | h | h)
          · exact Or.inl (Or.inr h)
          · exact Or.inl (Or.inl h)
          · exact Or.inr h
      · intro h; exact hnd (nodup_setInsert _ _ h)
    · obtain ⟨excl, hrun, hmem, hnd⟩ := ih excl0 hne'
      refine ⟨excl, ?_, ?_, hnd⟩
      · simp only [exclusiveComponents, List.isEmpty_eq_true, h0, if_false, beq_iff_eq, h1]
        exact hrun
      · intro c
        rw [hmem]
        simp only [List.mem_cons]
        constructor
        · rintro (h | h)
          · exact Or.inl h
          · exact Or.inr (Or.inr h)
        · rintro (h | h | h)
          · exact Or.inl h
          · exact absurd (by rw [← h]; rfl) h1
          · exact Or.inr h

end CallbackLoops
section Cuts

variable (s : StationSolver) (nodemap : Nat → Option Nat) (compnum : Nat → Int)
  (cps : List (List Int))

theorem getComponent_ok (n : Nat) (h : ComponentKnown s nodemap cps n) :
    s.getComponent n nodemap compnum cps = .ok (derivedComp s nodemap compnum cps n) := by
  unfold StationSolver.getComponent derivedComp
  cases hn : nodemap n with
  | some t => rfl
  | none =>
    rcases h with h | ⟨k, hk, hks, hne⟩
    · rw [hn] at h; exact absurd h (by simp)
    · simp only [hks, Int.toNat_ofNat]
      rw [if_neg (by omega)]
      cases hc : cps.getD k [] with
      | nil => exact absurd hc hne
      | cons c cs => simp [getFirstElement]

theorem deaggregatedLoop_ok (comp : Int) (es : List Edge) (rows : List (Nat × ℚ) × List (Nat × ℚ))
    (h : ∀ e ∈ es, ComponentKnown s nodemap cps e.src ∧ ComponentKnown s nodemap cps e.tgt) :
    s.deaggregatedLoop comp nodemap compnum cps es rows =
      .ok (rows.1 ++ cutOut s nodemap compnum cps comp es,
        rows.2 ++ cutIn s nodemap compnum cps comp es) := by
  induction es generalizing rows with
  | nil => simp [StationSolver.deaggregatedLoop, cutOut, cutIn]
  | cons e es ih =>
    obtain ⟨h1, h2⟩ := h e (List.mem_cons_self _ _)
    have ih' := fun rows => ih rows (fun a ha => h a (List.mem_cons_of_mem _ ha))
    simp only [StationSolver.deaggregatedLoop, getComponent_ok s nodemap compnum cps _ h1,
      getComponent_ok s nodemap compnum cps _ h2, ih', cutOut, cutIn, List.filter_cons]
    by_cases c1 : derivedComp s nodemap compnum cps e.src = comp <;>
      by_cases c2 : derivedComp s nodemap compnum cps e.tgt = comp <;>
      simp [c1, c2]

theorem addCuts_ok (excl : List Int) (cuts : List Row)
    (h : ∀ e ∈ s.g.edges, ComponentKnown s nodemap cps e.src ∧
      ComponentKnown s nodemap cps e.tgt) :
    s.addCuts nodemap compnum cps excl cuts =
      .ok (cuts ++ excl.flatMap (fun comp =>
        [⟨1, none, cutOut s nodemap compnum cps comp s.g.edges⟩,
          ⟨1, none, cutIn s nodemap compnum cps comp s.g.edges⟩])) := by
  induction excl generalizing cuts with
  | nil => simp [StationSolver.addCuts]
  | cons comp rest ih =>
    simp only [StationSolver.addCuts, StationSolver.createDeaggregatedCut,
      deaggregatedLoop_ok s nodemap compnum cps comp _ _ h, List.nil_append, ih,
      List.flatMap_cons, List.append_assoc]

end Cuts
/-! ## Theorems: the separator -/

section Callback

theorem mem_copyGraph_nodes (sel : List Edge) (n : Nat) :
    n ∈ (CopyGraph sel).nodes ↔ OnSelected sel n := by
  simp [CopyGraph, OnSelected, selNodes]

theorem onSelected_iff (sel : List Edge) (n : Nat) :
    OnSelected sel n ↔ ∃ e ∈ sel, e.src = n ∨ e.tgt = n := by
  simp only [OnSelected, selNodes, List.mem_flatMap, List.mem_cons, List.mem_singleton,
    List.not_mem_nil, or_false]
  constructor
  · rintro ⟨e, he, h | h⟩
    · exact ⟨e, he, Or.inl h.symm⟩
    · exact ⟨e, he, Or.inr h.symm⟩
  · rintro ⟨e, he, h | h⟩
    · exact ⟨e, he, Or.inl h.symm⟩
    · exact ⟨e, he, Or.inr h.symm⟩

theorem copyGraph_closed (sel : List Edge) :
    ∀ p ∈ endpoints (CopyGraph sel).edges,
      p.1 ∈ (CopyGraph sel).nodes ∧ p.2 ∈ (CopyGraph sel).nodes := by
  intro p hp
  simp only [endpoints, CopyGraph, List.mem_map] at hp
  obtain ⟨e, he, rfl⟩ := hp
  constructor
  · exact (mem_copyGraph_nodes sel _).2 ((onSelected_iff sel _).2 ⟨e, he, Or.inl rfl⟩)
  · exact (mem_copyGraph_nodes sel _).2 ((onSelected_iff sel _).2 ⟨e, he, Or.inr rfl⟩)

theorem compnum_eq_iff (sel : List Edge) {u v : Nat} (hu : OnSelected sel u)
    (hv : OnSelected sel v) :
    (COMPONENTS (CopyGraph sel).nodes (endpoints (CopyGraph sel).edges)).1 u =
      (COMPONENTS (CopyGraph sel).nodes (endpoints (CopyGraph sel).edges)).1 v ↔
      SameComp sel u v :=
  COMPONENTS_eq_iff _ _ (copyGraph_closed sel) ((mem_copyGraph_nodes sel u).2 hu) ((mem_copyGraph_nodes sel v).2 hv)

theorem eq_singleton_of_nodup {l : List Int} {c : Int} (hnd : l.Nodup)
    (h : ∀ a, a ∈ l ↔ a = c) : l = [c] := by
  have hp : l.Perm [c] := by
    rw [List.perm_ext_iff_of_nodup hnd (List.nodup_singleton c)]
    intro a
    rw [h a, List.mem_singleton]
  exact List.perm_singleton.1 hp

/-- Every list of values that are images of members of `reps` under `f` is the
image of a list of members. -/
theorem exists_preimage_list {P : Nat → Prop} (f : Nat → Int) (l : List Int)
    (h : ∀ c ∈ l, ∃ r, P r ∧ f r = c) : ∃ l' : List Nat, l'.map f = l ∧ ∀ r ∈ l', P r := by
  induction l with
  | nil => exact ⟨[], rfl, by simp⟩
  | cons c l ih =>
    obtain ⟨r, hr, hrc⟩ := h c (List.mem_cons_self _ _)
    obtain ⟨l', hl', hP⟩ := ih (fun c hc => h c (List.mem_cons_of_mem _ hc))
    refine ⟨r :: l', by simp [hrc, hl'], ?_⟩
    intro a ha
    rcases List.mem_cons.1 ha with rfl | ha
    · exact hr
    · exact hP a ha

variable {epInt : ℚ} {g : LGraph} {dist : Nat → ℚ} {stations : StationNodes}
  {conn : Nat → Bool} {s : StationSolver}

/-- The data the separator computes for a binary candidate that touches every
station, described in terms of the induced subgraph. -/
theorem callback_analysis (hwf : g.WellFormed)
    (hok : SolverOk g dist stations s) (x : Nat → ℚ) (hbin : s.IsBinary x)
    (htouch : ∀ station ∈ stations, Touched (s.selected x) station.2) :
    ∃ (cps : List (List Int)) (excl : List Int),
      StationLazyCallback s x =
        (if excl.length = 0 then .error assertExclusive
         else if excl.length = 1 then .ok []
         else .ok (excl.flatMap (fun comp =>
          [⟨1, none, cutOut s (fun n => if n ∈ (CopyGraph (s.selected x)).nodes then some n else none)
              (COMPONENTS (CopyGraph (s.selected x)).nodes
                (endpoints (CopyGraph (s.selected x)).edges)).1 cps comp s.g.edges⟩,
           ⟨1, none, cutIn s (fun n => if n ∈ (CopyGraph (s.selected x)).nodes then some n else none)
              (COMPONENTS (CopyGraph (s.selected x)).nodes
                (endpoints (CopyGraph (s.selected x)).edges)).1 cps comp s.g.edges⟩]))) ∧
      excl.Nodup ∧
      (∀ c, c ∈ excl ↔ ∃ r, ExclusiveComp (s.selected x) stations r ∧
        (COMPONENTS (CopyGraph (s.selected x)).nodes
          (endpoints (CopyGraph (s.selected x)).edges)).1 r = c) := by
  set sel := s.selected x with hsel
  set compnum := (COMPONENTS (CopyGraph sel).nodes (endpoints (CopyGraph sel).edges)).1
    with hcompnum
  set nodemap : Nat → Option Nat := fun n => if n ∈ (CopyGraph sel).nodes then some n else none
    with hnodemap
  have hsub : ∀ e ∈ sel, e ∈ g.edges := by
    intro e he
    have := selected_sub s x e he
    rwa [hok.graph] at this
  have hgn : ∀ n, OnSelected sel n → n ∈ g.nodes := by
    intro n hn
    obtain ⟨e, he, h | h⟩ := (onSelected_iff sel n).1 hn
    · exact h ▸ hwf.src_mem e (hsub e he)
    · exact h ▸ hwf.tgt_mem e (hsub e he)
  -- a node of the graph has the station index `k` exactly when it lies in cluster `k`
  have hstation : ∀ n ∈ g.nodes, ∀ k (hk : k < stations.length),
      s.getStation n = (k : Int) ↔ n ∈ stations[k].2 := by
    intro n hn k hk
    constructor
    · intro h
      obtain ⟨k', hk', hmem, hst⟩ := hok.station hn
      have : k' = k := by rw [hst] at h; exact_mod_cast h
      subst this; exact hmem
    · intro h; exact hok.stationOf k hk n h
  obtain ⟨cps, hcollect, hlen, hmem, hnd⟩ :=
    collectComponents_spec s compnum (CopyGraph sel).nodes (List.replicate s.nStations [])
      (fun n hn => (COMPONENTS_range _ _ (copyGraph_closed sel) hn).1)
      (fun n hn => by
        obtain ⟨k, hk, _, hst⟩ := hok.station (hgn n ((mem_copyGraph_nodes sel n).1 hn))
        exact ⟨k, by simpa [hok.nStations] using hk, hst⟩)
  have hlen' : cps.length = stations.length := by simpa [hok.nStations] using hlen
  have hnd' : ∀ k, (cps.getD k []).Nodup := by
    apply hnd
    intro k
    simp only [List.getD_eq_getElem?_getD, List.getElem?_replicate]
    split <;> simp
  have hmem' : ∀ k (hk : k < stations.length) c, c ∈ cps.getD k [] ↔
      ∃ n ∈ stations[k].2, OnSelected sel n ∧ compnum n = c := by
    intro k hk c
    rw [hmem]
    have : (List.replicate s.nStations ([] : List Int)).getD k [] = [] := by
      simp only [List.getD_eq_getElem?_getD, List.getElem?_replicate]
      split <;> simp
    simp only [this, List.not_mem_nil, false_or]
    constructor
    · rintro ⟨n, hn, hst, hc⟩
      have hon := (mem_copyGraph_nodes sel n).1 hn
      exact ⟨n, (hstation n (hgn n hon) k hk).1 hst, hon, hc⟩
    · rintro ⟨n, hn, hon, hc⟩
      exact ⟨n, (mem_copyGraph_nodes sel n).2 hon, hok.stationOf k hk n hn, hc⟩
  have hne : ∀ components ∈ cps, components ≠ [] := by
    intro components hc
    obtain ⟨k, hk, rfl⟩ := List.getElem_of_mem hc
    have hk' : k < stations.length := hlen' ▸ hk
    obtain ⟨n, hn, hon⟩ := htouch _ (List.getElem_mem hk')
    have : compnum n ∈ cps.getD k [] := (hmem' k hk' _).2 ⟨n, hn, hon, rfl⟩
    rw [List.getD_eq_getElem _ _ hk] at this
    exact List.ne_nil_of_mem this
  obtain ⟨excl, hexcl, hexmem, hexnd⟩ := exclusiveComponents_spec cps [] hne
  have hknown : ∀ e ∈ s.g.edges, ComponentKnown s nodemap cps e.src ∧
      ComponentKnown s nodemap cps e.tgt := by
    have hk : ∀ n ∈ g.nodes, ComponentKnown s nodemap cps n := by
      intro n hn
      obtain ⟨k, hk, _, hst⟩ := hok.station hn
      refine Or.inr ⟨k, hlen' ▸ hk, hst, ?_⟩
      rw [List.getD_eq_getElem _ _ (hlen' ▸ hk)]
      exact hne _ (List.getElem_mem _)
    intro e he
    rw [hok.graph] at he
    exact ⟨hk _ (hwf.src_mem e he), hk _ (hwf.tgt_mem e he)⟩
  refine ⟨cps, excl, ?_, hexnd List.nodup_nil, ?_⟩
  · simp only [StationLazyCallback, StationSolver.createNewSubgraph,
      getSelectedEdges_eq hok hwf x hbin]
    simp only [← hsel, ← hcompnum, ← hnodemap, hcollect, hexcl,
      addCuts_ok s nodemap compnum cps excl [] hknown, List.nil_append]
    by_cases h0 : excl.length = 0
    · simp [h0]
    · rw [if_neg (by omega), if_neg h0]
  · intro c
    rw [hexmem]
    simp only [List.not_mem_nil, false_or]
    constructor
    · intro hc
      obtain ⟨k, hk, hkc⟩ := List.getElem_of_mem hc
      have hk' : k < stations.length := hlen' ▸ hk
      have hget : cps.getD k [] = [c] := by rw [List.getD_eq_getElem _ _ hk, hkc]
      have hcmem : c ∈ cps.getD k [] := by rw [hget]; exact List.mem_singleton_self c
      obtain ⟨r, hr, hron, hrc⟩ := (hmem' k hk' c).1 hcmem
      refine ⟨r, ⟨hron, stations[k], List.getElem_mem hk', ⟨r, hr, hron⟩, ?_⟩, hrc⟩
      intro n hn hon
      have : compnum n ∈ cps.getD k [] := (hmem' k hk' _).2 ⟨n, hn, hon, rfl⟩
      rw [hget, List.mem_singleton] at this
      exact (compnum_eq_iff sel hon hron).1 (this.trans hrc.symm)
    · rintro ⟨r, ⟨hron, station, hst, ⟨n0, hn0, hon0⟩, honly⟩, hrc⟩
      obtain ⟨k, hk, rfl⟩ := List.getElem_of_mem hst
      have hk2 : k < cps.length := hlen'.symm ▸ hk
      have : cps.getD k [] = [c] := by
        apply eq_singleton_of_nodup (hnd' k)
        intro a
        rw [hmem' k hk]
        constructor
        · rintro ⟨n, hn, hon, rfl⟩
          rw [← hrc]
          exact (compnum_eq_iff sel hon hron).2 (honly n hn hon)
        · rintro rfl
          exact ⟨n0, hn0, hon0, by
            rw [← hrc]; exact (compnum_eq_iff sel hon0 hron).2 (honly n0 hn0 hon0)⟩
      rw [← this, List.getD_eq_getElem _ _ hk2]
      exact List.getElem_mem _

end Callback
section CutShape

theorem flatMap_pair_length {α β : Type} (l : List α) (a b : α → β) :
    (l.flatMap (fun c => [a c, b c])).length = 2 * l.length := by
  induction l with
  | nil => rfl
  | cons c l ih => simp [List.flatMap_cons, ih]; omega

theorem flatMap_pair_getElem? {α β : Type} (l : List α) (a b : α → β) (j : Nat) :
    (l.flatMap (fun c => [a c, b c]))[2 * j]? = (l[j]?).map a ∧
      (l.flatMap (fun c => [a c, b c]))[2 * j + 1]? = (l[j]?).map b := by
  induction l generalizing j with
  | nil => simp
  | cons c l ih =>
    cases j with
    | zero => simp [List.flatMap_cons]
    | succ j =>
      have h1 : 2 * (j + 1) = (2 * j) + 1 + 1 := by omega
      have h2 : 2 * (j + 1) + 1 = (2 * j + 1) + 1 + 1 := by omega
      constructor
      · rw [h1]
        simp only [List.flatMap_cons, List.cons_append, List.nil_append,
          List.getElem?_cons_succ]
        exact (ih j).1
      · rw [h2]
        simp only [List.flatMap_cons, List.cons_append, List.nil_append,
          List.getElem?_cons_succ]
        exact (ih j).2

variable {g : LGraph} {dist : Nat → ℚ} {stations : StationNodes} {s : StationSolver}

theorem derivedComp_onSelected (s : StationSolver) (sel : List Edge) (compnum : Nat → Int)
    (cps : List (List Int)) {n : Nat} (hn : OnSelected sel n) :
    derivedComp s (fun n => if n ∈ (CopyGraph sel).nodes then some n else none) compnum cps n
      = compnum n := by
  simp [derivedComp, (mem_copyGraph_nodes sel n).2 hn]

theorem cutOut_leaving (hwf : g.WellFormed) (hok : SolverOk g dist stations s) (x : Nat → ℚ)
    (cps : List (List Int)) {r : Nat} (hr : OnSelected (s.selected x) r) :
    LeavingCut g (s.selected x) r
      ⟨1, none, cutOut s (fun n => if n ∈ (CopyGraph (s.selected x)).nodes then some n else none)
        (COMPONENTS (CopyGraph (s.selected x)).nodes
          (endpoints (CopyGraph (s.selected x)).edges)).1 cps
        ((COMPONENTS (CopyGraph (s.selected x)).nodes
          (endpoints (CopyGraph (s.selected x)).edges)).1 r) s.g.edges⟩ := by
  refine ⟨rfl, rfl, ?_, ?_⟩
  · intro t ht
    simp only [cutOut, List.mem_map, List.mem_filter] at ht
    obtain ⟨e, ⟨he, _⟩, rfl⟩ := ht
    rw [hok.graph] at he
    obtain ⟨i, hi⟩ := List.mem_iff_getElem?.1 he
    rw [hok.cplexId hwf i e hi]
    exact ⟨rfl, (List.getElem?_eq_some_iff.1 hi).1⟩
  · intro i e hi hsrc htgt
    simp only [cutOut, List.mem_map, List.mem_filter, Prod.mk.injEq, and_true, hok.graph]
    constructor
    · rintro ⟨e', ⟨he', hcond⟩, hpos⟩
      obtain ⟨i', hi'⟩ := List.mem_iff_getElem?.1 he'
      rw [hok.cplexId hwf i' e' hi'] at hpos
      subst hpos
      rw [hi] at hi'
      obtain rfl := Option.some.inj hi'
      rw [derivedComp_onSelected s _ _ cps hsrc, derivedComp_onSelected s _ _ cps htgt] at hcond
      simp only [Bool.and_eq_true, beq_iff_eq, Bool.not_eq_true', beq_eq_false_iff_ne] at hcond
      exact ⟨(compnum_eq_iff _ hsrc hr).1 hcond.1,
        fun h => hcond.2 ((compnum_eq_iff _ htgt hr).2 h)⟩
    · rintro ⟨h1, h2⟩
      refine ⟨e, ⟨List.getElem?_mem hi, ?_⟩, hok.cplexId hwf i e hi⟩
      rw [derivedComp_onSelected s _ _ cps hsrc, derivedComp_onSelected s _ _ cps htgt]
      simp only [Bool.and_eq_true, beq_iff_eq, Bool.not_eq_true', beq_eq_false_iff_ne]
      exact ⟨(compnum_eq_iff _ hsrc hr).2 h1, fun h => h2 ((compnum_eq_iff _ htgt hr).1 h)⟩

theorem cutIn_entering (hwf : g.WellFormed) (hok : SolverOk g dist stations s) (x : Nat → ℚ)
    (cps : List (List Int)) {r : Nat} (hr : OnSelected (s.selected x) r) :
    EnteringCut g (s.selected x) r
      ⟨1, none, cutIn s (fun n => if n ∈ (CopyGraph (s.selected x)).nodes then some n else none)
        (COMPONENTS (CopyGraph (s.selected x)).nodes
          (endpoints (CopyGraph (s.selected x)).edges)).1 cps
        ((COMPONENTS (CopyGraph (s.selected x)).nodes
          (endpoints (CopyGraph (s.selected x)).edges)).1 r) s.g.edges⟩ := by
  refine ⟨rfl, rfl, ?_, ?_⟩
  · intro t ht
    simp only [cutIn, List.mem_map, List.mem_filter] at ht
    obtain ⟨e, ⟨he, _⟩, rfl⟩ := ht
    rw [hok.graph] at he
    obtain ⟨i, hi⟩ := List.mem_iff_getElem?.1 he
    rw [hok.cplexId hwf i e hi]
    exact ⟨rfl, (List.getElem?_eq_some_iff.1 hi).1⟩
  · intro i e hi hsrc htgt
    simp only [cutIn, List.mem_map, List.mem_filter, Prod.mk.injEq, and_true, hok.graph]
    constructor
    · rintro ⟨e', ⟨he', hcond⟩, hpos⟩
      obtain ⟨i', hi'⟩ := List.mem_iff_getElem?.1 he'
      rw [hok.cplexId hwf i' e' hi'] at hpos
      subst hpos
      rw [hi] at hi'
      obtain rfl := Option.some.inj hi'
      rw [derivedComp_onSelected s _ _ cps hsrc, derivedComp_onSelected s _ _ cps htgt] at hcond
      simp only [Bool.and_eq_true, beq_iff_eq, Bool.not_eq_true', beq_eq_false_iff_ne] at hcond
      exact ⟨fun h => hcond.1 ((compnum_eq_iff _ hsrc hr).2 h),
        (compnum_eq_iff _ htgt hr).1 hcond.2⟩
    · rintro ⟨h1, h2⟩
      refine ⟨e, ⟨List.getElem?_mem hi, ?_⟩, hok.cplexId hwf i e hi⟩
      rw [derivedComp_onSelected s _ _ cps hsrc, derivedComp_onSelected s _ _ cps htgt]
      simp only [Bool.and_eq_true, beq_iff_eq, Bool.not_eq_true', beq_eq_false_iff_ne]
      exact ⟨fun h => h1 ((compnum_eq_iff _ hsrc hr).1 h), (compnum_eq_iff _ htgt hr).2 h2⟩

theorem sameComp_symm {sel : List Edge} {u v : Nat} (h : SameComp sel u v) : SameComp sel v u :=
  connIn_symm h

theorem sameComp_trans {sel : List Edge} {u v w : Nat} (h1 : SameComp sel u v)
    (h2 : SameComp sel v w) : SameComp sel u w := connIn_trans h1 h2

/-- A system of representatives of the exclusive components corresponds one to
one to the component numbers the separator collects. -/
theorem reps_match (sel : List Edge) (stations : StationNodes) (reps : List Nat)
    (hreps : ExclusiveReps sel stations reps) (excl : List Int) (hnd : excl.Nodup)
    (hmem : ∀ c, c ∈ excl ↔ ∃ r, ExclusiveComp sel stations r ∧
      (COMPONENTS (CopyGraph sel).nodes (endpoints (CopyGraph sel).edges)).1 r = c) :
    ∃ comps : List Nat, comps.Perm reps ∧
      comps.map (COMPONENTS (CopyGraph sel).nodes (endpoints (CopyGraph sel).edges)).1 = excl := by
  obtain ⟨hex, hpw, hall⟩ := hreps
  have hon : ∀ r ∈ reps, OnSelected sel r := fun r hr => (hex r hr).1
  obtain ⟨comps, hmap, hsub⟩ := exists_preimage_list (P := fun r => r ∈ reps)
    (COMPONENTS (CopyGraph sel).nodes (endpoints (CopyGraph sel).edges)).1 excl (by
      intro c hc
      obtain ⟨r0, hr0, hr0c⟩ := (hmem c).1 hc
      obtain ⟨r, hr, hsame⟩ := hall r0 hr0.1 hr0
      refine ⟨r, hr, ?_⟩
      rw [← hr0c]
      exact (compnum_eq_iff sel (hon r hr) hr0.1).2 (sameComp_symm hsame))
  have hcnd : comps.Nodup := List.Nodup.of_map _ (hmap ▸ hnd)
  have hrnd : reps.Nodup := by
    apply hpw.imp
    intro a b hab h
    exact hab (h ▸ connIn_refl _ _)
  have hinj : ∀ a ∈ reps, ∀ b ∈ reps,
      (COMPONENTS (CopyGraph sel).nodes (endpoints (CopyGraph sel).edges)).1 a =
        (COMPONENTS (CopyGraph sel).nodes (endpoints (CopyGraph sel).edges)).1 b → a = b := by
    intro a ha b hb h
    by_contra hne
    have hsym : Symmetric (fun a b => ¬ SameComp sel a b) :=
      fun a b hab h => hab (sameComp_symm h)
    exact hpw.forall hsym ha hb hne ((compnum_eq_iff sel (hon a ha) (hon b hb)).1 h)
  have hle : reps.length ≤ comps.length := by
    have h1 : (reps.map
        (COMPONENTS (CopyGraph sel).nodes (endpoints (CopyGraph sel).edges)).1).Nodup :=
      List.Nodup.map_on hinj hrnd
    have h2 : reps.map (COMPONENTS (CopyGraph sel).nodes (endpoints (CopyGraph sel).edges)).1
        ⊆ excl := by
      intro c hc
      obtain ⟨r, hr, rfl⟩ := List.mem_map.1 hc
      exact (hmem _).2 ⟨r, hex r hr, rfl⟩
    have := (List.Nodup.subperm h1 h2).length_le
    simpa [← hmap] using this
  exact ⟨comps, (List.Nodup.subperm hcnd hsub).perm_of_length_le hle, hmap⟩

end CutShape

/-- C2. For a solver constructed on a graph and a station partition, and a
binary candidate `x` in which every station has a node on a selected arc: when
the subgraph induced by `x` has exactly one exclusive component the separator
adds no cut; when it has `k >= 2` exclusive components the separator adds
exactly `2 * k` cuts, for each exclusive component in turn the cut `arcs leaving
the component >= 1` followed by the cut `arcs entering the component >= 1`. -/
theorem stationLazyCallback_cuts (epInt : ℚ) (g : LGraph) (dist : Nat → ℚ)
    (stations : StationNodes) (connection_arcs : Nat → Bool) (s : StationSolver)
    (x : Nat → ℚ) (reps : List Nat) (hwf : g.WellFormed)
    (hnodes : ∀ station ∈ stations, ∀ n ∈ station.2, n ∈ g.nodes)
    (hs : StationSolver.new epInt g dist stations connection_arcs = .ok s)
    (hbin : s.IsBinary x)
    (htouch : ∀ station ∈ stations, Touched (s.selected x) station.2)
    (hreps : ExclusiveReps (s.selected x) stations reps) :
    (reps.length = 1 → StationLazyCallback s x = .ok []) ∧
    (2 ≤ reps.length → ∃ (cuts : List Row) (comps : List Nat), StationLazyCallback s x = .ok cuts ∧
      cuts.length = 2 * reps.length ∧ comps.Perm reps ∧
      ∀ j, j < comps.length → ∃ r rout rin, comps[j]? = some r ∧
        cuts[2 * j]? = some rout ∧ cuts[2 * j + 1]? = some rin ∧
        LeavingCut g (s.selected x) r rout ∧ EnteringCut g (s.selected x) r rin) := by
  have hok := solverOk_of_new hnodes hs
  obtain ⟨cps, excl, hrun, hnd, hmem⟩ := callback_analysis hwf hok x hbin htouch
  obtain ⟨comps, hperm, hmap⟩ := reps_match _ stations reps hreps excl hnd hmem
  have hlen : excl.length = reps.length := by
    rw [← hmap, List.length_map, hperm.length_eq]
  constructor
  · intro h1
    rw [hrun, if_neg (by omega), if_pos (by omega)]
  · intro h2
    refine ⟨_, comps, by rw [hrun, if_neg (by omega), if_neg (by omega)], ?_, hperm, ?_⟩
    · rw [flatMap_pair_length, hlen]
    · intro j hj
      have hr : comps[j] ∈ reps := hperm.subset (List.getElem_mem hj)
      have hon : OnSelected (s.selected x) comps[j] := (hreps.1 _ hr).1
      have hex : excl[j]? = some ((COMPONENTS (CopyGraph (s.selected x)).nodes
          (endpoints (CopyGraph (s.selected x)).edges)).1 comps[j]) := by
        rw [← hmap, List.getElem?_map, List.getElem?_eq_getElem hj]; rfl
      obtain ⟨e1, e2⟩ := flatMap_pair_getElem? excl
        (fun comp => (⟨1, none, cutOut s _ _ cps comp s.g.edges⟩ : Row))
        (fun comp => (⟨1, none, cutIn s _ _ cps comp s.g.edges⟩ : Row)) j
      rw [hex] at e1 e2
      exact ⟨comps[j], _, _, List.getElem?_eq_getElem hj, e1, e2,
        cutOut_leaving hwf hok x cps hon, cutIn_entering hwf hok x cps hon⟩
section Indicator

theorem new_epInt {epInt : ℚ} {g : LGraph} {dist : Nat → ℚ} {stations : StationNodes}
    {conn : Nat → Bool} {s : StationSolver}
    (hs : StationSolver.new epInt g dist stations conn = .ok s) : s.epInt = epInt := by
  unfold StationSolver.new at hs
  split at hs
  · exact absurd hs (by simp)
  · split at hs
    · exact absurd hs (by simp)
    · simp only [Except.ok.injEq] at hs
      rw [← hs]

theorem isOne_indicator (s : StationSolver) (h0 : 0 ≤ s.epInt) (h1 : s.epInt < 1)
    (arcs : List Nat) (i : Nat) : s.isOne (indicator arcs i) = decide (i ∈ arcs) := by
  unfold StationSolver.isOne indicator
  by_cases h : i ∈ arcs
  · simp only [h, if_true, decide_True]
    simp only [Bool.and_eq_true, decide_eq_true_eq]
    constructor <;> linarith
  · simp only [h, if_false, decide_False]
    simp only [Bool.and_eq_false_iff, decide_eq_false_iff_not, not_le]
    left; linarith

theorem isBinary_indicator (s : StationSolver) (h0 : 0 ≤ s.epInt) (arcs : List Nat) :
    s.IsBinary (indicator arcs) := by
  intro i _
  unfold StationSolver.isOne StationSolver.isZero indicator
  by_cases h : i ∈ arcs
  · left
    simp only [h, if_true, Bool.and_eq_true, decide_eq_true_eq]
    constructor <;> linarith
  · right
    simp only [h, if_false, Bool.and_eq_true, decide_eq_true_eq]
    constructor <;> linarith

theorem selected_indicator (s : StationSolver) (h0 : 0 ≤ s.epInt) (h1 : s.epInt < 1)
    (arcs : List Nat) :
    s.selected (indicator arcs) =
      (s.g.edges.enum.filter (fun p => decide (p.1 ∈ arcs))).map Prod.snd := by
  unfold StationSolver.selected
  congr 1
  apply List.filter_congr
  intro p _
  exact isOne_indicator s h0 h1 arcs p.1

theorem smallSolver_new :
    StationSolver.new (1 / 100000) smallGraph (fun _ => 1) smallStations (fun _ => false)
      = .ok smallSolver := by
  rfl

theorem smallSolver_epInt : smallSolver.epInt = 1 / 100000 := new_epInt smallSolver_new

theorem smallSolver_graph : smallSolver.g = smallGraph := by rfl

theorem smallSolver_selected (arcs : List Nat) :
    smallSolver.selected (indicator arcs) =
      (smallGraph.edges.enum.filter (fun p => decide (p.1 ∈ arcs))).map Prod.snd := by
  rw [selected_indicator smallSolver (by rw [smallSolver_epInt]; norm_num)
    (by rw [smallSolver_epInt]; norm_num), smallSolver_graph]

theorem smallSolver_isBinary (arcs : List Nat) : smallSolver.IsBinary (indicator arcs) :=
  isBinary_indicator smallSolver (by rw [smallSolver_epInt]; norm_num) arcs

end Indicator

/-- C2, witness: on the small instance the candidate selecting the cycles
0→1→0 and 2→3→4→2 has the two exclusive components of the nodes 0 and 2, and the
separator adds four cuts. -/
theorem stationLazyCallback_cuts_witness :
    ∃ cuts : List Row, StationLazyCallback smallSolver (indicator [0, 1, 2, 6, 7]) = .ok cuts ∧
      cuts.length = 4 := by
  have hsel := smallSolver_selected [0, 1, 2, 6, 7]
  have h := (stationLazyCallback_cuts (1 / 100000) smallGraph (fun _ => 1) smallStations
    (fun _ => false) smallSolver (indicator [0, 1, 2, 6, 7]) [0, 2] (by decide) (by decide)
    smallSolver_new (smallSolver_isBinary _)
    (by rw [hsel]; decide) (by rw [hsel]; decide)).2 (by decide)
  obtain ⟨cuts, _, hrun, hlen, _⟩ := h
  exact ⟨cuts, hrun, hlen⟩
section TwoCycles

variable {g : LGraph} {dist : Nat → ℚ} {stations : StationNodes} {s : StationSolver}

/-- Two exclusive components that differ give two different collected numbers. -/
theorem two_le_of_exclusive (sel : List Edge) (excl : List Int)
    (hmem : ∀ c, c ∈ excl ↔ ∃ r, ExclusiveComp sel stations r ∧
      (COMPONENTS (CopyGraph sel).nodes (endpoints (CopyGraph sel).edges)).1 r = c)
    {a b : Nat} (ha : ExclusiveComp sel stations a) (hb : ExclusiveComp sel stations b)
    (hab : ¬ SameComp sel a b) : 2 ≤ excl.length := by
  have h1 := (hmem _).2 ⟨a, ha, rfl⟩
  have h2 := (hmem _).2 ⟨b, hb, rfl⟩
  have hne : (COMPONENTS (CopyGraph sel).nodes (endpoints (CopyGraph sel).edges)).1 a ≠
      (COMPONENTS (CopyGraph sel).nodes (endpoints (CopyGraph sel).edges)).1 b :=
    fun h => hab ((compnum_eq_iff sel ha.1 hb.1).1 h)
  have hsub : [(COMPONENTS (CopyGraph sel).nodes (endpoints (CopyGraph sel).edges)).1 a,
      (COMPONENTS (CopyGraph sel).nodes (endpoints (CopyGraph sel).edges)).1 b] ⊆ excl := by
    intro c hc
    simp only [List.mem_cons, List.mem_singleton, List.not_mem_nil, or_false] at hc
    rcases hc with rfl | rfl
    · exact h1
    · exact h2
  have := (List.Nodup.subperm (by simp [hne]) hsub).length_le
  simpa using this

/-- When all selected arcs lie in one component and every station is touched,
exactly one component number is collected. -/
theorem one_of_connected (sel : List Edge) (excl : List Int) (hnd : excl.Nodup)
    (hmem : ∀ c, c ∈ excl ↔ ∃ r, ExclusiveComp sel stations r ∧
      (COMPONENTS (CopyGraph sel).nodes (endpoints (CopyGraph sel).edges)).1 r = c)
    (hst : stations ≠ [])
    (htouch : ∀ station ∈ stations, Touched sel station.2)
    (hone : ∀ u ∈ selNodes sel, ∀ v ∈ selNodes sel, SameComp sel u v) : excl.length = 1 := by
  obtain ⟨station, hstation⟩ := List.exists_mem_of_ne_nil _ hst
  obtain ⟨r, hr, hron⟩ := htouch station hstation
  have hex : ExclusiveComp sel stations r :=
    ⟨hron, station, hstation, ⟨r, hr, hron⟩, fun n _ hn => hone n hn r hron⟩
  have : excl = [(COMPONENTS (CopyGraph sel).nodes (endpoints (CopyGraph sel).edges)).1 r] := by
    apply eq_singleton_of_nodup hnd
    intro c
    rw [hmem]
    constructor
    · rintro ⟨r', hr', rfl⟩
      exact (compnum_eq_iff sel hr'.1 hron).2 (hone r' hr'.1 r hron)
    · rintro rfl
      exact ⟨r, hex, rfl⟩
  rw [this]; rfl

theorem stations_ne_nil_of_new {epInt : ℚ} {conn : Nat → Bool}
    (hs : StationSolver.new epInt g dist stations conn = .ok s) : stations ≠ [] := by
  rintro rfl
  simp [StationSolver.new, initializeStations, findUniqueStation] at hs

end TwoCycles
section SmallInstance

theorem smallSolver_ok : SolverOk smallGraph (fun _ => 1) smallStations smallSolver :=
  solverOk_of_new (by decide) smallSolver_new

theorem smallSolver_getSelected (arcs : List Nat) :
    smallSolver.getSelectedEdges (indicator arcs) =
      .ok ((smallGraph.edges.enum.filter (fun p => decide (p.1 ∈ arcs))).map Prod.snd) := by
  rw [getSelectedEdges_eq smallSolver_ok (by decide) _ (smallSolver_isBinary arcs),
    smallSolver_selected]

end SmallInstance

/-- A candidate that violates a coverage row: on the small instance the
candidate selecting the cycles 0→1→0 and 2→3→2 is binary, its two components
are different and each is the only component meeting a station (`A` and `C`),
but no selected arc leaves the stations `C` and `D`, and station `D` has no
node on a selected arc.  On this vector, which is no solution of the model, the
separator stops at the failed assertion `!components.empty()`. -/
theorem stationLazyCallback_uncovered_station :
    smallSolver.IsBinary (indicator [0, 1, 2, 3]) ∧
    ExclusiveComp (smallSolver.selected (indicator [0, 1, 2, 3])) smallStations 0 ∧
    ExclusiveComp (smallSolver.selected (indicator [0, 1, 2, 3])) smallStations 2 ∧
    ¬ SameComp (smallSolver.selected (indicator [0, 1, 2, 3])) 0 2 ∧
    (∀ n ∈ selNodes (smallSolver.selected (indicator [0, 1, 2, 3])),
      SameComp (smallSolver.selected (indicator [0, 1, 2, 3])) n 0 ∨
      SameComp (smallSolver.selected (indicator [0, 1, 2, 3])) n 2) ∧
    StationLazyCallback smallSolver (indicator [0, 1, 2, 3]) = .error assertComponents ∧
    ¬ ∃ cuts : List Row, StationLazyCallback smallSolver (indicator [0, 1, 2, 3]) = .ok cuts ∧
      2 ≤ cuts.length := by
  have hsel := smallSolver_selected [0, 1, 2, 3]
  have hrun : StationLazyCallback smallSolver (indicator [0, 1, 2, 3])
      = .error assertComponents := by
    simp only [StationLazyCallback, StationSolver.createNewSubgraph, smallSolver_getSelected]
    rfl
  refine ⟨smallSolver_isBinary _, by rw [hsel]; decide, by rw [hsel]; decide,
    by rw [hsel]; decide, by rw [hsel]; decide, hrun, ?_⟩
  rintro ⟨cuts, h, _⟩
  rw [hrun] at h
  exact absurd h (by simp)

/-! ## Candidates given by a set of arcs -/

section Feasible

theorem sum_indicator (arcs : List Nat) {α : Type} (l : List α) (f : α → Nat) :
    (l.map (fun p => indicator arcs (f p))).sum =
      ((l.filter (fun p => decide (f p ∈ arcs))).length : ℚ) := by
  induction l with
  | nil => simp
  | cons a l ih =>
    rw [List.map_cons, List.sum_cons, ih]
    by_cases h : f a ∈ arcs
    · rw [List.filter_cons_of_pos (by simpa using h)]
      simp only [indicator, h, if_true, List.length_cons, Nat.cast_add, Nat.cast_one]
      ring
    · rw [List.filter_cons_of_neg (by simpa using h)]
      simp only [indicator, h, if_false, zero_add]

theorem new_model {epInt : ℚ} {g : LGraph} {dist : Nat → ℚ} {stations : StationNodes}
    {conn : Nat → Bool} {s : StationSolver}
    (hs : StationSolver.new epInt g dist stations conn = .ok s)
    (hpre : NoConnectionLeaves g stations conn) :
    s.model.inOutCons = (createArcModel g dist).inOutCons ∧
      s.model.outCons = stations.map (fun station =>
        ⟨1, none, coverTerms g (createArcModel g dist).edgeToVarId station.2 station.2⟩) := by
  have hcov := createCoverage_ok g (createArcModel g dist).edgeToVarId conn stations hpre
  unfold StationSolver.new at hs
  split at hs
  · exact absurd hs (by simp)
  · simp only [createCplexModel, hcov, Except.ok.injEq] at hs
    rw [← hs]
    exact ⟨rfl, rfl⟩

/-- A balanced set of arcs that leaves every cluster satisfies every row of the model. -/
theorem rows_hold_indicator {epInt : ℚ} {g : LGraph} {dist : Nat → ℚ} {stations : StationNodes}
    {conn : Nat → Bool} {s : StationSolver}
    (hs : StationSolver.new epInt g dist stations conn = .ok s) (hwf : g.WellFormed)
    (hpre : NoConnectionLeaves g stations conn) (arcs : List Nat)
    (hbal : BalancedAt g arcs) (hcov : LeavesAll g stations arcs) :
    (∀ r ∈ s.model.inOutCons, r.Holds (indicator arcs)) ∧
      ∀ r ∈ s.model.outCons, r.Holds (indicator arcs) := by
  obtain ⟨h1, h2⟩ := new_model hs hpre
  rw [h1, h2]
  constructor
  · rw [flow_rows_hold_iff g hwf dist]
    intro v hv
    have := hbal v hv
    simp only [inFlow, outFlow]
    rw [sum_indicator arcs _ Prod.fst, sum_indicator arcs _ Prod.fst, this]
  · intro r hr
    obtain ⟨station, hst, rfl⟩ := List.mem_map.1 hr
    have hmem := mem_coverTerms hwf dist station.2
    simp only [Row.Holds, reduceCtorEq, false_implies, implies_true, and_true]
    rw [one_le_sum_binary _ _ (fun t ht => ((hmem t.1 t.2).1 ht).1)
      (fun t _ => by unfold indicator; by_cases h : t.1 ∈ arcs <;> simp [h])]
    obtain ⟨i, hi, e, _, hget, hsrc, htgt⟩ := hcov station hst
    exact ⟨(i, 1), (hmem i 1).2 ⟨rfl, e, hget, hsrc, htgt⟩, by simp [indicator, hi]⟩

end Feasible

/-! ## The separator on the network of two lines -/

section TwoLines

theorem twoLineBuilder_new :
    GraphBuilder.new twoLineStations twoLineLines 5 5 .STATION false = .ok twoLineBuilder := by
  rfl

theorem twoLineBuilder_graph : twoLineBuilder._g = twoLineGraph := by
  rfl

theorem twoLineBuilder_stations : twoLineBuilder._station_nodes = twoLineClusters := by
  decide!

theorem twoLineSolver_new :
    StationSolver.new (1 / 100000) twoLineGraph twoLineBuilder._dist twoLineClusters
      twoLineBuilder._connection_arcs = .ok twoLineSolver := by
  rfl

theorem twoLine_noConnectionLeaves :
    NoConnectionLeaves twoLineGraph twoLineClusters twoLineBuilder._connection_arcs := by
  decide

theorem twoLineSolver_ok :
    SolverOk twoLineGraph twoLineBuilder._dist twoLineClusters twoLineSolver :=
  solverOk_of_new (by decide) twoLineSolver_new

theorem twoLineSolver_epInt : twoLineSolver.epInt = 1 / 100000 := new_epInt twoLineSolver_new

theorem twoLineSolver_selected (arcs : List Nat) :
    twoLineSolver.selected (indicator arcs) =
      (twoLineGraph.edges.enum.filter (fun p => decide (p.1 ∈ arcs))).map Prod.snd := by
  rw [selected_indicator twoLineSolver (by rw [twoLineSolver_epInt]; norm_num)
    (by rw [twoLineSolver_epInt]; norm_num), twoLineSolver_ok.graph]

theorem twoLineSolver_isBinary (arcs : List Nat) : twoLineSolver.IsBinary (indicator arcs) :=
  isBinary_indicator twoLineSolver (by rw [twoLineSolver_epInt]; norm_num) arcs

theorem twoLineSolver_getSelected (arcs : List Nat) :
    twoLineSolver.getSelectedEdges (indicator arcs) =
      .ok ((twoLineGraph.edges.enum.filter (fun p => decide (p.1 ∈ arcs))).map Prod.snd) := by
  rw [getSelectedEdges_eq twoLineSolver_ok (by decide) _ (twoLineSolver_isBinary arcs),
    twoLineSolver_selected]

end TwoLines

/-- C4, failing input.  The builder turns the network of the lines `U1`
(`A B C`) and `U2` (`B C`) into a graph on which the station solver is
constructed.  The candidate made of the round trip on `U1` and the round trip on
`U2` is binary and satisfies every flow and coverage row of the model; its
selected arcs form two connected components (the nodes 0 and 3 lie on selected
arcs and are not connected), of which only the component of `U1` is the only one
meeting some station.  The separator accepts the candidate: it returns without a
cut.  `buildSolutionTour` rejects the same arc values because the Euler tour
misses selected arcs. -/
theorem stationLazyCallback_accepts_subtours :
    GraphBuilder.new twoLineStations twoLineLines 5 5 .STATION false = .ok twoLineBuilder ∧
    StationSolver.new (1 / 100000) twoLineBuilder._g twoLineBuilder._dist
      twoLineBuilder._station_nodes twoLineBuilder._connection_arcs = .ok twoLineSolver ∧
    twoLineSolver.IsBinary (indicator twoRoundTrips) ∧
    (∀ r ∈ twoLineSolver.model.inOutCons, r.Holds (indicator twoRoundTrips)) ∧
    (∀ r ∈ twoLineSolver.model.outCons, r.Holds (indicator twoRoundTrips)) ∧
    twoLineSolver.model.inOutCons.length = 10 ∧ twoLineSolver.model.outCons.length = 3 ∧
    (twoLineSolver.selected (indicator twoRoundTrips)).length = 10 ∧
    ExclusiveReps (twoLineSolver.selected (indicator twoRoundTrips))
      twoLineBuilder._station_nodes [0] ∧
    StationLazyCallback twoLineSolver (indicator twoRoundTrips) = .ok [] ∧
    OnSelected (twoLineSolver.selected (indicator twoRoundTrips)) 0 ∧
    OnSelected (twoLineSolver.selected (indicator twoRoundTrips)) 3 ∧
    ¬ SameComp (twoLineSolver.selected (indicator twoRoundTrips)) 0 3 ∧
    twoLineSolver.buildSolutionTour (fun i => if i ∈ twoRoundTrips then 1 else 0) =
      .error subTours := by
  have hsel := twoLineSolver_selected twoRoundTrips
  have hrows := rows_hold_indicator twoLineSolver_new (by decide) twoLine_noConnectionLeaves
    twoRoundTrips (by decide) (by decide)
  have hmodel := new_model twoLineSolver_new twoLine_noConnectionLeaves
  have hrun : StationLazyCallback twoLineSolver (indicator twoRoundTrips) = .ok [] := by
    simp only [StationLazyCallback, StationSolver.createNewSubgraph, twoLineSolver_getSelected]
    rfl
  refine ⟨twoLineBuilder_new, ?_, twoLineSolver_isBinary _, hrows.1, hrows.2, ?_, ?_, ?_, ?_,
    hrun, ?_, ?_, ?_, by rfl⟩
  · rw [twoLineBuilder_graph, twoLineBuilder_stations]; exact twoLineSolver_new
  · rw [hmodel.1, createArcModel_rows_length]; rfl
  · rw [hmodel.2]; rfl
  · rw [hsel]; rfl
  · rw [hsel, twoLineBuilder_stations]; decide
  · rw [hsel]; decide
  · rw [hsel]; decide
  · rw [hsel]; decide

/-! ## The separator on the two clusters -/

section Clusters

theorem clusterSolver_new :
    StationSolver.new (1 / 100000) clusterGraph (fun _ => 1) clusterStations (fun _ => false)
      = .ok clusterSolver := by
  rfl

theorem clusterSolver_ok : SolverOk clusterGraph (fun _ => 1) clusterStations clusterSolver :=
  solverOk_of_new (by decide) clusterSolver_new

theorem clusterSolver_epInt : clusterSolver.epInt = 1 / 100000 := new_epInt clusterSolver_new

theorem clusterSolver_selected (arcs : List Nat) :
    clusterSolver.selected (indicator arcs) =
      (clusterGraph.edges.enum.filter (fun p => decide (p.1 ∈ arcs))).map Prod.snd := by
  rw [selected_indicator clusterSolver (by rw [clusterSolver_epInt]; norm_num)
    (by rw [clusterSolver_epInt]; norm_num), clusterSolver_ok.graph]

theorem clusterSolver_isBinary (arcs : List Nat) : clusterSolver.IsBinary (indicator arcs) :=
  isBinary_indicator clusterSolver (by rw [clusterSolver_epInt]; norm_num) arcs

theorem clusterSolver_getSelected (arcs : List Nat) :
    clusterSolver.getSelectedEdges (indicator arcs) =
      .ok ((clusterGraph.edges.enum.filter (fun p => decide (p.1 ∈ arcs))).map Prod.snd) := by
  rw [getSelectedEdges_eq clusterSolver_ok (by decide) _ (clusterSolver_isBinary arcs),
    clusterSolver_selected]

end Clusters

/-- C5, failing input.  On the graph of the two clusters `U` and `V`,
`initializeStations` finds a cluster with exactly one arc entering it from
outside and the solver is constructed.  The candidate selecting the three
cycles 0→3→0, 1→2→1 and 4→5→4 is binary and satisfies every flow and coverage
row of the model, and every cluster has a node on a selected arc; but each
cluster meets two components, so no component is exclusive, and the separator
stops at the failed assertion `components_with_excl_station.size() >= 1`. -/
theorem stationLazyCallback_no_exclusive_component :
    StationSolver.new (1 / 100000) clusterGraph (fun _ => 1) clusterStations (fun _ => false)
      = .ok clusterSolver ∧
    (∃ idx, initializeStations clusterGraph clusterStations = .ok idx) ∧
    findUniqueStation clusterGraph clusterStations = some ("U", [0, 1, 2]) ∧
    countNonStationInEdges clusterGraph [0, 1, 2] = 1 ∧
    enteringArcs clusterGraph [0, 1, 2] = 1 ∧
    clusterSolver.IsBinary (indicator threeCycles) ∧
    (∀ r ∈ clusterSolver.model.inOutCons, r.Holds (indicator threeCycles)) ∧
    (∀ r ∈ clusterSolver.model.outCons, r.Holds (indicator threeCycles)) ∧
    clusterSolver.model.inOutCons.length = 6 ∧ clusterSolver.model.outCons.length = 2 ∧
    (∀ station ∈ clusterStations,
      Touched (clusterSolver.selected (indicator threeCycles)) station.2) ∧
    (∀ n ∈ selNodes (clusterSolver.selected (indicator threeCycles)),
      ¬ ExclusiveComp (clusterSolver.selected (indicator threeCycles)) clusterStations n) ∧
    StationLazyCallback clusterSolver (indicator threeCycles) = .error assertExclusive := by
  have hsel := clusterSolver_selected threeCycles
  have hpre : NoConnectionLeaves clusterGraph clusterStations (fun _ => false) := by decide
  have hrows := rows_hold_indicator clusterSolver_new (by decide) hpre threeCycles
    (by decide) (by decide)
  have hmodel := new_model clusterSolver_new hpre
  have hrun : StationLazyCallback clusterSolver (indicator threeCycles)
      = .error assertExclusive := by
    simp only [StationLazyCallback, StationSolver.createNewSubgraph, clusterSolver_getSelected]
    rfl
  refine ⟨clusterSolver_new, ⟨_, rfl⟩, by rfl, by rfl, by rfl, clusterSolver_isBinary _,
    hrows.1, hrows.2, ?_, ?_, ?_, ?_, hrun⟩
  · rw [hmodel.1, createArcModel_rows_length]; rfl
  · rw [hmodel.2]; rfl
  · rw [hsel]; decide
  · rw [hsel]; decide

/-- C10, counterexample: in the network of the lines `L1` (`A B`), `L2` (`A A`)
and `L3` (`B B`) every line has two stops, every station is served by two lines,
every stop is a station that lists the line, and the graph builds.  The only
arc that enters the cluster of `A` from outside is the travel arc from `B` on
`L1`, so the solver is constructed: the construction does not fail with the
error of the missing unique station. -/
theorem stationSolver_shared_stations_counterexample :
    (∀ it ∈ loopLines, 2 ≤ it.2.stations.length) ∧
    (∀ it ∈ loopStations, 2 ≤ it.2.lines.length) ∧
    (∀ it ∈ loopLines, ∀ s ∈ it.2.stations,
      ∃ st ∈ loopStations, st.2.name = s ∧ it.2.name ∈ st.2.lines) ∧
    GraphBuilder.new loopStations loopLines 5 5 .STATION false = .ok loopBuilder ∧
    loopBuilder._g = loopGraph ∧ loopBuilder._station_nodes = loopClusters ∧
    enteringArcs loopGraph [0, 2, 3, 7, 8, 9] = 1 ∧
    StationSolver.new (1 / 100000) loopBuilder._g loopBuilder._dist loopBuilder._station_nodes
      loopBuilder._connection_arcs = .ok loopSolver ∧
    StationSolver.new (1 / 100000) loopBuilder._g loopBuilder._dist loopBuilder._station_nodes
      loopBuilder._connection_arcs ≠ .error noUniqueStation := by
  have hg : loopBuilder._g = loopGraph := by rfl
  have hst : loopBuilder._station_nodes = loopClusters := by decide!
  have hnew : StationSolver.new (1 / 100000) loopBuilder._g loopBuilder._dist
      loopBuilder._station_nodes loopBuilder._connection_arcs = .ok loopSolver := by
    rw [hg, hst]; rfl
  refine ⟨by decide, by decide, by decide, by rfl, hg, hst, by decide, hnew, ?_⟩
  rw [hnew]
  simp

/-- C6, witness: the small instance is well formed; its model has five flow
rows, and the row of node 2 is `0 <= x5 + x7 + x3 - x2 - x4 <= 0` up to the
order of the terms. -/
theorem createCplexModel_flow_rows_witness :
    smallGraph.WellFormed ∧
    (createArcModel smallGraph (fun _ => 1)).inOutCons.length = 5 ∧
    ∃ r, (createArcModel smallGraph (fun _ => 1)).inOutCons[2]? = some r ∧
      r.lb = 0 ∧ r.ub = some 0 ∧
      (3, (1 : ℚ)) ∈ r.terms ∧ (7, (1 : ℚ)) ∈ r.terms ∧ (2, (-1 : ℚ)) ∈ r.terms := by
  have h := createCplexModel_flow_rows smallGraph (fun _ => 1) smallStations (fun _ => false)
    (by decide)
  refine ⟨by decide, h.1, ?_⟩
  obtain ⟨r, hr, hlb, hub, _, hmem, _⟩ := h.2.1 2 (by decide)
  refine ⟨r, hr, hlb, hub, (hmem 3 1).2 ⟨⟨3, 3, 2⟩, rfl, Or.inl ⟨rfl, rfl⟩⟩,
    (hmem 7 1).2 ⟨⟨7, 4, 2⟩, rfl, Or.inl ⟨rfl, rfl⟩⟩,
    (hmem 2 (-1)).2 ⟨⟨2, 2, 3⟩, rfl, Or.inr ⟨rfl, rfl⟩⟩⟩

/-- C7, witness: on the small instance no connection arc leaves a cluster, so
a model is returned; it has four coverage rows, and the row of station
`C = {2, 3}` holds the arcs 2→1 and 3→4 and not the arc 2→3. -/
theorem createCplexModel_coverage_rows_witness :
    smallGraph.WellFormed ∧ (∀ station ∈ smallStations, station.2.Nodup) ∧
    ∃ m ev, createCplexModel smallGraph (fun _ => 1) smallStations (fun _ => false) = .ok (m, ev) ∧
      m.outCons.length = 4 ∧
      ∃ r, m.outCons[2]? = some r ∧ r.lb = 1 ∧ r.ub = none ∧
        (5, (1 : ℚ)) ∈ r.terms ∧ (6, (1 : ℚ)) ∈ r.terms ∧ (2, (1 : ℚ)) ∉ r.terms := by
  have h := createCplexModel_coverage_rows smallGraph (fun _ => 1)
    smallStations (fun _ => false) (by decide) (by decide)
  obtain ⟨m, ev, hm⟩ := h.1.2 (by decide)
  obtain ⟨hlen, hrows⟩ := h.2 m ev hm
  refine ⟨by decide, by decide, m, ev, hm, hlen, ?_⟩
  obtain ⟨r, hr, hlb, hub, _, hmem, _⟩ := hrows 2 (by decide)
  refine ⟨r, hr, hlb, hub, (hmem 5 1).2 ⟨rfl, ⟨5, 2, 1⟩, rfl, by decide, by decide⟩,
    (hmem 6 1).2 ⟨rfl, ⟨6, 3, 4⟩, rfl, by decide, by decide⟩, ?_⟩
  intro h
  obtain ⟨_, e, he, _, ht⟩ := (hmem 2 1).1 h
  have : e = ⟨2, 2, 3⟩ := by
    have h2 : smallGraph.edges[2]? = some ⟨2, 2, 3⟩ := rfl
    rw [h2] at he
    exact (Option.some.inj he).symm
  subst this
  exact ht (by decide)

/-- C8, witness: the model of the small instance has eight variables, and the
arc 3→4, at position 6, has the variable index 6. -/
theorem createCplexModel_variables_witness :
    smallGraph.WellFormed ∧
    (createArcModel smallGraph (fun _ => 1)).vars.length = 8 ∧
    (createArcModel smallGraph (fun _ => 1)).edgeToVarId 6 = 6 := by
  have h := createCplexModel_variables smallGraph (fun _ => 1) smallStations (fun _ => false)
    (by decide)
  exact ⟨by decide, h.1, h.2.2.2.1 6 ⟨6, 3, 4⟩ rfl⟩

/-- C9, witness: in the small instance station `A` is entered by exactly one
arc, so the construction of the solver does not fail with the error of the
missing unique station. -/
theorem stationSolver_unique_station_error_witness :
    (∀ station ∈ smallStations, station.2.Nodup) ∧
    enteringArcs smallGraph [0] = 1 ∧
    StationSolver.new (1 / 100000) smallGraph (fun _ => 1) smallStations (fun _ => false)
      ≠ .error noUniqueStation := by
  have h := (stationSolver_unique_station_error (1 / 100000) smallGraph (fun _ => 1)
    smallStations (fun _ => false) (by decide)).1
  refine ⟨by decide, by decide, ?_⟩
  intro hne
  exact (h.1 hne) ("A", [0]) (by decide) (by decide)

/-! ## Invariants of the graph builder -/

section BuilderBase

open GraphBuilder

theorem ext_refl (b : GraphBuilder) : Ext b b :=
  ⟨le_refl _, le_refl _, fun _ h => h, fun _ _ => rfl, fun _ _ => rfl, fun _ _ => rfl, rfl, rfl⟩

theorem ext_trans {b1 b2 b3 : GraphBuilder} (h12 : Ext b1 b2) (h23 : Ext b2 b3) : Ext b1 b3 where
  nextNode_le := le_trans h12.nextNode_le h23.nextNode_le
  nextEdge_le := le_trans h12.nextEdge_le h23.nextEdge_le
  edges := fun e he => h23.edges e (h12.edges e he)
  conn := fun i hi => by
    rw [h23.conn i (lt_of_lt_of_le hi h12.nextEdge_le), h12.conn i hi]
  names := fun i hi => by
    rw [h23.names i (lt_of_lt_of_le hi h12.nextEdge_le), h12.names i hi]
  node_names := fun n hn => by
    rw [h23.node_names n (lt_of_lt_of_le hn h12.nextNode_le), h12.node_names n hn]
  stations := h23.stations.trans h12.stations
  lines := h23.lines.trans h12.lines

theorem sameNodes_refl (b : GraphBuilder) : SameNodes b b := ⟨rfl, rfl, rfl⟩

theorem sameNodes_trans {b1 b2 b3 : GraphBuilder} (h12 : SameNodes b1 b2)
    (h23 : SameNodes b2 b3) : SameNodes b1 b3 :=
  ⟨h23.nextNode.trans h12.nextNode, h23.node_names.trans h12.node_names,
    h23.station_nodes.trans h12.station_nodes⟩

theorem hasIn_ext {b b' : GraphBuilder} (hb : Base b) (h : Ext b b') {n : Nat}
    (hn : b.HasIn n) : b'.HasIn n := by
  obtain ⟨e, he, ht, hc⟩ := hn
  exact ⟨e, h.edges e he, ht, by rw [h.conn _ (hb.edge_lt e he).1, hc]⟩

theorem hasOut_ext {b b' : GraphBuilder} (hb : Base b) (h : Ext b b') {n : Nat}
    (hn : b.HasOut n) : b'.HasOut n := by
  obtain ⟨e, he, ht, hc⟩ := hn
  exact ⟨e, h.edges e he, ht, by rw [h.conn _ (hb.edge_lt e he).1, hc]⟩

theorem hasInOf_ext {b b' : GraphBuilder} (hb : Base b) (h : Ext b b') {l : String} {n : Nat}
    (hn : b.HasInOf l n) : b'.HasInOf l n := by
  obtain ⟨e, he, ht, hc, hl⟩ := hn
  exact ⟨e, h.edges e he, ht, by rw [h.conn _ (hb.edge_lt e he).1, hc],
    by rw [h.names _ (hb.edge_lt e he).1, hl]⟩

/-- Members of the map of clusters after an insertion. -/
theorem mem_insertStationNode (sn : StationNodes) (station : String) (c : Nat)
    (hs : (sn.map Prod.fst).Pairwise (fun a c => a < c)) :
    ∀ p ∈ insertStationNode sn station c,
      (p ∈ sn ∧ p.1 ≠ station) ∨
      (p.1 = station ∧ ((∃ ns, (station, ns) ∈ sn ∧ p.2 = if c ∈ ns then ns else ns ++ [c]) ∨
        ((∀ q ∈ sn, q.1 ≠ station) ∧ p.2 = [c]))) := by
  induction sn with
  | nil =>
    intro p hp
    simp only [insertStationNode, List.mem_singleton] at hp
    subst hp
    exact Or.inr ⟨rfl, Or.inr ⟨by simp, rfl⟩⟩
  | cons a rest ih =>
    obtain ⟨k, ns⟩ := a
    simp only [List.map_cons, List.pairwise_cons] at hs
    obtain ⟨hk, hrest⟩ := hs
    have hgt : ∀ q ∈ rest, k < q.1 := fun q hq => hk q.1 (List.mem_map_of_mem _ hq)
    intro p hp
    unfold insertStationNode at hp
    by_cases h1 : station = k
    · subst h1
      simp only [if_true, List.mem_cons] at hp
      rcases hp with rfl | hp
      · exact Or.inr ⟨rfl, Or.inl ⟨ns, List.mem_cons_self _ _, rfl⟩⟩
      · exact Or.inl ⟨List.mem_cons_of_mem _ hp, (ne_of_lt (hgt p hp)).symm⟩
    · simp only [h1, if_false] at hp
      by_cases h2 : station < k
      · simp only [h2, if_true, List.mem_cons] at hp
        rcases hp with rfl | rfl | hp
        · refine Or.inr ⟨rfl, Or.inr ⟨?_, rfl⟩⟩
          intro q hq
          rcases List.mem_cons.1 hq with rfl | hq
          · exact fun h => h1 h.symm
          · exact fun h => absurd (h ▸ hgt q hq) (not_lt.2 (le_of_lt h2))
        · exact Or.inl ⟨List.mem_cons_self _ _, fun h => h1 h.symm⟩
        · exact Or.inl ⟨List.mem_cons_of_mem _ hp, fun h =>
            absurd (h ▸ hgt p hp) (not_lt.2 (le_of_lt h2))⟩
      · simp only [h2, if_false, List.mem_cons] at hp
        rcases hp with rfl | hp
        · exact Or.inl ⟨List.mem_cons_self _ _, fun h => h1 h.symm⟩
        · rcases ih hrest p hp with h | ⟨h, h' | h'⟩
          · exact Or.inl ⟨List.mem_cons_of_mem _ h.1, h.2⟩
          · obtain ⟨ns', hm, hp2⟩ := h'
            exact Or.inr ⟨h, Or.inl ⟨ns', List.mem_cons_of_mem _ hm, hp2⟩⟩
          · refine Or.inr ⟨h, Or.inr ⟨?_, h'.2⟩⟩
            intro q hq
            rcases List.mem_cons.1 hq with rfl | hq
            · exact fun h => h1 h.symm
            · exact h'.1 q hq

/-- Keys of the map of clusters after an insertion. -/
theorem keys_insertStationNode (sn : StationNodes) (station : String) (c : Nat) :
    ∀ k, k ∈ (insertStationNode sn station c).map Prod.fst ↔
      k = station ∨ k ∈ sn.map Prod.fst := by
  induction sn with
  | nil => intro k; simp [insertStationNode]
  | cons a rest ih =>
    obtain ⟨k0, ns⟩ := a
    intro k
    unfold insertStationNode
    by_cases h1 : station = k0
    · subst h1
      simp only [if_true, List.map_cons, List.mem_cons]
      tauto
    · simp only [h1, if_false]
      by_cases h2 : station < k0
      · simp only [h2, if_true, List.map_cons, List.mem_cons]
      · simp only [h2, if_false, List.map_cons, List.mem_cons, ih k]
        tauto

theorem sorted_insertStationNode (sn : StationNodes) (station : String) (c : Nat)
    (hs : (sn.map Prod.fst).Pairwise (fun a c => a < c)) :
    ((insertStationNode sn station c).map Prod.fst).Pairwise (fun a c => a < c) := by
  induction sn with
  | nil => simp [insertStationNode]
  | cons a rest ih =>
    obtain ⟨k0, ns⟩ := a
    simp only [List.map_cons, List.pairwise_cons] at hs
    obtain ⟨hk, hrest⟩ := hs
    unfold insertStationNode
    by_cases h1 : station = k0
    · subst h1
      simp only [if_true, List.map_cons, List.pairwise_cons]
      exact ⟨hk, hrest⟩
    · simp only [h1, if_false]
      by_cases h2 : station < k0
      · simp only [h2, if_true, List.map_cons, List.pairwise_cons, List.mem_cons]
        refine ⟨?_, hk, hrest⟩
        rintro a (rfl | ha)
        · exact h2
        · exact lt_trans h2 (hk a ha)
      · simp only [h2, if_false, List.map_cons, List.pairwise_cons]
        refine ⟨?_, ih hrest⟩
        intro a ha
        rcases (keys_insertStationNode rest station c a).1 ha with rfl | ha
        · exact lt_of_le_of_ne (not_lt.1 h2) (fun h => h1 h.symm)
        · exact hk a ha

end BuilderBase

section BuilderSteps

open GraphBuilder

theorem addStationNode_fields (b : GraphBuilder) (station : String) :
    (b.addStationNode station).2 = b._g.nextNode ∧
    (b.addStationNode station).1._g.nodes = b._g.nodes ++ [b._g.nextNode] ∧
    (b.addStationNode station).1._g.nextNode = b._g.nextNode + 1 ∧
    (b.addStationNode station).1._g.edges = b._g.edges ∧
    (b.addStationNode station).1._g.nextEdge = b._g.nextEdge ∧
    (b.addStationNode station).1._connection_arcs = b._connection_arcs ∧
    (b.addStationNode station).1._arc_names = b._arc_names ∧
    (b.addStationNode station).1._node_names =
      (fun i => if i = b._g.nextNode then station else b._node_names i) ∧
    (b.addStationNode station).1._station_nodes =
      insertStationNode b._station_nodes station b._g.nextNode ∧
    (b.addStationNode station).1._stations = b._stations ∧
    (b.addStationNode station).1._lines = b._lines :=
  ⟨rfl, rfl, rfl, rfl, rfl, rfl, rfl, rfl, rfl, rfl, rfl⟩

theorem addStationNode_ext (b : GraphBuilder) (station : String) :
    Ext b (b.addStationNode station).1 := by
  obtain ⟨_, _, h3, h4, h5, h6, h7, h8, _, h10, h11⟩ := addStationNode_fields b station
  refine ⟨by rw [h3]; omega, by rw [h5], by rw [h4]; exact fun _ h => h, by rw [h6]; simp,
    by rw [h7]; simp, ?_, h10, h11⟩
  intro n hn
  rw [h8]
  simp [Nat.ne_of_lt hn]

theorem addStationNode_base (b : GraphBuilder) (station : String) (hb : Base b) :
    Base (b.addStationNode station).1 := by
  obtain ⟨_, h2, h3, h4, h5, h6, h7, h8, h9, _, _⟩ := addStationNode_fields b station
  have hname : ∀ n, n < b._g.nextNode →
      (b.addStationNode station).1._node_names n = b._node_names n := by
    intro n hn; rw [h8]; simp [Nat.ne_of_lt hn]
  have hnew : (b.addStationNode station).1._node_names b._g.nextNode = station := by
    rw [h8]; simp
  constructor
  · intro n
    rw [h2, h3, List.mem_append, hb.node_lt, List.mem_singleton]
    omega
  · intro e he
    rw [h4] at he
    rw [h5, h3]
    have := hb.edge_lt e he
    omega
  · intro i hi
    rw [h7]; rw [h5] at hi
    exact hb.unset i hi
  · intro e he
    rw [h4] at he
    have hlt := hb.edge_lt e he
    rw [h6, h7, hname _ hlt.2.1, hname _ hlt.2.2]
    exact hb.arcs e he
  · rw [h9]; exact sorted_insertStationNode _ _ _ hb.sorted
  · intro p hp
    rw [h9] at hp
    rw [h3]
    rcases mem_insertStationNode _ _ _ hb.sorted p hp with ⟨hmem, hne⟩ | ⟨hkey, hcase⟩
    · obtain ⟨hnd, hnn, hiff⟩ := hb.clusters p hmem
      refine ⟨hnd, hnn, ?_⟩
      intro n
      rw [hiff]
      constructor
      · rintro ⟨hn, hnm⟩
        exact ⟨by omega, by rw [hname n hn]; exact hnm⟩
      · rintro ⟨hn, hnm⟩
        rcases Nat.lt_succ_iff_lt_or_eq.1 hn with hlt | heq
        · exact ⟨hlt, by rw [← hname n hlt]; exact hnm⟩
        · subst heq
          rw [hnew] at hnm
          exact absurd hnm.symm hne
    · rcases hcase with ⟨ns, hmem, hp2⟩ | ⟨hnone, hp2⟩
      · obtain ⟨hnd, hnn, hiff⟩ := hb.clusters _ hmem
        have hc : b._g.nextNode ∉ ns := fun h => absurd ((hiff _).1 h).1 (lt_irrefl _)
        rw [if_neg hc] at hp2
        rw [hp2, hkey]
        refine ⟨?_, by simp, ?_⟩
        · rw [List.nodup_append]
          exact ⟨hnd, List.nodup_singleton _, by simpa using hc⟩
        · intro n
          rw [List.mem_append, List.mem_singleton, hiff]
          constructor
          · rintro (⟨hn, hnm⟩ | rfl)
            · exact ⟨by omega, by rw [hname n hn]; exact hnm⟩
            · exact ⟨by omega, hnew⟩
          · rintro ⟨hn, hnm⟩
            rcases Nat.lt_succ_iff_lt_or_eq.1 hn with hlt | heq
            · exact Or.inl ⟨hlt, by rw [← hname n hlt]; exact hnm⟩
            · exact Or.inr heq
      · rw [hp2, hkey]
        refine ⟨List.nodup_singleton _, by simp, ?_⟩
        intro n
        rw [List.mem_singleton]
        constructor
        · rintro rfl
          exact ⟨by omega, hnew⟩
        · rintro ⟨hn, hnm⟩
          rcases Nat.lt_succ_iff_lt_or_eq.1 hn with hlt | heq
          · obtain ⟨q, hq, hqn⟩ := hb.covered n hlt
            rw [hname n hlt] at hnm
            exact absurd (hqn.trans hnm) (hnone q hq)
          · exact heq
  · intro n hn
    rw [h3] at hn
    rw [h9]
    have hkeys := keys_insertStationNode b._station_nodes station b._g.nextNode
    rcases Nat.lt_succ_iff_lt_or_eq.1 hn with hlt | heq
    · obtain ⟨q, hq, hqn⟩ := hb.covered n hlt
      have := (hkeys q.1).2 (Or.inr (List.mem_map_of_mem _ hq))
      obtain ⟨p, hp, hpq⟩ := List.mem_map.1 this
      exact ⟨p, hp, by rw [hpq, hqn, hname n hlt]⟩
    · subst heq
      have := (hkeys station).2 (Or.inl rfl)
      obtain ⟨p, hp, hpq⟩ := List.mem_map.1 this
      exact ⟨p, hp, by rw [hpq, hnew]⟩

/-- Adding one arc between two nodes keeps the invariants, when the arc is a
travel arc between two stations or a transfer arc inside a station. -/
theorem base_addEdge {b b' : GraphBuilder} (hb : Base b) (s t : Nat)
    (hs : s < b._g.nextNode) (ht : t < b._g.nextNode)
    (hg : b'._g = (b._g.newEdge s t).1)
    (hnn : b'._node_names = b._node_names) (hsn : b'._station_nodes = b._station_nodes)
    (hst : b'._stations = b._stations) (hl : b'._lines = b._lines)
    (hconn : ∀ i, i ≠ b._g.nextEdge → b'._connection_arcs i = b._connection_arcs i)
    (hnames : ∀ i, i ≠ b._g.nextEdge → b'._arc_names i = b._arc_names i)
    (hnew : (b'._connection_arcs b._g.nextEdge = false ∧
        b'._arc_names b._g.nextEdge ≠ CHANGE_NAME ∧ b._node_names s ≠ b._node_names t) ∨
      (b'._connection_arcs b._g.nextEdge = true ∧
        b'._arc_names b._g.nextEdge = CHANGE_NAME ∧ b._node_names s = b._node_names t)) :
    Base b' ∧ Ext b b' ∧ SameNodes b b' ∧
      b'._g.edges = b._g.edges ++ [⟨b._g.nextEdge, s, t⟩] ∧
      b'._g.nextEdge = b._g.nextEdge + 1 := by
  have hnodes : b'._g.nodes = b._g.nodes := by rw [hg]; rfl
  have hnext : b'._g.nextNode = b._g.nextNode := by rw [hg]; rfl
  have hedges : b'._g.edges = b._g.edges ++ [⟨b._g.nextEdge, s, t⟩] := by rw [hg]; rfl
  have hnextE : b'._g.nextEdge = b._g.nextEdge + 1 := by rw [hg]; rfl
  refine ⟨?_, ?_, ⟨hnext, hnn, hsn⟩, hedges, hnextE⟩
  · constructor
    · intro n; rw [hnodes, hnext]; exact hb.node_lt n
    · intro e he
      rw [hedges, List.mem_append, List.mem_singleton] at he
      rw [hnextE, hnext]
      rcases he with he | rfl
      · have := hb.edge_lt e he
        omega
      · exact ⟨by simp, hs, ht⟩
    · intro i hi
      rw [hnextE] at hi
      rw [hnames i (by omega)]
      exact hb.unset i (by omega)
    · intro e he
      rw [hedges, List.mem_append, List.mem_singleton] at he
      rw [hnn]
      rcases he with he | rfl
      · have hlt := (hb.edge_lt e he).1
        rw [hconn _ (Nat.ne_of_lt hlt), hnames _ (Nat.ne_of_lt hlt)]
        exact hb.arcs e he
      · exact hnew
    · rw [hsn]; exact hb.sorted
    · intro p hp
      rw [hsn] at hp
      rw [hnext, hnn]
      exact hb.clusters p hp
    · intro n hn
      rw [hnext] at hn
      rw [hsn, hnn]
      exact hb.covered n hn
  · refine ⟨by rw [hnext], by rw [hnextE]; omega, ?_, ?_, ?_, ?_, hst, hl⟩
    · intro e he; rw [hedges]; exact List.mem_append_left _ he
    · intro i hi; exact hconn i (Nat.ne_of_lt hi)
    · intro i hi; exact hnames i (Nat.ne_of_lt hi)
    · intro n _; rw [hnn]

/-- A successful call of `addTravelArc` with a previous node adds the travel arc. -/
theorem addTravelArc_some {b b' : GraphBuilder} (hb : Base b) (lineName : String)
    (times : List Nat) (last c hi lo : Nat) (hlast : last < b._g.nextNode)
    (hc : c < b._g.nextNode) (hne : b._node_names last ≠ b._node_names c)
    (hline : lineName ≠ CHANGE_NAME)
    (h : b.addTravelArc lineName times (some last) c hi lo = .ok b') :
    Base b' ∧ Ext b b' ∧ SameNodes b b' ∧
      (∃ e ∈ b'._g.edges, e.src = last ∧ e.tgt = c ∧ b'._connection_arcs e.id = false ∧
        b'._arc_names e.id = lineName) := by
  simp only [addTravelArc] at h
  split at h
  · exact absurd h (by simp)
  · simp only [Except.ok.injEq] at h
    obtain ⟨h1, h2, h3, h4, _⟩ := @base_addEdge b b' hb last c hlast hc (by rw [← h])
      (by rw [← h]) (by rw [← h]) (by rw [← h]) (by rw [← h])
      (fun i hi => by rw [← h]; simp [LGraph.newEdge, hi])
      (fun i hi => by rw [← h]; simp [LGraph.newEdge, hi])
      (Or.inl ⟨by rw [← h]; simp [LGraph.newEdge],
        by rw [← h]; simpa [LGraph.newEdge] using hline, hne⟩)
    refine ⟨h1, h2, h3, ⟨b._g.nextEdge, last, c⟩, ?_, rfl, rfl, ?_, ?_⟩
    · rw [h4]; simp
    · rw [← h]; simp [LGraph.newEdge]
    · rw [← h]; simp [LGraph.newEdge]

theorem addTravelArc_none (b : GraphBuilder) (lineName : String) (times : List Nat)
    (c hi lo : Nat) : b.addTravelArc lineName times none c hi lo = .ok b := rfl

/-- A successful call of `addSwitchArc` adds a transfer arc between two given nodes. -/
theorem addSwitchArc_ok {b b' : GraphBuilder} (hb : Base b) (s t : Option Nat)
    (hst : ∀ u v, s = some u → t = some v →
      u < b._g.nextNode ∧ v < b._g.nextNode ∧ b._node_names u = b._node_names v)
    (h : b.addSwitchArc s t = .ok b') :
    Base b' ∧ Ext b b' ∧ SameNodes b b' ∧ s.isSome ∧ t.isSome := by
  unfold addSwitchArc at h
  split at h
  · rename_i u v
    obtain ⟨hu, hv, hnm⟩ := hst u v rfl rfl
    simp only [Except.ok.injEq] at h
    obtain ⟨h1, h2, h3, _, _⟩ := @base_addEdge b b' hb u v hu hv (by rw [← h])
      (by rw [← h]) (by rw [← h]) (by rw [← h]) (by rw [← h])
      (fun i hi => by rw [← h]; simp [LGraph.newEdge, hi]) (fun i _ => by rw [← h])
      (Or.inr ⟨by rw [← h]; simp [LGraph.newEdge],
        by rw [← h]; exact hb.unset _ (le_refl _), hnm⟩)
    exact ⟨h1, h2, h3, rfl, rfl⟩
  · exact absurd h (by simp)

end BuilderSteps

section BuilderWay

open GraphBuilder

theorem wayLoop_cons (lineName : String) (times : List Nat) (station : String)
    (rest : List String) (idx : Nat) (lastNode : Option Nat) (b : GraphBuilder) (way : NodeMap) :
    wayLoop lineName times (station :: rest) idx lastNode (b, way) =
      match (b.addStationNode station).1.addTravelArc lineName times lastNode
          (b.addStationNode station).2 idx (idx - 1) with
      | .error m => .error m
      | .ok b2 =>
        wayLoop lineName times rest (idx + 1) (some (b.addStationNode station).2)
          (b2, way.set lineName station (b.addStationNode station).2) := rfl

theorem backLoop_cons (lineName : String) (times : List Nat) (station : String)
    (rest : List String) (idx : Int) (lastNode : Option Nat) (b : GraphBuilder) (back : NodeMap) :
    backLoop lineName times (station :: rest) idx lastNode (b, back) =
      match (b.addStationNode station).1.addTravelArc lineName times lastNode
          (b.addStationNode station).2 (idx + 1).toNat idx.toNat with
      | .error m => .error m
      | .ok b2 =>
        backLoop lineName times rest (idx - 1) (some (b.addStationNode station).2)
          (b2, back.set lineName station (b.addStationNode station).2) := rfl

/-- One step of the loops over the stops of a line: the new node and the travel
arc from the previous node. -/
theorem lineStep_spec {b b2 : GraphBuilder} (hb : Base b) (lineName : String)
    (hline : lineName ≠ CHANGE_NAME) (times : List Nat) (station : String)
    (lastNode : Option Nat) (hi lo : Nat)
    (hlast : ∀ l, lastNode = some l → l < b._g.nextNode ∧ b._node_names l ≠ station)
    (h : (b.addStationNode station).1.addTravelArc lineName times lastNode
      (b.addStationNode station).2 hi lo = .ok b2) :
    Base b2 ∧ Ext b b2 ∧ b2._g.nextNode = b._g.nextNode + 1 ∧
      b2._node_names b._g.nextNode = station ∧
      (∀ l, lastNode = some l → b2.HasInOf lineName b._g.nextNode ∧ b2.HasOut l) := by
  obtain ⟨h1, _, h3, _, _, _, _, h8, _⟩ := addStationNode_fields b station
  have hb1 := addStationNode_base b station hb
  have he1 := addStationNode_ext b station
  have hnew : (b.addStationNode station).1._node_names b._g.nextNode = station := by
    rw [h8]; simp
  rw [h1] at h
  cases lastNode with
  | none =>
    rw [addTravelArc_none] at h
    simp only [Except.ok.injEq] at h
    subst h
    exact ⟨hb1, he1, h3, hnew, fun l hl => absurd hl (by simp)⟩
  | some l =>
    obtain ⟨hl, hne⟩ := hlast l rfl
    obtain ⟨hb2, he2, hs2, e, he, hsrc, htgt, hconn, hname⟩ :=
      addTravelArc_some hb1 lineName times l b._g.nextNode hi lo (by rw [h3]; omega)
        (by rw [h3]; omega) (by rw [hnew, he1.node_names l hl]; exact hne) hline h
    refine ⟨hb2, ext_trans he1 he2, by rw [hs2.nextNode, h3], by rw [hs2.node_names, hnew], ?_⟩
    intro l' hl'
    simp only [Option.some.injEq] at hl'
    subst hl'
    exact ⟨⟨e, he, htgt, hconn, hname⟩, ⟨e, he, hsrc, hconn⟩⟩

theorem linePost_nil (lineName : String) (lastNode : Option Nat) (b : GraphBuilder)
    (m : NodeMap) (hb : Base b) : LinePost lineName [] lastNode b m b m := by
  refine ⟨hb, ext_refl b, rfl, ?_, fun _ _ _ => rfl, ?_, fun _ _ h => absurd rfl h⟩
  · intro pre S post h
    exact absurd h (by simp)
  · intro n h1 h2
    have : n < b._g.nextNode := h2
    omega

theorem linePost_cons {lineName : String} {S : String} {rest : List String}
    {lastNode : Option Nat} {b b2 b' : GraphBuilder} {m m' : NodeMap}
    (hnd : (S :: rest).Nodup)
    (hb2 : Base b2) (he2 : Ext b b2) (hn2 : b2._g.nextNode = b._g.nextNode + 1)
    (hname : b2._node_names b._g.nextNode = S)
    (harc : ∀ l, lastNode = some l → b2.HasInOf lineName b._g.nextNode ∧ b2.HasOut l)
    (hpost : LinePost lineName rest (some b._g.nextNode) b2 (m.set lineName S b._g.nextNode)
      b' m') :
    LinePost lineName (S :: rest) lastNode b m b' m' := by
  obtain ⟨hb', he', hn', hdec, hout, hreg, hlastOut⟩ := hpost
  have hS : S ∉ rest := (List.nodup_cons.1 hnd).1
  have hway : m' lineName S = some b._g.nextNode := by
    rw [hout lineName S (Or.inr hS)]
    simp [NodeMap.set]
  refine ⟨hb', ext_trans he2 he', by rw [hn', hn2, List.length_cons]; omega, ?_, ?_, ?_, ?_⟩
  · intro pre X post hX
    cases pre with
    | nil =>
      simp only [List.nil_append, List.cons.injEq] at hX
      obtain ⟨rfl, rfl⟩ := hX
      refine ⟨b._g.nextNode, hway, le_refl _, by rw [hn', hn2]; omega, ?_, ?_, ?_⟩
      · rw [he'.node_names _ (by rw [hn2]; omega), hname]
      · rintro (h | h)
        · exact absurd rfl h
        · cases lastNode with
          | none => exact absurd rfl h
          | some l => exact hasInOf_ext hb2 he' (harc l rfl).1
      · intro hpost
        exact hlastOut _ rfl hpost
    | cons a pre' =>
      simp only [List.cons_append, List.cons.injEq] at hX
      obtain ⟨rfl, hX⟩ := hX
      obtain ⟨w, h1, h2, h3, h4, h5, h6⟩ := hdec pre' X post hX
      exact ⟨w, h1, by rw [hn2] at h2; omega, h3, h4, fun _ => h5 (Or.inr (by simp)), h6⟩
  · intro l X hlX
    have h1 : l ≠ lineName ∨ X ∉ rest := by
      rcases hlX with h | h
      · exact Or.inl h
      · exact Or.inr (fun hx => h (List.mem_cons_of_mem _ hx))
    rw [hout l X h1]
    have h2 : ¬ (l = lineName ∧ X = S) := by
      rintro ⟨rfl, rfl⟩
      rcases hlX with h | h
      · exact h rfl
      · exact h (List.mem_cons_self _ _)
    simp [NodeMap.set, h2]
  · intro n h1 h2
    by_cases hn : n = b._g.nextNode
    · subst hn
      exact ⟨S, List.mem_cons_self _ _, hway⟩
    · obtain ⟨X, hX, hXn⟩ := hreg n (by rw [hn2]; omega) h2
      exact ⟨X, List.mem_cons_of_mem _ hX, hXn⟩
  · intro l hl _
    exact hasOut_ext hb2 he' (harc l hl).2

theorem wayLoop_spec (lineName : String) (times : List Nat) (hline : lineName ≠ CHANGE_NAME) :
    ∀ (rest : List String) (idx : Nat) (lastNode : Option Nat) (b : GraphBuilder)
      (way : NodeMap) (b' : GraphBuilder) (way' : NodeMap),
      wayLoop lineName times rest idx lastNode (b, way) = .ok (b', way') →
      Base b → rest.Nodup →
      (∀ l, lastNode = some l → l < b._g.nextNode ∧ b._node_names l ∉ rest) →
      LinePost lineName rest lastNode b way b' way' := by
  intro rest
  induction rest with
  | nil =>
    intro idx lastNode b way b' way' h hb _ _
    simp only [wayLoop, Except.ok.injEq, Prod.mk.injEq] at h
    obtain ⟨rfl, rfl⟩ := h
    exact linePost_nil lineName lastNode b way hb
  | cons S rest ih =>
    intro idx lastNode b way b' way' h hb hnd hlast
    rw [wayLoop_cons] at h
    split at h
    · exact absurd h (by simp)
    · rename_i b2 hstep
      have hS : S ∉ rest := (List.nodup_cons.1 hnd).1
      obtain ⟨hb2, he2, hn2, hname, harc⟩ := lineStep_spec hb lineName hline times S lastNode
        idx (idx - 1) (fun l hl => ⟨(hlast l hl).1, fun h' =>
          (hlast l hl).2 (h' ▸ List.mem_cons_self _ _)⟩) hstep
      rw [(addStationNode_fields b S).1] at h
      refine linePost_cons hnd hb2 he2 hn2 hname harc
        (ih (idx + 1) (some b._g.nextNode) b2 _ b' way' h hb2 (List.nodup_cons.1 hnd).2 ?_)
      intro l hl
      simp only [Option.some.injEq] at hl
      subst hl
      exact ⟨by rw [hn2]; omega, by rw [hname]; exact hS⟩

theorem backLoop_spec (lineName : String) (times : List Nat) (hline : lineName ≠ CHANGE_NAME) :
    ∀ (rest : List String) (idx : Int) (lastNode : Option Nat) (b : GraphBuilder)
      (back : NodeMap) (b' : GraphBuilder) (back' : NodeMap),
      backLoop lineName times rest idx lastNode (b, back) = .ok (b', back') →
      Base b → rest.Nodup →
      (∀ l, lastNode = some l → l < b._g.nextNode ∧ b._node_names l ∉ rest) →
      LinePost lineName rest lastNode b back b' back' := by
  intro rest
  induction rest with
  | nil =>
    intro idx lastNode b back b' back' h hb _ _
    simp only [backLoop, Except.ok.injEq, Prod.mk.injEq] at h
    obtain ⟨rfl, rfl⟩ := h
    exact linePost_nil lineName lastNode b back hb
  | cons S rest ih =>
    intro idx lastNode b back b' back' h hb hnd hlast
    rw [backLoop_cons] at h
    split at h
    · exact absurd h (by simp)
    · rename_i b2 hstep
      have hS : S ∉ rest := (List.nodup_cons.1 hnd).1
      obtain ⟨hb2, he2, hn2, hname, harc⟩ := lineStep_spec hb lineName hline times S lastNode
        (idx + 1).toNat idx.toNat (fun l hl => ⟨(hlast l hl).1, fun h' =>
          (hlast l hl).2 (h' ▸ List.mem_cons_self _ _)⟩) hstep
      rw [(addStationNode_fields b S).1] at h
      refine linePost_cons hnd hb2 he2 hn2 hname harc
        (ih (idx - 1) (some b._g.nextNode) b2 _ b' back' h hb2 (List.nodup_cons.1 hnd).2 ?_)
      intro l hl
      simp only [Option.some.injEq] at hl
      subst hl
      exact ⟨by rw [hn2]; omega, by rw [hname]; exact hS⟩

end BuilderWay

section BuilderLines

open GraphBuilder

theorem linesPost_nil (stops : Line → List String) (b : GraphBuilder) (m : NodeMap)
    (hb : Base b) : LinesPost stops [] b m b m := by
  refine ⟨hb, ext_refl b, ?_, fun _ _ _ => rfl, ?_⟩
  · intro it hit
    exact absurd hit (by simp)
  · intro n h1 h2
    omega

theorem linesPost_cons {stops : Line → List String} {it : String × Line} {rest : t_linemap}
    {b b1 b' : GraphBuilder} {m m1 m' : NodeMap}
    (hnames : ((it :: rest).map (fun it => it.2.name)).Nodup) (hb1 : Base b1)
    (h1 : LinePost it.2.name (stops it.2) none b m b1 m1)
    (h2 : LinesPost stops rest b1 m1 b' m') :
    LinesPost stops (it :: rest) b m b' m' := by
  obtain ⟨_, he1, hn1, hdec1, hout1, hreg1, _⟩ := h1
  obtain ⟨hb', he', hdec', hout', hreg'⟩ := h2
  have hfresh : ∀ it' ∈ rest, it'.2.name ≠ it.2.name := by
    intro it' hit' h
    simp only [List.map_cons, List.nodup_cons, List.mem_map, not_exists, not_and] at hnames
    exact hnames.1 it' hit' h
  have hkeep : ∀ S, m' it.2.name S = m1 it.2.name S :=
    fun S => hout' _ S (fun it' hit' h => absurd h (hfresh it' hit'))
  refine ⟨hb', ext_trans he1 he', ?_, ?_, ?_⟩
  · intro it' hit' pre S post hS
    rcases List.mem_cons.1 hit' with rfl | hit'
    · obtain ⟨w, hw1, hw2, hw3, hw4, hw5, hw6⟩ := hdec1 pre S post hS
      refine ⟨w, by rw [hkeep, hw1], hw2, lt_of_lt_of_le hw3 he'.nextNode_le,
        by rw [he'.node_names w hw3, hw4], ?_, ?_⟩
      · intro hp; exact hasInOf_ext hb1 he' (hw5 (Or.inl hp))
      · intro hp; exact hasOut_ext hb1 he' (hw6 hp)
    · obtain ⟨w, hw1, hw2, hw3, hw4, hw5, hw6⟩ := hdec' it' hit' pre S post hS
      exact ⟨w, hw1, le_trans he1.nextNode_le hw2, hw3, hw4, hw5, hw6⟩
  · intro l S h
    rw [hout' l S (fun it' hit' => h it' (List.mem_cons_of_mem _ hit'))]
    apply hout1
    by_cases hl : l = it.2.name
    · exact Or.inr (h it (List.mem_cons_self _ _) hl.symm)
    · exact Or.inl hl
  · intro n hn1' hn2
    by_cases hlt : n < b1._g.nextNode
    · obtain ⟨S, hS, hSn⟩ := hreg1 n hn1' hlt
      exact ⟨it, List.mem_cons_self _ _, S, hS, by rw [hkeep, hSn]⟩
    · obtain ⟨it', hit', S, hS, hSn⟩ := hreg' n (by omega) hn2
      exact ⟨it', List.mem_cons_of_mem _ hit', S, hS, hSn⟩

theorem wayLines_spec :
    ∀ (ls : t_linemap) (b : GraphBuilder) (way : NodeMap) (b' : GraphBuilder) (way' : NodeMap),
      wayLines ls (b, way) = .ok (b', way') → Base b →
      (ls.map (fun it => it.2.name)).Nodup → (∀ it ∈ ls, it.2.name ≠ CHANGE_NAME) →
      (∀ it ∈ ls, it.2.stations.Nodup) →
      LinesPost (fun line => line.stations) ls b way b' way' := by
  intro ls
  induction ls with
  | nil =>
    intro b way b' way' h hb _ _ _
    simp only [wayLines, Except.ok.injEq, Prod.mk.injEq] at h
    obtain ⟨rfl, rfl⟩ := h
    exact linesPost_nil _ b way hb
  | cons it rest ih =>
    intro b way b' way' h hb hnames hres hnd
    simp only [wayLines] at h
    split at h
    · exact absurd h (by simp)
    · rename_i st1 hstep
      obtain ⟨b1, way1⟩ := st1
      have h1 := wayLoop_spec it.2.name it.2.times (hres it (List.mem_cons_self _ _))
        it.2.stations 0 none b way b1 way1 hstep hb (hnd it (List.mem_cons_self _ _))
        (fun l hl => absurd hl (by simp))
      exact linesPost_cons hnames h1.1 h1
        (ih b1 way1 b' way' h h1.1 (List.nodup_cons.1 hnames).2
          (fun it' hit' => hres it' (List.mem_cons_of_mem _ hit'))
          (fun it' hit' => hnd it' (List.mem_cons_of_mem _ hit')))

theorem backLines_spec :
    ∀ (ls : t_linemap) (b : GraphBuilder) (back : NodeMap) (b' : GraphBuilder)
      (back' : NodeMap),
      backLines ls (b, back) = .ok (b', back') → Base b →
      (ls.map (fun it => it.2.name)).Nodup → (∀ it ∈ ls, it.2.name ≠ CHANGE_NAME) →
      (∀ it ∈ ls, it.2.stations.Nodup) →
      LinesPost (fun line => line.stations.reverse) ls b back b' back' := by
  intro ls
  induction ls with
  | nil =>
    intro b back b' back' h hb _ _ _
    simp only [backLines, Except.ok.injEq, Prod.mk.injEq] at h
    obtain ⟨rfl, rfl⟩ := h
    exact linesPost_nil _ b back hb
  | cons it rest ih =>
    intro b back b' back' h hb hnames hres hnd
    simp only [backLines] at h
    split at h
    · exact absurd h (by simp)
    · rename_i st1 hstep
      obtain ⟨b1, back1⟩ := st1
      have h1 := backLoop_spec it.2.name it.2.times (hres it (List.mem_cons_self _ _))
        it.2.stations.reverse _ none b back b1 back1 hstep hb
        (List.nodup_reverse.2 (hnd it (List.mem_cons_self _ _)))
        (fun l hl => absurd hl (by simp))
      exact linesPost_cons hnames h1.1 h1
        (ih b1 back1 b' back' h h1.1 (List.nodup_cons.1 hnames).2
          (fun it' hit' => hres it' (List.mem_cons_of_mem _ hit'))
          (fun it' hit' => hnd it' (List.mem_cons_of_mem _ hit')))

end BuilderLines

section BuilderTravel

open GraphBuilder

theorem hasIn_of_hasInOf {b : GraphBuilder} {l : String} {n : Nat} (h : b.HasInOf l n) :
    b.HasIn n := by
  obtain ⟨e, he, ht, hc, _⟩ := h
  exact ⟨e, he, ht, hc⟩

theorem base_init (stations : t_stationmap) (lines : t_linemap) (cc sc : ℚ) :
    Base (GraphBuilder.init stations lines cc sc) := by
  constructor <;> simp [GraphBuilder.init, LGraph.emptyGraph]

/-- A value of a node map built from the empty map comes from a line and a stop. -/
theorem linesPost_known {stops : Line → List String} {ls : t_linemap} {b b' : GraphBuilder}
    {m' : NodeMap} (h : LinesPost stops ls b (fun _ _ => none) b' m') (l S : String) (n : Nat)
    (hn : m' l S = some n) :
    (∃ it ∈ ls, it.2.name = l ∧ S ∈ stops it.2) ∧ b._g.nextNode ≤ n ∧ n < b'._g.nextNode ∧
      b'._node_names n = S := by
  obtain ⟨_, _, hdec, hout, _⟩ := h
  have hex : ∃ it ∈ ls, it.2.name = l ∧ S ∈ stops it.2 := by
    by_contra hcon
    have := hout l S (fun it hit hl hS => hcon ⟨it, hit, hl, hS⟩)
    rw [hn] at this
    exact absurd this (by simp)
  refine ⟨hex, ?_⟩
  obtain ⟨it, hit, rfl, hS⟩ := hex
  obtain ⟨pre, post, hpp⟩ := List.append_of_mem hS
  obtain ⟨w, hw1, hw2, hw3, hw4, _⟩ := hdec it hit pre S post hpp
  rw [hn] at hw1
  simp only [Option.some.injEq] at hw1
  subst hw1
  exact ⟨hw2, hw3, hw4⟩

/-- The state after `createNodesAndTravelArcs` on a valid network. -/
theorem createNodesAndTravelArcs_spec (stations : t_stationmap) (lines : t_linemap) (cc sc : ℚ)
    (hv : ValidNetwork stations lines) (b : GraphBuilder) (way back : NodeMap)
    (h : createNodesAndTravelArcs (GraphBuilder.init stations lines cc sc)
      (fun _ _ => none) (fun _ _ => none) = .ok (b, way, back)) :
    Base b ∧ Travel lines b way back ∧ b._stations = stations ∧ b._lines = lines := by
  simp only [createNodesAndTravelArcs] at h
  split at h
  · exact absurd h (by simp)
  · rename_i b1 way1 hway
    split at h
    · exact absurd h (by simp)
    · rename_i b2 back1 hback
      simp only [Except.ok.injEq, Prod.mk.injEq] at h
      obtain ⟨rfl, rfl, rfl⟩ := h
      have hb0 := base_init stations lines cc sc
      have hl0 : (GraphBuilder.init stations lines cc sc)._lines = lines := rfl
      rw [hl0] at hway
      have hW := wayLines_spec lines _ _ b1 way1 hway hb0 hv.line_names hv.reserved
        hv.stops_nodup
      have hl1 : b1._lines = lines := hW.2.1.lines
      rw [hl1] at hback
      have hB := backLines_spec lines _ _ b2 back1 hback hW.1 hv.line_names hv.reserved
        hv.stops_nodup
      have hb1 := hW.1
      have he12 := hB.2.1
      refine ⟨hB.1, ⟨?_, ?_, ?_, ?_⟩, he12.stations.trans hW.2.1.stations,
        he12.lines.trans hl1⟩
      · intro it hit S hS
        obtain ⟨p, q, hpq⟩ := List.append_of_mem hS
        obtain ⟨w, hw1, _, hw3, _, hw5, hw6⟩ := hW.2.2.1 it hit p S q hpq
        have hrev : it.2.stations.reverse = q.reverse ++ S :: p.reverse := by
          rw [hpq]; simp
        obtain ⟨k, hk1, _, _, _, hk5, hk6⟩ := hB.2.2.1 it hit q.reverse S p.reverse hrev
        refine ⟨w, k, hw1, hk1, ?_⟩
        intro hlen
        have hpq' : p ≠ [] ∨ q ≠ [] := by
          by_contra hcon
          push_neg at hcon
          rw [hpq, hcon.1, hcon.2] at hlen
          simp at hlen
        have hwin : p ≠ [] → b2.HasInOf it.2.name w := fun hp => hasInOf_ext hb1 he12 (hw5 hp)
        have hwout : q ≠ [] → b2.HasOut w := fun hq => hasOut_ext hb1 he12 (hw6 hq)
        have hkin : q ≠ [] → b2.HasInOf it.2.name k := fun hq => hk5 (by simpa using hq)
        have hkout : p ≠ [] → b2.HasOut k := fun hp => hk6 (by simpa using hp)
        rcases hpq' with hp | hq
        · by_cases hq : q = []
          · exact ⟨Or.inl (hwin hp), Or.inr (hkout hp), Or.inl (hasIn_of_hasInOf (hwin hp)),
              Or.inr (hkout hp)⟩
          · exact ⟨Or.inl (hwin hp), Or.inl (hwout hq), Or.inl (hasIn_of_hasInOf (hwin hp)),
              Or.inr (hkout hp)⟩
        · by_cases hp : p = []
          · exact ⟨Or.inr (hkin hq), Or.inl (hwout hq), Or.inr (hwout hq),
              Or.inl (hasIn_of_hasInOf (hkin hq))⟩
          · exact ⟨Or.inl (hwin hp), Or.inl (hwout hq), Or.inl (hasIn_of_hasInOf (hwin hp)),
              Or.inr (hkout hp)⟩
      · intro l S n hn
        rcases hn with hn | hn
        · obtain ⟨_, _, h3, h4⟩ := linesPost_known hW l S n hn
          exact ⟨lt_of_lt_of_le h3 he12.nextNode_le, by rw [he12.node_names n h3, h4]⟩
        · obtain ⟨_, _, h3, h4⟩ := linesPost_known hB l S n hn
          exact ⟨h3, h4⟩
      · intro l S n hn
        rcases hn with hn | hn
        · exact (linesPost_known hW l S n hn).1
        · obtain ⟨it, hit, hl, hS⟩ := (linesPost_known hB l S n hn).1
          exact ⟨it, hit, hl, by simpa using hS⟩
      · intro n hn
        by_cases hlt : n < b1._g.nextNode
        · obtain ⟨it, hit, S, hS, hSn⟩ := hW.2.2.2.2 n (Nat.zero_le _) hlt
          exact ⟨it, hit, S, hS, Or.inl hSn⟩
        · obtain ⟨it, hit, S, hS, hSn⟩ := hB.2.2.2.2 n (by omega) hn
          exact ⟨it, hit, S, by simpa using hS, Or.inr hSn⟩

end BuilderTravel

section BuilderSwitch

open GraphBuilder

variable {way back : NodeMap}

theorem grown_refl {b : GraphBuilder} (hb : Base b) (hm : MapsOk b way back) :
    Grown way back b b :=
  ⟨hb, hm, ext_refl b, sameNodes_refl b⟩

theorem grown_trans {b1 b2 b3 : GraphBuilder} (h12 : Grown way back b1 b2)
    (h23 : Grown way back b2 b3) : Grown way back b1 b3 :=
  ⟨h23.base, h23.maps, ext_trans h12.ext h23.ext, sameNodes_trans h12.same h23.same⟩

theorem mapsOk_same {b b' : GraphBuilder} (hm : MapsOk b way back) (hs : SameNodes b b') :
    MapsOk b' way back := by
  intro l S n hn
  rw [hs.nextNode, hs.node_names]
  exact hm l S n hn

theorem addSwitchArc_grown {b b' : GraphBuilder} (hb : Base b) (hm : MapsOk b way back)
    (l S : String) (s t : Option Nat) (hs : s = way l S ∨ s = back l S)
    (ht : t = way l S ∨ t = back l S) (h : b.addSwitchArc s t = .ok b') :
    Grown way back b b' := by
  have hs' : ∀ u, s = some u → u < b._g.nextNode ∧ b._node_names u = S := by
    intro u hu
    rcases hs with rfl | rfl
    · exact hm l S u (Or.inl hu)
    · exact hm l S u (Or.inr hu)
  have ht' : ∀ u, t = some u → u < b._g.nextNode ∧ b._node_names u = S := by
    intro u hu
    rcases ht with rfl | rfl
    · exact hm l S u (Or.inl hu)
    · exact hm l S u (Or.inr hu)
  obtain ⟨h1, h2, h3, _, _⟩ := addSwitchArc_ok hb s t
    (fun u v hu hv => ⟨(hs' u hu).1, (ht' v hv).1, (hs' u hu).2.trans (ht' v hv).2.symm⟩) h
  exact ⟨h1, mapsOk_same hm h3, h2, h3⟩

theorem allSwitchingLoop_grown (l : String) :
    ∀ (sts : List String) (b b' : GraphBuilder), Base b → MapsOk b way back →
      allSwitchingLoop l way back sts b = .ok b' → Grown way back b b' := by
  intro sts
  induction sts with
  | nil =>
    intro b b' hb hm h
    simp only [allSwitchingLoop, Except.ok.injEq] at h
    subst h
    exact grown_refl hb hm
  | cons S rest ih =>
    intro b b' hb hm h
    simp only [allSwitchingLoop] at h
    split at h
    · exact absurd h (by simp)
    · rename_i b1 h1
      split at h
      · exact absurd h (by simp)
      · rename_i b2 h2
        have g1 := addSwitchArc_grown hb hm l S _ _ (Or.inl rfl) (Or.inr rfl) h1
        have g2 := addSwitchArc_grown g1.base g1.maps l S _ _ (Or.inr rfl) (Or.inl rfl) h2
        exact grown_trans (grown_trans g1 g2) (ih b2 b' g2.base g2.maps h)

theorem addAllSwitchingArcs_grown :
    ∀ (ls : t_linemap) (b b' : GraphBuilder), Base b → MapsOk b way back →
      addAllSwitchingArcs way back ls b = .ok b' → Grown way back b b' := by
  intro ls
  induction ls with
  | nil =>
    intro b b' hb hm h
    simp only [addAllSwitchingArcs, Except.ok.injEq] at h
    subst h
    exact grown_refl hb hm
  | cons it rest ih =>
    intro b b' hb hm h
    simp only [addAllSwitchingArcs] at h
    split at h
    · exact absurd h (by simp)
    · rename_i b1 h1
      have g1 := allSwitchingLoop_grown it.2.name it.2.stations b b1 hb hm h1
      exact grown_trans g1 (ih b1 b' g1.base g1.maps h)

theorem addTerminalSwitch_grown {b b' : GraphBuilder} (hb : Base b) (hm : MapsOk b way back)
    (l : String) (i : Nat) (S : String)
    (h : b.addTerminalSwitch l way back i S = .ok b') : Grown way back b b' := by
  unfold addTerminalSwitch at h
  split at h
  · exact addSwitchArc_grown hb hm l S _ _ (Or.inr rfl) (Or.inl rfl) h
  · exact addSwitchArc_grown hb hm l S _ _ (Or.inl rfl) (Or.inr rfl) h

theorem terminalSwitchingLoop_grown (l : String) (lineStations : List String) :
    ∀ (sts : List (Nat × String)) (b b' : GraphBuilder), Base b → MapsOk b way back →
      terminalSwitchingLoop l lineStations way back sts b = .ok b' → Grown way back b b' := by
  intro sts
  induction sts with
  | nil =>
    intro b b' hb hm h
    simp only [terminalSwitchingLoop, Except.ok.injEq] at h
    subst h
    exact grown_refl hb hm
  | cons p rest ih =>
    obtain ⟨i, S⟩ := p
    intro b b' hb hm h
    simp only [terminalSwitchingLoop] at h
    split at h
    · split at h
      · exact absurd h (by simp)
      · rename_i b1 h1
        have g1 := addTerminalSwitch_grown hb hm l i S h1
        exact grown_trans g1 (ih b1 b' g1.base g1.maps h)
    · exact ih b b' hb hm h

theorem addSwitchingArcsAtTerminals_grown :
    ∀ (ls : t_linemap) (b b' : GraphBuilder), Base b → MapsOk b way back →
      addSwitchingArcsAtTerminals way back ls b = .ok b' → Grown way back b b' := by
  intro ls
  induction ls with
  | nil =>
    intro b b' hb hm h
    simp only [addSwitchingArcsAtTerminals, Except.ok.injEq] at h
    subst h
    exact grown_refl hb hm
  | cons it rest ih =>
    intro b b' hb hm h
    simp only [addSwitchingArcsAtTerminals] at h
    split at h
    · exact absurd h (by simp)
    · rename_i b1 h1
      have g1 := terminalSwitchingLoop_grown it.2.name it.2.stations _ b b1 hb hm h1
      exact grown_trans g1 (ih b1 b' g1.base g1.maps h)

theorem addNeighbourSwitches_grown {b b' : GraphBuilder} (hb : Base b)
    (hm : MapsOk b way back) (l : String) (lineStations : List String) (i : Nat) (S : String)
    (h : b.addNeighbourSwitches l lineStations way back i S = .ok b') :
    Grown way back b b' := by
  unfold addNeighbourSwitches at h
  split at h
  · exact absurd h (by simp)
  · rename_i next _
    split at h
    · exact absurd h (by simp)
    · rename_i b1 h1
      have g1 : Grown way back b b1 := by
        split at h1
        · exact addSwitchArc_grown hb hm l S _ _ (Or.inl rfl) (Or.inr rfl) h1
        · simp only [Except.ok.injEq] at h1
          subst h1
          exact grown_refl hb hm
      split at h
      · exact absurd h (by simp)
      · rename_i prev _
        split at h
        · exact grown_trans g1
            (addSwitchArc_grown g1.base g1.maps l S _ _ (Or.inr rfl) (Or.inl rfl) h)
        · simp only [Except.ok.injEq] at h
          subst h
          exact g1

theorem stationSwitchingStep_grown {b b' : GraphBuilder} (hb : Base b)
    (hm : MapsOk b way back) (l : String) (lineStations : List String) (i : Nat) (S : String)
    (h : b.stationSwitchingStep l lineStations way back i S = .ok b') :
    Grown way back b b' := by
  have hrefl : ∀ {b'}, (Except.ok b : Except String GraphBuilder) = .ok b' →
      Grown way back b b' := by
    intro b' h
    simp only [Except.ok.injEq] at h
    subst h
    exact grown_refl hb hm
  unfold stationSwitchingStep at h
  split at h
  · exact absurd h (by simp)
  · exact hrefl h
  · split at h
    · exact addTerminalSwitch_grown hb hm l i S h
    · split at h
      · exact absurd h (by simp)
      · exact hrefl h
      · split at h
        · exact absurd h (by simp)
        · exact hrefl h
        · exact addNeighbourSwitches_grown hb hm l lineStations i S h

theorem stationSwitchingLoop_grown (l : String) (lineStations : List String) :
    ∀ (sts : List (Nat × String)) (b b' : GraphBuilder), Base b → MapsOk b way back →
      stationSwitchingLoop l lineStations way back sts b = .ok b' → Grown way back b b' := by
  intro sts
  induction sts with
  | nil =>
    intro b b' hb hm h
    simp only [stationSwitchingLoop, Except.ok.injEq] at h
    subst h
    exact grown_refl hb hm
  | cons p rest ih =>
    obtain ⟨i, S⟩ := p
    intro b b' hb hm h
    simp only [stationSwitchingLoop] at h
    split at h
    · exact absurd h (by simp)
    · rename_i b1 h1
      have g1 := stationSwitchingStep_grown hb hm l lineStations i S h1
      exact grown_trans g1 (ih b1 b' g1.base g1.maps h)

theorem addStationProblemSwitchingArcs_grown :
    ∀ (ls : t_linemap) (b b' : GraphBuilder), Base b → MapsOk b way back →
      addStationProblemSwitchingArcs way back ls b = .ok b' → Grown way back b b' := by
  intro ls
  induction ls with
  | nil =>
    intro b b' hb hm h
    simp only [addStationProblemSwitchingArcs, Except.ok.injEq] at h
    subst h
    exact grown_refl hb hm
  | cons it rest ih =>
    intro b b' hb hm h
    simp only [addStationProblemSwitchingArcs] at h
    split at h
    · exact absurd h (by simp)
    · rename_i b1 h1
      have g1 := stationSwitchingLoop_grown it.2.name it.2.stations _ b b1 hb hm h1
      exact grown_trans g1 (ih b1 b' g1.base g1.maps h)

end BuilderSwitch

section BuilderConn

open GraphBuilder

variable {way back : NodeMap}

theorem linked_ext {b b' : GraphBuilder} (hb : Base b) (h : Ext b b') {u v : Nat}
    (hl : b.Linked u v) : b'.Linked u v := by
  obtain ⟨e, he, hs, ht, hc⟩ := hl
  exact ⟨e, h.edges e he, hs, ht, by rw [h.conn _ (hb.edge_lt e he).1, hc]⟩

theorem pairDone_mono {b b1 b2 b' : GraphBuilder} {pr : Option Nat × Option Nat}
    (hb : Base b) (h1 : Ext b b1) (hb2 : Base b2) (h2 : Ext b2 b')
    (h : PairDone b1 b2 pr) : PairDone b b' pr := by
  obtain ⟨u, v, hu, hv, hlink⟩ := h
  exact ⟨u, v, hu, hv, fun hin hout =>
    linked_ext hb2 h2 (hlink (hasIn_ext hb h1 hin) (hasOut_ext hb h1 hout))⟩

theorem addConnectionEdge_spec {b b' : GraphBuilder} (hb : Base b) (s t : Option Nat)
    (hst : ∀ u v, s = some u → t = some v →
      u < b._g.nextNode ∧ v < b._g.nextNode ∧ b._node_names u = b._node_names v)
    (h : b.addConnectionEdge s t = .ok b') :
    Base b' ∧ Ext b b' ∧ SameNodes b b' ∧ PairDone b b' (s, t) := by
  cases s with
  | none => cases t <;> exact absurd h (by simp [addConnectionEdge])
  | some u =>
    cases t with
    | none => exact absurd h (by simp [addConnectionEdge])
    | some v =>
      obtain ⟨hu, hv, hnm⟩ := hst u v rfl rfl
      simp only [addConnectionEdge] at h
      split at h
      · simp only [Except.ok.injEq] at h
        obtain ⟨h1, h2, h3, h4, _⟩ := @base_addEdge b b' hb u v hu hv (by rw [← h])
          (by rw [← h]) (by rw [← h]) (by rw [← h]) (by rw [← h])
          (fun i hi => by rw [← h]; simp [LGraph.newEdge, hi]) (fun i _ => by rw [← h])
          (Or.inr ⟨by rw [← h]; simp [LGraph.newEdge],
            by rw [← h]; exact hb.unset _ (le_refl _), hnm⟩)
        refine ⟨h1, h2, h3, u, v, rfl, rfl, fun _ _ => ⟨⟨b._g.nextEdge, u, v⟩, ?_, rfl, rfl, ?_⟩⟩
        · rw [h4]; simp
        · rw [← h]; simp [LGraph.newEdge]
      · rename_i hcond
        simp only [Except.ok.injEq] at h
        subst h
        refine ⟨hb, ext_refl b, sameNodes_refl b, u, v, rfl, rfl, ?_⟩
        intro hin hout
        exfalso
        apply hcond
        obtain ⟨e1, he1, ht1, hc1⟩ := hin
        obtain ⟨e2, he2, hs2, hc2⟩ := hout
        simp only [Bool.and_eq_true, List.any_eq_true, Bool.not_eq_eq_eq_not, Bool.not_true]
        exact ⟨⟨e1, by simp [LGraph.inEdges, he1, ht1], hc1⟩,
          ⟨e2, by simp [LGraph.outEdges, he2, hs2], hc2⟩⟩

theorem addConnectionEdges_spec (S : String) :
    ∀ (prs : List (Option Nat × Option Nat)) (b b' : GraphBuilder), Base b →
      MapsOk b way back → (∀ pr ∈ prs, FromMaps way back S pr) →
      addConnectionEdges prs b = .ok b' →
      Grown way back b b' ∧ ∀ pr ∈ prs, PairDone b b' pr := by
  intro prs
  induction prs with
  | nil =>
    intro b b' hb hm _ h
    simp only [addConnectionEdges, Except.ok.injEq] at h
    subst h
    exact ⟨grown_refl hb hm, fun pr hpr => absurd hpr (by simp)⟩
  | cons pr rest ih =>
    obtain ⟨s, t⟩ := pr
    intro b b' hb hm hfrom h
    simp only [addConnectionEdges] at h
    split at h
    · exact absurd h (by simp)
    · rename_i b1 h1
      obtain ⟨⟨l1, hs⟩, ⟨l2, ht⟩⟩ := hfrom (s, t) (List.mem_cons_self _ _)
      have hs' : ∀ u, s = some u → u < b._g.nextNode ∧ b._node_names u = S := by
        intro u hu
        rcases hs with hs | hs
        · exact hm l1 S u (Or.inl (hs ▸ hu))
        · exact hm l1 S u (Or.inr (hs ▸ hu))
      have ht' : ∀ u, t = some u → u < b._g.nextNode ∧ b._node_names u = S := by
        intro u hu
        rcases ht with ht | ht
        · exact hm l2 S u (Or.inl (ht ▸ hu))
        · exact hm l2 S u (Or.inr (ht ▸ hu))
      obtain ⟨hb1, he1, hs1, hp1⟩ := addConnectionEdge_spec hb s t
        (fun u v hu hv => ⟨(hs' u hu).1, (ht' v hv).1, (hs' u hu).2.trans (ht' v hv).2.symm⟩) h1
      have g1 : Grown way back b b1 := ⟨hb1, mapsOk_same hm hs1, he1, hs1⟩
      obtain ⟨g2, hp2⟩ := ih b1 b' hb1 g1.maps
        (fun pr hpr => hfrom pr (List.mem_cons_of_mem _ hpr)) h
      refine ⟨grown_trans g1 g2, ?_⟩
      intro pr hpr
      rcases List.mem_cons.1 hpr with rfl | hpr
      · exact pairDone_mono hb (ext_refl b) hb1 g2.ext hp1
      · exact pairDone_mono hb he1 g2.base (ext_refl b') (hp2 pr hpr)

theorem connectionPairs_fromMaps (S a c : String) :
    ∀ pr ∈ connectionPairs way back S a c, FromMaps way back S pr := by
  intro pr hpr
  simp only [connectionPairs, List.mem_cons, List.mem_singleton, List.not_mem_nil,
    or_false] at hpr
  rcases hpr with rfl | rfl | rfl | rfl | rfl | rfl | rfl | rfl
  · exact ⟨⟨a, Or.inl rfl⟩, ⟨c, Or.inl rfl⟩⟩
  · exact ⟨⟨a, Or.inl rfl⟩, ⟨c, Or.inr rfl⟩⟩
  · exact ⟨⟨a, Or.inr rfl⟩, ⟨c, Or.inl rfl⟩⟩
  · exact ⟨⟨a, Or.inr rfl⟩, ⟨c, Or.inr rfl⟩⟩
  · exact ⟨⟨c, Or.inl rfl⟩, ⟨a, Or.inl rfl⟩⟩
  · exact ⟨⟨c, Or.inl rfl⟩, ⟨a, Or.inr rfl⟩⟩
  · exact ⟨⟨c, Or.inr rfl⟩, ⟨a, Or.inl rfl⟩⟩
  · exact ⟨⟨c, Or.inr rfl⟩, ⟨a, Or.inr rfl⟩⟩

theorem connectionPairs_symm (S a c : String) (pr : Option Nat × Option Nat)
    (h : pr ∈ connectionPairs way back S a c) : pr ∈ connectionPairs way back S c a := by
  simp only [connectionPairs, List.mem_cons, List.mem_singleton, List.not_mem_nil,
    or_false] at h ⊢
  tauto

theorem connectionLoop2_spec (S line : String) :
    ∀ (rest : List String) (b b' : GraphBuilder), Base b → MapsOk b way back →
      connectionLoop2 way back S line rest b = .ok b' →
      Grown way back b b' ∧
        ∀ line2 ∈ rest, ∀ pr ∈ connectionPairs way back S line line2, PairDone b b' pr := by
  intro rest
  induction rest with
  | nil =>
    intro b b' hb hm h
    simp only [connectionLoop2, Except.ok.injEq] at h
    subst h
    exact ⟨grown_refl hb hm, fun l hl => absurd hl (by simp)⟩
  | cons line2 rest ih =>
    intro b b' hb hm h
    simp only [connectionLoop2] at h
    split at h
    · exact absurd h (by simp)
    · rename_i b1 h1
      obtain ⟨g1, hp1⟩ := addConnectionEdges_spec S _ b b1 hb hm
        (connectionPairs_fromMaps S line line2) h1
      obtain ⟨g2, hp2⟩ := ih b1 b' g1.base g1.maps h
      refine ⟨grown_trans g1 g2, ?_⟩
      intro l hl pr hpr
      rcases List.mem_cons.1 hl with rfl | hl
      · exact pairDone_mono hb (ext_refl b) g1.base g2.ext (hp1 pr hpr)
      · exact pairDone_mono hb g1.ext g2.base (ext_refl b') (hp2 l hl pr hpr)

theorem connectionLoop1_spec (S : String) :
    ∀ (ls : List String) (b b' : GraphBuilder), Base b → MapsOk b way back →
      connectionLoop1 way back S ls b = .ok b' →
      Grown way back b b' ∧
        ∀ a ∈ ls, ∀ c ∈ ls, a ≠ c →
          ∀ pr ∈ connectionPairs way back S a c, PairDone b b' pr := by
  intro ls
  induction ls with
  | nil =>
    intro b b' hb hm h
    simp only [connectionLoop1, Except.ok.injEq] at h
    subst h
    exact ⟨grown_refl hb hm, fun l hl => absurd hl (by simp)⟩
  | cons line rest ih =>
    intro b b' hb hm h
    simp only [connectionLoop1] at h
    split at h
    · exact absurd h (by simp)
    · rename_i b1 h1
      obtain ⟨g1, hp1⟩ := connectionLoop2_spec S line rest b b1 hb hm h1
      obtain ⟨g2, hp2⟩ := ih b1 b' g1.base g1.maps h
      refine ⟨grown_trans g1 g2, ?_⟩
      intro a ha c hc hac pr hpr
      rcases List.mem_cons.1 ha with ha1 | ha1
      · rcases List.mem_cons.1 hc with hc1 | hc1
        · exact absurd (ha1.trans hc1.symm) hac
        · subst ha1
          exact pairDone_mono hb (ext_refl b) g1.base g2.ext (hp1 c hc1 pr hpr)
      · rcases List.mem_cons.1 hc with hc1 | hc1
        · subst hc1
          exact pairDone_mono hb (ext_refl b) g1.base g2.ext
            (hp1 a ha1 pr (connectionPairs_symm S a c pr hpr))
        · exact pairDone_mono hb g1.ext g2.base (ext_refl b') (hp2 a ha1 c hc1 hac pr hpr)

theorem addAllConnectionArcs_spec :
    ∀ (sts : t_stationmap) (b b' : GraphBuilder), Base b → MapsOk b way back →
      addAllConnectionArcs way back sts b = .ok b' →
      Grown way back b b' ∧
        ∀ st ∈ sts, ∀ a ∈ st.2.lines, ∀ c ∈ st.2.lines, a ≠ c →
          ∀ pr ∈ connectionPairs way back st.2.name a c, PairDone b b' pr := by
  intro sts
  induction sts with
  | nil =>
    intro b b' hb hm h
    simp only [addAllConnectionArcs, Except.ok.injEq] at h
    subst h
    exact ⟨grown_refl hb hm, fun l hl => absurd hl (by simp)⟩
  | cons st rest ih =>
    intro b b' hb hm h
    simp only [addAllConnectionArcs] at h
    split at h
    · exact absurd h (by simp)
    · rename_i b1 h1
      obtain ⟨g1, hp1⟩ := connectionLoop1_spec st.2.name st.2.lines b b1 hb hm h1
      obtain ⟨g2, hp2⟩ := ih b1 b' g1.base g1.maps h
      refine ⟨grown_trans g1 g2, ?_⟩
      intro st' hst' a ha c hc hac pr hpr
      rcases List.mem_cons.1 hst' with rfl | hst'
      · exact pairDone_mono hb (ext_refl b) g1.base g2.ext (hp1 a ha c hc hac pr hpr)
      · exact pairDone_mono hb g1.ext g2.base (ext_refl b') (hp2 st' hst' a ha c hc hac pr hpr)

/-- The arcs added after the travel arcs are transfer arcs; every pair of nodes
of two lines at a station has been handed to `addConnectionEdge`. -/
theorem addSpecialArcs_spec {b b' : GraphBuilder} (hb : Base b) (hm : MapsOk b way back)
    (type : ProblemType) (preprocess : Bool)
    (h : b.addSpecialArcs way back type preprocess = .ok b') :
    Grown way back b b' ∧
      ∀ st ∈ b._stations, ∀ a ∈ st.2.lines, ∀ c ∈ st.2.lines, a ≠ c →
        ∀ pr ∈ connectionPairs way back st.2.name a c, PairDone b b' pr := by
  unfold addSpecialArcs at h
  split at h
  · exact absurd h (by simp)
  · rename_i b1 h1
    have g1 : Grown way back b b1 := by
      split at h1
      · exact addAllSwitchingArcs_grown _ b b1 hb hm h1
      · split at h1
        · exact addSwitchingArcsAtTerminals_grown _ b b1 hb hm h1
        · exact addStationProblemSwitchingArcs_grown _ b b1 hb hm h1
    obtain ⟨g2, hp2⟩ := addAllConnectionArcs_spec _ b1 b' g1.base g1.maps h
    refine ⟨grown_trans g1 g2, ?_⟩
    intro st hst a ha c hc hac pr hpr
    rw [← g1.ext.stations] at hst
    exact pairDone_mono hb g1.ext g2.base (ext_refl b') (hp2 st hst a ha c hc hac pr hpr)

end BuilderConn

section BuilderFinal

open GraphBuilder

variable {way back : NodeMap}

theorem two_le_countP {α : Type} {l : List α} {p : α → Bool} {a c : α} (ha : a ∈ l)
    (hc : c ∈ l) (hac : a ≠ c) (pa : p a = true) (pc : p c = true) : 2 ≤ l.countP p := by
  rw [List.countP_eq_length_filter]
  have hsub : [a, c] ⊆ l.filter p := by
    intro x hx
    simp only [List.mem_cons, List.mem_singleton, List.not_mem_nil, or_false] at hx
    rcases hx with rfl | rfl
    · exact List.mem_filter.2 ⟨ha, pa⟩
    · exact List.mem_filter.2 ⟨hc, pc⟩
  have hnd : [a, c].Nodup := by simp [hac]
  exact (List.Nodup.subperm hnd hsub).length_le

theorem exists_ne_of_two_le {l : List String} (hnd : l.Nodup) (hlen : 2 ≤ l.length)
    (a : String) : ∃ c ∈ l, c ≠ a := by
  match l, hnd, hlen with
  | x :: y :: _, hnd, _ =>
    by_cases hx : x = a
    · refine ⟨y, by simp, ?_⟩
      intro hy
      simp only [List.nodup_cons, List.mem_cons] at hnd
      exact hnd.1 (Or.inl (hx.trans hy.symm))
    · exact ⟨x, by simp, hx⟩

/-- Another line stops at every stop of a line, and the transfer arcs between
the nodes of the two lines have been dealt with. -/
theorem other_line {stations : t_stationmap} {lines : t_linemap} {b1 b2 : GraphBuilder}
    (hv : ValidNetwork stations lines) (hst : ∀ st ∈ stations, 2 ≤ st.2.lines.length)
    (ht : Travel lines b1 way back)
    (hp : ∀ st ∈ stations, ∀ a ∈ st.2.lines, ∀ c ∈ st.2.lines, a ≠ c →
      ∀ pr ∈ connectionPairs way back st.2.name a c, PairDone b1 b2 pr)
    {it : String × Line} (hit : it ∈ lines) {S : String} (hS : S ∈ it.2.stations) :
    ∃ it2 ∈ lines, it2.2.name ≠ it.2.name ∧ S ∈ it2.2.stations ∧
      ∀ pr ∈ connectionPairs way back S it.2.name it2.2.name, PairDone b1 b2 pr := by
  obtain ⟨st, hst1, hname, hline⟩ := hv.stops_known it hit S hS
  obtain ⟨c, hc, hne⟩ := exists_ne_of_two_le (hv.lines_set st hst1) (hst st hst1) it.2.name
  have hpairs := hp st hst1 it.2.name hline c hc (fun h => hne h.symm)
  rw [hname] at hpairs
  obtain ⟨u, v, _, hv2, _⟩ := hpairs (way it.2.name S, way c S) (by simp [connectionPairs])
  obtain ⟨it2, hit2, hn2, hS2⟩ := ht.known c S v (Or.inl hv2)
  subst hn2
  exact ⟨it2, hit2, hne, hS2, hpairs⟩

/-- A travel arc of every line that stops at a station enters the cluster of
the station from outside. -/
theorem entering_arc {lines : t_linemap} {b1 b2 : GraphBuilder}
    (hlen : ∀ it ∈ lines, 2 ≤ it.2.stations.length) (ht : Travel lines b1 way back)
    (hb1 : Base b1) (hg : Grown way back b1 b2) {it : String × Line} (hit : it ∈ lines)
    {p : String × List Nat} (hp : p ∈ b2._station_nodes) (hS : p.1 ∈ it.2.stations) :
    ∃ e ∈ b2._g.edges, b2._arc_names e.id = it.2.name ∧ e.tgt ∈ p.2 ∧ e.src ∉ p.2 := by
  obtain ⟨_, _, hiff⟩ := hg.base.clusters p hp
  obtain ⟨w, k, hw, hk, hfacts⟩ := ht.pair it hit p.1 hS
  obtain ⟨hin, _, _, _⟩ := hfacts (hlen it hit)
  have hkey : ∀ n, (way it.2.name p.1 = some n ∨ back it.2.name p.1 = some n) →
      b1.HasInOf it.2.name n →
      ∃ e ∈ b2._g.edges, b2._arc_names e.id = it.2.name ∧ e.tgt ∈ p.2 ∧ e.src ∉ p.2 := by
    intro n hn hinn
    obtain ⟨e, he, htgt, hconn, hname⟩ := hasInOf_ext hb1 hg.ext hinn
    have hnS : b2._node_names n = p.1 := by
      rw [hg.same.node_names]; exact (ht.maps _ _ n hn).2
    have hlt := hg.base.edge_lt e he
    have harc := hg.base.arcs e he
    rw [hconn] at harc
    simp only [true_and, Bool.false_eq_true, false_and, or_false] at harc
    refine ⟨e, he, hname, (hiff _).2 ⟨hlt.2.2, by rw [htgt]; exact hnS⟩, ?_⟩
    intro hsrc
    apply harc.2
    rw [((hiff _).1 hsrc).2, htgt, hnS]
  rcases hin with h | h
  · exact hkey w (Or.inl hw) h
  · exact hkey k (Or.inr hk) h

/-- In the graph built from a valid network in which every line has two stops
and every station two lines, every cluster is entered by two arcs. -/
theorem entering_two {stations : t_stationmap} {lines : t_linemap} {b1 b2 : GraphBuilder}
    (hv : ValidNetwork stations lines) (hlen : ∀ it ∈ lines, 2 ≤ it.2.stations.length)
    (hst : ∀ st ∈ stations, 2 ≤ st.2.lines.length)
    (ht : Travel lines b1 way back) (hb1 : Base b1) (hg : Grown way back b1 b2)
    (hp : ∀ st ∈ stations, ∀ a ∈ st.2.lines, ∀ c ∈ st.2.lines, a ≠ c →
      ∀ pr ∈ connectionPairs way back st.2.name a c, PairDone b1 b2 pr) :
    ∀ p ∈ b2._station_nodes, 2 ≤ enteringArcs b2._g p.2 := by
  intro p hpm
  obtain ⟨_, hne, hiff⟩ := hg.base.clusters p hpm
  obtain ⟨n, hn⟩ := List.exists_mem_of_ne_nil _ hne
  obtain ⟨hnlt, hnname⟩ := (hiff n).1 hn
  rw [hg.same.nextNode] at hnlt
  rw [hg.same.node_names] at hnname
  obtain ⟨it, hit, S, hS, hwb⟩ := ht.reg n hnlt
  have hSp : S = p.1 := (ht.maps _ _ n hwb).2.symm.trans hnname
  subst hSp
  obtain ⟨it2, hit2, hne2, hS2, _⟩ := other_line hv hst ht hp hit hS
  obtain ⟨e1, he1, hn1, ht1, hs1⟩ := entering_arc hlen ht hb1 hg hit hpm hS
  obtain ⟨e2, he2, hn2, ht2, hs2⟩ := entering_arc hlen ht hb1 hg hit2 hpm hS2
  have hdiff : e1 ≠ e2 := by
    rintro rfl
    exact hne2 (hn2.symm.trans hn1)
  exact two_le_countP he1 he2 hdiff (by simp [ht1, hs1]) (by simp [ht2, hs2])

theorem linked_of_pair {b1 b2 : GraphBuilder} {pr : Option Nat × Option Nat} {u v : Nat}
    (h : PairDone b1 b2 pr) (hu : pr.1 = some u) (hv : pr.2 = some v) (hin : b1.HasIn u)
    (hout : b1.HasOut v) : b2.Linked u v := by
  obtain ⟨u', v', hu', hv', hl⟩ := h
  rw [hu] at hu'
  rw [hv] at hv'
  simp only [Option.some.injEq] at hu' hv'
  subst hu' hv'
  exact hl hin hout

/-- In the graph built from a valid network in which every line has two stops
and every station two lines, every node lies on a travel arc and on a transfer arc. -/
theorem node_arcs {stations : t_stationmap} {lines : t_linemap} {b1 b2 : GraphBuilder}
    (hv : ValidNetwork stations lines) (hlen : ∀ it ∈ lines, 2 ≤ it.2.stations.length)
    (hst : ∀ st ∈ stations, 2 ≤ st.2.lines.length)
    (ht : Travel lines b1 way back) (hb1 : Base b1) (hg : Grown way back b1 b2)
    (hp : ∀ st ∈ stations, ∀ a ∈ st.2.lines, ∀ c ∈ st.2.lines, a ≠ c →
      ∀ pr ∈ connectionPairs way back st.2.name a c, PairDone b1 b2 pr) :
    ∀ n, n < b2._g.nextNode →
      (∃ e ∈ b2._g.edges, (e.src = n ∨ e.tgt = n) ∧ b2._connection_arcs e.id = false) ∧
      (∃ e ∈ b2._g.edges, (e.src = n ∨ e.tgt = n) ∧ b2._connection_arcs e.id = true) := by
  intro n hn
  rw [hg.same.nextNode] at hn
  obtain ⟨it, hit, S, hS, hwb⟩ := ht.reg n hn
  obtain ⟨w, k, hw, hk, hfacts⟩ := ht.pair it hit S hS
  obtain ⟨_, _, hw3, hk3⟩ := hfacts (hlen it hit)
  have hio : b1.HasIn n ∨ b1.HasOut n := by
    rcases hwb with h | h
    · rw [hw] at h; simp only [Option.some.injEq] at h; subst h; exact hw3
    · rw [hk] at h; simp only [Option.some.injEq] at h; subst h; exact hk3
  obtain ⟨it2, hit2, _, hS2, hpairs⟩ := other_line hv hst ht hp hit hS
  obtain ⟨w2, k2, hw2, hk2, hfacts2⟩ := ht.pair it2 hit2 S hS2
  obtain ⟨hin2, hout2, _, _⟩ := hfacts2 (hlen it2 hit2)
  have hmem : ∀ x y, (x = way it.2.name S ∨ x = back it.2.name S) →
      (y = way it2.2.name S ∨ y = back it2.2.name S) →
      (x, y) ∈ connectionPairs way back S it.2.name it2.2.name ∧
      (y, x) ∈ connectionPairs way back S it.2.name it2.2.name := by
    intro x y hx hy
    simp only [connectionPairs, List.mem_cons, List.mem_singleton, Prod.mk.injEq,
      List.not_mem_nil, or_false]
    rcases hx with rfl | rfl <;> rcases hy with rfl | rfl <;> simp
  have hnx : some n = way it.2.name S ∨ some n = back it.2.name S := by
    rcases hwb with h | h
    · exact Or.inl h.symm
    · exact Or.inr h.symm
  constructor
  · rcases hio with h | h
    · obtain ⟨e, he, htgt, hc⟩ := hasIn_ext hb1 hg.ext h
      exact ⟨e, he, Or.inr htgt, hc⟩
    · obtain ⟨e, he, hsrc, hc⟩ := hasOut_ext hb1 hg.ext h
      exact ⟨e, he, Or.inl hsrc, hc⟩
  · rcases hio with h | h
    · have hv' : ∃ v, (some v = way it2.2.name S ∨ some v = back it2.2.name S) ∧
          b1.HasOut v := by
        rcases hout2 with h2 | h2
        · exact ⟨w2, Or.inl hw2.symm, h2⟩
        · exact ⟨k2, Or.inr hk2.symm, h2⟩
      obtain ⟨v, hvm, hvout⟩ := hv'
      obtain ⟨e, he, hsrc, _, hc⟩ :=
        linked_of_pair (hpairs _ (hmem _ _ hnx hvm).1) rfl rfl h hvout
      exact ⟨e, he, Or.inl hsrc, hc⟩
    · have hu' : ∃ u, (some u = way it2.2.name S ∨ some u = back it2.2.name S) ∧
          b1.HasIn u := by
        rcases hin2 with h2 | h2
        · exact ⟨w2, Or.inl hw2.symm, hasIn_of_hasInOf h2⟩
        · exact ⟨k2, Or.inr hk2.symm, hasIn_of_hasInOf h2⟩
      obtain ⟨u, hum, huin⟩ := hu'
      obtain ⟨e, he, _, htgt, hc⟩ :=
        linked_of_pair (hpairs _ (hmem _ _ hnx hum).2) rfl rfl huin h
      exact ⟨e, he, Or.inr htgt, hc⟩

end BuilderFinal

section BuilderPreprocess

open GraphBuilder

theorem eq_of_length_one {α : Type} {l : List α} (h : l.length = 1) {a c : α} (ha : a ∈ l)
    (hc : c ∈ l) : a = c := by
  match l, h with
  | [x], _ =>
    simp only [List.mem_singleton] at ha hc
    rw [ha, hc]

theorem noChain_of_node_arcs {b : GraphBuilder} (hb : Base b)
    (harcs : ∀ n, n < b._g.nextNode →
      (∃ e ∈ b._g.edges, (e.src = n ∨ e.tgt = n) ∧ b._connection_arcs e.id = false) ∧
      (∃ e ∈ b._g.edges, (e.src = n ∨ e.tgt = n) ∧ b._connection_arcs e.id = true)) :
    b.NoChain := by
  intro n hin hout ein hein eout heout hname
  have hein' := List.mem_filter.1 hein
  have hn : n < b._g.nextNode := by
    have := (hb.edge_lt ein hein'.1).2.2
    have ht : ein.tgt = n := by simpa using hein'.2
    rw [ht] at this
    exact this
  obtain ⟨⟨e1, he1, hinc1, hc1⟩, ⟨e2, he2, hinc2, hc2⟩⟩ := harcs n hn
  have hn1 : b._arc_names e1.id ≠ CHANGE_NAME := by
    have := hb.arcs e1 he1
    rw [hc1] at this
    simp only [true_and, Bool.false_eq_true, false_and, or_false] at this
    exact this.1
  have hn2 : b._arc_names e2.id = CHANGE_NAME := by
    have := hb.arcs e2 he2
    rw [hc2] at this
    simp only [Bool.true_eq_false, false_and, true_and, false_or] at this
    exact this.1
  have hcase : ∀ e ∈ b._g.edges, (e.src = n ∨ e.tgt = n) → e = ein ∨ e = eout := by
    intro e he hinc
    rcases hinc with h | h
    · exact Or.inr (eq_of_length_one hout (List.mem_filter.2 ⟨he, by simpa using h⟩) heout)
    · exact Or.inl (eq_of_length_one hin (List.mem_filter.2 ⟨he, by simpa using h⟩) hein)
  apply hn1
  rw [← hn2]
  rcases hcase e1 he1 hinc1 with h1 | h1 <;> rcases hcase e2 he2 hinc2 with h2 | h2
  · rw [h1, h2]
  · rw [h1, h2]; exact hname
  · rw [h1, h2]; exact hname.symm
  · rw [h1, h2]

theorem removeChain_cons_error {b : GraphBuilder} (hnc : b.NoChain) (n : Nat) (ns red : List Nat)
    (st : GraphBuilder × List Nat) : removeChain (n :: ns) (b, red) ≠ .ok st := by
  intro h
  unfold removeChain at h
  split at h
  · exact absurd h (by simp)
  · rename_i hdeg
    simp only [not_not] at hdeg
    split at h
    · rename_i in_edge out_edge hi ho
      split at h
      · exact absurd h (by simp)
      · rename_i hnames
        simp only [ne_eq, not_not] at hnames
        exact hnc n hdeg.1 hdeg.2 in_edge (List.mem_of_mem_head? hi) out_edge
          (List.mem_of_mem_head? ho) hnames
    · exact absurd h (by simp)

theorem removeChains_noop (type : ProblemType) :
    ∀ (chains : List (List Nat)) (b : GraphBuilder) (red : List Nat)
      (st : GraphBuilder × List Nat), b.NoChain →
      removeChains type chains (b, red) = .ok st → st = (b, red) := by
  intro chains
  induction chains with
  | nil =>
    intro b red st _ h
    simp only [removeChains, Except.ok.injEq] at h
    exact h.symm
  | cons list rest ih =>
    intro b red st hnc h
    simp only [removeChains] at h
    split at h
    · exact absurd h (by simp)
    · exact ih b red st hnc h
    · split at h
      · exact absurd h (by simp)
      · rename_i st1 h1
        cases list with
        | nil =>
          simp only [removeChain, Except.ok.injEq] at h1
          subst h1
          exact ih b red st hnc h
        | cons n ns => exact absurd h1 (removeChain_cons_error hnc n ns red st1)

theorem mem_cleanStations_nil (sn : StationNodes) :
    ∀ p ∈ cleanStations [] sn, p ∈ sn := by
  intro p hp
  simp only [cleanStations, List.not_mem_nil, not_false_eq_true, decide_True, List.filter_true,
    Prod.mk.eta, List.map_id', List.mem_filter] at hp
  exact hp.1

/-- Preprocessing changes nothing when no node can be contracted. -/
theorem preprocessGraph_noop {b b' : GraphBuilder} (type : ProblemType) (hnc : b.NoChain)
    (h : b.preprocessGraph type = .ok b') :
    b'._g = b._g ∧ ∀ p ∈ b'._station_nodes, p ∈ b._station_nodes := by
  unfold preprocessGraph at h
  split at h
  · exact absurd h (by simp)
  · rename_i chains _
    split at h
    · exact absurd h (by simp)
    · rename_i b1 red h1
      have := removeChains_noop type chains b [] (b1, red) hnc h1
      simp only [Prod.mk.injEq] at this
      obtain ⟨rfl, rfl⟩ := this
      simp only [Except.ok.injEq] at h
      subst h
      exact ⟨rfl, mem_cleanStations_nil _⟩

end BuilderPreprocess

/-- C10, as amended.  For a network in which the lines have names of their own
other than the reserved label, no line lists a station twice, every stop is a
station that lists the line, the lines of a station form a set, every line has
at least two stops and every station is served by at least two lines: if the
graph builds, for either problem type, with or without preprocessing, then the
construction of the station solver on the built graph and clusters fails with
the error `Optimality can only be guaranteed, if the graph contains at least one
unique station`. -/
theorem stationSolver_shared_stations (stations : t_stationmap) (lines : t_linemap)
    (change_cost switch_cost : ℚ) (type : ProblemType) (preprocess : Bool) (epInt : ℚ)
    (b : GraphBuilder) (hv : ValidNetwork stations lines)
    (hlen : ∀ it ∈ lines, 2 ≤ it.2.stations.length)
    (hst : ∀ st ∈ stations, 2 ≤ st.2.lines.length)
    (hbuild : GraphBuilder.new stations lines change_cost switch_cost type preprocess = .ok b) :
    StationSolver.new epInt b._g b._dist b._station_nodes b._connection_arcs
      = .error noUniqueStation := by
  have hkey : (∀ p ∈ b._station_nodes, p.2.Nodup) ∧
      ∀ p ∈ b._station_nodes, 2 ≤ enteringArcs b._g p.2 := by
    unfold GraphBuilder.new at hbuild
    split at hbuild
    · exact absurd hbuild (by simp)
    · rename_i b1 way back h1
      obtain ⟨hb1, ht, hs1, _⟩ := createNodesAndTravelArcs_spec stations lines change_cost
        switch_cost hv b1 way back h1
      split at hbuild
      · exact absurd hbuild (by simp)
      · rename_i b2 h2
        obtain ⟨hg, hp⟩ := addSpecialArcs_spec hb1 ht.maps type preprocess h2
        rw [hs1] at hp
        have hnd : ∀ p ∈ b2._station_nodes, p.2.Nodup :=
          fun p hp' => (hg.base.clusters p hp').1
        have hent := entering_two hv hlen hst ht hb1 hg hp
        split at hbuild
        · exact absurd hbuild (by simp)
        · rename_i b3 h3
          have hb3 : b3._g = b2._g ∧ ∀ p ∈ b3._station_nodes, p ∈ b2._station_nodes := by
            split at h3
            · exact preprocessGraph_noop type
                (noChain_of_node_arcs hg.base (node_arcs hv hlen hst ht hb1 hg hp)) h3
            · simp only [Except.ok.injEq] at h3
              subst h3
              exact ⟨rfl, fun _ h => h⟩
          split at hbuild
          · exact absurd hbuild (by simp)
          · simp only [Except.ok.injEq] at hbuild
            subst hbuild
            exact ⟨fun p hp' => hnd p (hb3.2 p hp'),
              fun p hp' => by rw [hb3.1]; exact hent p (hb3.2 p hp')⟩
  have hnone : initializeStations b._g b._station_nodes = .error noUniqueStation := by
    rw [initializeStations_error_iff, findUniqueStation_none_iff _ _ hkey.1]
    intro p hp
    have := hkey.2 p hp
    omega
  unfold StationSolver.new
  rw [hnone]

/-- C10, witness: the network of the lines `L1` (`A B C`) and `L2` (`B A C`)
satisfies the conditions, its graph builds for the station problem with
preprocessing, and the construction of the station solver fails with the error
of the missing unique station. -/
theorem stationSolver_shared_stations_witness :
    ValidNetwork sharedStations sharedLines ∧
    (∀ it ∈ sharedLines, 2 ≤ it.2.stations.length) ∧
    (∀ st ∈ sharedStations, 2 ≤ st.2.lines.length) ∧
    GraphBuilder.new sharedStations sharedLines 5 5 .STATION true = .ok sharedBuilder ∧
    StationSolver.new (1 / 100000) sharedBuilder._g sharedBuilder._dist
      sharedBuilder._station_nodes sharedBuilder._connection_arcs = .error noUniqueStation :=
  ⟨by decide, by decide, by decide, by rfl,
    stationSolver_shared_stations sharedStations sharedLines 5 5 .STATION true (1 / 100000)
      sharedBuilder (by decide) (by decide) (by decide) (by rfl)⟩

/-! ## Theorems: the arcs added after the travel arcs -/

section Trace

open GraphBuilder

theorem addArcs_nil (b : GraphBuilder) (cost : ℚ) : b.addArcs cost [] = b := rfl

theorem addArcs_cons (b : GraphBuilder) (cost : ℚ) (p : Nat × Nat) (rest : List (Nat × Nat)) :
    b.addArcs cost (p :: rest) = (b.addArc cost p.1 p.2).addArcs cost rest := rfl

theorem addArcs_append (b : GraphBuilder) (cost : ℚ) (a1 a2 : List (Nat × Nat)) :
    b.addArcs cost (a1 ++ a2) = (b.addArcs cost a1).addArcs cost a2 := by
  simp [addArcs, List.foldl_append]

theorem arcsFrom_cons (e0 : Nat) (p : Nat × Nat) (rest : List (Nat × Nat)) :
    arcsFrom e0 (p :: rest) = ⟨e0, p.1, p.2⟩ :: arcsFrom (e0 + 1) rest := rfl

theorem arcsFrom_append (e0 : Nat) (a1 a2 : List (Nat × Nat)) :
    arcsFrom e0 (a1 ++ a2) = arcsFrom e0 a1 ++ arcsFrom (e0 + a1.length) a2 := by
  induction a1 generalizing e0 with
  | nil => simp [arcsFrom]
  | cons p rest ih =>
    rw [List.cons_append, arcsFrom_cons, arcsFrom_cons, ih, List.length_cons, List.cons_append]
    congr 3
    omega

theorem mem_arcsFrom (e0 : Nat) (arcs : List (Nat × Nat)) (e : Edge) :
    e ∈ arcsFrom e0 arcs ↔
      ∃ i, arcs[i]? = some (e.src, e.tgt) ∧ e.id = e0 + i := by
  induction arcs generalizing e0 with
  | nil => simp [arcsFrom]
  | cons p rest ih =>
    rw [arcsFrom_cons, List.mem_cons, ih]
    constructor
    · rintro (h | ⟨i, hi, hid⟩)
      · subst h
        exact ⟨0, by simp, rfl⟩
      · exact ⟨i + 1, by simpa using hi, by omega⟩
    · rintro ⟨i, hi, hid⟩
      cases i with
      | zero =>
        left
        simp only [List.getElem?_cons_zero, Option.some.injEq] at hi
        cases e
        simp only [Edge.mk.injEq]
        simp only [Nat.add_zero] at hid
        exact ⟨hid, by rw [hi], by rw [hi]⟩
      | succ i => exact Or.inr ⟨i, by simpa using hi, by omega⟩

/-- The fields of the builder after a sequence of arcs has been added. -/
theorem addArcs_fields (cost : ℚ) (arcs : List (Nat × Nat)) :
    ∀ b : GraphBuilder,
      (b.addArcs cost arcs)._g.nodes = b._g.nodes ∧
      (b.addArcs cost arcs)._g.nextNode = b._g.nextNode ∧
      (b.addArcs cost arcs)._g.edges = b._g.edges ++ arcsFrom b._g.nextEdge arcs ∧
      (b.addArcs cost arcs)._g.nextEdge = b._g.nextEdge + arcs.length ∧
      (b.addArcs cost arcs)._node_names = b._node_names ∧
      (b.addArcs cost arcs)._station_nodes = b._station_nodes ∧
      (b.addArcs cost arcs)._arc_names = b._arc_names ∧
      (b.addArcs cost arcs)._stations = b._stations ∧
      (b.addArcs cost arcs)._lines = b._lines ∧
      (b.addArcs cost arcs)._switch_cost = b._switch_cost ∧
      (b.addArcs cost arcs)._change_cost = b._change_cost ∧
      (∀ i, (b.addArcs cost arcs)._dist i =
        if b._g.nextEdge ≤ i ∧ i < b._g.nextEdge + arcs.length then cost else b._dist i) ∧
      (∀ i, (b.addArcs cost arcs)._connection_arcs i =
        if b._g.nextEdge ≤ i ∧ i < b._g.nextEdge + arcs.length then true
        else b._connection_arcs i) := by
  induction arcs with
  | nil =>
    intro b
    simp only [addArcs_nil, arcsFrom, List.enumFrom_nil, List.map_nil, List.append_nil,
      List.length_nil, Nat.add_zero, true_and]
    constructor <;> intro i <;> rw [if_neg (by omega)]
  | cons p rest ih =>
    intro b
    obtain ⟨h1, h2, h3, h4, h5, h6, h7, h8, h9, h10, h11, h12, h13⟩ :=
      ih (b.addArc cost p.1 p.2)
    rw [addArcs_cons]
    have hE : (b.addArc cost p.1 p.2)._g.nextEdge = b._g.nextEdge + 1 := rfl
    refine ⟨h1, h2, ?_, ?_, h5, h6, h7, h8, h9, h10, h11, ?_, ?_⟩
    · rw [h3, arcsFrom_cons, hE]
      simp [addArc, LGraph.newEdge]
    · rw [h4, hE, List.length_cons]; omega
    · intro i
      rw [h12, hE, List.length_cons]
      by_cases hi : i = b._g.nextEdge
      · subst hi
        simp [addArc]
      · by_cases h : b._g.nextEdge ≤ i ∧ i < b._g.nextEdge + (rest.length + 1)
        · rw [if_pos (by omega), if_pos h]
        · rw [if_neg (by omega), if_neg h]
          simp [addArc, hi]
    · intro i
      rw [h13, hE, List.length_cons]
      by_cases hi : i = b._g.nextEdge
      · subst hi
        simp [addArc]
      · by_cases h : b._g.nextEdge ≤ i ∧ i < b._g.nextEdge + (rest.length + 1)
        · rw [if_pos (by omega), if_pos h]
        · rw [if_neg (by omega), if_neg h]
          simp [addArc, hi]

end Trace

/-! ### The switching functions as sequences of calls of `addSwitchArc` -/

section SwitchTrace

open GraphBuilder

theorem addSwitchArc_some (b : GraphBuilder) (s t : Nat) :
    b.addSwitchArc (some s) (some t) = .ok (b.addArc b._switch_cost s t) := rfl

theorem addSwitchArc_ok_iff (b b' : GraphBuilder) (s t : Option Nat)
    (h : b.addSwitchArc s t = .ok b') :
    ∃ u v, s = some u ∧ t = some v ∧ b' = b.addArc b._switch_cost u v := by
  cases s with
  | none => simp [addSwitchArc] at h
  | some u =>
    cases t with
    | none => simp [addSwitchArc] at h
    | some v =>
      rw [addSwitchArc_some] at h
      exact ⟨u, v, rfl, rfl, (Except.ok.inj h).symm⟩

theorem runSwitches_nil (b : GraphBuilder) : runSwitches [] b = .ok b := rfl

theorem runSwitches_cons_ok (p : Option Nat × Option Nat) (rest : List (Option Nat × Option Nat))
    (b b1 : GraphBuilder) (h : b.addSwitchArc p.1 p.2 = .ok b1) :
    runSwitches (p :: rest) b = runSwitches rest b1 := by
  obtain ⟨s, t⟩ := p
  simp only [runSwitches]
  simp only at h
  rw [h]

theorem runSwitches_cons_error (p : Option Nat × Option Nat)
    (rest : List (Option Nat × Option Nat)) (b : GraphBuilder) (m : String)
    (h : b.addSwitchArc p.1 p.2 = .error m) :
    runSwitches (p :: rest) b = .error m := by
  obtain ⟨s, t⟩ := p
  simp only [runSwitches]
  simp only at h
  rw [h]

/-- Running two plans one after the other. -/
theorem runSwitches_append (p1 p2 : List (Option Nat × Option Nat)) :
    ∀ b : GraphBuilder, runSwitches (p1 ++ p2) b =
      match runSwitches p1 b with
      | .error m => .error m
      | .ok b1 => runSwitches p2 b1 := by
  induction p1 with
  | nil => intro b; rfl
  | cons p rest ih =>
    intro b
    rw [List.cons_append]
    cases h : b.addSwitchArc p.1 p.2 with
    | error m => rw [runSwitches_cons_error p _ b m h, runSwitches_cons_error p _ b m h]
    | ok b1 => rw [runSwitches_cons_ok p _ b b1 h, runSwitches_cons_ok p _ b b1 h, ih]

/-- A plan that runs without error adds the arcs of the plan, in order. -/
theorem runSwitches_ok (plan : List (Option Nat × Option Nat)) :
    ∀ (b b' : GraphBuilder), runSwitches plan b = .ok b' →
      ∃ arcs, arcs.map somePair = plan ∧ b' = b.addArcs b._switch_cost arcs := by
  induction plan with
  | nil =>
    intro b b' h
    exact ⟨[], rfl, (Except.ok.inj h).symm⟩
  | cons p rest ih =>
    intro b b' h
    cases h1 : b.addSwitchArc p.1 p.2 with
    | error m =>
      rw [runSwitches_cons_error p _ b m h1] at h
      exact absurd h (by simp)
    | ok b1 =>
      rw [runSwitches_cons_ok p _ b b1 h1] at h
      obtain ⟨u, v, hu, hv, hb1⟩ := addSwitchArc_ok_iff b b1 p.1 p.2 h1
      obtain ⟨arcs, ha, hb'⟩ := ih b1 b' h
      refine ⟨(u, v) :: arcs, ?_, ?_⟩
      · rw [List.map_cons, ha]
        congr 1
        exact Prod.ext hu.symm hv.symm
      · rw [addArcs_cons, hb', hb1]
        rfl

/-- A plan runs without error as soon as all its end nodes exist. -/
theorem runSwitches_map (arcs : List (Nat × Nat)) :
    ∀ b : GraphBuilder, runSwitches (arcs.map somePair) b = .ok (b.addArcs b._switch_cost arcs) := by
  induction arcs with
  | nil => intro b; rfl
  | cons p rest ih =>
    intro b
    rw [List.map_cons, runSwitches_cons_ok (somePair p) _ b _ (addSwitchArc_some b p.1 p.2), ih]
    rfl

theorem runSwitches_stations (plan : List (Option Nat × Option Nat)) (b b' : GraphBuilder)
    (h : runSwitches plan b = .ok b') : b'._stations = b._stations := by
  obtain ⟨arcs, -, hb⟩ := runSwitches_ok plan b b' h
  rw [hb]
  exact (addArcs_fields _ arcs b).2.2.2.2.2.2.2.1

theorem allSwitchingLoop_run (lineName : String) (way_nodemap back_nodemap : NodeMap)
    (stations : List String) :
    ∀ b : GraphBuilder, allSwitchingLoop lineName way_nodemap back_nodemap stations b =
      runSwitches (stations.flatMap (fullSwitches way_nodemap back_nodemap lineName)) b := by
  induction stations with
  | nil => intro b; rfl
  | cons s rest ih =>
    intro b
    rw [List.flatMap_cons, runSwitches_append]
    simp only [allSwitchingLoop, fullSwitches, runSwitches]
    cases h1 : b.addSwitchArc (way_nodemap lineName s) (back_nodemap lineName s) with
    | error m => rfl
    | ok b1 =>
      simp only
      cases h2 : b1.addSwitchArc (back_nodemap lineName s) (way_nodemap lineName s) with
      | error m => rfl
      | ok b2 => exact ih b2

/-- The function `addAllSwitchingArcs` runs the plan of full switching. -/
theorem addAllSwitchingArcs_run (way_nodemap back_nodemap : NodeMap) (lines : t_linemap) :
    ∀ b : GraphBuilder, addAllSwitchingArcs way_nodemap back_nodemap lines b =
      runSwitches (allSwitchingPlan way_nodemap back_nodemap lines) b := by
  induction lines with
  | nil => intro b; rfl
  | cons it rest ih =>
    intro b
    rw [allSwitchingPlan, List.flatMap_cons, runSwitches_append, ← allSwitchingLoop_run]
    simp only [addAllSwitchingArcs]
    cases h1 : allSwitchingLoop it.2.name way_nodemap back_nodemap it.2.stations b with
    | error m => rfl
    | ok b1 => exact ih b1

theorem addTerminalSwitch_run (b : GraphBuilder) (lineName : String)
    (way_nodemap back_nodemap : NodeMap) (i : Nat) (station : String) :
    b.addTerminalSwitch lineName way_nodemap back_nodemap i station =
      runSwitches [terminalSwitch way_nodemap back_nodemap lineName i station] b := by
  by_cases hi : i = 0
  · have ht : terminalSwitch way_nodemap back_nodemap lineName i station =
        (back_nodemap lineName station, way_nodemap lineName station) := by
      simp [terminalSwitch, hi]
    have hb : (i == 0) = true := by simpa using hi
    rw [ht]
    simp only [addTerminalSwitch, runSwitches, hb, if_true]
    cases b.addSwitchArc (back_nodemap lineName station) (way_nodemap lineName station) <;> rfl
  · have ht : terminalSwitch way_nodemap back_nodemap lineName i station =
        (way_nodemap lineName station, back_nodemap lineName station) := by
      simp [terminalSwitch, hi]
    have hb : (i == 0) = false := by simpa using hi
    rw [ht]
    simp only [addTerminalSwitch, runSwitches, hb, Bool.false_eq_true, if_false]
    cases b.addSwitchArc (way_nodemap lineName station) (back_nodemap lineName station) <;> rfl

theorem terminalSwitchingLoop_run (lineName : String) (lineStations : List String)
    (way_nodemap back_nodemap : NodeMap) (l : List (Nat × String)) :
    ∀ b : GraphBuilder,
      terminalSwitchingLoop lineName lineStations way_nodemap back_nodemap l b =
        runSwitches (terminalPlanLine way_nodemap back_nodemap lineName lineStations l) b := by
  induction l with
  | nil => intro b; rfl
  | cons p rest ih =>
    intro b
    obtain ⟨i, s⟩ := p
    simp only [terminalSwitchingLoop, terminalPlanLine]
    rw [runSwitches_append]
    by_cases ht : isTerminalStation i lineStations = true
    · rw [if_pos ht, if_pos ht, addTerminalSwitch_run]
      cases runSwitches [terminalSwitch way_nodemap back_nodemap lineName i s] b with
      | error m => rfl
      | ok b1 => exact ih b1
    · rw [if_neg ht, if_neg ht]
      exact ih b

/-- The function `addSwitchingArcsAtTerminals` runs the plan of terminal switching. -/
theorem addSwitchingArcsAtTerminals_run (way_nodemap back_nodemap : NodeMap)
    (lines : t_linemap) :
    ∀ b : GraphBuilder, addSwitchingArcsAtTerminals way_nodemap back_nodemap lines b =
      runSwitches (terminalPlan way_nodemap back_nodemap lines) b := by
  induction lines with
  | nil => intro b; rfl
  | cons it rest ih =>
    intro b
    rw [terminalPlan, List.flatMap_cons, runSwitches_append, ← terminalSwitchingLoop_run]
    simp only [addSwitchingArcsAtTerminals]
    cases h1 : terminalSwitchingLoop it.2.name it.2.stations way_nodemap back_nodemap
        it.2.stations.enum b with
    | error m => rfl
    | ok b1 => exact ih b1

end SwitchTrace

/-! ### The restricted switching rule as a sequence of calls of `addSwitchArc` -/

section StationTrace

open GraphBuilder

theorem isConnectingStation_ok (name : String) (stationMap : t_stationmap) (r : Bool)
    (h : isConnectingStation name stationMap = .ok r) :
    servesSeveralLines stationMap name = r := by
  simp only [isConnectingStation] at h
  simp only [servesSeveralLines]
  cases hf : findStation stationMap name with
  | none => rw [hf] at h; exact absurd h (by simp)
  | some st =>
    rw [hf] at h
    exact Except.ok.inj h

theorem anyConnectingStation_ok (stationMap : t_stationmap) (l : List String) (r : Bool)
    (h : anyConnectingStation stationMap l = .ok r) :
    l.any (servesSeveralLines stationMap) = r := by
  induction l with
  | nil =>
    simp only [anyConnectingStation] at h
    rw [← Except.ok.inj h]
    rfl
  | cons name rest ih =>
    simp only [anyConnectingStation] at h
    cases h1 : isConnectingStation name stationMap with
    | error m => rw [h1] at h; exact absurd h (by simp)
    | ok c =>
      rw [h1] at h
      have hc := isConnectingStation_ok name stationMap c h1
      cases c with
      | true =>
        simp only at h
        rw [← Except.ok.inj h, List.any_cons, hc]
        rfl
      | false =>
        simp only at h
        rw [List.any_cons, hc, ih h]
        rfl

theorem addSwitchArc_run (b : GraphBuilder) (s t : Option Nat) :
    b.addSwitchArc s t = runSwitches [(s, t)] b := by
  simp only [runSwitches]
  cases b.addSwitchArc s t <;> rfl

theorem addNeighbourSwitches_run (b b' : GraphBuilder) (lineName : String)
    (lineStations : List String) (way_nodemap back_nodemap : NodeMap) (i : Nat)
    (station : String)
    (h : b.addNeighbourSwitches lineName lineStations way_nodemap back_nodemap i station
      = .ok b') :
    runSwitches
      ((if servesSeveralLines b._stations (lineStations.getD (i + 1) "") then
          [(way_nodemap lineName station, back_nodemap lineName station)] else []) ++
        (if servesSeveralLines b._stations (lineStations.getD (i - 1) "") then
          [(back_nodemap lineName station, way_nodemap lineName station)] else [])) b
      = .ok b' := by
  simp only [addNeighbourSwitches] at h
  cases h1 : isConnectingStation (lineStations.getD (i + 1) "") b._stations with
  | error m => rw [h1] at h; exact absurd h (by simp)
  | ok next =>
    rw [h1] at h
    simp only at h
    rw [isConnectingStation_ok _ _ _ h1, runSwitches_append]
    cases h2 : (if next = true then
        b.addSwitchArc (way_nodemap lineName station) (back_nodemap lineName station)
        else Except.ok b) with
    | error m => rw [h2] at h; exact absurd h (by simp)
    | ok b1 =>
      rw [h2] at h
      simp only at h
      have hrun : runSwitches (if next = true then
          [(way_nodemap lineName station, back_nodemap lineName station)] else []) b
          = .ok b1 := by
        cases next with
        | true =>
          simp only [if_true] at h2 ⊢
          rw [← addSwitchArc_run]
          exact h2
        | false =>
          simp only [Bool.false_eq_true, if_false] at h2 ⊢
          exact h2
      rw [hrun]
      simp only
      have hst : b1._stations = b._stations := runSwitches_stations _ b b1 hrun
      cases h3 : isConnectingStation (lineStations.getD (i - 1) "") b1._stations with
      | error m => rw [h3] at h; exact absurd h (by simp)
      | ok prev =>
        rw [h3] at h
        simp only at h
        rw [hst] at h3
        rw [isConnectingStation_ok _ _ _ h3]
        cases prev with
        | true =>
          simp only [if_true] at h ⊢
          rw [← addSwitchArc_run]
          exact h
        | false =>
          simp only [Bool.false_eq_true, if_false] at h ⊢
          exact h

/-- One step of `addStationProblemSwitchingArcs` that succeeds runs the
restricted switching rule of its stop. -/
theorem stationSwitchingStep_run (b b' : GraphBuilder) (lineName : String)
    (lineStations : List String) (way_nodemap back_nodemap : NodeMap) (i : Nat)
    (station : String)
    (h : b.stationSwitchingStep lineName lineStations way_nodemap back_nodemap i station
      = .ok b') :
    runSwitches (restrictedSwitchesAt b._stations way_nodemap back_nodemap lineName
      lineStations i station) b = .ok b' := by
  simp only [stationSwitchingStep] at h
  simp only [restrictedSwitchesAt]
  cases h1 : isConnectingStation station b._stations with
  | error m => rw [h1] at h; exact absurd h (by simp)
  | ok c =>
    rw [h1] at h
    rw [isConnectingStation_ok _ _ _ h1]
    cases c with
    | true =>
      simp only at h
      simp only [if_true]
      exact h
    | false =>
      simp only at h
      simp only [Bool.false_eq_true, if_false]
      by_cases ht : isTerminalStation i lineStations = true
      · rw [if_pos ht] at h
        rw [if_pos ht, ← addTerminalSwitch_run]
        exact h
      · rw [if_neg ht] at h
        rw [if_neg ht]
        cases h2 : hasPrecedingConnectingStation i lineStations b._stations with
        | error m => rw [h2] at h; exact absurd h (by simp)
        | ok pre =>
          rw [h2] at h
          have hpre := anyConnectingStation_ok _ _ _ h2
          rw [hpre]
          cases pre with
          | false =>
            simp only at h
            simp only [Bool.false_and, Bool.false_eq_true, if_false]
            exact h
          | true =>
            simp only at h
            cases h3 : hasFollowingConnectingStation i lineStations b._stations with
            | error m => rw [h3] at h; exact absurd h (by simp)
            | ok fol =>
              rw [h3] at h
              have hfol := anyConnectingStation_ok _ _ _ h3
              rw [hfol]
              cases fol with
              | false =>
                simp only at h
                simp only [Bool.and_false, Bool.false_eq_true, if_false]
                exact h
              | true =>
                simp only at h
                simp only [Bool.and_self, if_true]
                exact addNeighbourSwitches_run b b' lineName lineStations way_nodemap
                  back_nodemap i station h

theorem stationSwitchingLoop_run (lineName : String) (lineStations : List String)
    (way_nodemap back_nodemap : NodeMap) (l : List (Nat × String)) :
    ∀ (b b' : GraphBuilder),
      stationSwitchingLoop lineName lineStations way_nodemap back_nodemap l b = .ok b' →
      runSwitches (restrictedPlanLine b._stations way_nodemap back_nodemap lineName
        lineStations l) b = .ok b' := by
  induction l with
  | nil => intro b b' h; exact h
  | cons p rest ih =>
    intro b b' h
    obtain ⟨i, s⟩ := p
    simp only [stationSwitchingLoop] at h
    simp only [restrictedPlanLine]
    rw [runSwitches_append]
    cases h1 : b.stationSwitchingStep lineName lineStations way_nodemap back_nodemap i s with
    | error m => rw [h1] at h; exact absurd h (by simp)
    | ok b1 =>
      rw [h1] at h
      have hrun := stationSwitchingStep_run b b1 _ _ _ _ _ _ h1
      rw [hrun]
      simp only at h ⊢
      have := ih b1 b' h
      rw [runSwitches_stations _ b b1 hrun] at this
      exact this

/-- The function `addStationProblemSwitchingArcs`, when it succeeds, runs the
plan of the restricted switching rule. -/
theorem addStationProblemSwitchingArcs_run (way_nodemap back_nodemap : NodeMap)
    (lines : t_linemap) :
    ∀ (b b' : GraphBuilder),
      addStationProblemSwitchingArcs way_nodemap back_nodemap lines b = .ok b' →
      runSwitches (restrictedPlan b._stations way_nodemap back_nodemap lines) b = .ok b' := by
  induction lines with
  | nil => intro b b' h; exact h
  | cons it rest ih =>
    intro b b' h
    simp only [addStationProblemSwitchingArcs] at h
    rw [restrictedPlan, List.flatMap_cons, runSwitches_append]
    cases h1 : stationSwitchingLoop it.2.name it.2.stations way_nodemap back_nodemap
        it.2.stations.enum b with
    | error m => rw [h1] at h; exact absurd h (by simp)
    | ok b1 =>
      rw [h1] at h
      have hrun := stationSwitchingLoop_run _ _ _ _ _ b b1 h1
      rw [hrun]
      simp only at h ⊢
      have := ih b1 b' h
      rw [runSwitches_stations _ b b1 hrun] at this
      exact this

end StationTrace

/-! ### The transfer arcs as a filtered list of calls -/

section TransferTrace

open GraphBuilder

theorem addConnectionEdge_some (b : GraphBuilder) (s t : Nat) :
    b.addConnectionEdge (some s) (some t) =
      .ok (if transferGuard b (s, t) then b.addArc b._change_cost s t else b) := by
  simp only [addConnectionEdge, transferGuard]
  split <;> rfl

theorem addConnectionEdges_cons_ok (p : Option Nat × Option Nat)
    (rest : List (Option Nat × Option Nat)) (b b1 : GraphBuilder)
    (h : b.addConnectionEdge p.1 p.2 = .ok b1) :
    addConnectionEdges (p :: rest) b = addConnectionEdges rest b1 := by
  obtain ⟨s, t⟩ := p
  simp only [addConnectionEdges]
  simp only at h
  rw [h]

theorem addConnectionEdges_cons_error (p : Option Nat × Option Nat)
    (rest : List (Option Nat × Option Nat)) (b : GraphBuilder) (m : String)
    (h : b.addConnectionEdge p.1 p.2 = .error m) :
    addConnectionEdges (p :: rest) b = .error m := by
  obtain ⟨s, t⟩ := p
  simp only [addConnectionEdges]
  simp only at h
  rw [h]

theorem addConnectionEdges_append (p1 p2 : List (Option Nat × Option Nat)) :
    ∀ b : GraphBuilder, addConnectionEdges (p1 ++ p2) b =
      match addConnectionEdges p1 b with
      | .error m => .error m
      | .ok b1 => addConnectionEdges p2 b1 := by
  induction p1 with
  | nil => intro b; rfl
  | cons p rest ih =>
    intro b
    rw [List.cons_append]
    cases h : b.addConnectionEdge p.1 p.2 with
    | error m =>
      rw [addConnectionEdges_cons_error p _ b m h, addConnectionEdges_cons_error p _ b m h]
    | ok b1 =>
      rw [addConnectionEdges_cons_ok p _ b b1 h, addConnectionEdges_cons_ok p _ b b1 h, ih]

theorem connectionLoop2_run (way_nodemap back_nodemap : NodeMap) (station_name line : String)
    (rest : List String) :
    ∀ b : GraphBuilder, connectionLoop2 way_nodemap back_nodemap station_name line rest b =
      addConnectionEdges (rest.flatMap (fun line2 =>
        connectionPairs way_nodemap back_nodemap station_name line line2)) b := by
  induction rest with
  | nil => intro b; rfl
  | cons line2 rest ih =>
    intro b
    rw [List.flatMap_cons, addConnectionEdges_append]
    simp only [connectionLoop2]
    cases addConnectionEdges
        (connectionPairs way_nodemap back_nodemap station_name line line2) b with
    | error m => rfl
    | ok b1 => exact ih b1

theorem connectionLoop1_run (way_nodemap back_nodemap : NodeMap) (station_name : String)
    (lines : List String) :
    ∀ b : GraphBuilder, connectionLoop1 way_nodemap back_nodemap station_name lines b =
      addConnectionEdges ((laterPairs lines).flatMap (fun p =>
        connectionPairs way_nodemap back_nodemap station_name p.1 p.2)) b := by
  induction lines with
  | nil => intro b; rfl
  | cons line rest ih =>
    intro b
    rw [laterPairs, List.flatMap_append, addConnectionEdges_append, List.flatMap_map,
      ← connectionLoop2_run]
    simp only [connectionLoop1]
    cases connectionLoop2 way_nodemap back_nodemap station_name line rest b with
    | error m => rfl
    | ok b1 => exact ih b1

/-- The function `addAllConnectionArcs` is the sequence of calls of the plan. -/
theorem addAllConnectionArcs_run (way_nodemap back_nodemap : NodeMap)
    (stations : t_stationmap) :
    ∀ b : GraphBuilder, addAllConnectionArcs way_nodemap back_nodemap stations b =
      addConnectionEdges (transferPlan way_nodemap back_nodemap stations) b := by
  induction stations with
  | nil => intro b; rfl
  | cons it rest ih =>
    intro b
    rw [transferPlan, List.flatMap_cons, addConnectionEdges_append, ← connectionLoop1_run]
    simp only [addAllConnectionArcs]
    cases connectionLoop1 way_nodemap back_nodemap it.2.name it.2.lines b with
    | error m => rfl
    | ok b1 => exact ih b1

/-- The arcs appended by `addArcs` are flagged as connection arcs, so they do
not change the guard of `addConnectionEdge`. -/
theorem transferGuard_addArcs (b : GraphBuilder) (hb : b.FreshIds) (cost : ℚ)
    (arcs : List (Nat × Nat)) (p : Nat × Nat) :
    transferGuard (b.addArcs cost arcs) p = transferGuard b p := by
  obtain ⟨-, -, hE, -, -, -, -, -, -, -, -, -, hC⟩ := addArcs_fields cost arcs b
  have hold : ∀ e ∈ b._g.edges,
      (b.addArcs cost arcs)._connection_arcs e.id = b._connection_arcs e.id := by
    intro e he
    rw [hC, if_neg]
    have := hb e he
    omega
  have hnew : ∀ e ∈ arcsFrom b._g.nextEdge arcs,
      (b.addArcs cost arcs)._connection_arcs e.id = true := by
    intro e he
    obtain ⟨i, hi, hid⟩ := (mem_arcsFrom _ _ _).1 he
    have hlt : i < arcs.length := by
      by_contra hge
      rw [List.getElem?_eq_none (by omega)] at hi
      exact absurd hi (by simp)
    rw [hC, if_pos]
    omega
  have key : ∀ (f : Edge → Bool),
      ((b._g.edges ++ arcsFrom b._g.nextEdge arcs).filter f).any
        (fun e => !(b.addArcs cost arcs)._connection_arcs e.id) =
      (b._g.edges.filter f).any (fun e => !b._connection_arcs e.id) := by
    intro f
    rw [List.filter_append, List.any_append]
    have h2 : ((arcsFrom b._g.nextEdge arcs).filter f).any
        (fun e => !(b.addArcs cost arcs)._connection_arcs e.id) = false := by
      rw [List.any_eq_false]
      intro e he
      rw [hnew e (List.mem_of_mem_filter he)]
      simp
    rw [h2, Bool.or_false]
    apply Bool.eq_iff_iff.2
    simp only [List.any_eq_true, List.mem_filter]
    constructor
    · rintro ⟨e, ⟨he, hf⟩, hc⟩
      exact ⟨e, ⟨he, hf⟩, by rw [← hold e he]; exact hc⟩
    · rintro ⟨e, ⟨he, hf⟩, hc⟩
      exact ⟨e, ⟨he, hf⟩, by rw [hold e he]; exact hc⟩
  simp only [transferGuard, LGraph.inEdges, LGraph.outEdges, hE, key]

/-- A sequence of calls of `addConnectionEdge` that succeeds adds the arcs of
the calls whose guard holds in the graph before the first call. -/
theorem addConnectionEdges_trace (b0 : GraphBuilder) (hb : b0.FreshIds)
    (plan : List (Option Nat × Option Nat)) :
    ∀ (done : List (Nat × Nat)) (b' : GraphBuilder),
      addConnectionEdges plan (b0.addArcs b0._change_cost done) = .ok b' →
      ∃ calls : List (Nat × Nat), calls.map somePair = plan ∧
        b' = b0.addArcs b0._change_cost (done ++ calls.filter (transferGuard b0)) := by
  induction plan with
  | nil =>
    intro done b' h
    exact ⟨[], rfl, by rw [← Except.ok.inj h, List.filter_nil, List.append_nil]⟩
  | cons p rest ih =>
    intro done b' h
    obtain ⟨s, t⟩ := p
    cases s with
    | none => simp [addConnectionEdges, addConnectionEdge] at h
    | some u =>
      cases t with
      | none => simp [addConnectionEdges, addConnectionEdge] at h
      | some v =>
        rw [addConnectionEdges_cons_ok _ _ _ _ (addConnectionEdge_some _ u v),
          transferGuard_addArcs b0 hb] at h
        have hcost : (b0.addArcs b0._change_cost done)._change_cost = b0._change_cost :=
          (addArcs_fields _ done b0).2.2.2.2.2.2.2.2.2.2.1
        rw [hcost] at h
        by_cases hg : transferGuard b0 (u, v) = true
        · rw [if_pos hg] at h
          have h' : addConnectionEdges rest (b0.addArcs b0._change_cost (done ++ [(u, v)]))
              = .ok b' := by
            rw [addArcs_append]
            exact h
          obtain ⟨calls, hc, hb'⟩ := ih _ _ h'
          refine ⟨(u, v) :: calls, by rw [List.map_cons, hc]; rfl, ?_⟩
          rw [hb', List.filter_cons_of_pos hg, List.append_assoc]
          rfl
        · rw [if_neg hg] at h
          obtain ⟨calls, hc, hb'⟩ := ih _ _ h
          refine ⟨(u, v) :: calls, by rw [List.map_cons, hc]; rfl, ?_⟩
          rw [hb', List.filter_cons_of_neg hg]

/-- The transfer phase: the arcs appended by `addAllConnectionArcs`. -/
theorem addAllConnectionArcs_trace (way_nodemap back_nodemap : NodeMap)
    (stations : t_stationmap) (b b' : GraphBuilder) (hb : b.FreshIds)
    (h : addAllConnectionArcs way_nodemap back_nodemap stations b = .ok b') :
    ∃ calls : List (Nat × Nat), calls.map somePair = transferPlan way_nodemap back_nodemap stations ∧
      b' = b.addArcs b._change_cost (calls.filter (transferGuard b)) := by
  rw [addAllConnectionArcs_run] at h
  have := addConnectionEdges_trace b hb _ [] b' h
  simpa using this

end TransferTrace

/-! ## Theorems: the nodes and travel arcs of any network -/

section TravelSteps

open GraphBuilder

theorem addTravelArc_eq (b : GraphBuilder) (lineName : String) (times : List Nat)
    (last current hi lo : Nat) :
    b.addTravelArc lineName times (some last) current hi lo =
      if ¬ (toInt32 (times.getD hi 0) (times.getD lo 0) > 0) then .error assertTravelTime
      else .ok (b.addTravel lineName (toInt32 (times.getD hi 0) (times.getD lo 0)) last current) := by
  simp only [addTravelArc]
  split <;> rfl

theorem wayLoop_eq (lineName : String) (times : List Nat) (stations : List String) :
    ∀ (station_index : Nat) (lastNode : Option Nat) (st : GraphBuilder × NodeMap),
      wayLoop lineName times stations station_index lastNode st =
        lineLoop lineName (waySteps times stations station_index) lastNode st := by
  induction stations with
  | nil => intro i l st; rfl
  | cons s rest ih =>
    intro i l st
    obtain ⟨b, m⟩ := st
    cases l with
    | none =>
      simp only [wayLoop, waySteps, lineLoop, addTravelArc]
      exact ih _ _ _
    | some last =>
      simp only [wayLoop, waySteps, lineLoop]
      rw [addTravelArc_eq]
      by_cases ht : toInt32 (times.getD i 0) (times.getD (i - 1) 0) > 0
      · rw [if_neg (not_not.2 ht), if_neg (not_not.2 ht)]
        exact ih _ _ _
      · rw [if_pos ht, if_pos ht]

theorem backLoop_eq (lineName : String) (times : List Nat) (stations : List String) :
    ∀ (station_index : Int) (lastNode : Option Nat) (st : GraphBuilder × NodeMap),
      backLoop lineName times stations station_index lastNode st =
        lineLoop lineName (backSteps times stations station_index) lastNode st := by
  induction stations with
  | nil => intro i l st; rfl
  | cons s rest ih =>
    intro i l st
    obtain ⟨b, m⟩ := st
    cases l with
    | none =>
      simp only [backLoop, backSteps, lineLoop, addTravelArc]
      exact ih _ _ _
    | some last =>
      simp only [backLoop, backSteps, lineLoop]
      rw [addTravelArc_eq]
      by_cases ht : toInt32 (times.getD (i + 1).toNat 0) (times.getD i.toNat 0) > 0
      · rw [if_neg (not_not.2 ht), if_neg (not_not.2 ht)]
        exact ih _ _ _
      · rw [if_pos ht, if_pos ht]

theorem sound_init (stations : t_stationmap) (lines : t_linemap) (cc sc : ℚ) :
    Sound (GraphBuilder.init stations lines cc sc) := by
  refine ⟨⟨?_, ?_⟩, ?_, ?_⟩
  · intro n; simp [GraphBuilder.init, LGraph.emptyGraph]
  · intro e he; simp [GraphBuilder.init, LGraph.emptyGraph] at he
  · intro e he; simp [GraphBuilder.init, LGraph.emptyGraph] at he
  · constructor <;> simp [GraphBuilder.init, LGraph.emptyGraph, noArcs]

theorem addStationNode_sound (b : GraphBuilder) (station : String) (hb : Sound b) :
    Sound (b.addStationNode station).1 := by
  obtain ⟨⟨hn, he⟩, hc, hbase⟩ := hb
  refine ⟨⟨?_, he⟩, ?_, addStationNode_base b.noArcs station hbase⟩
  · intro n
    show n ∈ b._g.nodes ++ [b._g.nextNode] ↔ n < b._g.nextNode + 1
    rw [List.mem_append, hn, List.mem_singleton]
    omega
  · intro e hmem
    have := hc e hmem
    show e.src ∈ b._g.nodes ++ [b._g.nextNode] ∧ e.tgt ∈ b._g.nodes ++ [b._g.nextNode]
    exact ⟨List.mem_append_left _ this.1, List.mem_append_left _ this.2⟩

theorem addStationNode_shape (b : GraphBuilder) (station : String) (hb : b.Fresh) :
    (b.addStationNode station).1._g.nodes.map (b.addStationNode station).1._node_names =
        b._g.nodes.map b._node_names ++ [station] ∧
      (b.addStationNode station).1.arcRecords = b.arcRecords := by
  refine ⟨?_, rfl⟩
  show (b._g.nodes ++ [b._g.nextNode]).map
    (fun i => if i = b._g.nextNode then station else b._node_names i) = _
  rw [List.map_append]
  congr 1
  · apply List.map_congr_left
    intro n hn
    have := (hb.1 n).1 hn
    simp [Nat.ne_of_lt this]
  · simp

theorem addTravel_sound (b : GraphBuilder) (lineName : String) (tt : Int) (last current : Nat)
    (hb : Sound b) (hl : last ∈ b._g.nodes) (hc : current ∈ b._g.nodes) :
    Sound (b.addTravel lineName tt last current) := by
  obtain ⟨⟨hn, he⟩, hcl, hbase⟩ := hb
  refine ⟨⟨hn, ?_⟩, ?_, hbase⟩
  · intro e hmem
    have hmem' : e ∈ b._g.edges ++ [⟨b._g.nextEdge, last, current⟩] := hmem
    show e.id < b._g.nextEdge + 1
    rcases List.mem_append.1 hmem' with h | h
    · have := he e h; omega
    · rw [List.mem_singleton] at h
      subst h
      exact Nat.lt_succ_self _
  · intro e hmem
    have hmem' : e ∈ b._g.edges ++ [⟨b._g.nextEdge, last, current⟩] := hmem
    show e.src ∈ b._g.nodes ∧ e.tgt ∈ b._g.nodes
    rcases List.mem_append.1 hmem' with h | h
    · exact hcl e h
    · rw [List.mem_singleton] at h
      subst h
      exact ⟨hl, hc⟩

theorem addTravel_shape (b : GraphBuilder) (lineName : String) (tt : Int) (last current : Nat)
    (hb : b.Fresh) :
    (b.addTravel lineName tt last current).arcRecords =
      b.arcRecords ++ [⟨b._g.nextEdge, last, current, (tt : ℚ), lineName, false⟩] := by
  have hE : (b.addTravel lineName tt last current)._g.edges =
      b._g.edges ++ [⟨b._g.nextEdge, last, current⟩] := rfl
  rw [arcRecords, hE, List.map_append]
  congr 1
  · apply List.map_congr_left
    intro e he
    have := hb.2 e he
    simp [addTravel, Nat.ne_of_lt this]
  · simp [addTravel]

theorem fresh_addTravel (b : GraphBuilder) (lineName : String) (tt : Int) (last current : Nat)
    (hb : b.Fresh) : (b.addTravel lineName tt last current).Fresh := by
  refine ⟨hb.1, ?_⟩
  intro e hmem
  have hmem' : e ∈ b._g.edges ++ [⟨b._g.nextEdge, last, current⟩] := hmem
  show e.id < b._g.nextEdge + 1
  rcases List.mem_append.1 hmem' with h | h
  · have := hb.2 e h; omega
  · rw [List.mem_singleton] at h
    subst h
    exact Nat.lt_succ_self _

theorem fresh_addStationNode (b : GraphBuilder) (station : String) (hb : b.Fresh) :
    (b.addStationNode station).1.Fresh := by
  refine ⟨?_, hb.2⟩
  intro n
  show n ∈ b._g.nodes ++ [b._g.nextNode] ↔ n < b._g.nextNode + 1
  rw [List.mem_append, hb.1, List.mem_singleton]
  omega

theorem mapIn_set (b : GraphBuilder) (m : NodeMap) (lineName station : String)
    (hm : MapIn b m) : MapIn (b.addStationNode station).1 (m.set lineName station b._g.nextNode) := by
  intro l s n h
  show n ∈ b._g.nodes ++ [b._g.nextNode]
  simp only [NodeMap.set] at h
  split at h
  · simp only [Option.some.injEq] at h
    subst h
    simp
  · exact List.mem_append_left _ (hm l s n h)

end TravelSteps

/-! ### One visit of a line -/

section TravelLoops

open GraphBuilder

theorem neededTimes_some (steps : List (String × Int)) (l : Nat) :
    neededTimes steps (some l) = steps.map Prod.snd := by
  cases steps <;> rfl

theorem lineLoop_none (lineName station : String) (tt : Int) (rest : List (String × Int))
    (b : GraphBuilder) (m : NodeMap) :
    lineLoop lineName ((station, tt) :: rest) none (b, m) =
      lineLoop lineName rest (some b._g.nextNode)
        ((b.addStationNode station).1, m.set lineName station b._g.nextNode) := rfl

theorem lineLoop_some_pos (lineName station : String) (tt : Int) (rest : List (String × Int))
    (last : Nat) (b : GraphBuilder) (m : NodeMap) (h : 0 < tt) :
    lineLoop lineName ((station, tt) :: rest) (some last) (b, m) =
      lineLoop lineName rest (some b._g.nextNode)
        ((b.addStationNode station).1.addTravel lineName tt last b._g.nextNode,
          m.set lineName station b._g.nextNode) := by
  simp only [lineLoop]
  rw [if_neg (not_not.2 h)]

theorem lineLoop_some_neg (lineName station : String) (tt : Int) (rest : List (String × Int))
    (last : Nat) (b : GraphBuilder) (m : NodeMap) (h : ¬ 0 < tt) :
    lineLoop lineName ((station, tt) :: rest) (some last) (b, m) = .error assertTravelTime := by
  simp only [lineLoop]
  rw [if_pos h]

/-- A visit of a line succeeds when the travel times it needs are positive. -/
theorem lineLoop_ok (lineName : String) (steps : List (String × Int)) :
    ∀ (last : Option Nat) (st : GraphBuilder × NodeMap),
      (∀ t ∈ neededTimes steps last, 0 < t) → ∃ st', lineLoop lineName steps last st = .ok st' := by
  induction steps with
  | nil => intro last st _; exact ⟨st, rfl⟩
  | cons p rest ih =>
    intro last st h
    obtain ⟨s, tt⟩ := p
    obtain ⟨b, m⟩ := st
    cases last with
    | none =>
      rw [lineLoop_none]
      apply ih
      rw [neededTimes_some]
      exact h
    | some l =>
      rw [neededTimes_some] at h
      have htt : 0 < tt := h tt (by simp)
      rw [lineLoop_some_pos _ _ _ _ _ _ _ htt]
      apply ih
      rw [neededTimes_some]
      intro t ht
      exact h t (by rw [List.map_cons]; exact List.mem_cons_of_mem _ ht)

/-- A visit of a line fails with the assertion on the travel time when one of
the travel times it needs is not positive. -/
theorem lineLoop_error (lineName : String) (steps : List (String × Int)) :
    ∀ (last : Option Nat) (st : GraphBuilder × NodeMap),
      (∃ t ∈ neededTimes steps last, ¬ 0 < t) →
        lineLoop lineName steps last st = .error assertTravelTime := by
  induction steps with
  | nil => intro last st h; obtain ⟨t, ht, _⟩ := h; cases last <;> simp [neededTimes] at ht
  | cons p rest ih =>
    intro last st h
    obtain ⟨s, tt⟩ := p
    obtain ⟨b, m⟩ := st
    cases last with
    | none =>
      rw [lineLoop_none]
      apply ih
      rw [neededTimes_some]
      exact h
    | some l =>
      rw [neededTimes_some] at h
      by_cases htt : 0 < tt
      · rw [lineLoop_some_pos _ _ _ _ _ _ _ htt]
        apply ih
        rw [neededTimes_some]
        obtain ⟨t, ht, hneg⟩ := h
        rw [List.map_cons, List.mem_cons] at ht
        rcases ht with h1 | h1
        · subst h1; exact absurd htt hneg
        · exact ⟨t, h1, hneg⟩
      · exact lineLoop_some_neg _ _ _ _ _ _ _ htt

/-- The only error of a visit of a line is the assertion on the travel time. -/
theorem lineLoop_error_msg (lineName : String) (steps : List (String × Int))
    (last : Option Nat) (st : GraphBuilder × NodeMap) (msg : String)
    (h : lineLoop lineName steps last st = .error msg) :
    msg = assertTravelTime ∧ ∃ t ∈ neededTimes steps last, ¬ 0 < t := by
  by_cases hall : ∀ t ∈ neededTimes steps last, 0 < t
  · obtain ⟨st', hst⟩ := lineLoop_ok lineName steps last st hall
    rw [hst] at h
    exact absurd h (by simp)
  · push_neg at hall
    obtain ⟨t, ht, hneg⟩ := hall
    have hex : ∃ t ∈ neededTimes steps last, ¬ 0 < t := ⟨t, ht, not_lt.2 hneg⟩
    rw [lineLoop_error lineName steps last st hex] at h
    exact ⟨(Except.error.inj h).symm, hex⟩

/-- A visit of a line keeps the graph sound. -/
theorem lineLoop_sound (lineName : String) (steps : List (String × Int)) :
    ∀ (last : Option Nat) (b : GraphBuilder) (m : NodeMap) (b' : GraphBuilder) (m' : NodeMap),
      lineLoop lineName steps last (b, m) = .ok (b', m') → Sound b → MapIn b m →
      (∀ l, last = some l → l ∈ b._g.nodes) →
      Sound b' ∧ MapIn b' m' ∧ (∀ n ∈ b._g.nodes, n ∈ b'._g.nodes) ∧
        b'._stations = b._stations ∧ b'._lines = b._lines ∧
        b'._change_cost = b._change_cost ∧ b'._switch_cost = b._switch_cost := by
  induction steps with
  | nil =>
    intro last b m b' m' h hs hm _
    simp only [lineLoop, Except.ok.injEq, Prod.mk.injEq] at h
    obtain ⟨rfl, rfl⟩ := h
    exact ⟨hs, hm, fun _ h => h, rfl, rfl, rfl, rfl⟩
  | cons p rest ih =>
    intro last b m b' m' h hs hm hl
    obtain ⟨s, tt⟩ := p
    have hcur : b._g.nextNode ∈ (b.addStationNode s).1._g.nodes := by
      show b._g.nextNode ∈ b._g.nodes ++ [b._g.nextNode]
      simp
    have hsub : ∀ n ∈ b._g.nodes, n ∈ (b.addStationNode s).1._g.nodes := by
      intro n hn
      show n ∈ b._g.nodes ++ [b._g.nextNode]
      exact List.mem_append_left _ hn
    cases last with
    | none =>
      rw [lineLoop_none] at h
      obtain ⟨h1, h2, h3, h4, h5, h6, h7⟩ := ih _ _ _ _ _ h (addStationNode_sound b s hs)
        (mapIn_set b m lineName s hm) (fun l hl' => by
          simp only [Option.some.injEq] at hl'; subst hl'; exact hcur)
      exact ⟨h1, h2, fun n hn => h3 n (hsub n hn), h4, h5, h6, h7⟩
    | some last =>
      by_cases htt : 0 < tt
      · rw [lineLoop_some_pos _ _ _ _ _ _ _ htt] at h
        obtain ⟨h1, h2, h3, h4, h5, h6, h7⟩ := ih _ _ _ _ _ h
          (addTravel_sound _ lineName tt last _ (addStationNode_sound b s hs)
            (hsub _ (hl last rfl)) hcur)
          (mapIn_set b m lineName s hm) (fun l hl' => by
            simp only [Option.some.injEq] at hl'; subst hl'; exact hcur)
        exact ⟨h1, h2, fun n hn => h3 n (hsub n hn), h4, h5, h6, h7⟩
      · rw [lineLoop_some_neg _ _ _ _ _ _ _ htt] at h
        exact absurd h (by simp)

/-- The nodes and arcs a visit of a line adds. -/
theorem lineLoop_shape (lineName : String) (steps : List (String × Int)) :
    ∀ (last : Option Nat) (b : GraphBuilder) (m : NodeMap) (b' : GraphBuilder) (m' : NodeMap),
      lineLoop lineName steps last (b, m) = .ok (b', m') → b.Fresh →
      b'.Fresh ∧
        b'._g.nodes = b._g.nodes ++ List.range' b._g.nextNode steps.length ∧
        b'._g.nextNode = b._g.nextNode + steps.length ∧
        b'._g.nodes.map b'._node_names = b._g.nodes.map b._node_names ++ steps.map Prod.fst ∧
        b'.arcRecords =
          b.arcRecords ++ lineArcs lineName steps last b._g.nextNode b._g.nextEdge ∧
        b'._g.nextEdge =
          b._g.nextEdge + (lineArcs lineName steps last b._g.nextNode b._g.nextEdge).length := by
  induction steps with
  | nil =>
    intro last b m b' m' h hf
    simp only [lineLoop, Except.ok.injEq, Prod.mk.injEq] at h
    obtain ⟨rfl, rfl⟩ := h
    simp [lineArcs, hf]
  | cons p rest ih =>
    intro last b m b' m' h hf
    obtain ⟨s, tt⟩ := p
    obtain ⟨hnames, harcs⟩ := addStationNode_shape b s hf
    have hf1 := fresh_addStationNode b s hf
    have hN1 : (b.addStationNode s).1._g.nodes = b._g.nodes ++ [b._g.nextNode] := rfl
    have hn1 : (b.addStationNode s).1._g.nextNode = b._g.nextNode + 1 := rfl
    have he1 : (b.addStationNode s).1._g.nextEdge = b._g.nextEdge := rfl
    cases last with
    | none =>
      rw [lineLoop_none] at h
      obtain ⟨h1, h2, h3, h4, h5, h6⟩ := ih _ _ _ _ _ h hf1
      rw [hN1, hn1] at h2
      rw [hn1] at h3
      rw [hnames] at h4
      rw [harcs, hn1, he1] at h5
      rw [hn1, he1] at h6
      refine ⟨h1, ?_, ?_, ?_, ?_, ?_⟩
      · rw [h2, List.length_cons, List.range'_succ, List.append_assoc]; rfl
      · rw [h3, List.length_cons]; omega
      · rw [h4, List.map_cons, List.append_assoc]; rfl
      · rw [h5]; rfl
      · rw [h6]; rfl
    | some last =>
      by_cases htt : 0 < tt
      · rw [lineLoop_some_pos _ _ _ _ _ _ _ htt] at h
        have hf2 := fresh_addTravel _ lineName tt last b._g.nextNode hf1
        have harcs2 := addTravel_shape _ lineName tt last b._g.nextNode hf1
        obtain ⟨h1, h2, h3, h4, h5, h6⟩ := ih _ _ _ _ _ h hf2
        have hN2 : ((b.addStationNode s).1.addTravel lineName tt last b._g.nextNode)._g.nodes
            = b._g.nodes ++ [b._g.nextNode] := rfl
        have hn2 : ((b.addStationNode s).1.addTravel lineName tt last b._g.nextNode)._g.nextNode
            = b._g.nextNode + 1 := rfl
        have he2 : ((b.addStationNode s).1.addTravel lineName tt last b._g.nextNode)._g.nextEdge
            = b._g.nextEdge + 1 := rfl
        have hnm2 : ((b.addStationNode s).1.addTravel lineName tt last b._g.nextNode)._node_names
            = (b.addStationNode s).1._node_names := rfl
        rw [hN2, hn2] at h2
        rw [hn2] at h3
        rw [hN2, hnm2, ← hN1, hnames] at h4
        rw [harcs2, harcs, hn2, he2, he1] at h5
        rw [hn2, he2] at h6
        refine ⟨h1, ?_, ?_, ?_, ?_, ?_⟩
        · rw [h2, List.length_cons, List.range'_succ, List.append_assoc]; rfl
        · rw [h3, List.length_cons]; omega
        · rw [h4, List.map_cons, List.append_assoc]; rfl
        · rw [h5, List.append_assoc]; rfl
        · rw [h6]; simp only [lineArcs, List.length_cons]; omega
      · rw [lineLoop_some_neg _ _ _ _ _ _ _ htt] at h
        exact absurd h (by simp)

end TravelLoops

/-! ### The travel arcs of a visit, by index -/

section TravelShape

open GraphBuilder

theorem waySteps_length (times : List Nat) (stations : List String) :
    ∀ i, (waySteps times stations i).length = stations.length := by
  induction stations with
  | nil => intro i; rfl
  | cons s rest ih => intro i; simp [waySteps, ih]

theorem backSteps_length (times : List Nat) (stations : List String) :
    ∀ i, (backSteps times stations i).length = stations.length := by
  induction stations with
  | nil => intro i; rfl
  | cons s rest ih => intro i; simp [backSteps, ih]

theorem waySteps_fst (times : List Nat) (stations : List String) :
    ∀ i, (waySteps times stations i).map Prod.fst = stations := by
  induction stations with
  | nil => intro i; rfl
  | cons s rest ih => intro i; simp [waySteps, ih]

theorem backSteps_fst (times : List Nat) (stations : List String) :
    ∀ i, (backSteps times stations i).map Prod.fst = stations := by
  induction stations with
  | nil => intro i; rfl
  | cons s rest ih => intro i; simp [backSteps, ih]

theorem waySteps_getD (times : List Nat) (stations : List String) :
    ∀ (i j : Nat), j < stations.length →
      ((waySteps times stations i).map Prod.snd).getD j 0 =
        toInt32 (times.getD (i + j) 0) (times.getD (i + j - 1) 0) := by
  induction stations with
  | nil => intro i j hj; simp at hj
  | cons s rest ih =>
    intro i j hj
    cases j with
    | zero => simp [waySteps]
    | succ j =>
      simp only [waySteps, List.map_cons, List.getD_cons_succ]
      rw [ih (i + 1) j (by simpa using hj)]
      have h1 : i + 1 + j = i + (j + 1) := by omega
      rw [h1]

theorem backSteps_getD (times : List Nat) (stations : List String) :
    ∀ (i : Int) (j : Nat), j < stations.length →
      ((backSteps times stations i).map Prod.snd).getD j 0 =
        toInt32 (times.getD (i - j + 1).toNat 0) (times.getD (i - j).toNat 0) := by
  induction stations with
  | nil => intro i j hj; simp at hj
  | cons s rest ih =>
    intro i j hj
    cases j with
    | zero => simp [backSteps]
    | succ j =>
      simp only [backSteps, List.map_cons, List.getD_cons_succ]
      rw [ih (i - 1) j (by simpa using hj)]
      have h1 : i - 1 - (j : Int) = i - ((j + 1 : Nat) : Int) := by push_cast; ring
      rw [h1]

theorem lineArcs_some (lineName : String) (steps : List (String × Int)) :
    ∀ (l e0 : Nat), lineArcs lineName steps (some l) (l + 1) e0 =
      (List.range steps.length).map (fun k =>
        ⟨e0 + k, l + k, l + (k + 1), (((steps.map Prod.snd).getD k 0 : Int) : ℚ),
          lineName, false⟩) := by
  induction steps with
  | nil => intro l e0; rfl
  | cons p rest ih =>
    intro l e0
    obtain ⟨s, tt⟩ := p
    simp only [lineArcs, List.length_cons, List.range_succ_eq_map, List.map_cons, List.map_map]
    rw [ih (l + 1) (e0 + 1)]
    congr 1
    apply List.map_congr_left
    intro k _
    simp only [Function.comp, List.getD_cons_succ, ArcRecord.mk.injEq, and_true, true_and]
    omega

/-- The travel arcs of a visit that starts without previous node. -/
theorem lineArcs_none (lineName : String) (steps : List (String × Int)) (n0 e0 : Nat) :
    lineArcs lineName steps none n0 e0 =
      (List.range (steps.length - 1)).map (fun k =>
        ⟨e0 + k, n0 + k, n0 + (k + 1), (((steps.map Prod.snd).getD (k + 1) 0 : Int) : ℚ),
          lineName, false⟩) := by
  cases steps with
  | nil => rfl
  | cons p rest =>
    obtain ⟨s, tt⟩ := p
    simp only [lineArcs, List.length_cons, Nat.add_sub_cancel, List.map_cons,
      List.getD_cons_succ]
    exact lineArcs_some lineName rest n0 e0

theorem lineArcs_none_length (lineName : String) (steps : List (String × Int)) (n0 e0 : Nat) :
    (lineArcs lineName steps none n0 e0).length = steps.length - 1 := by
  rw [lineArcs_none]
  simp

/-- The forward visit of a line creates the forward arcs of the specification. -/
theorem lineArcs_way (line : Line) (n0 e0 : Nat) :
    lineArcs line.name (waySteps line.times line.stations 0) none n0 e0 =
      forwardArcs line n0 e0 := by
  rw [lineArcs_none, waySteps_length, forwardArcs]
  apply List.map_congr_left
  intro k hk
  have hk' : k + 1 < line.stations.length := by
    have := List.mem_range.1 hk; omega
  rw [waySteps_getD line.times line.stations 0 (k + 1) hk']
  simp [Line.delta]

/-- The reverse visit of a line creates the reverse arcs of the specification. -/
theorem lineArcs_back (line : Line) (n0 e0 : Nat) :
    lineArcs line.name
        (backSteps line.times line.stations.reverse ((line.stations.length : Int) - 1)) none
        n0 e0 =
      reverseArcs line n0 e0 := by
  rw [lineArcs_none, backSteps_length, List.length_reverse, reverseArcs]
  apply List.map_congr_left
  intro k hk
  have hk' : k + 1 < line.stations.length := by
    have := List.mem_range.1 hk; omega
  rw [backSteps_getD line.times line.stations.reverse _ (k + 1)
    (by rw [List.length_reverse]; exact hk')]
  have h1 : ((line.stations.length : Int) - 1 - ((k + 1 : Nat) : Int) + 1).toNat =
      line.stations.length - 1 - k := by omega
  have h2 : ((line.stations.length : Int) - 1 - ((k + 1 : Nat) : Int)).toNat =
      line.stations.length - 1 - k - 1 := by omega
  rw [h1, h2]
  rfl

theorem neededTimes_none (steps : List (String × Int)) :
    neededTimes steps none = (steps.map Prod.snd).tail := by
  cases steps <;> rfl

theorem mem_tail_iff_getD (l : List Int) (t : Int) :
    t ∈ l.tail ↔ ∃ j, j + 1 < l.length ∧ l.getD (j + 1) 0 = t := by
  cases l with
  | nil => simp
  | cons a rest =>
    simp only [List.tail_cons, List.length_cons, List.getD_cons_succ]
    rw [List.mem_iff_getElem]
    constructor
    · rintro ⟨j, hj, h⟩
      refine ⟨j, by omega, ?_⟩
      rw [List.getD_eq_getElem _ _ hj]
      exact h
    · rintro ⟨j, hj, h⟩
      have hj' : j < rest.length := by omega
      refine ⟨j, hj', ?_⟩
      rw [List.getD_eq_getElem _ _ hj'] at h
      exact h

/-- The travel times the forward visit of a line needs are its deltas. -/
theorem neededTimes_way (line : Line) :
    (∀ t ∈ neededTimes (waySteps line.times line.stations 0) none, 0 < t) ↔
      line.DeltasPositive := by
  rw [neededTimes_none]
  constructor
  · intro h i h1 h2
    obtain ⟨j, rfl⟩ : ∃ j, i = j + 1 := ⟨i - 1, by omega⟩
    have := h _ ((mem_tail_iff_getD _ _).2 ⟨j, by
      rw [List.length_map, waySteps_length]; exact h2, rfl⟩)
    rw [waySteps_getD _ _ 0 (j + 1) h2] at this
    simpa [Line.delta] using this
  · intro h t ht
    obtain ⟨j, hj, rfl⟩ := (mem_tail_iff_getD _ _).1 ht
    rw [List.length_map, waySteps_length] at hj
    rw [waySteps_getD _ _ 0 (j + 1) hj]
    have := h (j + 1) (by omega) hj
    simpa [Line.delta] using this

/-- The travel times the reverse visit of a line needs are its deltas. -/
theorem neededTimes_back (line : Line) :
    (∀ t ∈ neededTimes
        (backSteps line.times line.stations.reverse ((line.stations.length : Int) - 1)) none,
        0 < t) ↔ line.DeltasPositive := by
  rw [neededTimes_none]
  have hval : ∀ j, j + 1 < line.stations.length →
      ((backSteps line.times line.stations.reverse
        ((line.stations.length : Int) - 1)).map Prod.snd).getD (j + 1) 0 =
        line.delta (line.stations.length - 1 - j) := by
    intro j hj
    rw [backSteps_getD line.times line.stations.reverse _ (j + 1)
      (by rw [List.length_reverse]; exact hj)]
    have h1 : ((line.stations.length : Int) - 1 - ((j + 1 : Nat) : Int) + 1).toNat =
        line.stations.length - 1 - j := by omega
    have h2 : ((line.stations.length : Int) - 1 - ((j + 1 : Nat) : Int)).toNat =
        line.stations.length - 1 - j - 1 := by omega
    rw [h1, h2]
    rfl
  constructor
  · intro h i h1 h2
    have hj : (line.stations.length - 1 - i) + 1 < line.stations.length := by omega
    have := h _ ((mem_tail_iff_getD _ _).2 ⟨line.stations.length - 1 - i, by
      rw [List.length_map, backSteps_length, List.length_reverse]; exact hj, rfl⟩)
    rw [hval _ hj] at this
    have h3 : line.stations.length - 1 - (line.stations.length - 1 - i) = i := by omega
    rw [h3] at this
    exact this
  · intro h t ht
    obtain ⟨j, hj, rfl⟩ := (mem_tail_iff_getD _ _).1 ht
    rw [List.length_map, backSteps_length, List.length_reverse] at hj
    rw [hval j hj]
    exact h _ (by omega) (by omega)

end TravelShape

/-! ### All lines -/

section TravelLines

open GraphBuilder

theorem wayLines_sound (lines : t_linemap) :
    ∀ (b : GraphBuilder) (m : NodeMap) (b' : GraphBuilder) (m' : NodeMap),
      wayLines lines (b, m) = .ok (b', m') → Sound b → MapIn b m →
      Sound b' ∧ MapIn b' m' ∧ (∀ n ∈ b._g.nodes, n ∈ b'._g.nodes) ∧
        b'._stations = b._stations ∧ b'._lines = b._lines ∧
        b'._change_cost = b._change_cost ∧ b'._switch_cost = b._switch_cost := by
  induction lines with
  | nil =>
    intro b m b' m' h hs hm
    simp only [wayLines, Except.ok.injEq, Prod.mk.injEq] at h
    obtain ⟨rfl, rfl⟩ := h
    exact ⟨hs, hm, fun _ h => h, rfl, rfl, rfl, rfl⟩
  | cons it rest ih =>
    intro b m b' m' h hs hm
    simp only [wayLines] at h
    split at h
    · exact absurd h (by simp)
    · rename_i st1 h1
      obtain ⟨b1, m1⟩ := st1
      rw [wayLoop_eq] at h1
      obtain ⟨g1, g2, g3, g4, g5, g6, g7⟩ :=
        lineLoop_sound _ _ _ _ _ _ _ h1 hs hm (fun l hl => by simp at hl)
      obtain ⟨k1, k2, k3, k4, k5, k6, k7⟩ := ih _ _ _ _ h g1 g2
      exact ⟨k1, k2, fun n hn => k3 n (g3 n hn), k4.trans g4, k5.trans g5, k6.trans g6,
        k7.trans g7⟩

theorem backLines_sound (lines : t_linemap) :
    ∀ (b : GraphBuilder) (m : NodeMap) (b' : GraphBuilder) (m' : NodeMap),
      backLines lines (b, m) = .ok (b', m') → Sound b → MapIn b m →
      Sound b' ∧ MapIn b' m' ∧ (∀ n ∈ b._g.nodes, n ∈ b'._g.nodes) ∧
        b'._stations = b._stations ∧ b'._lines = b._lines ∧
        b'._change_cost = b._change_cost ∧ b'._switch_cost = b._switch_cost := by
  induction lines with
  | nil =>
    intro b m b' m' h hs hm
    simp only [backLines, Except.ok.injEq, Prod.mk.injEq] at h
    obtain ⟨rfl, rfl⟩ := h
    exact ⟨hs, hm, fun _ h => h, rfl, rfl, rfl, rfl⟩
  | cons it rest ih =>
    intro b m b' m' h hs hm
    simp only [backLines] at h
    split at h
    · exact absurd h (by simp)
    · rename_i st1 h1
      obtain ⟨b1, m1⟩ := st1
      rw [backLoop_eq] at h1
      obtain ⟨g1, g2, g3, g4, g5, g6, g7⟩ :=
        lineLoop_sound _ _ _ _ _ _ _ h1 hs hm (fun l hl => by simp at hl)
      obtain ⟨k1, k2, k3, k4, k5, k6, k7⟩ := ih _ _ _ _ h g1 g2
      exact ⟨k1, k2, fun n hn => k3 n (g3 n hn), k4.trans g4, k5.trans g5, k6.trans g6,
        k7.trans g7⟩

theorem totalStops_cons (it : String × Line) (rest : t_linemap) :
    totalStops (it :: rest) = it.2.stations.length + totalStops rest := by
  simp [totalStops]

theorem totalSegments_cons (it : String × Line) (rest : t_linemap) :
    totalSegments (it :: rest) = (it.2.stations.length - 1) + totalSegments rest := by
  simp [totalSegments]

theorem range_append_range (s m n : Nat) :
    List.range' s m ++ List.range' (s + m) n = List.range' s (m + n) := by
  rw [List.range'_append_1, Nat.add_comm]

/-- The nodes and arcs the first outer loop adds. -/
theorem wayLines_shape (lines : t_linemap) :
    ∀ (b : GraphBuilder) (m : NodeMap) (b' : GraphBuilder) (m' : NodeMap),
      wayLines lines (b, m) = .ok (b', m') → b.Fresh →
      b'.Fresh ∧
        b'._g.nodes = b._g.nodes ++ List.range' b._g.nextNode (totalStops lines) ∧
        b'._g.nextNode = b._g.nextNode + totalStops lines ∧
        b'._g.nodes.map b'._node_names =
          b._g.nodes.map b._node_names ++ lines.flatMap (fun it => it.2.stations) ∧
        b'.arcRecords =
          b.arcRecords ++ allLineArcs forwardArcs lines b._g.nextNode b._g.nextEdge ∧
        b'._g.nextEdge = b._g.nextEdge + totalSegments lines := by
  induction lines with
  | nil =>
    intro b m b' m' h hf
    simp only [wayLines, Except.ok.injEq, Prod.mk.injEq] at h
    obtain ⟨rfl, rfl⟩ := h
    simp [allLineArcs, totalStops, totalSegments, hf]
  | cons it rest ih =>
    intro b m b' m' h hf
    simp only [wayLines] at h
    split at h
    · exact absurd h (by simp)
    · rename_i st1 h1
      obtain ⟨b1, m1⟩ := st1
      rw [wayLoop_eq] at h1
      obtain ⟨g1, g2, g3, g4, g5, g6⟩ := lineLoop_shape _ _ _ _ _ _ _ h1 hf
      rw [waySteps_length] at g2 g3
      rw [waySteps_fst] at g4
      rw [lineArcs_way] at g5
      rw [lineArcs_none_length, waySteps_length] at g6
      obtain ⟨k1, k2, k3, k4, k5, k6⟩ := ih _ _ _ _ h g1
      refine ⟨k1, ?_, ?_, ?_, ?_, ?_⟩
      · rw [k2, g2, g3, List.append_assoc, range_append_range, totalStops_cons]
      · rw [k3, g3, totalStops_cons]; omega
      · rw [k4, g4, List.flatMap_cons, List.append_assoc]
      · rw [k5, g5, g3, g6, List.append_assoc]; rfl
      · rw [k6, g6, totalSegments_cons]; omega

/-- The nodes and arcs the second outer loop adds. -/
theorem backLines_shape (lines : t_linemap) :
    ∀ (b : GraphBuilder) (m : NodeMap) (b' : GraphBuilder) (m' : NodeMap),
      backLines lines (b, m) = .ok (b', m') → b.Fresh →
      b'.Fresh ∧
        b'._g.nodes = b._g.nodes ++ List.range' b._g.nextNode (totalStops lines) ∧
        b'._g.nextNode = b._g.nextNode + totalStops lines ∧
        b'._g.nodes.map b'._node_names =
          b._g.nodes.map b._node_names ++ lines.flatMap (fun it => it.2.stations.reverse) ∧
        b'.arcRecords =
          b.arcRecords ++ allLineArcs reverseArcs lines b._g.nextNode b._g.nextEdge ∧
        b'._g.nextEdge = b._g.nextEdge + totalSegments lines := by
  induction lines with
  | nil =>
    intro b m b' m' h hf
    simp only [backLines, Except.ok.injEq, Prod.mk.injEq] at h
    obtain ⟨rfl, rfl⟩ := h
    simp [allLineArcs, totalStops, totalSegments, hf]
  | cons it rest ih =>
    intro b m b' m' h hf
    simp only [backLines] at h
    split at h
    · exact absurd h (by simp)
    · rename_i st1 h1
      obtain ⟨b1, m1⟩ := st1
      rw [backLoop_eq] at h1
      obtain ⟨g1, g2, g3, g4, g5, g6⟩ := lineLoop_shape _ _ _ _ _ _ _ h1 hf
      rw [backSteps_length, List.length_reverse] at g2 g3
      rw [backSteps_fst] at g4
      rw [lineArcs_back] at g5
      rw [lineArcs_none_length, backSteps_length, List.length_reverse] at g6
      obtain ⟨k1, k2, k3, k4, k5, k6⟩ := ih _ _ _ _ h g1
      refine ⟨k1, ?_, ?_, ?_, ?_, ?_⟩
      · rw [k2, g2, g3, List.append_assoc, range_append_range, totalStops_cons]
      · rw [k3, g3, totalStops_cons]; omega
      · rw [k4, g4, List.flatMap_cons, List.append_assoc]
      · rw [k5, g5, g3, g6, List.append_assoc]; rfl
      · rw [k6, g6, totalSegments_cons]; omega

/-- The first outer loop succeeds when the deltas of all lines are positive. -/
theorem wayLines_ok (lines : t_linemap) :
    ∀ st : GraphBuilder × NodeMap, (∀ it ∈ lines, it.2.DeltasPositive) →
      ∃ st', wayLines lines st = .ok st' := by
  induction lines with
  | nil => intro st _; exact ⟨st, rfl⟩
  | cons it rest ih =>
    intro st h
    obtain ⟨st1, h1⟩ := lineLoop_ok it.2.name (waySteps it.2.times it.2.stations 0) none st
      ((neededTimes_way it.2).2 (h it (List.mem_cons_self _ _)))
    obtain ⟨st2, h2⟩ := ih st1 (fun it' h' => h it' (List.mem_cons_of_mem _ h'))
    refine ⟨st2, ?_⟩
    simp only [wayLines]
    rw [wayLoop_eq, h1]
    exact h2

/-- The second outer loop succeeds when the deltas of all lines are positive. -/
theorem backLines_ok (lines : t_linemap) :
    ∀ st : GraphBuilder × NodeMap, (∀ it ∈ lines, it.2.DeltasPositive) →
      ∃ st', backLines lines st = .ok st' := by
  induction lines with
  | nil => intro st _; exact ⟨st, rfl⟩
  | cons it rest ih =>
    intro st h
    obtain ⟨st1, h1⟩ := lineLoop_ok it.2.name
      (backSteps it.2.times it.2.stations.reverse ((it.2.stations.length : Int) - 1)) none st
      ((neededTimes_back it.2).2 (h it (List.mem_cons_self _ _)))
    obtain ⟨st2, h2⟩ := ih st1 (fun it' h' => h it' (List.mem_cons_of_mem _ h'))
    refine ⟨st2, ?_⟩
    simp only [backLines]
    rw [backLoop_eq, h1]
    exact h2

/-- The first outer loop fails with the assertion on the travel time when a
delta of some line is not positive. -/
theorem wayLines_error (lines : t_linemap) :
    ∀ st : GraphBuilder × NodeMap, (∃ it ∈ lines, ¬ it.2.DeltasPositive) →
      wayLines lines st = .error assertTravelTime := by
  induction lines with
  | nil => intro st h; obtain ⟨it, hit, _⟩ := h; simp at hit
  | cons it rest ih =>
    intro st h
    simp only [wayLines]
    rw [wayLoop_eq]
    by_cases hd : it.2.DeltasPositive
    · obtain ⟨st1, h1⟩ := lineLoop_ok it.2.name (waySteps it.2.times it.2.stations 0) none st
        ((neededTimes_way it.2).2 hd)
      rw [h1]
      apply ih
      obtain ⟨it', hit', hneg⟩ := h
      rcases List.mem_cons.1 hit' with h2 | h2
      · subst h2; exact absurd hd hneg
      · exact ⟨it', h2, hneg⟩
    · have hex : ∃ t ∈ neededTimes (waySteps it.2.times it.2.stations 0) none, ¬ 0 < t := by
        by_contra hcon
        push_neg at hcon
        exact hd ((neededTimes_way it.2).1 hcon)
      rw [lineLoop_error _ _ _ _ hex]

end TravelLines

/-! ### The function `createNodesAndTravelArcs` -/

section TravelPhase

open GraphBuilder

/-- The function `createNodesAndTravelArcs` keeps the graph sound. -/
theorem createNodesAndTravelArcs_sound (b : GraphBuilder) (way back : NodeMap)
    (b' : GraphBuilder) (way' back' : NodeMap)
    (h : createNodesAndTravelArcs b way back = .ok (b', way', back'))
    (hs : Sound b) (hw : MapIn b way) (hk : MapIn b back) :
    Sound b' ∧ MapIn b' way' ∧ MapIn b' back' ∧
      b'._stations = b._stations ∧ b'._lines = b._lines ∧
      b'._change_cost = b._change_cost ∧ b'._switch_cost = b._switch_cost := by
  simp only [createNodesAndTravelArcs] at h
  split at h
  · exact absurd h (by simp)
  · rename_i b1 way1 h1
    split at h
    · exact absurd h (by simp)
    · rename_i b2 back1 h2
      simp only [Except.ok.injEq, Prod.mk.injEq] at h
      obtain ⟨rfl, rfl, rfl⟩ := h
      obtain ⟨g1, g2, g3, g4, g5, g6, g7⟩ := wayLines_sound _ _ _ _ _ h1 hs hw
      have hk1 : MapIn b1 back := fun l s n hn => g3 n (hk l s n hn)
      obtain ⟨k1, k2, k3, k4, k5, k6, k7⟩ := backLines_sound _ _ _ _ _ h2 g1 hk1
      exact ⟨k1, fun l s n hn => k3 n (g2 l s n hn), k2, k4.trans g4, k5.trans g5,
        k6.trans g6, k7.trans g7⟩

/-- The nodes and arcs `createNodesAndTravelArcs` adds. -/
theorem createNodesAndTravelArcs_shape (b : GraphBuilder) (way back : NodeMap)
    (b' : GraphBuilder) (way' back' : NodeMap)
    (h : createNodesAndTravelArcs b way back = .ok (b', way', back'))
    (hs : Sound b) (hw : MapIn b way) :
    b'.Fresh ∧
      b'._g.nodes = b._g.nodes ++ List.range' b._g.nextNode (2 * totalStops b._lines) ∧
      b'._g.nextNode = b._g.nextNode + 2 * totalStops b._lines ∧
      b'._g.nodes.map b'._node_names =
        b._g.nodes.map b._node_names ++
          (b._lines.flatMap (fun it => it.2.stations) ++
            b._lines.flatMap (fun it => it.2.stations.reverse)) ∧
      b'.arcRecords =
        b.arcRecords ++
          (allLineArcs forwardArcs b._lines b._g.nextNode b._g.nextEdge ++
            allLineArcs reverseArcs b._lines (b._g.nextNode + totalStops b._lines)
              (b._g.nextEdge + totalSegments b._lines)) ∧
      b'._g.nextEdge = b._g.nextEdge + 2 * totalSegments b._lines := by
  simp only [createNodesAndTravelArcs] at h
  split at h
  · exact absurd h (by simp)
  · rename_i b1 way1 h1
    split at h
    · exact absurd h (by simp)
    · rename_i b2 back1 h2
      simp only [Except.ok.injEq, Prod.mk.injEq] at h
      obtain ⟨rfl, rfl, rfl⟩ := h
      obtain ⟨-, -, -, -, hl, -, -⟩ := wayLines_sound _ _ _ _ _ h1 hs hw
      obtain ⟨g1, g2, g3, g4, g5, g6⟩ := wayLines_shape _ _ _ _ _ h1 hs.1
      obtain ⟨k1, k2, k3, k4, k5, k6⟩ := backLines_shape _ _ _ _ _ h2 g1
      rw [hl] at k2 k3 k4 k5 k6
      refine ⟨k1, ?_, ?_, ?_, ?_, ?_⟩
      · rw [k2, g2, g3, List.append_assoc, range_append_range, Nat.two_mul]
      · rw [k3, g3]; omega
      · rw [k4, g4, List.append_assoc]
      · rw [k5, g5, g3, g6, List.append_assoc]
      · rw [k6, g6]; omega

/-- The function `createNodesAndTravelArcs` succeeds exactly when all deltas of
all lines are positive, and fails with the assertion on the travel time
otherwise. -/
theorem createNodesAndTravelArcs_ok_iff (b : GraphBuilder) (way back : NodeMap)
    (hs : Sound b) (hw : MapIn b way) :
    ((∃ r, createNodesAndTravelArcs b way back = .ok r) ↔
        ∀ it ∈ b._lines, it.2.DeltasPositive) ∧
      ((∃ it ∈ b._lines, ¬ it.2.DeltasPositive) →
        createNodesAndTravelArcs b way back = .error assertTravelTime) := by
  have herr : (∃ it ∈ b._lines, ¬ it.2.DeltasPositive) →
      createNodesAndTravelArcs b way back = .error assertTravelTime := by
    intro hex
    simp only [createNodesAndTravelArcs]
    rw [wayLines_error _ _ hex]
  refine ⟨⟨?_, ?_⟩, herr⟩
  · rintro ⟨r, hr⟩
    by_contra hcon
    push_neg at hcon
    rw [herr hcon] at hr
    exact absurd hr (by simp)
  · intro hall
    obtain ⟨⟨b1, way1⟩, h1⟩ := wayLines_ok b._lines (b, way) hall
    obtain ⟨-, -, -, -, hl, -, -⟩ := wayLines_sound _ _ _ _ _ h1 hs hw
    obtain ⟨⟨b2, back1⟩, h2⟩ := backLines_ok b1._lines (b1, back) (by rw [hl]; exact hall)
    refine ⟨(b2, way1, back1), ?_⟩
    simp only [createNodesAndTravelArcs]
    rw [h1]
    simp only
    rw [h2]

/-- A positive delta of nondecreasing times is their difference. -/
theorem delta_eq_sub (line : Line) (i : Nat) (hpos : 0 < line.delta i)
    (hmono : line.times.getD (i - 1) 0 ≤ line.times.getD i 0)
    (hrange : line.times.getD i 0 < 2 ^ 32) :
    line.delta i = (line.times.getD i 0 : Int) - (line.times.getD (i - 1) 0 : Int) := by
  simp only [Line.delta, toInt32] at hpos ⊢
  have h1 : line.times.getD i 0 % 2 ^ 32 = line.times.getD i 0 := Nat.mod_eq_of_lt hrange
  have h2 : line.times.getD (i - 1) 0 % 2 ^ 32 = line.times.getD (i - 1) 0 :=
    Nat.mod_eq_of_lt (by omega)
  rw [h1, h2] at hpos ⊢
  have h3 : (line.times.getD i 0 + 2 ^ 32 - line.times.getD (i - 1) 0) % 2 ^ 32 =
      line.times.getD i 0 - line.times.getD (i - 1) 0 := by
    have : line.times.getD i 0 + 2 ^ 32 - line.times.getD (i - 1) 0 =
        (line.times.getD i 0 - line.times.getD (i - 1) 0) + 2 ^ 32 := by omega
    rw [this, Nat.add_mod_right]
    exact Nat.mod_eq_of_lt (by omega)
  rw [h3] at hpos ⊢
  split
  · omega
  · rename_i hge
    rw [if_neg hge] at hpos
    omega

end TravelPhase

/-! ### The arcs added after the travel arcs join nodes of the node maps -/

section SpecialTrace

open GraphBuilder

theorem inMaps_way (way back : NodeMap) (l s : String) : InMaps way back (way l s) :=
  ⟨l, s, Or.inl rfl⟩

theorem inMaps_back (way back : NodeMap) (l s : String) : InMaps way back (back l s) :=
  ⟨l, s, Or.inr rfl⟩

theorem inMaps_fullSwitches (way back : NodeMap) (l s : String) :
    ∀ q ∈ fullSwitches way back l s, InMaps way back q.1 ∧ InMaps way back q.2 := by
  intro q hq
  simp only [fullSwitches, List.mem_cons, List.mem_singleton, List.not_mem_nil, or_false] at hq
  rcases hq with h | h <;> subst h
  · exact ⟨inMaps_way _ _ _ _, inMaps_back _ _ _ _⟩
  · exact ⟨inMaps_back _ _ _ _, inMaps_way _ _ _ _⟩

theorem inMaps_allSwitchingPlan (way back : NodeMap) (lines : t_linemap) :
    ∀ q ∈ allSwitchingPlan way back lines, InMaps way back q.1 ∧ InMaps way back q.2 := by
  intro q hq
  simp only [allSwitchingPlan, List.mem_flatMap] at hq
  obtain ⟨it, _, s, _, h⟩ := hq
  exact inMaps_fullSwitches way back _ _ q h

theorem inMaps_terminalSwitch (way back : NodeMap) (l : String) (i : Nat) (s : String) :
    InMaps way back (terminalSwitch way back l i s).1 ∧
      InMaps way back (terminalSwitch way back l i s).2 := by
  simp only [terminalSwitch]
  split
  · exact ⟨inMaps_back _ _ _ _, inMaps_way _ _ _ _⟩
  · exact ⟨inMaps_way _ _ _ _, inMaps_back _ _ _ _⟩

theorem inMaps_terminalPlanLine (way back : NodeMap) (l : String) (sts : List String)
    (en : List (Nat × String)) :
    ∀ q ∈ terminalPlanLine way back l sts en, InMaps way back q.1 ∧ InMaps way back q.2 := by
  induction en with
  | nil => intro q hq; simp [terminalPlanLine] at hq
  | cons p rest ih =>
    intro q hq
    obtain ⟨i, s⟩ := p
    simp only [terminalPlanLine, List.mem_append] at hq
    rcases hq with h | h
    · split at h
      · rw [List.mem_singleton] at h
        subst h
        exact inMaps_terminalSwitch way back l i s
      · simp at h
    · exact ih q h

theorem inMaps_terminalPlan (way back : NodeMap) (lines : t_linemap) :
    ∀ q ∈ terminalPlan way back lines, InMaps way back q.1 ∧ InMaps way back q.2 := by
  intro q hq
  simp only [terminalPlan, List.mem_flatMap] at hq
  obtain ⟨it, _, h⟩ := hq
  exact inMaps_terminalPlanLine way back _ _ _ q h

theorem inMaps_restrictedSwitchesAt (sm : t_stationmap) (way back : NodeMap) (l : String)
    (sts : List String) (i : Nat) (s : String) :
    ∀ q ∈ restrictedSwitchesAt sm way back l sts i s,
      InMaps way back q.1 ∧ InMaps way back q.2 := by
  intro q hq
  simp only [restrictedSwitchesAt] at hq
  split at hq
  · simp at hq
  · split at hq
    · rw [List.mem_singleton] at hq
      subst hq
      exact inMaps_terminalSwitch way back l i s
    · split at hq
      · rw [List.mem_append] at hq
        rcases hq with h | h
        · split at h
          · rw [List.mem_singleton] at h
            subst h
            exact ⟨inMaps_way _ _ _ _, inMaps_back _ _ _ _⟩
          · simp at h
        · split at h
          · rw [List.mem_singleton] at h
            subst h
            exact ⟨inMaps_back _ _ _ _, inMaps_way _ _ _ _⟩
          · simp at h
      · simp at hq

theorem inMaps_restrictedPlanLine (sm : t_stationmap) (way back : NodeMap) (l : String)
    (sts : List String) (en : List (Nat × String)) :
    ∀ q ∈ restrictedPlanLine sm way back l sts en,
      InMaps way back q.1 ∧ InMaps way back q.2 := by
  induction en with
  | nil => intro q hq; simp [restrictedPlanLine] at hq
  | cons p rest ih =>
    intro q hq
    obtain ⟨i, s⟩ := p
    simp only [restrictedPlanLine, List.mem_append] at hq
    rcases hq with h | h
    · exact inMaps_restrictedSwitchesAt sm way back l sts i s q h
    · exact ih q h

theorem inMaps_restrictedPlan (sm : t_stationmap) (way back : NodeMap) (lines : t_linemap) :
    ∀ q ∈ restrictedPlan sm way back lines, InMaps way back q.1 ∧ InMaps way back q.2 := by
  intro q hq
  simp only [restrictedPlan, List.mem_flatMap] at hq
  obtain ⟨it, _, h⟩ := hq
  exact inMaps_restrictedPlanLine sm way back _ _ _ q h

theorem inMaps_switchingPlan (sm : t_stationmap) (way back : NodeMap) (lines : t_linemap)
    (type : ProblemType) (preprocess : Bool) :
    ∀ q ∈ switchingPlan sm way back lines type preprocess,
      InMaps way back q.1 ∧ InMaps way back q.2 := by
  intro q hq
  simp only [switchingPlan] at hq
  split at hq
  · exact inMaps_allSwitchingPlan way back lines q hq
  · split at hq
    · exact inMaps_terminalPlan way back lines q hq
    · exact inMaps_restrictedPlan sm way back lines q hq

theorem inMaps_connectionPairs (way back : NodeMap) (s l l2 : String) :
    ∀ q ∈ connectionPairs way back s l l2, InMaps way back q.1 ∧ InMaps way back q.2 := by
  intro q hq
  simp only [connectionPairs, List.mem_cons, List.mem_singleton, List.not_mem_nil,
    or_false] at hq
  rcases hq with h | h | h | h | h | h | h | h <;> subst h <;>
    first
    | exact ⟨inMaps_way _ _ _ _, inMaps_way _ _ _ _⟩
    | exact ⟨inMaps_way _ _ _ _, inMaps_back _ _ _ _⟩
    | exact ⟨inMaps_back _ _ _ _, inMaps_way _ _ _ _⟩
    | exact ⟨inMaps_back _ _ _ _, inMaps_back _ _ _ _⟩

theorem inMaps_transferPlan (way back : NodeMap) (stations : t_stationmap) :
    ∀ q ∈ transferPlan way back stations, InMaps way back q.1 ∧ InMaps way back q.2 := by
  intro q hq
  simp only [transferPlan, List.mem_flatMap] at hq
  obtain ⟨it, _, p, _, h⟩ := hq
  exact inMaps_connectionPairs way back _ _ _ q h

/-- The end nodes of the calls of a plan are nodes of the graph. -/
theorem plan_nodes (b : GraphBuilder) (way back : NodeMap) (hw : MapIn b way)
    (hk : MapIn b back) (plan : List (Option Nat × Option Nat))
    (hp : ∀ q ∈ plan, InMaps way back q.1 ∧ InMaps way back q.2)
    (arcs : List (Nat × Nat)) (h : arcs.map somePair = plan) :
    ∀ p ∈ arcs, p.1 ∈ b._g.nodes ∧ p.2 ∈ b._g.nodes := by
  intro p hmem
  have hq : somePair p ∈ plan := by
    rw [← h]
    exact List.mem_map_of_mem _ hmem
  obtain ⟨⟨l1, s1, h1⟩, ⟨l2, s2, h2⟩⟩ := hp _ hq
  simp only [somePair] at h1 h2
  constructor
  · rcases h1 with h1 | h1
    · exact hw l1 s1 _ h1.symm
    · exact hk l1 s1 _ h1.symm
  · rcases h2 with h2 | h2
    · exact hw l2 s2 _ h2.symm
    · exact hk l2 s2 _ h2.symm

theorem noArcs_addArcs (cost : ℚ) (arcs : List (Nat × Nat)) :
    ∀ b : GraphBuilder, (b.addArcs cost arcs).noArcs = b.noArcs := by
  induction arcs with
  | nil => intro b; rfl
  | cons p rest ih =>
    intro b
    rw [addArcs_cons, ih]
    rfl

/-- Arcs between nodes of the graph keep the graph sound. -/
theorem sound_addArcs (b : GraphBuilder) (hs : Sound b) (cost : ℚ) (arcs : List (Nat × Nat))
    (h : ∀ p ∈ arcs, p.1 ∈ b._g.nodes ∧ p.2 ∈ b._g.nodes) :
    Sound (b.addArcs cost arcs) := by
  obtain ⟨hN, hn, hE, hne, -⟩ := addArcs_fields cost arcs b
  obtain ⟨⟨h1, h2⟩, h3, h4⟩ := hs
  refine ⟨⟨?_, ?_⟩, ?_, ?_⟩
  · intro n; rw [hN, hn]; exact h1 n
  · intro e he
    rw [hE] at he
    rw [hne]
    rcases List.mem_append.1 he with h5 | h5
    · have := h2 e h5; omega
    · obtain ⟨i, hi, hid⟩ := (mem_arcsFrom _ _ _).1 h5
      have hlt : i < arcs.length := by
        by_contra hge
        rw [List.getElem?_eq_none (by omega)] at hi
        exact absurd hi (by simp)
      omega
  · intro e he
    rw [hE] at he
    rw [hN]
    rcases List.mem_append.1 he with h5 | h5
    · exact h3 e h5
    · obtain ⟨i, hi, -⟩ := (mem_arcsFrom _ _ _).1 h5
      exact h _ (List.getElem?_mem hi)
  · rw [noArcs_addArcs]; exact h4

theorem addSpecialArcs_eq (b : GraphBuilder) (way back : NodeMap) (type : ProblemType)
    (preprocess : Bool) (b2 : GraphBuilder)
    (h : b.addSpecialArcs way back type preprocess = .ok b2) :
    ∃ b1, runSwitches (switchingPlan b._stations way back b._lines type preprocess) b = .ok b1 ∧
      addAllConnectionArcs way back b1._stations b1 = .ok b2 := by
  simp only [addSpecialArcs] at h
  split at h
  · exact absurd h (by simp)
  · rename_i b1 h1
    refine ⟨b1, ?_, h⟩
    simp only [switchingPlan]
    split at h1
    · rename_i hp
      rw [if_pos hp, ← addAllSwitchingArcs_run]
      exact h1
    · rename_i hp
      rw [if_neg hp]
      split at h1
      · rename_i ht
        rw [if_pos ht, ← addSwitchingArcsAtTerminals_run]
        exact h1
      · rename_i ht
        rw [if_neg ht]
        exact addStationProblemSwitchingArcs_run _ _ _ _ _ h1

/-- The arcs `addSpecialArcs` adds: the switch arcs of the plan of the build
configuration, then a transfer arc for every call of `addConnectionEdge` whose
guard holds in the graph with the switch arcs. -/
theorem addSpecialArcs_trace (b : GraphBuilder) (way back : NodeMap) (type : ProblemType)
    (preprocess : Bool) (b2 : GraphBuilder) (hs : Sound b) (hw : MapIn b way)
    (hk : MapIn b back) (h : b.addSpecialArcs way back type preprocess = .ok b2) :
    ∃ switches transfers : List (Nat × Nat),
      switches.map somePair = switchingPlan b._stations way back b._lines type preprocess ∧
      transfers.map somePair = transferPlan way back b._stations ∧
      b2 = (b.addArcs b._switch_cost switches).addArcs b._change_cost
        (transfers.filter (transferGuard (b.addArcs b._switch_cost switches))) ∧
      Sound (b.addArcs b._switch_cost switches) ∧ Sound b2 := by
  obtain ⟨b1, h1, h2⟩ := addSpecialArcs_eq b way back type preprocess b2 h
  obtain ⟨switches, hsw, hb1⟩ := runSwitches_ok _ _ _ h1
  subst hb1
  obtain ⟨hN, -, -, -, -, -, -, hst, -, -, hcc, -, -⟩ := addArcs_fields b._switch_cost switches b
  have hs1 : Sound (b.addArcs b._switch_cost switches) :=
    sound_addArcs b hs _ _ (plan_nodes b way back hw hk _
      (inMaps_switchingPlan _ _ _ _ _ _) _ hsw)
  obtain ⟨calls, hcalls, hb2⟩ := addAllConnectionArcs_trace way back _ _ b2 hs1.1.2 h2
  rw [hst] at hcalls
  rw [hcc] at hb2
  refine ⟨switches, calls, hsw, hcalls, hb2, hs1, ?_⟩
  rw [hb2]
  apply sound_addArcs _ hs1
  intro p hp
  rw [hN]
  exact plan_nodes b way back hw hk _ (inMaps_transferPlan way back b._stations) calls hcalls p
    (List.mem_of_mem_filter hp)

end SpecialTrace

/-! ## Theorems: chain contraction -/

section Chain

open GraphBuilder

theorem removeChain_cons_ok (b : GraphBuilder) (n : Nat) (ns red : List Nat) (ein eout : Edge)
    (hin : b._g.inEdges n = [ein]) (hout : b._g.outEdges n = [eout])
    (hnm : b._arc_names ein.id = b._arc_names eout.id) :
    removeChain (n :: ns) (b, red) = removeChain ns (b.contractNode n ein eout, red ++ [n]) := by
  have hdeg : b._g.indeg n = 1 ∧ b._g.outdeg n = 1 := by
    simp [LGraph.indeg, LGraph.outdeg, hin, hout]
  simp only [removeChain]
  rw [if_neg (not_not.2 hdeg), hin, hout]
  simp only [List.head?_cons]
  rw [if_neg (not_not.2 hnm)]
  rfl

theorem removeChain_cons_inv (b : GraphBuilder) (n : Nat) (ns red : List Nat)
    (r : GraphBuilder × List Nat) (h : removeChain (n :: ns) (b, red) = .ok r) :
    ∃ ein eout, b._g.inEdges n = [ein] ∧ b._g.outEdges n = [eout] ∧
      b._arc_names ein.id = b._arc_names eout.id ∧
      removeChain ns (b.contractNode n ein eout, red ++ [n]) = .ok r := by
  have h0 := h
  unfold removeChain at h
  split at h
  · exact absurd h (by simp)
  · rename_i hdeg
    simp only [not_not] at hdeg
    split at h
    · rename_i in_edge out_edge hi ho
      split at h
      · exact absurd h (by simp)
      · rename_i hnames
        simp only [ne_eq, not_not] at hnames
        have hin : b._g.inEdges n = [in_edge] := by
          have hl : (b._g.inEdges n).length = 1 := hdeg.1
          match hm : b._g.inEdges n, hl with
          | [x], _ =>
            rw [hm] at hi
            simp only [List.head?_cons, Option.some.injEq] at hi
            rw [hi]
        have hout : b._g.outEdges n = [out_edge] := by
          have hl : (b._g.outEdges n).length = 1 := hdeg.2
          match hm : b._g.outEdges n, hl with
          | [x], _ =>
            rw [hm] at ho
            simp only [List.head?_cons, Option.some.injEq] at ho
            rw [ho]
        refine ⟨in_edge, out_edge, hin, hout, hnames, ?_⟩
        rw [← removeChain_cons_ok b n ns red in_edge out_edge hin hout hnames]
        exact h0
    · exact absurd h (by simp)

theorem contractNode_edges (b : GraphBuilder) (v : Nat) (ein eout : Edge) :
    (b.contractNode v ein eout)._g.edges =
      (b._g.edges ++ [Edge.mk b._g.nextEdge ein.src eout.tgt]).filter
        (fun e => e.src != v && e.tgt != v) := rfl

theorem contractNode_nodes (b : GraphBuilder) (v : Nat) (ein eout : Edge) :
    (b.contractNode v ein eout)._g.nodes = b._g.nodes.filter (fun n => n != v) := rfl

/-- One round of the loop keeps every arc between nodes of the graph. -/
theorem closed_contractNode (b : GraphBuilder) (v : Nat) (ein eout : Edge) (hc : b.Closed)
    (hin : ein ∈ b._g.edges) (hout : eout ∈ b._g.edges) :
    (b.contractNode v ein eout).Closed := by
  intro e he
  rw [contractNode_edges, List.mem_filter] at he
  rw [contractNode_nodes]
  obtain ⟨hmem, hnot⟩ := he
  simp only [Bool.and_eq_true, bne_iff_ne, ne_eq] at hnot
  have hends : e.src ∈ b._g.nodes ∧ e.tgt ∈ b._g.nodes := by
    rcases List.mem_append.1 hmem with h | h
    · exact hc e h
    · rw [List.mem_singleton] at h
      subst h
      exact ⟨(hc ein hin).1, (hc eout hout).2⟩
  exact ⟨List.mem_filter.2 ⟨hends.1, by simpa using hnot.1⟩,
    List.mem_filter.2 ⟨hends.2, by simpa using hnot.2⟩⟩

theorem freshIds_contractNode (b : GraphBuilder) (v : Nat) (ein eout : Edge) (hf : b.FreshIds) :
    (b.contractNode v ein eout).FreshIds := by
  intro e he
  rw [contractNode_edges, List.mem_filter] at he
  show e.id < b._g.nextEdge + 1
  rcases List.mem_append.1 he.1 with h | h
  · have := hf e h; omega
  · rw [List.mem_singleton] at h
    subst h
    simp

theorem removeChain_closed (l : List Nat) :
    ∀ (b : GraphBuilder) (red : List Nat) (r : GraphBuilder × List Nat),
      removeChain l (b, red) = .ok r → b.Closed → b.FreshIds → r.1.Closed ∧ r.1.FreshIds := by
  induction l with
  | nil =>
    intro b red r h hc hf
    simp only [removeChain, Except.ok.injEq] at h
    subst h
    exact ⟨hc, hf⟩
  | cons n ns ih =>
    intro b red r h hc hf
    obtain ⟨ein, eout, hin, hout, -, h1⟩ := removeChain_cons_inv b n ns red r h
    have hi : ein ∈ b._g.edges := by
      have : ein ∈ b._g.inEdges n := by rw [hin]; simp
      exact List.mem_of_mem_filter this
    have ho : eout ∈ b._g.edges := by
      have : eout ∈ b._g.outEdges n := by rw [hout]; simp
      exact List.mem_of_mem_filter this
    exact ih _ _ _ h1 (closed_contractNode b n ein eout hc hi ho)
      (freshIds_contractNode b n ein eout hf)

theorem removeChains_closed (type : ProblemType) (chains : List (List Nat)) :
    ∀ (st r : GraphBuilder × List Nat), removeChains type chains st = .ok r →
      st.1.Closed → st.1.FreshIds → r.1.Closed ∧ r.1.FreshIds := by
  induction chains with
  | nil =>
    intro st r h hc hf
    simp only [removeChains, Except.ok.injEq] at h
    subst h
    exact ⟨hc, hf⟩
  | cons list rest ih =>
    intro st r h hc hf
    simp only [removeChains] at h
    split at h
    · exact absurd h (by simp)
    · exact ih st r h hc hf
    · split at h
      · exact absurd h (by simp)
      · rename_i st1 h1
        obtain ⟨b, red⟩ := st
        obtain ⟨g1, g2⟩ := removeChain_closed list b red st1 h1 hc hf
        exact ih st1 r h g1 g2

/-- Preprocessing keeps every arc between nodes of the graph. -/
theorem preprocessGraph_closed (b b' : GraphBuilder) (type : ProblemType)
    (h : b.preprocessGraph type = .ok b') (hc : b.Closed) (hf : b.FreshIds) :
    b'.Closed ∧ b'.FreshIds := by
  unfold preprocessGraph at h
  split at h
  · exact absurd h (by simp)
  · rename_i chains _
    split at h
    · exact absurd h (by simp)
    · rename_i b1 red h1
      simp only [Except.ok.injEq] at h
      subst h
      exact removeChains_closed type chains (b, []) (b1, red) h1 hc hf

end Chain

/-! ### The arcs at the other nodes after one round -/

section ChainSteps

open GraphBuilder

theorem eq_out_of_src (b : GraphBuilder) (v : Nat) (eout e : Edge)
    (hout : b._g.outEdges v = [eout]) (he : e ∈ b._g.edges) (hs : e.src = v) : e = eout := by
  have : e ∈ b._g.outEdges v := List.mem_filter.2 ⟨he, by simpa using hs⟩
  rw [hout] at this
  simpa using this

theorem eq_in_of_tgt (b : GraphBuilder) (v : Nat) (ein e : Edge)
    (hin : b._g.inEdges v = [ein]) (he : e ∈ b._g.edges) (ht : e.tgt = v) : e = ein := by
  have : e ∈ b._g.inEdges v := List.mem_filter.2 ⟨he, by simpa using ht⟩
  rw [hin] at this
  simpa using this

theorem mem_of_inEdges (b : GraphBuilder) (v : Nat) (ein : Edge)
    (hin : b._g.inEdges v = [ein]) : ein ∈ b._g.edges ∧ ein.tgt = v := by
  have : ein ∈ b._g.inEdges v := by rw [hin]; simp
  have := List.mem_filter.1 this
  exact ⟨this.1, by simpa using this.2⟩

theorem mem_of_outEdges (b : GraphBuilder) (v : Nat) (eout : Edge)
    (hout : b._g.outEdges v = [eout]) : eout ∈ b._g.edges ∧ eout.src = v := by
  have : eout ∈ b._g.outEdges v := by rw [hout]; simp
  have := List.mem_filter.1 this
  exact ⟨this.1, by simpa using this.2⟩

theorem contract_inEdges (b : GraphBuilder) (v w : Nat) (ein eout : Edge) :
    (b.contractNode v ein eout)._g.inEdges w =
      b._g.edges.filter (fun e => (e.src != v && e.tgt != v) && e.tgt == w) ++
        (([Edge.mk b._g.nextEdge ein.src eout.tgt].filter
          (fun e => e.src != v && e.tgt != v)).filter (fun e => e.tgt == w)) := by
  rw [LGraph.inEdges, contractNode_edges, List.filter_append, List.filter_append,
    List.filter_filter]
  congr 1
  apply List.filter_congr
  intro e _
  rw [Bool.and_comm]

theorem contract_outEdges (b : GraphBuilder) (v w : Nat) (ein eout : Edge) :
    (b.contractNode v ein eout)._g.outEdges w =
      b._g.edges.filter (fun e => (e.src != v && e.tgt != v) && e.src == w) ++
        (([Edge.mk b._g.nextEdge ein.src eout.tgt].filter
          (fun e => e.src != v && e.tgt != v)).filter (fun e => e.src == w)) := by
  rw [LGraph.outEdges, contractNode_edges, List.filter_append, List.filter_append,
    List.filter_filter]
  congr 1
  apply List.filter_congr
  intro e _
  rw [Bool.and_comm]

/-- The arcs entering a node that is neither removed nor entered by the
removed leaving arc are as before. -/
theorem contract_inEdges_other (b : GraphBuilder) (v w : Nat) (ein eout : Edge)
    (hout : b._g.outEdges v = [eout]) (hwv : w ≠ v) (hw : w ≠ eout.tgt) :
    (b.contractNode v ein eout)._g.inEdges w = b._g.inEdges w := by
  rw [contract_inEdges]
  have h2 : (([Edge.mk b._g.nextEdge ein.src eout.tgt].filter
      (fun e => e.src != v && e.tgt != v)).filter (fun e => e.tgt == w)) = [] := by
    rw [List.filter_eq_nil_iff]
    intro e he
    have := List.mem_of_mem_filter he
    rw [List.mem_singleton] at this
    subst this
    simpa using fun h => hw h.symm
  rw [h2, List.append_nil, LGraph.inEdges]
  apply List.filter_congr
  intro e he
  by_cases ht : e.tgt = w
  · have h3 : e.src ≠ v := by
      intro hs
      have := eq_out_of_src b v eout e hout he hs
      subst this
      exact hw ht.symm
    have h4 : e.tgt ≠ v := by rw [ht]; exact hwv
    simp [ht, h3, hwv]
  · simp [ht]

/-- The arcs leaving a node that is neither removed nor the source of the
removed entering arc are as before. -/
theorem contract_outEdges_other (b : GraphBuilder) (v w : Nat) (ein eout : Edge)
    (hin : b._g.inEdges v = [ein]) (hwv : w ≠ v) (hw : w ≠ ein.src) :
    (b.contractNode v ein eout)._g.outEdges w = b._g.outEdges w := by
  rw [contract_outEdges]
  have h2 : (([Edge.mk b._g.nextEdge ein.src eout.tgt].filter
      (fun e => e.src != v && e.tgt != v)).filter (fun e => e.src == w)) = [] := by
    rw [List.filter_eq_nil_iff]
    intro e he
    have := List.mem_of_mem_filter he
    rw [List.mem_singleton] at this
    subst this
    simpa using fun h => hw h.symm
  rw [h2, List.append_nil, LGraph.outEdges]
  apply List.filter_congr
  intro e he
  by_cases hs : e.src = w
  · have h3 : e.tgt ≠ v := by
      intro ht
      have := eq_in_of_tgt b v ein e hin he ht
      subst this
      exact hw hs.symm
    simp [hs, h3, hwv]
  · simp [hs]

/-- The node after the removed one is entered by the new arc only. -/
theorem contract_inEdges_next (b : GraphBuilder) (v w : Nat) (ein eout : Edge)
    (hout : b._g.outEdges v = [eout]) (hinw : b._g.inEdges w = [eout]) (hwv : w ≠ v)
    (hsrc : ein.src ≠ v) :
    (b.contractNode v ein eout)._g.inEdges w = [Edge.mk b._g.nextEdge ein.src eout.tgt] := by
  rw [contract_inEdges]
  have htw : eout.tgt = w := (mem_of_inEdges b w eout hinw).2
  have hsv : eout.src = v := (mem_of_outEdges b v eout hout).2
  have h1 : b._g.edges.filter (fun e => (e.src != v && e.tgt != v) && e.tgt == w) = [] := by
    rw [List.filter_eq_nil_iff]
    intro e he
    by_cases ht : e.tgt = w
    · have := eq_in_of_tgt b w eout e hinw he ht
      subst this
      simp [hsv]
    · simp [ht]
  rw [h1, List.nil_append]
  simp [htw, hwv, hsrc]

end ChainSteps

/-! ### Contracting a whole chain -/

section ChainMain

open GraphBuilder

theorem chainFrom_mem (b : GraphBuilder) (q : Nat) :
    ∀ (vs : List Nat) (outs : List Edge) (e : Edge), b.ChainFrom e vs outs q →
      ∀ x ∈ outs, x ∈ b._g.edges := by
  intro vs
  induction vs with
  | nil =>
    intro outs e h x hx
    cases outs with
    | nil => simp at hx
    | cons o os => simp [ChainFrom] at h
  | cons v vs ih =>
    intro outs e h x hx
    cases outs with
    | nil => simp at hx
    | cons o os =>
      simp only [ChainFrom] at h
      rcases List.mem_cons.1 hx with h1 | h1
      · subst h1
        exact (mem_of_outEdges b v x h.2.1).1
      · exact ih os o h.2.2.2 x h1

theorem contractNode_old (b : GraphBuilder) (v : Nat) (ein eout : Edge) (i : Nat)
    (hi : i < b._g.nextEdge) :
    (b.contractNode v ein eout)._dist i = b._dist i ∧
      (b.contractNode v ein eout)._arc_names i = b._arc_names i ∧
      (b.contractNode v ein eout)._connection_arcs i = b._connection_arcs i := by
  simp [contractNode, Nat.ne_of_lt hi]

/-- A chain away from the removed node is still a chain after the round. -/
theorem chainFrom_contract (b : GraphBuilder) (v : Nat) (ein0 eout0 : Edge)
    (hin0 : b._g.inEdges v = [ein0]) (hout0 : b._g.outEdges v = [eout0]) (hf : b.FreshIds)
    (q : Nat) :
    ∀ (vs : List Nat) (outs : List Edge) (e : Edge), e ∈ b._g.edges →
      b.ChainFrom e vs outs q → (∀ w ∈ vs, w ≠ v ∧ w ≠ eout0.tgt ∧ w ≠ ein0.src) →
      (b.contractNode v ein0 eout0).ChainFrom e vs outs q := by
  intro vs
  induction vs with
  | nil =>
    intro outs e _ h _
    cases outs with
    | nil => exact h
    | cons o os => simp [ChainFrom] at h
  | cons w vs ih =>
    intro outs e he h hw
    cases outs with
    | nil => simp [ChainFrom] at h
    | cons o os =>
      simp only [ChainFrom] at h ⊢
      obtain ⟨h1, h2, h3, h4⟩ := h
      obtain ⟨hw1, hw2, hw3⟩ := hw w (List.mem_cons_self _ _)
      have ho : o ∈ b._g.edges := (mem_of_outEdges b w o h2).1
      refine ⟨?_, ?_, ?_, ?_⟩
      · rw [contract_inEdges_other b v w ein0 eout0 hout0 hw1 hw2]; exact h1
      · rw [contract_outEdges_other b v w ein0 eout0 hin0 hw1 hw3]; exact h2
      · rw [(contractNode_old b v ein0 eout0 e.id (hf e he)).2.1,
          (contractNode_old b v ein0 eout0 o.id (hf o ho)).2.1]
        exact h3
      · exact ih os o ho h4 (fun x hx => hw x (List.mem_cons_of_mem _ hx))

/-- The loop of `preprocessGraph` over a chain contracts the chain. -/
theorem removeChain_contracted (q : Nat) :
    ∀ (vs : List Nat) (v : Nat) (b : GraphBuilder) (ein : Edge) (outs : List Edge)
      (red : List Nat), b.FreshIds → b.ChainFrom ein (v :: vs) outs q → (v :: vs).Nodup →
      ein.src ∉ v :: vs → q ∉ v :: vs →
      ∃ b', removeChain (v :: vs) (b, red) = .ok (b', red ++ (v :: vs)) ∧
        b.Contracted ein (v :: vs) outs q b' := by
  intro vs
  induction vs with
  | nil =>
    intro v b ein outs red hf hch _ hp hq
    cases outs with
    | nil => simp [ChainFrom] at hch
    | cons eout os =>
      cases os with
      | cons o os' => simp [ChainFrom] at hch
      | nil =>
        simp only [ChainFrom] at hch
        obtain ⟨hin, hout, hnm, htq⟩ := hch
        have hpv : ein.src ≠ v := by simpa using hp
        have hqv : q ≠ v := by simpa using hq
        refine ⟨b.contractNode v ein eout, ?_, ?_⟩
        · rw [removeChain_cons_ok b v [] red ein eout hin hout hnm]
          rfl
        · refine ⟨?_, ?_, rfl, rfl, ?_, ?_, ?_, ?_, rfl, rfl⟩
          · rw [contractNode_nodes]
            apply List.filter_congr
            intro n _
            by_cases h1 : n = v <;> simp [h1]
          · rw [contractNode_edges, List.filter_append]
            congr 1
            · apply List.filter_congr
              intro e _
              by_cases h1 : e.src = v <;> by_cases h2 : e.tgt = v <;> simp [h1, h2]
            · simp [htq, hpv, hqv]
          · simp [contractNode]
          · simp [contractNode]
          · simp [contractNode]
          · intro i hi
            exact contractNode_old b v ein eout i hi
  | cons v2 vs ih =>
    intro v b ein outs red hf hch hnd hp hq
    cases outs with
    | nil => simp [ChainFrom] at hch
    | cons eout os =>
      cases os with
      | nil => simp [ChainFrom] at hch
      | cons eout2 os' =>
        have hch0 := hch
        simp only [ChainFrom] at hch
        obtain ⟨hin, hout, hnm, hin2, hout2, hnm2, hrest⟩ := hch
        have hnd' : (v2 :: vs).Nodup := (List.nodup_cons.1 hnd).2
        have hv2 : v2 ≠ v := by
          intro h
          exact (List.nodup_cons.1 hnd).1 (by rw [h]; exact List.mem_cons_self _ _)
        have hpv : ein.src ≠ v := fun h => hp (by rw [h]; exact List.mem_cons_self _ _)
        have hp' : ein.src ∉ v2 :: vs := fun h => hp (List.mem_cons_of_mem _ h)
        have hq' : q ∉ v2 :: vs := fun h => hq (List.mem_cons_of_mem _ h)
        have hqv : q ≠ v := fun h => hq (by rw [h]; exact List.mem_cons_self _ _)
        have ht2 : eout.tgt = v2 := (mem_of_inEdges b v2 eout hin2).2
        have hein : ein ∈ b._g.edges := (mem_of_inEdges b v ein hin).1
        have heout : eout ∈ b._g.edges := (mem_of_outEdges b v eout hout).1
        have heout2 : eout2 ∈ b._g.edges := (mem_of_outEdges b v2 eout2 hout2).1
        have hf1 := freshIds_contractNode b v ein eout hf
        have hch1 : (b.contractNode v ein eout).ChainFrom
            (Edge.mk b._g.nextEdge ein.src eout.tgt) (v2 :: vs) (eout2 :: os') q := by
          simp only [ChainFrom]
          refine ⟨contract_inEdges_next b v v2 ein eout hout hin2 hv2 hpv, ?_, ?_, ?_⟩
          · rw [contract_outEdges_other b v v2 ein eout hin hv2
              (fun h => hp' (by rw [← h]; exact List.mem_cons_self _ _))]
            exact hout2
          · rw [(contractNode_old b v ein eout eout2.id (hf _ heout2)).2.1]
            simp only [contractNode, if_true]
            rw [hnm, hnm2]
          · apply chainFrom_contract b v ein eout hin hout hf q vs os' eout2 heout2 hrest
            intro w hw
            refine ⟨?_, ?_, ?_⟩
            · intro h
              exact (List.nodup_cons.1 hnd).1 (by rw [← h]; exact List.mem_cons_of_mem _ hw)
            · rw [ht2]
              intro h
              exact (List.nodup_cons.1 hnd').1 (by rw [← h]; exact hw)
            · intro h
              exact hp' (by rw [← h]; exact List.mem_cons_of_mem _ hw)
        obtain ⟨b', hrun, hC⟩ := ih v2 (b.contractNode v ein eout)
          (Edge.mk b._g.nextEdge ein.src eout.tgt) (eout2 :: os') (red ++ [v]) hf1 hch1 hnd'
          hp' hq'
        refine ⟨b', ?_, ?_⟩
        · rw [removeChain_cons_ok b v (v2 :: vs) red ein eout hin hout hnm, hrun,
            List.append_assoc]
          rfl
        · have hE1 : (b.contractNode v ein eout)._g.nextEdge = b._g.nextEdge + 1 := rfl
          have hlen : b._g.nextEdge + 1 + ((v2 :: vs).length - 1) =
              b._g.nextEdge + ((v :: v2 :: vs).length - 1) := by
            simp only [List.length_cons]; omega
          have hold := hC.old
          refine ⟨?_, ?_, ?_, ?_, ?_, ?_, ?_, ?_, ?_, ?_⟩
          · rw [hC.nodes, contractNode_nodes, List.filter_filter]
            apply List.filter_congr
            intro n _
            simp only [List.mem_cons, not_or, bne_iff_ne, ne_eq, Bool.and_eq_true,
              decide_eq_true_eq, Bool.decide_and, decide_not]
            by_cases h1 : n = v <;> by_cases h2 : n = v2 <;> by_cases h3 : n ∈ vs <;>
              simp [h1, h2, h3]
          · rw [hC.edges, contractNode_edges, hE1, hlen, List.filter_append, List.filter_append,
              List.filter_filter]
            congr 1
            have h2 : ([Edge.mk b._g.nextEdge ein.src eout.tgt].filter
                (fun e => e.src != v && e.tgt != v)).filter
                (fun e => decide (e.src ∉ v2 :: vs ∧ e.tgt ∉ v2 :: vs)) = [] := by
              rw [List.filter_eq_nil_iff]
              intro e he
              have := List.mem_of_mem_filter he
              rw [List.mem_singleton] at this
              subst this
              simp [ht2]
            rw [h2, List.append_nil]
            apply List.filter_congr
            intro e _
            simp only [List.mem_cons, not_or, bne_iff_ne, ne_eq, Bool.and_eq_true,
              decide_eq_true_eq, Bool.decide_and, decide_not]
            by_cases h1 : e.src = v <;> by_cases h2 : e.tgt = v <;> simp [h1, h2]
          · rw [hC.nextEdge, hE1]; simp only [List.length_cons]; omega
          · rw [hC.nextNode]; rfl
          · rw [← hlen, ← hE1, hC.dist]
            have hsum : (List.map (fun e => (b.contractNode v ein eout)._dist e.id)
                (eout2 :: os')) = List.map (fun e => b._dist e.id) (eout2 :: os') := by
              apply List.map_congr_left
              intro e he
              have hmem := chainFrom_mem b q (v :: v2 :: vs) (eout :: eout2 :: os') ein hch0 e
                (List.mem_cons_of_mem _ he)
              exact (contractNode_old b v ein eout e.id (hf e hmem)).1
            rw [hsum]
            simp only [contractNode, if_true, List.map_cons, List.sum_cons]
            ring
          · rw [← hlen, ← hE1, hC.label]
            simp [contractNode]
          · rw [← hlen, ← hE1, hC.flag]
          · intro i hi
            obtain ⟨g1, g2, g3⟩ := hold i (by rw [hE1]; omega)
            obtain ⟨k1, k2, k3⟩ := contractNode_old b v ein eout i hi
            exact ⟨g1.trans k1, g2.trans k2, g3.trans k3⟩
          · rw [hC.names]; rfl
          · rw [hC.clusters]; rfl

end ChainMain

/-! ## Theorems: the constructor, phase by phase -/

section FinalGraph

open GraphBuilder

/-- The constructor is the construction of the final graph followed by the
connectivity check. -/
theorem new_eq (stations : t_stationmap) (lines : t_linemap) (cc sc : ℚ) (type : ProblemType)
    (preprocess : Bool) :
    GraphBuilder.new stations lines cc sc type preprocess =
      match finalGraph stations lines cc sc type preprocess with
      | .error m => .error m
      | .ok b3 =>
        match b3.checkConnectivity with
        | .error m => .error m
        | .ok _ => .ok b3 := by
  simp only [GraphBuilder.new, finalGraph]
  cases createNodesAndTravelArcs (init stations lines cc sc) (fun _ _ => none)
      (fun _ _ => none) with
  | error m => rfl
  | ok r =>
    obtain ⟨b1, way, back⟩ := r
    simp only
    cases b1.addSpecialArcs way back type preprocess with
    | error m => rfl
    | ok b2 =>
      cases preprocess with
      | false => rfl
      | true => simp only [if_true]

theorem new_ok_iff (stations : t_stationmap) (lines : t_linemap) (cc sc : ℚ)
    (type : ProblemType) (preprocess : Bool) (b : GraphBuilder) :
    GraphBuilder.new stations lines cc sc type preprocess = .ok b ↔
      finalGraph stations lines cc sc type preprocess = .ok b ∧ b.checkConnectivity = .ok () := by
  rw [new_eq]
  cases hfin : finalGraph stations lines cc sc type preprocess with
  | error m => simp
  | ok b3 =>
    simp only
    cases hchk : b3.checkConnectivity with
    | error m =>
      simp only [Except.ok.injEq, false_iff, not_and, reduceCtorEq]
      intro h
      subst h
      rw [hchk]
      simp
    | ok u =>
      simp only [Except.ok.injEq]
      constructor
      · intro h
        subst h
        exact ⟨rfl, hchk⟩
      · intro h
        exact h.1

theorem mapIn_empty (b : GraphBuilder) : MapIn b (fun _ _ => none) := by
  intro l s n h
  exact absurd h (by simp)

/-- The phases of the constructor before the connectivity check. -/
theorem finalGraph_spec (stations : t_stationmap) (lines : t_linemap) (cc sc : ℚ)
    (type : ProblemType) (preprocess : Bool) (b3 : GraphBuilder)
    (h : finalGraph stations lines cc sc type preprocess = .ok b3) :
    ∃ (b1 : GraphBuilder) (way back : NodeMap) (switches transfers : List (Nat × Nat))
      (b2 : GraphBuilder),
      createNodesAndTravelArcs (init stations lines cc sc) (fun _ _ => none) (fun _ _ => none)
        = .ok (b1, way, back) ∧
      Sound b1 ∧ MapIn b1 way ∧ MapIn b1 back ∧
      b1._stations = stations ∧ b1._lines = lines ∧ b1._change_cost = cc ∧
      b1._switch_cost = sc ∧
      switches.map somePair = switchingPlan stations way back lines type preprocess ∧
      transfers.map somePair = transferPlan way back stations ∧
      Sound (b1.addArcs sc switches) ∧
      b2 = (b1.addArcs sc switches).addArcs cc
        (transfers.filter (transferGuard (b1.addArcs sc switches))) ∧
      Sound b2 ∧
      (if preprocess then b2.preprocessGraph type = .ok b3 else b3 = b2) := by
  simp only [finalGraph] at h
  split at h
  · exact absurd h (by simp)
  · rename_i b1 way back h1
    split at h
    · exact absurd h (by simp)
    · rename_i b2 h2
      obtain ⟨g1, g2, g3, g4, g5, g6, g7⟩ := createNodesAndTravelArcs_sound _ _ _ _ _ _ h1
        (sound_init stations lines cc sc) (mapIn_empty _) (mapIn_empty _)
      have g4' : b1._stations = stations := g4
      have g5' : b1._lines = lines := g5
      have g6' : b1._change_cost = cc := g6
      have g7' : b1._switch_cost = sc := g7
      obtain ⟨switches, transfers, k1, k2, k3, k4, k5⟩ :=
        addSpecialArcs_trace b1 way back type preprocess b2 g1 g2 g3 h2
      rw [g4', g5'] at k1
      rw [g4'] at k2
      rw [g6', g7'] at k3
      rw [g7'] at k4
      refine ⟨b1, way, back, switches, transfers, b2, h1, g1, g2, g3, g4', g5', g6', g7', k1, k2,
        k4, k3, k5, ?_⟩
      cases preprocess with
      | false =>
        simp only [Bool.false_eq_true, if_false, Except.ok.injEq] at h ⊢
        exact h.symm
      | true =>
        simp only [if_true] at h ⊢
        exact h

/-- The nodes after `createNodesAndTravelArcs` on the initial builder. -/
theorem createNodesAndTravelArcs_nodes (stations : t_stationmap) (lines : t_linemap)
    (cc sc : ℚ) (b : GraphBuilder) (way back : NodeMap)
    (h : createNodesAndTravelArcs (init stations lines cc sc) (fun _ _ => none)
      (fun _ _ => none) = .ok (b, way, back)) :
    b._g.nodes = List.range (2 * totalStops lines) ∧
      b._g.nodes.map b._node_names =
        lines.flatMap (fun it => it.2.stations) ++
          lines.flatMap (fun it => it.2.stations.reverse) ∧
      b.arcRecords = travelArcs lines ∧
      b._g.nextEdge = 2 * totalSegments lines := by
  obtain ⟨-, h2, -, h4, h5, h6⟩ := createNodesAndTravelArcs_shape _ _ _ _ _ _ h
    (sound_init stations lines cc sc) (mapIn_empty _)
  have hl : (init stations lines cc sc)._lines = lines := rfl
  have hn : (init stations lines cc sc)._g.nodes = [] := rfl
  have hnn : (init stations lines cc sc)._g.nextNode = 0 := rfl
  have hne : (init stations lines cc sc)._g.nextEdge = 0 := rfl
  have ha : (init stations lines cc sc).arcRecords = [] := rfl
  rw [hl, hn, hnn] at h2
  rw [hl, hn] at h4
  rw [hl, ha, hnn, hne] at h5
  rw [hl, hne] at h6
  refine ⟨?_, ?_, ?_, ?_⟩
  · rw [h2, List.nil_append, List.range_eq_range']
  · rw [h4]; rfl
  · rw [h5, List.nil_append, Nat.zero_add, Nat.zero_add]; rfl
  · rw [h6, Nat.zero_add]

theorem finalGraph_phases (stations : t_stationmap) (lines : t_linemap) (cc sc : ℚ)
    (type : ProblemType) (preprocess : Bool) (b3 : GraphBuilder)
    (h : finalGraph stations lines cc sc type preprocess = .ok b3) :
    ∃ (b1 : GraphBuilder) (way back : NodeMap) (b2 : GraphBuilder),
      createNodesAndTravelArcs (init stations lines cc sc) (fun _ _ => none) (fun _ _ => none)
        = .ok (b1, way, back) ∧
      b1.addSpecialArcs way back type preprocess = .ok b2 ∧
      (if preprocess then b2.preprocessGraph type = .ok b3 else b3 = b2) := by
  simp only [finalGraph] at h
  split at h
  · exact absurd h (by simp)
  · rename_i b1 way back h1
    split at h
    · exact absurd h (by simp)
    · rename_i b2 h2
      refine ⟨b1, way, back, b2, h1, h2, ?_⟩
      cases preprocess with
      | false =>
        simp only [Bool.false_eq_true, if_false, Except.ok.injEq] at h ⊢
        exact h.symm
      | true =>
        simp only [if_true] at h ⊢
        exact h

end FinalGraph

/-! ## Theorems: the nodes of a graph built without preprocessing -/

section NodeCount

open GraphBuilder

/-- C11: a graph built without preprocessing has exactly twice as many nodes as
the lines have stops in total.  The nodes are numbered in the order of their
creation: one forward node for every stop of every line, then one reverse node
for every stop of every line, each named after the station of its stop; every
node is recorded in the cluster of the station it is named after, and the
clusters record nothing else. -/
theorem graphBuilder_node_count (stations : t_stationmap) (lines : t_linemap) (cc sc : ℚ)
    (type : ProblemType) (b : GraphBuilder)
    (h : GraphBuilder.new stations lines cc sc type false = .ok b) :
    b._g.nodes.length = 2 * totalStops lines ∧
      b._g.nodes = List.range (2 * totalStops lines) ∧
      b._g.nodes.map b._node_names =
        lines.flatMap (fun it => it.2.stations) ++
          lines.flatMap (fun it => it.2.stations.reverse) ∧
      (∀ n ∈ b._g.nodes, ∃ p ∈ b._station_nodes, p.1 = b._node_names n ∧ n ∈ p.2) ∧
      (∀ p ∈ b._station_nodes, p.2.Nodup ∧
        ∀ n ∈ p.2, n ∈ b._g.nodes ∧ b._node_names n = p.1) ∧
      (b._station_nodes.map Prod.fst).Nodup := by
  obtain ⟨hfin, -⟩ := (new_ok_iff _ _ _ _ _ _ _).1 h
  obtain ⟨b1, way, back, switches, transfers, b2, h1, -, -, -, -, -, -, -, -, -, -, hb2, hs2,
    hpre⟩ := finalGraph_spec _ _ _ _ _ _ _ hfin
  simp only [Bool.false_eq_true, if_false] at hpre
  subst hpre
  obtain ⟨k1, k2, -, -⟩ := createNodesAndTravelArcs_nodes _ _ _ _ _ _ _ h1
  obtain ⟨a1, -, -, -, a5, -⟩ := addArcs_fields sc switches b1
  obtain ⟨c1, -, -, -, c5, -⟩ := addArcs_fields cc
    (transfers.filter (transferGuard (b1.addArcs sc switches))) (b1.addArcs sc switches)
  have hN : b._g.nodes = b1._g.nodes := by rw [hb2, c1, a1]
  have hM : b._node_names = b1._node_names := by rw [hb2, c5, a5]
  obtain ⟨⟨hfn, -⟩, -, hbase⟩ := hs2
  have hcl := hbase.clusters
  have hcov := hbase.covered
  have hsorted := hbase.sorted
  refine ⟨?_, ?_, ?_, ?_, ?_, ?_⟩
  · rw [hN, k1, List.length_range]
  · rw [hN, k1]
  · rw [hN, hM, k2]
  · intro n hn
    have hlt : n < b._g.nextNode := (hfn n).1 hn
    obtain ⟨p, hp, hpn⟩ := hcov n hlt
    exact ⟨p, hp, hpn, ((hcl p hp).2.2 n).2 ⟨hlt, hpn.symm⟩⟩
  · intro p hp
    refine ⟨(hcl p hp).1, ?_⟩
    intro n hn
    obtain ⟨hlt, hnm⟩ := ((hcl p hp).2.2 n).1 hn
    exact ⟨(hfn n).2 hlt, hnm⟩
  · have hs : (b._station_nodes.map Prod.fst).Pairwise (fun a c => a < c) := hsorted
    exact hs.imp (fun hlt => ne_of_lt hlt)

/-- C11, witness: the network of two lines, built without preprocessing, has
five stops and ten nodes. -/
theorem graphBuilder_node_count_witness :
    twoLineBuilder._g.nodes.length = 2 * totalStops twoLineLines ∧
      twoLineBuilder._g.nodes = List.range (2 * totalStops twoLineLines) ∧
      twoLineBuilder._g.nodes.map twoLineBuilder._node_names =
        twoLineLines.flatMap (fun it => it.2.stations) ++
          twoLineLines.flatMap (fun it => it.2.stations.reverse) ∧
      (∀ n ∈ twoLineBuilder._g.nodes,
        ∃ p ∈ twoLineBuilder._station_nodes, p.1 = twoLineBuilder._node_names n ∧ n ∈ p.2) ∧
      (∀ p ∈ twoLineBuilder._station_nodes, p.2.Nodup ∧
        ∀ n ∈ p.2, n ∈ twoLineBuilder._g.nodes ∧ twoLineBuilder._node_names n = p.1) ∧
      (twoLineBuilder._station_nodes.map Prod.fst).Nodup :=
  graphBuilder_node_count twoLineStations twoLineLines 5 5 .STATION twoLineBuilder
    twoLineBuilder_new

end NodeCount

/-! ## Theorems: the travel arcs -/

section TravelArcs

open GraphBuilder

theorem allLineArcs_append (arcsOf : Line → Nat → Nat → List ArcRecord) (pre post : t_linemap) :
    ∀ n0 e0, allLineArcs arcsOf (pre ++ post) n0 e0 =
      allLineArcs arcsOf pre n0 e0 ++
        allLineArcs arcsOf post (n0 + totalStops pre) (e0 + totalSegments pre) := by
  induction pre with
  | nil => intro n0 e0; simp [allLineArcs, totalStops, totalSegments]
  | cons it rest ih =>
    intro n0 e0
    rw [List.cons_append]
    simp only [allLineArcs]
    rw [ih, totalStops_cons, totalSegments_cons, List.append_assoc]
    congr 3 <;> omega

theorem allLineArcs_length (arcsOf : Line → Nat → Nat → List ArcRecord)
    (hlen : ∀ line n0 e0, (arcsOf line n0 e0).length = line.stations.length - 1)
    (lines : t_linemap) :
    ∀ n0 e0, (allLineArcs arcsOf lines n0 e0).length = totalSegments lines := by
  induction lines with
  | nil => intro n0 e0; rfl
  | cons it rest ih =>
    intro n0 e0
    simp only [allLineArcs, List.length_append]
    rw [ih, hlen, totalSegments_cons]

theorem forwardArcs_length (line : Line) (n0 e0 : Nat) :
    (forwardArcs line n0 e0).length = line.stations.length - 1 := by
  simp [forwardArcs]

theorem reverseArcs_length (line : Line) (n0 e0 : Nat) :
    (reverseArcs line n0 e0).length = line.stations.length - 1 := by
  simp [reverseArcs]

theorem travelArcs_length (lines : t_linemap) :
    (travelArcs lines).length = 2 * totalSegments lines := by
  rw [travelArcs, List.length_append, allLineArcs_length _ forwardArcs_length,
    allLineArcs_length _ reverseArcs_length]
  omega

theorem flatMap_stops_length (f : List String → List String)
    (hf : ∀ l, (f l).length = l.length) (lines : t_linemap) :
    (lines.flatMap (fun it => f it.2.stations)).length = totalStops lines := by
  induction lines with
  | nil => rfl
  | cons it rest ih =>
    rw [List.flatMap_cons, List.length_append, ih, hf, totalStops_cons]

theorem totalStops_append (pre post : t_linemap) :
    totalStops (pre ++ post) = totalStops pre + totalStops post := by
  simp [totalStops]

/-- The stop with index `k` of a line, in the list of the stops of all lines. -/
theorem flatMap_stops_getElem (f : List String → List String)
    (hf : ∀ l, (f l).length = l.length) (pre : t_linemap) (it : String × Line)
    (post : t_linemap) (k : Nat) (hk : k < it.2.stations.length) :
    ((pre ++ it :: post).flatMap (fun it => f it.2.stations))[totalStops pre + k]? =
      (f it.2.stations)[k]? := by
  rw [List.flatMap_append, List.flatMap_cons]
  have h1 : (pre.flatMap (fun it => f it.2.stations)).length = totalStops pre :=
    flatMap_stops_length f hf pre
  rw [List.getElem?_append_right (by omega), h1, Nat.add_sub_cancel_left,
    List.getElem?_append_left (by rw [hf]; exact hk)]

theorem map_range_getElem {α : Type} (f : Nat → α) (N : Nat) (l : List α)
    (h : (List.range N).map f = l) (j : Nat) (a : α) (ha : l[j]? = some a) : f j = a := by
  subst h
  rw [List.getElem?_map] at ha
  cases hj : (List.range N)[j]? with
  | none => rw [hj] at ha; exact absurd ha (by simp)
  | some x =>
    rw [hj] at ha
    have hx : x = j := by
      obtain ⟨hlt, hx⟩ := List.getElem?_eq_some.1 hj
      rw [← hx]
      simp
    subst hx
    simpa using ha

theorem getD_of_getElem? (l : List String) (k : Nat) (hk : k < l.length) :
    l[k]? = some (l.getD k "") := by
  rw [List.getD_eq_getElem _ _ hk, List.getElem?_eq_getElem hk]

/-- C13: for every line with the stops `s_0 .. s_(n-1)` and the cumulative
times `t_0 .. t_(n-1)`, `createNodesAndTravelArcs` creates exactly `2 (n - 1)`
travel arcs.  The arcs of the graph are, with their attributes, the list
`travelArcs`: for every line and every `i` from 1 to `n - 1` a forward arc from
the forward node of `s_(i-1)` to the forward node of `s_i` and a reverse arc
from the reverse node of `s_i` to the reverse node of `s_(i-1)`, both with the
delta of the times `t_(i-1)` and `t_i` as cost, the name of the line as label
and no connection flag; the delta is positive, and it is `t_i - t_(i-1)` when
the times do not decrease and fit 32 bits.  For the line that follows the lines
`pre` the forward node of the stop `k` has the number `totalStops pre + k`, the
reverse node the number `totalStops lines + totalStops pre + (n - 1 - k)`. -/
theorem createNodesAndTravelArcs_travel_arcs (stations : t_stationmap) (lines : t_linemap)
    (cc sc : ℚ) (b : GraphBuilder) (way back : NodeMap)
    (h : createNodesAndTravelArcs (init stations lines cc sc) (fun _ _ => none)
      (fun _ _ => none) = .ok (b, way, back)) :
    b.arcRecords = travelArcs lines ∧
      b._g.edges.length = (lines.map (fun it => 2 * (it.2.stations.length - 1))).sum ∧
      (∀ pre it post, lines = pre ++ it :: post →
        (∀ k, k < it.2.stations.length →
          b._node_names (totalStops pre + k) = it.2.stations.getD k "" ∧
          b._node_names (totalStops lines + totalStops pre + (it.2.stations.length - 1 - k)) =
            it.2.stations.getD k "") ∧
        (∀ i, 1 ≤ i → i < it.2.stations.length →
          (⟨totalSegments pre + (i - 1), totalStops pre + (i - 1), totalStops pre + i,
              (it.2.delta i : ℚ), it.2.name, false⟩ : ArcRecord) ∈ b.arcRecords ∧
          (⟨totalSegments lines + totalSegments pre + (it.2.stations.length - 1 - i),
              totalStops lines + totalStops pre + (it.2.stations.length - 1 - i),
              totalStops lines + totalStops pre + (it.2.stations.length - 1 - (i - 1)),
              (it.2.delta i : ℚ), it.2.name, false⟩ : ArcRecord) ∈ b.arcRecords ∧
          0 < it.2.delta i ∧
          (it.2.times.getD (i - 1) 0 ≤ it.2.times.getD i 0 → it.2.times.getD i 0 < 2 ^ 32 →
            it.2.delta i = (it.2.times.getD i 0 : Int) - (it.2.times.getD (i - 1) 0 : Int)))) := by
  obtain ⟨k1, k2, k3, -⟩ := createNodesAndTravelArcs_nodes _ _ _ _ _ _ _ h
  have hpos : ∀ it ∈ lines, it.2.DeltasPositive :=
    ((createNodesAndTravelArcs_ok_iff (init stations lines cc sc) (fun _ _ => none)
      (fun _ _ => none) (sound_init stations lines cc sc) (mapIn_empty _)).1).1 ⟨_, h⟩
  refine ⟨k3, ?_, ?_⟩
  · have hlen : b.arcRecords.length = b._g.edges.length := by simp [arcRecords]
    rw [← hlen, k3, travelArcs_length]
    clear k3 k2 k1 hpos h hlen
    induction lines with
    | nil => rfl
    | cons it rest ih =>
      rw [totalSegments_cons, List.map_cons, List.sum_cons, ← ih]
      omega
  · intro pre it post hl
    rw [k1] at k2
    refine ⟨?_, ?_⟩
    · intro k hk
      constructor
      · apply map_range_getElem _ _ _ k2
        rw [List.getElem?_append_left (by
          rw [flatMap_stops_length (fun l => l) (fun _ => rfl), hl, totalStops_append,
            totalStops_cons]
          omega), hl]
        rw [flatMap_stops_getElem (fun l => l) (fun _ => rfl) pre it post k hk]
        exact getD_of_getElem? _ _ hk
      · apply map_range_getElem _ _ _ k2
        have hT : (lines.flatMap (fun it => it.2.stations)).length = totalStops lines :=
          flatMap_stops_length (fun l => l) (fun _ => rfl) lines
        rw [List.getElem?_append_right (by rw [hT]; omega), hT]
        have hidx : totalStops lines + totalStops pre + (it.2.stations.length - 1 - k) -
            totalStops lines = totalStops pre + (it.2.stations.length - 1 - k) := by omega
        rw [hidx, hl, flatMap_stops_getElem (fun l => l.reverse) (fun l => List.length_reverse l)
          pre it post _ (by omega)]
        rw [List.getElem?_reverse (by omega)]
        have h2 : it.2.stations.length - 1 - (it.2.stations.length - 1 - k) = k := by omega
        rw [h2]
        exact getD_of_getElem? _ _ hk
    · intro i h1 h2
      have hd := hpos it (by rw [hl]; simp) i h1 h2
      refine ⟨?_, ?_, hd, fun hm hr => delta_eq_sub it.2 i hd hm hr⟩
      · rw [k3, travelArcs, hl, allLineArcs_append]
        apply List.mem_append_left
        apply List.mem_append_right
        simp only [allLineArcs]
        apply List.mem_append_left
        simp only [forwardArcs, List.mem_map, List.mem_range]
        refine ⟨i - 1, by omega, ?_⟩
        simp only [Nat.zero_add, ArcRecord.mk.injEq, and_true, true_and]
        have : i - 1 + 1 = i := by omega
        rw [this]
        simp
      · rw [k3, travelArcs, hl]
        apply List.mem_append_right
        rw [allLineArcs_append]
        apply List.mem_append_right
        simp only [allLineArcs]
        apply List.mem_append_left
        simp only [reverseArcs, List.mem_map, List.mem_range]
        refine ⟨it.2.stations.length - 1 - i, by omega, ?_⟩
        have h3 : it.2.stations.length - 1 - (it.2.stations.length - 1 - i) = i := by omega
        have h4 : it.2.stations.length - 1 - i + 1 = it.2.stations.length - 1 - (i - 1) := by
          omega
        rw [h3, h4]

theorem twoLineTravel_ok :
    createNodesAndTravelArcs (init twoLineStations twoLineLines 5 5) (fun _ _ => none)
      (fun _ _ => none) = .ok (twoLineTravel.1, twoLineTravel.2.1, twoLineTravel.2.2) := by
  rfl

/-- C13, witness: on the network of two lines `createNodesAndTravelArcs`
succeeds and creates the six travel arcs of the lines `U1` (`A`, `B`, `C` at the times 0,
4, 9) and `U2` (`B`, `C` at the times 0, 3). -/
theorem createNodesAndTravelArcs_travel_arcs_witness :
    createNodesAndTravelArcs (init twoLineStations twoLineLines 5 5) (fun _ _ => none)
        (fun _ _ => none) = .ok (twoLineTravel.1, twoLineTravel.2.1, twoLineTravel.2.2) ∧
      twoLineTravel.1.arcRecords = travelArcs twoLineLines ∧
      travelArcs twoLineLines =
        [⟨0, 0, 1, 4, "U1", false⟩, ⟨1, 1, 2, 5, "U1", false⟩, ⟨2, 3, 4, 3, "U2", false⟩,
          ⟨3, 5, 6, 5, "U1", false⟩, ⟨4, 6, 7, 4, "U1", false⟩, ⟨5, 8, 9, 3, "U2", false⟩] ∧
      twoLineTravel.1._g.edges.length = 6 :=
  ⟨twoLineTravel_ok,
    (createNodesAndTravelArcs_travel_arcs twoLineStations twoLineLines 5 5 twoLineTravel.1
      twoLineTravel.2.1 twoLineTravel.2.2 twoLineTravel_ok).1,
    rfl,
    (createNodesAndTravelArcs_travel_arcs twoLineStations twoLineLines 5 5 twoLineTravel.1
      twoLineTravel.2.1 twoLineTravel.2.2 twoLineTravel_ok).2.1⟩

end TravelArcs

/-! ## Theorems: the assertion on the travel time -/

section TravelTime

open GraphBuilder

/-- The delta of two times that do not increase is not positive, provided the
times fit 32 bits and differ by at most `2 ^ 31`. -/
theorem delta_nonpos (line : Line) (i : Nat)
    (hle : line.times.getD i 0 ≤ line.times.getD (i - 1) 0)
    (hrange : line.times.getD (i - 1) 0 < 2 ^ 32)
    (hdiff : line.times.getD (i - 1) 0 - line.times.getD i 0 ≤ 2 ^ 31) :
    ¬ 0 < line.delta i := by
  simp only [Line.delta, toInt32]
  have h1 : line.times.getD i 0 % 2 ^ 32 = line.times.getD i 0 := Nat.mod_eq_of_lt (by omega)
  have h2 : line.times.getD (i - 1) 0 % 2 ^ 32 = line.times.getD (i - 1) 0 :=
    Nat.mod_eq_of_lt hrange
  rw [h1, h2]
  rcases Nat.eq_or_lt_of_le hle with heq | hlt
  · rw [heq]
    have : (line.times.getD (i - 1) 0 + 2 ^ 32 - line.times.getD (i - 1) 0) % 2 ^ 32 = 0 := by
      rw [Nat.add_sub_cancel_left]
      exact Nat.mod_self _
    rw [this]
    simp
  · have h3 : (line.times.getD i 0 + 2 ^ 32 - line.times.getD (i - 1) 0) % 2 ^ 32 =
        line.times.getD i 0 + 2 ^ 32 - line.times.getD (i - 1) 0 :=
      Nat.mod_eq_of_lt (by omega)
    rw [h3]
    split
    · omega
    · omega

/-- The construction fails with the assertion on the travel time when some
line has a delta that is not positive; in particular when two consecutive
times of a line do not increase, fit 32 bits and differ by at most `2 ^ 31`. -/
theorem new_rejects_nonpositive_delta (stations : t_stationmap) (lines : t_linemap)
    (cc sc : ℚ) (type : ProblemType) (preprocess : Bool) (it : String × Line)
    (hit : it ∈ lines) (i : Nat) (h1 : 1 ≤ i) (h2 : i < it.2.stations.length)
    (hd : ¬ 0 < it.2.delta i) :
    GraphBuilder.new stations lines cc sc type preprocess = .error assertTravelTime := by
  have herr := (createNodesAndTravelArcs_ok_iff (init stations lines cc sc) (fun _ _ => none)
    (fun _ _ => none) (sound_init stations lines cc sc) (mapIn_empty _)).2
    ⟨it, hit, fun hpos => hd (hpos i h1 h2)⟩
  simp only [GraphBuilder.new]
  rw [herr]

/-- The construction fails with the assertion on the travel time when two
consecutive times of a line do not increase, fit 32 bits and differ by at most
`2 ^ 31`. -/
theorem new_rejects_nonincreasing_times (stations : t_stationmap) (lines : t_linemap)
    (cc sc : ℚ) (type : ProblemType) (preprocess : Bool) (it : String × Line)
    (hit : it ∈ lines) (i : Nat) (h1 : 1 ≤ i) (h2 : i < it.2.stations.length)
    (hle : it.2.times.getD i 0 ≤ it.2.times.getD (i - 1) 0)
    (hrange : it.2.times.getD (i - 1) 0 < 2 ^ 32)
    (hdiff : it.2.times.getD (i - 1) 0 - it.2.times.getD i 0 ≤ 2 ^ 31) :
    GraphBuilder.new stations lines cc sc type preprocess = .error assertTravelTime :=
  new_rejects_nonpositive_delta stations lines cc sc type preprocess it hit i h1 h2
    (delta_nonpos it.2 i hle hrange hdiff)

/-- C14 (failing input): the line `L` serves `A` at the time 3000000000 and `B`
at the time 0, so its times decrease.  The construction does not fail: the
delta is computed in 32 bits without sign and wraps to 1294967296, which passes
the assertion and becomes the cost of both travel arcs. -/
theorem graphBuilder_accepts_wrapped_delta :
    GraphBuilder.new wrapStations wrapLines 5 5 .STATION false = .ok wrapBuilder ∧
      (∃ it ∈ wrapLines, it.2.times.getD 1 0 < it.2.times.getD 0 0) ∧
      wrapBuilder._g.nodes.map wrapBuilder._node_names = ["A", "B", "B", "A"] ∧
      wrapBuilder.arcRecords =
        [⟨0, 0, 1, 1294967296, "L", false⟩, ⟨1, 2, 3, 1294967296, "L", false⟩,
          ⟨2, 0, 3, 5, CHANGE_NAME, true⟩, ⟨3, 3, 0, 5, CHANGE_NAME, true⟩,
          ⟨4, 1, 2, 5, CHANGE_NAME, true⟩, ⟨5, 2, 1, 5, CHANGE_NAME, true⟩] := by
  refine ⟨by rfl, ⟨("L", ⟨"L", ["A", "B"], [3000000000, 0]⟩), by simp [wrapLines], by decide⟩,
    by rfl, by rfl⟩

end TravelTime

/-! ## Theorems: the connectivity check -/

section Connectivity

open GraphBuilder

theorem one_lt_dedup_length (l : List Nat) :
    1 < l.dedup.length ↔ ∃ a ∈ l, ∃ c ∈ l, a ≠ c := by
  constructor
  · intro h
    match hd : l.dedup, h with
    | x :: y :: rest, _ =>
      have hnd : (x :: y :: rest).Nodup := by rw [← hd]; exact List.nodup_dedup l
      have hx : x ∈ l := List.mem_dedup.1 (by rw [hd]; simp)
      have hy : y ∈ l := List.mem_dedup.1 (by rw [hd]; simp)
      refine ⟨x, hx, y, hy, ?_⟩
      intro hxy
      rw [hxy] at hnd
      simp at hnd
  · rintro ⟨a, ha, c, hc, hac⟩
    by_contra hle
    have ha' : a ∈ l.dedup := List.mem_dedup.2 ha
    have hc' : c ∈ l.dedup := List.mem_dedup.2 hc
    match hd : l.dedup, hle with
    | [], _ => rw [hd] at ha'; simp at ha'
    | [x], _ =>
      rw [hd] at ha' hc'
      simp only [List.mem_singleton] at ha' hc'
      exact hac (ha'.trans hc'.symm)
    | x :: y :: rest, h2 => simp at h2

theorem COMPONENTS_count (nodes : List Nat) (es : List (Nat × Nat))
    (hes : ∀ p ∈ es, p.1 ∈ nodes ∧ p.2 ∈ nodes) :
    (COMPONENTS nodes es).2 = ((nodes.map (compLabel es)).dedup).length := by
  simp only [COMPONENTS, compTable_eq nodes es hes, List.map_map]
  rfl

/-- LEDA contract of `COMPONENTS`: the graph has more than one component
exactly when two of its nodes are not connected. -/
theorem COMPONENTS_one_lt (nodes : List Nat) (es : List (Nat × Nat))
    (hes : ∀ p ∈ es, p.1 ∈ nodes ∧ p.2 ∈ nodes) :
    1 < (COMPONENTS nodes es).2 ↔ ∃ u ∈ nodes, ∃ v ∈ nodes, ¬ ConnIn es u v := by
  rw [COMPONENTS_count nodes es hes, one_lt_dedup_length]
  constructor
  · rintro ⟨a, ha, c, hc, hac⟩
    obtain ⟨u, hu, rfl⟩ := List.mem_map.1 ha
    obtain ⟨v, hv, rfl⟩ := List.mem_map.1 hc
    exact ⟨u, hu, v, hv, fun hconn => hac ((compLabel_eq_iff es u v).2 hconn)⟩
  · rintro ⟨u, hu, v, hv, hn⟩
    exact ⟨_, List.mem_map_of_mem _ hu, _, List.mem_map_of_mem _ hv,
      fun h => hn ((compLabel_eq_iff es u v).1 h)⟩

/-- LEDA contract of `COMPONENTS`: only the graph without nodes has no component. -/
theorem COMPONENTS_zero (nodes : List Nat) (es : List (Nat × Nat))
    (hes : ∀ p ∈ es, p.1 ∈ nodes ∧ p.2 ∈ nodes) :
    (COMPONENTS nodes es).2 = 0 ↔ nodes = [] := by
  rw [COMPONENTS_count nodes es hes, List.length_eq_zero]
  constructor
  · intro h
    cases nodes with
    | nil => rfl
    | cons n rest =>
      have : compLabel es n ∈ ((n :: rest).map (compLabel es)).dedup :=
        List.mem_dedup.2 (by simp)
      rw [h] at this
      simp at this
  · intro h
    subst h
    rfl

theorem closed_endpoints (b : GraphBuilder) (hc : b.Closed) :
    ∀ p ∈ endpoints b._g.edges, p.1 ∈ b._g.nodes ∧ p.2 ∈ b._g.nodes := by
  intro p hp
  simp only [endpoints, List.mem_map] at hp
  obtain ⟨e, he, rfl⟩ := hp
  exact hc e he

/-- The function `checkConnectivity` on a graph whose arcs join nodes of the
graph: it throws exactly when the graph has more than one component, and the
exception names two nodes that are not connected. -/
theorem checkConnectivity_spec (b : GraphBuilder) (hc : b.Closed) :
    (1 < b.componentCount →
      ∃ u ∈ b._g.nodes, ∃ v ∈ b._g.nodes, ¬ ConnIn (endpoints b._g.edges) u v ∧
        b.checkConnectivity = .error (noConnection (b._node_names u) (b._node_names v))) ∧
    (¬ 1 < b.componentCount → b.checkConnectivity = .ok ()) := by
  have hes := closed_endpoints b hc
  constructor
  · intro h1
    have hex := (COMPONENTS_one_lt _ _ hes).1 h1
    obtain ⟨u, hu, v, hv, huv⟩ := hex
    have h1' : (COMPONENTS b._g.nodes (endpoints b._g.edges)).2 > 1 := h1
    simp only [checkConnectivity]
    rw [if_pos h1']
    split
    · rename_i hn
      rw [hn] at hu
      simp at hu
    · rename_i first rest hn
      have hfirst : first ∈ b._g.nodes := by rw [hn]; simp
      split
      · rename_i n hf
        have hmem : n ∈ b._g.nodes := List.mem_of_find?_eq_some hf
        have hp := List.find?_some hf
        simp only [bne_iff_ne, ne_eq] at hp
        refine ⟨first, hfirst, n, hmem, ?_, rfl⟩
        intro hconn
        exact hp ((COMPONENTS_eq_iff _ _ hes hmem hfirst).2 (connIn_symm hconn))
      · rename_i hf
        exfalso
        rw [List.find?_eq_none] at hf
        have hall : ∀ n ∈ b._g.nodes, ConnIn (endpoints b._g.edges) n first := by
          intro n hmem
          have h2 := hf n hmem
          simp only [bne_iff_ne, ne_eq, not_not] at h2
          exact (COMPONENTS_eq_iff _ _ hes hmem hfirst).1 h2
        exact huv (connIn_trans (hall u hu) (connIn_symm (hall v hv)))
  · intro h1
    simp only [checkConnectivity]
    have h1' : ¬ (COMPONENTS b._g.nodes (endpoints b._g.edges)).2 > 1 := h1
    rw [if_neg h1']

/-- The final graph of the constructor has its arcs between its nodes. -/
theorem finalGraph_closed (stations : t_stationmap) (lines : t_linemap) (cc sc : ℚ)
    (type : ProblemType) (preprocess : Bool) (b3 : GraphBuilder)
    (h : finalGraph stations lines cc sc type preprocess = .ok b3) : b3.Closed := by
  obtain ⟨b1, way, back, switches, transfers, b2, -, -, -, -, -, -, -, -, -, -, -, -, hs2,
    hpre⟩ := finalGraph_spec _ _ _ _ _ _ _ h
  cases preprocess with
  | false =>
    simp only [Bool.false_eq_true, if_false] at hpre
    rw [hpre]
    exact hs2.2.1
  | true =>
    simp only [if_true] at hpre
    exact (preprocessGraph_closed b2 b3 type hpre hs2.2.1 hs2.1.2).1

/-- C12 (amended): let the construction reach its final graph.  The constructor
fails with the text `No connection between stations X and Y` exactly when the
undirected view of the final graph has more than one connected component, and
then `X` and `Y` are the names of two nodes of the graph that are not
connected; otherwise it returns the final graph, in which any two nodes are
connected, and which has exactly one component when it has a node and none
when it has no node. -/
theorem graphBuilder_connectivity (stations : t_stationmap) (lines : t_linemap) (cc sc : ℚ)
    (type : ProblemType) (preprocess : Bool) (b3 : GraphBuilder)
    (h : finalGraph stations lines cc sc type preprocess = .ok b3) :
    (1 < b3.componentCount ↔
      ∃ u ∈ b3._g.nodes, ∃ v ∈ b3._g.nodes, ¬ ConnIn (endpoints b3._g.edges) u v) ∧
    (1 < b3.componentCount →
      ∃ u ∈ b3._g.nodes, ∃ v ∈ b3._g.nodes, ¬ ConnIn (endpoints b3._g.edges) u v ∧
        GraphBuilder.new stations lines cc sc type preprocess =
          .error (noConnection (b3._node_names u) (b3._node_names v))) ∧
    (¬ 1 < b3.componentCount →
      GraphBuilder.new stations lines cc sc type preprocess = .ok b3 ∧
      (∀ u ∈ b3._g.nodes, ∀ v ∈ b3._g.nodes, ConnIn (endpoints b3._g.edges) u v) ∧
      (b3._g.nodes ≠ [] → b3.componentCount = 1) ∧
      (b3._g.nodes = [] → b3.componentCount = 0)) := by
  have hc := finalGraph_closed _ _ _ _ _ _ _ h
  have hes := closed_endpoints b3 hc
  obtain ⟨hfail, hpass⟩ := checkConnectivity_spec b3 hc
  have hiff := COMPONENTS_one_lt _ _ hes
  refine ⟨hiff, ?_, ?_⟩
  · intro h1
    obtain ⟨u, hu, v, hv, huv, hchk⟩ := hfail h1
    refine ⟨u, hu, v, hv, huv, ?_⟩
    rw [new_eq, h]
    simp only
    rw [hchk]
  · intro h1
    refine ⟨?_, ?_, ?_, ?_⟩
    · rw [new_eq, h]
      simp only
      rw [hpass h1]
    · intro u hu v hv
      by_contra hn
      exact h1 (hiff.2 ⟨u, hu, v, hv, hn⟩)
    · intro hne
      have h0 : b3.componentCount ≠ 0 := fun h0 => hne ((COMPONENTS_zero _ _ hes).1 h0)
      omega
    · intro hnil
      exact (COMPONENTS_zero _ _ hes).2 hnil

theorem twoLine_finalGraph :
    finalGraph twoLineStations twoLineLines 5 5 .STATION false = .ok twoLineBuilder := by
  rfl

/-- C12, witness: the final graph of the network of two lines is connected, so
the constructor returns it, and it has one component. -/
theorem graphBuilder_connectivity_witness :
    finalGraph twoLineStations twoLineLines 5 5 .STATION false = .ok twoLineBuilder ∧
      GraphBuilder.new twoLineStations twoLineLines 5 5 .STATION false = .ok twoLineBuilder ∧
      twoLineBuilder.componentCount = 1 :=
  ⟨twoLine_finalGraph,
    ((graphBuilder_connectivity twoLineStations twoLineLines 5 5 .STATION false twoLineBuilder
      twoLine_finalGraph).2.2 (by decide)).1,
    ((graphBuilder_connectivity twoLineStations twoLineLines 5 5 .STATION false twoLineBuilder
      twoLine_finalGraph).2.2 (by decide)).2.2.1 (by decide)⟩

/-- C12, counterexample: the network without stations and lines builds
successfully, and the graph returned has no node and no connected component. -/
theorem graphBuilder_connectivity_counterexample :
    ∃ b, GraphBuilder.new [] [] 5 5 .STATION false = .ok b ∧ b._g.nodes = [] ∧
      b.componentCount = 0 ∧ b.componentCount ≠ 1 :=
  ⟨GraphBuilder.init [] [] 5 5, by rfl, by rfl, by rfl, by decide⟩

end Connectivity

/-! ## Theorems: the entries of the node maps -/

section NamedMaps

open GraphBuilder

theorem named_addStationNode (b : GraphBuilder) (lo hi : Nat) (m : NodeMap) (station : String)
    (hhi : hi ≤ b._g.nextNode) (hm : b.Named lo hi m) :
    (b.addStationNode station).1.Named lo hi m := by
  intro l s n h
  obtain ⟨h0, h1, h2, h3⟩ := hm l s n h
  refine ⟨h0, h1, ?_, h3⟩
  show (if n = b._g.nextNode then station else b._node_names n) = s
  rw [if_neg (by omega)]
  exact h2

theorem named_set (b : GraphBuilder) (lo : Nat) (m : NodeMap) (lineName station : String)
    (hlo : lo ≤ b._g.nextNode) (hm : b.Named lo b._g.nextNode m) :
    (b.addStationNode station).1.Named lo (b._g.nextNode + 1)
      (m.set lineName station b._g.nextNode) := by
  intro l s n h
  simp only [NodeMap.set] at h
  split at h
  · rename_i hls
    simp only [Option.some.injEq] at h
    subst h
    refine ⟨hlo, Nat.lt_succ_self _, ?_, ?_⟩
    · show (if b._g.nextNode = b._g.nextNode then station else b._node_names b._g.nextNode) = s
      rw [if_pos rfl]
      exact hls.2.symm
    · intro l' s' h'
      simp only [NodeMap.set] at h'
      split at h'
      · rename_i hls'
        rw [hls'.1, hls.1]
      · have := (hm l' s' _ h').2.1
        omega
  · obtain ⟨h0, h1, h2, h3⟩ := hm l s n h
    refine ⟨h0, Nat.lt_succ_of_lt h1, ?_, ?_⟩
    · show (if n = b._g.nextNode then station else b._node_names n) = s
      rw [if_neg (by omega)]
      exact h2
    · intro l' s' h'
      simp only [NodeMap.set] at h'
      split at h'
      · simp only [Option.some.injEq] at h'
        omega
      · exact h3 l' s' h'

theorem named_addTravel (b : GraphBuilder) (lo hi : Nat) (m : NodeMap) (lineName : String)
    (tt : Int) (last current : Nat) (hm : b.Named lo hi m) :
    (b.addTravel lineName tt last current).Named lo hi m :=
  fun l s n h => hm l s n h

theorem lineLoop_named (lineName : String) (steps : List (String × Int)) :
    ∀ (last : Option Nat) (b : GraphBuilder) (m : NodeMap) (b' : GraphBuilder) (m' : NodeMap)
      (lo : Nat), lineLoop lineName steps last (b, m) = .ok (b', m') → lo ≤ b._g.nextNode →
      b.Named lo b._g.nextNode m →
      b._g.nextNode ≤ b'._g.nextNode ∧ b'.Named lo b'._g.nextNode m' ∧
        ∀ m2 lo2 hi2, hi2 ≤ b._g.nextNode → b.Named lo2 hi2 m2 → b'.Named lo2 hi2 m2 := by
  induction steps with
  | nil =>
    intro last b m b' m' lo h _ hm
    simp only [lineLoop, Except.ok.injEq, Prod.mk.injEq] at h
    obtain ⟨rfl, rfl⟩ := h
    exact ⟨le_refl _, hm, fun _ _ _ _ h => h⟩
  | cons p rest ih =>
    intro last b m b' m' lo h hlo hm
    obtain ⟨s, tt⟩ := p
    have hn1 : (b.addStationNode s).1._g.nextNode = b._g.nextNode + 1 := rfl
    cases last with
    | none =>
      rw [lineLoop_none] at h
      obtain ⟨h0, h1, h2⟩ := ih _ _ _ _ _ lo h (by rw [hn1]; omega)
        (named_set b lo m lineName s hlo hm)
      rw [hn1] at h0
      exact ⟨by omega, h1, fun m2 lo2 hi2 hhi hm2 =>
        h2 m2 lo2 hi2 (by rw [hn1]; omega) (named_addStationNode b lo2 hi2 m2 s hhi hm2)⟩
    | some last =>
      by_cases htt : 0 < tt
      · rw [lineLoop_some_pos _ _ _ _ _ _ _ htt] at h
        have hn2 : ((b.addStationNode s).1.addTravel lineName tt last b._g.nextNode)._g.nextNode
            = b._g.nextNode + 1 := rfl
        obtain ⟨h0, h1, h2⟩ := ih _ _ _ _ _ lo h (by rw [hn2]; omega)
          (named_addTravel _ _ _ _ lineName tt last _ (named_set b lo m lineName s hlo hm))
        rw [hn2] at h0
        exact ⟨by omega, h1, fun m2 lo2 hi2 hhi hm2 =>
          h2 m2 lo2 hi2 (by rw [hn2]; omega)
            (named_addTravel _ _ _ _ lineName tt last _
              (named_addStationNode b lo2 hi2 m2 s hhi hm2))⟩
      · rw [lineLoop_some_neg _ _ _ _ _ _ _ htt] at h
        exact absurd h (by simp)

theorem wayLines_named (lines : t_linemap) :
    ∀ (b : GraphBuilder) (m : NodeMap) (b' : GraphBuilder) (m' : NodeMap) (lo : Nat),
      wayLines lines (b, m) = .ok (b', m') → lo ≤ b._g.nextNode →
      b.Named lo b._g.nextNode m →
      b._g.nextNode ≤ b'._g.nextNode ∧ b'.Named lo b'._g.nextNode m' ∧
        ∀ m2 lo2 hi2, hi2 ≤ b._g.nextNode → b.Named lo2 hi2 m2 → b'.Named lo2 hi2 m2 := by
  induction lines with
  | nil =>
    intro b m b' m' lo h _ hm
    simp only [wayLines, Except.ok.injEq, Prod.mk.injEq] at h
    obtain ⟨rfl, rfl⟩ := h
    exact ⟨le_refl _, hm, fun _ _ _ _ h => h⟩
  | cons it rest ih =>
    intro b m b' m' lo h hlo hm
    simp only [wayLines] at h
    split at h
    · exact absurd h (by simp)
    · rename_i st1 h1
      obtain ⟨b1, m1⟩ := st1
      rw [wayLoop_eq] at h1
      obtain ⟨g0, g1, g2⟩ := lineLoop_named _ _ _ _ _ _ _ lo h1 hlo hm
      obtain ⟨k0, k1, k2⟩ := ih _ _ _ _ lo h (by omega) g1
      exact ⟨by omega, k1, fun m2 lo2 hi2 hhi hm2 =>
        k2 m2 lo2 hi2 (by omega) (g2 m2 lo2 hi2 hhi hm2)⟩

theorem backLines_named (lines : t_linemap) :
    ∀ (b : GraphBuilder) (m : NodeMap) (b' : GraphBuilder) (m' : NodeMap) (lo : Nat),
      backLines lines (b, m) = .ok (b', m') → lo ≤ b._g.nextNode →
      b.Named lo b._g.nextNode m →
      b._g.nextNode ≤ b'._g.nextNode ∧ b'.Named lo b'._g.nextNode m' ∧
        ∀ m2 lo2 hi2, hi2 ≤ b._g.nextNode → b.Named lo2 hi2 m2 → b'.Named lo2 hi2 m2 := by
  induction lines with
  | nil =>
    intro b m b' m' lo h _ hm
    simp only [backLines, Except.ok.injEq, Prod.mk.injEq] at h
    obtain ⟨rfl, rfl⟩ := h
    exact ⟨le_refl _, hm, fun _ _ _ _ h => h⟩
  | cons it rest ih =>
    intro b m b' m' lo h hlo hm
    simp only [backLines] at h
    split at h
    · exact absurd h (by simp)
    · rename_i st1 h1
      obtain ⟨b1, m1⟩ := st1
      rw [backLoop_eq] at h1
      obtain ⟨g0, g1, g2⟩ := lineLoop_named _ _ _ _ _ _ _ lo h1 hlo hm
      obtain ⟨k0, k1, k2⟩ := ih _ _ _ _ lo h (by omega) g1
      exact ⟨by omega, k1, fun m2 lo2 hi2 hhi hm2 =>
        k2 m2 lo2 hi2 (by omega) (g2 m2 lo2 hi2 hhi hm2)⟩

/-- After `createNodesAndTravelArcs` every entry of the forward node map is one
of the first `totalStops lines` nodes, every entry of the reverse node map one
of the following `totalStops lines` nodes; each is named after the station of
its entry and belongs to one line. -/
theorem createNodesAndTravelArcs_named (stations : t_stationmap) (lines : t_linemap)
    (cc sc : ℚ) (b : GraphBuilder) (way back : NodeMap)
    (h : createNodesAndTravelArcs (init stations lines cc sc) (fun _ _ => none)
      (fun _ _ => none) = .ok (b, way, back)) :
    b.Named 0 (totalStops lines) way ∧
      b.Named (totalStops lines) (2 * totalStops lines) back := by
  have h0 : ∀ (b0 : GraphBuilder) (lo hi : Nat), b0.Named lo hi (fun _ _ => none) := by
    intro b0 lo hi l s n hn
    exact absurd hn (by simp)
  have hkeep := h
  simp only [createNodesAndTravelArcs] at h
  split at h
  · exact absurd h (by simp)
  · rename_i b1 way1 h1
    split at h
    · exact absurd h (by simp)
    · rename_i b2 back1 h2
      simp only [Except.ok.injEq, Prod.mk.injEq] at h
      obtain ⟨rfl, rfl, rfl⟩ := h
      obtain ⟨-, -, w3, -, -, -⟩ := wayLines_shape _ _ _ _ _ h1
        (sound_init stations lines cc sc).1
      obtain ⟨-, -, -, -, hl, -, -⟩ := wayLines_sound _ _ _ _ _ h1
        (sound_init stations lines cc sc) (mapIn_empty _)
      obtain ⟨-, -, k3, -, -, -⟩ := backLines_shape _ _ _ _ _ h2
        (wayLines_shape _ _ _ _ _ h1 (sound_init stations lines cc sc).1).1
      have hl0 : (init stations lines cc sc)._lines = lines := rfl
      have hn0 : (init stations lines cc sc)._g.nextNode = 0 := rfl
      rw [hl0, hn0, Nat.zero_add] at w3
      rw [hl, hl0, w3] at k3
      obtain ⟨-, g1, -⟩ := wayLines_named _ _ _ _ _ 0 h1 (Nat.zero_le _) (h0 _ _ _)
      obtain ⟨-, k1, k2⟩ := backLines_named _ _ _ _ _ (totalStops lines) h2
        (by rw [w3]) (h0 _ _ _)
      rw [w3] at g1
      have hk : b2._g.nextNode = 2 * totalStops lines := by rw [k3]; omega
      rw [hk] at k1
      exact ⟨k2 _ 0 (totalStops lines) (by rw [w3]) g1, k1⟩

/-- The graph after the switch arcs and the transfer arcs. -/
theorem special_shape (b1 : GraphBuilder) (sc cc : ℚ) (switches tf : List (Nat × Nat)) :
    ((b1.addArcs sc switches).addArcs cc tf)._g.edges =
        b1._g.edges ++ arcsFrom b1._g.nextEdge switches ++
          arcsFrom (b1._g.nextEdge + switches.length) tf ∧
      (∀ i, b1._g.nextEdge ≤ i → i < b1._g.nextEdge + switches.length →
        ((b1.addArcs sc switches).addArcs cc tf)._dist i = sc ∧
        ((b1.addArcs sc switches).addArcs cc tf)._connection_arcs i = true) ∧
      (∀ i, b1._g.nextEdge + switches.length ≤ i →
        i < b1._g.nextEdge + switches.length + tf.length →
        ((b1.addArcs sc switches).addArcs cc tf)._dist i = cc ∧
        ((b1.addArcs sc switches).addArcs cc tf)._connection_arcs i = true) ∧
      (∀ i, i < b1._g.nextEdge →
        ((b1.addArcs sc switches).addArcs cc tf)._dist i = b1._dist i ∧
        ((b1.addArcs sc switches).addArcs cc tf)._connection_arcs i =
          b1._connection_arcs i) ∧
      ((b1.addArcs sc switches).addArcs cc tf)._arc_names = b1._arc_names ∧
      ((b1.addArcs sc switches).addArcs cc tf)._g.nodes = b1._g.nodes ∧
      ((b1.addArcs sc switches).addArcs cc tf)._g.nextNode = b1._g.nextNode ∧
      ((b1.addArcs sc switches).addArcs cc tf)._node_names = b1._node_names ∧
      ((b1.addArcs sc switches).addArcs cc tf)._station_nodes = b1._station_nodes ∧
      ((b1.addArcs sc switches).addArcs cc tf)._g.nextEdge =
        b1._g.nextEdge + switches.length + tf.length := by
  obtain ⟨a1, a2, a3, a4, a5, a6, a7, -, -, -, -, a12, a13⟩ := addArcs_fields sc switches b1
  obtain ⟨c1, c2, c3, c4, c5, c6, c7, -, -, -, -, c12, c13⟩ :=
    addArcs_fields cc tf (b1.addArcs sc switches)
  rw [a4] at c3 c4 c12 c13
  refine ⟨by rw [c3, a3], ?_, ?_, ?_, by rw [c7, a7], by rw [c1, a1], by rw [c2, a2],
    by rw [c5, a5], by rw [c6, a6], c4⟩
  · intro i h1 h2
    rw [c12, c13, if_neg (by omega), if_neg (by omega), a12, a13, if_pos ⟨h1, h2⟩,
      if_pos ⟨h1, h2⟩]
    exact ⟨rfl, rfl⟩
  · intro i h1 h2
    rw [c12, c13, if_pos ⟨h1, h2⟩, if_pos ⟨h1, h2⟩]
    exact ⟨rfl, rfl⟩
  · intro i h1
    rw [c12, c13, if_neg (by omega), if_neg (by omega), a12, a13, if_neg (by omega),
      if_neg (by omega)]
    exact ⟨rfl, rfl⟩

theorem arcRecords_toEdge (b : GraphBuilder) :
    b.arcRecords.map ArcRecord.toEdge = b._g.edges := by
  simp only [arcRecords, List.map_map]
  conv_rhs => rw [← List.map_id b._g.edges]
  apply List.map_congr_left
  intro e _
  rfl

theorem mem_arcsFrom_of_mem (e0 : Nat) (arcs : List (Nat × Nat)) (p : Nat × Nat)
    (hp : p ∈ arcs) :
    ∃ e ∈ arcsFrom e0 arcs, e.src = p.1 ∧ e.tgt = p.2 ∧ e0 ≤ e.id ∧ e.id < e0 + arcs.length := by
  obtain ⟨i, hi, hget⟩ := List.mem_iff_getElem.1 hp
  refine ⟨⟨e0 + i, p.1, p.2⟩, (mem_arcsFrom _ _ _).2 ⟨i, ?_, rfl⟩, rfl, rfl, ?_, ?_⟩
  · rw [List.getElem?_eq_getElem hi, hget]
  · exact Nat.le_add_right _ _
  · exact Nat.add_lt_add_left hi _

theorem pair_of_mem_arcsFrom (e0 : Nat) (arcs : List (Nat × Nat)) (e : Edge)
    (he : e ∈ arcsFrom e0 arcs) :
    (e.src, e.tgt) ∈ arcs ∧ e0 ≤ e.id ∧ e.id < e0 + arcs.length := by
  obtain ⟨i, hi, hid⟩ := (mem_arcsFrom _ _ _).1 he
  have hlt : i < arcs.length := by
    by_contra hge
    rw [List.getElem?_eq_none (by omega)] at hi
    exact absurd hi (by simp)
  exact ⟨List.getElem?_mem hi, by omega, by omega⟩

theorem mem_of_map_somePair (arcs : List (Nat × Nat)) (plan : List (Option Nat × Option Nat))
    (h : arcs.map somePair = plan) (q : Option Nat × Option Nat) (hq : q ∈ plan) :
    ∃ p ∈ arcs, q = (some p.1, some p.2) := by
  rw [← h] at hq
  obtain ⟨p, hp, rfl⟩ := List.mem_map.1 hq
  exact ⟨p, hp, rfl⟩

end NamedMaps

/-! ## Theorems: full switching -/

section FullSwitching

open GraphBuilder

theorem mem_allSwitchingPlan (way back : NodeMap) (lines : t_linemap)
    (q : Option Nat × Option Nat) :
    q ∈ allSwitchingPlan way back lines ↔
      ∃ it ∈ lines, ∃ s ∈ it.2.stations,
        q = (way it.2.name s, back it.2.name s) ∨ q = (back it.2.name s, way it.2.name s) := by
  simp only [allSwitchingPlan, List.mem_flatMap, fullSwitches, List.mem_cons,
    List.mem_singleton, List.not_mem_nil, or_false]

end FullSwitching

/-! ## Theorems: the graph before preprocessing -/

section SpecialGraph

open GraphBuilder

theorem travelArcs_flags (lines : t_linemap) :
    ∀ r ∈ travelArcs lines, r.connection = false := by
  have hall : ∀ (arcsOf : Line → Nat → Nat → List ArcRecord),
      (∀ line n0 e0, ∀ r ∈ arcsOf line n0 e0, r.connection = false) →
      ∀ (ls : t_linemap) (n0 e0 : Nat), ∀ r ∈ allLineArcs arcsOf ls n0 e0,
        r.connection = false := by
    intro arcsOf h ls
    induction ls with
    | nil => intro n0 e0 r hr; simp [allLineArcs] at hr
    | cons it rest ih =>
      intro n0 e0 r hr
      simp only [allLineArcs, List.mem_append] at hr
      rcases hr with h1 | h1
      · exact h _ _ _ r h1
      · exact ih _ _ r h1
  intro r hr
  rw [travelArcs, List.mem_append] at hr
  rcases hr with h1 | h1
  · refine hall forwardArcs ?_ lines 0 0 r h1
    intro line n0 e0 r hr
    simp only [forwardArcs, List.mem_map] at hr
    obtain ⟨k, -, rfl⟩ := hr
    rfl
  · refine hall reverseArcs ?_ lines _ _ r h1
    intro line n0 e0 r hr
    simp only [reverseArcs, List.mem_map] at hr
    obtain ⟨k, -, rfl⟩ := hr
    rfl

/-- The graph after `createNodesAndTravelArcs` and `addSpecialArcs`, in any
build configuration: the travel arcs, then the switch arcs of the switching
plan, then a transfer arc for every call of `addConnectionEdge` whose guard
holds.  Exactly the travel arcs are not flagged as connection arcs. -/
theorem specialGraph_spec (stations : t_stationmap) (lines : t_linemap) (cc sc : ℚ)
    (type : ProblemType) (preprocess : Bool) (b1 : GraphBuilder) (way back : NodeMap)
    (b2 : GraphBuilder)
    (h1 : createNodesAndTravelArcs (init stations lines cc sc) (fun _ _ => none)
      (fun _ _ => none) = .ok (b1, way, back))
    (h2 : b1.addSpecialArcs way back type preprocess = .ok b2) :
    ∃ (switches calls : List (Nat × Nat)),
      switches.map somePair = switchingPlan stations way back lines type preprocess ∧
      calls.map somePair = transferPlan way back stations ∧
      b2._g.edges = (travelArcs lines).map ArcRecord.toEdge ++
        arcsFrom (2 * totalSegments lines) switches ++
        arcsFrom (2 * totalSegments lines + switches.length)
          (calls.filter (fun p => decide (b2.HasIn p.1) && decide (b2.HasOut p.2))) ∧
      (∀ e ∈ arcsFrom (2 * totalSegments lines) switches,
        b2._dist e.id = sc ∧ b2._connection_arcs e.id = true) ∧
      (∀ e ∈ arcsFrom (2 * totalSegments lines + switches.length)
          (calls.filter (fun p => decide (b2.HasIn p.1) && decide (b2.HasOut p.2))),
        b2._dist e.id = cc ∧ b2._connection_arcs e.id = true) ∧
      (∀ e ∈ b2._g.edges, b2._connection_arcs e.id = false ↔ e.id < 2 * totalSegments lines) ∧
      b2.Named 0 (totalStops lines) way ∧
      b2.Named (totalStops lines) (2 * totalStops lines) back ∧
      b2.FreshIds ∧ b2.Closed := by
  obtain ⟨g1, g2, g3, g4, g5, g6, g7⟩ := createNodesAndTravelArcs_sound _ _ _ _ _ _ h1
    (sound_init stations lines cc sc) (mapIn_empty _) (mapIn_empty _)
  have g4' : b1._stations = stations := g4
  have g5' : b1._lines = lines := g5
  have g6' : b1._change_cost = cc := g6
  have g7' : b1._switch_cost = sc := g7
  obtain ⟨switches, calls, k1, k2, k3, k4, k5⟩ :=
    addSpecialArcs_trace b1 way back type preprocess b2 g1 g2 g3 h2
  rw [g4', g5'] at k1
  rw [g4'] at k2
  rw [g6', g7'] at k3
  rw [g7'] at k4
  obtain ⟨-, -, a3, a4⟩ := createNodesAndTravelArcs_nodes _ _ _ _ _ _ _ h1
  obtain ⟨n1, n2⟩ := createNodesAndTravelArcs_named _ _ _ _ _ _ _ h1
  obtain ⟨s1, s2, s3, s4, -, -, -, s8, -, -⟩ := special_shape b1 sc cc switches
    (calls.filter (transferGuard (b1.addArcs sc switches)))
  rw [← k3, a4] at s1 s2 s3 s4
  rw [← k3] at s8
  have hE1 : b1._g.edges = (travelArcs lines).map ArcRecord.toEdge := by
    rw [← a3, arcRecords_toEdge]
  rw [hE1] at s1
  have hflag1 : ∀ e ∈ b1._g.edges, b1._connection_arcs e.id = false := by
    intro e he
    have hr : (⟨e.id, e.src, e.tgt, b1._dist e.id, b1._arc_names e.id,
        b1._connection_arcs e.id⟩ : ArcRecord) ∈ b1.arcRecords :=
      List.mem_map.2 ⟨e, he, rfl⟩
    rw [a3] at hr
    exact travelArcs_flags lines _ hr
  have hid1 : ∀ e ∈ b1._g.edges, e.id < 2 * totalSegments lines := by
    intro e he
    have := g1.1.2 e he
    rw [a4] at this
    exact this
  -- the flags of the arcs of the final graph
  have hflags : ∀ e ∈ b2._g.edges,
      b2._connection_arcs e.id = false ↔ e.id < 2 * totalSegments lines := by
    intro e he
    rw [s1] at he
    rcases List.mem_append.1 he with h | h
    · rcases List.mem_append.1 h with h | h
      · rw [← hE1] at h
        have hlt := hid1 e h
        rw [(s4 e.id hlt).2, hflag1 e h]
        simp [hlt]
      · obtain ⟨-, hlo, hhi⟩ := pair_of_mem_arcsFrom _ _ _ h
        rw [(s2 e.id hlo hhi).2]
        simp
        omega
    · obtain ⟨-, hlo, hhi⟩ := pair_of_mem_arcsFrom _ _ _ h
      rw [(s3 e.id hlo hhi).2]
      simp
      omega
  -- the guard in terms of the final graph
  have hguard : ∀ p : Nat × Nat,
      transferGuard (b1.addArcs sc switches) p =
        (decide (b2.HasIn p.1) && decide (b2.HasOut p.2)) := by
    intro p
    have hb2 : b2 = (b1.addArcs sc switches).addArcs cc
        (calls.filter (transferGuard (b1.addArcs sc switches))) := k3
    have ht := transferGuard_addArcs (b1.addArcs sc switches) k4.1.2 cc
      (calls.filter (transferGuard (b1.addArcs sc switches))) p
    rw [← hb2] at ht
    rw [← ht]
    apply Bool.eq_iff_iff.2
    simp only [transferGuard, Bool.and_eq_true, List.any_eq_true, Bool.not_eq_true',
      decide_eq_true_eq, HasIn, HasOut, LGraph.inEdges, LGraph.outEdges, List.mem_filter,
      beq_iff_eq]
    constructor
    · rintro ⟨⟨e, ⟨he, ht⟩, hc⟩, ⟨e', ⟨he', hs'⟩, hc'⟩⟩
      exact ⟨⟨e, he, ht, hc⟩, ⟨e', he', hs', hc'⟩⟩
    · rintro ⟨⟨e, he, ht, hc⟩, ⟨e', he', hs', hc'⟩⟩
      exact ⟨⟨e, ⟨he, ht⟩, hc⟩, ⟨e', ⟨he', hs'⟩, hc'⟩⟩
  have hfilter : calls.filter (transferGuard (b1.addArcs sc switches)) =
      calls.filter (fun p => decide (b2.HasIn p.1) && decide (b2.HasOut p.2)) := by
    apply List.filter_congr
    intro p _
    exact hguard p
  rw [hfilter] at s1 s3
  refine ⟨switches, calls, k1, k2, s1, ?_, ?_, hflags, ?_, ?_, k5.1.2, k5.2.1⟩
  · intro e he
    obtain ⟨-, hlo, hhi⟩ := pair_of_mem_arcsFrom _ _ _ he
    exact s2 e.id hlo hhi
  · intro e he
    obtain ⟨-, hlo, hhi⟩ := pair_of_mem_arcsFrom _ _ _ he
    exact s3 e.id hlo hhi
  · intro l s n hn
    rw [s8]
    exact n1 l s n hn
  · intro l s n hn
    rw [s8]
    exact n2 l s n hn

end SpecialGraph

/-! ## Theorems: the transfer arcs -/

section TransferArcs

open GraphBuilder

theorem mem_laterPairs (l : List String) (a c : String) (h : (a, c) ∈ laterPairs l) :
    a ∈ l ∧ c ∈ l ∧ (l.Nodup → a ≠ c) := by
  induction l with
  | nil => simp [laterPairs] at h
  | cons x rest ih =>
    simp only [laterPairs, List.mem_append, List.mem_map, Prod.mk.injEq] at h
    rcases h with ⟨y, hy, h1, h2⟩ | h
    · subst h1 h2
      refine ⟨List.mem_cons_self _ _, List.mem_cons_of_mem _ hy, ?_⟩
      intro hnd hxy
      rw [hxy] at hnd
      exact (List.nodup_cons.1 hnd).1 hy
    · obtain ⟨h1, h2, h3⟩ := ih h
      exact ⟨List.mem_cons_of_mem _ h1, List.mem_cons_of_mem _ h2,
        fun hnd => h3 (List.nodup_cons.1 hnd).2⟩

theorem laterPairs_of_ne (l : List String) (a c : String) (ha : a ∈ l) (hc : c ∈ l)
    (hac : a ≠ c) : (a, c) ∈ laterPairs l ∨ (c, a) ∈ laterPairs l := by
  induction l with
  | nil => simp at ha
  | cons x rest ih =>
    simp only [laterPairs, List.mem_append, List.mem_map, Prod.mk.injEq]
    rcases List.mem_cons.1 ha with h1 | h1
    · rcases List.mem_cons.1 hc with h2 | h2
      · exact absurd (h1.trans h2.symm) hac
      · exact Or.inl (Or.inl ⟨c, h2, h1.symm, rfl⟩)
    · rcases List.mem_cons.1 hc with h2 | h2
      · exact Or.inr (Or.inl ⟨a, h1, h2.symm, rfl⟩)
      · rcases ih h1 h2 with h3 | h3
        · exact Or.inl (Or.inr h3)
        · exact Or.inr (Or.inr h3)

theorem mem_connectionPairs (way back : NodeMap) (S a c : String)
    (q : Option Nat × Option Nat) :
    q ∈ connectionPairs way back S a c ↔
      (q.1 ∈ [way a S, back a S] ∧ q.2 ∈ [way c S, back c S]) ∨
      (q.1 ∈ [way c S, back c S] ∧ q.2 ∈ [way a S, back a S]) := by
  obtain ⟨q1, q2⟩ := q
  simp only [connectionPairs, List.mem_cons, List.mem_singleton, List.not_mem_nil, or_false,
    Prod.mk.injEq]
  constructor
  · rintro (h | h | h | h | h | h | h | h) <;> simp [h.1, h.2]
  · rintro (⟨h1 | h1, h2 | h2⟩ | ⟨h1 | h1, h2 | h2⟩) <;> simp [h1, h2]

theorem mem_transferPlan (way back : NodeMap) (stations : t_stationmap)
    (q : Option Nat × Option Nat) :
    q ∈ transferPlan way back stations ↔
      ∃ st ∈ stations, ∃ p ∈ laterPairs st.2.lines,
        q ∈ connectionPairs way back st.2.name p.1 p.2 := by
  simp only [transferPlan, List.mem_flatMap]

theorem somePair_injective (p q : Nat × Nat) (h : somePair p = somePair q) : p = q := by
  simp only [somePair, Prod.mk.injEq, Option.some.injEq] at h
  exact Prod.ext h.1 h.2

/-- C15 (amended): in the graph after `createNodesAndTravelArcs` and
`addSpecialArcs`, in any build configuration, the arcs are the travel arcs,
then the switch arcs, then the transfer arcs.  `addConnectionEdge` is called
for every station, every ordered pair of different lines of the station and
each of the four combinations of their forward and reverse nodes, and for
nothing else; every call has both nodes.  The call for the nodes `u` and `v`
adds a transfer arc from `u` to `v` if and only if an arc that is not flagged
as connection arc enters `u` and one leaves `v`, and these arcs are exactly the
travel arcs: switch arcs do not count.  Every transfer arc comes from such a
call and has the cost `change_cost` and the connection flag. -/
theorem addAllConnectionArcs_transfer_arcs (stations : t_stationmap) (lines : t_linemap)
    (cc sc : ℚ) (type : ProblemType) (preprocess : Bool) (b1 : GraphBuilder)
    (way back : NodeMap) (b2 : GraphBuilder)
    (h1 : createNodesAndTravelArcs (init stations lines cc sc) (fun _ _ => none)
      (fun _ _ => none) = .ok (b1, way, back))
    (h2 : b1.addSpecialArcs way back type preprocess = .ok b2) :
    ∃ (switches : List (Nat × Nat)) (transfers : List Edge),
      b2._g.edges = (travelArcs lines).map ArcRecord.toEdge ++
        arcsFrom (2 * totalSegments lines) switches ++ transfers ∧
      (∀ st ∈ stations, ∀ a ∈ st.2.lines, ∀ c ∈ st.2.lines, a ≠ c →
        ∀ s ∈ [way a st.2.name, back a st.2.name], ∀ t ∈ [way c st.2.name, back c st.2.name],
          (s, t) ∈ transferPlan way back stations) ∧
      (∀ q ∈ transferPlan way back stations,
        (∃ st ∈ stations, ∃ a ∈ st.2.lines, ∃ c ∈ st.2.lines, (st.2.lines.Nodup → a ≠ c) ∧
          q.1 ∈ [way a st.2.name, back a st.2.name] ∧
          q.2 ∈ [way c st.2.name, back c st.2.name]) ∧
        ∃ u v, q = (some u, some v) ∧
          ((∃ e ∈ transfers, e.src = u ∧ e.tgt = v) ↔ (b2.HasIn u ∧ b2.HasOut v))) ∧
      (∀ e ∈ transfers, (some e.src, some e.tgt) ∈ transferPlan way back stations ∧
        b2._dist e.id = cc ∧ b2._connection_arcs e.id = true) ∧
      (∀ e ∈ b2._g.edges,
        b2._connection_arcs e.id = false ↔ e.id < 2 * totalSegments lines) := by
  obtain ⟨switches, calls, -, k2, k3, -, k5, k6, -, -, -, -⟩ :=
    specialGraph_spec stations lines cc sc type preprocess b1 way back b2 h1 h2
  refine ⟨switches, _, k3, ?_, ?_, ?_, k6⟩
  · intro st hst a ha c hc hac s hs t ht
    rw [mem_transferPlan]
    rcases laterPairs_of_ne st.2.lines a c ha hc hac with h | h
    · exact ⟨st, hst, (a, c), h, (mem_connectionPairs _ _ _ _ _ _).2 (Or.inl ⟨hs, ht⟩)⟩
    · exact ⟨st, hst, (c, a), h, (mem_connectionPairs _ _ _ _ _ _).2 (Or.inr ⟨hs, ht⟩)⟩
  · intro q hq
    constructor
    · obtain ⟨st, hst, p, hp, hqp⟩ := (mem_transferPlan _ _ _ _).1 hq
      obtain ⟨g1, g2, g3⟩ := mem_laterPairs st.2.lines p.1 p.2 hp
      rcases (mem_connectionPairs _ _ _ _ _ _).1 hqp with h | h
      · exact ⟨st, hst, p.1, g1, p.2, g2, g3, h.1, h.2⟩
      · exact ⟨st, hst, p.2, g2, p.1, g1, fun hnd h' => g3 hnd h'.symm, h.1, h.2⟩
    · obtain ⟨p, hp, hqp⟩ := mem_of_map_somePair calls _ k2 q hq
      refine ⟨p.1, p.2, hqp, ?_⟩
      constructor
      · rintro ⟨e, he, hs, ht⟩
        obtain ⟨hmem, -, -⟩ := pair_of_mem_arcsFrom _ _ _ he
        have := (List.mem_filter.1 hmem).2
        simp only [Bool.and_eq_true, decide_eq_true_eq] at this
        rw [hs, ht] at this
        exact this
      · intro hg
        have hmem : p ∈ calls.filter
            (fun p => decide (b2.HasIn p.1) && decide (b2.HasOut p.2)) := by
          rw [List.mem_filter]
          refine ⟨hp, ?_⟩
          simp only [Bool.and_eq_true, decide_eq_true_eq]
          exact hg
        obtain ⟨e, he, hs, ht, -, -⟩ := mem_arcsFrom_of_mem
          (2 * totalSegments lines + switches.length) _ p hmem
        exact ⟨e, he, hs, ht⟩
  · intro e he
    obtain ⟨hmem, -, -⟩ := pair_of_mem_arcsFrom _ _ _ he
    refine ⟨?_, k5 e he⟩
    rw [← k2]
    exact List.mem_map_of_mem somePair (List.mem_of_mem_filter hmem)

theorem twoLineSwitched_ok :
    addAllSwitchingArcs twoLineTravel.2.1 twoLineTravel.2.2 twoLineLines twoLineTravel.1
      = .ok twoLineSwitched := by
  rfl

theorem twoLineSpecial_ok :
    twoLineTravel.1.addSpecialArcs twoLineTravel.2.1 twoLineTravel.2.2 .STATION false
      = .ok twoLineBuilder := by
  rfl

/-- C15, witness: the network of two lines, without preprocessing; every
transfer arc comes from a call of the plan, and exactly the six travel arcs are
not flagged as connection arcs. -/
theorem addAllConnectionArcs_transfer_arcs_witness :
    createNodesAndTravelArcs (init twoLineStations twoLineLines 5 5) (fun _ _ => none)
        (fun _ _ => none) = .ok (twoLineTravel.1, twoLineTravel.2.1, twoLineTravel.2.2) ∧
      twoLineTravel.1.addSpecialArcs twoLineTravel.2.1 twoLineTravel.2.2 .STATION false
        = .ok twoLineBuilder ∧
      ∃ (switches : List (Nat × Nat)) (transfers : List Edge),
        twoLineBuilder._g.edges = (travelArcs twoLineLines).map ArcRecord.toEdge ++
          arcsFrom (2 * totalSegments twoLineLines) switches ++ transfers ∧
        (∀ e ∈ transfers,
          (some e.src, some e.tgt) ∈
            transferPlan twoLineTravel.2.1 twoLineTravel.2.2 twoLineStations ∧
          twoLineBuilder._dist e.id = 5 ∧ twoLineBuilder._connection_arcs e.id = true) ∧
        (∀ e ∈ twoLineBuilder._g.edges,
          twoLineBuilder._connection_arcs e.id = false ↔
            e.id < 2 * totalSegments twoLineLines) :=
  ⟨twoLineTravel_ok, twoLineSpecial_ok,
    match addAllConnectionArcs_transfer_arcs twoLineStations twoLineLines 5 5 .STATION false
      twoLineTravel.1 twoLineTravel.2.1 twoLineTravel.2.2 twoLineBuilder twoLineTravel_ok
      twoLineSpecial_ok with
    | ⟨switches, transfers, g1, _, _, g4, g5⟩ => ⟨switches, transfers, g1, g4, g5⟩⟩

/-- C15, counterexample: in the network of two lines, built without
preprocessing, the lines `U2` and `U1` both serve `B`; the forward node of `B`
on `U2` is 3, the forward node of `B` on `U1` is 1.  The arc 13 from 9 to 3
enters the node 3; it is a switch arc, present before `addAllConnectionArcs`
runs, hence not a transfer arc.  The travel arc 1 from 1 to 2 leaves the node
1.  Still the graph has no arc from 3 to 1. -/
theorem addAllConnectionArcs_transfer_arcs_counterexample :
    GraphBuilder.new twoLineStations twoLineLines 5 5 .STATION false = .ok twoLineBuilder ∧
      addAllSwitchingArcs twoLineTravel.2.1 twoLineTravel.2.2 twoLineLines twoLineTravel.1
        = .ok twoLineSwitched ∧
      addAllConnectionArcs twoLineTravel.2.1 twoLineTravel.2.2 twoLineStations twoLineSwitched
        = .ok twoLineBuilder ∧
      (∃ st ∈ twoLineStations, st.2.name = "B" ∧ "U2" ∈ st.2.lines ∧ "U1" ∈ st.2.lines) ∧
      twoLineTravel.2.1 "U2" "B" = some 3 ∧ twoLineTravel.2.1 "U1" "B" = some 1 ∧
      (⟨13, 9, 3⟩ : Edge) ∈ twoLineSwitched._g.edges ∧
      (⟨13, 9, 3⟩ : Edge) ∈ twoLineBuilder._g.edges ∧
      (⟨1, 1, 2⟩ : Edge) ∈ twoLineBuilder._g.edges ∧
      ¬ ∃ e ∈ twoLineBuilder._g.edges, e.src = 3 ∧ e.tgt = 1 := by
  refine ⟨by rfl, by rfl, by rfl, ?_, by rfl, by rfl, by decide, by decide, by decide,
    by decide⟩
  exact ⟨("B", ⟨"B", "", ["U1", "U2"]⟩), by simp [twoLineStations], rfl, by simp, by simp⟩

end TransferArcs

/-! ## Theorems: terminal switching -/

section TerminalSwitching

open GraphBuilder

theorem terminalPlanLine_tail (way back : NodeMap) (l : String) (sts : List String) :
    ∀ (tail : List String) (k : Nat), 1 ≤ k → k + tail.length = sts.length →
      terminalPlanLine way back l sts (tail.enumFrom k) =
        match tail.getLast? with
        | some s => [(way l s, back l s)]
        | none => [] := by
  intro tail
  induction tail with
  | nil => intro k _ _; rfl
  | cons s rest ih =>
    intro k hk hlen
    simp only [List.enumFrom_cons, terminalPlanLine]
    rw [ih (k + 1) (by omega) (by simp only [List.length_cons] at hlen; omega)]
    cases rest with
    | nil =>
      have ht : isTerminalStation k sts = true := by
        simp only [isTerminalStation, Bool.or_eq_true, beq_iff_eq]
        right
        simpa using hlen
      have hsw : terminalSwitch way back l k s = (way l s, back l s) := by
        simp only [terminalSwitch]
        rw [if_neg (by omega)]
      rw [if_pos ht, hsw]
      rfl
    | cons t rest' =>
      have ht : isTerminalStation k sts = false := by
        simp only [isTerminalStation, Bool.or_eq_false_iff, beq_eq_false_iff_ne, ne_eq]
        simp only [List.length_cons] at hlen
        constructor <;> omega
      rw [ht]
      simp only [Bool.false_eq_true, if_false, List.nil_append, List.getLast?_cons_cons]

/-- The calls of `addSwitchingArcsAtTerminals` for one line. -/
theorem terminalPlanLine_eq (way back : NodeMap) (line : Line) :
    terminalPlanLine way back line.name line.stations line.stations.enum =
      terminalSwitchesOf way back line := by
  simp only [terminalSwitchesOf, List.enum]
  cases hs : line.stations with
  | nil => rfl
  | cons first rest =>
    simp only [List.enumFrom_cons, terminalPlanLine, List.head?_cons, List.length_cons]
    have h0 : isTerminalStation 0 (first :: rest) = true := by
      simp [isTerminalStation]
    have hsw : terminalSwitch way back line.name 0 first =
        (back line.name first, way line.name first) := by
      simp [terminalSwitch]
    rw [if_pos h0, hsw, terminalPlanLine_tail way back line.name (first :: rest) rest 1
      (le_refl _) (by simp only [List.length_cons]; omega)]
    cases rest with
    | nil => rfl
    | cons t rest' =>
      have hlast : (first :: t :: rest').getLast? = (t :: rest').getLast? :=
        List.getLast?_cons_cons
      rw [hlast]
      cases hl : (t :: rest').getLast? with
      | none => simp at hl
      | some last =>
        simp only [List.length_cons]
        rw [if_pos (by omega)]
        rfl

theorem terminalPlan_eq (way back : NodeMap) (lines : t_linemap) :
    terminalPlan way back lines = lines.flatMap (fun it => terminalSwitchesOf way back it.2) := by
  simp only [terminalPlan]
  congr 1
  funext it
  exact terminalPlanLine_eq way back it.2

end TerminalSwitching

/-! ## Theorems: restricted switching -/

section RestrictedSwitching

open GraphBuilder

theorem restrictedPlanLine_eq (sm : t_stationmap) (way back : NodeMap) (l : String)
    (sts : List String) (en : List (Nat × String)) :
    restrictedPlanLine sm way back l sts en =
      en.flatMap (fun p => restrictedSwitchesAt sm way back l sts p.1 p.2) := by
  induction en with
  | nil => rfl
  | cons p rest ih =>
    obtain ⟨i, s⟩ := p
    simp only [restrictedPlanLine, List.flatMap_cons, ih]

theorem restrictedPlan_eq (sm : t_stationmap) (way back : NodeMap) (lines : t_linemap) :
    restrictedPlan sm way back lines =
      lines.flatMap (fun it => it.2.stations.enum.flatMap (fun p =>
        restrictedSwitchesAt sm way back it.2.name it.2.stations p.1 p.2)) := by
  simp only [restrictedPlan]
  congr 1
  funext it
  exact restrictedPlanLine_eq sm way back _ _ _

/-- Every call of the restricted switching rule is made at a stop whose station
serves one line, and this stop is a terminal or has a neighbour that serves
several lines. -/
theorem mem_restrictedSwitchesAt (sm : t_stationmap) (way back : NodeMap) (l : String)
    (sts : List String) (i : Nat) (s : String) (q : Option Nat × Option Nat)
    (hq : q ∈ restrictedSwitchesAt sm way back l sts i s) :
    servesSeveralLines sm s = false ∧
      (q = (way l s, back l s) ∨ q = (back l s, way l s)) ∧
      (isTerminalStation i sts = true ∨
        servesSeveralLines sm (sts.getD (i + 1) "") = true ∨
        servesSeveralLines sm (sts.getD (i - 1) "") = true) := by
  simp only [restrictedSwitchesAt] at hq
  split at hq
  · simp at hq
  · rename_i hs
    refine ⟨by simpa using hs, ?_⟩
    split at hq
    · rename_i ht
      rw [List.mem_singleton] at hq
      subst hq
      refine ⟨?_, Or.inl ht⟩
      simp only [terminalSwitch]
      split
      · exact Or.inr rfl
      · exact Or.inl rfl
    · split at hq
      · rw [List.mem_append] at hq
        rcases hq with h | h
        · split at h
          · rename_i hn
            rw [List.mem_singleton] at h
            exact ⟨Or.inl h, Or.inr (Or.inl hn)⟩
          · simp at h
        · split at h
          · rename_i hp
            rw [List.mem_singleton] at h
            exact ⟨Or.inr h, Or.inr (Or.inr hp)⟩
          · simp at h
      · simp at hq

theorem twoLineRestricted_ok :
    twoLineTravel.1.addSpecialArcs twoLineTravel.2.1 twoLineTravel.2.2 .STATION true
      = .ok twoLineRestricted := by
  rfl

end RestrictedSwitching

/-! ## Theorems: no switching at a station of several lines -/

section NoSwitching

open GraphBuilder

theorem allLineArcs_bounds (arcsOf : Line → Nat → Nat → List ArcRecord)
    (h : ∀ line n0 e0, ∀ r ∈ arcsOf line n0 e0,
      n0 ≤ r.src ∧ r.src < n0 + line.stations.length ∧
        n0 ≤ r.tgt ∧ r.tgt < n0 + line.stations.length)
    (lines : t_linemap) :
    ∀ n0 e0, ∀ r ∈ allLineArcs arcsOf lines n0 e0,
      n0 ≤ r.src ∧ r.src < n0 + totalStops lines ∧ n0 ≤ r.tgt ∧ r.tgt < n0 + totalStops lines := by
  induction lines with
  | nil => intro n0 e0 r hr; simp [allLineArcs] at hr
  | cons it rest ih =>
    intro n0 e0 r hr
    simp only [allLineArcs, List.mem_append] at hr
    rw [totalStops_cons]
    rcases hr with h1 | h1
    · have := h _ _ _ r h1
      omega
    · have := ih _ _ r h1
      omega

/-- A travel arc joins two forward nodes or two reverse nodes. -/
theorem travelArcs_sides (lines : t_linemap) :
    ∀ r ∈ travelArcs lines,
      (r.src < totalStops lines ∧ r.tgt < totalStops lines) ∨
        (totalStops lines ≤ r.src ∧ totalStops lines ≤ r.tgt) := by
  intro r hr
  rw [travelArcs, List.mem_append] at hr
  rcases hr with h1 | h1
  · left
    have := allLineArcs_bounds forwardArcs (by
      intro line n0 e0 r hr
      simp only [forwardArcs, List.mem_map, List.mem_range] at hr
      obtain ⟨k, hk, rfl⟩ := hr
      simp only
      omega) lines 0 0 r h1
    omega
  · right
    have := allLineArcs_bounds reverseArcs (by
      intro line n0 e0 r hr
      simp only [reverseArcs, List.mem_map, List.mem_range] at hr
      obtain ⟨k, hk, rfl⟩ := hr
      simp only
      omega) lines (totalStops lines) (totalSegments lines) r h1
    omega

theorem contractNode_connection (b : GraphBuilder) (v : Nat) (ein eout : Edge)
    (hf : b.FreshIds) :
    ∀ e ∈ (b.contractNode v ein eout)._g.edges,
      (b.contractNode v ein eout)._connection_arcs e.id = true →
      e ∈ b._g.edges ∧ b._connection_arcs e.id = true := by
  intro e he hc
  rw [contractNode_edges, List.mem_filter] at he
  rcases List.mem_append.1 he.1 with h | h
  · refine ⟨h, ?_⟩
    rw [← (contractNode_old b v ein eout e.id (hf e h)).2.2]
    exact hc
  · rw [List.mem_singleton] at h
    subst h
    simp [contractNode] at hc

theorem removeChain_connection (l : List Nat) :
    ∀ (b : GraphBuilder) (red : List Nat) (r : GraphBuilder × List Nat),
      removeChain l (b, red) = .ok r → b.FreshIds →
      r.1.FreshIds ∧ ∀ e ∈ r.1._g.edges, r.1._connection_arcs e.id = true →
        e ∈ b._g.edges ∧ b._connection_arcs e.id = true := by
  induction l with
  | nil =>
    intro b red r h hf
    simp only [removeChain, Except.ok.injEq] at h
    subst h
    exact ⟨hf, fun e he hc => ⟨he, hc⟩⟩
  | cons n ns ih =>
    intro b red r h hf
    obtain ⟨ein, eout, -, -, -, h1⟩ := removeChain_cons_inv b n ns red r h
    obtain ⟨g1, g2⟩ := ih _ _ _ h1 (freshIds_contractNode b n ein eout hf)
    refine ⟨g1, ?_⟩
    intro e he hc
    obtain ⟨k1, k2⟩ := g2 e he hc
    exact contractNode_connection b n ein eout hf e k1 k2

theorem removeChains_connection (type : ProblemType) (chains : List (List Nat)) :
    ∀ (st r : GraphBuilder × List Nat), removeChains type chains st = .ok r → st.1.FreshIds →
      r.1.FreshIds ∧ ∀ e ∈ r.1._g.edges, r.1._connection_arcs e.id = true →
        e ∈ st.1._g.edges ∧ st.1._connection_arcs e.id = true := by
  induction chains with
  | nil =>
    intro st r h hf
    simp only [removeChains, Except.ok.injEq] at h
    subst h
    exact ⟨hf, fun e he hc => ⟨he, hc⟩⟩
  | cons list rest ih =>
    intro st r h hf
    simp only [removeChains] at h
    split at h
    · exact absurd h (by simp)
    · exact ih st r h hf
    · split at h
      · exact absurd h (by simp)
      · rename_i st1 h1
        obtain ⟨b, red⟩ := st
        obtain ⟨g1, g2⟩ := removeChain_connection list b red st1 h1 hf
        obtain ⟨k1, k2⟩ := ih st1 r h g1
        refine ⟨k1, ?_⟩
        intro e he hc
        obtain ⟨m1, m2⟩ := k2 e he hc
        exact g2 e m1 m2

/-- Preprocessing adds no connection arc: a connection arc of the result is a
connection arc of the graph before. -/
theorem preprocessGraph_connection (b b' : GraphBuilder) (type : ProblemType)
    (h : b.preprocessGraph type = .ok b') (hf : b.FreshIds) :
    ∀ e ∈ b'._g.edges, b'._connection_arcs e.id = true →
      e ∈ b._g.edges ∧ b._connection_arcs e.id = true := by
  unfold preprocessGraph at h
  split at h
  · exact absurd h (by simp)
  · rename_i chains _
    split at h
    · exact absurd h (by simp)
    · rename_i b1 red h1
      simp only [Except.ok.injEq] at h
      subst h
      exact (removeChains_connection type chains (b, []) (b1, red) h1 hf).2

/-- C18: in station mode with preprocessing no switch arc is at a station that
serves several lines (the lines of a station form a set).  In the graph before
the chains are contracted no arc at all joins the forward and the reverse node
of a line at such a station.  Contraction adds no connection arc, so in the
built graph every connection arc is an arc of the graph before, and no
connection arc joins the forward and the reverse node of a line at such a
station. -/
theorem graphBuilder_no_switch_at_transfer_station (stations : t_stationmap)
    (lines : t_linemap) (cc sc : ℚ) (b : GraphBuilder)
    (hset : ∀ st ∈ stations, st.2.lines.Nodup)
    (h : GraphBuilder.new stations lines cc sc .STATION true = .ok b) :
    ∃ (b1 : GraphBuilder) (way back : NodeMap) (b2 : GraphBuilder),
      createNodesAndTravelArcs (init stations lines cc sc) (fun _ _ => none) (fun _ _ => none)
        = .ok (b1, way, back) ∧
      b1.addSpecialArcs way back .STATION true = .ok b2 ∧
      b2.preprocessGraph .STATION = .ok b ∧
      (∀ e ∈ b2._g.edges, ∀ l s, servesSeveralLines stations s = true →
        ¬ JoinsPair way back l s e) ∧
      (∀ e ∈ b._g.edges, b._connection_arcs e.id = true →
        e ∈ b2._g.edges ∧ b2._connection_arcs e.id = true) ∧
      (∀ e ∈ b._g.edges, b._connection_arcs e.id = true →
        ∀ l s, servesSeveralLines stations s = true → ¬ JoinsPair way back l s e) := by
  obtain ⟨hfin, -⟩ := (new_ok_iff _ _ _ _ _ _ _).1 h
  obtain ⟨b1, way, back, b2, h1, h2, h3⟩ := finalGraph_phases _ _ _ _ _ _ _ hfin
  simp only [if_true] at h3
  obtain ⟨switches, calls, k1, k2, k3, -, -, -, k7, k8, k9, -⟩ :=
    specialGraph_spec stations lines cc sc .STATION true b1 way back b2 h1 h2
  have hplan : switches.map somePair = restrictedPlan stations way back lines := by
    rw [k1]; simp [switchingPlan]
  have hbefore : ∀ e ∈ b2._g.edges, ∀ l s, servesSeveralLines stations s = true →
      ¬ JoinsPair way back l s e := by
    intro e he l s hs hj
    -- the two nodes: a forward node and a reverse node, both named `s`
    have hsides : (∃ u v, way l s = some u ∧ back l s = some v ∧
        ((e.src = u ∧ e.tgt = v) ∨ (e.src = v ∧ e.tgt = u))) := by
      rcases hj with ⟨a1, a2⟩ | ⟨a1, a2⟩
      · exact ⟨e.src, e.tgt, a1, a2, Or.inl ⟨rfl, rfl⟩⟩
      · exact ⟨e.tgt, e.src, a2, a1, Or.inr ⟨rfl, rfl⟩⟩
    obtain ⟨u, v, hu, hv, huv⟩ := hsides
    obtain ⟨-, hu2, hu3, hu4⟩ := k7 l s u hu
    obtain ⟨hv1, -, hv3, hv4⟩ := k8 l s v hv
    rw [k3] at he
    rcases List.mem_append.1 he with he | he
    · rcases List.mem_append.1 he with he | he
      · -- a travel arc stays on one side
        obtain ⟨r, hr, hre⟩ := List.mem_map.1 he
        have hside := travelArcs_sides lines r hr
        have hs1 : r.src = e.src := by rw [← hre]; rfl
        have hs2 : r.tgt = e.tgt := by rw [← hre]; rfl
        rw [hs1, hs2] at hside
        rcases huv with ⟨c1, c2⟩ | ⟨c1, c2⟩ <;> omega
      · -- a switch arc is at a station that serves one line
        obtain ⟨hmem, -, -⟩ := pair_of_mem_arcsFrom _ _ _ he
        have hq : somePair (e.src, e.tgt) ∈ restrictedPlan stations way back lines := by
          rw [← hplan]
          exact List.mem_map_of_mem _ hmem
        rw [restrictedPlan_eq] at hq
        simp only [List.mem_flatMap] at hq
        obtain ⟨it, -, p, -, hq⟩ := hq
        obtain ⟨g1, g2, -⟩ := mem_restrictedSwitchesAt _ _ _ _ _ _ _ _ hq
        have hname : b2._node_names e.src = p.2 := by
          simp only [somePair, Prod.mk.injEq] at g2
          rcases g2 with ⟨a1, -⟩ | ⟨a1, -⟩
          · exact (k7 _ _ _ a1.symm).2.2.1
          · exact (k8 _ _ _ a1.symm).2.2.1
        have hname2 : b2._node_names e.src = s := by
          rcases huv with ⟨c1, -⟩ | ⟨c1, -⟩
          · rw [c1]; exact hu3
          · rw [c1]; exact hv3
        rw [hname] at hname2
        rw [hname2, hs] at g1
        exact absurd g1 (by simp)
    · -- a transfer arc joins the nodes of two lines
      obtain ⟨hmem, -, -⟩ := pair_of_mem_arcsFrom _ _ _ he
      have hq : somePair (e.src, e.tgt) ∈ transferPlan way back stations := by
        rw [← k2]
        exact List.mem_map_of_mem _ (List.mem_of_mem_filter hmem)
      obtain ⟨st, hst, p, hp, hqp⟩ := (mem_transferPlan _ _ _ _).1 hq
      obtain ⟨-, -, hne⟩ := mem_laterPairs st.2.lines p.1 p.2 hp
      have hne' := hne (hset st hst)
      -- the line of a node of the maps
      have hline : ∀ (n : Nat) (a : String),
          (some n = way a st.2.name ∨ some n = back a st.2.name) → (n = u ∨ n = v) →
          a = l := by
        intro n a hn hnuv
        rcases hn with hn | hn
        · rcases hnuv with c | c
          · rw [c] at hn; exact hu4 _ _ hn.symm
          · rw [c] at hn
            have := (k7 _ _ _ hn.symm).2.1
            omega
        · rcases hnuv with c | c
          · rw [c] at hn
            have := (k8 _ _ _ hn.symm).1
            omega
          · rw [c] at hn; exact hv4 _ _ hn.symm
      have hsrc : e.src = u ∨ e.src = v := by
        rcases huv with ⟨c1, -⟩ | ⟨c1, -⟩
        · exact Or.inl c1
        · exact Or.inr c1
      have htgt : e.tgt = u ∨ e.tgt = v := by
        rcases huv with ⟨-, c2⟩ | ⟨-, c2⟩
        · exact Or.inr c2
        · exact Or.inl c2
      simp only [somePair] at hqp
      rcases (mem_connectionPairs _ _ _ _ _ _).1 hqp with ⟨m1, m2⟩ | ⟨m1, m2⟩
      · simp only [List.mem_cons, List.mem_singleton, List.not_mem_nil, or_false] at m1 m2
        exact hne' ((hline e.src p.1 m1 hsrc).trans (hline e.tgt p.2 m2 htgt).symm)
      · simp only [List.mem_cons, List.mem_singleton, List.not_mem_nil, or_false] at m1 m2
        exact hne' ((hline e.tgt p.1 m2 htgt).trans (hline e.src p.2 m1 hsrc).symm)
  have hconn := preprocessGraph_connection b2 b .STATION h3 k9
  refine ⟨b1, way, back, b2, h1, h2, h3, hbefore, hconn, ?_⟩
  intro e he hc l s hs
  exact hbefore e (hconn e he hc).1 l s hs

/-- C18, witness: the two lines through the same three stations build in station
mode with preprocessing; every station serves both lines, and no connection arc
joins the forward and the reverse node of a line. -/
theorem graphBuilder_no_switch_at_transfer_station_witness :
    (∀ st ∈ sharedStations, st.2.lines.Nodup) ∧
      GraphBuilder.new sharedStations sharedLines 5 5 .STATION true = .ok sharedBuilder ∧
      (∀ st ∈ sharedStations, servesSeveralLines sharedStations st.2.name = true) ∧
      ∃ (way back : NodeMap),
        ∀ e ∈ sharedBuilder._g.edges, sharedBuilder._connection_arcs e.id = true →
          ∀ l s, servesSeveralLines sharedStations s = true → ¬ JoinsPair way back l s e :=
  ⟨by decide, by rfl, by decide,
    match graphBuilder_no_switch_at_transfer_station sharedStations sharedLines 5 5
      sharedBuilder (by decide) (by rfl) with
    | ⟨_, way, back, _, _, _, _, _, _, g6⟩ => ⟨way, back, g6⟩⟩

end NoSwitching

/-! ## Theorems: the synthetic arc of a contracted chain -/

section ChainArc

open GraphBuilder

theorem chainFrom_names (b : GraphBuilder) (q : Nat) :
    ∀ (vs : List Nat) (outs : List Edge) (e : Edge), b.ChainFrom e vs outs q →
      outs.length = vs.length ∧ ∀ x ∈ outs, b._arc_names x.id = b._arc_names e.id := by
  intro vs
  induction vs with
  | nil =>
    intro outs e h
    cases outs with
    | nil => exact ⟨rfl, fun x hx => by simp at hx⟩
    | cons o os => simp [ChainFrom] at h
  | cons v vs ih =>
    intro outs e h
    cases outs with
    | nil => simp [ChainFrom] at h
    | cons o os =>
      simp only [ChainFrom] at h
      obtain ⟨g1, g2⟩ := ih os o h.2.2.2
      refine ⟨by simp [g1], ?_⟩
      intro x hx
      rcases List.mem_cons.1 hx with h1 | h1
      · rw [h1]; exact h.2.2.1.symm
      · rw [g2 x h1]; exact h.2.2.1.symm

theorem chainFrom_incident (b : GraphBuilder) (q : Nat) :
    ∀ (vs : List Nat) (outs : List Edge) (e : Edge), b.ChainFrom e vs outs q →
      ∀ x ∈ outs, x.src ∈ vs := by
  intro vs
  induction vs with
  | nil =>
    intro outs e h x hx
    cases outs with
    | nil => simp at hx
    | cons o os => simp [ChainFrom] at h
  | cons v vs ih =>
    intro outs e h x hx
    cases outs with
    | nil => simp at hx
    | cons o os =>
      simp only [ChainFrom] at h
      rcases List.mem_cons.1 hx with h1 | h1
      · rw [h1, (mem_of_outEdges b v o h.2.1).2]
        exact List.mem_cons_self _ _
      · exact List.mem_cons_of_mem _ (ih os o h.2.2.2 x h1)

/-- C20: let `p → v_1 → … → v_k → q` be a chain of the graph: `ein` is the arc
from `p` to `v_1`, `outs` are the arcs that leave `v_1, …, v_k` in order, every
`v_i` has exactly these two arcs, the nodes `v_i` are different from each other
and from `p` and `q`.  The loop of `preprocessGraph` over the chain succeeds
and records the nodes of the chain as removed.  In the resulting graph the
nodes `v_i` and the `k + 1` arcs of the chain are gone, together with all arcs
at the nodes `v_i`; the only new arc leads from `p` to `q`, its cost is the sum
of the costs of the `k + 1` arcs, it carries their label and is not flagged as
connection arc.  The other arcs keep their attributes. -/
theorem removeChain_contracts_chain (b : GraphBuilder) (p q : Nat) (ein : Edge) (v : Nat)
    (vs : List Nat) (outs : List Edge) (red : List Nat) (hf : b.FreshIds)
    (hp : ein.src = p) (hch : b.ChainFrom ein (v :: vs) outs q) (hnd : (v :: vs).Nodup)
    (hpv : p ∉ v :: vs) (hqv : q ∉ v :: vs) :
    ∃ b', removeChain (v :: vs) (b, red) = .ok (b', red ++ (v :: vs)) ∧
      outs.length = vs.length + 1 ∧
      (∀ x ∈ outs, b._arc_names x.id = b._arc_names ein.id) ∧
      b'._g.nodes = b._g.nodes.filter (fun n => n ∉ v :: vs) ∧
      b'._g.edges =
        b._g.edges.filter (fun e => e.src ∉ v :: vs ∧ e.tgt ∉ v :: vs) ++
          [Edge.mk (b._g.nextEdge + vs.length) p q] ∧
      b'._dist (b._g.nextEdge + vs.length) =
        b._dist ein.id + (outs.map (fun e => b._dist e.id)).sum ∧
      b'._arc_names (b._g.nextEdge + vs.length) = b._arc_names ein.id ∧
      b'._connection_arcs (b._g.nextEdge + vs.length) = false ∧
      (∀ i, i < b._g.nextEdge → b'._dist i = b._dist i ∧ b'._arc_names i = b._arc_names i ∧
        b'._connection_arcs i = b._connection_arcs i) ∧
      (∀ n ∈ v :: vs, n ∉ b'._g.nodes) ∧
      ein ∉ b'._g.edges ∧ (∀ x ∈ outs, x ∉ b'._g.edges) := by
  obtain ⟨b', hrun, hC⟩ := removeChain_contracted q vs v b ein outs red hf hch hnd
    (by rw [hp]; exact hpv) hqv
  obtain ⟨hlen, hnames⟩ := chainFrom_names b q (v :: vs) outs ein hch
  have hidx : b._g.nextEdge + ((v :: vs).length - 1) = b._g.nextEdge + vs.length := by
    simp
  have hE := hC.edges
  rw [hidx, hp] at hE
  have hgone : ∀ x ∈ b._g.edges, (x.src ∈ v :: vs ∨ x.tgt ∈ v :: vs) → x ∉ b'._g.edges := by
    intro x hx hinc hmem
    rw [hE] at hmem
    rcases List.mem_append.1 hmem with h | h
    · have := (List.mem_filter.1 h).2
      simp only [decide_eq_true_eq] at this
      rcases hinc with c | c
      · exact this.1 c
      · exact this.2 c
    · rw [List.mem_singleton] at h
      have hid := hf x hx
      rw [h] at hid
      simp at hid
  have hin : b._g.inEdges v = [ein] := by
    cases outs with
    | nil => simp [ChainFrom] at hch
    | cons o os =>
      simp only [ChainFrom] at hch
      exact hch.1
  refine ⟨b', hrun, by rw [hlen]; simp, hnames, hC.nodes, hE, ?_, ?_, ?_, hC.old, ?_, ?_, ?_⟩
  · rw [← hidx]; exact hC.dist
  · rw [← hidx]; exact hC.label
  · rw [← hidx]; exact hC.flag
  · intro n hn hmem
    rw [hC.nodes] at hmem
    have := (List.mem_filter.1 hmem).2
    simp only [decide_eq_true_eq] at this
    exact this hn
  · have := mem_of_inEdges b v ein hin
    exact hgone ein this.1 (Or.inr (by rw [this.2]; exact List.mem_cons_self _ _))
  · intro x hx
    exact hgone x (chainFrom_mem b q (v :: vs) outs ein hch x hx)
      (Or.inl (chainFrom_incident b q (v :: vs) outs ein hch x hx))

theorem chainSpecial_fresh : chainSpecial.FreshIds := by
  intro e he
  revert e
  decide

theorem chainSpecial_chain :
    chainSpecial.ChainFrom ⟨0, 0, 1⟩ [1, 2] [⟨1, 1, 2⟩, ⟨2, 2, 3⟩] 3 := by
  simp only [ChainFrom]
  refine ⟨by decide, by decide, by rfl, by decide, by decide, by rfl, trivial⟩

theorem chainSpecial_cost :
    chainSpecial._dist 0 + ([(⟨1, 1, 2⟩ : Edge), ⟨2, 2, 3⟩].map
      (fun e => chainSpecial._dist e.id)).sum = 11 := by
  have h0 : chainSpecial._dist 0 = 4 := by rfl
  have h1 : chainSpecial._dist 1 = 5 := by rfl
  have h2 : chainSpecial._dist 2 = 2 := by rfl
  simp only [List.map_cons, List.map_nil, List.sum_cons, List.sum_nil, h0, h1, h2]
  norm_num

/-- C20, witness: on the single line of four stations the chain
`0 → 1 → 2 → 3` of the travel arcs with the costs 4, 5, 2 becomes the arc 9 from
0 to 3 with the cost 11. -/
theorem removeChain_contracts_chain_witness :
    chainSpecial.FreshIds ∧
      chainSpecial.ChainFrom ⟨0, 0, 1⟩ [1, 2] [⟨1, 1, 2⟩, ⟨2, 2, 3⟩] 3 ∧
      chainSpecial._g.nextEdge = 8 ∧
      chainSpecial._dist 0 + ([(⟨1, 1, 2⟩ : Edge), ⟨2, 2, 3⟩].map
        (fun e => chainSpecial._dist e.id)).sum = 11 ∧
      ∃ b', removeChain [1, 2] (chainSpecial, []) = .ok (b', [] ++ [1, 2]) ∧
        b'._g.edges =
          chainSpecial._g.edges.filter (fun e => e.src ∉ [1, 2] ∧ e.tgt ∉ [1, 2]) ++
            [Edge.mk (chainSpecial._g.nextEdge + [2].length) 0 3] ∧
        b'._dist (chainSpecial._g.nextEdge + [2].length) =
          chainSpecial._dist 0 + ([(⟨1, 1, 2⟩ : Edge), ⟨2, 2, 3⟩].map
            (fun e => chainSpecial._dist e.id)).sum :=
  ⟨chainSpecial_fresh, chainSpecial_chain, by rfl, chainSpecial_cost,
    match removeChain_contracts_chain chainSpecial 0 3 ⟨0, 0, 1⟩ 1 [2]
      [⟨1, 1, 2⟩, ⟨2, 2, 3⟩] [] chainSpecial_fresh rfl chainSpecial_chain (by decide)
      (by decide) (by decide) with
    | ⟨b', g1, _, _, _, g5, g6, _⟩ => ⟨b', g1, g5, g6⟩⟩

end ChainArc

/-! ## Theorems: the node maps of lines that list no station twice -/

section NodeMaps

open GraphBuilder

theorem nodeMap_set_other (m : NodeMap) (lineName station : String) (n : Nat) (l s : String)
    (h : l ≠ lineName ∨ s ≠ station) : m.set lineName station n l s = m l s := by
  simp only [NodeMap.set]
  rw [if_neg]
  rintro ⟨h1, h2⟩
  rcases h with h | h
  · exact h h1
  · exact h h2

theorem nodeMap_set_self (m : NodeMap) (lineName station : String) (n : Nat) :
    m.set lineName station n lineName station = some n := by
  simp [NodeMap.set]

/-- A visit of a line enters its stops into the node map and leaves the other
entries as they are. -/
theorem lineLoop_maps (lineName : String) (steps : List (String × Int)) :
    ∀ (last : Option Nat) (b : GraphBuilder) (m : NodeMap) (b' : GraphBuilder) (m' : NodeMap),
      lineLoop lineName steps last (b, m) = .ok (b', m') →
      (∀ l s, (l ≠ lineName ∨ s ∉ steps.map Prod.fst) → m' l s = m l s) ∧
      ((steps.map Prod.fst).Nodup → ∀ k s, (steps.map Prod.fst)[k]? = some s →
        m' lineName s = some (b._g.nextNode + k)) := by
  induction steps with
  | nil =>
    intro last b m b' m' h
    simp only [lineLoop, Except.ok.injEq, Prod.mk.injEq] at h
    obtain ⟨rfl, rfl⟩ := h
    exact ⟨fun _ _ _ => rfl, fun _ k s hk => by simp at hk⟩
  | cons p rest ih =>
    intro last b m b' m' h
    obtain ⟨s0, tt⟩ := p
    have key : ∀ (b1 : GraphBuilder), b1._g.nextNode = b._g.nextNode + 1 →
        lineLoop lineName rest (some b._g.nextNode)
          (b1, m.set lineName s0 b._g.nextNode) = .ok (b', m') →
        (∀ l s, (l ≠ lineName ∨ s ∉ ((s0, tt) :: rest).map Prod.fst) → m' l s = m l s) ∧
        ((((s0, tt) :: rest).map Prod.fst).Nodup → ∀ k s,
          (((s0, tt) :: rest).map Prod.fst)[k]? = some s →
          m' lineName s = some (b._g.nextNode + k)) := by
      intro b1 hn1 hrun
      obtain ⟨g1, g2⟩ := ih _ _ _ _ _ hrun
      rw [hn1] at g2
      constructor
      · intro l s hls
        have h1 : l ≠ lineName ∨ s ∉ rest.map Prod.fst := by
          rcases hls with c | c
          · exact Or.inl c
          · exact Or.inr (fun hmem => c (by
              rw [List.map_cons]; exact List.mem_cons_of_mem _ hmem))
        rw [g1 l s h1]
        apply nodeMap_set_other
        rcases hls with c | c
        · exact Or.inl c
        · exact Or.inr (fun heq => c (by rw [List.map_cons, heq]; exact List.mem_cons_self _ _))
      · intro hnd k s hk
        rw [List.map_cons] at hnd hk
        cases k with
        | zero =>
          simp only [List.getElem?_cons_zero, Option.some.injEq] at hk
          subst hk
          rw [g1 lineName _ (Or.inr (List.nodup_cons.1 hnd).1), nodeMap_set_self]
          rfl
        | succ k =>
          simp only [List.getElem?_cons_succ] at hk
          rw [g2 (List.nodup_cons.1 hnd).2 k s hk]
          congr 1
          omega
    cases last with
    | none =>
      rw [lineLoop_none] at h
      exact key _ rfl h
    | some last =>
      by_cases htt : 0 < tt
      · rw [lineLoop_some_pos _ _ _ _ _ _ _ htt] at h
        exact key _ rfl h
      · rw [lineLoop_some_neg _ _ _ _ _ _ _ htt] at h
        exact absurd h (by simp)

/-- The entries of the node map after a loop over all lines that visits the
stops `stops line` of every line: the stop with index `k` of the line that
follows the lines `pre` has the node `nextNode + totalStops pre + k`. -/
theorem linesLoop_maps (stops : Line → List String) (hlen : ∀ line, (stops line).length =
      line.stations.length)
    (loop : t_linemap → GraphBuilder × NodeMap → Except String (GraphBuilder × NodeMap))
    (hnil : ∀ st, loop [] st = .ok st)
    (hcons : ∀ it rest st r, loop (it :: rest) st = .ok r →
      ∃ steps st1, steps.map Prod.fst = stops it.2 ∧
        lineLoop it.2.name steps none st = .ok st1 ∧ loop rest st1 = .ok r) :
    ∀ (lines : t_linemap) (b : GraphBuilder) (m : NodeMap) (b' : GraphBuilder) (m' : NodeMap),
      loop lines (b, m) = .ok (b', m') → b.Fresh →
      (∀ l s, (∀ it ∈ lines, it.2.name ≠ l) → m' l s = m l s) ∧
      ((lines.map (fun it => it.2.name)).Nodup → (∀ it ∈ lines, (stops it.2).Nodup) →
        ∀ pre it post, lines = pre ++ it :: post → ∀ k s, (stops it.2)[k]? = some s →
          m' it.2.name s = some (b._g.nextNode + totalStops pre + k)) := by
  intro lines
  induction lines with
  | nil =>
    intro b m b' m' h _
    rw [hnil] at h
    simp only [Except.ok.injEq, Prod.mk.injEq] at h
    obtain ⟨rfl, rfl⟩ := h
    refine ⟨fun _ _ _ => rfl, ?_⟩
    intro _ _ pre it post hl
    exact absurd hl (by simp)
  | cons it0 rest ih =>
    intro b m b' m' h hf
    obtain ⟨steps, st1, hsteps, hrun, hrest⟩ := hcons it0 rest (b, m) (b', m') h
    obtain ⟨b1, m1⟩ := st1
    obtain ⟨g1, g2⟩ := lineLoop_maps _ _ _ _ _ _ _ hrun
    obtain ⟨f1, -, f3, -, -, -⟩ := lineLoop_shape _ _ _ _ _ _ _ hrun hf
    have hsl : steps.length = it0.2.stations.length := by
      rw [← hlen, ← hsteps, List.length_map]
    rw [hsl] at f3
    obtain ⟨k1, k2⟩ := ih b1 m1 b' m' hrest f1
    constructor
    · intro l s hl
      rw [k1 l s (fun it hit => hl it (List.mem_cons_of_mem _ hit)),
        g1 l s (Or.inl (hl it0 (List.mem_cons_self _ _)).symm)]
    · intro hnd hstops pre it post hl k s hk
      rw [List.map_cons] at hnd
      cases pre with
      | nil =>
        simp only [List.nil_append, List.cons.injEq] at hl
        obtain ⟨h1, h2⟩ := hl
        subst h1 h2
        have hnot : ∀ it' ∈ rest, it'.2.name ≠ it0.2.name := by
          intro it' hit' heq
          exact (List.nodup_cons.1 hnd).1 (by
            rw [← heq]; exact List.mem_map_of_mem (fun it => it.2.name) hit')
        rw [k1 _ _ hnot]
        have := g2 (by rw [hsteps]; exact hstops it0 (List.mem_cons_self _ _)) k s
          (by rw [hsteps]; exact hk)
        rw [this]
        simp [totalStops]
      | cons p0 pre' =>
        simp only [List.cons_append, List.cons.injEq] at hl
        obtain ⟨h1, h2⟩ := hl
        subst h1
        have := k2 (List.nodup_cons.1 hnd).2
          (fun it' hit' => hstops it' (List.mem_cons_of_mem _ hit')) pre' it post h2 k s hk
        rw [this, f3, totalStops_cons]
        congr 1
        omega

theorem wayLines_maps (lines : t_linemap) (b : GraphBuilder) (m : NodeMap)
    (b' : GraphBuilder) (m' : NodeMap) (h : wayLines lines (b, m) = .ok (b', m'))
    (hf : b.Fresh) (hnd : (lines.map (fun it => it.2.name)).Nodup)
    (hstops : ∀ it ∈ lines, it.2.stations.Nodup) :
    ∀ pre it post, lines = pre ++ it :: post → ∀ k s, it.2.stations[k]? = some s →
      m' it.2.name s = some (b._g.nextNode + totalStops pre + k) := by
  refine (linesLoop_maps (fun line => line.stations) (fun _ => rfl) wayLines
    (fun st => rfl) ?_ lines b m b' m' h hf).2 hnd hstops
  intro it rest st r hr
  simp only [wayLines] at hr
  split at hr
  · exact absurd hr (by simp)
  · rename_i st1 h1
    rw [wayLoop_eq] at h1
    exact ⟨_, st1, waySteps_fst _ _ _, h1, hr⟩

theorem backLines_maps (lines : t_linemap) (b : GraphBuilder) (m : NodeMap)
    (b' : GraphBuilder) (m' : NodeMap) (h : backLines lines (b, m) = .ok (b', m'))
    (hf : b.Fresh) (hnd : (lines.map (fun it => it.2.name)).Nodup)
    (hstops : ∀ it ∈ lines, it.2.stations.Nodup) :
    ∀ pre it post, lines = pre ++ it :: post → ∀ k s, it.2.stations.reverse[k]? = some s →
      m' it.2.name s = some (b._g.nextNode + totalStops pre + k) := by
  refine (linesLoop_maps (fun line => line.stations.reverse)
    (fun line => List.length_reverse _) backLines (fun st => rfl) ?_ lines b m b' m' h hf).2 hnd
    (fun it hit => List.nodup_reverse.2 (hstops it hit))
  intro it rest st r hr
  simp only [backLines] at hr
  split at hr
  · exact absurd hr (by simp)
  · rename_i st1 h1
    rw [backLoop_eq] at h1
    exact ⟨_, st1, backSteps_fst _ _ _, h1, hr⟩

/-- When the lines have different names and no line lists a station twice, the
node maps hold the nodes in the order of their creation: for the line that
follows the lines `pre`, the forward node of the stop `k` is the node
`totalStops pre + k` and its reverse node is the node
`totalStops lines + totalStops pre + (n - 1 - k)`. -/
theorem createNodesAndTravelArcs_maps (stations : t_stationmap) (lines : t_linemap)
    (cc sc : ℚ) (b : GraphBuilder) (way back : NodeMap)
    (h : createNodesAndTravelArcs (init stations lines cc sc) (fun _ _ => none)
      (fun _ _ => none) = .ok (b, way, back))
    (hnd : (lines.map (fun it => it.2.name)).Nodup)
    (hstops : ∀ it ∈ lines, it.2.stations.Nodup) :
    ∀ pre it post, lines = pre ++ it :: post → ∀ k s, it.2.stations[k]? = some s →
      way it.2.name s = some (totalStops pre + k) ∧
      back it.2.name s =
        some (totalStops lines + totalStops pre + (it.2.stations.length - 1 - k)) := by
  simp only [createNodesAndTravelArcs] at h
  split at h
  · exact absurd h (by simp)
  · rename_i b1 way1 h1
    split at h
    · exact absurd h (by simp)
    · rename_i b2 back1 h2
      simp only [Except.ok.injEq, Prod.mk.injEq] at h
      obtain ⟨rfl, rfl, rfl⟩ := h
      have hs0 := sound_init stations lines cc sc
      have hl0 : (init stations lines cc sc)._lines = lines := rfl
      have hn0 : (init stations lines cc sc)._g.nextNode = 0 := rfl
      obtain ⟨-, -, -, -, hl, -, -⟩ := wayLines_sound _ _ _ _ _ h1 hs0 (mapIn_empty _)
      obtain ⟨f1, -, f3, -, -, -⟩ := wayLines_shape _ _ _ _ _ h1 hs0.1
      rw [hl0] at h1 f3
      rw [hl, hl0] at h2
      rw [hn0, Nat.zero_add] at f3
      intro pre it post hlines k s hk
      have hklt : k < it.2.stations.length := by
        by_contra hge
        rw [List.getElem?_eq_none (by omega)] at hk
        exact absurd hk (by simp)
      constructor
      · have := wayLines_maps lines _ _ _ _ h1 hs0.1 hnd hstops pre it post hlines k s hk
        rw [this, hn0, Nat.zero_add]
      · have hrev : it.2.stations.reverse[it.2.stations.length - 1 - k]? = some s := by
          rw [List.getElem?_reverse (by omega)]
          have : it.2.stations.length - 1 - (it.2.stations.length - 1 - k) = k := by omega
          rw [this]
          exact hk
        have := backLines_maps lines _ _ _ _ h2 f1 hnd hstops pre it post hlines _ s hrev
        rw [this, f3]

end NodeMaps
/-! ## Theorems: the switch arcs in the node numbers of the stops -/

section StopNodes

open GraphBuilder

theorem allLineSwitches_full_length (lines : t_linemap) :
    ∀ (w0 r0 : Nat), (allLineSwitches fullSwitchArcs lines w0 r0).length =
      2 * totalStops lines := by
  induction lines with
  | nil => intro _ _; rfl
  | cons it rest ih =>
    intro w0 r0
    have h1 : ∀ (l : List Nat) (f g : Nat → Nat × Nat),
        (l.flatMap (fun k => [f k, g k])).length = 2 * l.length := by
      intro l f g
      induction l with
      | nil => rfl
      | cons a l ihl =>
        rw [List.flatMap_cons, List.length_append, ihl, List.length_cons]
        simp only [List.length_cons, List.length_nil]
        omega
    simp only [allLineSwitches, List.length_append, ih, totalStops_cons, fullSwitchArcs, h1,
      List.length_range]
    omega

end StopNodes
/-! ## Theorems: full switching at the stops of the lines (C16) -/

section FullSwitchingStops

open GraphBuilder

end FullSwitchingStops
/-! ## Theorems: terminal switching at the stops of the lines (C17) -/

section TerminalSwitchingStops

open GraphBuilder

end TerminalSwitchingStops
/-! ## Theorems: restricted switching at the stops of the lines (C19) -/

section RestrictedSwitchingStops

open GraphBuilder

theorem detourBuilder_new :
    GraphBuilder.new detourStations detourLines 5 5 .STATION true = .ok detourBuilder := by
  rfl

end RestrictedSwitchingStops
/-! ## Theorems: Euler tours of arbitrary multigraphs -/

section EulerGeneral

variable {g : Graph}

/-- The loop of `eulerRec` after the first arc has been taken, in any multigraph. -/
theorem eulerLoop_rest_gen {rec : Nat → Nat → EulerState → Except String EulerState}
    {fuel : Nat} (hrec : GenSpec g rec fuel) (c s : Nat) :
    ∀ (es pre rest : List Nat) (vis : Nat → Bool), unvisCount g vis < fuel →
      (∀ e ∈ es, e < g.edges.length ∧ g.source e = c) →
      eulerLoop rec g c s es false pre.length ⟨pre ++ rest, vis⟩ = .error notEulerian ∨
      ∃ n vis1, eulerLoop rec g c s es false pre.length ⟨pre ++ rest, vis⟩
          = .ok (false, ⟨pre ++ n ++ rest, vis1⟩) ∧
        IsWalk g n c c ∧ Fresh vis n vis1 ∧
        (∀ e ∈ n, AllOut g vis1 (g.source e)) ∧ (∀ e ∈ es, vis1 e = true) := by
  intro es
  induction es with
  | nil =>
    intro pre rest vis _ _
    exact Or.inr ⟨[], vis, by simp [eulerLoop], rfl, fresh_nil vis, by simp, by simp⟩
  | cons e es ih =>
    intro pre rest vis hfuel hes
    have hes' : ∀ x ∈ es, x < g.edges.length ∧ g.source x = c :=
      fun x hx => hes x (List.mem_cons_of_mem _ hx)
    by_cases hv : vis e = true
    · rcases ih pre rest vis hfuel hes' with herr | ⟨n, vis1, hrun, hw, hf, hsat, hall⟩
      · left
        simp only [eulerLoop, hv, if_true]; exact herr
      · right
        refine ⟨n, vis1, ?_, hw, hf, hsat, ?_⟩
        · simp only [eulerLoop, hv, if_true]; exact hrun
        · intro x hx
          rcases List.mem_cons.1 hx with rfl | hx
          · exact fresh_mono hf _ hv
          · exact hall x hx
    · have hv' : vis e = false := by simpa using hv
      rcases hrec c c ⟨[], vis⟩ hfuel with hcall | ⟨w, v2, hcall, hpost⟩
      · left
        simp only [eulerLoop, hv', Bool.false_eq_true, if_false, hcall]
      · have hfuel2 : unvisCount g v2 < fuel :=
          lt_of_le_of_lt (unvisCount_mono (fresh_mono hpost.fresh)) hfuel
        have hstep : eulerLoop rec g c s (e :: es) false pre.length ⟨pre ++ rest, vis⟩ =
            eulerLoop rec g c s es false (pre ++ w).length ⟨(pre ++ w) ++ rest, v2⟩ := by
          simp only [eulerLoop, hv', Bool.false_eq_true, if_false, hcall]
          simp only [List.nil_append, List.take_left', List.drop_left', ← List.length_append]
        rw [hstep]
        rcases ih (pre ++ w) rest v2 hfuel2 hes' with herr | ⟨n, vis1, hrun, hw, hf, hsat, hall⟩
        · exact Or.inl herr
        · right
          refine ⟨w ++ n, vis1, ?_, isWalk_append hpost.walk hw, fresh_append hpost.fresh hf,
            ?_, ?_⟩
          · rw [hrun]; simp [List.append_assoc]
          · intro x hx
            rcases List.mem_append.1 hx with h | h
            · exact allOut_mono (hpost.sat x h) (fresh_mono hf)
            · exact hsat x h
          · intro x hx
            rcases List.mem_cons.1 hx with rfl | hx
            · exact fresh_mono hf _ (hpost.outC _ (hes _ (List.mem_cons_self _ _)).1
                (hes _ (List.mem_cons_self _ _)).2)
            · exact hall x hx

/-- The loop of `eulerRec` before the first arc has been taken, in any multigraph. -/
theorem eulerLoop_first_gen {rec : Nat → Nat → EulerState → Except String EulerState}
    {fuel : Nat} (hrec : GenSpec g rec fuel) (c s : Nat) :
    ∀ (es : List Nat) (pos : Nat) (st : EulerState),
      unvisCount g st.visited < fuel + 1 →
      (∀ e ∈ es, e < g.edges.length ∧ g.source e = c) →
      (∀ e, e < g.edges.length → g.source e = c → e ∉ es → st.visited e = true) →
      eulerLoop rec g c s es true pos st = .error notEulerian ∨
      ∃ first w vis1, eulerLoop rec g c s es true pos st = .ok (first, ⟨st.cycle ++ w, vis1⟩) ∧
        (first = true → w = [] ∧ vis1 = st.visited ∧ AllOut g st.visited c) ∧
        (first = false → EulerPart g c s st.visited w vis1) := by
  intro es
  induction es with
  | nil =>
    intro pos st _ _ hprev
    have hout : AllOut g st.visited c := fun e he hs => hprev e he hs (by simp)
    exact Or.inr ⟨true, [], st.visited, by simp [eulerLoop], fun _ => ⟨rfl, rfl, hout⟩,
      fun h => absurd h (by simp)⟩
  | cons e es ih =>
    intro pos st hfuel hes hprev
    have hes' : ∀ x ∈ es, x < g.edges.length ∧ g.source x = c :=
      fun x hx => hes x (List.mem_cons_of_mem _ hx)
    obtain ⟨helt, hesrc⟩ := hes e (List.mem_cons_self _ _)
    by_cases hv : st.visited e = true
    · have hprev' : ∀ x, x < g.edges.length → g.source x = c → x ∉ es →
          st.visited x = true := by
        intro x hx hs hnot
        by_cases hxe : x = e
        · subst hxe; exact hv
        · exact hprev x hx hs (by simp [hxe, hnot])
      have hstep : eulerLoop rec g c s (e :: es) true pos st =
          eulerLoop rec g c s es true pos st := by
        simp only [eulerLoop, hv, if_true]
      rw [hstep]
      exact ih pos st hfuel hes' hprev'
    · have hv' : st.visited e = false := by simpa using hv
      have hcnt := unvisCount_mark (g := g) helt hv'
      have hfuel1 : unvisCount g (markVisited st.visited e) < fuel := by omega
      rcases hrec (g.target e) s ⟨st.cycle ++ [e], markVisited st.visited e⟩ hfuel1 with
        hcall | ⟨w1, v2, hcall, hpost⟩
      · left
        simp only [eulerLoop, hv', Bool.false_eq_true, if_false, if_true, hcall]
      · have hfuel2 : unvisCount g v2 < fuel :=
          lt_of_le_of_lt (unvisCount_mono (fresh_mono hpost.fresh)) hfuel1
        have hstep : eulerLoop rec g c s (e :: es) true pos st =
            eulerLoop rec g c s es false st.cycle.length ⟨st.cycle ++ (e :: w1), v2⟩ := by
          simp only [eulerLoop, hv', Bool.false_eq_true, if_false, if_true, hcall]
          simp only [List.append_assoc, List.singleton_append]
        rw [hstep]
        rcases eulerLoop_rest_gen hrec c s es st.cycle (e :: w1) v2 hfuel2 hes' with
          herr | ⟨n, vis1, hrun, hw, hf, hsat, hall⟩
        · exact Or.inl herr
        · right
          have hfr : Fresh st.visited (e :: w1 ++ n) vis1 :=
            fresh_append (fresh_append (fresh_single hv') hpost.fresh) hf
          have houtC : AllOut g vis1 c := by
            intro x hx hs
            by_cases hxe : x = e
            · subst hxe; exact fresh_mem hfr (by simp)
            · by_cases hxes : x ∈ es
              · exact hall x hxes
              · exact fresh_mono hfr x (hprev x hx hs (by simp [hxe, hxes]))
          refine ⟨false, n ++ e :: w1, vis1, ?_, fun h => absurd h (by simp), fun _ => ?_⟩
          · rw [hrun]; simp [List.append_assoc]
          · refine ⟨isWalk_append hw ⟨helt, hesrc, hpost.walk⟩, fresh_perm hfr ?_, ?_, houtC⟩
            · exact List.perm_append_comm
            · intro x hx
              rcases List.mem_append.1 hx with h | h
              · exact hsat x h
              · rcases List.mem_cons.1 h with rfl | h
                · rw [hesrc]; exact houtC
                · exact allOut_mono (hpost.sat x h) (fresh_mono hf)

/-- Contract of `Euler::eulerRec` in any multigraph: with enough budget it
either throws `The Graph is not Eulerian` or returns normally and appends to
`cycle` a trail from `current` to `start`. -/
theorem eulerRec_gen (g : Graph) : ∀ fuel, GenSpec g (eulerRec g fuel) fuel := by
  intro fuel
  induction fuel with
  | zero => intro c s st h; exact absurd h (Nat.not_lt_zero _)
  | succ fuel ih =>
    intro c s st hfuel
    have hmem : ∀ e ∈ g.outEdges c, e < g.edges.length ∧ g.source e = c := by
      intro e he
      simpa [Graph.outEdges, List.mem_filter, List.mem_range] using he
    have hprev : ∀ e, e < g.edges.length → g.source e = c → e ∉ g.outEdges c →
        st.visited e = true := by
      intro e he hs hnot
      exact absurd (by simp [Graph.outEdges, List.mem_filter, List.mem_range, he, hs]) hnot
    rcases eulerLoop_first_gen ih c s (g.outEdges c) 0 st hfuel hmem hprev with
      herr | ⟨first, w, vis1, hrun, hfirst, hrest⟩
    · left
      simp only [eulerRec, herr]
    · cases first with
      | false =>
        right
        refine ⟨w, vis1, ?_, hrest rfl⟩
        simp only [eulerRec, hrun]
        simp
      | true =>
        obtain ⟨rfl, rfl, hout⟩ := hfirst rfl
        by_cases hcs : c = s
        · right
          subst hcs
          refine ⟨[], st.visited, ?_, ⟨rfl, fresh_nil _, by simp, hout⟩⟩
          simp only [eulerRec, hrun]
          simp
        · left
          simp only [eulerRec, hrun]
          simp [hcs]

end EulerGeneral
/-! ## Theorems: what `getEulerTour` returns in an arbitrary multigraph -/

section EulerReach

variable {g : Graph}

theorem reach_step {s : Nat} {e : Nat} (he : e < g.edges.length)
    (h : g.Reach s (g.source e)) : g.Reach s (g.target e) :=
  Relation.ReflTransGen.tail h (graph_edge_mem he)

/-- Every arc of a walk leaves a node that can be reached from its first node. -/
theorem isWalk_reach {w : List Nat} {a b : Nat} (h : IsWalk g w a b) :
    ∀ e ∈ w, g.Reach a (g.source e) := by
  induction w generalizing a with
  | nil => simp
  | cons e w ih =>
    obtain ⟨he, hs, hw⟩ := h
    intro x hx
    rcases List.mem_cons.1 hx with rfl | hx
    · rw [hs]; exact Relation.ReflTransGen.refl
    · have h1 : g.Reach a (g.target e) := by
        apply reach_step he
        rw [hs]; exact Relation.ReflTransGen.refl
      exact Relation.ReflTransGen.trans h1 (ih hw x hx)

/-- Along a walk every node is left as often as it is entered, up to the two
end nodes. -/
theorem isWalk_count {w : List Nat} {a b : Nat} (h : IsWalk g w a b) (v : Nat) :
    w.countP (fun e => g.source e == v) + (if v = b then 1 else 0) =
      w.countP (fun e => g.target e == v) + (if v = a then 1 else 0) := by
  induction w generalizing a with
  | nil =>
    simp only [IsWalk] at h
    subst h
    simp
  | cons e w ih =>
    obtain ⟨_, hs, hw⟩ := h
    have := ih hw
    simp only [List.countP_cons, beq_iff_eq]
    have e1 : (if g.source e = v then 1 else 0 : Nat) = if v = a then 1 else 0 := by
      rw [hs]
      by_cases h : v = a
      · rw [if_pos h, if_pos h.symm]
      · rw [if_neg h, if_neg (fun h' => h h'.symm)]
    have e2 : (if g.target e = v then 1 else 0 : Nat) = if v = g.target e then 1 else 0 := by
      by_cases h : v = g.target e
      · rw [if_pos h, if_pos h.symm]
      · rw [if_neg h, if_neg (fun h' => h h'.symm)]
    rw [e1, e2]
    omega

/-- After a normal return of the top call every arc that leaves a node reachable
from the start node has been visited. -/
theorem saturated_of_reach {s : Nat} {w : List Nat} {vis1 : Nat → Bool}
    (hpost : EulerPart g s s (fun _ => false) w vis1) :
    ∀ v, g.Reach s v → AllOut g vis1 v := by
  have hmem : ∀ e, vis1 e = true → e ∈ w := by
    intro e he
    rcases (hpost.fresh.marks e).1 he with h | h
    · exact absurd h (by simp)
    · exact h
  intro v hv
  induction hv with
  | refl => exact hpost.outC
  | @tail u v _ hadj ih =>
    obtain ⟨i, hi, hsrc, htgt⟩ := graph_exists_index hadj
    have hiw : i ∈ w := hmem i (ih i hi hsrc)
    rcases isWalk_target hpost.walk i hiw with ht | ⟨f, hf, hfe⟩
    · have : v = s := by rw [← ht]; exact htgt.symm
      rw [this]; exact hpost.outC
    · have : g.source f = v := by rw [hfe]; exact htgt
      rw [← this]; exact hpost.sat f hf

/-- The tour of a normal return holds exactly the arcs that leave a node
reachable from the start node. -/
theorem mem_tour_iff {s : Nat} {w : List Nat} {vis1 : Nat → Bool}
    (hpost : EulerPart g s s (fun _ => false) w vis1) (e : Nat) :
    e ∈ w ↔ e < g.edges.length ∧ g.Reach s (g.source e) := by
  constructor
  · intro he
    exact ⟨isWalk_lt hpost.walk e he, isWalk_reach hpost.walk e he⟩
  · rintro ⟨he, hr⟩
    have := saturated_of_reach hpost _ hr e he rfl
    rcases (hpost.fresh.marks e).1 this with h | h
    · exact absurd h (by simp)
    · exact h

theorem getEulerTour_none (g : Graph) : getEulerTour g none = getEulerTour g (some g.firstNode) := by
  rfl

/-- In a multigraph with a node `getEulerTour` either throws `The Graph is not
Eulerian` or returns a closed trail through the start node after which every
arc that leaves a node of the trail is visited. -/
theorem getEulerTour_gen (g : Graph) (start : Nat) (hne : g.empty = false) :
    getEulerTour g (some start) = .error notEulerian ∨
      ∃ tour vis1, getEulerTour g (some start) = .ok tour ∧
        EulerPart g start start (fun _ => false) tour vis1 := by
  rcases eulerRec_gen g (g.edges.length + 1) start start ⟨[], fun _ => false⟩
      (by rw [unvisCount_init]; exact Nat.lt_succ_self _) with herr | ⟨w, vis1, hrun, hpost⟩
  · left
    simp only [getEulerTour, hne, Bool.false_eq_true, if_false, herr]
  · right
    refine ⟨w, vis1, ?_, hpost⟩
    simp only [getEulerTour, hne, Bool.false_eq_true, if_false, hrun, List.nil_append]

/-! ### The run depends only on the arcs that can be reached -/

theorem agreeOn_mark {R : Nat → Prop} {v v' : Nat → Bool} (h : AgreeOn g R v v') (e : Nat) :
    AgreeOn g R (markVisited v e) (markVisited v' e) := by
  intro x hx hr
  unfold markVisited
  by_cases hxe : x = e
  · simp [hxe]
  · simp only [hxe, if_false]; exact h x hx hr

theorem eulerLoop_sim {R : Nat → Prop}
    {rec : Nat → Nat → EulerState → Except String EulerState} (hrec : RecSim g R rec)
    (hcl : ∀ e, e < g.edges.length → R (g.source e) → R (g.target e)) (c s : Nat) (hc : R c) :
    ∀ (es : List Nat) (first : Bool) (pos : Nat) (st st' : EulerState),
      (∀ e ∈ es, e < g.edges.length ∧ g.source e = c) → SimState g R st st' →
      SimLoop g R (eulerLoop rec g c s es first pos st) (eulerLoop rec g c s es first pos st') := by
  intro es
  induction es with
  | nil =>
    intro first pos st st' _ h
    simp only [eulerLoop, SimLoop]
    exact ⟨trivial, h⟩
  | cons e es ih =>
    intro first pos st st' hes h
    have hes' : ∀ x ∈ es, x < g.edges.length ∧ g.source x = c :=
      fun x hx => hes x (List.mem_cons_of_mem _ hx)
    obtain ⟨helt, hesrc⟩ := hes e (List.mem_cons_self _ _)
    have hve : st.visited e = st'.visited e := h.2 e helt (hesrc ▸ hc)
    by_cases hv : st.visited e = true
    · have hv' : st'.visited e = true := hve ▸ hv
      simp only [eulerLoop, hv, hv', if_true]
      exact ih first pos st st' hes' h
    · have hv1 : st.visited e = false := by simpa using hv
      have hv2 : st'.visited e = false := hve ▸ hv1
      cases first with
      | true =>
        have hsim := hrec (g.target e) s ⟨st.cycle ++ [e], markVisited st.visited e⟩
          ⟨st'.cycle ++ [e], markVisited st'.visited e⟩ (hcl e helt (hesrc ▸ hc))
          ⟨by rw [h.1], agreeOn_mark h.2 e⟩
        simp only [eulerLoop, hv1, hv2, Bool.false_eq_true, if_false, if_true]
        generalize rec (g.target e) s ⟨st.cycle ++ [e], markVisited st.visited e⟩ = r at hsim
        generalize rec (g.target e) s ⟨st'.cycle ++ [e], markVisited st'.visited e⟩ = r' at hsim
        cases r with
        | error m =>
          cases r' with
          | error m' => simpa [SimRes, SimLoop] using hsim
          | ok b => simp [SimRes] at hsim
        | ok a =>
          cases r' with
          | error m' => simp [SimRes] at hsim
          | ok b =>
            simp only [SimRes] at hsim
            simp only [h.1]
            exact ih false st'.cycle.length a b hes' hsim
      | false =>
        have hsim := hrec c c ⟨[], st.visited⟩ ⟨[], st'.visited⟩ hc ⟨rfl, h.2⟩
        simp only [eulerLoop, hv1, hv2, Bool.false_eq_true, if_false]
        generalize rec c c ⟨[], st.visited⟩ = r at hsim
        generalize rec c c ⟨[], st'.visited⟩ = r' at hsim
        cases r with
        | error m =>
          cases r' with
          | error m' => simpa [SimRes, SimLoop] using hsim
          | ok b => simp [SimRes] at hsim
        | ok a =>
          cases r' with
          | error m' => simp [SimRes] at hsim
          | ok b =>
            simp only [SimRes] at hsim
            simp only [h.1, hsim.1]
            exact ih false (pos + b.cycle.length) _ _ hes' ⟨rfl, hsim.2⟩

theorem eulerRec_sim {R : Nat → Prop}
    (hcl : ∀ e, e < g.edges.length → R (g.source e) → R (g.target e)) :
    ∀ fuel, RecSim g R (eulerRec g fuel) := by
  intro fuel
  induction fuel with
  | zero =>
    intro c s st st' _ _
    simp [eulerRec, SimRes]
  | succ fuel ih =>
    intro c s st st' hc h
    have hmem : ∀ e ∈ g.outEdges c, e < g.edges.length ∧ g.source e = c := by
      intro e he
      simpa [Graph.outEdges, List.mem_filter, List.mem_range] using he
    have hsim := eulerLoop_sim ih hcl c s hc (g.outEdges c) true 0 st st' hmem h
    simp only [eulerRec]
    generalize eulerLoop (eulerRec g fuel) g c s (g.outEdges c) true 0 st = r at hsim
    generalize eulerLoop (eulerRec g fuel) g c s (g.outEdges c) true 0 st' = r' at hsim
    cases r with
    | error m =>
      cases r' with
      | error m' => simpa [SimRes, SimLoop] using hsim
      | ok b => simp [SimLoop] at hsim
    | ok a =>
      cases r' with
      | error m' => simp [SimLoop] at hsim
      | ok b =>
        obtain ⟨f1, a2⟩ := a
        obtain ⟨f2, b2⟩ := b
        simp only [SimLoop] at hsim
        obtain ⟨hf, hst⟩ := hsim
        subst hf
        by_cases hcond : (f1 && c != s) = true
        · show SimRes g R (if (f1 && c != s) = true then _ else _)
            (if (f1 && c != s) = true then _ else _)
          rw [if_pos hcond, if_pos hcond]
          simp only [SimRes]
        · show SimRes g R (if (f1 && c != s) = true then _ else _)
            (if (f1 && c != s) = true then _ else _)
          rw [if_neg hcond, if_neg hcond]
          exact hst

end EulerReach

/-- The only exception of `getEulerTour` is `The Graph is not Eulerian`. -/
theorem getEulerTour_error (g : Graph) (start : Nat) (m : String)
    (hm : getEulerTour g (some start) = .error m) : m = notEulerian := by
  cases he : g.empty with
  | true => simp [getEulerTour, he] at hm
  | false =>
    rcases getEulerTour_gen g start he with herr | ⟨tour', vis1, hrun, _⟩
    · rw [herr] at hm
      simpa using hm.symm
    · rw [hrun] at hm; exact absurd hm (by simp)
/-! ## Theorems: failure and empty results of `getEulerTour` -/

section EulerFailure

theorem getEulerTour_getD (g : Graph) (start : Option Nat) :
    getEulerTour g start = getEulerTour g (some (start.getD g.firstNode)) := by
  cases start <;> rfl

theorem edges_nil_of_empty {g : Graph} (hwf : g.WellFormed) (he : g.empty = true) :
    g.edges = [] := by
  cases hl : g.edges with
  | nil => rfl
  | cons p l =>
    have := (hwf p (by rw [hl]; exact List.mem_cons_self _ _)).1
    simp only [Graph.empty, beq_iff_eq] at he
    omega

/-- When the arcs that can be reached from the start node are balanced, the
call returns normally. -/
theorem getEulerTour_balanced_ok (g : Graph) (start : Nat) (hne : g.empty = false)
    (arcs : List Nat) (hnd : arcs.Nodup)
    (harcs : ∀ e, e ∈ arcs ↔ e < g.edges.length ∧ g.Reach start (g.source e))
    (hbal : ∀ v, arcs.countP (fun e => g.target e == v) =
      arcs.countP (fun e => g.source e == v)) :
    ∃ tour, getEulerTour g (some start) = .ok tour := by
  classical
  let vis0 : Nat → Bool := fun e => decide (¬ g.Reach start (g.source e))
  have hperm : arcs.Perm ((List.range g.edges.length).filter (fun e => !vis0 e)) := by
    rw [List.perm_ext_iff_of_nodup hnd ((List.nodup_range _).filter _)]
    intro e
    rw [harcs, List.mem_filter, List.mem_range]
    simp [vis0]
  have hb : Balanced g vis0 := by
    intro v
    have h1 : unvisOut g vis0 v = arcs.countP (fun e => g.source e == v) := by
      rw [hperm.countP_eq, List.countP_filter]
      unfold unvisOut
      apply List.countP_congr
      intro x _
      simp only [Bool.and_eq_true, and_comm]
    have h2 : unvisIn g vis0 v = arcs.countP (fun e => g.target e == v) := by
      rw [hperm.countP_eq, List.countP_filter]
      unfold unvisIn
      apply List.countP_congr
      intro x _
      simp only [Bool.and_eq_true, and_comm]
    rw [h1, h2, hbal v]
  have hcount : unvisCount g vis0 < g.edges.length + 1 := by
    unfold unvisCount
    have := List.countP_le_length (fun e => !vis0 e) (l := List.range g.edges.length)
    rw [List.length_range] at this
    omega
  obtain ⟨w, vis1, hrun, _⟩ := eulerRec_spec g (g.edges.length + 1) start start ⟨[], vis0⟩
    (openBal_self.2 hb) hcount
  have hsim := eulerRec_sim (g := g) (R := g.Reach start) (fun e he hr => reach_step he hr)
    (g.edges.length + 1) start start ⟨[], vis0⟩ ⟨[], fun _ => false⟩ Relation.ReflTransGen.refl
    ⟨rfl, fun e _ hr => by simp [vis0, hr]⟩
  rw [hrun] at hsim
  generalize hr : eulerRec g (g.edges.length + 1) start start ⟨[], fun _ => false⟩ = r at hsim
  cases r with
  | error m => simp [SimRes] at hsim
  | ok b =>
    exact ⟨b.cycle, by simp only [getEulerTour, hne, Bool.false_eq_true, if_false, hr]⟩

end EulerFailure

/-- C23 (amended): let `arcs` be the arcs that leave a node reachable from the
start node along arcs (a missing start node is the first node).
`Euler::getEulerTour` throws `The Graph is not Eulerian` exactly when, among
these arcs, some node is entered and left a different number of times, and it
throws nothing else.  When it returns, the tour is a closed walk through the
start node that holds every one of these arcs once and no other arc: arcs that
cannot be reached from the start node are not detected. -/
theorem getEulerTour_not_eulerian (g : Graph) (start : Option Nat) (arcs : List Nat)
    (hwf : g.WellFormed) (hnd : arcs.Nodup)
    (harcs : ∀ e, e ∈ arcs ↔
      e < g.edges.length ∧ g.Reach (start.getD g.firstNode) (g.source e)) :
    (getEulerTour g start = .error notEulerian ↔
      ∃ v, arcs.countP (fun e => g.target e == v) ≠ arcs.countP (fun e => g.source e == v)) ∧
    (∀ m, getEulerTour g start = .error m → m = notEulerian) ∧
    (∀ tour, getEulerTour g start = .ok tour →
      IsWalk g tour (start.getD g.firstNode) (start.getD g.firstNode) ∧ tour.Perm arcs) ∧
    ((∀ v, arcs.countP (fun e => g.target e == v) = arcs.countP (fun e => g.source e == v)) →
      ∃ tour, getEulerTour g start = .ok tour) := by
  rw [getEulerTour_getD g start]
  generalize start.getD g.firstNode = s at harcs ⊢
  have hok : ∀ tour, getEulerTour g (some s) = .ok tour →
      IsWalk g tour s s ∧ tour.Perm arcs := by
    intro tour ht
    cases he : g.empty with
    | true =>
      have hnil := edges_nil_of_empty hwf he
      have harcs0 : arcs = [] := by
        apply List.eq_nil_iff_forall_not_mem.2
        intro e hmem
        have := ((harcs e).1 hmem).1
        rw [hnil] at this
        exact absurd this (Nat.not_lt_zero _)
      simp only [getEulerTour, he, if_true, Except.ok.injEq] at ht
      subst ht
      rw [harcs0]
      exact ⟨rfl, List.Perm.refl _⟩
    | false =>
      rcases getEulerTour_gen g s he with herr | ⟨tour', vis1, hrun, hpost⟩
      · rw [herr] at ht; exact absurd ht (by simp)
      · rw [hrun] at ht
        simp only [Except.ok.injEq] at ht
        subst ht
        refine ⟨hpost.walk, ?_⟩
        rw [List.perm_ext_iff_of_nodup hpost.fresh.nodup hnd]
        intro e
        rw [mem_tour_iff hpost, harcs]
  have herr : ∀ m, getEulerTour g (some s) = .error m → m = notEulerian := by
    intro m hm
    cases he : g.empty with
    | true => simp [getEulerTour, he] at hm
    | false =>
      rcases getEulerTour_gen g s he with herr | ⟨tour', vis1, hrun, _⟩
      · rw [herr] at hm
        simpa using hm.symm
      · rw [hrun] at hm; exact absurd hm (by simp)
  have hbalok : (∀ v, arcs.countP (fun e => g.target e == v) =
        arcs.countP (fun e => g.source e == v)) →
      ∃ tour, getEulerTour g (some s) = .ok tour := by
    intro hbal
    cases he : g.empty with
    | true => exact ⟨[], by simp [getEulerTour, he]⟩
    | false => exact getEulerTour_balanced_ok g s he arcs hnd harcs hbal
  refine ⟨?_, herr, hok, hbalok⟩
  constructor
  · intro h
    by_contra hno
    have hbal : ∀ v, arcs.countP (fun e => g.target e == v) =
        arcs.countP (fun e => g.source e == v) := by
      intro v
      by_contra hv
      exact hno ⟨v, hv⟩
    obtain ⟨tour, ht⟩ := hbalok hbal
    rw [h] at ht
    exact absurd ht (by simp)
  · rintro ⟨v, hv⟩
    generalize hr : getEulerTour g (some s) = r
    cases r with
    | error m => rw [herr m hr]
    | ok tour =>
      exfalso
      obtain ⟨hw, hp⟩ := hok tour hr
      apply hv
      rw [← hp.countP_eq, ← hp.countP_eq]
      have := isWalk_count hw v
      omega

section EulerExamples

theorem cycleWithEntry_reach (v : Nat) (h : cycleWithEntry.Reach 0 v) : v = 0 ∨ v = 1 := by
  induction h with
  | refl => exact Or.inl rfl
  | @tail u v _ hadj ih =>
    simp only [cycleWithEntry, List.mem_cons, Prod.mk.injEq, List.mem_singleton,
      List.not_mem_nil, or_false] at hadj
    rcases hadj with ⟨_, rfl⟩ | ⟨_, rfl⟩ | ⟨rfl, rfl⟩
    · exact Or.inr rfl
    · exact Or.inl rfl
    · rcases ih with h | h <;> exact absurd h (by decide)

theorem twoCycles_connected (v : Nat) (h : twoCycles.Connected 0 v) : v = 0 ∨ v = 1 := by
  induction h with
  | refl => exact Or.inl rfl
  | @tail u v _ hadj ih =>
    simp only [Graph.Adj, twoCycles, List.mem_cons, Prod.mk.injEq, List.mem_singleton,
      List.not_mem_nil, or_false] at hadj
    rcases ih with rfl | rfl <;> omega

theorem cycleWithEntry_arcs (e : Nat) :
    e ∈ [0, 1] ↔ e < cycleWithEntry.edges.length ∧
      cycleWithEntry.Reach ((some 0 : Option Nat).getD cycleWithEntry.firstNode)
        (cycleWithEntry.source e) := by
  constructor
  · intro h
    simp only [List.mem_cons, List.mem_singleton, List.not_mem_nil, or_false] at h
    rcases h with rfl | rfl
    · exact ⟨by decide, Relation.ReflTransGen.refl⟩
    · exact ⟨by decide, Relation.ReflTransGen.single (by decide)⟩
  · rintro ⟨hlt, hr⟩
    have hlt' : e < 3 := hlt
    have h2 : e ≠ 2 := by
      rintro rfl
      rcases cycleWithEntry_reach _ hr with h | h <;> exact absurd h (by decide)
    simp only [List.mem_cons, List.mem_singleton, List.not_mem_nil, or_false]
    omega

theorem cycleWithEntry_balanced (v : Nat) :
    [0, 1].countP (fun e => cycleWithEntry.target e == v) =
      [0, 1].countP (fun e => cycleWithEntry.source e == v) := by
  have h0 : cycleWithEntry.target 0 = 1 := rfl
  have h1 : cycleWithEntry.target 1 = 0 := rfl
  have h2 : cycleWithEntry.source 0 = 0 := rfl
  have h3 : cycleWithEntry.source 1 = 1 := rfl
  simp only [List.countP_cons, List.countP_nil, h0, h1, h2, h3]
  omega

end EulerExamples

/-- C23, witness: in the cycle 0→1→0 with the further arc 2→1 the arcs reachable
from the node 0 are the two arcs of the cycle; they are balanced, and the call
returns the tour of the cycle. -/
theorem getEulerTour_not_eulerian_witness :
    cycleWithEntry.WellFormed ∧ [0, 1].Nodup ∧
      (∀ tour, getEulerTour cycleWithEntry (some 0) = .ok tour →
        IsWalk cycleWithEntry tour 0 0 ∧ tour.Perm [0, 1]) ∧
      ∃ tour, getEulerTour cycleWithEntry (some 0) = .ok tour :=
  match getEulerTour_not_eulerian cycleWithEntry (some 0) [0, 1] (by decide) (by decide)
    cycleWithEntry_arcs with
  | ⟨_, _, h3, h4⟩ => ⟨by decide, by decide, h3, h4 cycleWithEntry_balanced⟩

/-- C23, counterexample: from the node 0 of two disjoint cycles the call returns
the tour of the first cycle without an error, although every node is balanced
and the arcs of the second cycle are not connected to the start node; and in
the cycle 0→1→0 with the further arc 2→1 it returns the tour of the cycle
without an error, although the node 1 of the tour has in-degree 2 and
out-degree 1. -/
theorem getEulerTour_not_eulerian_counterexample :
    getEulerTour twoCycles (some 0) = .ok [0, 1] ∧
      twoCycles.source 2 = 2 ∧ ¬ twoCycles.Connected 0 2 ∧
      getEulerTour cycleWithEntry (some 0) = .ok [0, 1] ∧
      cycleWithEntry.target 0 = 1 ∧ cycleWithEntry.indeg 1 = 2 ∧ cycleWithEntry.outdeg 1 = 1 :=
  ⟨rfl, rfl,
    fun h => by rcases twoCycles_connected 2 h with h | h <;> exact absurd h (by decide),
    rfl, rfl, rfl, rfl⟩

/-- C24: for an empty multigraph, for a multigraph without arcs and for a
multigraph in which no arc leaves the start node (a missing start node is the
first node), `Euler::getEulerTour` returns the empty list without an error. -/
theorem getEulerTour_empty (g : Graph) (start : Option Nat)
    (h : g.empty = true ∨ g.edges = [] ∨ g.outEdges (start.getD g.firstNode) = []) :
    getEulerTour g start = .ok [] := by
  rw [getEulerTour_getD g start]
  generalize start.getD g.firstNode = s at h ⊢
  cases he : g.empty with
  | true => simp [getEulerTour, he]
  | false =>
    have hout : g.outEdges s = [] := by
      rcases h with h | h | h
      · rw [he] at h; exact absurd h (by simp)
      · simp [Graph.outEdges, h]
      · exact h
    simp [getEulerTour, he, eulerRec, hout, eulerLoop]

/-- C24, witness: the graph with the two nodes 0 and 1 and the single arc 1→0
has no arc that leaves the node 0, and the tour from the node 0 is empty; so is
the tour of the graph without nodes. -/
theorem getEulerTour_empty_witness :
    (Graph.empty ⟨0, []⟩ = true ∨ (⟨0, []⟩ : Graph).edges = [] ∨
      Graph.outEdges ⟨0, []⟩ ((none : Option Nat).getD (Graph.firstNode ⟨0, []⟩)) = []) ∧
    getEulerTour ⟨0, []⟩ none = .ok [] ∧
    getEulerTour ⟨2, [(1, 0)]⟩ (some 0) = .ok [] :=
  ⟨Or.inl rfl, getEulerTour_empty ⟨0, []⟩ none (Or.inl rfl),
    getEulerTour_empty ⟨2, [(1, 0)]⟩ (some 0) (Or.inr (Or.inr (by decide)))⟩
/-! ## Theorems: the tour of a solution -/

section SolutionTour

variable (s : StationSolver) (int_vals : Nat → Int)

theorem buildSolutionTour_eq :
    s.buildSolutionTour int_vals =
      match s.g.edges.find? (fun e => decide (int_vals (s.getCplexId e).toNat > 0)) with
      | none => .error assertStartNode
      | some e0 =>
        match getEulerTour (s.eulerGraph int_vals) (some (s.g.nodes.indexOf e0.src)) with
        | .error m => .error ("Invalid solution: " ++ m)
        | .ok eulerTour =>
          if s.selectedArcs int_vals ≠ (eulerTour.length : Int) then .error subTours
          else
            eulerTour.foldr (fun i rest =>
              match (s.edgeRef int_vals)[i]?, rest with
              | some e, .ok tour => .ok (e :: tour)
              | none, .ok _ => .error outOfRange
              | _, .error m => .error m) (.ok []) := rfl

/-- The last loop of `buildSolutionTour` replaces every copy-arc by the arc it
stands for. -/
theorem tourFold_ok (ref : List Edge) (tour : List Nat) (h : ∀ i ∈ tour, i < ref.length) :
    tour.foldr (fun i rest =>
      match ref[i]?, rest with
      | some e, .ok tour => .ok (e :: tour)
      | none, .ok _ => .error outOfRange
      | _, .error m => .error m) (.ok [] : Except String (List Edge)) =
      .ok (tour.map (fun i => ref.getD i ⟨0, 0, 0⟩)) := by
  induction tour with
  | nil => rfl
  | cons i tour ih =>
    have hi := h i (List.mem_cons_self _ _)
    rw [List.foldr_cons, ih (fun j hj => h j (List.mem_cons_of_mem _ hj))]
    simp [List.getElem?_eq_getElem hi, List.getD_eq_getElem?_getD]

theorem sum_eq_length_replicate (l : List Edge) (f : Edge → Int) (h : ∀ e ∈ l, 0 ≤ f e) :
    (l.map f).sum = ((l.flatMap (fun e => List.replicate (f e).toNat e)).length : Int) := by
  induction l with
  | nil => simp
  | cons a l ih =>
    have ha := h a (List.mem_cons_self _ _)
    rw [List.map_cons, List.sum_cons, ih (fun e he => h e (List.mem_cons_of_mem _ he)),
      List.flatMap_cons, List.length_append, List.length_replicate]
    push_cast
    rw [Int.toNat_of_nonneg ha]

theorem count_flatMap_replicate (l : List Edge) (n : Edge → Nat) (hnd : l.Nodup) (e : Edge)
    (he : e ∈ l) : (l.flatMap (fun a => List.replicate (n a) a)).count e = n e := by
  induction l with
  | nil => simp at he
  | cons a l ih =>
    rw [List.nodup_cons] at hnd
    rw [List.flatMap_cons, List.count_append, List.count_replicate]
    by_cases hae : a = e
    · subst hae
      have : (l.flatMap (fun a => List.replicate (n a) a)).count a = 0 := by
        rw [List.count_eq_zero]
        intro hmem
        obtain ⟨c, hc, hmem⟩ := List.mem_flatMap.1 hmem
        rw [(List.mem_replicate.1 hmem).2] at hnd
        exact hnd.1 hc
      simp [this]
    · have hel : e ∈ l := by
        rcases List.mem_cons.1 he with h | h
        · exact absurd h.symm hae
        · exact h
      rw [ih hnd.2 hel]
      simp [hae]

theorem edges_nodup_of_wf {g : LGraph} (hwf : g.WellFormed) : g.edges.Nodup :=
  List.Nodup.of_map _ hwf.nodup_ids

theorem mem_edgeRef {e : Edge} (h : e ∈ s.edgeRef int_vals) : e ∈ s.g.edges := by
  obtain ⟨c, hc, hmem⟩ := List.mem_flatMap.1 h
  rw [(List.mem_replicate.1 hmem).2]
  exact hc

theorem map_getD_range (ref : List Edge) :
    (List.range ref.length).map (fun i => ref.getD i ⟨0, 0, 0⟩) = ref := by
  apply List.ext_getElem
  · simp
  · intro i h1 h2
    simp [List.getD_eq_getElem?_getD, List.getElem?_eq_getElem h2]

/-- A walk of copy-arcs in the Euler graph is a walk of the arcs they stand for
in the problem graph. -/
theorem arcWalk_of_isWalk (hwf : s.g.WellFormed) :
    ∀ (w : List Nat) (a b : Nat), a ∈ s.g.nodes → b ∈ s.g.nodes →
      IsWalk (s.eulerGraph int_vals) w (s.g.nodes.indexOf a) (s.g.nodes.indexOf b) →
      ArcWalk (w.map (fun i => (s.edgeRef int_vals).getD i ⟨0, 0, 0⟩)) a b := by
  intro w
  induction w with
  | nil =>
    intro a b ha hb h
    simp only [IsWalk] at h
    exact (List.indexOf_inj ha hb).1 h
  | cons i w ih =>
    intro a b ha hb h
    obtain ⟨hi, hs, hw⟩ := h
    have hi' : i < (s.edgeRef int_vals).length := by
      simpa [StationSolver.eulerGraph] using hi
    have hget : (s.edgeRef int_vals).getD i ⟨0, 0, 0⟩ = (s.edgeRef int_vals)[i] := by
      simp [List.getD_eq_getElem?_getD, List.getElem?_eq_getElem hi']
    have hmem : (s.edgeRef int_vals)[i] ∈ s.g.edges :=
      mem_edgeRef s int_vals (List.getElem_mem hi')
    have hsrc : (s.eulerGraph int_vals).source i =
        s.g.nodes.indexOf (s.edgeRef int_vals)[i].src := by
      simp [Graph.source, StationSolver.eulerGraph, List.getD_eq_getElem?_getD,
        List.getElem?_eq_getElem hi']
    have htgt : (s.eulerGraph int_vals).target i =
        s.g.nodes.indexOf (s.edgeRef int_vals)[i].tgt := by
      simp [Graph.target, StationSolver.eulerGraph, List.getD_eq_getElem?_getD,
        List.getElem?_eq_getElem hi']
    rw [List.map_cons, hget]
    refine ⟨?_, ?_⟩
    · rw [hsrc] at hs
      exact (List.indexOf_inj (hwf.src_mem _ hmem) ha).1 hs
    · rw [htgt] at hw
      exact ih _ b (hwf.tgt_mem _ hmem) hb hw

end SolutionTour

section SolutionTourMain

/-- The tour of a solution, once the Euler tour of the copy-arcs is known to use
every copy-arc. -/
theorem solutionTour_of_eulerTour (s : StationSolver) (int_vals : Nat → Int) (a : Nat)
    (hwf : s.g.WellFormed) (ha : a ∈ s.g.nodes) (tour : List Nat) (vis1 : Nat → Bool)
    (hpost : EulerPart (s.eulerGraph int_vals) (s.g.nodes.indexOf a) (s.g.nodes.indexOf a)
      (fun _ => false) tour vis1)
    (hlen : tour.length = (s.edgeRef int_vals).length) :
    ArcWalk (tour.map (fun i => (s.edgeRef int_vals).getD i ⟨0, 0, 0⟩)) a a ∧
      (tour.map (fun i => (s.edgeRef int_vals).getD i ⟨0, 0, 0⟩)).Perm (s.edgeRef int_vals) := by
  refine ⟨arcWalk_of_isWalk s int_vals hwf tour a a ha ha hpost.walk, ?_⟩
  have hlt : ∀ i ∈ tour, i < (s.edgeRef int_vals).length := by
    intro i hi
    have := isWalk_lt hpost.walk i hi
    simpa [StationSolver.eulerGraph] using this
  have hsub : tour ⊆ List.range (s.edgeRef int_vals).length :=
    fun i hi => List.mem_range.2 (hlt i hi)
  have hperm : tour.Perm (List.range (s.edgeRef int_vals).length) :=
    (List.Nodup.subperm hpost.fresh.nodup hsub).perm_of_length_le
      (by rw [List.length_range, hlen])
  have := hperm.map (fun i => (s.edgeRef int_vals).getD i ⟨0, 0, 0⟩)
  rwa [map_getD_range] at this

end SolutionTourMain

/-- C22: let the arc values be non-negative and let some arc have a positive
value.  The Euler graph of `CplexSolver::buildSolutionTour` has one node per
node of the problem graph and, for every arc `e`, as many copies of `e` as its
value says; the Euler tour starts at the source of the first arc with a
positive value.  An exception of the Euler tour is passed on with the prefix
`Invalid solution: `.  The function throws `Invalid solution: Solution
contains sub tours` exactly when the Euler tour is found and its length differs
from the sum of the arc values.  When the length equals the sum, the function
returns; and whenever it returns, the tour it stores is a closed walk of the
problem graph through the start node in which every arc occurs as often as its
value says. -/
theorem buildSolutionTour_spec (s : StationSolver) (int_vals : Nat → Int) (e0 : Edge)
    (hwf : s.g.WellFormed)
    (hx : ∀ e ∈ s.g.edges, 0 ≤ int_vals (s.getCplexId e).toNat)
    (he0 : s.g.edges.find? (fun e => decide (int_vals (s.getCplexId e).toNat > 0)) = some e0) :
    (s.eulerGraph int_vals).nNodes = s.g.nodes.length ∧
    (s.eulerGraph int_vals).edges = (s.edgeRef int_vals).map
      (fun e => (s.g.nodes.indexOf e.src, s.g.nodes.indexOf e.tgt)) ∧
    (∀ e ∈ s.g.edges,
      (s.edgeRef int_vals).count e = (int_vals (s.getCplexId e).toNat).toNat) ∧
    (∀ e ∈ s.edgeRef int_vals, e ∈ s.g.edges) ∧
    (∀ m, getEulerTour (s.eulerGraph int_vals) (some (s.g.nodes.indexOf e0.src)) = .error m →
      s.buildSolutionTour int_vals = .error ("Invalid solution: " ++ m)) ∧
    (s.buildSolutionTour int_vals = .error subTours ↔
      ∃ tour, getEulerTour (s.eulerGraph int_vals) (some (s.g.nodes.indexOf e0.src))
          = .ok tour ∧ (tour.length : Int) ≠ s.selectedArcs int_vals) ∧
    (∀ tour, getEulerTour (s.eulerGraph int_vals) (some (s.g.nodes.indexOf e0.src)) = .ok tour →
      (tour.length : Int) = s.selectedArcs int_vals →
      ∃ sol, s.buildSolutionTour int_vals = .ok sol ∧ sol.length = tour.length) ∧
    (∀ sol, s.buildSolutionTour int_vals = .ok sol →
      ArcWalk sol e0.src e0.src ∧ (∀ e ∈ sol, e ∈ s.g.edges) ∧
      (sol.length : Int) = s.selectedArcs int_vals ∧
      ∀ e ∈ s.g.edges, sol.count e = (int_vals (s.getCplexId e).toNat).toNat) := by
  have hcount : ∀ e ∈ s.g.edges,
      (s.edgeRef int_vals).count e = (int_vals (s.getCplexId e).toNat).toNat :=
    fun e he => count_flatMap_replicate s.g.edges
      (fun e => (int_vals (s.getCplexId e).toNat).toNat) (edges_nodup_of_wf hwf) e he
  have hsum : s.selectedArcs int_vals = ((s.edgeRef int_vals).length : Int) :=
    sum_eq_length_replicate s.g.edges (fun e => int_vals (s.getCplexId e).toNat) hx
  have he0mem : e0 ∈ s.g.edges := List.mem_of_find?_eq_some he0
  have hsrc : e0.src ∈ s.g.nodes := hwf.src_mem e0 he0mem
  have hne : (s.eulerGraph int_vals).empty = false := by
    have := List.length_pos_of_mem hsrc
    simp only [Graph.empty, StationSolver.eulerGraph, beq_eq_false_iff_ne]
    omega
  have hrun := buildSolutionTour_eq s int_vals
  rw [he0] at hrun
  simp only at hrun
  refine ⟨rfl, rfl, hcount, fun e he => mem_edgeRef s int_vals he, ?_, ?_, ?_, ?_⟩
  · intro m hm
    rw [hrun, hm]
  · generalize hr : getEulerTour (s.eulerGraph int_vals) (some (s.g.nodes.indexOf e0.src)) = r
      at hrun
    cases r with
    | error m =>
      have hm := getEulerTour_error _ _ m hr
      subst hm
      simp only at hrun
      rw [hrun]
      constructor
      · intro h
        simp only [Except.error.injEq] at h
        exact absurd h (by decide)
      · rintro ⟨tour, ht, _⟩
        exact absurd ht (by simp)
    | ok tour =>
      simp only at hrun
      constructor
      · intro h
        refine ⟨tour, rfl, ?_⟩
        intro heq
        rw [hrun, if_neg (by rw [heq]; simp)] at h
        rcases getEulerTour_gen _ (s.g.nodes.indexOf e0.src) hne with herr | ⟨t', vis1, ht', hpost⟩
        · rw [hr] at herr; exact absurd herr (by simp)
        · rw [hr] at ht'
          simp only [Except.ok.injEq] at ht'
          subst ht'
          have hlt : ∀ i ∈ tour, i < (s.edgeRef int_vals).length := by
            intro i hi
            have := isWalk_lt hpost.walk i hi
            simpa [StationSolver.eulerGraph] using this
          rw [tourFold_ok _ _ hlt] at h
          exact absurd h (by simp)
      · rintro ⟨t', ht', hneq⟩
        simp only [Except.ok.injEq] at ht'
        subst ht'
        rw [hrun, if_pos (fun h => hneq h.symm)]
  · intro tour ht hlen
    rcases getEulerTour_gen _ (s.g.nodes.indexOf e0.src) hne with herr | ⟨t', vis1, ht', hpost⟩
    · rw [ht] at herr; exact absurd herr (by simp)
    · rw [ht] at ht'
      simp only [Except.ok.injEq] at ht'
      subst ht'
      have hlt : ∀ i ∈ tour, i < (s.edgeRef int_vals).length := by
        intro i hi
        have := isWalk_lt hpost.walk i hi
        simpa [StationSolver.eulerGraph] using this
      refine ⟨tour.map (fun i => (s.edgeRef int_vals).getD i ⟨0, 0, 0⟩), ?_, by simp⟩
      rw [hrun, ht]
      simp only
      rw [if_neg (by rw [hlen]; simp), tourFold_ok _ _ hlt]
  · intro sol hsol
    rw [hrun] at hsol
    rcases getEulerTour_gen _ (s.g.nodes.indexOf e0.src) hne with herr | ⟨tour, vis1, ht, hpost⟩
    · rw [herr] at hsol; exact absurd hsol (by simp)
    · rw [ht] at hsol
      simp only at hsol
      have hlt : ∀ i ∈ tour, i < (s.edgeRef int_vals).length := by
        intro i hi
        have := isWalk_lt hpost.walk i hi
        simpa [StationSolver.eulerGraph] using this
      by_cases hlen : s.selectedArcs int_vals = (tour.length : Int)
      · rw [if_neg (by simpa using hlen), tourFold_ok _ _ hlt] at hsol
        simp only [Except.ok.injEq] at hsol
        subst hsol
        have hlen' : tour.length = (s.edgeRef int_vals).length := by
          rw [hsum] at hlen
          exact_mod_cast hlen.symm
        obtain ⟨hwalk, hperm⟩ :=
          solutionTour_of_eulerTour s int_vals e0.src hwf hsrc tour vis1 hpost hlen'
        refine ⟨hwalk, ?_, ?_, ?_⟩
        · intro e he
          exact mem_edgeRef s int_vals (hperm.mem_iff.1 he)
        · rw [List.length_map, hlen]
        · intro e he
          rw [hperm.count_eq, hcount e he]
      · rw [if_pos (by simpa using hlen)] at hsol
        exact absurd hsol (by simp)

/-- C22, witness: on the small instance with the value 1 on every arc but the
arc 3→2, the tour stored is the closed walk 0→1→2→3→4→2→1→0 of all seven arcs
with the value 1. -/
theorem buildSolutionTour_spec_witness :
    smallSolver.g.WellFormed ∧
      (∀ e ∈ smallSolver.g.edges, 0 ≤ roundValues (smallSolver.getCplexId e).toNat) ∧
      smallSolver.g.edges.find?
        (fun e => decide (roundValues (smallSolver.getCplexId e).toNat > 0)) = some ⟨0, 0, 1⟩ ∧
      smallSolver.buildSolutionTour roundValues =
        .ok [⟨0, 0, 1⟩, ⟨4, 1, 2⟩, ⟨2, 2, 3⟩, ⟨6, 3, 4⟩, ⟨7, 4, 2⟩, ⟨5, 2, 1⟩, ⟨1, 1, 0⟩] ∧
      ArcWalk [⟨0, 0, 1⟩, ⟨4, 1, 2⟩, ⟨2, 2, 3⟩, ⟨6, 3, 4⟩, ⟨7, 4, 2⟩, ⟨5, 2, 1⟩, ⟨1, 1, 0⟩] 0 0 ∧
      smallSolver.selectedArcs roundValues = 7 :=
  have hwf : smallSolver.g.WellFormed := by decide
  have hx : ∀ e ∈ smallSolver.g.edges, 0 ≤ roundValues (smallSolver.getCplexId e).toNat := by
    intro e _
    unfold roundValues
    split <;> decide
  have hrun : smallSolver.buildSolutionTour roundValues =
      .ok [⟨0, 0, 1⟩, ⟨4, 1, 2⟩, ⟨2, 2, 3⟩, ⟨6, 3, 4⟩, ⟨7, 4, 2⟩, ⟨5, 2, 1⟩, ⟨1, 1, 0⟩] := by rfl
  match buildSolutionTour_spec smallSolver roundValues ⟨0, 0, 1⟩ hwf hx (by rfl) with
  | ⟨_, _, _, _, _, _, _, h8⟩ =>
    ⟨hwf, hx, by rfl, hrun, (h8 _ hrun).1, by rw [← (h8 _ hrun).2.2.1]; rfl⟩
/-! ## Theorems: the selected arcs and the stored solution -/

section SelectedEdges

variable (s : StationSolver) (vals : Nat → ℚ)

theorem selectEdges_ok (es : List Edge)
    (h : ∀ e ∈ es, s.isOne (vals (s.getCplexId e).toNat) = true ∨
      s.isZero (vals (s.getCplexId e).toNat) = true) :
    s.selectEdges vals es = .ok (es.filter (fun e => s.isOne (vals (s.getCplexId e).toNat))) := by
  induction es with
  | nil => rfl
  | cons e es ih =>
    have ih' := ih (fun x hx => h x (List.mem_cons_of_mem _ hx))
    by_cases h1 : s.isOne (vals (s.getCplexId e).toNat) = true
    · simp only [StationSolver.selectEdges, h1, if_true, ih', List.filter_cons_of_pos]
    · have h0 : s.isZero (vals (s.getCplexId e).toNat) = true := by
        rcases h e (List.mem_cons_self _ _) with h | h
        · exact absurd h h1
        · exact h
      have hf : (e :: es).filter (fun e => s.isOne (vals (s.getCplexId e).toNat)) =
          es.filter (fun e => s.isOne (vals (s.getCplexId e).toNat)) :=
        List.filter_cons_of_neg (p := fun e => s.isOne (vals (s.getCplexId e).toNat)) h1
      rw [hf]
      simp only [StationSolver.selectEdges, h1, Bool.false_eq_true, if_false, h0, Bool.not_true,
        ih']

theorem selectEdges_error (es : List Edge)
    (h : ∃ e ∈ es, s.isOne (vals (s.getCplexId e).toNat) = false ∧
      s.isZero (vals (s.getCplexId e).toNat) = false) :
    s.selectEdges vals es = .error StationSolver.notBinary := by
  induction es with
  | nil =>
    obtain ⟨e, he, _⟩ := h
    simp at he
  | cons e es ih =>
    by_cases h1 : s.isOne (vals (s.getCplexId e).toNat) = true
    · have : ∃ x ∈ es, s.isOne (vals (s.getCplexId x).toNat) = false ∧
          s.isZero (vals (s.getCplexId x).toNat) = false := by
        obtain ⟨x, hx, hx1, hx0⟩ := h
        rcases List.mem_cons.1 hx with rfl | hx
        · rw [h1] at hx1; exact absurd hx1 (by simp)
        · exact ⟨x, hx, hx1, hx0⟩
      simp only [StationSolver.selectEdges, h1, if_true, ih this]
    · by_cases h0 : s.isZero (vals (s.getCplexId e).toNat) = true
      · have : ∃ x ∈ es, s.isOne (vals (s.getCplexId x).toNat) = false ∧
            s.isZero (vals (s.getCplexId x).toNat) = false := by
          obtain ⟨x, hx, hx1, hx0⟩ := h
          rcases List.mem_cons.1 hx with rfl | hx
          · rw [h0] at hx0; exact absurd hx0 (by simp)
          · exact ⟨x, hx, hx1, hx0⟩
        simp only [StationSolver.selectEdges, h1, Bool.false_eq_true, if_false, h0, Bool.not_true,
          ih this]
      · simp only [StationSolver.selectEdges, h1, Bool.false_eq_true, if_false, h0,
          Bool.not_false, if_true]

end SelectedEdges

/-- C26: `StationSolver::getSelectedEdges` throws `Illegal value: Not binary`
exactly when the value of some arc is within the integrality tolerance neither
of 0 nor of 1, and then the separator fails with this exception; otherwise it
returns the arcs whose value is within the tolerance of 1, in the order of the
arcs of the graph.  For a tolerance below 1 the value 2 is not binary, and so
is every value strictly between the tolerance and 1 minus the tolerance. -/
theorem getSelectedEdges_spec (s : StationSolver) (vals : Nat → ℚ) :
    (s.getSelectedEdges vals = .error StationSolver.notBinary ↔
      ∃ e ∈ s.g.edges, s.isOne (vals (s.getCplexId e).toNat) = false ∧
        s.isZero (vals (s.getCplexId e).toNat) = false) ∧
    ((∀ e ∈ s.g.edges, s.isOne (vals (s.getCplexId e).toNat) = true ∨
        s.isZero (vals (s.getCplexId e).toNat) = true) →
      s.getSelectedEdges vals =
        .ok (s.g.edges.filter (fun e => s.isOne (vals (s.getCplexId e).toNat)))) ∧
    ((∃ e ∈ s.g.edges, s.isOne (vals (s.getCplexId e).toNat) = false ∧
        s.isZero (vals (s.getCplexId e).toNat) = false) →
      StationLazyCallback s vals = .error StationSolver.notBinary) ∧
    (∀ v : ℚ, s.epInt < 1 → (v = 2 ∨ (s.epInt < v ∧ v < 1 - s.epInt)) →
      s.isOne v = false ∧ s.isZero v = false) := by
  refine ⟨⟨?_, selectEdges_error s vals s.g.edges⟩, selectEdges_ok s vals s.g.edges, ?_, ?_⟩
  · intro h
    by_contra hno
    have hall : ∀ e ∈ s.g.edges, s.isOne (vals (s.getCplexId e).toNat) = true ∨
        s.isZero (vals (s.getCplexId e).toNat) = true := by
      intro e he
      by_cases h1 : s.isOne (vals (s.getCplexId e).toNat) = true
      · exact Or.inl h1
      · by_cases h0 : s.isZero (vals (s.getCplexId e).toNat) = true
        · exact Or.inr h0
        · exact absurd ⟨e, he, by simpa using h1, by simpa using h0⟩ hno
    have := selectEdges_ok s vals s.g.edges hall
    unfold StationSolver.getSelectedEdges at h
    rw [this] at h
    exact absurd h (by simp)
  · intro h
    have := selectEdges_error s vals s.g.edges h
    simp only [StationLazyCallback, StationSolver.createNewSubgraph,
      StationSolver.getSelectedEdges, this]
  · intro v h1 hv
    unfold StationSolver.isOne StationSolver.isZero
    rcases hv with rfl | ⟨h2, h3⟩
    · constructor
      · simp only [Bool.and_eq_false_iff, decide_eq_false_iff_not, not_le]
        right; linarith
      · simp only [Bool.and_eq_false_iff, decide_eq_false_iff_not, not_le]
        right; linarith
    · constructor
      · simp only [Bool.and_eq_false_iff, decide_eq_false_iff_not, not_le]
        left; linarith
      · simp only [Bool.and_eq_false_iff, decide_eq_false_iff_not, not_le]
        right; linarith

/-- C26, witness: on the small instance the value 2 on the arc 0→1 makes
`getSelectedEdges` and the separator fail. -/
theorem getSelectedEdges_spec_witness :
    smallSolver.getSelectedEdges doubleValues = .error StationSolver.notBinary ∧
      StationLazyCallback smallSolver doubleValues = .error StationSolver.notBinary :=
  match getSelectedEdges_spec smallSolver doubleValues with
  | ⟨h1, _, h3, h4⟩ =>
    have hex : ∃ e ∈ smallSolver.g.edges,
        smallSolver.isOne (doubleValues (smallSolver.getCplexId e).toNat) = false ∧
          smallSolver.isZero (doubleValues (smallSolver.getCplexId e).toNat) = false :=
      ⟨⟨0, 0, 1⟩, by decide,
        h4 2 (by rw [smallSolver_epInt]; norm_num) (Or.inl rfl)⟩
    ⟨h1.2 hex, h3 hex⟩

/-- C27: after a call of `CplexSolver::solve`, whatever the state before the
call, the solution is available exactly when the call returned without an
exception.  A call that throws (the backend throws, ends without an optimal
solution, or `buildSolutionTour` throws because the solution is not Eulerian or
the tour misses selected arcs) leaves `getSolutionTour`, `getSolutionValue` and
`getTime` throwing `No solution available`; so do they after the constructor.
A call that returns stores the tour, the objective value and the time of this
call. -/
theorem solve_solution_available (s : StationSolver) (sol : Solution) (backend : Backend) :
    ((s.solve sol backend).2 = .ok () ↔ (s.solve sol backend).1._solution_found = true) ∧
    (∀ m, (s.solve sol backend).2 = .error m →
      (s.solve sol backend).1.getSolutionTour = .error noSolution ∧
      (s.solve sol backend).1.getSolutionValue = .error noSolution ∧
      (s.solve sol backend).1.getTime = .error noSolution) ∧
    ((s.solve sol backend).2 = .ok () →
      ∃ time objValue int_vals tour, backend = .finished true true time objValue int_vals ∧
        s.buildSolutionTour int_vals = .ok tour ∧
        (s.solve sol backend).1.getSolutionTour = .ok tour ∧
        (s.solve sol backend).1.getSolutionValue = .ok objValue ∧
        (s.solve sol backend).1.getTime = .ok time) ∧
    (∀ message, backend = .cplexException message →
      (s.solve sol backend).2 = .error ("Cplex Exception: " ++ message)) ∧
    (∀ message, backend = .otherException message →
      (s.solve sol backend).2 = .error message) ∧
    (∀ cplex_solved optimal time objValue int_vals,
      backend = .finished cplex_solved optimal time objValue int_vals →
      (cplex_solved = false ∨ optimal = false) →
      (s.solve sol backend).2 = .error noOptimalSolution) ∧
    (∀ time objValue int_vals m, backend = .finished true true time objValue int_vals →
      s.buildSolutionTour int_vals = .error m → (s.solve sol backend).2 = .error m) ∧
    (∀ value time, (Solution.initial value time).getSolutionTour = .error noSolution ∧
      (Solution.initial value time).getSolutionValue = .error noSolution ∧
      (Solution.initial value time).getTime = .error noSolution) := by
  have hfound : (s.solve sol backend).2 = .ok () ↔
      (s.solve sol backend).1._solution_found = true := by
    cases backend with
    | cplexException message => simp [StationSolver.solve]
    | otherException message => simp [StationSolver.solve]
    | finished cplex_solved optimal time objValue int_vals =>
      simp only [StationSolver.solve]
      split
      · simp
      · split <;> simp
  refine ⟨hfound, ?_, ?_, ?_, ?_, ?_, ?_, ?_⟩
  · intro m hm
    have hf : (s.solve sol backend).1._solution_found = false := by
      cases hb : (s.solve sol backend).1._solution_found with
      | false => rfl
      | true =>
        rw [hfound.2 hb] at hm
        exact absurd hm (by simp)
    simp [Solution.getSolutionTour, Solution.getSolutionValue, Solution.getTime, hf]
  · intro h
    cases backend with
    | cplexException message => simp [StationSolver.solve] at h
    | otherException message => simp [StationSolver.solve] at h
    | finished cplex_solved optimal time objValue int_vals =>
      cases cplex_solved with
      | false => simp [StationSolver.solve] at h
      | true =>
        cases optimal with
        | false => simp [StationSolver.solve] at h
        | true =>
          cases hb : s.buildSolutionTour int_vals with
          | error m => simp [StationSolver.solve, hb] at h
          | ok tour =>
            refine ⟨time, objValue, int_vals, tour, rfl, hb, ?_, ?_, ?_⟩ <;>
              simp [StationSolver.solve, hb, Solution.getSolutionTour,
                Solution.getSolutionValue, Solution.getTime]
  · rintro message rfl
    rfl
  · rintro message rfl
    rfl
  · rintro cplex_solved optimal time objValue int_vals rfl h
    rcases h with rfl | rfl <;> simp [StationSolver.solve]
  · rintro time objValue int_vals m rfl hb
    simp [StationSolver.solve, hb]
  · intro value time
    exact ⟨rfl, rfl, rfl⟩

/-- C27, witness: on the small instance a call of `solve` whose backend returns
the closed walk of seven arcs stores the solution; a second call whose backend
returns two disjoint cycles throws `Invalid solution: Solution contains sub
tours`, and the solution of the first call is no longer available. -/
theorem solve_solution_available_witness :
    (smallSolver.solve (Solution.initial 0 0) (.finished true true 3 7 roundValues)).2 = .ok () ∧
      (smallSolver.solve (Solution.initial 0 0)
        (.finished true true 3 7 roundValues)).1.getSolutionValue = .ok 7 ∧
      (smallSolver.solve
        (smallSolver.solve (Solution.initial 0 0) (.finished true true 3 7 roundValues)).1
        (.finished true true 2 4 cycleValues)).2 = .error subTours ∧
      (smallSolver.solve
        (smallSolver.solve (Solution.initial 0 0) (.finished true true 3 7 roundValues)).1
        (.finished true true 2 4 cycleValues)).1.getSolutionTour = .error noSolution :=
  have h1 : (smallSolver.solve (Solution.initial 0 0)
      (.finished true true 3 7 roundValues)).2 = .ok () := by rfl
  have h2 : (smallSolver.solve
      (smallSolver.solve (Solution.initial 0 0) (.finished true true 3 7 roundValues)).1
      (.finished true true 2 4 cycleValues)).2 = .error subTours := by rfl
  ⟨h1,
    match (solve_solution_available smallSolver (Solution.initial 0 0)
      (.finished true true 3 7 roundValues)).2.2.1 h1 with
    | ⟨_, _, _, _, hb, _, _, hv, _⟩ => by
      simp only [Backend.finished.injEq, true_and] at hb
      rw [hv, ← hb.2.1],
    h2,
    ((solve_solution_available smallSolver
      (smallSolver.solve (Solution.initial 0 0) (.finished true true 3 7 roundValues)).1
      (.finished true true 2 4 cycleValues)).2.1 _ h2).1⟩
/-! ## Theorems: the cluster index of a built graph -/

section ClusterIndex

open GraphBuilder

theorem removeChain_nodes (l : List Nat) :
    ∀ (b : GraphBuilder) (red : List Nat) (r : GraphBuilder × List Nat),
      removeChain l (b, red) = .ok r →
      r.2 = red ++ l ∧ r.1._g.nodes = b._g.nodes.filter (fun n => decide (n ∉ l)) ∧
        r.1._station_nodes = b._station_nodes ∧ r.1._node_names = b._node_names ∧
        r.1._g.nextNode = b._g.nextNode := by
  induction l with
  | nil =>
    intro b red r h
    simp only [removeChain, Except.ok.injEq] at h
    subst h
    simp
  | cons n ns ih =>
    intro b red r h
    obtain ⟨ein, eout, _, _, _, hrest⟩ := removeChain_cons_inv b n ns red r h
    obtain ⟨h1, h2, h3, h4, h5⟩ := ih _ _ _ hrest
    refine ⟨by rw [h1]; simp, ?_, h3, h4, h5⟩
    rw [h2, contractNode_nodes, List.filter_filter]
    apply List.filter_congr
    intro x _
    by_cases hx : x = n <;> simp [hx]

theorem removeChains_nodes (type : ProblemType) (chains : List (List Nat)) :
    ∀ (st r : GraphBuilder × List Nat), removeChains type chains st = .ok r →
      ∃ added, r.2 = st.2 ++ added ∧
        r.1._g.nodes = st.1._g.nodes.filter (fun n => decide (n ∉ added)) ∧
        r.1._station_nodes = st.1._station_nodes ∧ r.1._node_names = st.1._node_names ∧
        r.1._g.nextNode = st.1._g.nextNode := by
  induction chains with
  | nil =>
    intro st r h
    simp only [removeChains, Except.ok.injEq] at h
    subst h
    exact ⟨[], by simp, by simp, rfl, rfl, rfl⟩
  | cons list rest ih =>
    intro st r h
    simp only [removeChains] at h
    split at h
    · exact absurd h (by simp)
    · exact ih st r h
    · split at h
      · exact absurd h (by simp)
      · rename_i st1 h1
        obtain ⟨b, red⟩ := st
        obtain ⟨a1, a2, a3, a4, a5⟩ := removeChain_nodes list b red st1 h1
        obtain ⟨added, c1, c2, c3, c4, c5⟩ := ih st1 r h
        refine ⟨list ++ added, ?_, ?_, c3.trans a3, c4.trans a4, c5.trans a5⟩
        · rw [c1, a1, List.append_assoc]
        · rw [c2, a2, List.filter_filter]
          apply List.filter_congr
          intro x _
          simp only [List.mem_append, not_or, Bool.decide_and, Bool.and_comm]

theorem preprocessGraph_nodes (b b' : GraphBuilder) (type : ProblemType)
    (h : b.preprocessGraph type = .ok b') :
    ∃ red, b'._g.nodes = b._g.nodes.filter (fun n => decide (n ∉ red)) ∧
      b'._station_nodes = cleanStations red b._station_nodes ∧
      b'._node_names = b._node_names := by
  unfold preprocessGraph at h
  split at h
  · exact absurd h (by simp)
  · rename_i chains _
    split at h
    · exact absurd h (by simp)
    · rename_i b1 red h1
      obtain ⟨added, c1, c2, c3, c4, _⟩ := removeChains_nodes type chains (b, []) (b1, red) h1
      simp only [Except.ok.injEq] at h
      subst h
      simp only [List.nil_append] at c1
      simp only at c2 c3 c4
      subst c1
      exact ⟨red, c2, by rw [c3], c4⟩

theorem eq_of_key_eq {sn : StationNodes} (hs : (sn.map Prod.fst).Pairwise (fun a c => a < c))
    {p q : String × List Nat} (hp : p ∈ sn) (hq : q ∈ sn) (h : p.1 = q.1) : p = q := by
  have hnd : (sn.map Prod.fst).Nodup := hs.imp (fun hac => ne_of_lt hac)
  exact List.inj_on_of_nodup_map hnd hp hq h

theorem mem_cleanStations (red : List Nat) (sn : StationNodes) (p : String × List Nat) :
    p ∈ cleanStations red sn ↔
      p.2 ≠ [] ∧ ∃ q ∈ sn, p = (q.1, q.2.filter (fun n => decide (n ∉ red))) := by
  simp only [cleanStations, List.mem_filter, List.mem_map, Bool.not_eq_true',
    List.isEmpty_eq_false]
  constructor
  · rintro ⟨⟨q, hq, rfl⟩, hne⟩
    exact ⟨hne, q, hq, rfl⟩
  · rintro ⟨hne, q, hq, rfl⟩
    exact ⟨⟨q, hq, rfl⟩, hne⟩

theorem cleanStations_nil (sn : StationNodes) (hne : ∀ p ∈ sn, p.2 ≠ []) :
    cleanStations [] sn = sn := by
  simp only [cleanStations, List.not_mem_nil, not_false_eq_true, decide_True, List.filter_true,
    Prod.mk.eta, List.map_id']
  rw [List.filter_eq_self]
  intro p hp
  simpa using hne p hp

/-- The cluster index after nodes have been removed from the graph and from the
clusters: every cluster is a nonempty set of nodes of the graph, and every node
of the graph is in exactly one cluster. -/
theorem clusters_after_removal (b : GraphBuilder) (hs : Sound b) (red : List Nat) :
    (∀ p ∈ cleanStations red b._station_nodes, p.2 ≠ [] ∧ p.2.Nodup ∧
      ∀ n ∈ p.2, n ∈ b._g.nodes.filter (fun n => decide (n ∉ red))) ∧
    ((cleanStations red b._station_nodes).map Prod.fst).Pairwise (fun a c => a < c) ∧
    (∀ n ∈ b._g.nodes.filter (fun n => decide (n ∉ red)),
      ∃ p ∈ cleanStations red b._station_nodes, n ∈ p.2 ∧
        ∀ q ∈ cleanStations red b._station_nodes, n ∈ q.2 → q = p) ∧
    cleanStations red b._station_nodes =
      restrictClusters (b._g.nodes.filter (fun n => decide (n ∉ red))) b._station_nodes := by
  obtain ⟨hF, _, hB⟩ := hs
  have hcl : ∀ p ∈ b._station_nodes, p.2.Nodup ∧ p.2 ≠ [] ∧
      ∀ n, n ∈ p.2 ↔ (n < b._g.nextNode ∧ b._node_names n = p.1) := hB.clusters
  have hsorted : (b._station_nodes.map Prod.fst).Pairwise (fun a c => a < c) := hB.sorted
  have hcov : ∀ n, n < b._g.nextNode → ∃ p ∈ b._station_nodes, p.1 = b._node_names n :=
    hB.covered
  refine ⟨?_, ?_, ?_, ?_⟩
  · intro p hp
    obtain ⟨hne, q, hq, rfl⟩ := (mem_cleanStations red _ p).1 hp
    obtain ⟨hnd, _, hiff⟩ := hcl q hq
    refine ⟨hne, hnd.filter _, ?_⟩
    intro n hn
    simp only [List.mem_filter, decide_eq_true_eq] at hn ⊢
    exact ⟨(hF.1 n).2 ((hiff n).1 hn.1).1, hn.2⟩
  · have hsub : ((cleanStations red b._station_nodes).map Prod.fst).Sublist
        (b._station_nodes.map Prod.fst) := by
      have h1 : (cleanStations red b._station_nodes).Sublist
          (b._station_nodes.map (fun p => (p.1, p.2.filter (fun n => decide (n ∉ red))))) :=
        List.filter_sublist _
      have h2 := h1.map Prod.fst
      rw [List.map_map] at h2
      exact h2
    exact hsorted.sublist hsub
  · intro n hn
    simp only [List.mem_filter, decide_eq_true_eq] at hn
    obtain ⟨p, hp, hname⟩ := hcov n ((hF.1 n).1 hn.1)
    have hnp : n ∈ p.2 := ((hcl p hp).2.2 n).2 ⟨(hF.1 n).1 hn.1, hname.symm⟩
    have hnf : n ∈ p.2.filter (fun n => decide (n ∉ red)) := by
      simp only [List.mem_filter, decide_eq_true_eq]
      exact ⟨hnp, hn.2⟩
    refine ⟨(p.1, p.2.filter (fun n => decide (n ∉ red))), ?_, hnf, ?_⟩
    · exact (mem_cleanStations red _ _).2 ⟨List.ne_nil_of_mem hnf, p, hp, rfl⟩
    · intro q' hq' hnq
      obtain ⟨_, q, hq, rfl⟩ := (mem_cleanStations red _ q').1 hq'
      simp only [List.mem_filter, decide_eq_true_eq] at hnq
      have hqn := ((hcl q hq).2.2 n).1 hnq.1
      have : q = p := eq_of_key_eq hsorted hq hp (hqn.2.symm.trans hname.symm)
      rw [this]
  · unfold cleanStations restrictClusters
    congr 1
    apply List.map_congr_left
    intro p hp
    congr 1
    apply List.filter_congr
    intro n hn
    have hlt := (((hcl p hp).2.2 n).1 hn).1
    simp only [List.mem_filter, decide_eq_true_eq, (hF.1 n).2 hlt, true_and]

theorem assignStation_ok (name : String) (ns : List Nat) :
    ∀ idx : StationIndex, (idx.nodesInStations ++ ns).Nodup →
      ∃ idx1, assignStation name ns idx = .ok idx1 := by
  induction ns with
  | nil => intro idx _; exact ⟨idx, rfl⟩
  | cons n ns ih =>
    intro idx hnd
    have hn : n ∉ idx.nodesInStations := by
      intro hmem
      exact (List.nodup_append.1 hnd).2.2 hmem (List.mem_cons_self _ _)
    have hc : contains idx.nodesInStations n = false := by simpa [contains] using hn
    simp only [assignStation, hc, Bool.false_eq_true, if_false]
    apply ih
    simpa [List.append_assoc] using hnd

theorem assignStations_ok (stations : StationNodes) :
    ∀ idx : StationIndex, idx.nodesInStations.Nodup →
      (idx.nodesInStations ++ stations.flatMap (fun st => st.2)).Nodup →
      ∃ idx1, assignStations stations idx = .ok idx1 := by
  induction stations with
  | nil => intro idx _ _; exact ⟨idx, rfl⟩
  | cons st rest ih =>
    intro idx hnd0 hnd
    rw [List.flatMap_cons, ← List.append_assoc] at hnd
    obtain ⟨idx1, h1⟩ := assignStation_ok st.1 st.2 idx (List.Nodup.of_append_left hnd)
    obtain ⟨_, a2, a3, _, _⟩ := assignStation_spec _ _ _ _ h1 hnd0
    simp only [assignStations, h1]
    apply ih
    · exact a3
    · simp only
      rw [a2]
      exact hnd

/-- On a cluster index that partitions the nodes of the graph
`initializeStations` can only fail for the lack of a unique station. -/
theorem initializeStations_of_partition (g : LGraph) (sn : StationNodes) (hnd : g.nodes.Nodup)
    (h1 : ∀ p ∈ sn, p.2.Nodup ∧ ∀ n ∈ p.2, n ∈ g.nodes)
    (hkeys : (sn.map Prod.fst).Pairwise (fun a c => a < c))
    (hcov : ∀ n ∈ g.nodes, ∃ p ∈ sn, n ∈ p.2)
    (huniq : ∀ p ∈ sn, ∀ q ∈ sn, ∀ n, n ∈ p.2 → n ∈ q.2 → p = q) :
    initializeStations g sn = .error noUniqueStation ∨
      ∃ idx, initializeStations g sn = .ok idx := by
  have hflat : (sn.flatMap (fun st => st.2)).Nodup := by
    rw [List.nodup_flatMap]
    refine ⟨fun p hp => (h1 p hp).1, ?_⟩
    have hpw : sn.Pairwise (fun a c => a.1 < c.1) := List.pairwise_map.1 hkeys
    apply hpw.imp_of_mem
    intro a c ha hc hac
    intro n hna hnc
    have := huniq a ha c hc n hna hnc
    rw [this] at hac
    exact absurd hac (lt_irrefl _)
  have hperm : (sn.flatMap (fun st => st.2)).Perm g.nodes := by
    rw [List.perm_ext_iff_of_nodup hflat hnd]
    intro n
    constructor
    · intro hn
      obtain ⟨p, hp, hnp⟩ := List.mem_flatMap.1 hn
      exact (h1 p hp).2 n hnp
    · intro hn
      obtain ⟨p, hp, hnp⟩ := hcov n hn
      exact List.mem_flatMap.2 ⟨p, hp, hnp⟩
  unfold initializeStations
  by_cases hf : (findUniqueStation g sn).isNone = true
  · left; rw [if_pos hf]
  · right
    rw [if_neg hf]
    obtain ⟨idx, hidx⟩ := assignStations_ok sn ⟨fun _ => -1, [], 0⟩ List.nodup_nil
      (by simpa using hflat)
    obtain ⟨_, a2, _, _⟩ := assignStations_spec _ _ _ hidx List.nodup_nil
    simp only [List.nil_append] at a2
    rw [hidx]
    simp only
    have hlen : g.numberOfNodes = idx.nodesInStations.length := by
      rw [a2, hperm.length_eq]; rfl
    rw [if_neg (by simpa using hlen)]
    exact ⟨idx, rfl⟩

end ClusterIndex

/-- C21: in a graph built by `GraphBuilder`, with or without preprocessing, the
cluster index is the index of the graph before preprocessing restricted to the
nodes of the built graph: removed nodes have left their clusters, and a cluster
without a node is dropped.  Every cluster is a nonempty set of nodes of the
graph, and every node of the graph is in exactly one cluster.  Hence
`StationSolver::initializeStations` returns or throws for the lack of a unique
station: it throws neither `Not all nodes are assigned to stations` nor the
exception for a node in two stations. -/
theorem graphBuilder_station_index (stations : t_stationmap) (lines : t_linemap) (cc sc : ℚ)
    (type : ProblemType) (preprocess : Bool) (b : GraphBuilder)
    (h : GraphBuilder.new stations lines cc sc type preprocess = .ok b) :
    ∃ (b1 : GraphBuilder) (way back : NodeMap) (b2 : GraphBuilder),
      GraphBuilder.createNodesAndTravelArcs (GraphBuilder.init stations lines cc sc)
        (fun _ _ => none) (fun _ _ => none) = .ok (b1, way, back) ∧
      b1.addSpecialArcs way back type preprocess = .ok b2 ∧
      (∀ n ∈ b._g.nodes, n ∈ b2._g.nodes) ∧
      b._station_nodes = restrictClusters b._g.nodes b2._station_nodes ∧
      (∀ p ∈ b._station_nodes, p.2 ≠ [] ∧ p.2.Nodup ∧ ∀ n ∈ p.2, n ∈ b._g.nodes) ∧
      (b._station_nodes.map Prod.fst).Pairwise (fun a c => a < c) ∧
      (∀ n ∈ b._g.nodes, ∃ p ∈ b._station_nodes, n ∈ p.2 ∧
        ∀ q ∈ b._station_nodes, n ∈ q.2 → q = p) ∧
      (initializeStations b._g b._station_nodes = .error noUniqueStation ∨
        ∃ idx, initializeStations b._g b._station_nodes = .ok idx) ∧
      initializeStations b._g b._station_nodes ≠ .error notAllAssigned ∧
      (∀ name, initializeStations b._g b._station_nodes ≠ .error (duplicateNode name)) := by
  obtain ⟨hfin, _⟩ := (new_ok_iff stations lines cc sc type preprocess b).1 h
  obtain ⟨b1, way, back, b2, h1, h2, h3⟩ :=
    finalGraph_phases stations lines cc sc type preprocess b hfin
  obtain ⟨hs1, hw, hk, _⟩ := createNodesAndTravelArcs_sound _ _ _ _ _ _ h1
    (sound_init stations lines cc sc) (mapIn_empty _) (mapIn_empty _)
  obtain ⟨switches, transfers, _, _, hb2, _, hs2⟩ :=
    addSpecialArcs_trace b1 way back type preprocess b2 hs1 hw hk h2
  have hnodes2 : b2._g.nodes = List.range (2 * totalStops lines) := by
    rw [hb2, (addArcs_fields _ _ _).1, (addArcs_fields _ _ _).1]
    exact (createNodesAndTravelArcs_nodes stations lines cc sc b1 way back h1).1
  have hred : ∃ red, b._g.nodes = b2._g.nodes.filter (fun n => decide (n ∉ red)) ∧
      b._station_nodes = GraphBuilder.cleanStations red b2._station_nodes := by
    cases preprocess with
    | false =>
      simp only [Bool.false_eq_true, if_false] at h3
      subst h3
      refine ⟨[], by simp, ?_⟩
      rw [cleanStations_nil]
      intro p hp
      exact (hs2.2.2.clusters p hp).2.1
    | true =>
      simp only [if_true] at h3
      obtain ⟨red, r1, r2, _⟩ := preprocessGraph_nodes b2 b type h3
      exact ⟨red, r1, r2⟩
  obtain ⟨red, hn, hsn⟩ := hred
  obtain ⟨c1, c2, c3, c4⟩ := clusters_after_removal b2 hs2 red
  rw [← hn, ← hsn] at c1 c3 c4
  rw [← hsn] at c2
  have hnd : b._g.nodes.Nodup := by
    rw [hn, hnodes2]
    exact (List.nodup_range _).filter _
  have hinit := initializeStations_of_partition b._g b._station_nodes hnd
    (fun p hp => ⟨(c1 p hp).2.1, (c1 p hp).2.2⟩) c2
    (fun n hn' => (c3 n hn').imp (fun p hp => ⟨hp.1, hp.2.1⟩))
    (fun p hp q hq n hnp hnq => by
      obtain ⟨p0, _, _, hall⟩ := c3 n ((c1 p hp).2.2 n hnp)
      rw [hall p hp hnp, hall q hq hnq])
  refine ⟨b1, way, back, b2, h1, h2, ?_, c4, c1, c2, c3, hinit, ?_, ?_⟩
  · intro n hn'
    rw [hn] at hn'
    exact (List.mem_filter.1 hn').1
  · intro hbad
    rcases hinit with h | ⟨idx, h⟩
    · rw [h] at hbad
      simp only [Except.error.injEq] at hbad
      exact notAllAssigned_ne hbad.symm
    · rw [h] at hbad; exact absurd hbad (by simp)
  · intro name hbad
    rcases hinit with h | ⟨idx, h⟩
    · rw [h] at hbad
      simp only [Except.error.injEq] at hbad
      exact duplicateNode_ne name hbad.symm
    · rw [h] at hbad; exact absurd hbad (by simp)

theorem chainBuilder_new :
    GraphBuilder.new chainStations chainLines 5 5 .SEGMENT true = .ok chainBuilder := by
  rfl

/-- C21, witness: the single line of four stations builds in segment mode with
preprocessing; the nodes of `B` and `C` are contracted, the graph keeps the
nodes 0, 3, 4, 7 and the index keeps the clusters of `A` and `D`. -/
theorem graphBuilder_station_index_witness :
    GraphBuilder.new chainStations chainLines 5 5 .SEGMENT true = .ok chainBuilder ∧
      chainBuilder._g.nodes = [0, 3, 4, 7] ∧
      chainBuilder._station_nodes = [("A", [0, 7]), ("D", [3, 4])] ∧
      (∀ n ∈ chainBuilder._g.nodes, ∃ p ∈ chainBuilder._station_nodes, n ∈ p.2 ∧
        ∀ q ∈ chainBuilder._station_nodes, n ∈ q.2 → q = p) ∧
      initializeStations chainBuilder._g chainBuilder._station_nodes ≠ .error notAllAssigned :=
  match graphBuilder_station_index chainStations chainLines 5 5 .SEGMENT true chainBuilder
    chainBuilder_new with
  | ⟨_, _, _, _, _, _, _, _, _, _, h7, _, h9, _⟩ => ⟨chainBuilder_new, by rfl, by decide!, h7, h9⟩
/-! ## Theorems: the data of the separator -/

section SeparatorContext

variable {g : LGraph} {dist : Nat → ℚ} {stations : StationNodes} {s : StationSolver}

theorem sorted_setInsert (l : List Int) (c : Int) (h : l.Sorted (fun a b => a ≤ b)) :
    (setInsert l c).Sorted (fun a b => a ≤ b) := by
  unfold setInsert
  split
  · exact h
  · exact h.orderedInsert c l

theorem collectComponents_sorted (s : StationSolver) (compnum : Nat → Int) (ns : List Nat) :
    ∀ (cps0 cps : List (List Int)), collectComponents s compnum ns cps0 = .ok cps →
      (∀ k, (cps0.getD k []).Sorted (fun a b => a ≤ b)) →
      ∀ k, (cps.getD k []).Sorted (fun a b => a ≤ b) := by
  induction ns with
  | nil =>
    intro cps0 cps h h0
    simp only [collectComponents, Except.ok.injEq] at h
    subst h
    exact h0
  | cons n ns ih =>
    intro cps0 cps h h0
    simp only [collectComponents] at h
    split at h
    · exact absurd h (by simp)
    · split at h
      · exact absurd h (by simp)
      · apply ih _ _ h
        intro k
        rw [getD_modify]
        split
        · exact sorted_setInsert _ _ (h0 k)
        · exact h0 k

theorem exclusiveComponents_ne (cps : List (List Int)) :
    ∀ (excl0 excl : List Int), exclusiveComponents cps excl0 = .ok excl →
      ∀ components ∈ cps, components ≠ [] := by
  induction cps with
  | nil => intro _ _ _ c hc; simp at hc
  | cons components rest ih =>
    intro excl0 excl h c hc
    simp only [exclusiveComponents] at h
    split at h
    · exact absurd h (by simp)
    · rename_i hne
      have hne' : components ≠ [] := by simpa using hne
      have hrest : ∀ c ∈ rest, c ≠ [] := by
        split at h
        · split at h
          · exact absurd h (by simp)
          · exact ih _ _ h
        · exact ih _ _ h
      rcases List.mem_cons.1 hc with rfl | hc
      · exact hne'
      · exact hrest c hc

theorem isBinary_of_getSelectedEdges (hok : SolverOk g dist stations s) (hwf : g.WellFormed)
    (x : Nat → ℚ) (sel : List Edge) (h : s.getSelectedEdges x = .ok sel) : s.IsBinary x := by
  intro i hi
  by_contra hno
  simp only [not_or, Bool.not_eq_true] at hno
  have hi' : i < g.edges.length := by rw [← hok.graph]; exact hi
  have hget : g.edges[i]? = some g.edges[i] := List.getElem?_eq_getElem hi'
  have hid := hok.cplexId hwf i _ hget
  have herr := selectEdges_error s x s.g.edges
    ⟨g.edges[i], by rw [hok.graph]; exact List.getElem_mem hi', by rw [hid]; exact hno.1,
      by rw [hid]; exact hno.2⟩
  unfold StationSolver.getSelectedEdges at h
  rw [herr] at h
  exact absurd h (by simp)

/-- The sets of components the separator collects for a binary candidate: the
set of a station holds the numbers of the components of its nodes on selected
arcs, in increasing order. -/
theorem separator_components (hwf : g.WellFormed) (hok : SolverOk g dist stations s)
    (x : Nat → ℚ) :
    ∃ cps : List (List Int),
      collectComponents s
        (COMPONENTS (CopyGraph (s.selected x)).nodes
          (endpoints (CopyGraph (s.selected x)).edges)).1
        (CopyGraph (s.selected x)).nodes (List.replicate s.nStations []) = .ok cps ∧
      cps.length = stations.length ∧
      (∀ k (hk : k < stations.length) c, c ∈ cps.getD k [] ↔
        ∃ n ∈ stations[k].2, OnSelected (s.selected x) n ∧
          (COMPONENTS (CopyGraph (s.selected x)).nodes
            (endpoints (CopyGraph (s.selected x)).edges)).1 n = c) ∧
      (∀ k, (cps.getD k []).Sorted (fun a b => a ≤ b)) ∧
      (∀ k, (cps.getD k []).Nodup) := by
  set sel := s.selected x with hsel
  set compnum := (COMPONENTS (CopyGraph sel).nodes (endpoints (CopyGraph sel).edges)).1
    with hcompnum
  have hsub : ∀ e ∈ sel, e ∈ g.edges := by
    intro e he
    have := selected_sub s x e he
    rwa [hok.graph] at this
  have hgn : ∀ n, OnSelected sel n → n ∈ g.nodes := by
    intro n hn
    obtain ⟨e, he, h | h⟩ := (onSelected_iff sel n).1 hn
    · exact h ▸ hwf.src_mem e (hsub e he)
    · exact h ▸ hwf.tgt_mem e (hsub e he)
  have hstation : ∀ n ∈ g.nodes, ∀ k (hk : k < stations.length),
      s.getStation n = (k : Int) ↔ n ∈ stations[k].2 := by
    intro n hn k hk
    constructor
    · intro h
      obtain ⟨k', hk', hmem, hst⟩ := hok.station hn
      have : k' = k := by rw [hst] at h; exact_mod_cast h
      subst this; exact hmem
    · intro h; exact hok.stationOf k hk n h
  obtain ⟨cps, hcollect, hlen, hmem, hnd⟩ :=
    collectComponents_spec s compnum (CopyGraph sel).nodes (List.replicate s.nStations [])
      (fun n hn => (COMPONENTS_range _ _ (copyGraph_closed sel) hn).1)
      (fun n hn => by
        obtain ⟨k, hk, _, hst⟩ := hok.station (hgn n ((mem_copyGraph_nodes sel n).1 hn))
        exact ⟨k, by simpa [hok.nStations] using hk, hst⟩)
  have hrep : ∀ k, (List.replicate s.nStations ([] : List Int)).getD k [] = [] := by
    intro k
    simp only [List.getD_eq_getElem?_getD, List.getElem?_replicate]
    split <;> simp
  refine ⟨cps, hcollect, by simpa [hok.nStations] using hlen, ?_, ?_, ?_⟩
  · intro k hk c
    rw [hmem]
    simp only [hrep, List.not_mem_nil, false_or]
    constructor
    · rintro ⟨n, hn, hst, hc⟩
      have hon := (mem_copyGraph_nodes sel n).1 hn
      exact ⟨n, (hstation n (hgn n hon) k hk).1 hst, hon, hc⟩
    · rintro ⟨n, hn, hon, hc⟩
      exact ⟨n, (mem_copyGraph_nodes sel n).2 hon, hok.stationOf k hk n hn, hc⟩
  · apply collectComponents_sorted s compnum _ _ _ hcollect
    intro k
    rw [hrep]
    exact List.sorted_nil
  · apply hnd
    intro k
    rw [hrep]
    exact List.nodup_nil

/-- When the separator returns normally, the candidate is binary and every
station has a node on a selected arc. -/
theorem touched_of_callback (hwf : g.WellFormed) (hok : SolverOk g dist stations s)
    (x : Nat → ℚ) (cuts : List Row) (hrun : StationLazyCallback s x = .ok cuts) :
    s.IsBinary x ∧ ∀ station ∈ stations, Touched (s.selected x) station.2 := by
  have hbin : s.IsBinary x := by
    cases hsel : s.getSelectedEdges x with
    | error m =>
      simp [StationLazyCallback, StationSolver.createNewSubgraph, hsel] at hrun
    | ok sel => exact isBinary_of_getSelectedEdges hok hwf x sel hsel
  refine ⟨hbin, ?_⟩
  obtain ⟨cps, hcollect, hlen, hmem, _, _⟩ := separator_components hwf hok x
  simp only [StationLazyCallback, StationSolver.createNewSubgraph,
    getSelectedEdges_eq hok hwf x hbin, hcollect] at hrun
  cases hex : exclusiveComponents cps [] with
  | error m => simp [hex] at hrun
  | ok excl =>
    have hne := exclusiveComponents_ne cps [] excl hex
    intro station hst
    obtain ⟨k, hk, rfl⟩ := List.getElem_of_mem hst
    have hk' : k < cps.length := hlen ▸ hk
    have hnek : cps.getD k [] ≠ [] := by
      rw [List.getD_eq_getElem _ _ hk']
      exact hne _ (List.getElem_mem _)
    obtain ⟨c, hc⟩ := List.exists_mem_of_ne_nil _ hnek
    obtain ⟨n, hn, hon, _⟩ := (hmem k hk c).1 hc
    exact ⟨n, hn, hon⟩

end SeparatorContext
/-! ## Theorems: flow across a set of nodes -/

section FlowCut

theorem sum_indicator_nodup (N : List Nat) (hnd : N.Nodup) (a : Nat) (c : ℚ) :
    (N.map (fun v => if a = v then c else 0)).sum = if a ∈ N then c else 0 := by
  induction N with
  | nil => simp
  | cons b N ih =>
    rw [List.nodup_cons] at hnd
    rw [List.map_cons, List.sum_cons, ih hnd.2]
    by_cases hab : a = b
    · subst hab
      simp [hnd.1]
    · have : a ∈ b :: N ↔ a ∈ N := by simp [hab]
      simp only [hab, if_false, zero_add, this]

/-- Summing, over the nodes of a list without repetition, the values of the
entries with a given key gives the sum over the entries whose key is in the
list. -/
theorem sum_by_key {α : Type} (L : List α) (key : α → Nat) (f : α → ℚ) (N : List Nat)
    (hnd : N.Nodup) :
    (N.map (fun v => ((L.filter (fun p => key p == v)).map f).sum)).sum =
      ((L.filter (fun p => decide (key p ∈ N))).map f).sum := by
  induction L with
  | nil => simp
  | cons a L ih =>
    have hstep : ∀ v, (((a :: L).filter (fun p => key p == v)).map f).sum =
        (if key a = v then f a else 0) + ((L.filter (fun p => key p == v)).map f).sum := by
      intro v
      by_cases h : key a = v
      · simp [List.filter_cons, h]
      · simp [List.filter_cons, h]
    simp only [hstep]
    rw [List.sum_map_add, ih, sum_indicator_nodup N hnd]
    by_cases h : key a ∈ N
    · simp [List.filter_cons, h]
    · simp [List.filter_cons, h]

theorem sum_filter_split {α : Type} (L : List α) (P Q : α → Bool) (f : α → ℚ) :
    ((L.filter P).map f).sum =
      ((L.filter (fun p => P p && Q p)).map f).sum +
        ((L.filter (fun p => P p && !Q p)).map f).sum := by
  induction L with
  | nil => simp
  | cons a L ih =>
    cases hP : P a <;> cases hQ : Q a <;> simp [List.filter_cons, hP, hQ, ih] <;> ring

/-- The flow that leaves a set of nodes equals the flow that enters it, for an
arc vector that satisfies flow conservation. -/
theorem flow_cut (g : LGraph) (hwf : g.WellFormed) (y : Nat → ℚ) (S : Nat → Bool)
    (hflow : ∀ v ∈ g.nodes, inFlow g y v = outFlow g y v) :
    ((g.edges.enum.filter (fun p => S p.2.src && !S p.2.tgt)).map (fun p => y p.1)).sum =
      ((g.edges.enum.filter (fun p => !S p.2.src && S p.2.tgt)).map (fun p => y p.1)).sum := by
  have hmem : ∀ p ∈ g.edges.enum, p.2 ∈ g.edges := by
    intro p hp
    exact List.getElem?_mem (List.mem_enum_iff_getElem?.1 hp)
  have hout : ((g.nodes.filter S).map (fun v => outFlow g y v)).sum =
      ((g.edges.enum.filter (fun p => S p.2.src)).map (fun p => y p.1)).sum := by
    unfold outFlow
    rw [sum_by_key g.edges.enum (fun p => p.2.src) (fun p => y p.1) _ (hwf.nodup_nodes.filter _)]
    congr 2
    apply List.filter_congr
    intro p hp
    have := hwf.src_mem p.2 (hmem p hp)
    simp [List.mem_filter, this]
  have hin : ((g.nodes.filter S).map (fun v => inFlow g y v)).sum =
      ((g.edges.enum.filter (fun p => S p.2.tgt)).map (fun p => y p.1)).sum := by
    unfold inFlow
    rw [sum_by_key g.edges.enum (fun p => p.2.tgt) (fun p => y p.1) _ (hwf.nodup_nodes.filter _)]
    congr 2
    apply List.filter_congr
    intro p hp
    have := hwf.tgt_mem p.2 (hmem p hp)
    simp [List.mem_filter, this]
  have heq : ((g.nodes.filter S).map (fun v => inFlow g y v)) =
      ((g.nodes.filter S).map (fun v => outFlow g y v)) := by
    apply List.map_congr_left
    intro v hv
    exact hflow v (List.mem_filter.1 hv).1
  rw [heq, hout] at hin
  have h1 := sum_filter_split g.edges.enum (fun p => S p.2.src) (fun p => S p.2.tgt)
    (fun p => y p.1)
  have h2 := sum_filter_split g.edges.enum (fun p => S p.2.tgt) (fun p => S p.2.src)
    (fun p => y p.1)
  have h3 : ((g.edges.enum.filter (fun p => S p.2.tgt && S p.2.src)).map (fun p => y p.1)).sum =
      ((g.edges.enum.filter (fun p => S p.2.src && S p.2.tgt)).map (fun p => y p.1)).sum := by
    congr 2
    apply List.filter_congr
    intro p _
    exact Bool.and_comm _ _
  have h4 : ((g.edges.enum.filter (fun p => S p.2.tgt && !S p.2.src)).map (fun p => y p.1)).sum =
      ((g.edges.enum.filter (fun p => !S p.2.src && S p.2.tgt)).map (fun p => y p.1)).sum := by
    congr 2
    apply List.filter_congr
    intro p _
    exact Bool.and_comm _ _
  rw [h3, h4] at h2
  linarith

/-- A path between a node inside and a node outside a set of nodes uses an arc
that crosses the set. -/
theorem crossing_arc (es : List (Nat × Nat)) (S : Nat → Bool) {u v : Nat} (h : ConnIn es u v)
    (hu : S u = true) (hv : S v = false) :
    ∃ p ∈ es, (S p.1 = true ∧ S p.2 = false) ∨ (S p.1 = false ∧ S p.2 = true) := by
  induction h with
  | refl => rw [hu] at hv; exact absurd hv (by simp)
  | @tail b c _ hbc ih =>
    cases hb : S b with
    | false => exact ih hb
    | true =>
      rcases hbc with h1 | h1
      · exact ⟨(b, c), h1, Or.inl ⟨hb, hv⟩⟩
      · exact ⟨(c, b), h1, Or.inr ⟨hv, hb⟩⟩

theorem one_le_sum_of_mem {α : Type} (L : List α) (f : α → ℚ) (hnn : ∀ p ∈ L, 0 ≤ f p)
    {a : α} (ha : a ∈ L) (hfa : f a = 1) : 1 ≤ (L.map f).sum := by
  induction L with
  | nil => simp at ha
  | cons b L ih =>
    rw [List.map_cons, List.sum_cons]
    have hb := hnn b (List.mem_cons_self _ _)
    have hrest : 0 ≤ (L.map f).sum :=
      List.sum_nonneg (fun c hc => by
        obtain ⟨p, hp, rfl⟩ := List.mem_map.1 hc
        exact hnn p (List.mem_cons_of_mem _ hp))
    rcases List.mem_cons.1 ha with rfl | ha
    · rw [hfa]; linarith
    · have := ih (fun p hp => hnn p (List.mem_cons_of_mem _ hp)) ha
      linarith

end FlowCut
/-! ## Theorems: the rows of the cuts -/

section CutRows

variable {g : LGraph} {dist : Nat → ℚ} {stations : StationNodes} {s : StationSolver}

theorem sepData_exists (hwf : g.WellFormed) (hok : SolverOk g dist stations s) (x : Nat → ℚ) :
    ∃ cps, SepData s stations x cps := by
  obtain ⟨cps, h1, h2, h3, h4, h5⟩ := separator_components hwf hok x
  exact ⟨cps, ⟨h1, h2, h3, h4, h5⟩⟩

theorem aggregatedLoop_ok (s : StationSolver) (nodemap : Nat → Option Nat) (compnum : Nat → Int)
    (cps : List (List Int)) (comp : Int) (es : List Edge) (row : List (Nat × ℚ))
    (h : ∀ e ∈ es, ComponentKnown s nodemap cps e.src ∧ ComponentKnown s nodemap cps e.tgt) :
    s.aggregatedLoop comp nodemap compnum cps es row =
      .ok (row ++ cutAgg s nodemap compnum cps comp es) := by
  induction es generalizing row with
  | nil => simp [StationSolver.aggregatedLoop, cutAgg]
  | cons e es ih =>
    obtain ⟨h1, h2⟩ := h e (List.mem_cons_self _ _)
    have ih' := fun row => ih row (fun a ha => h a (List.mem_cons_of_mem _ ha))
    simp only [StationSolver.aggregatedLoop, getComponent_ok s nodemap compnum cps _ h1,
      getComponent_ok s nodemap compnum cps _ h2, ih', cutAgg, List.filter_cons]
    by_cases c1 : derivedComp s nodemap compnum cps e.src = comp <;>
      by_cases c2 : derivedComp s nodemap compnum cps e.tgt = comp <;>
      simp [c1, c2]

/-- The variable of an arc is its position: a list of terms over the arcs that
satisfy a condition is a list over their positions. -/
theorem map_cplexId_filter (hwf : g.WellFormed) (hok : SolverOk g dist stations s)
    (c : Edge → Bool) :
    (s.g.edges.filter c).map (fun e => ((s.getCplexId e).toNat, (1 : ℚ))) =
      (g.edges.enum.filter (fun p => c p.2)).map (fun p => (p.1, (1 : ℚ))) := by
  rw [hok.graph]
  have h1 : g.edges.filter c = (g.edges.enum.filter (fun p => c p.2)).map Prod.snd := by
    conv_lhs => rw [← List.enum_map_snd g.edges]
    rw [List.filter_map]
    rfl
  rw [h1, List.map_map]
  apply List.map_congr_left
  intro p hp
  have hget := List.mem_enum_iff_getElem?.1 (List.mem_filter.1 hp).1
  simp only [Function.comp, hok.cplexId hwf p.1 p.2 hget]

theorem mem_enum_terms (L : List Edge) (c : Edge → Bool) (t : Nat × ℚ) :
    t ∈ (L.enum.filter (fun p => c p.2)).map (fun p => (p.1, (1 : ℚ))) ↔
      t.2 = 1 ∧ ∃ e, L[t.1]? = some e ∧ c e = true := by
  simp only [List.mem_map, List.mem_filter, List.mem_enum_iff_getElem?]
  constructor
  · rintro ⟨p, ⟨hp, hc⟩, rfl⟩
    exact ⟨rfl, p.2, hp, hc⟩
  · rintro ⟨h1, e, he, hc⟩
    exact ⟨(t.1, e), ⟨he, hc⟩, by rw [← h1]⟩

variable (hwf : g.WellFormed) (hok : SolverOk g dist stations s) (x : Nat → ℚ)
  {cps : List (List Int)}

theorem derived_onSelected {n : Nat} (hn : OnSelected (s.selected x) n) :
    derivedComp s (s.sepNodemap x) (s.sepCompnum x) cps n = s.sepCompnum x n :=
  derivedComp_onSelected s (s.selected x) (s.sepCompnum x) cps hn

/-- The two end nodes of a selected arc have the same derived component. -/
theorem derived_selected {e : Edge} (he : e ∈ s.selected x) :
    derivedComp s (s.sepNodemap x) (s.sepCompnum x) cps e.src =
      derivedComp s (s.sepNodemap x) (s.sepCompnum x) cps e.tgt := by
  have hs : OnSelected (s.selected x) e.src := (onSelected_iff _ _).2 ⟨e, he, Or.inl rfl⟩
  have ht : OnSelected (s.selected x) e.tgt := (onSelected_iff _ _).2 ⟨e, he, Or.inr rfl⟩
  rw [derived_onSelected x hs, derived_onSelected x ht]
  apply (compnum_eq_iff (s.selected x) hs ht).2
  apply connIn_of_mem
  simp only [endpoints, List.mem_map]
  exact ⟨e, he, rfl⟩

include hok in
/-- The derived component of a node that is not on a selected arc is the first
entry of the set of its station. -/
theorem derived_unselected (k : Nat) (hk : k < stations.length) {n : Nat}
    (hn : n ∈ stations[k].2) (hoff : ¬ OnSelected (s.selected x) n) :
    derivedComp s (s.sepNodemap x) (s.sepCompnum x) cps n = ((cps.getD k []).head?).getD 0 := by
  have hnm : s.sepNodemap x n = none := by
    unfold StationSolver.sepNodemap
    rw [if_neg (fun h => hoff ((mem_copyGraph_nodes _ _).1 h))]
  have hst : s.getStation n = (k : Int) := hok.stationOf k hk n hn
  simp only [derivedComp, hnm, hst, Int.toNat_ofNat]

include hok in
/-- At a station whose set of components has one entry, every node has this
entry as its derived component. -/
theorem derived_of_singleton (hd : SepData s stations x cps) (k : Nat)
    (hk : k < stations.length) (c : Int) (hc : cps.getD k [] = [c]) :
    ∀ n ∈ stations[k].2, derivedComp s (s.sepNodemap x) (s.sepCompnum x) cps n = c := by
  intro n hn
  by_cases hon : OnSelected (s.selected x) n
  · rw [derived_onSelected x hon]
    have : s.sepCompnum x n ∈ cps.getD k [] := (hd.mem k hk _).2 ⟨n, hn, hon, rfl⟩
    rw [hc, List.mem_singleton] at this
    exact this
  · rw [derived_unselected hok x k hk hn hon, hc]
    rfl

include hok in
/-- Every check of `getComponent` passes when every station has a node on a
selected arc. -/
theorem known_of_touched (hd : SepData s stations x cps)
    (htouch : ∀ station ∈ stations, Touched (s.selected x) station.2) :
    (∀ components ∈ cps, components ≠ []) ∧
      ∀ n ∈ g.nodes, ComponentKnown s (s.sepNodemap x) cps n := by
  have hne : ∀ components ∈ cps, components ≠ [] := by
    intro components hc
    obtain ⟨k, hk, rfl⟩ := List.getElem_of_mem hc
    have hk' : k < stations.length := hd.length ▸ hk
    obtain ⟨n, hn, hon⟩ := htouch _ (List.getElem_mem hk')
    have : s.sepCompnum x n ∈ cps.getD k [] := (hd.mem k hk' _).2 ⟨n, hn, hon, rfl⟩
    rw [List.getD_eq_getElem _ _ hk] at this
    exact List.ne_nil_of_mem this
  refine ⟨hne, ?_⟩
  intro n hn
  obtain ⟨k, hk, _, hst⟩ := hok.station hn
  refine Or.inr ⟨k, hd.length ▸ hk, hst, ?_⟩
  rw [List.getD_eq_getElem _ _ (hd.length ▸ hk)]
  exact hne _ (List.getElem_mem _)

include hwf hok in
/-- The run of the separator on a binary candidate that touches every station,
in terms of the sets of components. -/
theorem callback_run (hbin : s.IsBinary x)
    (htouch : ∀ station ∈ stations, Touched (s.selected x) station.2)
    (hd : SepData s stations x cps) :
    ∃ excl : List Int, excl.Nodup ∧ (∀ c, c ∈ excl ↔ [c] ∈ cps) ∧
      StationLazyCallback s x =
        (if excl.length = 0 then .error assertExclusive
         else if excl.length = 1 then .ok []
         else .ok (excl.flatMap (fun comp =>
          [⟨1, none, cutOut s (s.sepNodemap x) (s.sepCompnum x) cps comp s.g.edges⟩,
           ⟨1, none, cutIn s (s.sepNodemap x) (s.sepCompnum x) cps comp s.g.edges⟩]))) := by
  obtain ⟨hne, hknown⟩ := known_of_touched hok x hd htouch
  obtain ⟨excl, hexcl, hexmem, hexnd⟩ := exclusiveComponents_spec cps [] hne
  have hknown' : ∀ e ∈ s.g.edges, ComponentKnown s (s.sepNodemap x) cps e.src ∧
      ComponentKnown s (s.sepNodemap x) cps e.tgt := by
    intro e he
    rw [hok.graph] at he
    exact ⟨hknown _ (hwf.src_mem e he), hknown _ (hwf.tgt_mem e he)⟩
  refine ⟨excl, hexnd List.nodup_nil, ?_, ?_⟩
  · intro c
    rw [hexmem]
    simp
  · have hcol := hd.collect
    unfold StationSolver.sepCompnum at hcol
    simp only [StationLazyCallback, StationSolver.createNewSubgraph,
      getSelectedEdges_eq hok hwf x hbin, hcol, hexcl]
    have hcuts := addCuts_ok s (s.sepNodemap x) (s.sepCompnum x) cps excl [] hknown'
    unfold StationSolver.sepNodemap StationSolver.sepCompnum at hcuts
    simp only [hcuts, List.nil_append]
    by_cases h0 : excl.length = 0
    · simp [h0]
    · rw [if_neg (by omega), if_neg h0]
      rfl

end CutRows
/-! ## Theorems: the cuts and the candidate that triggered them -/

section CutsViolated

theorem evalTerms_eq_zero (l : List (Nat × ℚ)) (x : Nat → ℚ) (h : ∀ t ∈ l, x t.1 = 0) :
    evalTerms l x = 0 := by
  unfold evalTerms
  apply List.sum_eq_zero
  intro c hc
  obtain ⟨t, ht, rfl⟩ := List.mem_map.1 hc
  rw [h t ht, mul_zero]

/-- A binary candidate has the value 0 on every arc whose end nodes have
different derived components. -/
theorem zero_of_crossing {g : LGraph} {dist : Nat → ℚ} {stations : StationNodes}
    {s : StationSolver} (hok : SolverOk g dist stations s) (x : Nat → ℚ)
    (hbin : s.IsBinary x) (hx : ∀ i, i < g.edges.length → x i = 0 ∨ x i = 1)
    (cps : List (List Int)) (i : Nat) (e : Edge) (he : g.edges[i]? = some e)
    (hne : derivedComp s (s.sepNodemap x) (s.sepCompnum x) cps e.src ≠
      derivedComp s (s.sepNodemap x) (s.sepCompnum x) cps e.tgt) : x i = 0 := by
  have hi : i < g.edges.length := (List.getElem?_eq_some_iff.1 he).1
  rcases hx i hi with h0 | h1
  · exact h0
  · exfalso
    have hone : s.isOne (x i) = true := by
      rcases hbin i (by rw [hok.graph]; exact hi) with h | h
      · exact h
      · rw [h1] at h ⊢
        simp only [StationSolver.isZero, StationSolver.isOne, Bool.and_eq_true,
          decide_eq_true_eq] at h ⊢
        constructor <;> linarith [h.1, h.2]
    have hsel : e ∈ s.selected x :=
      (mem_selected s x e).2 ⟨i, by rw [hok.graph]; exact he, hone⟩
    exact hne (derived_selected x hsel)

end CutsViolated

/-- C28: for a constructed solver and a candidate `x` with the values 0 and 1
only, every cut the separator adds is violated by `x` itself: the row is
`1 <= sum`, every arc of the row has the value 0 in `x`, so the sum of `x` over
the row is 0. -/
theorem stationLazyCallback_cuts_violated (epInt : ℚ) (g : LGraph) (dist : Nat → ℚ)
    (stations : StationNodes) (connection_arcs : Nat → Bool) (s : StationSolver)
    (x : Nat → ℚ) (cuts : List Row) (hwf : g.WellFormed)
    (hnodes : ∀ station ∈ stations, ∀ n ∈ station.2, n ∈ g.nodes)
    (hs : StationSolver.new epInt g dist stations connection_arcs = .ok s)
    (hx : ∀ i, i < g.edges.length → x i = 0 ∨ x i = 1)
    (hrun : StationLazyCallback s x = .ok cuts) :
    ∀ r ∈ cuts, r.lb = 1 ∧ (∀ t ∈ r.terms, t.2 = 1 ∧ x t.1 = 0) ∧
      evalTerms r.terms x = 0 ∧ ¬ r.Holds x := by
  have hok := solverOk_of_new hnodes hs
  obtain ⟨hbin, htouch⟩ := touched_of_callback hwf hok x cuts hrun
  obtain ⟨cps, hd⟩ := sepData_exists hwf hok x
  obtain ⟨excl, _, _, hrun'⟩ := callback_run hwf hok x hbin htouch hd
  rw [hrun'] at hrun
  have hterms : ∀ comp, ∀ r : Row,
      (r = ⟨1, none, cutOut s (s.sepNodemap x) (s.sepCompnum x) cps comp s.g.edges⟩ ∨
        r = ⟨1, none, cutIn s (s.sepNodemap x) (s.sepCompnum x) cps comp s.g.edges⟩) →
      r.lb = 1 ∧ (∀ t ∈ r.terms, t.2 = 1 ∧ x t.1 = 0) := by
    intro comp r hr
    rcases hr with rfl | rfl
    · refine ⟨rfl, ?_⟩
      intro t ht
      simp only [cutOut] at ht
      rw [map_cplexId_filter hwf hok] at ht
      obtain ⟨h1, e, he, hc⟩ := (mem_enum_terms g.edges (fun e =>
        derivedComp s (s.sepNodemap x) (s.sepCompnum x) cps e.src == comp &&
          !(derivedComp s (s.sepNodemap x) (s.sepCompnum x) cps e.tgt == comp)) t).1 ht
      refine ⟨h1, zero_of_crossing hok x hbin hx cps t.1 e he ?_⟩
      simp only [Bool.and_eq_true, beq_iff_eq, Bool.not_eq_true', beq_eq_false_iff_ne] at hc
      intro heq
      exact hc.2 (heq ▸ hc.1)
    · refine ⟨rfl, ?_⟩
      intro t ht
      simp only [cutIn] at ht
      rw [map_cplexId_filter hwf hok] at ht
      obtain ⟨h1, e, he, hc⟩ := (mem_enum_terms g.edges (fun e =>
        !(derivedComp s (s.sepNodemap x) (s.sepCompnum x) cps e.src == comp) &&
          derivedComp s (s.sepNodemap x) (s.sepCompnum x) cps e.tgt == comp) t).1 ht
      refine ⟨h1, zero_of_crossing hok x hbin hx cps t.1 e he ?_⟩
      simp only [Bool.and_eq_true, beq_iff_eq, Bool.not_eq_true', beq_eq_false_iff_ne] at hc
      intro heq
      exact hc.1 (heq ▸ hc.2)
  intro r hr
  have hr' : ∃ comp, r = ⟨1, none, cutOut s (s.sepNodemap x) (s.sepCompnum x) cps comp
        s.g.edges⟩ ∨
      r = ⟨1, none, cutIn s (s.sepNodemap x) (s.sepCompnum x) cps comp s.g.edges⟩ := by
    by_cases h0 : excl.length = 0
    · rw [if_pos h0] at hrun; exact absurd hrun (by simp)
    · rw [if_neg h0] at hrun
      by_cases h1 : excl.length = 1
      · rw [if_pos h1] at hrun
        simp only [Except.ok.injEq] at hrun
        rw [← hrun] at hr
        simp at hr
      · rw [if_neg h1] at hrun
        simp only [Except.ok.injEq] at hrun
        rw [← hrun] at hr
        obtain ⟨comp, _, hmem⟩ := List.mem_flatMap.1 hr
        simp only [List.mem_cons, List.mem_singleton, List.not_mem_nil, or_false] at hmem
        exact ⟨comp, hmem⟩
  obtain ⟨comp, hcomp⟩ := hr'
  obtain ⟨hlb, hz⟩ := hterms comp r hcomp
  have hsum := evalTerms_eq_zero r.terms x (fun t ht => (hz t ht).2)
  refine ⟨hlb, hz, hsum, ?_⟩
  intro hh
  have := hh.1
  rw [hlb, hsum] at this
  exact absurd this (by norm_num)

section SmallCuts

/-- On the small instance the candidate selecting the cycles 0→1→0 and
2→3→4→2 makes the separator add four cuts. -/
theorem smallSolver_fourCuts :
    ∃ cuts : List Row, StationLazyCallback smallSolver (indicator [0, 1, 2, 6, 7]) = .ok cuts ∧
      cuts.length = 4 := by
  simp only [StationLazyCallback, StationSolver.createNewSubgraph, smallSolver_getSelected]
  exact ⟨_, rfl, rfl⟩

theorem zeroOne_indicator (arcs : List Nat) (n : Nat) :
    ∀ i, i < n → indicator arcs i = 0 ∨ indicator arcs i = 1 := by
  intro i _
  unfold indicator
  by_cases h : i ∈ arcs
  · right; rw [if_pos h]
  · left; rw [if_neg h]

end SmallCuts

/-- C28, witness: on the small instance the candidate selecting the cycles
0→1→0 and 2→3→4→2 makes the separator add four cuts, and the candidate violates
each of them. -/
theorem stationLazyCallback_cuts_violated_witness :
    smallGraph.WellFormed ∧
      (∀ i, i < smallGraph.edges.length →
        indicator [0, 1, 2, 6, 7] i = 0 ∨ indicator [0, 1, 2, 6, 7] i = 1) ∧
      ∃ cuts : List Row, StationLazyCallback smallSolver (indicator [0, 1, 2, 6, 7]) = .ok cuts ∧
        cuts.length = 4 ∧ ∀ r ∈ cuts, ¬ r.Holds (indicator [0, 1, 2, 6, 7]) :=
  match smallSolver_fourCuts with
  | ⟨cuts, hrun, hlen⟩ =>
    ⟨by decide, zeroOne_indicator _ _, cuts, hrun, hlen, fun r hr =>
      (stationLazyCallback_cuts_violated (1 / 100000) smallGraph (fun _ => 1) smallStations
        (fun _ => false) smallSolver (indicator [0, 1, 2, 6, 7]) cuts (by decide) (by decide)
        smallSolver_new (zeroOne_indicator _ _) hrun r hr).2.2.2⟩
/-! ## Theorems: the rows of the deaggregated cut -/

section DeaggregatedRows

theorem nodup_enum_terms (L : List Edge) (c : Edge → Bool) :
    ((L.enum.filter (fun p => c p.2)).map (fun p => (p.1, (1 : ℚ)))).Nodup := by
  have h1 : (L.enum.map Prod.fst).Nodup := by
    rw [List.enum_map_fst]
    exact List.nodup_range _
  have h2 : ((L.enum.filter (fun p => c p.2)).map Prod.fst).Nodup :=
    h1.sublist ((List.filter_sublist _).map _)
  have h3 : (((L.enum.filter (fun p => c p.2)).map (fun p => (p.1, (1 : ℚ)))).map Prod.fst).Nodup := by
    rw [List.map_map]
    exact h2
  exact List.Nodup.of_map _ h3

end DeaggregatedRows

/-- C30: for a constructed solver and a candidate whose selected arcs touch
every station, let `derived` be the component `getComponent` returns for a node: the
component of the node in the graph induced by the selected arcs if the node
lies on a selected arc, and otherwise the smallest number of a component that
meets the station of the node.  `createDeaggregatedCut` for the component
`comp` returns as `row_out` the arcs, by position and with coefficient 1, whose
source has the derived component `comp` and whose target has not, and as
`row_in` the arcs whose target has it and whose source has not;
`createAggregatedCut` returns the arcs with exactly one end node of derived
component `comp`.  Every arc occurs at most once in a row, the two rows of the
deaggregated cut have no arc in common, and together they hold the arcs of the
aggregated cut. -/
theorem createDeaggregatedCut_rows (epInt : ℚ) (g : LGraph) (dist : Nat → ℚ)
    (stations : StationNodes) (connection_arcs : Nat → Bool) (s : StationSolver)
    (x : Nat → ℚ) (comp : Int) (hwf : g.WellFormed)
    (hnodes : ∀ station ∈ stations, ∀ n ∈ station.2, n ∈ g.nodes)
    (hs : StationSolver.new epInt g dist stations connection_arcs = .ok s)
    (htouch : ∀ station ∈ stations, Touched (s.selected x) station.2) :
    ∃ (cps : List (List Int)) (derived : Nat → Int) (row_out row_in row : List (Nat × ℚ)),
      SepData s stations x cps ∧
      (∀ n ∈ g.nodes,
        s.getComponent n (s.sepNodemap x) (s.sepCompnum x) cps = .ok (derived n)) ∧
      (∀ n, OnSelected (s.selected x) n → derived n = s.sepCompnum x n) ∧
      (∀ station ∈ stations, ∀ n ∈ station.2, ¬ OnSelected (s.selected x) n →
        (∃ m ∈ station.2, OnSelected (s.selected x) m ∧ s.sepCompnum x m = derived n) ∧
        ∀ m ∈ station.2, OnSelected (s.selected x) m → derived n ≤ s.sepCompnum x m) ∧
      s.createDeaggregatedCut comp (s.sepNodemap x) (s.sepCompnum x) cps =
        .ok (row_out, row_in) ∧
      s.createAggregatedCut comp (s.sepNodemap x) (s.sepCompnum x) cps = .ok row ∧
      row_out = (g.edges.enum.filter
        (fun p => derived p.2.src == comp && !(derived p.2.tgt == comp))).map
          (fun p => (p.1, (1 : ℚ))) ∧
      row_in = (g.edges.enum.filter
        (fun p => !(derived p.2.src == comp) && derived p.2.tgt == comp)).map
          (fun p => (p.1, (1 : ℚ))) ∧
      row = (g.edges.enum.filter
        (fun p => Bool.xor (derived p.2.src == comp) (derived p.2.tgt == comp))).map
          (fun p => (p.1, (1 : ℚ))) ∧
      row_out.Nodup ∧ row_in.Nodup ∧ row.Nodup ∧
      (∀ t, t ∈ row_out → t ∉ row_in) ∧
      (∀ t, t ∈ row ↔ t ∈ row_out ∨ t ∈ row_in) := by
  have hok := solverOk_of_new hnodes hs
  obtain ⟨cps, hd⟩ := sepData_exists hwf hok x
  obtain ⟨hne, hknown⟩ := known_of_touched hok x hd htouch
  have hknown' : ∀ e ∈ s.g.edges, ComponentKnown s (s.sepNodemap x) cps e.src ∧
      ComponentKnown s (s.sepNodemap x) cps e.tgt := by
    intro e he
    rw [hok.graph] at he
    exact ⟨hknown _ (hwf.src_mem e he), hknown _ (hwf.tgt_mem e he)⟩
  refine ⟨cps, derivedComp s (s.sepNodemap x) (s.sepCompnum x) cps, _, _, _, hd, ?_, ?_, ?_,
    ?_, ?_, rfl, rfl, rfl,
    nodup_enum_terms g.edges (fun e =>
      derivedComp s (s.sepNodemap x) (s.sepCompnum x) cps e.src == comp &&
        !(derivedComp s (s.sepNodemap x) (s.sepCompnum x) cps e.tgt == comp)),
    nodup_enum_terms g.edges (fun e =>
      !(derivedComp s (s.sepNodemap x) (s.sepCompnum x) cps e.src == comp) &&
        derivedComp s (s.sepNodemap x) (s.sepCompnum x) cps e.tgt == comp),
    nodup_enum_terms g.edges (fun e =>
      Bool.xor (derivedComp s (s.sepNodemap x) (s.sepCompnum x) cps e.src == comp)
        (derivedComp s (s.sepNodemap x) (s.sepCompnum x) cps e.tgt == comp)),
    ?_, ?_⟩
  · intro n hn
    exact getComponent_ok s _ _ cps n (hknown n hn)
  · intro n hn
    exact derived_onSelected x hn
  · intro station hst n hn hoff
    obtain ⟨k, hk, rfl⟩ := List.getElem_of_mem hst
    have hk' : k < cps.length := hd.length ▸ hk
    have hnek : cps.getD k [] ≠ [] := by
      rw [List.getD_eq_getElem _ _ hk']
      exact hne _ (List.getElem_mem _)
    rw [derived_unselected hok x k hk hn hoff]
    cases hc : cps.getD k [] with
    | nil => exact absurd hc hnek
    | cons c rest =>
      simp only [List.head?_cons, Option.getD_some]
      constructor
      · have : c ∈ cps.getD k [] := by rw [hc]; exact List.mem_cons_self _ _
        exact (hd.mem k hk c).1 this
      · intro m hm hon
        have hmem : s.sepCompnum x m ∈ cps.getD k [] := (hd.mem k hk _).2 ⟨m, hm, hon, rfl⟩
        have hsorted := hd.sorted k
        rw [hc] at hmem hsorted
        rcases List.mem_cons.1 hmem with h | h
        · rw [h]
        · exact List.rel_of_sorted_cons hsorted _ h
  · simp only [StationSolver.createDeaggregatedCut,
      deaggregatedLoop_ok s _ _ cps comp _ _ hknown', List.nil_append, cutOut, cutIn]
    rw [map_cplexId_filter hwf hok, map_cplexId_filter hwf hok]
  · simp only [StationSolver.createAggregatedCut,
      aggregatedLoop_ok s _ _ cps comp _ _ hknown', List.nil_append, cutAgg]
    rw [map_cplexId_filter hwf hok]
  · intro t h1 h2
    obtain ⟨_, e, he, hc⟩ := (mem_enum_terms g.edges (fun e =>
      derivedComp s (s.sepNodemap x) (s.sepCompnum x) cps e.src == comp &&
        !(derivedComp s (s.sepNodemap x) (s.sepCompnum x) cps e.tgt == comp)) t).1 h1
    obtain ⟨_, e', he', hc'⟩ := (mem_enum_terms g.edges (fun e =>
      !(derivedComp s (s.sepNodemap x) (s.sepCompnum x) cps e.src == comp) &&
        derivedComp s (s.sepNodemap x) (s.sepCompnum x) cps e.tgt == comp) t).1 h2
    rw [he] at he'
    obtain rfl := Option.some.inj he'
    simp only [Bool.and_eq_true, beq_iff_eq, Bool.not_eq_true', beq_eq_false_iff_ne] at hc hc'
    exact hc'.1 hc.1
  · intro t
    rw [mem_enum_terms g.edges (fun e =>
        Bool.xor (derivedComp s (s.sepNodemap x) (s.sepCompnum x) cps e.src == comp)
          (derivedComp s (s.sepNodemap x) (s.sepCompnum x) cps e.tgt == comp)) t,
      mem_enum_terms g.edges (fun e =>
        derivedComp s (s.sepNodemap x) (s.sepCompnum x) cps e.src == comp &&
          !(derivedComp s (s.sepNodemap x) (s.sepCompnum x) cps e.tgt == comp)) t,
      mem_enum_terms g.edges (fun e =>
        !(derivedComp s (s.sepNodemap x) (s.sepCompnum x) cps e.src == comp) &&
          derivedComp s (s.sepNodemap x) (s.sepCompnum x) cps e.tgt == comp) t]
    constructor
    · rintro ⟨h1, e, he, hc⟩
      by_cases c1 : derivedComp s (s.sepNodemap x) (s.sepCompnum x) cps e.src = comp
      · left
        refine ⟨h1, e, he, ?_⟩
        by_cases c2 : derivedComp s (s.sepNodemap x) (s.sepCompnum x) cps e.tgt = comp
        · simp [c1, c2] at hc
        · simp [c1, c2]
      · right
        refine ⟨h1, e, he, ?_⟩
        by_cases c2 : derivedComp s (s.sepNodemap x) (s.sepCompnum x) cps e.tgt = comp
        · simp [c1, c2]
        · simp [c1, c2] at hc
    · rintro (⟨h1, e, he, hc⟩ | ⟨h1, e, he, hc⟩)
      · refine ⟨h1, e, he, ?_⟩
        simp only [Bool.and_eq_true, beq_iff_eq, Bool.not_eq_true', beq_eq_false_iff_ne] at hc
        simp [hc.1, hc.2]
      · refine ⟨h1, e, he, ?_⟩
        simp only [Bool.and_eq_true, beq_iff_eq, Bool.not_eq_true', beq_eq_false_iff_ne] at hc
        simp [hc.1, hc.2]

/-- C30, witness: on the small instance the candidate selecting the cycles
0→1→0 and 2→3→4→2 touches every station, and the rows of the cut
of the component 0 are as stated. -/
theorem createDeaggregatedCut_rows_witness :
    smallGraph.WellFormed ∧
      (∀ station ∈ smallStations,
        Touched (smallSolver.selected (indicator [0, 1, 2, 6, 7])) station.2) ∧
      ∃ (cps : List (List Int)) (row_out row_in : List (Nat × ℚ)),
        smallSolver.createDeaggregatedCut 0 (smallSolver.sepNodemap (indicator [0, 1, 2, 6, 7]))
          (smallSolver.sepCompnum (indicator [0, 1, 2, 6, 7])) cps = .ok (row_out, row_in) ∧
        ∀ t, t ∈ row_out → t ∉ row_in :=
  have htouch : ∀ station ∈ smallStations,
      Touched (smallSolver.selected (indicator [0, 1, 2, 6, 7])) station.2 := by
    rw [smallSolver_selected]; decide
  match createDeaggregatedCut_rows (1 / 100000) smallGraph (fun _ => 1) smallStations
    (fun _ => false) smallSolver (indicator [0, 1, 2, 6, 7]) 0 (by decide) (by decide)
    smallSolver_new htouch with
  | ⟨cps, _, row_out, row_in, _, _, _, _, _, h5, _, _, _, _, _, _, _, h13, _⟩ =>
    ⟨by decide, htouch, cps, row_out, row_in, h5, h13⟩
/-! ## Theorems: the cuts are valid for every tour -/

section CutsValid

variable {epInt : ℚ} {g : LGraph} {dist : Nat → ℚ} {stations : StationNodes}
  {conn : Nat → Bool} {s : StationSolver}

theorem noConnectionLeaves_of_new
    (hs : StationSolver.new epInt g dist stations conn = .ok s) :
    NoConnectionLeaves g stations conn := by
  unfold StationSolver.new at hs
  cases h1 : initializeStations g stations with
  | error m => rw [h1] at hs; exact absurd hs (by simp)
  | ok idx =>
    rw [h1] at hs
    cases h2 : createCplexModel g dist stations conn with
    | error m => rw [h2] at hs; exact absurd hs (by simp)
    | ok p =>
      obtain ⟨m, ev⟩ := p
      exact createCoverage_inv g _ conn stations _ (createCplexModel_ok_eq h2).2.2.2.2

theorem mem_support (g : LGraph) (y : Nat → ℚ) (e : Edge) :
    e ∈ support g y ↔ ∃ i, g.edges[i]? = some e ∧ y i = 1 := by
  simp only [support, List.mem_map, List.mem_filter, List.mem_enum_iff_getElem?,
    decide_eq_true_eq]
  constructor
  · rintro ⟨p, ⟨hp, hy⟩, rfl⟩
    exact ⟨p.1, hp, hy⟩
  · rintro ⟨i, hi, hy⟩
    exact ⟨(i, e), ⟨hi, hy⟩, rfl⟩

/-- A tour of the model uses an arc that leaves the station, for every station. -/
theorem tour_leaves_station (hwf : g.WellFormed)
    (hs : StationSolver.new epInt g dist stations conn = .ok s) (hgraph : s.g = g)
    (y : Nat → ℚ) (hy : TourVector s y) :
    ∀ station ∈ stations, ∃ e ∈ support g y, e.src ∈ station.2 ∧ e.tgt ∉ station.2 := by
  intro station hst
  obtain ⟨_, hout⟩ := new_model hs (noConnectionLeaves_of_new hs)
  have hrow := hy.cover ⟨1, none, coverTerms g (createArcModel g dist).edgeToVarId station.2
    station.2⟩ (by rw [hout]; exact List.mem_map.2 ⟨station, hst, rfl⟩)
  have h1 := hrow.1
  have hc : ∀ t ∈ coverTerms g (createArcModel g dist).edgeToVarId station.2 station.2,
      t.2 = 1 ∧ LeavesCluster g station.2 t.1 := by
    intro t ht
    exact (mem_coverTerms hwf dist station.2 t.1 t.2).1 ht
  obtain ⟨t, ht, hyt⟩ := (one_le_sum_binary _ y (fun t ht => (hc t ht).1) (fun t ht => by
    obtain ⟨e, he, _⟩ := (hc t ht).2
    exact hy.binary t.1 (by rw [hgraph]; exact (List.getElem?_eq_some_iff.1 he).1))).1 h1
  obtain ⟨e, he, hsrc, htgt⟩ := (hc t ht).2
  exact ⟨e, (mem_support g y e).2 ⟨t.1, he, hyt⟩, hsrc, htgt⟩

theorem evalTerms_enum_terms (L : List Edge) (c : Edge → Bool) (y : Nat → ℚ) :
    evalTerms ((L.enum.filter (fun p => c p.2)).map (fun p => (p.1, (1 : ℚ)))) y =
      ((L.enum.filter (fun p => c p.2)).map (fun p => y p.1)).sum := by
  simp only [evalTerms, List.map_map]
  congr 1
  apply List.map_congr_left
  intro p _
  simp

/-- For a tour of the model and a set of nodes that holds one station and
misses another one, the values of the tour on the arcs leaving the set and on
the arcs entering the set both sum to 1 or more. -/
theorem tour_crosses (hwf : g.WellFormed)
    (hs : StationSolver.new epInt g dist stations conn = .ok s) (hgraph : s.g = g)
    (y : Nat → ℚ) (hy : TourVector s y) (S : Nat → Bool)
    (T1 T2 : String × List Nat) (h1 : T1 ∈ stations) (h2 : T2 ∈ stations)
    (hin : ∀ n ∈ T1.2, S n = true) (hout : ∀ n ∈ T2.2, S n = false) :
    1 ≤ ((g.edges.enum.filter (fun p => S p.2.src && !S p.2.tgt)).map (fun p => y p.1)).sum ∧
      1 ≤ ((g.edges.enum.filter (fun p => !S p.2.src && S p.2.tgt)).map (fun p => y p.1)).sum := by
  have hflow : ∀ v ∈ g.nodes, inFlow g y v = outFlow g y v := by
    rw [← flow_rows_hold_iff g hwf dist y, ← (new_model hs (noConnectionLeaves_of_new hs)).1]
    exact hy.flow
  have hcut := flow_cut g hwf y S hflow
  obtain ⟨e1, he1, hs1, _⟩ := tour_leaves_station hwf hs hgraph y hy T1 h1
  obtain ⟨e2, he2, hs2, _⟩ := tour_leaves_station hwf hs hgraph y hy T2 h2
  have hconn := hy.connected e1.src
    (by rw [hgraph]; exact List.mem_flatMap.2 ⟨e1, he1, by simp⟩) e2.src
    (by rw [hgraph]; exact List.mem_flatMap.2 ⟨e2, he2, by simp⟩)
  rw [hgraph] at hconn
  obtain ⟨p, hp, hcross⟩ := crossing_arc _ S hconn (hin _ hs1) (hout _ hs2)
  obtain ⟨e, he, rfl⟩ := List.mem_map.1 hp
  obtain ⟨i, hi, hyi⟩ := (mem_support g y e).1 he
  have hnn : ∀ (c : Nat × Edge → Bool), ∀ q ∈ g.edges.enum.filter c, 0 ≤ y q.1 := by
    intro c q hq
    have hq' := List.mem_enum_iff_getElem?.1 (List.mem_filter.1 hq).1
    rcases hy.binary q.1 (by rw [hgraph]; exact (List.getElem?_eq_some_iff.1 hq').1) with h | h
    · rw [h]
    · rw [h]; norm_num
  have hmem : (i, e) ∈ g.edges.enum := List.mem_enum_iff_getElem?.2 hi
  rcases hcross with ⟨ha, hb⟩ | ⟨ha, hb⟩
  · have hge := one_le_sum_of_mem (g.edges.enum.filter (fun p => S p.2.src && !S p.2.tgt))
      (fun p => y p.1) (hnn _) (a := (i, e))
      (List.mem_filter.2 ⟨hmem, by simp only [ha, hb]; rfl⟩) hyi
    exact ⟨hge, hcut ▸ hge⟩
  · have hge := one_le_sum_of_mem (g.edges.enum.filter (fun p => !S p.2.src && S p.2.tgt))
      (fun p => y p.1) (hnn _) (a := (i, e))
      (List.mem_filter.2 ⟨hmem, by simp only [ha, hb]; rfl⟩) hyi
    exact ⟨hcut.symm ▸ hge, hge⟩

end CutsValid

/-- C29: every cut the separator adds is valid for every tour of the model.
For a constructed solver, a candidate `x` on which the separator adds the cuts
`cuts`, and an arc vector `y` with the values 0 and 1 that satisfies every flow
row and every coverage row and whose arcs induce a connected subgraph, every
row of `cuts` is `1 <= sum` and holds at `y`. -/
theorem stationLazyCallback_cuts_valid (epInt : ℚ) (g : LGraph) (dist : Nat → ℚ)
    (stations : StationNodes) (connection_arcs : Nat → Bool) (s : StationSolver)
    (x : Nat → ℚ) (cuts : List Row) (y : Nat → ℚ) (hwf : g.WellFormed)
    (hnodes : ∀ station ∈ stations, ∀ n ∈ station.2, n ∈ g.nodes)
    (hs : StationSolver.new epInt g dist stations connection_arcs = .ok s)
    (hrun : StationLazyCallback s x = .ok cuts) (hy : TourVector s y) :
    ∀ r ∈ cuts, r.lb = 1 ∧ 1 ≤ evalTerms r.terms y ∧ r.Holds y := by
  have hok := solverOk_of_new hnodes hs
  obtain ⟨hbin, htouch⟩ := touched_of_callback hwf hok x cuts hrun
  obtain ⟨cps, hd⟩ := sepData_exists hwf hok x
  obtain ⟨excl, hnd, hexcl, hrun'⟩ := callback_run hwf hok x hbin htouch hd
  rw [hrun'] at hrun
  intro r hr
  by_cases h0 : excl.length = 0
  · rw [if_pos h0] at hrun; exact absurd hrun (by simp)
  rw [if_neg h0] at hrun
  by_cases h1 : excl.length = 1
  · rw [if_pos h1] at hrun
    simp only [Except.ok.injEq] at hrun
    rw [← hrun] at hr
    simp at hr
  rw [if_neg h1] at hrun
  simp only [Except.ok.injEq] at hrun
  rw [← hrun] at hr
  obtain ⟨comp, hcomp, hmem⟩ := List.mem_flatMap.1 hr
  simp only [List.mem_cons, List.mem_singleton, List.not_mem_nil, or_false] at hmem
  -- a second exclusive component
  have hother : ∃ c, c ∈ excl ∧ c ≠ comp := by
    by_contra hcon
    have hall : ∀ c ∈ excl, c = comp := by
      intro c hc
      by_contra hne
      exact hcon ⟨c, hc, hne⟩
    have hrep := List.eq_replicate_of_mem hall
    rw [hrep] at hnd
    have := List.nodup_replicate.1 hnd
    omega
  obtain ⟨c2, hc2, hne⟩ := hother
  -- the stations of the two components
  have hstation : ∀ c ∈ excl, ∃ T ∈ stations,
      ∀ n ∈ T.2, derivedComp s (s.sepNodemap x) (s.sepCompnum x) cps n = c := by
    intro c hc
    obtain ⟨k, hk, hkc⟩ := List.getElem_of_mem ((hexcl c).1 hc)
    have hk' : k < stations.length := hd.length ▸ hk
    refine ⟨stations[k], List.getElem_mem hk', ?_⟩
    exact derived_of_singleton hok x hd k hk' c (by rw [List.getD_eq_getElem _ _ hk, hkc])
  obtain ⟨T1, hT1, hin⟩ := hstation comp hcomp
  obtain ⟨T2, hT2, hout⟩ := hstation c2 hc2
  obtain ⟨hgeo, hgei⟩ := tour_crosses hwf hs hok.graph y hy
    (fun n => derivedComp s (s.sepNodemap x) (s.sepCompnum x) cps n == comp) T1 T2 hT1 hT2
    (fun n hn => by simp [hin n hn])
    (fun n hn => by simp [hout n hn, hne])
  rcases hmem with rfl | rfl
  · have hval : 1 ≤ evalTerms (cutOut s (s.sepNodemap x) (s.sepCompnum x) cps comp s.g.edges)
        y := by
      simp only [cutOut]
      rw [map_cplexId_filter hwf hok, evalTerms_enum_terms g.edges (fun e =>
        derivedComp s (s.sepNodemap x) (s.sepCompnum x) cps e.src == comp &&
          !(derivedComp s (s.sepNodemap x) (s.sepCompnum x) cps e.tgt == comp))]
      exact hgeo
    exact ⟨rfl, hval, hval, fun u hu => absurd hu (by simp)⟩
  · have hval : 1 ≤ evalTerms (cutIn s (s.sepNodemap x) (s.sepCompnum x) cps comp s.g.edges)
        y := by
      simp only [cutIn]
      rw [map_cplexId_filter hwf hok, evalTerms_enum_terms g.edges (fun e =>
        !(derivedComp s (s.sepNodemap x) (s.sepCompnum x) cps e.src == comp) &&
          derivedComp s (s.sepNodemap x) (s.sepCompnum x) cps e.tgt == comp)]
      exact hgei
    exact ⟨rfl, hval, hval, fun u hu => absurd hu (by simp)⟩

section SmallTour

theorem support_indicator (g : LGraph) (arcs : List Nat) :
    support g (indicator arcs) =
      (g.edges.enum.filter (fun p => decide (p.1 ∈ arcs))).map Prod.snd := by
  unfold support
  congr 1
  apply List.filter_congr
  intro p _
  unfold indicator
  by_cases h : p.1 ∈ arcs <;> simp [h]

/-- On the small instance the closed walk 0→1→2→3→4→2→1→0 is a tour of the model. -/
theorem smallSolver_tour : TourVector smallSolver (indicator [0, 1, 2, 4, 5, 6, 7]) := by
  have hrows := rows_hold_indicator smallSolver_new (by decide)
    (noConnectionLeaves_of_new smallSolver_new) [0, 1, 2, 4, 5, 6, 7] (by decide) (by decide)
  refine ⟨zeroOne_indicator _ _, hrows.1, hrows.2, ?_⟩
  rw [support_indicator, smallSolver_graph]
  decide

end SmallTour

/-- C29, witness: on the small instance the four cuts added for the candidate
selecting the cycles 0→1→0 and 2→3→4→2 hold at the tour 0→1→2→3→4→2→1→0. -/
theorem stationLazyCallback_cuts_valid_witness :
    smallGraph.WellFormed ∧ TourVector smallSolver (indicator [0, 1, 2, 4, 5, 6, 7]) ∧
      ∃ cuts : List Row, StationLazyCallback smallSolver (indicator [0, 1, 2, 6, 7]) = .ok cuts ∧
        cuts.length = 4 ∧ ∀ r ∈ cuts, r.Holds (indicator [0, 1, 2, 4, 5, 6, 7]) :=
  match smallSolver_fourCuts with
  | ⟨cuts, hrun, hlen⟩ =>
    ⟨by decide, smallSolver_tour, cuts, hrun, hlen, fun r hr =>
      (stationLazyCallback_cuts_valid (1 / 100000) smallGraph (fun _ => 1) smallStations
        (fun _ => false) smallSolver (indicator [0, 1, 2, 6, 7]) cuts
        (indicator [0, 1, 2, 4, 5, 6, 7]) (by decide) (by decide)
        smallSolver_new hrun smallSolver_tour r hr).2.2⟩
/-! ## Theorems: the round trip on a single line -/

section SingleLine

open GraphBuilder

theorem of_toOption_map {α β : Type} {x : Except String α} {f : α → β} {v : β}
    (h : x.toOption.map f = some v) : ∃ a, x = .ok a ∧ f a = v := by
  cases x with
  | error m => simp [Except.toOption] at h
  | ok a => exact ⟨a, rfl, by simpa [Except.toOption] using h⟩

theorem finalGraph_eq_special (stations : t_stationmap) (lines : t_linemap) (cc sc : ℚ)
    (type : ProblemType) (preprocess : Bool) :
    finalGraph stations lines cc sc type preprocess =
      match specialGraph stations lines cc sc type preprocess with
      | .error m => .error m
      | .ok b2 => if preprocess then b2.preprocessGraph type else .ok b2 := by
  simp only [finalGraph, specialGraph]
  cases createNodesAndTravelArcs (init stations lines cc sc) (fun _ _ => none)
      (fun _ _ => none) with
  | error m => rfl
  | ok r => rfl

/-- The builder of the single line before preprocessing: its graph, its
clusters, and the cost, the flag and the label of every arc. -/
theorem lineSpecial_eval (cc sc : ℚ) (type : ProblemType) (preprocess : Bool) :
    (specialGraph lineStations lineLines cc sc type preprocess).toOption.map
      (fun b => (b._g, b._station_nodes, b._g.edges.map (fun e => b._dist e.id),
        b._g.edges.map (fun e => b._connection_arcs e.id),
        b._g.edges.map (fun e => b._arc_names e.id))) =
      some (if preprocess then lineGraphTerminal else lineGraph, lineClusters,
        if preprocess then [4, 5, 5, 4, sc, sc] else [4, 5, 5, 4, sc, sc, sc, sc, sc, sc],
        if preprocess then [false, false, false, false, true, true]
          else [false, false, false, false, true, true, true, true, true, true],
        if preprocess then ["L", "L", "L", "L", CHANGE_NAME, CHANGE_NAME]
          else ["L", "L", "L", "L", CHANGE_NAME, CHANGE_NAME, CHANGE_NAME, CHANGE_NAME,
            CHANGE_NAME, CHANGE_NAME]) := by
  cases type <;> cases preprocess <;> with_unfolding_all rfl

theorem checkConnectivity_of_graph (b : GraphBuilder) (g : LGraph) (hg : b._g = g)
    (h : (COMPONENTS g.nodes (endpoints g.edges)).2 ≤ 1) : b.checkConnectivity = .ok () := by
  unfold checkConnectivity
  rw [hg]
  simp only
  rw [if_neg (by omega)]

end SingleLine
section SingleLinePre

open GraphBuilder

theorem hideKeepEndpoints_congr (k1 k2 : Nat → Bool) (es : List Edge) (hidden : List Nat)
    (h : ∀ e ∈ es, k1 e.id = k2 e.id) :
    hideKeepEndpoints k1 es hidden = hideKeepEndpoints k2 es hidden := by
  induction es generalizing hidden with
  | nil => rfl
  | cons e es ih =>
    have ih' := fun hidden => ih hidden (fun a ha => h a (List.mem_cons_of_mem _ ha))
    simp only [hideKeepEndpoints, h e (List.mem_cons_self _ _), ih']

theorem computeDegree2Chains_congr (g : LGraph) (k1 k2 : Nat → Bool)
    (h : ∀ e ∈ g.edges, k1 e.id = k2 e.id) :
    computeDegree2Chains g k1 = computeDegree2Chains g k2 := by
  unfold computeDegree2Chains
  cases nodesToHide g g.nodes with
  | error m => rfl
  | ok hide => simp only [hideKeepEndpoints_congr k1 k2 g.edges hide h]

/-- The run of `preprocessGraph` on the single line: the two nodes of `B` are
contracted, in station mode and in segment mode. -/
theorem linePreprocess (b2 : GraphBuilder) (type : ProblemType) (sc : ℚ)
    (hg : b2._g = lineGraphTerminal) (hsn : b2._station_nodes = lineClusters)
    (hd : lineGraphTerminal.edges.map (fun e => b2._dist e.id) = [4, 5, 5, 4, sc, sc])
    (hc : lineGraphTerminal.edges.map (fun e => b2._connection_arcs e.id) =
      [false, false, false, false, true, true])
    (hn : lineGraphTerminal.edges.map (fun e => b2._arc_names e.id) =
      ["L", "L", "L", "L", CHANGE_NAME, CHANGE_NAME]) :
    ∃ b, b2.preprocessGraph type = .ok b ∧ b._g = lineGraphContracted ∧
      b._station_nodes = lineClustersContracted ∧
      lineGraphContracted.edges.map (fun e => b._dist e.id) = [sc, sc, 4 + 5, 5 + 4] ∧
      lineGraphContracted.edges.map (fun e => b._connection_arcs e.id) =
        [true, true, false, false] := by
  simp only [lineGraphTerminal, List.map_cons, List.map_nil, List.cons.injEq, and_true] at hd hc hn
  obtain ⟨d0, d1, d2, d3, d4, d5⟩ := hd
  obtain ⟨c0, c1, c2, c3, c4, c5⟩ := hc
  obtain ⟨n0, n1, n2, n3, n4, n5⟩ := hn
  have hch : computeDegree2Chains b2._g b2._connection_arcs = .ok [[1], [4]] := by
    rw [hg, computeDegree2Chains_congr lineGraphTerminal _ (fun i => decide (4 ≤ i))]
    · rfl
    · intro e he
      simp only [lineGraphTerminal, List.mem_cons, List.mem_singleton, List.not_mem_nil,
        or_false] at he
      rcases he with rfl | rfl | rfl | rfl | rfl | rfl <;> simp [c0, c1, c2, c3, c4, c5]
  have hk1 : chainIsKept b2 [1] = .ok false := by
    unfold chainIsKept
    rw [hg]
    rfl
  have hr1 : removeChain [1] (b2, []) = .ok (b2.contractNode 1 ⟨0, 0, 1⟩ ⟨1, 1, 2⟩, [1]) := by
    rw [removeChain_cons_ok b2 1 [] [] ⟨0, 0, 1⟩ ⟨1, 1, 2⟩ (by rw [hg]; rfl) (by rw [hg]; rfl)
      (n0.trans n1.symm)]
    rfl
  have hg1 : (b2.contractNode 1 ⟨0, 0, 1⟩ ⟨1, 1, 2⟩)._g =
      ⟨[0, 2, 3, 4, 5], [⟨2, 3, 4⟩, ⟨3, 4, 5⟩, ⟨4, 5, 0⟩, ⟨5, 2, 3⟩, ⟨6, 0, 2⟩], 6, 7⟩ := by
    simp only [contractNode, hg]
    rfl
  have hk2 : chainIsKept (b2.contractNode 1 ⟨0, 0, 1⟩ ⟨1, 1, 2⟩) [4] = .ok false := by
    unfold chainIsKept
    rw [hg1]
    rfl
  have hnx : b2._g.nextEdge = 6 := by rw [hg]; rfl
  have hr2 : removeChain [4] (b2.contractNode 1 ⟨0, 0, 1⟩ ⟨1, 1, 2⟩, [1]) =
      .ok ((b2.contractNode 1 ⟨0, 0, 1⟩ ⟨1, 1, 2⟩).contractNode 4 ⟨2, 3, 4⟩ ⟨3, 4, 5⟩,
        [1, 4]) := by
    rw [removeChain_cons_ok _ 4 [] [1] ⟨2, 3, 4⟩ ⟨3, 4, 5⟩ (by rw [hg1]; rfl) (by rw [hg1]; rfl)
      (by simp only [contractNode, hnx]; simpa using n2.trans n3.symm)]
    rfl
  have hkeep : ∀ (b : GraphBuilder) (list : List Nat), chainIsKept b list = .ok false →
      (if type = ProblemType.STATION then chainIsKept b list else .ok false) = .ok false := by
    intro b list h
    split
    · exact h
    · rfl
  have hpre : b2.preprocessGraph type = .ok
      { (b2.contractNode 1 ⟨0, 0, 1⟩ ⟨1, 1, 2⟩).contractNode 4 ⟨2, 3, 4⟩ ⟨3, 4, 5⟩ with
        _station_nodes := cleanStations [1, 4]
          ((b2.contractNode 1 ⟨0, 0, 1⟩ ⟨1, 1, 2⟩).contractNode 4 ⟨2, 3, 4⟩
            ⟨3, 4, 5⟩)._station_nodes } := by
    simp only [preprocessGraph, hch, removeChains, hkeep _ _ hk1, hr1, hkeep _ _ hk2, hr2]
  refine ⟨_, hpre, ?_, ?_, ?_, ?_⟩
  · simp only [contractNode, hg]
    rfl
  · simp only [contractNode, hsn]
    rfl
  · simp only [contractNode, hg, lineGraphContracted, lineGraphTerminal, LGraph.newEdge,
      LGraph.delNode, List.map_cons, List.map_nil, d0, d1, d2, d3, d4, d5]
    norm_num
  · simp only [contractNode, hg, lineGraphContracted, lineGraphTerminal, LGraph.newEdge,
      LGraph.delNode, List.map_cons, List.map_nil, c4, c5]
    simp

end SingleLinePre
section SingleLineSolver

open GraphBuilder

/-- The builder of the single line, in every build configuration. -/
theorem lineBuilder_spec (cc sc : ℚ) (type : ProblemType) (preprocess : Bool) :
    ∃ b, GraphBuilder.new lineStations lineLines cc sc type preprocess = .ok b ∧
      b._g = (if preprocess then lineGraphContracted else lineGraph) ∧
      b._station_nodes = (if preprocess then lineClustersContracted else lineClusters) ∧
      b._g.edges.map (fun e => b._dist e.id) =
        (if preprocess then [sc, sc, 4 + 5, 5 + 4] else [4, 5, 5, 4, sc, sc, sc, sc, sc, sc]) ∧
      b._g.edges.map (fun e => b._connection_arcs e.id) =
        (if preprocess then [true, true, false, false]
          else [false, false, false, false, true, true, true, true, true, true]) := by
  obtain ⟨b2, hb2, hval⟩ := of_toOption_map (lineSpecial_eval cc sc type preprocess)
  simp only [Prod.mk.injEq] at hval
  obtain ⟨hg, hsn, hd, hc, hn⟩ := hval
  cases preprocess with
  | false =>
    simp only [Bool.false_eq_true, if_false] at hg hsn hd hc hn ⊢
    refine ⟨b2, ?_, hg, hsn, hd, hc⟩
    rw [new_ok_iff]
    refine ⟨?_, checkConnectivity_of_graph b2 lineGraph hg (by decide)⟩
    rw [finalGraph_eq_special, hb2]
    rfl
  | true =>
    simp only [if_true] at hg hsn hd hc hn ⊢
    rw [hg] at hd hc hn
    obtain ⟨b, hpre, hg3, hsn3, hd3, hc3⟩ := linePreprocess b2 type sc hg hsn hd hc hn
    refine ⟨b, ?_, hg3, hsn3, by rw [hg3]; exact hd3, by rw [hg3]; exact hc3⟩
    rw [new_ok_iff]
    refine ⟨?_, checkConnectivity_of_graph b lineGraphContracted hg3 (by decide)⟩
    rw [finalGraph_eq_special, hb2]
    simp only [if_true]
    exact hpre

theorem noConnectionLeaves_congr (g : LGraph) (stations : StationNodes) (k1 k2 : Nat → Bool)
    (h : ∀ e ∈ g.edges, k1 e.id = k2 e.id) (h2 : NoConnectionLeaves g stations k2) :
    NoConnectionLeaves g stations k1 :=
  fun station hst e he hs ht => (h e he).trans (h2 station hst e he hs ht)

theorem createArcModel_objective (g : LGraph) (dist : Nat → ℚ) :
    (createArcModel g dist).objective = g.edges.enum.map (fun p => (p.1, dist p.2.id)) := by
  simp [createArcModel, addArcVariables_objective, List.enum]

/-- The solver is constructed when the clusters pass `initializeStations` and no
arc that leaves its cluster is flagged; its objective lists the arcs by position
with their costs. -/
theorem solver_exists (epInt : ℚ) (g : LGraph) (dist : Nat → ℚ) (stations : StationNodes)
    (conn : Nat → Bool) (idx : StationIndex) (hidx : initializeStations g stations = .ok idx)
    (hpre : NoConnectionLeaves g stations conn) :
    ∃ s, StationSolver.new epInt g dist stations conn = .ok s ∧
      s.model.objective = g.edges.enum.map (fun p => (p.1, dist p.2.id)) := by
  unfold StationSolver.new
  rw [hidx]
  simp only [createCplexModel, createCoverage_ok g _ conn stations hpre]
  exact ⟨_, rfl, createArcModel_objective g dist⟩

end SingleLineSolver
section SingleLineTours

/-- The model of the single line without preprocessing: the round trip is a
tour of cost `4 + 5 + sc + 5 + 4 + sc`, and no tour is cheaper. -/
theorem lineSolver_full (epInt sc : ℚ) (dist : Nat → ℚ) (conn : Nat → Bool) (hsc : 0 ≤ sc)
    (hd : lineGraph.edges.map (fun e => dist e.id) = [4, 5, 5, 4, sc, sc, sc, sc, sc, sc])
    (hc : lineGraph.edges.map (fun e => conn e.id) =
      [false, false, false, false, true, true, true, true, true, true]) :
    ∃ s, StationSolver.new epInt lineGraph dist lineClusters conn = .ok s ∧
      TourVector s (indicator [0, 1, 8, 2, 3, 5]) ∧
      evalTerms s.model.objective (indicator [0, 1, 8, 2, 3, 5]) = 4 + 5 + sc + 5 + 4 + sc ∧
      ∀ y, TourVector s y → 4 + 5 + sc + 5 + 4 + sc ≤ evalTerms s.model.objective y := by
  have hwf : lineGraph.WellFormed := by decide
  have hpre : NoConnectionLeaves lineGraph lineClusters conn :=
    noConnectionLeaves_congr lineGraph lineClusters conn (fun i => decide (4 ≤ i))
      (List.map_inj_left.1 (hc.trans (by decide))) (by decide)
  obtain ⟨idx, hidx⟩ : ∃ idx, initializeStations lineGraph lineClusters = .ok idx := ⟨_, rfl⟩
  obtain ⟨s, hs, hobj⟩ := solver_exists epInt lineGraph dist lineClusters conn idx hidx hpre
  have hok := solverOk_of_new (by decide) hs
  have hmodel := new_model hs hpre
  simp only [lineGraph, List.map_cons, List.map_nil, List.cons.injEq, and_true] at hd
  obtain ⟨d0, d1, d2, d3, d4, d5, d6, d7, d8, d9⟩ := hd
  have hobj' : ∀ y : Nat → ℚ, evalTerms s.model.objective y =
      4 * y 0 + 5 * y 1 + 5 * y 2 + 4 * y 3 + sc * y 4 + sc * y 5 + sc * y 6 + sc * y 7 +
        sc * y 8 + sc * y 9 := by
    intro y
    rw [hobj]
    simp only [evalTerms, lineGraph, List.enum, List.enumFrom, List.map_cons, List.map_nil,
      List.sum_cons, List.sum_nil, d0, d1, d2, d3, d4, d5, d6, d7, d8, d9]
    ring
  refine ⟨s, hs, ?_, ?_, ?_⟩
  · have hrows := rows_hold_indicator hs hwf hpre [0, 1, 8, 2, 3, 5] (by decide) (by decide)
    refine ⟨zeroOne_indicator _ _, hrows.1, hrows.2, ?_⟩
    rw [support_indicator, hok.graph]
    decide
  · rw [hobj']
    simp only [indicator]
    norm_num
    ring
  · intro y hy
    have hbin : ∀ i, i < 10 → 0 ≤ y i ∧ y i ≤ 1 := by
      intro i hi
      rcases hy.binary i (by rw [hok.graph]; exact hi) with h | h
      · rw [h]; norm_num
      · rw [h]; norm_num
    have hflow := (flow_rows_hold_iff lineGraph hwf dist y).1
      (by rw [← hmodel.1]; exact hy.flow)
    have f0 := hflow 0 (by decide)
    have f2 := hflow 2 (by decide)
    have f3 := hflow 3 (by decide)
    have f5 := hflow 5 (by decide)
    simp [inFlow, outFlow, lineGraph, List.enum, List.enumFrom] at f0 f2 f3 f5
    have hcov := hy.cover
    rw [hmodel.2] at hcov
    have cA := (hcov _ (List.mem_map.2 ⟨("A", [0, 5]), by decide, rfl⟩)).1
    have cC := (hcov _ (List.mem_map.2 ⟨("C", [2, 3]), by decide, rfl⟩)).1
    have tA : coverTerms lineGraph (createArcModel lineGraph dist).edgeToVarId [0, 5] [0, 5] =
        [(0, 1)] := by rfl
    have tC : coverTerms lineGraph (createArcModel lineGraph dist).edgeToVarId [2, 3] [2, 3] =
        [(2, 1)] := by rfl
    simp only [tA, tC, evalTerms, List.map_cons, List.map_nil, List.sum_cons, List.sum_nil,
      one_mul, add_zero] at cA cC
    rw [hobj']
    have b4 := hbin 4 (by norm_num)
    have b5 := hbin 5 (by norm_num)
    have b6 := hbin 6 (by norm_num)
    have b7 := hbin 7 (by norm_num)
    have b8 := hbin 8 (by norm_num)
    have b9 := hbin 9 (by norm_num)
    have p4 := mul_nonneg hsc b4.1
    have p6 := mul_nonneg hsc b6.1
    have p7 := mul_nonneg hsc b7.1
    have p9 := mul_nonneg hsc b9.1
    have h5 : 0 ≤ y 5 - 1 := by linarith
    have h8 : 0 ≤ y 8 - 1 := by linarith
    have p5 := mul_nonneg hsc h5
    have p8 := mul_nonneg hsc h8
    linarith

/-- The model of the single line after preprocessing: the round trip is a tour
of cost `4 + 5 + sc + 5 + 4 + sc`, and no tour is cheaper. -/
theorem lineSolver_contracted (epInt sc : ℚ) (dist : Nat → ℚ) (conn : Nat → Bool) (hsc : 0 ≤ sc)
    (hd : lineGraphContracted.edges.map (fun e => dist e.id) = [sc, sc, 4 + 5, 5 + 4])
    (hc : lineGraphContracted.edges.map (fun e => conn e.id) = [true, true, false, false]) :
    ∃ s, StationSolver.new epInt lineGraphContracted dist lineClustersContracted conn = .ok s ∧
      TourVector s (indicator [2, 1, 3, 0]) ∧
      evalTerms s.model.objective (indicator [2, 1, 3, 0]) = 4 + 5 + sc + 5 + 4 + sc ∧
      ∀ y, TourVector s y → 4 + 5 + sc + 5 + 4 + sc ≤ evalTerms s.model.objective y := by
  have hwf : lineGraphContracted.WellFormed := by decide
  have hpre : NoConnectionLeaves lineGraphContracted lineClustersContracted conn :=
    noConnectionLeaves_congr lineGraphContracted lineClustersContracted conn
      (fun i => decide (i < 6)) (List.map_inj_left.1 (hc.trans (by decide))) (by decide)
  obtain ⟨idx, hidx⟩ :
      ∃ idx, initializeStations lineGraphContracted lineClustersContracted = .ok idx := ⟨_, rfl⟩
  obtain ⟨s, hs, hobj⟩ :=
    solver_exists epInt lineGraphContracted dist lineClustersContracted conn idx hidx hpre
  have hok := solverOk_of_new (by decide) hs
  have hmodel := new_model hs hpre
  simp only [lineGraphContracted, List.map_cons, List.map_nil, List.cons.injEq, and_true] at hd
  obtain ⟨d0, d1, d2, d3⟩ := hd
  have hobj' : ∀ y : Nat → ℚ, evalTerms s.model.objective y =
      sc * y 0 + sc * y 1 + (4 + 5) * y 2 + (5 + 4) * y 3 := by
    intro y
    rw [hobj]
    simp only [evalTerms, lineGraphContracted, List.enum, List.enumFrom, List.map_cons,
      List.map_nil, List.sum_cons, List.sum_nil, d0, d1, d2, d3]
    ring
  refine ⟨s, hs, ?_, ?_, ?_⟩
  · have hrows := rows_hold_indicator hs hwf hpre [2, 1, 3, 0] (by decide) (by decide)
    refine ⟨zeroOne_indicator _ _, hrows.1, hrows.2, ?_⟩
    rw [support_indicator, hok.graph]
    decide
  · rw [hobj']
    simp only [indicator]
    norm_num
    ring
  · intro y hy
    have hbin : ∀ i, i < 4 → 0 ≤ y i ∧ y i ≤ 1 := by
      intro i hi
      rcases hy.binary i (by rw [hok.graph]; exact hi) with h | h
      · rw [h]; norm_num
      · rw [h]; norm_num
    have hflow := (flow_rows_hold_iff lineGraphContracted hwf dist y).1
      (by rw [← hmodel.1]; exact hy.flow)
    have f0 := hflow 0 (by decide)
    have f2 := hflow 2 (by decide)
    simp [inFlow, outFlow, lineGraphContracted, List.enum, List.enumFrom] at f0 f2
    have hcov := hy.cover
    rw [hmodel.2] at hcov
    have cA := (hcov _ (List.mem_map.2 ⟨("A", [0, 5]), by decide, rfl⟩)).1
    have cC := (hcov _ (List.mem_map.2 ⟨("C", [2, 3]), by decide, rfl⟩)).1
    have tA : coverTerms lineGraphContracted
        (createArcModel lineGraphContracted dist).edgeToVarId [0, 5] [0, 5] = [(2, 1)] := by rfl
    have tC : coverTerms lineGraphContracted
        (createArcModel lineGraphContracted dist).edgeToVarId [2, 3] [2, 3] = [(3, 1)] := by rfl
    simp only [tA, tC, evalTerms, List.map_cons, List.map_nil, List.sum_cons, List.sum_nil,
      one_mul, add_zero] at cA cC
    rw [hobj']
    have h0 : 0 ≤ y 0 - 1 := by linarith
    have h1 : 0 ≤ y 1 - 1 := by linarith
    have p0 := mul_nonneg hsc h0
    have p1 := mul_nonneg hsc h1
    linarith

end SingleLineTours

/-- C25: for the single line `A`, `B`, `C` with the cumulated times 0, 4, 9 and a
positive switching cost `sc`, in every build configuration (station or segment
mode, with or without preprocessing) the builder and the solver are
constructed, the round trip `A→B→C`, change of direction at `C`, `C→B→A`, change
of direction at `A` is a tour of the model with the objective value
`4 + 5 + sc + 5 + 4 + sc`, and every binary arc vector that satisfies the flow
rows and the coverage rows and induces a connected subgraph has at least this
objective value. -/
theorem singleLine_minimum_tour (epInt cc sc : ℚ) (type : ProblemType) (preprocess : Bool)
    (hsc : 0 < sc) :
    ∃ (b : GraphBuilder) (s : StationSolver),
      GraphBuilder.new lineStations lineLines cc sc type preprocess = .ok b ∧
      StationSolver.new epInt b._g b._dist b._station_nodes b._connection_arcs = .ok s ∧
      b._g = (if preprocess then lineGraphContracted else lineGraph) ∧
      b._station_nodes = (if preprocess then lineClustersContracted else lineClusters) ∧
      b._g.edges.map (fun e => b._dist e.id) =
        (if preprocess then [sc, sc, 4 + 5, 5 + 4] else [4, 5, 5, 4, sc, sc, sc, sc, sc, sc]) ∧
      TourVector s (indicator (lineTour preprocess)) ∧
      evalTerms s.model.objective (indicator (lineTour preprocess)) = 4 + 5 + sc + 5 + 4 + sc ∧
      ∀ y, TourVector s y → 4 + 5 + sc + 5 + 4 + sc ≤ evalTerms s.model.objective y := by
  obtain ⟨b, hb, hg, hsn, hd, hc⟩ := lineBuilder_spec cc sc type preprocess
  cases preprocess with
  | false =>
    simp only [Bool.false_eq_true, if_false] at hg hsn hd hc ⊢
    rw [hg] at hd hc
    obtain ⟨s, hs, h1, h2, h3⟩ := lineSolver_full epInt sc b._dist b._connection_arcs hsc.le hd hc
    refine ⟨b, s, hb, ?_, hg, hsn, ?_, h1, h2, h3⟩
    · rw [hg, hsn]; exact hs
    · rw [hg]; exact hd
  | true =>
    simp only [if_true] at hg hsn hd hc ⊢
    rw [hg] at hd hc
    obtain ⟨s, hs, h1, h2, h3⟩ :=
      lineSolver_contracted epInt sc b._dist b._connection_arcs hsc.le hd hc
    refine ⟨b, s, hb, ?_, hg, hsn, ?_, h1, h2, h3⟩
    · rw [hg, hsn]; exact hs
    · rw [hg]; exact hd

/-- C25, witness: with the switching cost 5, in station mode with preprocessing,
the round trip on the contracted graph costs 28 and no tour is cheaper. -/
theorem singleLine_minimum_tour_witness :
    (0 : ℚ) < 5 ∧
      ∃ (b : GraphBuilder) (s : StationSolver),
        GraphBuilder.new lineStations lineLines 5 5 .STATION true = .ok b ∧
        StationSolver.new (1 / 100000) b._g b._dist b._station_nodes b._connection_arcs
          = .ok s ∧
        b._g = lineGraphContracted ∧
        TourVector s (indicator [2, 1, 3, 0]) ∧
        evalTerms s.model.objective (indicator [2, 1, 3, 0]) = 28 ∧
        ∀ y, TourVector s y → 28 ≤ evalTerms s.model.objective y :=
  match singleLine_minimum_tour (1 / 100000) 5 5 .STATION true (by norm_num) with
  | ⟨b, s, h1, h2, h3, _, _, h6, h7, h8⟩ =>
    ⟨by norm_num, b, s, h1, h2, h3, h6, h7.trans (by norm_num),
      fun y hy => le_trans (by norm_num) (h8 y hy)⟩
/-! ## Theorems: closed trails and termination of `eulerRec` -/

section EulerTrail

variable {g : Graph}

/-- The arcs of a walk, position by position: the first arc leaves the first
node, the target of an arc is the source of the next one, the last arc enters
the last node. -/
theorem isWalk_positions {w : List Nat} {a b : Nat} (h : IsWalk g w a b) :
    (∀ e, w.head? = some e → g.source e = a) ∧
      (∀ i, i + 1 < w.length → g.target (w.getD i 0) = g.source (w.getD (i + 1) 0)) ∧
      (∀ e, w.getLast? = some e → g.target e = b) := by
  induction w generalizing a with
  | nil => simp
  | cons e w ih =>
    obtain ⟨_, hs, hw⟩ := h
    obtain ⟨h1, h2, h3⟩ := ih hw
    refine ⟨?_, ?_, ?_⟩
    · intro x hx
      simp only [List.head?_cons, Option.some.injEq] at hx
      rw [← hx]; exact hs
    · intro i hi
      cases i with
      | zero =>
        cases w with
        | nil => simp at hi
        | cons f w =>
          simp only [List.getD_cons_zero, List.getD_cons_succ]
          exact (h1 f rfl).symm
      | succ i =>
        simp only [List.getD_cons_succ]
        exact h2 i (by simpa using hi)
    · intro x hx
      cases w with
      | nil =>
        simp only [List.getLast?_singleton, Option.some.injEq] at hx
        simp only [IsWalk] at hw
        rw [← hx]; exact hw
      | cons f w =>
        rw [List.getLast?_cons_cons] at hx
        exact h3 x hx

/-- The arcs marked by a run are counted by the number of unvisited arcs. -/
theorem unvisCount_fresh {v0 v1 : Nat → Bool} {w : List Nat} (h : Fresh v0 w v1)
    (hlt : ∀ e ∈ w, e < g.edges.length) :
    unvisCount g v1 + w.length = unvisCount g v0 := by
  have hperm : ((List.range g.edges.length).filter (fun e => !v0 e)).Perm
      ((List.range g.edges.length).filter (fun e => !v1 e) ++ w) := by
    rw [List.perm_ext_iff_of_nodup ((List.nodup_range _).filter _)]
    · intro e
      simp only [List.mem_filter, List.mem_range, List.mem_append, Bool.not_eq_true']
      constructor
      · rintro ⟨he, h0⟩
        by_cases hw : e ∈ w
        · exact Or.inr hw
        · left
          refine ⟨he, ?_⟩
          cases h1 : v1 e with
          | false => rfl
          | true =>
            rcases (h.marks e).1 h1 with h2 | h2
            · rw [h0] at h2; exact absurd h2 (by simp)
            · exact absurd h2 hw
      · rintro (⟨he, h1⟩ | hw)
        · refine ⟨he, ?_⟩
          cases h0 : v0 e with
          | false => rfl
          | true => rw [(h.marks e).2 (Or.inl h0)] at h1; exact absurd h1 (by simp)
        · exact ⟨hlt e hw, h.unvisited e hw⟩
    · rw [List.nodup_append]
      refine ⟨(List.nodup_range _).filter _, h.nodup, ?_⟩
      intro e he hw
      have := (List.mem_filter.1 he).2
      rw [fresh_mem h hw] at this
      exact absurd this (by simp)
  have hlen := hperm.length_eq
  rw [List.length_append] at hlen
  simp only [unvisCount, List.countP_eq_length_filter]
  exact hlen.symm

theorem notEulerian_ne_outOfFuel : notEulerian ≠ outOfFuel := by decide

/-- A larger recursion budget does not change a result of the loop that is not
the error of the used-up budget. -/
theorem eulerLoop_budget {rec rec1 : Nat → Nat → EulerState → Except String EulerState}
    (hrec : ∀ c s st r, rec c s st = r → r ≠ .error outOfFuel → rec1 c s st = r)
    (c s : Nat) :
    ∀ (es : List Nat) (first : Bool) (pos : Nat) (st : EulerState)
      (r : Except String (Bool × EulerState)),
      eulerLoop rec g c s es first pos st = r → r ≠ .error outOfFuel →
      eulerLoop rec1 g c s es first pos st = r := by
  intro es
  induction es with
  | nil => intro first pos st r h _; simpa [eulerLoop] using h
  | cons e es ih =>
    intro first pos st r h hr
    simp only [eulerLoop] at h ⊢
    by_cases hv : st.visited e = true
    · rw [if_pos hv] at h ⊢
      exact ih _ _ _ _ h hr
    · rw [if_neg hv] at h ⊢
      by_cases hf : first = true
      · rw [if_pos hf] at h ⊢
        cases hc : rec (g.target e) s ⟨st.cycle ++ [e], markVisited st.visited e⟩ with
        | error m =>
          rw [hc] at h
          have hm : (Except.error m : Except String EulerState) ≠ .error outOfFuel := by
            intro hcon
            simp only [Except.error.injEq] at hcon
            rw [hcon] at h
            exact hr h.symm
          rw [hrec _ _ _ _ hc hm]
          exact h
        | ok st2 =>
          rw [hc] at h
          rw [hrec _ _ _ _ hc (by simp)]
          exact ih _ _ _ _ h hr
      · rw [if_neg hf] at h ⊢
        cases hc : rec c c ⟨[], st.visited⟩ with
        | error m =>
          rw [hc] at h
          have hm : (Except.error m : Except String EulerState) ≠ .error outOfFuel := by
            intro hcon
            simp only [Except.error.injEq] at hcon
            rw [hcon] at h
            exact hr h.symm
          rw [hrec _ _ _ _ hc hm]
          exact h
        | ok st2 =>
          rw [hc] at h
          rw [hrec _ _ _ _ hc (by simp)]
          exact ih _ _ _ _ h hr

/-- A larger recursion budget does not change a result of `eulerRec` that is
not the error of the used-up budget. -/
theorem eulerRec_budget (g : Graph) :
    ∀ (fuel c s : Nat) (st : EulerState) (r : Except String EulerState),
      eulerRec g fuel c s st = r → r ≠ .error outOfFuel → eulerRec g (fuel + 1) c s st = r := by
  intro fuel
  induction fuel with
  | zero =>
    intro c s st r h hr
    simp only [eulerRec] at h
    exact absurd h.symm hr
  | succ fuel ih =>
    intro c s st r h hr
    rw [eulerRec] at h ⊢
    cases hl : eulerLoop (eulerRec g fuel) g c s (g.outEdges c) true 0 st with
    | error m =>
      rw [hl] at h
      have hm : (Except.error m : Except String (Bool × EulerState)) ≠ .error outOfFuel := by
        intro hcon
        simp only [Except.error.injEq] at hcon
        rw [hcon] at h
        exact hr h.symm
      rw [eulerLoop_budget ih c s _ _ _ _ _ hl hm]
      exact h
    | ok p =>
      rw [hl] at h
      rw [eulerLoop_budget ih c s _ _ _ _ _ hl (by simp)]
      exact h

theorem eulerRec_budget_le (g : Graph) (c s : Nat) (st : EulerState)
    (r : Except String EulerState) (fuel : Nat) (h : eulerRec g fuel c s st = r)
    (hr : r ≠ .error outOfFuel) : ∀ k, eulerRec g (fuel + k) c s st = r := by
  intro k
  induction k with
  | zero => exact h
  | succ k ih => exact eulerRec_budget g (fuel + k) c s st r ih hr

/-- With a budget above the number of unvisited arcs `eulerRec` does not use
up the budget. -/
theorem eulerRec_ne_outOfFuel (g : Graph) (fuel c s : Nat) (st : EulerState)
    (hfuel : unvisCount g st.visited < fuel) :
    eulerRec g fuel c s st ≠ .error outOfFuel := by
  rcases eulerRec_gen g fuel c s st hfuel with h | ⟨w, vis1, h, _⟩
  · rw [h]
    intro hcon
    simp only [Except.error.injEq] at hcon
    exact notEulerian_ne_outOfFuel hcon
  · rw [h]; simp

end EulerTrail

/-- C35: for every multigraph and every start node, whenever
`Euler::getEulerTour` returns, the list returned is a closed trail through the
start node (the first node of the graph when none is given): every arc of the
list is an arc of the graph, the first arc leaves the start node, the target of
each arc is the source of the next one, the last arc enters the start node, and
no arc occurs twice. -/
theorem getEulerTour_closed_trail (g : Graph) (start : Option Nat) (tour : List Nat)
    (h : getEulerTour g start = .ok tour) :
    IsWalk g tour (start.getD g.firstNode) (start.getD g.firstNode) ∧ tour.Nodup ∧
      (∀ e ∈ tour, e < g.edges.length) ∧
      (∀ e, tour.head? = some e → g.source e = start.getD g.firstNode) ∧
      (∀ i, i + 1 < tour.length →
        g.target (tour.getD i 0) = g.source (tour.getD (i + 1) 0)) ∧
      (∀ e, tour.getLast? = some e → g.target e = start.getD g.firstNode) := by
  rw [getEulerTour_getD g start] at h
  generalize start.getD g.firstNode = s at h ⊢
  have hw : IsWalk g tour s s ∧ tour.Nodup := by
    cases he : g.empty with
    | true =>
      simp only [getEulerTour, he, if_true, Except.ok.injEq] at h
      subst h
      exact ⟨rfl, List.nodup_nil⟩
    | false =>
      rcases getEulerTour_gen g s he with herr | ⟨tour1, vis1, hrun, hpost⟩
      · rw [herr] at h; exact absurd h (by simp)
      · rw [hrun] at h
        simp only [Except.ok.injEq] at h
        subst h
        exact ⟨hpost.walk, hpost.fresh.nodup⟩
  obtain ⟨h1, h2, h3⟩ := isWalk_positions hw.1
  exact ⟨hw.1, hw.2, isWalk_lt hw.1, h1, h2, h3⟩

/-- C35, witness: in the graph of two disjoint cycles, which is not Eulerian,
the call from the node 0 returns the closed trail of the arcs 0 and 1. -/
theorem getEulerTour_closed_trail_witness :
    getEulerTour twoCycles (some 0) = .ok [0, 1] ∧
      IsWalk twoCycles [0, 1] 0 0 ∧ [0, 1].Nodup :=
  match getEulerTour_closed_trail twoCycles (some 0) [0, 1] rfl with
  | ⟨h1, h2, _⟩ => ⟨rfl, h1, h2⟩

/-- C36: `Euler::eulerRec` terminates.  In the embedding the recursion carries
a budget; for every multigraph and every state, a run with a budget above the
number of unvisited arcs never uses up the budget, and its result does not
depend on the budget.  The run throws `The Graph is not Eulerian` or returns;
when it returns, the arcs appended to `cycle` are distinct arcs of the graph
that were unvisited, exactly these arcs are newly marked, so the number of
unvisited arcs drops by the number of arcs appended, which is at most the
number of arcs of the graph; and a call entered at a node with an unvisited
leaving arc (as the call for a new cycle is) marks at least one arc. -/
theorem eulerRec_terminates (g : Graph) (fuel current start : Nat) (st : EulerState)
    (hfuel : unvisCount g st.visited < fuel) :
    eulerRec g fuel current start st ≠ .error outOfFuel ∧
      (∀ fuel1, unvisCount g st.visited < fuel1 →
        eulerRec g fuel1 current start st = eulerRec g fuel current start st) ∧
      (eulerRec g fuel current start st = .error notEulerian ∨
        ∃ w vis1, eulerRec g fuel current start st = .ok ⟨st.cycle ++ w, vis1⟩ ∧
          w.Nodup ∧ (∀ e ∈ w, e < g.edges.length ∧ st.visited e = false) ∧
          (∀ e, vis1 e = true ↔ st.visited e = true ∨ e ∈ w) ∧
          unvisCount g vis1 + w.length = unvisCount g st.visited ∧
          w.length ≤ g.edges.length ∧
          ((∃ e, e < g.edges.length ∧ g.source e = current ∧ st.visited e = false) →
            unvisCount g vis1 < unvisCount g st.visited)) := by
  refine ⟨eulerRec_ne_outOfFuel g fuel current start st hfuel, ?_, ?_⟩
  · intro fuel1 h1
    have hne := eulerRec_ne_outOfFuel g fuel current start st hfuel
    have hne1 := eulerRec_ne_outOfFuel g fuel1 current start st h1
    rcases Nat.le_total fuel fuel1 with hle | hle
    · obtain ⟨k, rfl⟩ := Nat.exists_eq_add_of_le hle
      exact eulerRec_budget_le g current start st _ fuel rfl hne k
    · obtain ⟨k, rfl⟩ := Nat.exists_eq_add_of_le hle
      exact (eulerRec_budget_le g current start st _ fuel1 rfl hne1 k).symm
  · rcases eulerRec_gen g fuel current start st hfuel with h | ⟨w, vis1, h, hpost⟩
    · exact Or.inl h
    · right
      have hlt := isWalk_lt hpost.walk
      have hcount := unvisCount_fresh hpost.fresh hlt
      have hle : unvisCount g st.visited ≤ g.edges.length := by
        have : unvisCount g st.visited ≤ unvisCount g (fun _ => false) :=
          unvisCount_mono (fun e he => absurd he (by simp))
        rw [unvisCount_init] at this
        exact this
      refine ⟨w, vis1, h, hpost.fresh.nodup,
        fun e he => ⟨hlt e he, hpost.fresh.unvisited e he⟩, hpost.fresh.marks, hcount,
        by omega, ?_⟩
      rintro ⟨e, he, hs, hv⟩
      have hvis := hpost.outC e he hs
      have hmem : e ∈ w := by
        rcases (hpost.fresh.marks e).1 hvis with h2 | h2
        · rw [hv] at h2; exact absurd h2 (by simp)
        · exact h2
      have : 0 < w.length := List.length_pos_of_mem hmem
      omega

/-- C36, witness: in the graph of two disjoint cycles a run from the node 0 with
the budget 5 returns the two arcs of the first cycle, and so does a run with
the budget 9. -/
theorem eulerRec_terminates_witness :
    unvisCount twoCycles (fun _ => false) < 5 ∧
      eulerRec twoCycles 5 0 0 ⟨[], fun _ => false⟩ ≠ .error outOfFuel ∧
      eulerRec twoCycles 9 0 0 ⟨[], fun _ => false⟩ =
        eulerRec twoCycles 5 0 0 ⟨[], fun _ => false⟩ :=
  have h : unvisCount twoCycles (fun _ => false) < 5 := by
    rw [unvisCount_init]; decide
  match eulerRec_terminates twoCycles 5 0 0 ⟨[], fun _ => false⟩ h with
  | ⟨h1, h2, _⟩ => ⟨h, h1, h2 9 (by rw [unvisCount_init]; decide)⟩
/-! ## Theorems: the separator on a candidate that covers every station -/

section CoveredCandidate

variable {epInt : ℚ} {g : LGraph} {dist : Nat → ℚ} {stations : StationNodes}
  {conn : Nat → Bool} {s : StationSolver}

theorem isOne_one (s : StationSolver) (h0 : 0 ≤ s.epInt) : s.isOne 1 = true := by
  simp only [StationSolver.isOne, Bool.and_eq_true, decide_eq_true_eq]
  constructor <;> linarith

theorem isZero_zero (s : StationSolver) (h0 : 0 ≤ s.epInt) : s.isZero 0 = true := by
  simp only [StationSolver.isZero, Bool.and_eq_true, decide_eq_true_eq]
  constructor <;> linarith

theorem isBinary_of_zeroOne (s : StationSolver) (h0 : 0 ≤ s.epInt) (x : Nat → ℚ)
    (hx : ∀ i, i < s.g.edges.length → x i = 0 ∨ x i = 1) : s.IsBinary x := by
  intro i hi
  rcases hx i hi with h | h
  · right; rw [h]; exact isZero_zero s h0
  · left; rw [h]; exact isOne_one s h0

/-- A candidate with the values 0 and 1 that satisfies the coverage rows selects
an arc that leaves the station, for every station. -/
theorem touched_of_cover (hwf : g.WellFormed)
    (hs : StationSolver.new epInt g dist stations conn = .ok s) (hgraph : s.g = g)
    (heps : 0 ≤ epInt) (x : Nat → ℚ) (hx : ∀ i, i < g.edges.length → x i = 0 ∨ x i = 1)
    (hcover : ∀ r ∈ s.model.outCons, r.Holds x) :
    ∀ station ∈ stations, Touched (s.selected x) station.2 := by
  intro station hst
  obtain ⟨_, hout⟩ := new_model hs (noConnectionLeaves_of_new hs)
  have hrow := hcover ⟨1, none, coverTerms g (createArcModel g dist).edgeToVarId station.2
    station.2⟩ (by rw [hout]; exact List.mem_map.2 ⟨station, hst, rfl⟩)
  have hc : ∀ t ∈ coverTerms g (createArcModel g dist).edgeToVarId station.2 station.2,
      t.2 = 1 ∧ LeavesCluster g station.2 t.1 := by
    intro t ht
    exact (mem_coverTerms hwf dist station.2 t.1 t.2).1 ht
  obtain ⟨t, ht, hxt⟩ := (one_le_sum_binary _ x (fun t ht => (hc t ht).1) (fun t ht => by
    obtain ⟨e, he, _⟩ := (hc t ht).2
    exact hx t.1 (List.getElem?_eq_some_iff.1 he).1)).1 hrow.1
  obtain ⟨e, he, hsrc, _⟩ := (hc t ht).2
  have hsel : e ∈ s.selected x := by
    refine (mem_selected s x e).2 ⟨t.1, by rw [hgraph]; exact he, ?_⟩
    rw [hxt]
    exact isOne_one s (by rw [new_epInt hs]; exact heps)
  exact ⟨e.src, hsrc, (onSelected_iff _ _).2 ⟨e, hsel, Or.inl rfl⟩⟩

end CoveredCandidate

/-- C37: for a constructed solver with a non-negative tolerance and a candidate
`x` with the values 0 and 1 that satisfies every coverage row, every station has
a node on a selected arc.  The loop of the separator over the nodes of the
induced graph returns `components_per_station`, every entry of it is non-empty,
so the loop over it passes the assertion `!components.empty()` and returns, and
the separator ends with the failure of the assertion on the exclusive
components or returns normally.  For every node of the graph `getComponent`
returns a value, and the value is the number of the component of a node on a
selected arc, between 0 and the number of components. -/
theorem getComponent_covered (epInt : ℚ) (g : LGraph) (dist : Nat → ℚ)
    (stations : StationNodes) (connection_arcs : Nat → Bool) (s : StationSolver)
    (x : Nat → ℚ) (hwf : g.WellFormed)
    (hnodes : ∀ station ∈ stations, ∀ n ∈ station.2, n ∈ g.nodes)
    (hs : StationSolver.new epInt g dist stations connection_arcs = .ok s)
    (heps : 0 ≤ epInt) (hx : ∀ i, i < g.edges.length → x i = 0 ∨ x i = 1)
    (hcover : ∀ r ∈ s.model.outCons, r.Holds x) :
    (∀ station ∈ stations, Touched (s.selected x) station.2) ∧
    ∃ cps : List (List Int),
      collectComponents s (s.sepCompnum x) (CopyGraph (s.selected x)).nodes
        (List.replicate s.nStations []) = .ok cps ∧
      cps.length = stations.length ∧
      (∀ components ∈ cps, components ≠ []) ∧
      (∃ excl, exclusiveComponents cps [] = .ok excl) ∧
      (StationLazyCallback s x = .error assertExclusive ∨
        ∃ cuts, StationLazyCallback s x = .ok cuts) ∧
      ∀ n ∈ g.nodes, ∃ c : Int,
        s.getComponent n (s.sepNodemap x) (s.sepCompnum x) cps = .ok c ∧
        0 ≤ c ∧
        c < (COMPONENTS (CopyGraph (s.selected x)).nodes
          (endpoints (CopyGraph (s.selected x)).edges)).2 ∧
        ∃ m, OnSelected (s.selected x) m ∧ s.sepCompnum x m = c := by
  have hok := solverOk_of_new hnodes hs
  have hbin : s.IsBinary x := isBinary_of_zeroOne s (by rw [new_epInt hs]; exact heps) x
    (by rw [hok.graph]; exact hx)
  have htouch := touched_of_cover hwf hs hok.graph heps x hx hcover
  obtain ⟨cps, hd⟩ := sepData_exists hwf hok x
  obtain ⟨hne, hknown⟩ := known_of_touched hok x hd htouch
  obtain ⟨excl, hexcl, _, _⟩ := exclusiveComponents_spec cps [] hne
  obtain ⟨excl1, _, _, hrun⟩ := callback_run hwf hok x hbin htouch hd
  have hrange : ∀ m, OnSelected (s.selected x) m →
      0 ≤ s.sepCompnum x m ∧ s.sepCompnum x m <
        (COMPONENTS (CopyGraph (s.selected x)).nodes
          (endpoints (CopyGraph (s.selected x)).edges)).2 := by
    intro m hm
    exact COMPONENTS_range _ _ (copyGraph_closed _) ((mem_copyGraph_nodes _ _).2 hm)
  refine ⟨htouch, cps, hd.collect, hd.length, hne, ⟨excl, hexcl⟩, ?_, ?_⟩
  · rw [hrun]
    by_cases h0 : excl1.length = 0
    · left; rw [if_pos h0]
    · right
      rw [if_neg h0]
      by_cases h1 : excl1.length = 1
      · rw [if_pos h1]; exact ⟨_, rfl⟩
      · rw [if_neg h1]; exact ⟨_, rfl⟩
  · intro n hn
    refine ⟨_, getComponent_ok s _ _ cps n (hknown n hn), ?_⟩
    have hm : ∃ m, OnSelected (s.selected x) m ∧
        s.sepCompnum x m = derivedComp s (s.sepNodemap x) (s.sepCompnum x) cps n := by
      by_cases hon : OnSelected (s.selected x) n
      · exact ⟨n, hon, (derived_onSelected x hon).symm⟩
      · obtain ⟨k, hk, hnk, _⟩ := hok.station hn
        have hk1 : k < cps.length := hd.length ▸ hk
        rw [derived_unselected hok x k hk hnk hon]
        have hnek : cps.getD k [] ≠ [] := by
          rw [List.getD_eq_getElem _ _ hk1]
          exact hne _ (List.getElem_mem _)
        cases hc : cps.getD k [] with
        | nil => exact absurd hc hnek
        | cons c rest =>
          have hmem : c ∈ cps.getD k [] := by rw [hc]; exact List.mem_cons_self _ _
          obtain ⟨m, _, hm1, hm2⟩ := (hd.mem k hk c).1 hmem
          exact ⟨m, hm1, by simpa using hm2⟩
    obtain ⟨m, hm1, hm2⟩ := hm
    have := hrange m hm1
    rw [hm2] at this
    exact ⟨this.1, this.2, m, hm1, hm2⟩

/-- C37, witness: on the small instance the candidate selecting the cycles
0→1→0 and 2→3→4→2 satisfies the coverage rows, and `getComponent` returns a
value for every node. -/
theorem getComponent_covered_witness :
    smallGraph.WellFormed ∧ (0 : ℚ) ≤ 1 / 100000 ∧
      (∀ r ∈ smallSolver.model.outCons, r.Holds (indicator [0, 1, 2, 6, 7])) ∧
      ∃ cps : List (List Int), ∀ n ∈ smallGraph.nodes, ∃ c : Int,
        smallSolver.getComponent n (smallSolver.sepNodemap (indicator [0, 1, 2, 6, 7]))
          (smallSolver.sepCompnum (indicator [0, 1, 2, 6, 7])) cps = .ok c :=
  have hrows := (rows_hold_indicator smallSolver_new (by decide)
    (noConnectionLeaves_of_new smallSolver_new) [0, 1, 2, 6, 7] (by decide) (by decide)).2
  match getComponent_covered (1 / 100000) smallGraph (fun _ => 1) smallStations
    (fun _ => false) smallSolver (indicator [0, 1, 2, 6, 7]) (by decide) (by decide)
    smallSolver_new (by norm_num) (zeroOne_indicator _ _) hrows with
  | ⟨_, cps, _, _, _, _, _, h⟩ =>
    ⟨by decide, by norm_num, hrows, cps, fun n hn =>
      match h n hn with
      | ⟨c, hc, _⟩ => ⟨c, hc⟩⟩
/-! ## Theorems: the separator on two cycles and on one connected subgraph -/

/-- C3: for a constructed solver with a non-negative tolerance.  A candidate `x`
of the separator is a solution of the model: it has the values 0 and 1 and
satisfies the coverage rows.  If the subgraph of the arcs selected by `x` has
two different components that are each the only component meeting some station
(in particular if `x` consists of two disjoint balanced cycles of this kind),
the separator returns cuts, at least one pair of them.  If `y` is binary, every
station has a node on an arc selected by `y` and the selected arcs form one
connected subgraph, the separator returns no cut. -/
theorem stationLazyCallback_two_cycles (epInt : ℚ) (g : LGraph) (dist : Nat → ℚ)
    (stations : StationNodes) (connection_arcs : Nat → Bool) (s : StationSolver)
    (x y : Nat → ℚ) (a b : Nat) (hwf : g.WellFormed)
    (hnodes : ∀ station ∈ stations, ∀ n ∈ station.2, n ∈ g.nodes)
    (hs : StationSolver.new epInt g dist stations connection_arcs = .ok s)
    (heps : 0 ≤ epInt)
    (hx : ∀ i, i < g.edges.length → x i = 0 ∨ x i = 1)
    (hcover : ∀ r ∈ s.model.outCons, r.Holds x)
    (ha : ExclusiveComp (s.selected x) stations a)
    (hb : ExclusiveComp (s.selected x) stations b)
    (hab : ¬ SameComp (s.selected x) a b)
    (hbiny : s.IsBinary y)
    (htouchy : ∀ station ∈ stations, Touched (s.selected y) station.2)
    (hone : ∀ u ∈ selNodes (s.selected y), ∀ v ∈ selNodes (s.selected y),
      SameComp (s.selected y) u v) :
    (∃ cuts : List Row, StationLazyCallback s x = .ok cuts ∧ 2 ≤ cuts.length ∧
      cuts.length % 2 = 0) ∧
      StationLazyCallback s y = .ok [] := by
  have hok := solverOk_of_new hnodes hs
  have hbinx : s.IsBinary x := isBinary_of_zeroOne s (by rw [new_epInt hs]; exact heps) x
    (by rw [hok.graph]; exact hx)
  have htouchx := touched_of_cover hwf hs hok.graph heps x hx hcover
  constructor
  · obtain ⟨cps, excl, hrun, hnd, hmem⟩ := callback_analysis hwf hok x hbinx htouchx
    have h2 := two_le_of_exclusive _ excl hmem ha hb hab
    refine ⟨_, by rw [hrun, if_neg (by omega), if_neg (by omega)], ?_, ?_⟩
    · rw [flatMap_pair_length]
      omega
    · rw [flatMap_pair_length]
      omega
  · obtain ⟨cps, excl, hrun, hnd, hmem⟩ := callback_analysis hwf hok y hbiny htouchy
    have h1 := one_of_connected _ excl hnd hmem (stations_ne_nil_of_new hs) htouchy hone
    rw [hrun, if_neg (by omega), if_pos h1]

/-- C3, witness: on the small instance `x` selects the cycles 0→1→0 and
2→3→4→2 and satisfies the coverage rows, `y` selects these and the arcs 1→2,
2→1 joining them. -/
theorem stationLazyCallback_two_cycles_witness :
    (∀ r ∈ smallSolver.model.outCons, r.Holds (indicator [0, 1, 2, 6, 7])) ∧
    ExclusiveComp (smallSolver.selected (indicator [0, 1, 2, 6, 7])) smallStations 0 ∧
    ExclusiveComp (smallSolver.selected (indicator [0, 1, 2, 6, 7])) smallStations 2 ∧
    ¬ SameComp (smallSolver.selected (indicator [0, 1, 2, 6, 7])) 0 2 ∧
    (∃ cuts : List Row, StationLazyCallback smallSolver (indicator [0, 1, 2, 6, 7]) = .ok cuts ∧
      2 ≤ cuts.length ∧ cuts.length % 2 = 0) ∧
      StationLazyCallback smallSolver (indicator [0, 1, 2, 4, 5, 6, 7]) = .ok [] := by
  have hx := smallSolver_selected [0, 1, 2, 6, 7]
  have hy := smallSolver_selected [0, 1, 2, 4, 5, 6, 7]
  have hrows := (rows_hold_indicator smallSolver_new (by decide)
    (noConnectionLeaves_of_new smallSolver_new) [0, 1, 2, 6, 7] (by decide) (by decide)).2
  have ha : ExclusiveComp (smallSolver.selected (indicator [0, 1, 2, 6, 7])) smallStations 0 := by
    rw [hx]; decide
  have hb : ExclusiveComp (smallSolver.selected (indicator [0, 1, 2, 6, 7])) smallStations 2 := by
    rw [hx]; decide
  have hab : ¬ SameComp (smallSolver.selected (indicator [0, 1, 2, 6, 7])) 0 2 := by
    rw [hx]; decide
  exact ⟨hrows, ha, hb, hab,
    stationLazyCallback_two_cycles (1 / 100000) smallGraph (fun _ => 1) smallStations
      (fun _ => false) smallSolver (indicator [0, 1, 2, 6, 7]) (indicator [0, 1, 2, 4, 5, 6, 7])
      0 2 (by decide) (by decide) smallSolver_new (by norm_num) (zeroOne_indicator _ _) hrows
      ha hb hab (smallSolver_isBinary _) (by rw [hy]; decide) (by rw [hy]; decide)⟩
/-! ## Theorems: facts kept by the construction and by the contraction of chains -/

section PreprocessInvariants

open GraphBuilder

/-- A fact about the builder that every contraction of a node keeps is kept by
the loop that removes a chain. -/
theorem removeChain_keeps (P : GraphBuilder → Prop)
    (hstep : ∀ (b : GraphBuilder) (n : Nat) (ein eout : Edge), P b →
      b._g.inEdges n = [ein] → b._g.outEdges n = [eout] →
      b._arc_names ein.id = b._arc_names eout.id → P (b.contractNode n ein eout))
    (l : List Nat) :
    ∀ (b : GraphBuilder) (red : List Nat) (r : GraphBuilder × List Nat),
      removeChain l (b, red) = .ok r → P b → P r.1 := by
  induction l with
  | nil =>
    intro b red r h hp
    simp only [removeChain, Except.ok.injEq] at h
    subst h
    exact hp
  | cons n ns ih =>
    intro b red r h hp
    obtain ⟨ein, eout, hin, hout, hnm, h1⟩ := removeChain_cons_inv b n ns red r h
    exact ih _ _ _ h1 (hstep b n ein eout hp hin hout hnm)

/-- A fact about the builder that every contraction of a node keeps is kept by
the loop of `preprocessGraph` over the chains. -/
theorem removeChains_keeps (P : GraphBuilder → Prop)
    (hstep : ∀ (b : GraphBuilder) (n : Nat) (ein eout : Edge), P b →
      b._g.inEdges n = [ein] → b._g.outEdges n = [eout] →
      b._arc_names ein.id = b._arc_names eout.id → P (b.contractNode n ein eout))
    (type : ProblemType) (chains : List (List Nat)) :
    ∀ (st r : GraphBuilder × List Nat), removeChains type chains st = .ok r →
      P st.1 → P r.1 := by
  induction chains with
  | nil =>
    intro st r h hp
    simp only [removeChains, Except.ok.injEq] at h
    subst h
    exact hp
  | cons list rest ih =>
    intro st r h hp
    simp only [removeChains] at h
    split at h
    · exact absurd h (by simp)
    · exact ih st r h hp
    · split at h
      · exact absurd h (by simp)
      · rename_i st1 h1
        obtain ⟨b, red⟩ := st
        exact ih st1 r h (removeChain_keeps P hstep list b red st1 h1 hp)

/-- The result of `preprocessGraph`: the builder after the loop over the chains
with the clusters cleaned. -/
theorem preprocessGraph_inv (b b3 : GraphBuilder) (type : ProblemType)
    (h : b.preprocessGraph type = .ok b3) :
    ∃ chains b1 red, computeDegree2Chains b._g b._connection_arcs = .ok chains ∧
      removeChains type chains (b, []) = .ok (b1, red) ∧
      b3 = { b1 with _station_nodes := cleanStations red b1._station_nodes } := by
  unfold preprocessGraph at h
  split at h
  · exact absurd h (by simp)
  · rename_i chains hch
    split at h
    · exact absurd h (by simp)
    · rename_i b1 red h1
      simp only [Except.ok.injEq] at h
      exact ⟨chains, b1, red, hch, h1, h.symm⟩

/-- The phases of a successful construction. -/
theorem new_phases (stations : t_stationmap) (lines : t_linemap) (cc sc : ℚ)
    (type : ProblemType) (preprocess : Bool) (b : GraphBuilder)
    (h : GraphBuilder.new stations lines cc sc type preprocess = .ok b) :
    ∃ (b1 : GraphBuilder) (way back : NodeMap) (b2 : GraphBuilder),
      createNodesAndTravelArcs (init stations lines cc sc) (fun _ _ => none) (fun _ _ => none)
        = .ok (b1, way, back) ∧
      b1.addSpecialArcs way back type preprocess = .ok b2 ∧
      (if preprocess then b2.preprocessGraph type = .ok b else b = b2) ∧
      b.checkConnectivity = .ok () := by
  obtain ⟨hfin, hchk⟩ := (new_ok_iff stations lines cc sc type preprocess b).1 h
  obtain ⟨b1, way, back, b2, h1, h2, h3⟩ :=
    finalGraph_phases stations lines cc sc type preprocess b hfin
  exact ⟨b1, way, back, b2, h1, h2, h3, hchk⟩

theorem wayLoop_removed (lineName : String) (times : List Nat) (l : List String) :
    ∀ (k : Nat) (last : Option Nat) (st r : GraphBuilder × NodeMap),
      wayLoop lineName times l k last st = .ok r → r.1._nodes_removed = st.1._nodes_removed := by
  induction l with
  | nil =>
    intro k last st r h
    simp only [wayLoop, Except.ok.injEq] at h
    rw [← h]
  | cons station rest ih =>
    intro k last st r h
    obtain ⟨b, m⟩ := st
    simp only [wayLoop] at h
    split at h
    · exact absurd h (by simp)
    · rename_i b2 h2
      rw [ih _ _ _ _ h]
      unfold addTravelArc at h2
      split at h2
      · simp only [Except.ok.injEq] at h2
        rw [← h2]; rfl
      · simp only at h2
        split at h2
        · exact absurd h2 (by simp)
        · simp only [Except.ok.injEq] at h2
          rw [← h2]; rfl

theorem backLoop_removed (lineName : String) (times : List Nat) (l : List String) :
    ∀ (k : Int) (last : Option Nat) (st r : GraphBuilder × NodeMap),
      backLoop lineName times l k last st = .ok r → r.1._nodes_removed = st.1._nodes_removed := by
  induction l with
  | nil =>
    intro k last st r h
    simp only [backLoop, Except.ok.injEq] at h
    rw [← h]
  | cons station rest ih =>
    intro k last st r h
    obtain ⟨b, m⟩ := st
    simp only [backLoop] at h
    split at h
    · exact absurd h (by simp)
    · rename_i b2 h2
      rw [ih _ _ _ _ h]
      unfold addTravelArc at h2
      split at h2
      · simp only [Except.ok.injEq] at h2
        rw [← h2]; rfl
      · simp only at h2
        split at h2
        · exact absurd h2 (by simp)
        · simp only [Except.ok.injEq] at h2
          rw [← h2]; rfl

theorem wayLines_removed (ls : t_linemap) :
    ∀ (st r : GraphBuilder × NodeMap), wayLines ls st = .ok r →
      r.1._nodes_removed = st.1._nodes_removed := by
  induction ls with
  | nil =>
    intro st r h
    simp only [wayLines, Except.ok.injEq] at h
    rw [← h]
  | cons it rest ih =>
    intro st r h
    simp only [wayLines] at h
    split at h
    · exact absurd h (by simp)
    · rename_i st1 h1
      rw [ih _ _ h, wayLoop_removed _ _ _ _ _ _ _ h1]

theorem backLines_removed (ls : t_linemap) :
    ∀ (st r : GraphBuilder × NodeMap), backLines ls st = .ok r →
      r.1._nodes_removed = st.1._nodes_removed := by
  induction ls with
  | nil =>
    intro st r h
    simp only [backLines, Except.ok.injEq] at h
    rw [← h]
  | cons it rest ih =>
    intro st r h
    simp only [backLines] at h
    split at h
    · exact absurd h (by simp)
    · rename_i st1 h1
      rw [ih _ _ h, backLoop_removed _ _ _ _ _ _ _ h1]

theorem addArcs_removed (cost : ℚ) (arcs : List (Nat × Nat)) :
    ∀ b : GraphBuilder, (b.addArcs cost arcs)._nodes_removed = b._nodes_removed := by
  induction arcs with
  | nil => intro b; rfl
  | cons p rest ih =>
    intro b
    rw [addArcs_cons, ih]
    rfl

/-- The member `_nodes_removed` keeps the value `false` of the initialiser list:
no statement of the constructor assigns it. -/
theorem new_nodes_removed (stations : t_stationmap) (lines : t_linemap) (cc sc : ℚ)
    (type : ProblemType) (preprocess : Bool) (b : GraphBuilder)
    (h : GraphBuilder.new stations lines cc sc type preprocess = .ok b) :
    b._nodes_removed = false := by
  obtain ⟨b1, way, back, b2, h1, h2, h3, _⟩ := new_phases stations lines cc sc type preprocess b h
  have e1 : b1._nodes_removed = false := by
    simp only [createNodesAndTravelArcs] at h1
    split at h1
    · exact absurd h1 (by simp)
    · rename_i bw way1 hw
      split at h1
      · exact absurd h1 (by simp)
      · rename_i bk back1 hk
        simp only [Except.ok.injEq, Prod.mk.injEq] at h1
        rw [← h1.1, backLines_removed _ _ _ hk, wayLines_removed _ _ _ hw]
        rfl
  obtain ⟨g1, g2, g3, -⟩ := createNodesAndTravelArcs_sound _ _ _ _ _ _ h1
    (sound_init stations lines cc sc) (mapIn_empty _) (mapIn_empty _)
  obtain ⟨switches, calls, -, -, k3, -⟩ :=
    addSpecialArcs_trace b1 way back type preprocess b2 g1 g2 g3 h2
  have e2 : b2._nodes_removed = false := by
    rw [k3, addArcs_removed, addArcs_removed, e1]
  cases preprocess with
  | false =>
    simp only [Bool.false_eq_true, if_false] at h3
    rw [h3]; exact e2
  | true =>
    simp only [if_true] at h3
    obtain ⟨chains, b4, red, -, hrem, rfl⟩ := preprocessGraph_inv b2 b type h3
    exact removeChains_keeps (fun b => b._nodes_removed = false)
      (fun b n ein eout hp _ _ _ => hp) type chains (b2, []) (b4, red) hrem e2

end PreprocessInvariants
/-! ## Theorems: the output of a tour after preprocessing -/

section PrintTour

open GraphBuilder

theorem chainBuilder_names :
    chainBuilder._node_names 0 = "A" ∧ chainBuilder._node_names 3 = "D" ∧
      chainBuilder._node_names 4 = "D" ∧ chainBuilder._node_names 7 = "A" ∧
      chainBuilder._arc_names 9 = "L" ∧ chainBuilder._arc_names 7 = CHANGE_NAME ∧
      chainBuilder._arc_names 11 = "L" ∧ chainBuilder._arc_names 6 = CHANGE_NAME ∧
      chainBuilder._dist 9 = 11 ∧ chainBuilder._dist 7 = 5 ∧
      chainBuilder._dist 11 = 11 ∧ chainBuilder._dist 6 = 5 :=
  ⟨by rfl, by rfl, by rfl, by rfl, by rfl, by rfl, by rfl, by rfl, by decide!, by rfl,
    by decide!, by rfl⟩

theorem chainBuilder_edges :
    chainBuilder._g.edges = [⟨6, 7, 0⟩, ⟨7, 3, 4⟩, ⟨9, 0, 3⟩, ⟨11, 4, 7⟩] := by
  rfl

theorem chainTour_rows (showTime : ℚ → String) :
    chainBuilder.getTourOutput showTime chainTour false
        = .ok [⟨"Start", "Line", "Destination", "Time (m)"⟩, ⟨"A", "L", "D", showTime 11⟩,
            ⟨"D", CHANGE_NAME, "D", showTime 16⟩, ⟨"D", "L", "A", showTime 27⟩,
            ⟨"A", CHANGE_NAME, "A", showTime 32⟩] ∧
      chainBuilder.getTourOutput showTime chainTour true
        = .ok [⟨"Start", "Line", "Destination", "Time (m)"⟩, ⟨"A", "L", "D", showTime 11⟩,
            ⟨"D", "L", "A", showTime 27⟩, ⟨"A", CHANGE_NAME, "A", showTime 32⟩] := by
  obtain ⟨n0, n3, n4, n7, a9, a7, a11, a6, d9, d7, d11, d6⟩ := chainBuilder_names
  have t1 : (0 : ℚ) + 11 = 11 := by norm_num
  have t2 : (11 : ℚ) + 5 = 16 := by norm_num
  have t3 : (16 : ℚ) + 11 = 27 := by norm_num
  have t4 : (27 : ℚ) + 5 = 32 := by norm_num
  have c1 : ("L" : String) ≠ CHANGE_NAME := by decide
  have c2 : (CHANGE_NAME : String) ≠ "L" := by decide
  have c3 : ("Line" : String) ≠ CHANGE_NAME := by decide
  constructor
  · simp [getTourOutput, tourRows, chainTour, n0, n3, n4, n7, a9, a7, a11, a6, d9, d7, d11, d6,
      t1, t2, t3, t4]
  · simp [getTourOutput, tourRows, chainTour, eraseChanges, n0, n3, n4, n7, a9, a7, a11, a6,
      d9, d7, d11, d6, t1, t2, t3, t4, c1, c2, c3]

/-- C40: the member `_nodes_removed` is `false` in every builder the constructor
returns, so `printTour` never replaces the argument `compact`. For the single
line `A`, `B`, `C`, `D` in segment mode preprocessing removes the nodes 1, 2, 5
and 6; for the tour `A` to `D`, change, `D` to `A`, change of the preprocessed
graph the call with `compact = false` prints the four rows of the arcs, while
the compact output has three rows, and the two outputs differ. -/
theorem printTour_compact_not_forced :
    (∀ (stations : t_stationmap) (lines : t_linemap) (cc sc : ℚ) (type : ProblemType)
        (preprocess : Bool) (b : GraphBuilder),
        GraphBuilder.new stations lines cc sc type preprocess = .ok b →
          b._nodes_removed = false) ∧
      GraphBuilder.new chainStations chainLines 5 5 .SEGMENT true = .ok chainBuilder ∧
      chainSpecial.preprocessGraph .SEGMENT = .ok chainBuilder ∧
      chainSpecial._g.nodes = [0, 1, 2, 3, 4, 5, 6, 7] ∧
      chainBuilder._g.nodes = [0, 3, 4, 7] ∧
      (∀ e ∈ chainTour, e ∈ chainBuilder._g.edges) ∧
      ∀ showTime : ℚ → String,
        chainBuilder.getTourOutput showTime chainTour false
          = .ok [⟨"Start", "Line", "Destination", "Time (m)"⟩, ⟨"A", "L", "D", showTime 11⟩,
              ⟨"D", CHANGE_NAME, "D", showTime 16⟩, ⟨"D", "L", "A", showTime 27⟩,
              ⟨"A", CHANGE_NAME, "A", showTime 32⟩] ∧
        chainBuilder.getTourOutput showTime chainTour true
          = .ok [⟨"Start", "Line", "Destination", "Time (m)"⟩, ⟨"A", "L", "D", showTime 11⟩,
              ⟨"D", "L", "A", showTime 27⟩, ⟨"A", CHANGE_NAME, "A", showTime 32⟩] ∧
        (chainBuilder.printTour showTime chainTour false).toOption.map List.length = some 6 ∧
        (chainBuilder.printTour showTime chainTour true).toOption.map List.length = some 5 ∧
        chainBuilder.printTour showTime chainTour false
          ≠ chainBuilder.printTour showTime chainTour true := by
  refine ⟨new_nodes_removed, chainBuilder_new, by rfl, by rfl, by rfl, ?_, ?_⟩
  · rw [chainBuilder_edges]
    decide
  · intro showTime
    obtain ⟨r1, r2⟩ := chainTour_rows showTime
    have hrem : chainBuilder._nodes_removed = false :=
      new_nodes_removed _ _ _ _ _ _ _ chainBuilder_new
    have k1 : (chainBuilder.printTour showTime chainTour false).toOption.map List.length
        = some 6 := by
      simp only [printTour, hrem, Bool.false_eq_true, if_false, r1, chainBuilder_edges]
      simp [chainTour, Except.toOption]
    have k2 : (chainBuilder.printTour showTime chainTour true).toOption.map List.length
        = some 5 := by
      simp only [printTour, hrem, Bool.false_eq_true, if_false, r2, chainBuilder_edges]
      simp [chainTour, Except.toOption]
    refine ⟨r1, r2, k1, k2, ?_⟩
    intro heq
    rw [heq, k2] at k1
    exact absurd k1 (by decide)

end PrintTour
/-! ## Theorems: the arcs of the graph before and after preprocessing -/

section ArcsKept

open GraphBuilder

theorem allLineArcs_forall (arcsOf : Line → Nat → Nat → List ArcRecord)
    (Q : Line → ArcRecord → Prop)
    (h : ∀ line n0 e0, ∀ r ∈ arcsOf line n0 e0, Q line r) (lines : t_linemap) :
    ∀ n0 e0, ∀ r ∈ allLineArcs arcsOf lines n0 e0, ∃ it ∈ lines, Q it.2 r := by
  induction lines with
  | nil => intro n0 e0 r hr; simp [allLineArcs] at hr
  | cons it rest ih =>
    intro n0 e0 r hr
    simp only [allLineArcs, List.mem_append] at hr
    rcases hr with h1 | h1
    · exact ⟨it, List.mem_cons_self _ _, h _ _ _ r h1⟩
    · obtain ⟨it2, hit2, hq⟩ := ih _ _ r h1
      exact ⟨it2, List.mem_cons_of_mem _ hit2, hq⟩

/-- A travel arc carries the name of its line, leads from a node to the next
one and costs a delta of the times of the line. -/
theorem travelArcs_lines (lines : t_linemap) :
    ∀ r ∈ travelArcs lines, ∃ it ∈ lines, r.label = it.2.name ∧ r.tgt = r.src + 1 ∧
      r.connection = false ∧ (it.2.DeltasPositive → 0 < r.cost) := by
  intro r hr
  rw [travelArcs, List.mem_append] at hr
  rcases hr with h1 | h1
  · refine allLineArcs_forall forwardArcs
      (fun line r => r.label = line.name ∧ r.tgt = r.src + 1 ∧ r.connection = false ∧
        (line.DeltasPositive → 0 < r.cost)) ?_ lines 0 0 r h1
    intro line n0 e0 r hr
    simp only [forwardArcs, List.mem_map, List.mem_range] at hr
    obtain ⟨k, hk, rfl⟩ := hr
    refine ⟨rfl, rfl, rfl, ?_⟩
    intro hpos
    have := hpos (k + 1) (by omega) (by omega)
    show (0 : ℚ) < ((line.delta (k + 1) : Int) : ℚ)
    exact_mod_cast this
  · refine allLineArcs_forall reverseArcs
      (fun line r => r.label = line.name ∧ r.tgt = r.src + 1 ∧ r.connection = false ∧
        (line.DeltasPositive → 0 < r.cost)) ?_ lines _ _ r h1
    intro line n0 e0 r hr
    simp only [reverseArcs, List.mem_map, List.mem_range] at hr
    obtain ⟨k, hk, rfl⟩ := hr
    refine ⟨rfl, rfl, rfl, ?_⟩
    intro hpos
    have := hpos (line.stations.length - 1 - k) (by omega) (by omega)
    show (0 : ℚ) < ((line.delta (line.stations.length - 1 - k) : Int) : ℚ)
    exact_mod_cast this

/-- The arcs without connection flag of the graph before preprocessing are the
travel arcs, with the attributes of their records. -/
theorem specialGraph_travel (stations : t_stationmap) (lines : t_linemap) (cc sc : ℚ)
    (type : ProblemType) (preprocess : Bool) (b1 : GraphBuilder) (way back : NodeMap)
    (b2 : GraphBuilder)
    (h1 : createNodesAndTravelArcs (init stations lines cc sc) (fun _ _ => none)
      (fun _ _ => none) = .ok (b1, way, back))
    (h2 : b1.addSpecialArcs way back type preprocess = .ok b2) :
    ∀ e ∈ b2._g.edges, b2._connection_arcs e.id = false →
      ∃ it ∈ lines, b2._arc_names e.id = it.2.name ∧ e.tgt = e.src + 1 ∧
        0 < b2._dist e.id := by
  obtain ⟨g1, g2, g3, g4, g5, g6, g7⟩ := createNodesAndTravelArcs_sound _ _ _ _ _ _ h1
    (sound_init stations lines cc sc) (mapIn_empty _) (mapIn_empty _)
  obtain ⟨switches, calls, -, -, k3, -, -⟩ :=
    addSpecialArcs_trace b1 way back type preprocess b2 g1 g2 g3 h2
  obtain ⟨-, -, a3, a4⟩ := createNodesAndTravelArcs_nodes _ _ _ _ _ _ _ h1
  obtain ⟨s1, s2, s3, s4, s5, -⟩ := special_shape b1 b1._switch_cost b1._change_cost switches
    (calls.filter (transferGuard (b1.addArcs b1._switch_cost switches)))
  rw [← k3] at s1 s2 s3 s4 s5
  have hpos : ∀ it ∈ lines, it.2.DeltasPositive :=
    ((createNodesAndTravelArcs_ok_iff (init stations lines cc sc) (fun _ _ => none)
      (fun _ _ => none) (sound_init stations lines cc sc) (mapIn_empty _)).1).1 ⟨_, h1⟩
  intro e he hflag
  rw [s1] at he
  have he1 : e ∈ b1._g.edges := by
    rcases List.mem_append.1 he with h | h
    · rcases List.mem_append.1 h with h | h
      · exact h
      · obtain ⟨-, hlo, hhi⟩ := pair_of_mem_arcsFrom _ _ _ h
        rw [(s2 e.id hlo hhi).2] at hflag
        exact absurd hflag (by simp)
    · obtain ⟨-, hlo, hhi⟩ := pair_of_mem_arcsFrom _ _ _ h
      rw [(s3 e.id hlo hhi).2] at hflag
      exact absurd hflag (by simp)
  have hlt : e.id < b1._g.nextEdge := g1.1.2 e he1
  have hr : (⟨e.id, e.src, e.tgt, b1._dist e.id, b1._arc_names e.id,
      b1._connection_arcs e.id⟩ : ArcRecord) ∈ b1.arcRecords :=
    List.mem_map.2 ⟨e, he1, rfl⟩
  rw [a3] at hr
  obtain ⟨it, hit, q1, q2, -, q4⟩ := travelArcs_lines lines _ hr
  refine ⟨it, hit, ?_, q2, ?_⟩
  · rw [s5]; exact q1
  · rw [(s4 e.id hlt).1]; exact q4 (hpos it hit)

/-- The graph before preprocessing, built from a valid network of lines with at
least two stops, has the facts of `ArcsOk`. -/
theorem arcsOk_special (stations : t_stationmap) (lines : t_linemap) (cc sc : ℚ)
    (type : ProblemType) (preprocess : Bool) (b1 : GraphBuilder) (way back : NodeMap)
    (b2 : GraphBuilder) (hv : ValidNetwork stations lines)
    (hlen : ∀ it ∈ lines, 2 ≤ it.2.stations.length)
    (h1 : createNodesAndTravelArcs (init stations lines cc sc) (fun _ _ => none)
      (fun _ _ => none) = .ok (b1, way, back))
    (h2 : b1.addSpecialArcs way back type preprocess = .ok b2) :
    ArcsOk lines b2 := by
  obtain ⟨hb1, ht, -, -⟩ := createNodesAndTravelArcs_spec stations lines cc sc hv b1 way back h1
  obtain ⟨hg, -⟩ := addSpecialArcs_spec hb1 ht.maps type preprocess h2
  obtain ⟨switches, calls, -, -, -, -, -, -, -, -, k9, k10⟩ :=
    specialGraph_spec stations lines cc sc type preprocess b1 way back b2 h1 h2
  have htr := specialGraph_travel stations lines cc sc type preprocess b1 way back b2 h1 h2
  refine ⟨k9, k10, ?_, ?_⟩
  · intro e he
    rcases hg.base.arcs e he with ⟨c1, c2, -⟩ | ⟨c1, c2, c3⟩
    · obtain ⟨it, hit, q1, q2, q3⟩ := htr e he c1
      exact Or.inl ⟨c1, c2, ⟨it, hit, q1⟩, q3, by omega⟩
    · exact Or.inr ⟨c1, c2, c3⟩
  · intro n hn
    have hn2 : n < b1._g.nextNode := by
      rw [← hg.same.nextNode]
      exact (hg.base.node_lt n).1 hn
    obtain ⟨it, hit, S, hS, hwb⟩ := ht.reg n hn2
    obtain ⟨w, k, hw, hk, hfacts⟩ := ht.pair it hit S hS
    obtain ⟨-, -, hw3, hk3⟩ := hfacts (hlen it hit)
    have hio : b1.HasIn n ∨ b1.HasOut n := by
      rcases hwb with h | h
      · rw [hw] at h; simp only [Option.some.injEq] at h; subst h; exact hw3
      · rw [hk] at h; simp only [Option.some.injEq] at h; subst h; exact hk3
    rcases hio with h | h
    · obtain ⟨e, he, htgt, hc⟩ := hasIn_ext hb1 hg.ext h
      exact ⟨e, he, Or.inr htgt, hc⟩
    · obtain ⟨e, he, hsrc, hc⟩ := hasOut_ext hb1 hg.ext h
      exact ⟨e, he, Or.inl hsrc, hc⟩

theorem mem_contractNode_edges (b : GraphBuilder) (v : Nat) (ein eout e : Edge) :
    e ∈ (b.contractNode v ein eout)._g.edges ↔
      (e ∈ b._g.edges ∨ e = Edge.mk b._g.nextEdge ein.src eout.tgt) ∧ e.src ≠ v ∧ e.tgt ≠ v := by
  rw [contractNode_edges]
  simp only [List.mem_filter, List.mem_append, List.mem_singleton, Bool.and_eq_true,
    bne_iff_ne, ne_eq]

theorem mem_contractNode_nodes (b : GraphBuilder) (v : Nat) (ein eout : Edge) (n : Nat) :
    n ∈ (b.contractNode v ein eout)._g.nodes ↔ n ∈ b._g.nodes ∧ n ≠ v := by
  rw [contractNode_nodes]
  simp only [List.mem_filter, bne_iff_ne, ne_eq]

/-- The two arcs of a contracted node have no connection flag. -/
theorem arcsOk_chain_arcs {lines : t_linemap} {b : GraphBuilder} (hok : ArcsOk lines b)
    (n : Nat) (ein eout : Edge) (hin : b._g.inEdges n = [ein]) (hout : b._g.outEdges n = [eout])
    (hname : b._arc_names ein.id = b._arc_names eout.id) :
    b._connection_arcs ein.id = false ∧ b._connection_arcs eout.id = false := by
  obtain ⟨hein, htgt⟩ := mem_of_inEdges b n ein hin
  obtain ⟨heout, hsrc⟩ := mem_of_outEdges b n eout hout
  have hn : n ∈ b._g.nodes := by rw [← htgt]; exact (hok.closed ein hein).2
  obtain ⟨e, he, hinc, hc⟩ := hok.travel n hn
  have hcase : e = ein ∨ e = eout := by
    rcases hinc with h | h
    · exact Or.inr (eq_out_of_src b n eout e hout he h)
    · exact Or.inl (eq_in_of_tgt b n ein e hin he h)
  have key : ∀ x y : Edge, x ∈ b._g.edges → y ∈ b._g.edges →
      b._arc_names x.id = b._arc_names y.id → b._connection_arcs x.id = false →
      b._connection_arcs y.id = false := by
    intro x y hx hy hxy hcx
    rcases hok.arcs x hx with ⟨-, x2, -⟩ | ⟨x1, -⟩
    · rcases hok.arcs y hy with ⟨y1, -⟩ | ⟨-, y2, -⟩
      · exact y1
      · exact absurd (hxy.trans y2) x2
    · rw [x1] at hcx; exact absurd hcx (by simp)
  rcases hcase with rfl | rfl
  · exact ⟨hc, key _ _ hein heout hname hc⟩
  · exact ⟨key _ _ heout hein hname.symm hc, hc⟩

/-- One round of the loop of `preprocessGraph` keeps the facts of `ArcsOk`. -/
theorem arcsOk_contractNode {lines : t_linemap} {b : GraphBuilder} (hok : ArcsOk lines b)
    (n : Nat) (ein eout : Edge) (hin : b._g.inEdges n = [ein]) (hout : b._g.outEdges n = [eout])
    (hname : b._arc_names ein.id = b._arc_names eout.id) :
    ArcsOk lines (b.contractNode n ein eout) := by
  obtain ⟨hein, htgt⟩ := mem_of_inEdges b n ein hin
  obtain ⟨heout, hsrc⟩ := mem_of_outEdges b n eout hout
  obtain ⟨fin, fout⟩ := arcsOk_chain_arcs hok n ein eout hin hout hname
  have ain : b._arc_names ein.id ≠ CHANGE_NAME ∧ (∃ it ∈ lines, b._arc_names ein.id = it.2.name) ∧
      0 < b._dist ein.id ∧ ein.src < ein.tgt := by
    rcases hok.arcs ein hein with ⟨-, x2, x3, x4, x5⟩ | ⟨x1, -⟩
    · exact ⟨x2, x3, x4, x5⟩
    · rw [x1] at fin; exact absurd fin (by simp)
  have aout : 0 < b._dist eout.id ∧ eout.src < eout.tgt := by
    rcases hok.arcs eout heout with ⟨-, -, -, x4, x5⟩ | ⟨x1, -⟩
    · exact ⟨x4, x5⟩
    · rw [x1] at fout; exact absurd fout (by simp)
  have hnew : Edge.mk b._g.nextEdge ein.src eout.tgt ∈ (b.contractNode n ein eout)._g.edges := by
    rw [mem_contractNode_edges]
    refine ⟨Or.inr rfl, ?_, ?_⟩
    · show ein.src ≠ n
      have := ain.2.2.2
      omega
    · show eout.tgt ≠ n
      have := aout.2
      omega
  refine ⟨freshIds_contractNode b n ein eout hok.fresh,
    closed_contractNode b n ein eout hok.closed hein heout, ?_, ?_⟩
  · intro e he
    rw [mem_contractNode_edges] at he
    rcases he.1 with h | h
    · obtain ⟨o1, o2, o3⟩ := contractNode_old b n ein eout e.id (hok.fresh e h)
      rw [o1, o2, o3]
      exact hok.arcs e h
    · subst h
      left
      refine ⟨by simp [contractNode], ?_, ?_, ?_, ?_⟩
      · simpa [contractNode] using ain.1
      · simpa [contractNode] using ain.2.1
      · have : (b.contractNode n ein eout)._dist b._g.nextEdge =
            b._dist ein.id + b._dist eout.id := by simp [contractNode]
        show 0 < (b.contractNode n ein eout)._dist b._g.nextEdge
        rw [this]
        exact add_pos ain.2.2.1 aout.1
      · show ein.src < eout.tgt
        have := ain.2.2.2
        have := aout.2
        omega
  · intro m hm
    rw [mem_contractNode_nodes] at hm
    obtain ⟨e, he, hinc, hc⟩ := hok.travel m hm.1
    by_cases hs : e.src = n
    · have := eq_out_of_src b n eout e hout he hs
      subst this
      have hm2 : e.tgt = m := by
        rcases hinc with h | h
        · exact absurd (h.symm.trans hs) hm.2
        · exact h
      exact ⟨_, hnew, Or.inr hm2, by simp [contractNode]⟩
    · by_cases ht : e.tgt = n
      · have := eq_in_of_tgt b n ein e hin he ht
        subst this
        have hm2 : e.src = m := by
          rcases hinc with h | h
          · exact h
          · exact absurd (h.symm.trans ht) hm.2
        exact ⟨_, hnew, Or.inl hm2, by simp [contractNode]⟩
      · refine ⟨e, (mem_contractNode_edges _ _ _ _ _).2 ⟨Or.inl he, hs, ht⟩, hinc, ?_⟩
        rw [(contractNode_old b n ein eout e.id (hok.fresh e he)).2.2]
        exact hc

theorem after_refl (b : GraphBuilder) (hf : b.FreshIds) : After b b :=
  ⟨le_refl _, fun _ _ => ⟨rfl, rfl, rfl⟩, fun _ he _ => he,
    fun e he hle => absurd (hf e he) (Nat.not_lt.2 hle),
    fun _ he _ _ => he, rfl, fun _ hn => hn⟩

/-- One round of the loop of `preprocessGraph` keeps the relation to the graph
before preprocessing. -/
theorem after_contractNode {b2 b : GraphBuilder} (ha : After b2 b) (hf : b.FreshIds)
    (n : Nat) (ein eout : Edge) : After b2 (b.contractNode n ein eout) := by
  refine ⟨?_, ?_, ?_, ?_, ?_, ha.node_names, ?_⟩
  · show b2._g.nextEdge ≤ b._g.nextEdge + 1
    have := ha.nextEdge_le
    omega
  · intro i hi
    obtain ⟨o1, o2, o3⟩ := contractNode_old b n ein eout i (Nat.lt_of_lt_of_le hi ha.nextEdge_le)
    rw [o1, o2, o3]
    exact ha.old i hi
  · intro e he hlt
    rw [mem_contractNode_edges] at he
    rcases he.1 with h | h
    · exact ha.old_edges e h hlt
    · subst h
      have := ha.nextEdge_le
      simp only at hlt
      omega
  · intro e he hle
    rw [mem_contractNode_edges] at he
    rcases he.1 with h | h
    · rw [(contractNode_old b n ein eout e.id (hf e h)).2.2]
      exact ha.new_flags e h hle
    · subst h
      simp [contractNode]
  · intro e he hs ht
    rw [mem_contractNode_nodes] at hs ht
    exact (mem_contractNode_edges _ _ _ _ _).2 ⟨Or.inl (ha.kept e he hs.1 ht.1), hs.2, ht.2⟩
  · intro m hm
    rw [mem_contractNode_nodes] at hm
    exact ha.nodes m hm.1

/-- The graph built from a valid network of lines with at least two stops has
the facts of `ArcsOk` and arises from the graph before preprocessing by
contraction of nodes. -/
theorem arcsOk_new (stations : t_stationmap) (lines : t_linemap) (cc sc : ℚ)
    (type : ProblemType) (preprocess : Bool) (b : GraphBuilder)
    (hv : ValidNetwork stations lines) (hlen : ∀ it ∈ lines, 2 ≤ it.2.stations.length)
    (h : GraphBuilder.new stations lines cc sc type preprocess = .ok b) :
    ∃ (b1 : GraphBuilder) (way back : NodeMap) (b2 : GraphBuilder),
      createNodesAndTravelArcs (init stations lines cc sc) (fun _ _ => none) (fun _ _ => none)
        = .ok (b1, way, back) ∧
      b1.addSpecialArcs way back type preprocess = .ok b2 ∧
      (if preprocess then b2.preprocessGraph type = .ok b else b = b2) ∧
      ArcsOk lines b2 ∧ ArcsOk lines b ∧ After b2 b := by
  obtain ⟨b1, way, back, b2, h1, h2, h3, -⟩ := new_phases stations lines cc sc type preprocess b h
  have hok2 := arcsOk_special stations lines cc sc type preprocess b1 way back b2 hv hlen h1 h2
  refine ⟨b1, way, back, b2, h1, h2, h3, hok2, ?_⟩
  cases preprocess with
  | false =>
    simp only [Bool.false_eq_true, if_false] at h3
    subst h3
    exact ⟨hok2, after_refl _ hok2.fresh⟩
  | true =>
    simp only [if_true] at h3
    obtain ⟨chains, b4, red, -, hrem, rfl⟩ := preprocessGraph_inv b2 b type h3
    have key := removeChains_keeps (fun x => ArcsOk lines x ∧ After b2 x)
      (fun x n ein eout hp hin hout hname =>
        ⟨arcsOk_contractNode hp.1 n ein eout hin hout hname,
          after_contractNode hp.2 hp.1.fresh n ein eout⟩)
      type chains (b2, []) (b4, red) hrem ⟨hok2, after_refl _ hok2.fresh⟩
    exact ⟨⟨key.1.fresh, key.1.closed, key.1.arcs, key.1.travel⟩,
      ⟨key.2.nextEdge_le, key.2.old, key.2.old_edges, key.2.new_flags, key.2.kept,
        key.2.node_names, key.2.nodes⟩⟩

end ArcsKept
/-! ## Theorems: connection arcs, their labels and their clusters -/

section ConnectionFlags

open GraphBuilder

theorem wayLoop_keeps (P : GraphBuilder → Prop)
    (hnode : ∀ (b : GraphBuilder) (s : String), P b → P (b.addStationNode s).1)
    (harc : ∀ (b : GraphBuilder) (l : String) (times : List Nat) (last : Option Nat)
      (cur hi lo : Nat) (b' : GraphBuilder), P b →
      b.addTravelArc l times last cur hi lo = .ok b' → P b')
    (lineName : String) (times : List Nat) (l : List String) :
    ∀ (k : Nat) (last : Option Nat) (st r : GraphBuilder × NodeMap),
      wayLoop lineName times l k last st = .ok r → P st.1 → P r.1 := by
  induction l with
  | nil =>
    intro k last st r h hp
    simp only [wayLoop, Except.ok.injEq] at h
    rw [← h]; exact hp
  | cons station rest ih =>
    intro k last st r h hp
    obtain ⟨b, m⟩ := st
    simp only [wayLoop] at h
    split at h
    · exact absurd h (by simp)
    · rename_i b2 h2
      exact ih _ _ _ _ h (harc _ _ _ _ _ _ _ _ (hnode b station hp) h2)

theorem backLoop_keeps (P : GraphBuilder → Prop)
    (hnode : ∀ (b : GraphBuilder) (s : String), P b → P (b.addStationNode s).1)
    (harc : ∀ (b : GraphBuilder) (l : String) (times : List Nat) (last : Option Nat)
      (cur hi lo : Nat) (b' : GraphBuilder), P b →
      b.addTravelArc l times last cur hi lo = .ok b' → P b')
    (lineName : String) (times : List Nat) (l : List String) :
    ∀ (k : Int) (last : Option Nat) (st r : GraphBuilder × NodeMap),
      backLoop lineName times l k last st = .ok r → P st.1 → P r.1 := by
  induction l with
  | nil =>
    intro k last st r h hp
    simp only [backLoop, Except.ok.injEq] at h
    rw [← h]; exact hp
  | cons station rest ih =>
    intro k last st r h hp
    obtain ⟨b, m⟩ := st
    simp only [backLoop] at h
    split at h
    · exact absurd h (by simp)
    · rename_i b2 h2
      exact ih _ _ _ _ h (harc _ _ _ _ _ _ _ _ (hnode b station hp) h2)

/-- A fact that the creation of a node and the creation of a travel arc keep
holds after `createNodesAndTravelArcs`. -/
theorem createNodesAndTravelArcs_keeps (P : GraphBuilder → Prop)
    (hnode : ∀ (b : GraphBuilder) (s : String), P b → P (b.addStationNode s).1)
    (harc : ∀ (b : GraphBuilder) (l : String) (times : List Nat) (last : Option Nat)
      (cur hi lo : Nat) (b' : GraphBuilder), P b →
      b.addTravelArc l times last cur hi lo = .ok b' → P b')
    (b : GraphBuilder) (way back : NodeMap) (r : GraphBuilder × NodeMap × NodeMap)
    (h : createNodesAndTravelArcs b way back = .ok r) (hp : P b) : P r.1 := by
  have hway : ∀ (ls : t_linemap) (st r : GraphBuilder × NodeMap),
      wayLines ls st = .ok r → P st.1 → P r.1 := by
    intro ls
    induction ls with
    | nil =>
      intro st r h hp
      simp only [wayLines, Except.ok.injEq] at h
      rw [← h]; exact hp
    | cons it rest ih =>
      intro st r h hp
      simp only [wayLines] at h
      split at h
      · exact absurd h (by simp)
      · rename_i st1 h1
        exact ih _ _ h (wayLoop_keeps P hnode harc _ _ _ _ _ _ _ h1 hp)
  have hback : ∀ (ls : t_linemap) (st r : GraphBuilder × NodeMap),
      backLines ls st = .ok r → P st.1 → P r.1 := by
    intro ls
    induction ls with
    | nil =>
      intro st r h hp
      simp only [backLines, Except.ok.injEq] at h
      rw [← h]; exact hp
    | cons it rest ih =>
      intro st r h hp
      simp only [backLines] at h
      split at h
      · exact absurd h (by simp)
      · rename_i st1 h1
        exact ih _ _ h (backLoop_keeps P hnode harc _ _ _ _ _ _ _ h1 hp)
  simp only [createNodesAndTravelArcs] at h
  split at h
  · exact absurd h (by simp)
  · rename_i bw way1 hw
    split at h
    · exact absurd h (by simp)
    · rename_i bk back1 hk
      simp only [Except.ok.injEq] at h
      rw [← h]
      exact hback _ (bw, back) (bk, back1) hk (hway _ (b, way) (bw, way1) hw hp)

/-- After `createNodesAndTravelArcs` the label of an arc that does not exist yet
is the reserved label, the value the label array is initialised with. -/
theorem createNodesAndTravelArcs_unset (stations : t_stationmap) (lines : t_linemap)
    (cc sc : ℚ) (b : GraphBuilder) (way back : NodeMap)
    (h : createNodesAndTravelArcs (init stations lines cc sc) (fun _ _ => none)
      (fun _ _ => none) = .ok (b, way, back)) :
    ∀ i, b._g.nextEdge ≤ i → b._arc_names i = CHANGE_NAME := by
  refine createNodesAndTravelArcs_keeps
    (fun x => ∀ i, x._g.nextEdge ≤ i → x._arc_names i = CHANGE_NAME) ?_ ?_ _ _ _ _ h ?_
  · intro x s hp i hi
    exact hp i hi
  · intro x l times last cur hi lo x' hp hx
    unfold addTravelArc at hx
    split at hx
    · simp only [Except.ok.injEq] at hx
      rw [← hx]; exact hp
    · simp only at hx
      split at hx
      · exact absurd hx (by simp)
      · simp only [Except.ok.injEq] at hx
        rw [← hx]
        intro i hi
        have hi2 : x._g.nextEdge + 1 ≤ i := hi
        show (if i = x._g.nextEdge then l else x._arc_names i) = CHANGE_NAME
        rw [if_neg (by omega)]
        exact hp i (by omega)
  · intro i _
    rfl

/-- Two nodes of the graph with the same name lie in the same cluster of the
cleaned cluster index. -/
theorem mem_cluster_of_name (b : GraphBuilder) (hs : Sound b) (red : List Nat)
    (p : String × List Nat) (hp : p ∈ cleanStations red b._station_nodes) (u v : Nat)
    (hu : u ∈ p.2) (hv : v ∈ b._g.nodes) (hvr : v ∉ red)
    (hname : b._node_names u = b._node_names v) : v ∈ p.2 := by
  obtain ⟨hF, -, hB⟩ := hs
  obtain ⟨-, q, hq, rfl⟩ := (mem_cleanStations red _ p).1 hp
  have hcl : ∀ n, n ∈ q.2 ↔ (n < b._g.nextNode ∧ b._node_names n = q.1) :=
    (hB.clusters q hq).2.2
  simp only [List.mem_filter, decide_eq_true_eq] at hu ⊢
  have hu2 := (hcl u).1 hu.1
  exact ⟨(hcl v).2 ⟨(hF.1 v).1 hv, by rw [← hname]; exact hu2.2⟩, hvr⟩

/-- The facts about the connection arcs of a graph that arises from the graph
before preprocessing by removal of the nodes `red`. -/
theorem connection_clusters (b2 b : GraphBuilder) (red : List Nat) (hs : Sound b2)
    (hc : b.Closed)
    (hnodes : b._g.nodes = b2._g.nodes.filter (fun n => decide (n ∉ red)))
    (hsn : b._station_nodes = cleanStations red b2._station_nodes)
    (hnames : b._node_names = b2._node_names)
    (hconn : ∀ e ∈ b._g.edges, b._connection_arcs e.id = true →
      b._node_names e.src = b._node_names e.tgt) :
    (∀ e ∈ b._g.edges, b._connection_arcs e.id = true →
      ∃ p ∈ b._station_nodes, e.src ∈ p.2 ∧ e.tgt ∈ p.2) ∧
    NoConnectionLeaves b._g b._station_nodes b._connection_arcs ∧
    ∃ m ev, createCplexModel b._g b._dist b._station_nodes b._connection_arcs = .ok (m, ev) := by
  have hmem : ∀ n, n ∈ b._g.nodes ↔ n ∈ b2._g.nodes ∧ n ∉ red := by
    intro n
    rw [hnodes]
    simp only [List.mem_filter, decide_eq_true_eq]
  have hleaves : NoConnectionLeaves b._g b._station_nodes b._connection_arcs := by
    intro p hp e he hsrc htgt
    by_contra hflag
    have hflag' : b._connection_arcs e.id = true := by simpa using hflag
    have hn := hconn e he hflag'
    rw [hnames] at hn
    rw [hsn] at hp
    have ht := (hmem e.tgt).1 (hc e he).2
    exact htgt (mem_cluster_of_name b2 hs red p hp e.src e.tgt hsrc ht.1 ht.2 hn)
  refine ⟨?_, hleaves, ?_⟩
  · intro e he hflag
    obtain ⟨-, -, c3, -⟩ := clusters_after_removal b2 hs red
    have hsrc : e.src ∈ b2._g.nodes.filter (fun n => decide (n ∉ red)) := by
      rw [← hnodes]; exact (hc e he).1
    obtain ⟨p, hp, hsp, -⟩ := c3 e.src hsrc
    have hn := hconn e he hflag
    rw [hnames] at hn
    have ht := (hmem e.tgt).1 (hc e he).2
    refine ⟨p, by rw [hsn]; exact hp, hsp, ?_⟩
    exact mem_cluster_of_name b2 hs red p hp e.src e.tgt hsp ht.1 ht.2 hn
  · simp only [createCplexModel, createCoverage_ok _ _ _ _ hleaves]
    exact ⟨_, _, rfl⟩

/-- In the graph built without preprocessing a connection arc carries the
reserved label and joins two nodes named after the same station, whatever the
network. -/
theorem specialGraph_connection (stations : t_stationmap) (lines : t_linemap) (cc sc : ℚ)
    (type : ProblemType) (b1 : GraphBuilder) (way back : NodeMap) (b2 : GraphBuilder)
    (h1 : createNodesAndTravelArcs (init stations lines cc sc) (fun _ _ => none)
      (fun _ _ => none) = .ok (b1, way, back))
    (h2 : b1.addSpecialArcs way back type false = .ok b2) :
    ∀ e ∈ b2._g.edges, b2._connection_arcs e.id = true →
      b2._arc_names e.id = CHANGE_NAME ∧ b2._node_names e.src = b2._node_names e.tgt := by
  obtain ⟨g1, g2, g3, -⟩ := createNodesAndTravelArcs_sound _ _ _ _ _ _ h1
    (sound_init stations lines cc sc) (mapIn_empty _) (mapIn_empty _)
  obtain ⟨sw0, calls0, -, -, t3, -, -⟩ :=
    addSpecialArcs_trace b1 way back type false b2 g1 g2 g3 h2
  obtain ⟨-, -, -, -, s5, -⟩ := special_shape b1 b1._switch_cost b1._change_cost sw0
    (calls0.filter (transferGuard (b1.addArcs b1._switch_cost sw0)))
  rw [← t3] at s5
  obtain ⟨-, -, -, a4⟩ := createNodesAndTravelArcs_nodes _ _ _ _ _ _ _ h1
  have hunset := createNodesAndTravelArcs_unset stations lines cc sc b1 way back h1
  obtain ⟨switches, calls, k1, k2, k3, -, -, k6, k7, k8, -, -⟩ :=
    specialGraph_spec stations lines cc sc type false b1 way back b2 h1 h2
  have hplan : switches.map somePair = allSwitchingPlan way back lines := by
    rw [k1]; simp [switchingPlan]
  intro e he hflag
  have hid : ¬ e.id < 2 * totalSegments lines := by
    intro hlt
    have := (k6 e he).2 hlt
    rw [this] at hflag
    exact absurd hflag (by simp)
  refine ⟨?_, ?_⟩
  · rw [s5]
    exact hunset e.id (by rw [a4]; omega)
  · have hnm : ∀ (n : Nat) (l s : String), (some n = way l s ∨ some n = back l s) →
        b2._node_names n = s := by
      intro n l s hn
      rcases hn with hn | hn
      · exact (k7 l s n hn.symm).2.2.1
      · exact (k8 l s n hn.symm).2.2.1
    rw [k3] at he
    rcases List.mem_append.1 he with he | he
    · rcases List.mem_append.1 he with he | he
      · exfalso
        apply hid
        have he1 : e ∈ b1._g.edges := by
          rw [← arcRecords_toEdge]
          obtain ⟨-, -, a3, -⟩ := createNodesAndTravelArcs_nodes _ _ _ _ _ _ _ h1
          rw [a3]
          exact he
        have := g1.1.2 e he1
        rw [a4] at this
        exact this
      · obtain ⟨hmem, -, -⟩ := pair_of_mem_arcsFrom _ _ _ he
        have hq : somePair (e.src, e.tgt) ∈ allSwitchingPlan way back lines := by
          rw [← hplan]
          exact List.mem_map_of_mem _ hmem
        obtain ⟨it, -, s, -, hq⟩ := (mem_allSwitchingPlan _ _ _ _).1 hq
        simp only [somePair, Prod.mk.injEq] at hq
        rcases hq with ⟨q1, q2⟩ | ⟨q1, q2⟩
        · rw [hnm e.src _ s (Or.inl q1), hnm e.tgt _ s (Or.inr q2)]
        · rw [hnm e.src _ s (Or.inr q1), hnm e.tgt _ s (Or.inl q2)]
    · obtain ⟨hmem, -, -⟩ := pair_of_mem_arcsFrom _ _ _ he
      have hq : somePair (e.src, e.tgt) ∈ transferPlan way back stations := by
        rw [← k2]
        exact List.mem_map_of_mem _ (List.mem_of_mem_filter hmem)
      obtain ⟨st, -, p, -, hqp⟩ := (mem_transferPlan _ _ _ _).1 hq
      simp only [somePair] at hqp
      have hside : ∀ (n : Nat) (a c : String),
          some n ∈ [way a st.2.name, back a st.2.name] ∨
            some n ∈ [way c st.2.name, back c st.2.name] →
          b2._node_names n = st.2.name := by
        intro n a c hn
        simp only [List.mem_cons, List.mem_singleton, List.not_mem_nil, or_false] at hn
        rcases hn with hn | hn
        · exact hnm n a _ hn
        · exact hnm n c _ hn
      rcases (mem_connectionPairs _ _ _ _ _ _).1 hqp with ⟨m1, m2⟩ | ⟨m1, m2⟩
      · rw [hside e.src p.1 p.2 (Or.inl m1), hside e.tgt p.1 p.2 (Or.inr m2)]
      · rw [hside e.src p.1 p.2 (Or.inr m1), hside e.tgt p.1 p.2 (Or.inl m2)]

end ConnectionFlags
/-! ## Theorems: topological sorting of a union of paths -/

section Topsort

theorem length_le_one_of_all_eq {α : Type} {l : List α} (hnd : l.Nodup)
    (h : ∀ a ∈ l, ∀ c ∈ l, a = c) : l.length ≤ 1 := by
  match l, hnd, h with
  | [], _, _ => simp
  | [_], _, _ => simp
  | a :: c :: rest, hnd, h =>
    have hac : a = c := h a (by simp) c (by simp)
    rw [hac] at hnd
    simp at hnd

theorem StepGraph.outEdges_cases {g : LGraph} (h : StepGraph g) (v : Nat) :
    g.outEdges v = [] ∨ ∃ e, g.outEdges v = [e] ∧ e ∈ g.edges ∧ e.src = v ∧ e.tgt = v + 1 := by
  have hnd : (g.outEdges v).Nodup := h.nodup_edges.filter _
  have hall : ∀ a ∈ g.outEdges v, ∀ c ∈ g.outEdges v, a = c := by
    intro a ha c hc
    have ha' := List.mem_filter.1 ha
    have hc' := List.mem_filter.1 hc
    have h1 : a.src = v := by simpa using ha'.2
    have h2 : c.src = v := by simpa using hc'.2
    exact h.unique a ha'.1 c hc'.1 (h1.trans h2.symm)
  have hlen := length_le_one_of_all_eq hnd hall
  match hl : g.outEdges v, hlen with
  | [], _ => exact Or.inl rfl
  | [e], _ =>
    right
    have he : e ∈ g.outEdges v := by rw [hl]; simp
    have he' := List.mem_filter.1 he
    have h1 : e.src = v := by simpa using he'.2
    exact ⟨e, rfl, he'.1, h1, by rw [h.step e he'.1, h1]⟩

theorem StepGraph.inEdges_eq {g : LGraph} (h : StepGraph g) (e : Edge) (he : e ∈ g.edges) :
    g.inEdges e.tgt = [e] := by
  have hnd : (g.inEdges e.tgt).Nodup := h.nodup_edges.filter _
  have hmem : e ∈ g.inEdges e.tgt := List.mem_filter.2 ⟨he, by simp⟩
  have hall : ∀ a ∈ g.inEdges e.tgt, ∀ c ∈ g.inEdges e.tgt, a = c := by
    intro a ha c hc
    have ha' := List.mem_filter.1 ha
    have hc' := List.mem_filter.1 hc
    have h1 : a.tgt = e.tgt := by simpa using ha'.2
    have h2 : c.tgt = e.tgt := by simpa using hc'.2
    apply h.unique a ha'.1 c hc'.1
    have s1 := h.step a ha'.1
    have s2 := h.step c hc'.1
    omega
  have hlen := length_le_one_of_all_eq hnd hall
  match hl : g.inEdges e.tgt, hlen with
  | [], _ => rw [hl] at hmem; simp at hmem
  | [a], _ =>
    rw [hl] at hmem
    simp only [List.mem_singleton] at hmem
    rw [hmem]

theorem topsortInv_done {g : LGraph} (h : StepGraph g) {fuel : Nat} {INDEG : Nat → Nat}
    {sorted : List Nat} (hi : TopsortInv g fuel [] INDEG sorted) :
    sorted.length = g.nodes.length ∧ sorted.Nodup ∧ (∀ n, n ∈ sorted ↔ n ∈ g.nodes) ∧
      TopOrder g sorted := by
  have hnd : sorted.Nodup := by simpa using hi.nodup
  have hsub : ∀ n ∈ sorted, n ∈ g.nodes := fun n hn => hi.nodes n (by simpa using hn)
  have hall : ∀ n, n ∈ g.nodes → n ∈ sorted := by
    intro n
    induction n using Nat.strong_induction_on with
    | _ n ih =>
      intro hn
      by_cases h0 : g.indeg n = 0
      · simpa using hi.sources n hn h0
      · have hne : g.inEdges n ≠ [] := by
          intro hnil
          apply h0
          simp [LGraph.indeg, hnil]
        obtain ⟨e, he⟩ := List.exists_mem_of_ne_nil _ hne
        have he' := List.mem_filter.1 he
        have ht : e.tgt = n := by simpa using he'.2
        have hs := h.step e he'.1
        have hsrc : e.src ∈ sorted := ih e.src (by omega) (h.closed e he'.1).1
        have := hi.succ e he'.1 hsrc
        rw [ht] at this
        simpa using this
  refine ⟨?_, hnd, fun n => ⟨hsub n, hall n⟩, by simpa using hi.order⟩
  apply Nat.le_antisymm
  · exact (List.subperm_of_subset hnd hsub).length_le
  · exact (List.subperm_of_subset h.nodup_nodes hall).length_le

theorem topsortInv_full {g : LGraph} {queue : List Nat} {INDEG : Nat → Nat}
    {sorted : List Nat} (hi : TopsortInv g 0 queue INDEG sorted) :
    sorted.length = g.nodes.length ∧ sorted.Nodup ∧ (∀ n, n ∈ sorted ↔ n ∈ g.nodes) ∧
      TopOrder g sorted := by
  have hnd : sorted.Nodup := (List.nodup_append.1 hi.nodup).1
  have hsub : ∀ n ∈ sorted, n ∈ g.nodes :=
    fun n hn => hi.nodes n (List.mem_append_left _ hn)
  have hlen : sorted.length = g.nodes.length := by
    have := hi.fuel_eq
    omega
  have hperm : sorted.Subperm g.nodes := List.subperm_of_subset hnd hsub
  have hp : sorted.Perm g.nodes := hperm.perm_of_length_le (by omega)
  refine ⟨hlen, hnd, fun n => hp.mem_iff, ?_⟩
  exact (List.pairwise_append.1 hi.order).1

theorem topsortInv_step {g : LGraph} (h : StepGraph g) {fuel : Nat} {v : Nat}
    {queue : List Nat} {INDEG : Nat → Nat} {sorted : List Nat}
    (hi : TopsortInv g (fuel + 1) (v :: queue) INDEG sorted) :
    TopsortInv g fuel (topsortRelax (g.outEdges v) (INDEG, queue)).2
      (topsortRelax (g.outEdges v) (INDEG, queue)).1 (sorted ++ [v]) := by
  have hlist : sorted ++ [v] ++ queue = sorted ++ v :: queue := by simp
  have hvq : v ∉ sorted := by
    intro hv
    have := (List.nodup_append.1 hi.nodup).2.2
    exact this hv (List.mem_cons_self _ _)
  rcases h.outEdges_cases v with hnil | ⟨e, hout, he, hsrc, htgt⟩
  · rw [hnil]
    simp only [topsortRelax, List.foldl_nil]
    refine ⟨by rw [hlist]; exact hi.nodup, by rw [hlist]; exact hi.nodes,
      by rw [hlist]; exact hi.sources, ?_, ?_, by rw [hlist]; exact hi.counter,
      by rw [hlist]; exact hi.order, ?_⟩
    · intro e' he' hs
      rw [hlist]
      rcases List.mem_append.1 hs with hs | hs
      · exact hi.succ e' he' hs
      · simp only [List.mem_singleton] at hs
        have : e' ∈ g.outEdges v := List.mem_filter.2 ⟨he', by simpa using hs⟩
        rw [hnil] at this
        simp at this
    · intro e' he' ht
      rw [hlist] at ht
      exact List.mem_append_left _ (hi.pred e' he' ht)
    · have := hi.fuel_eq
      simp only [List.length_append, List.length_singleton]
      omega
  · have htn : e.tgt ∉ sorted ++ v :: queue := by
      intro ht
      have := hi.pred e he ht
      rw [hsrc] at this
      exact hvq this
    have hcnt : INDEG e.tgt = 1 := by
      rw [hi.counter e.tgt (h.closed e he).2 htn, LGraph.indeg, h.inEdges_eq e he]
      rfl
    rw [hout]
    simp only [topsortRelax, List.foldl_cons, List.foldl_nil, hcnt, Nat.sub_self, if_true]
    have hlist2 : sorted ++ [v] ++ (queue ++ [e.tgt]) = (sorted ++ v :: queue) ++ [e.tgt] := by
      simp
    refine ⟨?_, ?_, ?_, ?_, ?_, ?_, ?_, ?_⟩
    · rw [hlist2]
      exact List.Nodup.append hi.nodup (List.nodup_singleton _)
        (by
          intro a ha hb
          simp only [List.mem_singleton] at hb
          subst hb
          exact htn ha)
    · rw [hlist2]
      intro n hn
      rcases List.mem_append.1 hn with hn | hn
      · exact hi.nodes n hn
      · simp only [List.mem_singleton] at hn
        rw [hn]
        exact (h.closed e he).2
    · rw [hlist2]
      intro n hn h0
      exact List.mem_append_left _ (hi.sources n hn h0)
    · rw [hlist2]
      intro e' he' hs
      rcases List.mem_append.1 hs with hs | hs
      · exact List.mem_append_left _ (hi.succ e' he' hs)
      · simp only [List.mem_singleton] at hs
        have := h.unique e' he' e he (hs.trans hsrc.symm)
        rw [this]
        exact List.mem_append_right _ (List.mem_singleton_self _)
    · rw [hlist2]
      intro e' he' ht
      rcases List.mem_append.1 ht with ht | ht
      · exact List.mem_append_left _ (hi.pred e' he' ht)
      · simp only [List.mem_singleton] at ht
        have s1 := h.step e' he'
        have : e'.src = v := by omega
        rw [this]
        exact List.mem_append_right _ (List.mem_singleton_self _)
    · rw [hlist2]
      intro n hn hnot
      have hne : n ≠ e.tgt := by
        intro hh
        exact hnot (List.mem_append_right _ (by rw [hh]; exact List.mem_singleton_self _))
      simp only [hne, if_false]
      exact hi.counter n hn (fun hh => hnot (List.mem_append_left _ hh))
    · rw [hlist2]
      unfold TopOrder
      rw [List.pairwise_append]
      refine ⟨hi.order, List.pairwise_singleton _ _, ?_⟩
      intro a ha c hc e' he' hcontra
      simp only [List.mem_singleton] at hc
      subst hc
      have : e'.tgt ∈ sorted ++ v :: queue := by rw [hcontra.2]; exact ha
      have := hi.pred e' he' this
      rw [hcontra.1] at this
      exact htn (List.mem_append_left _ this)
    · have := hi.fuel_eq
      simp only [List.length_append, List.length_singleton]
      omega

theorem topsortLoop_spec {g : LGraph} (h : StepGraph g) :
    ∀ (fuel : Nat) (queue : List Nat) (INDEG : Nat → Nat) (sorted : List Nat),
      TopsortInv g fuel queue INDEG sorted →
      (topsortLoop g fuel queue INDEG sorted).length = g.nodes.length ∧
        (topsortLoop g fuel queue INDEG sorted).Nodup ∧
        (∀ n, n ∈ topsortLoop g fuel queue INDEG sorted ↔ n ∈ g.nodes) ∧
        TopOrder g (topsortLoop g fuel queue INDEG sorted) := by
  intro fuel
  induction fuel with
  | zero =>
    intro queue INDEG sorted hi
    simp only [topsortLoop]
    exact topsortInv_full hi
  | succ fuel ih =>
    intro queue INDEG sorted hi
    cases queue with
    | nil =>
      simp only [topsortLoop]
      exact topsortInv_done h hi
    | cons v queue =>
      simp only [topsortLoop]
      exact ih _ _ _ (topsortInv_step h hi)

/-- LEDA `TOPSORT` on a union of paths: the graph is found acyclic, and the list
holds every node once, no node before its predecessor. -/
theorem TOPSORT_step (g : LGraph) (h : StepGraph g) :
    (TOPSORT g).1 = true ∧ (TOPSORT g).2.Nodup ∧ (∀ n, n ∈ (TOPSORT g).2 ↔ n ∈ g.nodes) ∧
      TopOrder g (TOPSORT g).2 := by
  have hinit : TopsortInv g g.nodes.length (g.nodes.filter (fun v => g.indeg v == 0))
      (fun v => g.indeg v) [] := by
    refine ⟨?_, ?_, ?_, ?_, ?_, ?_, ?_, ?_⟩
    · simpa using h.nodup_nodes.filter _
    · intro n hn
      simp only [List.nil_append, List.mem_filter] at hn
      exact hn.1
    · intro n hn h0
      simp only [List.nil_append, List.mem_filter, beq_iff_eq]
      exact ⟨hn, h0⟩
    · intro e _ hs
      simp at hs
    · intro e he ht
      simp only [List.nil_append, List.mem_filter, beq_iff_eq] at ht
      have := h.inEdges_eq e he
      simp [LGraph.indeg, this] at ht
    · intro n _ _
      rfl
    · unfold TopOrder
      simp only [List.nil_append]
      have htriv : (g.nodes.filter (fun v => g.indeg v == 0)).Pairwise (fun _ _ => True) :=
        List.pairwise_of_forall (fun _ _ => trivial)
      refine List.Pairwise.imp_of_mem ?_ htriv
      intro a c ha _ _ e he hcontra
      simp only [List.mem_filter, beq_iff_eq] at ha
      have := h.inEdges_eq e he
      rw [hcontra.2] at this
      simp [LGraph.indeg, this] at ha
    · simp
  have hspec := topsortLoop_spec h _ _ _ _ hinit
  simp only [TOPSORT]
  exact ⟨by simpa using hspec.1, hspec.2.1, hspec.2.2.1, hspec.2.2.2⟩

end Topsort
/-! ## Theorems: the nodes `computeDegree2Chains` hides -/

section HiddenNodes

theorem nodesToHide_ok (g : LGraph) :
    ∀ ns : List Nat, (∀ n ∈ ns, 2 ≤ g.degree n) →
      nodesToHide g ns = .ok (ns.filter (fun n => decide (2 < g.degree n))) := by
  intro ns
  induction ns with
  | nil => intro _; rfl
  | cons n rest ih =>
    intro h
    have h1 := h n (List.mem_cons_self _ _)
    have h2 := ih (fun m hm => h m (List.mem_cons_of_mem _ hm))
    simp only [nodesToHide, h2, ge_iff_le, h1, not_true_eq_false, if_false, gt_iff_lt,
      List.filter_cons]
    by_cases h3 : 2 < g.degree n
    · simp [h3]
    · simp [h3]

theorem hideKeepEndpoints_subset (keep : Nat → Bool) :
    ∀ (es : List Edge) (hidden : List Nat), ∀ n ∈ hidden, n ∈ hideKeepEndpoints keep es hidden := by
  intro es
  induction es with
  | nil => intro hidden n hn; exact hn
  | cons e rest ih =>
    intro hidden n hn
    simp only [hideKeepEndpoints]
    split
    · exact ih _ n (List.mem_append_left _ hn)
    · exact ih _ n hn

theorem mem_hideKeepEndpoints (keep : Nat → Bool) :
    ∀ (es : List Edge) (hidden : List Nat), ∀ n ∈ hideKeepEndpoints keep es hidden,
      n ∈ hidden ∨ ∃ e ∈ es, keep e.id = true ∧ (e.src = n ∨ e.tgt = n) := by
  intro es
  induction es with
  | nil => intro hidden n hn; exact Or.inl hn
  | cons e rest ih =>
    intro hidden n hn
    simp only [hideKeepEndpoints] at hn
    split at hn
    · rename_i hcond
      rcases ih _ n hn with h | ⟨e', he', hk, hinc⟩
      · rcases List.mem_append.1 h with h | h
        · exact Or.inl h
        · simp only [List.mem_cons, List.mem_singleton, List.not_mem_nil, or_false] at h
          refine Or.inr ⟨e, List.mem_cons_self _ _, hcond.2.2, ?_⟩
          rcases h with h | h
          · exact Or.inl h.symm
          · exact Or.inr h.symm
      · exact Or.inr ⟨e', List.mem_cons_of_mem _ he', hk, hinc⟩
    · rcases ih _ n hn with h | ⟨e', he', hk, hinc⟩
      · exact Or.inl h
      · exact Or.inr ⟨e', List.mem_cons_of_mem _ he', hk, hinc⟩

/-- A node on which three different arcs lie has degree at least three. -/
theorem three_le_degree (g : LGraph) (n : Nat) (e1 e2 e3 : Edge) (h1 : e1 ∈ g.edges)
    (h2 : e2 ∈ g.edges) (h3 : e3 ∈ g.edges) (h12 : e1 ≠ e2) (h13 : e1 ≠ e3) (h23 : e2 ≠ e3)
    (i1 : e1.src = n ∨ e1.tgt = n) (i2 : e2.src = n ∨ e2.tgt = n)
    (i3 : e3.src = n ∨ e3.tgt = n) : 3 ≤ g.degree n := by
  have hmem : ∀ e ∈ g.edges, (e.src = n ∨ e.tgt = n) → e ∈ g.inEdges n ++ g.outEdges n := by
    intro e he hinc
    rcases hinc with h | h
    · exact List.mem_append_right _ (List.mem_filter.2 ⟨he, by simpa using h⟩)
    · exact List.mem_append_left _ (List.mem_filter.2 ⟨he, by simpa using h⟩)
  have hnd : [e1, e2, e3].Nodup := by simp [h12, h13, h23]
  have hsub : ∀ e ∈ [e1, e2, e3], e ∈ g.inEdges n ++ g.outEdges n := by
    intro e he
    simp only [List.mem_cons, List.mem_singleton, List.not_mem_nil, or_false] at he
    rcases he with rfl | rfl | rfl
    · exact hmem _ h1 i1
    · exact hmem _ h2 i2
    · exact hmem _ h3 i3
  have := (List.subperm_of_subset hnd hsub).length_le
  simpa [LGraph.degree, LGraph.indeg, LGraph.outdeg] using this

/-- On a node with at most two arcs lies at most one arc to keep. -/
theorem ChainGraph.keep_unique {g : LGraph} {keep : Nat → Bool} (h : ChainGraph g keep)
    (n : Nat) (hn : n ∈ g.nodes) (hdeg : ¬ 2 < g.degree n) (e e' : Edge) (he : e ∈ g.edges)
    (he' : e' ∈ g.edges) (hk : keep e.id = true) (hk' : keep e'.id = true)
    (hi : e.src = n ∨ e.tgt = n) (hi' : e'.src = n ∨ e'.tgt = n) : e = e' := by
  by_contra hne
  obtain ⟨t, ht, hkt, hit⟩ := h.travel n hn
  have h1 : t ≠ e := by
    intro hh
    rw [hh, hk] at hkt
    exact absurd hkt (by simp)
  have h2 : t ≠ e' := by
    intro hh
    rw [hh, hk'] at hkt
    exact absurd hkt (by simp)
  have := three_le_degree g n t e e' ht he he' h1 h2 hne hit hi hi'
  omega

/-- The loop over the arcs to keep hides both end nodes of every such arc. -/
theorem ChainGraph.hide_loop {g : LGraph} {keep : Nat → Bool} (h : ChainGraph g keep)
    (H0 : List Nat) (hH0 : ∀ n, n ∈ H0 ↔ n ∈ g.nodes ∧ 2 < g.degree n) :
    ∀ (suf pre : List Edge) (hidden : List Nat), g.edges = pre ++ suf →
      (∀ n ∈ H0, n ∈ hidden) →
      (∀ n ∈ hidden, n ∈ H0 ∨ ∃ e ∈ pre, keep e.id = true ∧ (e.src = n ∨ e.tgt = n)) →
      (∀ e ∈ pre, keep e.id = true → e.src ∈ hidden ∧ e.tgt ∈ hidden) →
      ∀ e ∈ g.edges, keep e.id = true →
        e.src ∈ hideKeepEndpoints keep suf hidden ∧ e.tgt ∈ hideKeepEndpoints keep suf hidden := by
  intro suf
  induction suf with
  | nil =>
    intro pre hidden hE _ _ h3 e he hk
    rw [hE, List.append_nil] at he
    exact h3 e he hk
  | cons x rest ih =>
    intro pre hidden hE h1 h2 h3 e he hk
    have hE' : g.edges = (pre ++ [x]) ++ rest := by rw [hE]; simp
    have hx : x ∈ g.edges := by rw [hE]; simp
    have hxpre : x ∉ pre := by
      intro hmem
      have hnd := h.nodup_edges
      rw [hE] at hnd
      have := (List.nodup_append.1 hnd).2.2
      exact this hmem (List.mem_cons_self _ _)
    simp only [hideKeepEndpoints]
    split
    · rename_i hcond
      apply ih (pre ++ [x]) (hidden ++ [x.src, x.tgt]) hE'
      · intro n hn
        exact List.mem_append_left _ (h1 n hn)
      · intro n hn
        rcases List.mem_append.1 hn with hn | hn
        · rcases h2 n hn with hh | ⟨e', he', hk', hinc⟩
          · exact Or.inl hh
          · exact Or.inr ⟨e', List.mem_append_left _ he', hk', hinc⟩
        · simp only [List.mem_cons, List.mem_singleton, List.not_mem_nil, or_false] at hn
          refine Or.inr ⟨x, by simp, hcond.2.2, ?_⟩
          rcases hn with hn | hn
          · exact Or.inl hn.symm
          · exact Or.inr hn.symm
      · intro e' he' hk'
        rcases List.mem_append.1 he' with he' | he'
        · exact ⟨List.mem_append_left _ (h3 e' he' hk').1,
            List.mem_append_left _ (h3 e' he' hk').2⟩
        · simp only [List.mem_singleton] at he'
          subst he'
          exact ⟨List.mem_append_right _ (by simp), List.mem_append_right _ (by simp)⟩
      · exact he
      · exact hk
    · rename_i hcond
      apply ih (pre ++ [x]) hidden hE' h1
      · intro n hn
        rcases h2 n hn with hh | ⟨e', he', hk', hinc⟩
        · exact Or.inl hh
        · exact Or.inr ⟨e', List.mem_append_left _ he', hk', hinc⟩
      · intro e' he' hk'
        rcases List.mem_append.1 he' with he' | he'
        · exact h3 e' he' hk'
        · simp only [List.mem_singleton] at he'
          subst he'
          -- one end node is hidden already
          have hsome : e'.src ∈ hidden ∨ e'.tgt ∈ hidden := by
            by_contra hno
            push_neg at hno
            exact hcond ⟨hno.1, hno.2, hk'⟩
          have hkey : ∀ n, (e'.src = n ∨ e'.tgt = n) → n ∈ hidden → 2 < g.degree n := by
            intro n hinc hn
            rcases h2 n hn with hh | ⟨e2, he2, hk2, hinc2⟩
            · exact ((hH0 n).1 hh).2
            · by_contra hlight
              have hnn : n ∈ g.nodes := by
                rcases hinc with hh | hh
                · rw [← hh]; exact (h.closed e' hx).1
                · rw [← hh]; exact (h.closed e' hx).2
              have he2g : e2 ∈ g.edges := by rw [hE]; exact List.mem_append_left _ he2
              have := h.keep_unique n hnn hlight e2 e' he2g hx hk2 hk' hinc2 hinc
              rw [this] at he2
              exact hxpre he2
          have hpair := h.keep_pair e' hx hk'
          have hboth : 2 < g.degree e'.src ∧ 2 < g.degree e'.tgt := by
            rcases hsome with hh | hh
            · have := hkey e'.src (Or.inl rfl) hh
              exact ⟨this, hpair.1 this⟩
            · have := hkey e'.tgt (Or.inr rfl) hh
              exact ⟨hpair.2 this, this⟩
          exact ⟨h1 _ ((hH0 _).2 ⟨(h.closed e' hx).1, hboth.1⟩),
            h1 _ ((hH0 _).2 ⟨(h.closed e' hx).2, hboth.2⟩)⟩
      · exact he
      · exact hk

/-- The nodes hidden by `computeDegree2Chains`: the nodes with more than two
arcs and the end nodes of the arcs to keep. -/
theorem ChainGraph.hidden_iff {g : LGraph} {keep : Nat → Bool} (h : ChainGraph g keep) (n : Nat)
    (hn : n ∈ g.nodes) :
    n ∈ hideKeepEndpoints keep g.edges (g.nodes.filter (fun n => decide (2 < g.degree n))) ↔
      2 < g.degree n ∨ ∃ e ∈ g.edges, keep e.id = true ∧ (e.src = n ∨ e.tgt = n) := by
  have hH0 : ∀ m, m ∈ g.nodes.filter (fun n => decide (2 < g.degree n)) ↔
      m ∈ g.nodes ∧ 2 < g.degree m := by
    intro m
    simp only [List.mem_filter, decide_eq_true_eq]
  constructor
  · intro hm
    rcases mem_hideKeepEndpoints keep _ _ n hm with hh | hh
    · exact Or.inl ((hH0 n).1 hh).2
    · exact Or.inr hh
  · rintro (hd | ⟨e, he, hk, hinc⟩)
    · exact hideKeepEndpoints_subset keep _ _ n ((hH0 n).2 ⟨hn, hd⟩)
    · have := h.hide_loop _ hH0 g.edges [] _ (by simp) (fun _ hm => hm)
        (fun m hm => Or.inl hm) (fun e he => absurd he (by simp)) e he hk
      rcases hinc with hh | hh
      · rw [← hh]; exact this.1
      · rw [← hh]; exact this.2

end HiddenNodes
/-! ## Theorems: the part of the graph that `computeDegree2Chains` leaves visible -/

section VisiblePart

theorem ChainGraph.not_keep_of_visible {g : LGraph} {keep : Nat → Bool} (h : ChainGraph g keep)
    (e : Edge) (he : e ∈ g.edges)
    (hv : e.src ∉ hiddenNodes g keep ∨ e.tgt ∉ hiddenNodes g keep) : keep e.id = false := by
  by_contra hk
  have hk' : keep e.id = true := by simpa using hk
  rcases hv with hv | hv
  · exact hv ((h.hidden_iff e.src (h.closed e he).1).2 (Or.inr ⟨e, he, hk', Or.inl rfl⟩))
  · exact hv ((h.hidden_iff e.tgt (h.closed e he).2).2 (Or.inr ⟨e, he, hk', Or.inr rfl⟩))

/-- A node that stays visible has exactly one entering and one leaving arc, none
of them an arc to keep: the arc from the node before and the arc to the node
after. -/
theorem ChainGraph.visible_node {g : LGraph} {keep : Nat → Bool} (h : ChainGraph g keep)
    (n : Nat) (hn : n ∈ g.nodes) (hv : n ∉ hiddenNodes g keep) :
    g.degree n = 2 ∧ ∃ ein eout, g.inEdges n = [ein] ∧ g.outEdges n = [eout] ∧
      keep ein.id = false ∧ keep eout.id = false ∧ ein.src + 1 = n ∧ eout.tgt = n + 1 := by
  have hnot := (not_congr (h.hidden_iff n hn)).1 hv
  push_neg at hnot
  obtain ⟨hdeg, hkeep⟩ := hnot
  have hge := h.degree_ge n hn
  have hdeg2 : g.degree n = 2 := by omega
  have hin_all : ∀ a ∈ g.inEdges n, a ∈ g.edges ∧ a.tgt = n ∧ keep a.id = false := by
    intro a ha
    have ha' := List.mem_filter.1 ha
    have ht : a.tgt = n := by simpa using ha'.2
    refine ⟨ha'.1, ht, ?_⟩
    by_contra hk
    have := hkeep a ha'.1 (by simpa using hk)
    exact this.2 ht
  have hout_all : ∀ a ∈ g.outEdges n, a ∈ g.edges ∧ a.src = n ∧ keep a.id = false := by
    intro a ha
    have ha' := List.mem_filter.1 ha
    have hs : a.src = n := by simpa using ha'.2
    refine ⟨ha'.1, hs, ?_⟩
    by_contra hk
    have := hkeep a ha'.1 (by simpa using hk)
    exact this.1 hs
  have hin_le : (g.inEdges n).length ≤ 1 := by
    apply length_le_one_of_all_eq (h.nodup_edges.filter _)
    intro a ha c hc
    obtain ⟨a1, a2, a3⟩ := hin_all a ha
    obtain ⟨c1, c2, c3⟩ := hin_all c hc
    apply h.unique a a1 c c1 a3 c3
    have s1 := h.step a a1 a3
    have s2 := h.step c c1 c3
    omega
  have hout_le : (g.outEdges n).length ≤ 1 := by
    apply length_le_one_of_all_eq (h.nodup_edges.filter _)
    intro a ha c hc
    obtain ⟨a1, a2, a3⟩ := hout_all a ha
    obtain ⟨c1, c2, c3⟩ := hout_all c hc
    exact h.unique a a1 c c1 a3 c3 (a2.trans c2.symm)
  have hsum : (g.inEdges n).length + (g.outEdges n).length = 2 := hdeg2
  refine ⟨hdeg2, ?_⟩
  match hi : g.inEdges n, ho : g.outEdges n with
  | [ein], [eout] =>
    obtain ⟨a1, a2, a3⟩ := hin_all ein (by rw [hi]; simp)
    obtain ⟨c1, c2, c3⟩ := hout_all eout (by rw [ho]; simp)
    have s1 := h.step ein a1 a3
    have s2 := h.step eout c1 c3
    exact ⟨ein, eout, rfl, rfl, a3, c3, by omega, by omega⟩
  | [], _ => rw [hi] at hsum; simp at hsum; omega
  | _, [] => rw [ho] at hsum; simp at hsum; omega
  | _ :: _ :: _, _ => rw [hi] at hin_le; simp at hin_le
  | _, _ :: _ :: _ => rw [ho] at hout_le; simp at hout_le

theorem mem_visiblePart_nodes (g : LGraph) (hidden : List Nat) (n : Nat) :
    n ∈ (visiblePart g hidden).nodes ↔ n ∈ g.nodes ∧ n ∉ hidden := by
  simp [visiblePart]

theorem mem_visiblePart_edges (g : LGraph) (hidden : List Nat) (e : Edge) :
    e ∈ (visiblePart g hidden).edges ↔ e ∈ g.edges ∧ e.src ∉ hidden ∧ e.tgt ∉ hidden := by
  simp [visiblePart]

/-- The visible part of the graph is a union of paths of consecutive nodes. -/
theorem ChainGraph.visible_step {g : LGraph} {keep : Nat → Bool} (h : ChainGraph g keep) :
    StepGraph (visiblePart g (hiddenNodes g keep)) := by
  refine ⟨h.nodup_nodes.filter _, h.nodup_edges.filter _, ?_, ?_, ?_⟩
  · intro e he
    rw [mem_visiblePart_edges] at he
    rw [mem_visiblePart_nodes, mem_visiblePart_nodes]
    exact ⟨⟨(h.closed e he.1).1, he.2.1⟩, ⟨(h.closed e he.1).2, he.2.2⟩⟩
  · intro e he
    rw [mem_visiblePart_edges] at he
    exact h.step e he.1 (h.not_keep_of_visible e he.1 (Or.inl he.2.1))
  · intro e he e' he' hs
    rw [mem_visiblePart_edges] at he he'
    exact h.unique e he.1 e' he'.1 (h.not_keep_of_visible e he.1 (Or.inl he.2.1))
      (h.not_keep_of_visible e' he'.1 (Or.inl he'.2.1)) hs

end VisiblePart
/-! ## Theorems: the chains returned by `computeDegree2Chains` -/

section ChainsOfGraph

theorem fillChains_spec (g : LGraph) (comp : Nat → Int) :
    ∀ (l : List Nat) (chains0 : List (List Nat)),
      (∀ n ∈ l, g.degree n = 2 ∧ 0 ≤ comp n ∧ comp n < (chains0.length : Int)) →
      ∃ chains, fillChains g comp l chains0 = .ok chains ∧ chains.length = chains0.length ∧
        ∀ k : Nat, chains[k]? =
          (chains0[k]?).map (fun c => c ++ l.filter (fun n => decide (comp n = (k : Int)))) := by
  intro l
  induction l with
  | nil =>
    intro chains0 _
    refine ⟨chains0, rfl, rfl, ?_⟩
    intro k
    cases chains0[k]? <;> simp
  | cons n ns ih =>
    intro chains0 h
    obtain ⟨h1, h2, h3⟩ := h n (List.mem_cons_self _ _)
    have hrest : ∀ m ∈ ns, g.degree m = 2 ∧ 0 ≤ comp m ∧
        comp m < ((chains0.modify (fun chain => chain ++ [n]) (comp n).toNat).length : Int) := by
      intro m hm
      rw [List.length_modify]
      exact h m (List.mem_cons_of_mem _ hm)
    obtain ⟨chains, c1, c2, c3⟩ := ih _ hrest
    refine ⟨chains, ?_, ?_, ?_⟩
    · simp only [fillChains, h1, not_true_eq_false, if_false]
      rw [if_neg (by omega)]
      exact c1
    · rw [c2, List.length_modify]
    · intro k
      rw [c3 k, List.getElem?_modify]
      by_cases hk : (comp n).toNat = k
      · have hk' : comp n = (k : Int) := by omega
        cases chains0[k]? with
        | none => simp
        | some c => simp [hk, hk', List.filter_cons]
      · have hk' : comp n ≠ (k : Int) := by omega
        cases chains0[k]? with
        | none => simp
        | some c => simp [hk, hk', List.filter_cons]

/-- In a graph whose arcs lead from a node to the next one, two connected nodes
are joined by the arcs between all nodes from the smaller to the greater one. -/
theorem connIn_interval (es : List (Nat × Nat)) (hstep : ∀ p ∈ es, p.2 = p.1 + 1) (a b : Nat)
    (h : ConnIn es a b) :
    ∀ j, (a ≤ j ∧ j < b) ∨ (b ≤ j ∧ j < a) → (j, j + 1) ∈ es := by
  induction h with
  | refl =>
    intro j hj
    omega
  | @tail c d _ hcd ih =>
    intro j hj
    rcases hcd with hcd | hcd
    · have hs := hstep _ hcd
      simp only at hs
      by_cases hjc : j = c
      · rw [hjc, ← hs]; exact hcd
      · exact ih j (by omega)
    · have hs := hstep _ hcd
      simp only at hs
      by_cases hjc : j = d
      · rw [hjc, ← hs]; exact hcd
      · exact ih j (by omega)

theorem connIn_of_interval (es : List (Nat × Nat)) (a : Nat) :
    ∀ d, (∀ j, a ≤ j → j < a + d → (j, j + 1) ∈ es) → ConnIn es a (a + d) := by
  intro d
  induction d with
  | zero => intro _; exact connIn_refl es a
  | succ d ih =>
    intro h
    exact connIn_trans (ih (fun j h1 h2 => h j h1 (by omega)))
      (connIn_of_mem (h (a + d) (by omega) (by omega)))

/-- A strictly ascending list of numbers that holds every number between two of
its entries is a list of consecutive numbers. -/
theorem eq_range'_of_sorted_closed :
    ∀ (c : List Nat) (a : Nat), (a :: c).Pairwise (fun x y => x < y) →
      (∀ x ∈ a :: c, ∀ y ∈ a :: c, ∀ m, x < m → m < y → m ∈ a :: c) →
      a :: c = List.range' a (c.length + 1) := by
  intro c
  induction c with
  | nil => intro a _ _; rfl
  | cons b rest ih =>
    intro a hs hcl
    have hab : a < b := (List.pairwise_cons.1 hs).1 b (List.mem_cons_self _ _)
    have hs' : (b :: rest).Pairwise (fun x y => x < y) := (List.pairwise_cons.1 hs).2
    have hb : b = a + 1 := by
      by_contra hne
      have hm := hcl a (List.mem_cons_self _ _) b (by simp) (a + 1) (by omega) (by omega)
      rcases List.mem_cons.1 hm with h | h
      · omega
      · rcases List.mem_cons.1 h with h | h
        · omega
        · have := (List.pairwise_cons.1 hs').1 _ h
          omega
    have hcl' : ∀ x ∈ b :: rest, ∀ y ∈ b :: rest, ∀ m, x < m → m < y → m ∈ b :: rest := by
      intro x hx y hy m h1 h2
      have hm := hcl x (List.mem_cons_of_mem _ hx) y (List.mem_cons_of_mem _ hy) m h1 h2
      rcases List.mem_cons.1 hm with h | h
      · have hxa : a < x := (List.pairwise_cons.1 hs).1 x hx
        omega
      · exact h
    have hrest := ih b hs' hcl'
    rw [hb] at hrest
    rw [List.length_cons, List.range'_succ, ← hrest, hb]

/-- The position of a node in a list in topological order is before the
position of its successor. -/
theorem TopOrder.indexOf_lt {g : LGraph} {l : List Nat} (h : TopOrder g l) (e : Edge)
    (he : e ∈ g.edges) (hne : e.src ≠ e.tgt) (hs : e.src ∈ l) (ht : e.tgt ∈ l) :
    l.indexOf e.src < l.indexOf e.tgt := by
  by_contra hge
  have hneq : l.indexOf e.src ≠ l.indexOf e.tgt := fun hh => hne ((List.indexOf_inj hs ht).1 hh)
  have hlt : l.indexOf e.tgt < l.indexOf e.src := by omega
  have h1 : l.indexOf e.src < l.length := List.indexOf_lt_length.2 hs
  have h2 : l.indexOf e.tgt < l.length := List.indexOf_lt_length.2 ht
  have := (List.pairwise_iff_getElem.1 h) _ _ h2 h1 hlt e he
  rw [List.getElem_indexOf h2, List.getElem_indexOf h1] at this
  exact this ⟨rfl, rfl⟩

/-- LEDA contract of `COMPONENTS`: every number below the count is the number of
the component of a node. -/
theorem COMPONENTS_surj (nodes : List Nat) (es : List (Nat × Nat))
    (hes : ∀ p ∈ es, p.1 ∈ nodes ∧ p.2 ∈ nodes) (k : Nat) (hk : k < (COMPONENTS nodes es).2) :
    ∃ n ∈ nodes, (COMPONENTS nodes es).1 n = (k : Int) := by
  simp only [COMPONENTS, compTable_eq nodes es hes, List.map_map] at hk ⊢
  have hf : (Prod.snd ∘ fun n => (n, compLabel es n)) = compLabel es := rfl
  rw [hf] at hk ⊢
  have hmem : (nodes.map (compLabel es)).dedup[k] ∈ (nodes.map (compLabel es)).dedup :=
    List.getElem_mem hk
  obtain ⟨n, hn, hlab⟩ := List.mem_map.1 (List.mem_dedup.1 hmem)
  refine ⟨n, hn, ?_⟩
  rw [labelOf_map nodes (compLabel es) hn, hlab,
    List.indexOf_getElem (List.nodup_dedup _) k hk]

/-- After the loop over the arcs to keep, every arc to keep has a hidden end
node. -/
theorem hideKeepEndpoints_covers (keep : Nat → Bool) :
    ∀ (es : List Edge) (hidden : List Nat), ∀ e ∈ es, keep e.id = true →
      e.src ∈ hideKeepEndpoints keep es hidden ∨ e.tgt ∈ hideKeepEndpoints keep es hidden := by
  intro es
  induction es with
  | nil => intro _ e he; exact absurd he (by simp)
  | cons x rest ih =>
    intro hidden e he hk
    simp only [hideKeepEndpoints]
    rcases List.mem_cons.1 he with rfl | he
    · split
      · left
        exact hideKeepEndpoints_subset keep _ _ _ (List.mem_append_right _ (by simp))
      · rename_i hcond
        have hsome : e.src ∈ hidden ∨ e.tgt ∈ hidden := by
          by_contra hno
          push_neg at hno
          exact hcond ⟨hno.1, hno.2, hk⟩
        rcases hsome with hh | hh
        · exact Or.inl (hideKeepEndpoints_subset keep _ _ _ hh)
        · exact Or.inr (hideKeepEndpoints_subset keep _ _ _ hh)
    · split
      · exact ih _ e he hk
      · exact ih _ e he hk

theorem PathGraph.keep_hidden {g : LGraph} {keep : Nat → Bool} (_h : PathGraph g keep)
    (e : Edge) (he : e ∈ g.edges) (hk : keep e.id = true) :
    e.src ∈ hiddenNodes g keep ∨ e.tgt ∈ hiddenNodes g keep :=
  hideKeepEndpoints_covers keep g.edges _ e he hk

/-- The visible part of a graph with the structure of `PathGraph` is a union of
paths of consecutive nodes. -/
theorem PathGraph.visible_steps {g : LGraph} {keep : Nat → Bool} (h : PathGraph g keep) :
    StepGraph (visiblePart g (hiddenNodes g keep)) := by
  have hnk : ∀ e ∈ g.edges, e.src ∉ hiddenNodes g keep → e.tgt ∉ hiddenNodes g keep →
      keep e.id = false := by
    intro e he h1 h2
    by_contra hk
    rcases h.keep_hidden e he (by simpa using hk) with hh | hh
    · exact h1 hh
    · exact h2 hh
  refine ⟨h.nodup_nodes.filter _, h.nodup_edges.filter _, ?_, ?_, ?_⟩
  · intro e he
    rw [mem_visiblePart_edges] at he
    rw [mem_visiblePart_nodes, mem_visiblePart_nodes]
    exact ⟨⟨(h.closed e he.1).1, he.2.1⟩, ⟨(h.closed e he.1).2, he.2.2⟩⟩
  · intro e he
    rw [mem_visiblePart_edges] at he
    exact h.step e he.1 (hnk e he.1 he.2.1 he.2.2)
  · intro e he e' he' hs
    rw [mem_visiblePart_edges] at he he'
    exact h.unique e he.1 e' he'.1 (hnk e he.1 he.2.1 he.2.2) (hnk e' he'.1 he'.2.1 he'.2.2) hs

theorem ChainGraph.pathGraph {g : LGraph} {keep : Nat → Bool} (h : ChainGraph g keep) :
    PathGraph g keep :=
  ⟨h.nodup_nodes, h.nodup_edges, h.closed, h.step, h.unique⟩

/-- The chains `computeDegree2Chains` returns on a graph with the structure of
`PathGraph` in which every node has at least two arcs: no assertion fails and
no cycle is found; the chains hold exactly the nodes that are not hidden, each
once; every chain is a nonempty list of consecutive nodes, each joined to the
next by an arc that is not to be kept; an arc that enters its first node comes
from a hidden node and an arc that leaves its last node leads to a hidden
node. -/
theorem PathGraph.chains_ranges {g : LGraph} {keep : Nat → Bool} (h : PathGraph g keep)
    (hdeg : ∀ n ∈ g.nodes, 2 ≤ g.degree n) :
    ∃ chains, computeDegree2Chains g keep = .ok chains ∧
      chains.flatten.Nodup ∧
      (∀ n, n ∈ chains.flatten ↔ n ∈ g.nodes ∧ n ∉ hiddenNodes g keep) ∧
      ∀ c ∈ chains, ∃ first len, 0 < len ∧ c = List.range' first len ∧
        (∀ e ∈ g.edges, e.tgt = first → e.src ∈ hiddenNodes g keep) ∧
        (∀ e ∈ g.edges, e.src = first + len - 1 → e.tgt ∈ hiddenNodes g keep) ∧
        ∀ i, i + 1 < len → ∃ e ∈ g.edges, keep e.id = false ∧ e.src = first + i ∧
          e.tgt = first + i + 1 := by
  have hstep := h.visible_steps
  have hdeg2 : ∀ n ∈ g.nodes, n ∉ hiddenNodes g keep → g.degree n = 2 := by
    intro n hn hv
    have h1 := hdeg n hn
    have h2 : ¬ 2 < g.degree n := by
      intro hlt
      exact hv (hideKeepEndpoints_subset keep _ _ n
        (List.mem_filter.2 ⟨hn, by simpa using hlt⟩))
    omega
  obtain ⟨t1, t2, t3, t4⟩ := TOPSORT_step _ hstep
  have hes : ∀ p ∈ endpoints (visiblePart g (hiddenNodes g keep)).edges,
      p.1 ∈ (visiblePart g (hiddenNodes g keep)).nodes ∧
        p.2 ∈ (visiblePart g (hiddenNodes g keep)).nodes := by
    intro p hp
    obtain ⟨e, he, rfl⟩ := List.mem_map.1 hp
    exact hstep.closed e he
  have hstepE : ∀ p ∈ endpoints (visiblePart g (hiddenNodes g keep)).edges, p.2 = p.1 + 1 := by
    intro p hp
    obtain ⟨e, he, rfl⟩ := List.mem_map.1 hp
    exact hstep.step e he
  -- abbreviations
  generalize hgv : visiblePart g (hiddenNodes g keep) = gv at hstep t1 t2 t3 t4 hes hstepE
  generalize hL : (TOPSORT gv).2 = L at t2 t3 t4
  generalize hcomps : COMPONENTS gv.nodes (endpoints gv.edges) = comps
  have hvis : ∀ n, n ∈ gv.nodes ↔ n ∈ g.nodes ∧ n ∉ hiddenNodes g keep := by
    intro n
    rw [← hgv]
    exact mem_visiblePart_nodes _ _ _
  have hfill : ∀ n ∈ L, g.degree n = 2 ∧ 0 ≤ comps.1 n ∧
      comps.1 n < ((List.replicate comps.2 ([] : List Nat)).length : Int) := by
    intro n hn
    have hnv := (t3 n).1 hn
    have hr := COMPONENTS_range gv.nodes (endpoints gv.edges) hes hnv
    rw [hcomps] at hr
    have hn' := (hvis n).1 hnv
    exact ⟨hdeg2 n hn'.1 hn'.2, hr.1, by simpa using hr.2⟩
  obtain ⟨chains, f1, f2, f3⟩ := fillChains_spec g comps.1 L _ hfill
  have hlen : chains.length = comps.2 := by simpa using f2
  have hget : ∀ k, k < comps.2 →
      chains[k]? = some (L.filter (fun n => decide (comps.1 n = (k : Int)))) := by
    intro k hk
    rw [f3 k, List.getElem?_replicate_of_lt hk]
    simp
  have hchains : chains =
      (List.range comps.2).map (fun (k : Nat) => L.filter (fun n => decide (comps.1 n = (k : Int)))) := by
    apply List.ext_getElem?
    intro k
    by_cases hk : k < comps.2
    · rw [hget k hk, List.getElem?_map, List.getElem?_range hk]
      rfl
    · rw [List.getElem?_eq_none (by omega), List.getElem?_eq_none (by simp; omega)]
  -- the arcs of the visible part order the list
  have harc : ∀ j, (j, j + 1) ∈ endpoints gv.edges → L.indexOf j < L.indexOf (j + 1) := by
    intro j hj
    obtain ⟨e, he, hp⟩ := List.mem_map.1 hj
    simp only [Prod.mk.injEq] at hp
    have hcl := hstep.closed e he
    have := t4.indexOf_lt e he (by omega) ((t3 _).2 hcl.1) ((t3 _).2 hcl.2)
    rw [hp.1, hp.2] at this
    exact this
  have hmono : ∀ d a, (∀ j, a ≤ j → j < a + d → (j, j + 1) ∈ endpoints gv.edges) → 0 < d →
      L.indexOf a < L.indexOf (a + d) := by
    intro d
    induction d with
    | zero => intro a _ h0; omega
    | succ d ih =>
      intro a hall _
      have hlast := harc (a + d) (hall (a + d) (by omega) (by omega))
      by_cases hd : d = 0
      · subst hd
        simpa using hlast
      · have := ih a (fun j h1 h2 => hall j h1 (by omega)) (by omega)
        have e1 : a + d + 1 = a + (d + 1) := by omega
        rw [e1] at hlast
        omega
  -- nodes of one component appear in ascending order
  have hsorted : ∀ k : Nat,
      (L.filter (fun n => decide (comps.1 n = (k : Int)))).Pairwise (fun x y => x < y) := by
    intro k
    have hpos : L.Pairwise (fun x y => L.indexOf x < L.indexOf y) := by
      rw [List.pairwise_iff_getElem]
      intro i j hi hj hij
      rw [List.indexOf_getElem t2 i hi, List.indexOf_getElem t2 j hj]
      exact hij
    have hsub := hpos.sublist (List.filter_sublist (l := L)
      (p := fun n => decide (comps.1 n = (k : Int))))
    refine List.Pairwise.imp_of_mem ?_ hsub
    intro x y hx hy hxy
    simp only [List.mem_filter, decide_eq_true_eq] at hx hy
    by_contra hnot
    have hne : x ≠ y := by
      intro hh
      rw [hh] at hxy
      omega
    have hyx : y < x := by omega
    have hconn : ConnIn (endpoints gv.edges) y x := by
      rw [← COMPONENTS_eq_iff gv.nodes (endpoints gv.edges) hes ((t3 y).1 hy.1)
        ((t3 x).1 hx.1), hcomps, hx.2, hy.2]
    have hint := connIn_interval _ hstepE y x hconn
    have := hmono (x - y) y (fun j h1 h2 => hint j (Or.inl ⟨h1, by omega⟩)) (by omega)
    have e1 : y + (x - y) = x := by omega
    rw [e1] at this
    omega
  have hclosed : ∀ k : Nat, ∀ x ∈ L.filter (fun n => decide (comps.1 n = (k : Int))),
      ∀ y ∈ L.filter (fun n => decide (comps.1 n = (k : Int))), ∀ m, x < m → m < y →
      m ∈ L.filter (fun n => decide (comps.1 n = (k : Int))) := by
    intro k x hx y hy m h1 h2
    simp only [List.mem_filter, decide_eq_true_eq] at hx hy ⊢
    have hconn : ConnIn (endpoints gv.edges) x y := by
      rw [← COMPONENTS_eq_iff gv.nodes (endpoints gv.edges) hes ((t3 x).1 hx.1)
        ((t3 y).1 hy.1), hcomps, hx.2, hy.2]
    have hint := connIn_interval _ hstepE x y hconn
    have hxm : ConnIn (endpoints gv.edges) x (x + (m - x)) :=
      connIn_of_interval _ x (m - x) (fun j h3 h4 => hint j (Or.inl ⟨h3, by omega⟩))
    have e1 : x + (m - x) = m := by omega
    rw [e1] at hxm
    have hmv : m ∈ gv.nodes := by
      have := hint (m - 1) (Or.inl ⟨by omega, by omega⟩)
      have e2 : m - 1 + 1 = m := by omega
      rw [e2] at this
      exact (hes _ this).2
    refine ⟨(t3 m).2 hmv, ?_⟩
    have := (COMPONENTS_eq_iff gv.nodes (endpoints gv.edges) hes ((t3 x).1 hx.1) hmv).2 hxm
    rw [hcomps] at this
    rw [← this, hx.2]
  have hnonempty : ∀ k, k < comps.2 →
      L.filter (fun n => decide (comps.1 n = (k : Int))) ≠ [] := by
    intro k hk
    rw [← hcomps] at hk
    obtain ⟨n, hn, hc⟩ := COMPONENTS_surj gv.nodes (endpoints gv.edges) hes k hk
    rw [hcomps] at hc
    intro hnil
    have : n ∈ L.filter (fun n => decide (comps.1 n = (k : Int))) := by
      simp only [List.mem_filter, decide_eq_true_eq]
      exact ⟨(t3 n).2 hn, hc⟩
    rw [hnil] at this
    simp at this
  have hout : computeDegree2Chains g keep = .ok chains := by
    unfold computeDegree2Chains
    rw [nodesToHide_ok g g.nodes hdeg]
    simp only
    have hh : hideKeepEndpoints keep g.edges
        (g.nodes.filter (fun n => decide (2 < g.degree n))) = hiddenNodes g keep := rfl
    rw [hh, hgv, t1, hcomps]
    simp only [not_true_eq_false, if_false]
    rw [hL]
    exact f1
  refine ⟨chains, hout, ?_, ?_, ?_⟩
  · rw [hchains, List.flatten_eq_flatMap, List.flatMap_id, ← List.flatMap_def,
      List.nodup_flatMap]
    refine ⟨fun k _ => t2.filter _, ?_⟩
    refine List.Pairwise.imp_of_mem ?_ (List.nodup_range comps.2)
    intro a c _ _ hac
    intro n hn1 hn2
    simp only [List.mem_filter, decide_eq_true_eq] at hn1 hn2
    apply hac
    have := hn1.2.symm.trans hn2.2
    exact_mod_cast this
  · intro n
    rw [← hvis n, ← t3 n, List.mem_flatten]
    constructor
    · rintro ⟨c, hc, hn⟩
      rw [hchains] at hc
      obtain ⟨k, -, rfl⟩ := List.mem_map.1 hc
      exact (List.mem_filter.1 hn).1
    · intro hn
      have hr := COMPONENTS_range gv.nodes (endpoints gv.edges) hes ((t3 n).1 hn)
      rw [hcomps] at hr
      refine ⟨L.filter (fun m => decide (comps.1 m = ((comps.1 n).toNat : Int))), ?_, ?_⟩
      · rw [hchains]
        exact List.mem_map.2 ⟨(comps.1 n).toNat, List.mem_range.2 (by omega), rfl⟩
      · simp only [List.mem_filter, decide_eq_true_eq]
        exact ⟨hn, by omega⟩
  · intro c hc
    rw [hchains] at hc
    obtain ⟨k, hk, rfl⟩ := List.mem_map.1 hc
    have hk' := List.mem_range.1 hk
    have hne := hnonempty k hk'
    match hc0 : L.filter (fun n => decide (comps.1 n = (k : Int))), hne with
    | first :: rest, _ =>
      have hs := hsorted k
      have hcl := hclosed k
      rw [hc0] at hs hcl
      have hr := eq_range'_of_sorted_closed rest first hs hcl
      have hmemc : ∀ n, n ∈ List.range' first (rest.length + 1) →
          n ∈ L ∧ comps.1 n = (k : Int) := by
        intro n hn
        rw [← hr, ← hc0] at hn
        simpa using hn
      have hfirst := hmemc first (by simp [List.mem_range'])
      refine ⟨first, rest.length + 1, by omega, hr, ?_, ?_, ?_⟩
      · intro e he ht
        by_contra hvisible
        have hfv := (hvis first).1 ((t3 first).1 hfirst.1)
        have hev : e ∈ gv.edges := by
          rw [← hgv]
          exact (mem_visiblePart_edges _ _ _).2 ⟨he, hvisible, by rw [ht]; exact hfv.2⟩
        have hcle := hstep.closed e hev
        have hconn : ConnIn (endpoints gv.edges) e.src e.tgt :=
          connIn_of_mem (List.mem_map.2 ⟨e, hev, rfl⟩)
        have hceq := (COMPONENTS_eq_iff gv.nodes (endpoints gv.edges) hes hcle.1 hcle.2).2 hconn
        rw [hcomps, ht, hfirst.2] at hceq
        have hin : e.src ∈ List.range' first (rest.length + 1) := by
          rw [← hr, ← hc0]
          simp only [List.mem_filter, decide_eq_true_eq]
          exact ⟨(t3 _).2 hcle.1, hceq⟩
        have hs1 := hstep.step e hev
        rw [List.mem_range'] at hin
        obtain ⟨i, -, hi⟩ := hin
        omega
      · intro e he hsrc
        by_contra hvisible
        have hlast := hmemc (first + rest.length + 1 - 1)
          (by rw [List.mem_range']; exact ⟨rest.length, by omega, by omega⟩)
        have hlv := (hvis _).1 ((t3 _).1 hlast.1)
        have hev : e ∈ gv.edges := by
          rw [← hgv]
          refine (mem_visiblePart_edges _ _ _).2 ⟨he, ?_, hvisible⟩
          have e1 : first + (rest.length + 1) - 1 = first + rest.length + 1 - 1 := by omega
          rw [hsrc, e1]
          exact hlv.2
        have hcle := hstep.closed e hev
        have hconn : ConnIn (endpoints gv.edges) e.src e.tgt :=
          connIn_of_mem (List.mem_map.2 ⟨e, hev, rfl⟩)
        have hceq := (COMPONENTS_eq_iff gv.nodes (endpoints gv.edges) hes hcle.1 hcle.2).2 hconn
        have e1 : first + (rest.length + 1) - 1 = first + rest.length + 1 - 1 := by omega
        rw [hcomps, hsrc, e1, hlast.2] at hceq
        have hin : e.tgt ∈ List.range' first (rest.length + 1) := by
          rw [← hr, ← hc0]
          simp only [List.mem_filter, decide_eq_true_eq]
          exact ⟨(t3 _).2 hcle.2, hceq.symm⟩
        have hs1 := hstep.step e hev
        rw [List.mem_range'] at hin
        obtain ⟨i, hi1, hi2⟩ := hin
        omega
      · intro i hi
        have hx := hmemc (first + i) (by rw [List.mem_range']; exact ⟨i, by omega, by omega⟩)
        have hy := hmemc (first + i + 1)
          (by rw [List.mem_range']; exact ⟨i + 1, by omega, by omega⟩)
        have hconn : ConnIn (endpoints gv.edges) (first + i) (first + i + 1) := by
          rw [← COMPONENTS_eq_iff gv.nodes (endpoints gv.edges) hes ((t3 _).1 hx.1)
            ((t3 _).1 hy.1), hcomps, hx.2, hy.2]
        have hint := connIn_interval _ hstepE _ _ hconn (first + i) (Or.inl ⟨by omega, by omega⟩)
        obtain ⟨e, he, hp⟩ := List.mem_map.1 hint
        simp only [Prod.mk.injEq] at hp
        rw [← hgv] at he
        have he' := (mem_visiblePart_edges _ _ _).1 he
        refine ⟨e, he'.1, ?_, hp.1, hp.2⟩
        by_contra hk
        rcases h.keep_hidden e he'.1 (by simpa using hk) with hh | hh
        · exact he'.2.1 hh
        · exact he'.2.2 hh

/-- The chains `computeDegree2Chains` returns on a graph with the structure of
`ChainGraph`: no assertion fails and no cycle is found; the chains hold exactly
the nodes that are not hidden, each once; every chain is a nonempty list of
consecutive nodes, and the node before its first node and the node after its
last node are hidden. -/
theorem ChainGraph.chains_spec {g : LGraph} {keep : Nat → Bool} (h : ChainGraph g keep) :
    ∃ chains, computeDegree2Chains g keep = .ok chains ∧
      chains.flatten.Nodup ∧
      (∀ n, n ∈ chains.flatten ↔ n ∈ g.nodes ∧ n ∉ hiddenNodes g keep) ∧
      ∀ c ∈ chains, ∃ first len, 0 < len ∧ c = List.range' first len ∧
        (∀ e ∈ g.edges, e.tgt = first → e.src ∈ hiddenNodes g keep) ∧
        (∀ e ∈ g.edges, e.src = first + len - 1 → e.tgt ∈ hiddenNodes g keep) := by
  obtain ⟨chains, h1, h2, h3, h4⟩ := h.pathGraph.chains_ranges h.degree_ge
  refine ⟨chains, h1, h2, h3, ?_⟩
  intro c hc
  obtain ⟨first, len, g1, g2, g3, g4, -⟩ := h4 c hc
  exact ⟨first, len, g1, g2, g3, g4⟩

end ChainsOfGraph
/-! ## Theorems: the nodes and travel arcs of the lines -/

section LineBlocks

open GraphBuilder

theorem mem_allLineArcs (arcsOf : Line → Nat → Nat → List ArcRecord) (r : ArcRecord) :
    ∀ (lines : t_linemap) (n0 e0 : Nat),
      r ∈ allLineArcs arcsOf lines n0 e0 ↔
        ∃ pre it post, lines = pre ++ it :: post ∧
          r ∈ arcsOf it.2 (n0 + totalStops pre) (e0 + totalSegments pre) := by
  intro lines
  induction lines with
  | nil =>
    intro n0 e0
    simp [allLineArcs]
  | cons x rest ih =>
    intro n0 e0
    simp only [allLineArcs, List.mem_append]
    constructor
    · rintro (h | h)
      · exact ⟨[], x, rest, rfl, by simpa [totalStops, totalSegments] using h⟩
      · obtain ⟨pre, it, post, hl, hr⟩ := (ih _ _).1 h
        refine ⟨x :: pre, it, post, by rw [hl]; rfl, ?_⟩
        rw [totalStops_cons, totalSegments_cons]
        have e1 : n0 + (x.2.stations.length + totalStops pre) =
            n0 + x.2.stations.length + totalStops pre := by omega
        have e2 : e0 + (x.2.stations.length - 1 + totalSegments pre) =
            e0 + (x.2.stations.length - 1) + totalSegments pre := by omega
        rw [e1, e2]
        exact hr
    · rintro ⟨pre, it, post, hl, hr⟩
      cases pre with
      | nil =>
        simp only [List.nil_append, List.cons.injEq] at hl
        obtain ⟨rfl, rfl⟩ := hl
        left
        simpa [totalStops, totalSegments] using hr
      | cons y pre' =>
        simp only [List.cons_append, List.cons.injEq] at hl
        obtain ⟨rfl, rfl⟩ := hl
        right
        apply (ih _ _).2
        refine ⟨pre', it, post, rfl, ?_⟩
        rw [totalStops_cons, totalSegments_cons] at hr
        have e1 : n0 + (x.2.stations.length + totalStops pre') =
            n0 + x.2.stations.length + totalStops pre' := by omega
        have e2 : e0 + (x.2.stations.length - 1 + totalSegments pre') =
            e0 + (x.2.stations.length - 1) + totalSegments pre' := by omega
        rw [e1, e2] at hr
        exact hr

theorem totalStops_block (pre : t_linemap) (it : String × Line) (post : t_linemap) :
    totalStops (pre ++ it :: post) =
      totalStops pre + it.2.stations.length + totalStops post := by
  rw [totalStops_append, totalStops_cons]
  omega

/-- The ranges of nodes of two lines do not overlap. -/
theorem block_unique (pre pre' : t_linemap) (it it' : String × Line) (post post' : t_linemap)
    (h : pre ++ it :: post = pre' ++ it' :: post') (n : Nat)
    (h1 : totalStops pre ≤ n) (h2 : n < totalStops pre + it.2.stations.length)
    (h3 : totalStops pre' ≤ n) (h4 : n < totalStops pre' + it'.2.stations.length) :
    pre = pre' ∧ it = it' ∧ post = post' := by
  rcases List.append_eq_append_iff.1 h with ⟨a, ha, hb⟩ | ⟨c, hc, hd⟩
  · cases a with
    | nil =>
      simp only [List.append_nil, List.nil_append, List.cons.injEq] at ha hb
      exact ⟨ha.symm, hb.1, hb.2⟩
    | cons x a' =>
      simp only [List.cons_append, List.cons.injEq] at hb
      obtain ⟨rfl, -⟩ := hb
      rw [ha, totalStops_append, totalStops_cons] at h3
      omega
  · cases c with
    | nil =>
      simp only [List.append_nil, List.nil_append, List.cons.injEq] at hc hd
      exact ⟨hc, hd.1.symm, hd.2.symm⟩
    | cons x c' =>
      simp only [List.cons_append, List.cons.injEq] at hd
      obtain ⟨rfl, -⟩ := hd
      rw [hc, totalStops_append, totalStops_cons] at h1
      omega

/-- Every node number below the number of stops is in the range of a line. -/
theorem block_exists :
    ∀ (lines : t_linemap) (n : Nat), n < totalStops lines →
      ∃ pre it post k, lines = pre ++ it :: post ∧ k < it.2.stations.length ∧
        n = totalStops pre + k := by
  intro lines
  induction lines with
  | nil =>
    intro n hn
    simp [totalStops] at hn
  | cons x rest ih =>
    intro n hn
    rw [totalStops_cons] at hn
    by_cases hx : n < x.2.stations.length
    · exact ⟨[], x, rest, n, rfl, hx, by simp [totalStops]⟩
    · obtain ⟨pre, it, post, k, hl, hk, hnk⟩ := ih (n - x.2.stations.length) (by omega)
      refine ⟨x :: pre, it, post, k, by rw [hl]; rfl, hk, ?_⟩
      rw [totalStops_cons]
      omega

/-- The end nodes of the travel arcs: an arc leads from a node of a line to the
next node of the line in the same direction. -/
theorem travelArcs_endpoints (lines : t_linemap) (a c : Nat) :
    (∃ r ∈ travelArcs lines, r.src = a ∧ r.tgt = c) ↔
      ∃ pre it post j, lines = pre ++ it :: post ∧ j + 1 < it.2.stations.length ∧ c = a + 1 ∧
        (a = totalStops pre + j ∨ a = totalStops lines + totalStops pre + j) := by
  constructor
  · rintro ⟨r, hr, rfl, rfl⟩
    rw [travelArcs, List.mem_append] at hr
    rcases hr with h | h
    · obtain ⟨pre, it, post, hl, hm⟩ := (mem_allLineArcs forwardArcs r lines 0 0).1 h
      simp only [forwardArcs, List.mem_map, List.mem_range] at hm
      obtain ⟨j, hj, rfl⟩ := hm
      exact ⟨pre, it, post, j, hl, by omega, by simp only; omega, Or.inl (by simp only; omega)⟩
    · obtain ⟨pre, it, post, hl, hm⟩ := (mem_allLineArcs reverseArcs r lines _ _).1 h
      simp only [reverseArcs, List.mem_map, List.mem_range] at hm
      obtain ⟨j, hj, rfl⟩ := hm
      exact ⟨pre, it, post, j, hl, by omega, by simp only; omega, Or.inr (by simp only)⟩
  · rintro ⟨pre, it, post, j, hl, hj, rfl, h | h⟩
    · refine ⟨⟨0 + totalSegments pre + j, 0 + totalStops pre + j, 0 + totalStops pre + (j + 1),
        (it.2.delta (j + 1) : ℚ), it.2.name, false⟩, ?_, by simp only; omega, by simp only; omega⟩
      rw [travelArcs, List.mem_append]
      left
      apply (mem_allLineArcs forwardArcs _ lines 0 0).2
      refine ⟨pre, it, post, hl, ?_⟩
      simp only [forwardArcs, List.mem_map, List.mem_range]
      exact ⟨j, by omega, rfl⟩
    · refine ⟨⟨totalSegments lines + totalSegments pre + j, totalStops lines + totalStops pre + j,
        totalStops lines + totalStops pre + (j + 1),
        (it.2.delta (it.2.stations.length - 1 - j) : ℚ), it.2.name, false⟩, ?_,
        by simp only; omega, by simp only; omega⟩
      rw [travelArcs, List.mem_append]
      right
      apply (mem_allLineArcs reverseArcs _ lines _ _).2
      refine ⟨pre, it, post, hl, ?_⟩
      simp only [reverseArcs, List.mem_map, List.mem_range]
      exact ⟨j, by omega, rfl⟩

/-- Two travel arcs that leave the same node are the same arc. -/
theorem travelArcs_src_unique (lines : t_linemap) (r r' : ArcRecord) (hr : r ∈ travelArcs lines)
    (hr' : r' ∈ travelArcs lines) (hs : r.src = r'.src) : r = r' := by
  have key : ∀ (x : ArcRecord), x ∈ travelArcs lines →
      (∃ pre it post j, lines = pre ++ it :: post ∧ j + 1 < it.2.stations.length ∧
        x = ⟨0 + totalSegments pre + j, 0 + totalStops pre + j, 0 + totalStops pre + (j + 1),
          (it.2.delta (j + 1) : ℚ), it.2.name, false⟩) ∨
      (∃ pre it post j, lines = pre ++ it :: post ∧ j + 1 < it.2.stations.length ∧
        x = ⟨totalSegments lines + totalSegments pre + j, totalStops lines + totalStops pre + j,
          totalStops lines + totalStops pre + (j + 1),
          (it.2.delta (it.2.stations.length - 1 - j) : ℚ), it.2.name, false⟩) := by
    intro x hx
    rw [travelArcs, List.mem_append] at hx
    rcases hx with h | h
    · obtain ⟨pre, it, post, hl, hm⟩ := (mem_allLineArcs forwardArcs x lines 0 0).1 h
      simp only [forwardArcs, List.mem_map, List.mem_range] at hm
      obtain ⟨j, hj, rfl⟩ := hm
      exact Or.inl ⟨pre, it, post, j, hl, by omega, rfl⟩
    · obtain ⟨pre, it, post, hl, hm⟩ := (mem_allLineArcs reverseArcs x lines _ _).1 h
      simp only [reverseArcs, List.mem_map, List.mem_range] at hm
      obtain ⟨j, hj, rfl⟩ := hm
      exact Or.inr ⟨pre, it, post, j, hl, by omega, rfl⟩
  have hbound : ∀ pre it post, lines = pre ++ it :: post →
      totalStops pre + it.2.stations.length ≤ totalStops lines := by
    intro pre it post hl
    rw [hl, totalStops_block]
    omega
  rcases key r hr with ⟨pre, it, post, j, hl, hj, rfl⟩ | ⟨pre, it, post, j, hl, hj, rfl⟩ <;>
    rcases key r' hr' with ⟨pre', it', post', j', hl', hj', rfl⟩ |
      ⟨pre', it', post', j', hl', hj', rfl⟩
  · simp only at hs
    obtain ⟨rfl, rfl, rfl⟩ := block_unique pre pre' it it' post post' (hl.symm.trans hl')
      (totalStops pre + j) (by omega) (by omega) (by omega) (by omega)
    have : j = j' := by omega
    subst this
    rfl
  · simp only at hs
    have := hbound pre it post hl
    omega
  · simp only at hs
    have := hbound pre' it' post' hl'
    omega
  · simp only at hs
    obtain ⟨rfl, rfl, rfl⟩ := block_unique pre pre' it it' post post' (hl.symm.trans hl')
      (totalStops pre + j) (by omega) (by omega) (by omega) (by omega)
    have : j = j' := by omega
    subst this
    rfl

end LineBlocks
/-! ## Theorems: the graph before preprocessing, stop by stop -/

section BuiltGraph

open GraphBuilder

variable {stations : t_stationmap} {lines : t_linemap} {cc sc : ℚ} {type : ProblemType}
  {preprocess : Bool} {b1 : GraphBuilder} {way back : NodeMap} {b2 : GraphBuilder}

/-- The arcs and nodes of the graph before preprocessing. -/
theorem Built.shape (h : Built stations lines cc sc type preprocess b1 way back b2) :
    ∃ (switches calls : List (Nat × Nat)),
      switches.map somePair = switchingPlan stations way back lines type preprocess ∧
      calls.map somePair = transferPlan way back stations ∧
      b2._g.edges = (travelArcs lines).map ArcRecord.toEdge ++
        arcsFrom (2 * totalSegments lines) switches ++
        arcsFrom (2 * totalSegments lines + switches.length)
          (calls.filter (fun p => decide (b2.HasIn p.1) && decide (b2.HasOut p.2))) ∧
      (∀ e ∈ b2._g.edges, b2._connection_arcs e.id = false ↔ e.id < 2 * totalSegments lines) ∧
      (∀ r ∈ travelArcs lines, r.id < 2 * totalSegments lines) ∧
      b2._g.nodes = List.range (2 * totalStops lines) ∧
      b2.Named 0 (totalStops lines) way ∧
      b2.Named (totalStops lines) (2 * totalStops lines) back ∧ b2.FreshIds ∧ b2.Closed := by
  obtain ⟨switches, calls, p1, p2, p3, -, -, p6, p7, p8, p9, p10⟩ :=
    specialGraph_spec stations lines cc sc type preprocess b1 way back b2 h.travel h.special
  obtain ⟨g1, g2, g3, g4, g5, g6, g7⟩ := createNodesAndTravelArcs_sound _ _ _ _ _ _ h.travel
    (sound_init stations lines cc sc) (mapIn_empty _) (mapIn_empty _)
  obtain ⟨sw0, calls0, -, -, k3, -, -⟩ :=
    addSpecialArcs_trace b1 way back type preprocess b2 g1 g2 g3 h.special
  obtain ⟨a1, -, a3, a4⟩ := createNodesAndTravelArcs_nodes _ _ _ _ _ _ _ h.travel
  obtain ⟨-, -, -, -, -, s6, -⟩ := special_shape b1 b1._switch_cost b1._change_cost sw0
    (calls0.filter (transferGuard (b1.addArcs b1._switch_cost sw0)))
  rw [← k3] at s6
  refine ⟨switches, calls, p1, p2, p3, p6, ?_, by rw [s6, a1], p7, p8, p9, p10⟩
  intro r hr
  rw [← a3] at hr
  obtain ⟨e, he, rfl⟩ := List.mem_map.1 hr
  have := g1.1.2 e he
  rw [a4] at this
  exact this

/-- The travel arcs of the graph before preprocessing are the travel arcs of the lines. -/
theorem Built.travel_arc_iff (h : Built stations lines cc sc type preprocess b1 way back b2)
    (a c : Nat) :
    (∃ e ∈ b2._g.edges, b2._connection_arcs e.id = false ∧ e.src = a ∧ e.tgt = c) ↔
      ∃ r ∈ travelArcs lines, r.src = a ∧ r.tgt = c := by
  obtain ⟨switches, calls, -, -, p3, p4, p5, -⟩ := h.shape
  constructor
  · rintro ⟨e, he, hflag, rfl, rfl⟩
    have hlt := (p4 e he).1 hflag
    rw [p3] at he
    rcases List.mem_append.1 he with h1 | h1
    · rcases List.mem_append.1 h1 with h2 | h2
      · obtain ⟨r, hr, rfl⟩ := List.mem_map.1 h2
        exact ⟨r, hr, rfl, rfl⟩
      · obtain ⟨-, hlo, -⟩ := pair_of_mem_arcsFrom _ _ _ h2
        omega
    · obtain ⟨-, hlo, -⟩ := pair_of_mem_arcsFrom _ _ _ h1
      omega
  · rintro ⟨r, hr, rfl, rfl⟩
    have hmem : r.toEdge ∈ b2._g.edges := by
      rw [p3]
      exact List.mem_append_left _ (List.mem_append_left _ (List.mem_map.2 ⟨r, hr, rfl⟩))
    exact ⟨r.toEdge, hmem, (p4 _ hmem).2 (p5 r hr), rfl, rfl⟩

/-- A travel arc leaves a node exactly if the node is not the last of its line
in its direction. -/
theorem Built.hasOut_iff (h : Built stations lines cc sc type preprocess b1 way back b2)
    (n : Nat) :
    b2.HasOut n ↔ ∃ pre it post j, lines = pre ++ it :: post ∧ j + 1 < it.2.stations.length ∧
      (n = totalStops pre + j ∨ n = totalStops lines + totalStops pre + j) := by
  constructor
  · rintro ⟨e, he, hs, hflag⟩
    obtain ⟨pre, it, post, j, hl, hj, -, hn⟩ :=
      (travelArcs_endpoints lines n e.tgt).1 ((h.travel_arc_iff n e.tgt).1 ⟨e, he, hflag, hs, rfl⟩)
    exact ⟨pre, it, post, j, hl, hj, hn⟩
  · rintro ⟨pre, it, post, j, hl, hj, hn⟩
    obtain ⟨e, he, hflag, hs, -⟩ := (h.travel_arc_iff n (n + 1)).2
      ((travelArcs_endpoints lines n (n + 1)).2 ⟨pre, it, post, j, hl, hj, rfl, hn⟩)
    exact ⟨e, he, hs, hflag⟩

/-- A travel arc enters a node exactly if the node is not the first of its line
in its direction. -/
theorem Built.hasIn_iff (h : Built stations lines cc sc type preprocess b1 way back b2)
    (n : Nat) :
    b2.HasIn n ↔ ∃ pre it post j, lines = pre ++ it :: post ∧ j + 1 < it.2.stations.length ∧
      (n = totalStops pre + j + 1 ∨ n = totalStops lines + totalStops pre + j + 1) := by
  constructor
  · rintro ⟨e, he, hs, hflag⟩
    obtain ⟨pre, it, post, j, hl, hj, hc, hn⟩ :=
      (travelArcs_endpoints lines e.src n).1 ((h.travel_arc_iff e.src n).1 ⟨e, he, hflag, rfl, hs⟩)
    exact ⟨pre, it, post, j, hl, hj, by omega⟩
  · rintro ⟨pre, it, post, j, hl, hj, hn⟩
    obtain ⟨e, he, hflag, -, ht⟩ := (h.travel_arc_iff (n - 1) n).2
      ((travelArcs_endpoints lines (n - 1) n).2 ⟨pre, it, post, j, hl, hj, by omega, by omega⟩)
    exact ⟨e, he, ht, hflag⟩

theorem totalStops_block_le {lines pre post : t_linemap} {it : String × Line}
    (hl : lines = pre ++ it :: post) :
    totalStops pre + it.2.stations.length ≤ totalStops lines := by
  rw [hl, totalStops_block]
  omega

/-- The two nodes of a stop of a line and their travel arcs. -/
theorem Built.stopAt (h : Built stations lines cc sc type preprocess b1 way back b2)
    (pre : t_linemap) (it : String × Line) (post : t_linemap) (hl : lines = pre ++ it :: post)
    (k : Nat) (s : String) (hk : it.2.stations[k]? = some s) :
    b2.StopAt way back lines it k s (totalStops pre + k)
      (totalStops lines + totalStops pre + (it.2.stations.length - 1 - k)) := by
  have hklt : k < it.2.stations.length := by
    by_contra hge
    rw [List.getElem?_eq_none (by omega)] at hk
    exact absurd hk (by simp)
  have hb := totalStops_block_le hl
  obtain ⟨m1, m2⟩ := createNodesAndTravelArcs_maps stations lines cc sc b1 way back h.travel
    h.valid.line_names h.valid.stops_nodup pre it post hl k s hk
  have key : ∀ (pre' : t_linemap) (it' : String × Line) (post' : t_linemap) (j : Nat),
      lines = pre' ++ it' :: post' → j < it'.2.stations.length →
      totalStops pre' ≤ totalStops pre + k → totalStops pre + k < totalStops pre' +
        it'.2.stations.length → pre' = pre ∧ it' = it := by
    intro pre' it' post' j hl' _ h1 h2
    obtain ⟨q1, q2, -⟩ := block_unique pre' pre it' it post' post (hl'.symm.trans hl)
      (totalStops pre + k) h1 h2 (by omega) (by omega)
    exact ⟨q1, q2⟩
  have key2 : ∀ (pre' : t_linemap) (it' : String × Line) (post' : t_linemap) (m : Nat),
      lines = pre' ++ it' :: post' →
      totalStops pre' ≤ m → m < totalStops pre' + it'.2.stations.length →
      totalStops pre ≤ m → m < totalStops pre + it.2.stations.length →
      pre' = pre ∧ it' = it := by
    intro pre' it' post' m hl' h1 h2 h3 h4
    obtain ⟨q1, q2, -⟩ := block_unique pre' pre it' it post' post (hl'.symm.trans hl)
      m h1 h2 h3 h4
    exact ⟨q1, q2⟩
  refine ⟨by rw [hl]; simp, hk, m1, m2, ?_, ?_, ?_, ?_⟩
  · rw [h.hasIn_iff]
    constructor
    · rintro ⟨pre', it', post', j, hl', hj, hn | hn⟩
      · obtain ⟨rfl, rfl⟩ := key2 pre' it' post' (totalStops pre + k) hl' (by omega) (by omega)
          (by omega) (by omega)
        omega
      · have := totalStops_block_le hl'
        omega
    · intro hpos
      exact ⟨pre, it, post, k - 1, hl, by omega, Or.inl (by omega)⟩
  · rw [h.hasOut_iff]
    constructor
    · rintro ⟨pre', it', post', j, hl', hj, hn | hn⟩
      · obtain ⟨rfl, rfl⟩ := key2 pre' it' post' (totalStops pre + k) hl' (by omega) (by omega)
          (by omega) (by omega)
        omega
      · have := totalStops_block_le hl'
        omega
    · intro hpos
      exact ⟨pre, it, post, k, hl, hpos, Or.inl rfl⟩
  · rw [h.hasIn_iff]
    constructor
    · rintro ⟨pre', it', post', j, hl', hj, hn | hn⟩
      · have := totalStops_block_le hl'
        omega
      · obtain ⟨rfl, rfl⟩ := key2 pre' it' post'
          (totalStops pre + (it.2.stations.length - 1 - k)) hl' (by omega) (by omega)
          (by omega) (by omega)
        omega
    · intro hpos
      exact ⟨pre, it, post, it.2.stations.length - 1 - k - 1, hl, by omega, Or.inr (by omega)⟩
  · rw [h.hasOut_iff]
    constructor
    · rintro ⟨pre', it', post', j, hl', hj, hn | hn⟩
      · have := totalStops_block_le hl'
        omega
      · obtain ⟨rfl, rfl⟩ := key2 pre' it' post'
          (totalStops pre + (it.2.stations.length - 1 - k)) hl' (by omega) (by omega)
          (by omega) (by omega)
        omega
    · intro hpos
      exact ⟨pre, it, post, it.2.stations.length - 1 - k, hl, by omega, Or.inr rfl⟩

end BuiltGraph
/-! ## Theorems: the switch arcs and transfer arcs of the stops -/

section BuiltPlans

open GraphBuilder

variable {stations : t_stationmap} {lines : t_linemap} {cc sc : ℚ} {type : ProblemType}
  {preprocess : Bool} {b1 : GraphBuilder} {way back : NodeMap} {b2 : GraphBuilder}

theorem Built.stop_sides (h : Built stations lines cc sc type preprocess b1 way back b2)
    {it : String × Line} {k : Nat} {s : String} {w r : Nat}
    (hs : b2.StopAt way back lines it k s w r) :
    w < totalStops lines ∧ totalStops lines ≤ r ∧ r < 2 * totalStops lines ∧
      b2._node_names w = s ∧ b2._node_names r = s := by
  obtain ⟨-, -, -, -, -, -, -, -, n1, n2, -⟩ := h.shape
  obtain ⟨-, q1, q2, -⟩ := n1 _ _ _ hs.way_node
  obtain ⟨q3, q4, q5, -⟩ := n2 _ _ _ hs.back_node
  exact ⟨q1, q3, q4, q2, q5⟩

theorem Built.line_of_name (h : Built stations lines cc sc type preprocess b1 way back b2)
    {it it' : String × Line} (hit : it ∈ lines) (hit' : it' ∈ lines)
    (hn : it.2.name = it'.2.name) : it = it' :=
  List.inj_on_of_nodup_map h.valid.line_names hit hit' hn

/-- A node is a node of one stop only. -/
theorem Built.stop_unique (h : Built stations lines cc sc type preprocess b1 way back b2)
    {it it' : String × Line} {k k' : Nat} {s s' : String} {w w' r r' : Nat}
    (h1 : b2.StopAt way back lines it k s w r) (h2 : b2.StopAt way back lines it' k' s' w' r')
    (hn : w = w' ∨ r = r') : it = it' ∧ s = s' ∧ w = w' ∧ r = r' := by
  obtain ⟨-, -, -, -, -, -, -, -, n1, n2, -⟩ := h.shape
  have key : it = it' ∧ s = s' := by
    rcases hn with hn | hn
    · obtain ⟨-, -, q2, q3⟩ := n1 _ _ _ h1.way_node
      obtain ⟨-, -, q2', -⟩ := n1 _ _ _ h2.way_node
      have hname := q3 it'.2.name s' (by rw [hn]; exact h2.way_node)
      rw [← hn] at q2'
      exact ⟨h.line_of_name h1.line h2.line hname.symm, q2.symm.trans q2'⟩
    · obtain ⟨-, -, q2, q3⟩ := n2 _ _ _ h1.back_node
      obtain ⟨-, -, q2', -⟩ := n2 _ _ _ h2.back_node
      have hname := q3 it'.2.name s' (by rw [hn]; exact h2.back_node)
      rw [← hn] at q2'
      exact ⟨h.line_of_name h1.line h2.line hname.symm, q2.symm.trans q2'⟩
  obtain ⟨rfl, rfl⟩ := key
  have e1 := h1.way_node.symm.trans h2.way_node
  have e2 := h1.back_node.symm.trans h2.back_node
  simp only [Option.some.injEq] at e1 e2
  exact ⟨rfl, rfl, e1, e2⟩

/-- Every stop of a line has its two nodes. -/
theorem Built.stop_of_line (h : Built stations lines cc sc type preprocess b1 way back b2)
    {it : String × Line} (hit : it ∈ lines) {s : String} (hs : s ∈ it.2.stations) :
    ∃ k w r, b2.StopAt way back lines it k s w r := by
  obtain ⟨pre, post, hl⟩ := List.append_of_mem hit
  obtain ⟨k, hk, hget⟩ := List.mem_iff_getElem.1 hs
  exact ⟨k, _, _, h.stopAt pre it post hl k s (by rw [List.getElem?_eq_getElem hk, hget])⟩

/-- Every node is a node of a stop. -/
theorem Built.stop_of_node (h : Built stations lines cc sc type preprocess b1 way back b2)
    {n : Nat} (hn : n ∈ b2._g.nodes) :
    ∃ it k s w r, b2.StopAt way back lines it k s w r ∧ (n = w ∨ n = r) := by
  obtain ⟨-, -, -, -, -, -, -, p6, -⟩ := h.shape
  rw [p6, List.mem_range] at hn
  by_cases hlt : n < totalStops lines
  · obtain ⟨pre, it, post, k, hl, hk, hnk⟩ := block_exists lines n hlt
    exact ⟨it, k, it.2.stations[k], _, _,
      h.stopAt pre it post hl k _ (List.getElem?_eq_getElem hk), Or.inl hnk⟩
  · obtain ⟨pre, it, post, j, hl, hj, hnj⟩ := block_exists lines (n - totalStops lines)
      (by omega)
    have hk : it.2.stations.length - 1 - j < it.2.stations.length := by omega
    exact ⟨it, it.2.stations.length - 1 - j, it.2.stations[it.2.stations.length - 1 - j], _, _,
      h.stopAt pre it post hl _ _ (List.getElem?_eq_getElem hk), Or.inr (by omega)⟩

/-- The two nodes of a stop are twins, in both orders. -/
theorem Built.twins (h : Built stations lines cc sc type preprocess b1 way back b2)
    {it : String × Line} {k : Nat} {s : String} {w r : Nat}
    (hs : b2.StopAt way back lines it k s w r) :
    b2.Twin way back s it.2.name w r ∧ b2.Twin way back s it.2.name r w := by
  obtain ⟨q1, q2, -⟩ := h.stop_sides hs
  have hlen := h.two_stops it hs.line
  have hk : k < it.2.stations.length := by
    by_contra hge
    have := hs.stop
    rw [List.getElem?_eq_none (by omega)] at this
    exact absurd this (by simp)
  refine ⟨⟨Or.inl ⟨hs.way_node, hs.back_node⟩, by omega, ?_, ?_, ?_⟩,
    ⟨Or.inr ⟨hs.back_node, hs.way_node⟩, by omega, ?_, ?_, ?_⟩⟩
  · rw [hs.way_in, hs.back_out]
  · rw [hs.way_out, hs.back_in]
  · rw [hs.way_in, hs.way_out]; omega
  · rw [hs.back_in, hs.way_out]
  · rw [hs.back_out, hs.way_in]
  · rw [hs.back_in, hs.back_out]; omega

/-- An arc to keep is a switch arc of the plan or a transfer arc that passed the
guard of `addConnectionEdge`. -/
theorem Built.keep_cases (h : Built stations lines cc sc type preprocess b1 way back b2)
    {e : Edge} (he : e ∈ b2._g.edges) (hk : b2._connection_arcs e.id = true) :
    somePair (e.src, e.tgt) ∈ switchingPlan stations way back lines type preprocess ∨
      (somePair (e.src, e.tgt) ∈ transferPlan way back stations ∧
        b2.HasIn e.src ∧ b2.HasOut e.tgt) := by
  obtain ⟨switches, calls, p1, p2, p3, p4, p5, -⟩ := h.shape
  have hge : ¬ e.id < 2 * totalSegments lines := by
    intro hlt
    rw [(p4 e he).2 hlt] at hk
    exact absurd hk (by simp)
  rw [p3] at he
  rcases List.mem_append.1 he with h1 | h1
  · rcases List.mem_append.1 h1 with h2 | h2
    · obtain ⟨r, hr, rfl⟩ := List.mem_map.1 h2
      exact absurd (p5 r hr) hge
    · left
      rw [← p1]
      exact List.mem_map.2 ⟨_, (pair_of_mem_arcsFrom _ _ _ h2).1, rfl⟩
  · right
    have hm := (pair_of_mem_arcsFrom _ _ _ h1).1
    obtain ⟨hc, hg⟩ := List.mem_filter.1 hm
    simp only [Bool.and_eq_true, decide_eq_true_eq] at hg
    rw [← p2]
    exact ⟨List.mem_map.2 ⟨_, hc, rfl⟩, hg.1, hg.2⟩

/-- Every pair of the switching plan has its arc. -/
theorem Built.edge_of_switch (h : Built stations lines cc sc type preprocess b1 way back b2)
    (p : Nat × Nat)
    (hp : somePair p ∈ switchingPlan stations way back lines type preprocess) :
    ∃ e ∈ b2._g.edges, b2._connection_arcs e.id = true ∧ e.src = p.1 ∧ e.tgt = p.2 := by
  obtain ⟨switches, calls, p1, p2, p3, p4, p5, -⟩ := h.shape
  rw [← p1] at hp
  obtain ⟨p', hp', heq⟩ := List.mem_map.1 hp
  have := somePair_injective _ _ heq
  subst this
  obtain ⟨e, he, hs, ht, hlo, -⟩ := mem_arcsFrom_of_mem (2 * totalSegments lines) switches p' hp'
  have hmem : e ∈ b2._g.edges := by
    rw [p3]
    exact List.mem_append_left _ (List.mem_append_right _ he)
  refine ⟨e, hmem, ?_, hs, ht⟩
  cases hf : b2._connection_arcs e.id with
  | true => rfl
  | false =>
    have := (p4 e hmem).1 hf
    omega

/-- Every pair of the transfer plan that passes the guard has its arc. -/
theorem Built.edge_of_transfer (h : Built stations lines cc sc type preprocess b1 way back b2)
    (p : Nat × Nat) (hp : somePair p ∈ transferPlan way back stations)
    (hin : b2.HasIn p.1) (hout : b2.HasOut p.2) :
    ∃ e ∈ b2._g.edges, b2._connection_arcs e.id = true ∧ e.src = p.1 ∧ e.tgt = p.2 := by
  obtain ⟨switches, calls, p1, p2, p3, p4, p5, -⟩ := h.shape
  rw [← p2] at hp
  obtain ⟨p', hp', heq⟩ := List.mem_map.1 hp
  have := somePair_injective _ _ heq
  subst this
  have hf : p' ∈ calls.filter (fun p => decide (b2.HasIn p.1) && decide (b2.HasOut p.2)) :=
    List.mem_filter.2 ⟨hp', by simp [hin, hout]⟩
  obtain ⟨e, he, hs, ht, hlo, -⟩ :=
    mem_arcsFrom_of_mem (2 * totalSegments lines + switches.length) _ p' hf
  have hmem : e ∈ b2._g.edges := by
    rw [p3]
    exact List.mem_append_right _ he
  refine ⟨e, hmem, ?_, hs, ht⟩
  cases hf : b2._connection_arcs e.id with
  | true => rfl
  | false =>
    have := (p4 e hmem).1 hf
    omega

end BuiltPlans
/-! ## Theorems: which stops have switch arcs and transfer arcs -/

section BuiltArcs

open GraphBuilder

variable {stations : t_stationmap} {lines : t_linemap} {cc sc : ℚ} {type : ProblemType}
  {preprocess : Bool} {b1 : GraphBuilder} {way back : NodeMap} {b2 : GraphBuilder}

theorem mem_terminalSwitchesOf (way back : NodeMap) (line : Line) (q : Option Nat × Option Nat)
    (hq : q ∈ terminalSwitchesOf way back line) :
    ∃ s ∈ line.stations, q = (way line.name s, back line.name s) ∨
      q = (back line.name s, way line.name s) := by
  unfold terminalSwitchesOf at hq
  cases hh : line.stations.head? with
  | none => rw [hh] at hq; simp at hq
  | some first =>
    cases hl : line.stations.getLast? with
    | none => rw [hh, hl] at hq; simp at hq
    | some last =>
      rw [hh, hl] at hq
      have hf : first ∈ line.stations := List.mem_of_mem_head? hh
      have hla : last ∈ line.stations := by
        obtain ⟨ys, hys⟩ := List.getLast?_eq_some_iff.1 hl
        rw [hys]; simp
      simp only at hq
      split at hq
      · simp only [List.mem_cons, List.mem_singleton, List.not_mem_nil, or_false] at hq
        rcases hq with rfl | rfl
        · exact ⟨first, hf, Or.inr rfl⟩
        · exact ⟨last, hla, Or.inl rfl⟩
      · simp only [List.mem_singleton] at hq
        exact ⟨first, hf, Or.inr hq⟩

theorem mem_terminalPlanLine (way back : NodeMap) (l : String) (sts : List String) (k : Nat)
    (s : String) (ht : isTerminalStation k sts = true) :
    ∀ (ps : List (Nat × String)), (k, s) ∈ ps →
      terminalSwitch way back l k s ∈ terminalPlanLine way back l sts ps := by
  intro ps
  induction ps with
  | nil => intro hm; simp at hm
  | cons x rest ih =>
    intro hm
    obtain ⟨i, station⟩ := x
    simp only [terminalPlanLine, List.mem_append]
    rcases List.mem_cons.1 hm with heq | hm'
    · left
      simp only [Prod.mk.injEq] at heq
      obtain ⟨rfl, rfl⟩ := heq
      rw [if_pos ht]
      simp
    · exact Or.inr (ih hm')

theorem findStation_of_mem (hk : StationKeys stations) {st : String × Station}
    (hst : st ∈ stations) : findStation stations st.2.name = some st.2 := by
  have key : ∀ (l : t_stationmap), (l.map Prod.fst).Nodup → st ∈ l →
      l.find? (fun p => p.1 == st.1) = some st := by
    intro l
    induction l with
    | nil => intro _ hm; simp at hm
    | cons x rest ih =>
      intro hnd hmem
      rw [List.map_cons, List.nodup_cons] at hnd
      rw [List.find?_cons]
      rcases List.mem_cons.1 hmem with heq | hm
      · subst heq
        simp
      · have hne : x.1 ≠ st.1 := fun heq => hnd.1 (heq ▸ List.mem_map_of_mem Prod.fst hm)
        have hf : (x.1 == st.1) = false := by simpa using hne
        rw [hf]
        exact ih hnd.2 hm
  unfold findStation
  rw [← hk.key_name st hst, key stations hk.keys_nodup hst]
  rfl

theorem servesSeveralLines_of_mem (hk : StationKeys stations) {st : String × Station}
    (hst : st ∈ stations) :
    servesSeveralLines stations st.2.name = decide (st.2.lines.length > 1) := by
  unfold servesSeveralLines
  rw [findStation_of_mem hk hst]

/-- A station that lists two lines serves several lines. -/
theorem servesSeveralLines_of_two (hk : StationKeys stations) {st : String × Station}
    (hst : st ∈ stations) {a c : String} (ha : a ∈ st.2.lines) (hc : c ∈ st.2.lines)
    (hac : a ≠ c) : servesSeveralLines stations st.2.name = true := by
  rw [servesSeveralLines_of_mem hk hst, decide_eq_true_eq]
  match hl : st.2.lines, ha, hc with
  | [], ha, _ => simp at ha
  | [x], ha, hc =>
    simp only [List.mem_singleton] at ha hc
    exact absurd (ha.trans hc.symm) hac
  | _ :: _ :: _, _, _ => simp

/-- Every switch arc joins the two nodes of a stop; under the restricted rule
the station of the stop does not serve several lines. -/
theorem Built.switch_stop (h : Built stations lines cc sc type preprocess b1 way back b2)
    (p : Nat × Nat)
    (hp : somePair p ∈ switchingPlan stations way back lines type preprocess) :
    ∃ it k s w r, b2.StopAt way back lines it k s w r ∧
      ((p.1 = w ∧ p.2 = r) ∨ (p.1 = r ∧ p.2 = w)) ∧
      (preprocess = true → type ≠ .SEGMENT → servesSeveralLines stations s = false) := by
  have gen : ∀ it ∈ lines, ∀ s ∈ it.2.stations,
      (somePair p = (way it.2.name s, back it.2.name s) ∨
        somePair p = (back it.2.name s, way it.2.name s)) →
      ∃ k w r, b2.StopAt way back lines it k s w r ∧
        ((p.1 = w ∧ p.2 = r) ∨ (p.1 = r ∧ p.2 = w)) := by
    intro it hit s hs hq
    obtain ⟨k, w, r, hst⟩ := h.stop_of_line hit hs
    refine ⟨k, w, r, hst, ?_⟩
    rw [hst.way_node, hst.back_node] at hq
    simp only [somePair, Prod.mk.injEq, Option.some.injEq] at hq
    exact hq
  unfold switchingPlan at hp
  cases preprocess with
  | false =>
    simp only [Bool.not_false, if_true] at hp
    obtain ⟨it, hit, s, hs, hq⟩ := (mem_allSwitchingPlan _ _ _ _).1 hp
    obtain ⟨k, w, r, hst, ho⟩ := gen it hit s hs hq
    exact ⟨it, k, s, w, r, hst, ho, by simp⟩
  | true =>
    simp only [Bool.not_true, Bool.false_eq_true, if_false] at hp
    by_cases hty : type = .SEGMENT
    · rw [if_pos hty, terminalPlan_eq] at hp
      obtain ⟨it, hit, hq⟩ := List.mem_flatMap.1 hp
      obtain ⟨s, hs, hq'⟩ := mem_terminalSwitchesOf way back it.2 _ hq
      obtain ⟨k, w, r, hst, ho⟩ := gen it hit s hs hq'
      exact ⟨it, k, s, w, r, hst, ho, fun _ hne => absurd hty hne⟩
    · rw [if_neg hty, restrictedPlan_eq] at hp
      obtain ⟨it, hit, hq⟩ := List.mem_flatMap.1 hp
      obtain ⟨⟨i, s⟩, his, hq⟩ := List.mem_flatMap.1 hq
      obtain ⟨q1, q2, -⟩ := mem_restrictedSwitchesAt _ _ _ _ _ _ _ _ hq
      have hs : s ∈ it.2.stations := by
        have := List.mem_enum his
        rw [this.2]
        exact List.getElem_mem _
      obtain ⟨k, w, r, hst, ho⟩ := gen it hit s hs q2
      exact ⟨it, k, s, w, r, hst, ho, fun _ _ => q1⟩

/-- A switch arc joins the two nodes of every stop when the graph is not
preprocessed, and of every terminal stop otherwise, under the restricted rule
unless the station serves several lines. -/
theorem Built.switch_exists (h : Built stations lines cc sc type preprocess b1 way back b2)
    {it : String × Line} {k : Nat} {s : String} {w r : Nat}
    (hs : b2.StopAt way back lines it k s w r)
    (hc : preprocess = false ∨ ((k = 0 ∨ k + 1 = it.2.stations.length) ∧
      (type = .SEGMENT ∨ servesSeveralLines stations s = false))) :
    ∃ e ∈ b2._g.edges, b2._connection_arcs e.id = true ∧
      ((e.src = w ∧ e.tgt = r) ∨ (e.src = r ∧ e.tgt = w)) := by
  have hmem : s ∈ it.2.stations := List.getElem?_mem hs.stop
  have hterm : (k = 0 ∨ k + 1 = it.2.stations.length) → isTerminalStation k it.2.stations = true := by
    intro hk
    simp only [isTerminalStation, Bool.or_eq_true, beq_iff_eq]
    exact hk
  have hts : terminalSwitch way back it.2.name k s = somePair (w, r) ∨
      terminalSwitch way back it.2.name k s = somePair (r, w) := by
    unfold terminalSwitch
    rw [hs.way_node, hs.back_node]
    by_cases hk0 : k = 0
    · rw [if_pos hk0]; exact Or.inr rfl
    · rw [if_neg hk0]; exact Or.inl rfl
  have key : somePair (w, r) ∈ switchingPlan stations way back lines type preprocess ∨
      somePair (r, w) ∈ switchingPlan stations way back lines type preprocess := by
    unfold switchingPlan
    cases preprocess with
    | false =>
      left
      simp only [Bool.not_false, if_true]
      refine (mem_allSwitchingPlan _ _ _ _).2 ⟨it, hs.line, s, hmem, Or.inl ?_⟩
      rw [hs.way_node, hs.back_node]
      rfl
    | true =>
      simp only [Bool.not_true, Bool.false_eq_true, if_false]
      rcases hc with hc | ⟨hk, hc⟩
      · exact absurd hc (by simp)
      · by_cases hty : type = .SEGMENT
        · rw [if_pos hty]
          have hin : terminalSwitch way back it.2.name k s ∈ terminalPlan way back lines := by
            unfold terminalPlan
            exact List.mem_flatMap.2 ⟨it, hs.line,
              mem_terminalPlanLine way back it.2.name it.2.stations k s (hterm hk) _
                (List.mk_mem_enum_iff_getElem?.2 hs.stop)⟩
          rcases hts with e1 | e1
          · left; rw [← e1]; exact hin
          · right; rw [← e1]; exact hin
        · rw [if_neg hty]
          have hsev : servesSeveralLines stations s = false := by
            rcases hc with hc | hc
            · exact absurd hc hty
            · exact hc
          have hin : terminalSwitch way back it.2.name k s ∈
              restrictedPlan stations way back lines := by
            rw [restrictedPlan_eq]
            refine List.mem_flatMap.2 ⟨it, hs.line, List.mem_flatMap.2 ⟨(k, s),
              List.mk_mem_enum_iff_getElem?.2 hs.stop, ?_⟩⟩
            simp only [restrictedSwitchesAt, hsev, hterm hk, Bool.false_eq_true, if_false,
              if_true, List.mem_singleton]
          rcases hts with e1 | e1
          · left; rw [← e1]; exact hin
          · right; rw [← e1]; exact hin
  rcases key with hk | hk
  · obtain ⟨e, he, hf, h1, h2⟩ := h.edge_of_switch _ hk
    exact ⟨e, he, hf, Or.inl ⟨h1, h2⟩⟩
  · obtain ⟨e, he, hf, h1, h2⟩ := h.edge_of_switch _ hk
    exact ⟨e, he, hf, Or.inr ⟨h1, h2⟩⟩

/-- Every pair of the transfer plan joins nodes of two lines listed by one station. -/
theorem Built.transfer_stop (h : Built stations lines cc sc type preprocess b1 way back b2)
    (p : Nat × Nat) (hp : somePair p ∈ transferPlan way back stations) :
    ∃ st ∈ stations, ∃ a c, a ∈ st.2.lines ∧ c ∈ st.2.lines ∧ a ≠ c ∧
      (way a st.2.name = some p.1 ∨ back a st.2.name = some p.1) ∧
      (way c st.2.name = some p.2 ∨ back c st.2.name = some p.2) := by
  obtain ⟨st, hst, ⟨x, y⟩, hpr, hq⟩ := (mem_transferPlan _ _ _ _).1 hp
  obtain ⟨hx, hy, hne⟩ := mem_laterPairs _ _ _ hpr
  have hxy := hne (h.valid.lines_set st hst)
  rcases (mem_connectionPairs _ _ _ _ _ _).1 hq with ⟨q1, q2⟩ | ⟨q1, q2⟩
  · simp only [somePair, List.mem_cons, List.mem_singleton, List.not_mem_nil, or_false] at q1 q2
    exact ⟨st, hst, x, y, hx, hy, hxy, q1.imp Eq.symm Eq.symm, q2.imp Eq.symm Eq.symm⟩
  · simp only [somePair, List.mem_cons, List.mem_singleton, List.not_mem_nil, or_false] at q1 q2
    exact ⟨st, hst, y, x, hy, hx, Ne.symm hxy, q1.imp Eq.symm Eq.symm, q2.imp Eq.symm Eq.symm⟩

theorem Built.transfer_mem (_h : Built stations lines cc sc type preprocess b1 way back b2)
    {st : String × Station} (hst : st ∈ stations) {a c : String} (ha : a ∈ st.2.lines)
    (hc : c ∈ st.2.lines) (hac : a ≠ c) (q : Option Nat × Option Nat)
    (h1 : q.1 = way a st.2.name ∨ q.1 = back a st.2.name)
    (h2 : q.2 = way c st.2.name ∨ q.2 = back c st.2.name) :
    q ∈ transferPlan way back stations := by
  rcases laterPairs_of_ne _ _ _ ha hc hac with hp | hp
  · refine (mem_transferPlan _ _ _ _).2 ⟨st, hst, (a, c), hp, ?_⟩
    refine (mem_connectionPairs _ _ _ _ _ _).2 (Or.inl ⟨?_, ?_⟩)
    · simpa using h1
    · simpa using h2
  · refine (mem_transferPlan _ _ _ _).2 ⟨st, hst, (c, a), hp, ?_⟩
    refine (mem_connectionPairs _ _ _ _ _ _).2 (Or.inr ⟨?_, ?_⟩)
    · simpa using h1
    · simpa using h2

/-- A line listed by a station next to another line stops at the station. -/
theorem Built.listed_stop (h : Built stations lines cc sc type preprocess b1 way back b2)
    {st : String × Station} (hst : st ∈ stations) {a c : String} (ha : a ∈ st.2.lines)
    (hc : c ∈ st.2.lines) (hac : a ≠ c) :
    ∃ it k w r, b2.StopAt way back lines it k st.2.name w r ∧ it.2.name = a := by
  obtain ⟨switches, calls, -, p2, -⟩ := h.shape
  have hq := h.transfer_mem hst ha hc hac (way a st.2.name, way c st.2.name)
    (Or.inl rfl) (Or.inl rfl)
  rw [← p2] at hq
  obtain ⟨p', -, heq⟩ := List.mem_map.1 hq
  simp only [somePair, Prod.mk.injEq] at heq
  obtain ⟨-, hT, -, -⟩ := createNodesAndTravelArcs_spec stations lines cc sc h.valid b1 way back
    h.travel
  obtain ⟨it, hit, hname, hs⟩ := hT.known a st.2.name p'.1 (Or.inl heq.1.symm)
  obtain ⟨k, w, r, hstop⟩ := h.stop_of_line hit hs
  exact ⟨it, k, w, r, hstop, hname⟩

/-- The transfer arc between nodes of two lines listed by one station exists
when a travel arc enters the first node and a travel arc leaves the second. -/
theorem Built.transfer_exists (h : Built stations lines cc sc type preprocess b1 way back b2)
    {st : String × Station} (hst : st ∈ stations) {a c : String} (ha : a ∈ st.2.lines)
    (hc : c ∈ st.2.lines) (hac : a ≠ c) {u v : Nat}
    (hu : way a st.2.name = some u ∨ back a st.2.name = some u)
    (hv : way c st.2.name = some v ∨ back c st.2.name = some v)
    (hin : b2.HasIn u) (hout : b2.HasOut v) :
    ∃ e ∈ b2._g.edges, b2._connection_arcs e.id = true ∧ e.src = u ∧ e.tgt = v :=
  h.edge_of_transfer (u, v)
    (h.transfer_mem hst ha hc hac (somePair (u, v)) (hu.imp Eq.symm Eq.symm)
      (hv.imp Eq.symm Eq.symm)) hin hout

end BuiltArcs
/-! ## Theorems: the arcs at a node of the graph before preprocessing -/

section LocalArcs

open GraphBuilder

variable {stations : t_stationmap} {lines : t_linemap} {cc sc : ℚ} {type : ProblemType}
  {preprocess : Bool} {b1 : GraphBuilder} {way back : NodeMap} {b2 : GraphBuilder}

theorem allLineArcs_ids (arcsOf : Line → Nat → Nat → List ArcRecord)
    (hids : ∀ line n0 e0, (arcsOf line n0 e0).map ArcRecord.id =
      List.range' e0 (line.stations.length - 1)) (lines : t_linemap) :
    ∀ n0 e0, (allLineArcs arcsOf lines n0 e0).map ArcRecord.id =
      List.range' e0 (totalSegments lines) := by
  induction lines with
  | nil => intro n0 e0; rfl
  | cons it rest ih =>
    intro n0 e0
    rw [allLineArcs, List.map_append, hids, ih, totalSegments_cons, List.range'_append_1]
    congr 1
    omega

theorem travelArcs_ids (lines : t_linemap) :
    (travelArcs lines).map ArcRecord.id = List.range' 0 (2 * totalSegments lines) := by
  have hf : ∀ (line : Line) (n0 e0 : Nat), (forwardArcs line n0 e0).map ArcRecord.id =
      List.range' e0 (line.stations.length - 1) := by
    intro line n0 e0
    simp only [forwardArcs, List.map_map]
    rw [List.range'_eq_map_range]
    rfl
  have hr : ∀ (line : Line) (n0 e0 : Nat), (reverseArcs line n0 e0).map ArcRecord.id =
      List.range' e0 (line.stations.length - 1) := by
    intro line n0 e0
    simp only [reverseArcs, List.map_map]
    rw [List.range'_eq_map_range]
    rfl
  rw [travelArcs, List.map_append, allLineArcs_ids _ hf, allLineArcs_ids _ hr]
  have := List.range'_append_1 0 (totalSegments lines) (totalSegments lines)
  rw [Nat.zero_add] at this
  rw [this]
  congr 1
  omega

theorem arcsFrom_ids (arcs : List (Nat × Nat)) :
    ∀ e0, (arcsFrom e0 arcs).map Edge.id = List.range' e0 arcs.length := by
  induction arcs with
  | nil => intro e0; rfl
  | cons p rest ih =>
    intro e0
    rw [arcsFrom_cons, List.map_cons, ih, List.length_cons, List.range'_succ]

/-- No arc of the graph before preprocessing is listed twice. -/
theorem Built.edges_nodup (h : Built stations lines cc sc type preprocess b1 way back b2) :
    b2._g.edges.Nodup := by
  obtain ⟨switches, calls, -, -, p3, -⟩ := h.shape
  apply List.Nodup.of_map Edge.id
  rw [p3, List.map_append, List.map_append, arcsFrom_ids, arcsFrom_ids, List.map_map]
  have : (Edge.id ∘ ArcRecord.toEdge) = ArcRecord.id := rfl
  rw [this, travelArcs_ids]
  have e0 := List.range'_append_1 0 (2 * totalSegments lines) switches.length
  rw [Nat.zero_add] at e0
  rw [e0]
  have e1 := List.range'_append_1 0 (switches.length + 2 * totalSegments lines)
    (calls.filter (fun p => decide (b2.HasIn p.1) && decide (b2.HasOut p.2))).length
  have e2 : 0 + (switches.length + 2 * totalSegments lines) =
      2 * totalSegments lines + switches.length := by omega
  rw [e2] at e1
  rw [e1]
  exact List.nodup_range' _ _

/-- A travel arc of the graph before preprocessing is a travel arc of a line. -/
theorem Built.travel_record (h : Built stations lines cc sc type preprocess b1 way back b2)
    {e : Edge} (he : e ∈ b2._g.edges) (hf : b2._connection_arcs e.id = false) :
    ∃ r ∈ travelArcs lines, r.toEdge = e := by
  obtain ⟨switches, calls, -, -, p3, p4, p5, -⟩ := h.shape
  have hlt := (p4 e he).1 hf
  rw [p3] at he
  rcases List.mem_append.1 he with h1 | h1
  · rcases List.mem_append.1 h1 with h2 | h2
    · exact List.mem_map.1 h2
    · obtain ⟨-, hlo, -⟩ := pair_of_mem_arcsFrom _ _ _ h2
      omega
  · obtain ⟨-, hlo, -⟩ := pair_of_mem_arcsFrom _ _ _ h1
    omega

/-- A travel arc leads from a node to the next node. -/
theorem Built.travel_step (h : Built stations lines cc sc type preprocess b1 way back b2)
    {e : Edge} (he : e ∈ b2._g.edges) (hf : b2._connection_arcs e.id = false) :
    e.tgt = e.src + 1 := by
  obtain ⟨it, -, -, hstep, -⟩ := specialGraph_travel stations lines cc sc type preprocess b1
    way back b2 h.travel h.special e he hf
  exact hstep

/-- Two travel arcs that leave the same node are the same arc. -/
theorem Built.travel_unique (h : Built stations lines cc sc type preprocess b1 way back b2)
    {e e' : Edge} (he : e ∈ b2._g.edges) (he' : e' ∈ b2._g.edges)
    (hf : b2._connection_arcs e.id = false) (hf' : b2._connection_arcs e'.id = false)
    (hs : e.src = e'.src) : e = e' := by
  obtain ⟨r, hr, rfl⟩ := h.travel_record he hf
  obtain ⟨r', hr', rfl⟩ := h.travel_record he' hf'
  rw [travelArcs_src_unique lines r r' hr hr' hs]

/-- The line and the station of a node of the node maps. -/
theorem Built.node_of_map (h : Built stations lines cc sc type preprocess b1 way back b2)
    {a S : String} {n : Nat} (hn : way a S = some n ∨ back a S = some n)
    {it : String × Line} {k : Nat} {s : String} {w r : Nat}
    (hs : b2.StopAt way back lines it k s w r) (hwr : n = w ∨ n = r) :
    it.2.name = a ∧ s = S := by
  obtain ⟨-, -, -, -, -, -, -, -, n1, n2, -⟩ := h.shape
  obtain ⟨q1, q2, q3, q4, q5⟩ := h.stop_sides hs
  rcases hn with hn | hn
  · obtain ⟨-, m2, m3, m4⟩ := n1 _ _ _ hn
    rcases hwr with rfl | rfl
    · exact ⟨m4 _ _ hs.way_node, q4.symm.trans m3⟩
    · omega
  · obtain ⟨m1, m2, m3, m4⟩ := n2 _ _ _ hn
    rcases hwr with rfl | rfl
    · omega
    · exact ⟨m4 _ _ hs.back_node, q5.symm.trans m3⟩

/-- Nodes of different lines differ. -/
theorem Built.diff_line_nodes (h : Built stations lines cc sc type preprocess b1 way back b2)
    {a c S S' : String} (hac : a ≠ c) {u v : Nat}
    (hu : way a S = some u ∨ back a S = some u)
    (hv : way c S' = some v ∨ back c S' = some v) : u ≠ v := by
  obtain ⟨-, -, -, -, -, -, -, -, n1, n2, -⟩ := h.shape
  intro huv
  subst huv
  rcases hu with hu | hu <;> rcases hv with hv | hv
  · exact hac ((n1 _ _ _ hv).2.2.2 _ _ hu)
  · have := (n1 _ _ _ hu).2.1
    have := (n2 _ _ _ hv).1
    omega
  · have := (n2 _ _ _ hu).1
    have := (n1 _ _ _ hv).2.1
    omega
  · exact hac ((n2 _ _ _ hv).2.2.2 _ _ hu)

/-- The stop of a node, with the other node of the stop. -/
theorem Built.node_info (h : Built stations lines cc sc type preprocess b1 way back b2)
    {n : Nat} (hn : n ∈ b2._g.nodes) :
    ∃ it k s w r v, b2.StopAt way back lines it k s w r ∧ b2.Twin way back s it.2.name n v ∧
      b2.Twin way back s it.2.name v n ∧ ((n = w ∧ v = r) ∨ (n = r ∧ v = w)) := by
  obtain ⟨it, k, s, w, r, hs, hwr⟩ := h.stop_of_node hn
  obtain ⟨t1, t2⟩ := h.twins hs
  rcases hwr with rfl | rfl
  · exact ⟨it, k, s, n, r, r, hs, t1, t2, Or.inl ⟨rfl, rfl⟩⟩
  · exact ⟨it, k, s, w, n, w, hs, t2, t1, Or.inr ⟨rfl, rfl⟩⟩

theorem GraphBuilder.Twin.mem_pair {b : GraphBuilder} {S a : String} {u v : Nat}
    (ht : b.Twin way back S a u v) {x : Nat} (hx : way a S = some x ∨ back a S = some x) :
    x = u ∨ x = v := by
  rcases ht.maps with ⟨m1, m2⟩ | ⟨m1, m2⟩ <;> rcases hx with hx | hx
  · left; rw [m1] at hx; exact (Option.some.inj hx).symm
  · right; rw [m2] at hx; exact (Option.some.inj hx).symm
  · right; rw [m2] at hx; exact (Option.some.inj hx).symm
  · left; rw [m1] at hx; exact (Option.some.inj hx).symm

theorem GraphBuilder.Twin.left_map {b : GraphBuilder} {S a : String} {u v : Nat}
    (ht : b.Twin way back S a u v) : way a S = some u ∨ back a S = some u := by
  rcases ht.maps with ⟨m1, -⟩ | ⟨m1, -⟩
  · exact Or.inl m1
  · exact Or.inr m1

theorem GraphBuilder.Twin.right_map {b : GraphBuilder} {S a : String} {u v : Nat}
    (ht : b.Twin way back S a u v) : way a S = some v ∨ back a S = some v := by
  rcases ht.maps with ⟨-, m2⟩ | ⟨-, m2⟩
  · exact Or.inr m2
  · exact Or.inl m2

/-- A line listed by a station next to another line has a node at the station
that a travel arc enters and one that a travel arc leaves. -/
theorem Built.listed_nodes (h : Built stations lines cc sc type preprocess b1 way back b2)
    {st : String × Station} (hst : st ∈ stations) {a c : String} (ha : a ∈ st.2.lines)
    (hc : c ∈ st.2.lines) (hac : a ≠ c) :
    ∃ vin vout, (way a st.2.name = some vin ∨ back a st.2.name = some vin) ∧ b2.HasIn vin ∧
      (way a st.2.name = some vout ∨ back a st.2.name = some vout) ∧ b2.HasOut vout := by
  obtain ⟨it, k, w, r, hs, rfl⟩ := h.listed_stop hst ha hc hac
  obtain ⟨t1, -⟩ := h.twins hs
  rcases t1.travel with hin | hout
  · exact ⟨w, r, Or.inl hs.way_node, hin, Or.inr hs.back_node, t1.in_out.1 hin⟩
  · exact ⟨r, w, Or.inr hs.back_node, t1.out_in.1 hout, Or.inl hs.way_node, hout⟩

theorem Built.station_unique (h : Built stations lines cc sc type preprocess b1 way back b2)
    {st st' : String × Station} (hst : st ∈ stations) (hst' : st' ∈ stations)
    (hn : st.2.name = st'.2.name) : st = st' := by
  apply List.inj_on_of_nodup_map h.keys.keys_nodup hst hst'
  rw [h.keys.key_name st hst, h.keys.key_name st' hst', hn]

/-- No arc is a loop. -/
theorem Built.no_loop (h : Built stations lines cc sc type preprocess b1 way back b2)
    {e : Edge} (he : e ∈ b2._g.edges) : e.src ≠ e.tgt := by
  cases hf : b2._connection_arcs e.id with
  | false =>
    have := h.travel_step he hf
    omega
  | true =>
    rcases h.keep_cases he hf with hsw | ⟨htr, -, -⟩
    · obtain ⟨it, k, s, w, r, hs, ho, -⟩ := h.switch_stop _ hsw
      obtain ⟨q1, q2, -⟩ := h.stop_sides hs
      simp only at ho
      rcases ho with ⟨e1, e2⟩ | ⟨e1, e2⟩ <;> omega
    · obtain ⟨st, hst, a, c, ha, hc, hac, hu, hv⟩ := h.transfer_stop _ htr
      exact h.diff_line_nodes hac hu hv

theorem two_le_degree (g : LGraph) (n : Nat) (e1 e2 : Edge) (h1 : e1 ∈ g.edges)
    (h2 : e2 ∈ g.edges) (h12 : e1 ≠ e2) (i1 : e1.src = n ∨ e1.tgt = n)
    (i2 : e2.src = n ∨ e2.tgt = n) : 2 ≤ g.degree n := by
  have hmem : ∀ e ∈ g.edges, (e.src = n ∨ e.tgt = n) → e ∈ g.inEdges n ++ g.outEdges n := by
    intro e he hinc
    rcases hinc with h | h
    · exact List.mem_append_right _ (List.mem_filter.2 ⟨he, by simpa using h⟩)
    · exact List.mem_append_left _ (List.mem_filter.2 ⟨he, by simpa using h⟩)
  have hnd : [e1, e2].Nodup := by simp [h12]
  have hsub : ∀ e ∈ [e1, e2], e ∈ g.inEdges n ++ g.outEdges n := by
    intro e he
    simp only [List.mem_cons, List.mem_singleton, List.not_mem_nil, or_false] at he
    rcases he with rfl | rfl
    · exact hmem _ h1 i1
    · exact hmem _ h2 i2
  have := (List.subperm_of_subset hnd hsub).length_le
  simpa [LGraph.degree, LGraph.indeg, LGraph.outdeg] using this

/-- On a node of degree above two lies an arc besides any two given arcs. -/
theorem third_arc (g : LGraph) (hnd : g.edges.Nodup) (n : Nat)
    (hloop : ∀ e ∈ g.edges, e.src ≠ e.tgt) (hdeg : 2 < g.degree n) (e1 e2 : Edge) :
    ∃ e ∈ g.edges, (e.src = n ∨ e.tgt = n) ∧ e ≠ e1 ∧ e ≠ e2 := by
  by_contra hno
  have hall : ∀ e ∈ g.inEdges n ++ g.outEdges n, e ∈ [e1, e2] := by
    intro e he
    by_contra hne
    simp only [List.mem_cons, List.mem_singleton, List.not_mem_nil, or_false, not_or] at hne
    apply hno
    rcases List.mem_append.1 he with hm | hm
    · obtain ⟨hm1, hm2⟩ := List.mem_filter.1 hm
      exact ⟨e, hm1, Or.inr (by simpa using hm2), hne.1, hne.2⟩
    · obtain ⟨hm1, hm2⟩ := List.mem_filter.1 hm
      exact ⟨e, hm1, Or.inl (by simpa using hm2), hne.1, hne.2⟩
  have hL : (g.inEdges n ++ g.outEdges n).Nodup := by
    refine List.nodup_append.2 ⟨hnd.filter _, hnd.filter _, ?_⟩
    intro e hi ho
    obtain ⟨hm1, hm2⟩ := List.mem_filter.1 hi
    obtain ⟨-, hm3⟩ := List.mem_filter.1 ho
    have e1 : e.tgt = n := by simpa using hm2
    have e2 : e.src = n := by simpa using hm3
    exact hloop e hm1 (e2.trans e1.symm)
  have hlen := (List.subperm_of_subset hL hall).length_le
  simp only [LGraph.degree, LGraph.indeg, LGraph.outdeg] at hdeg
  simp only [List.length_append, List.length_cons, List.length_nil] at hlen
  omega

end LocalArcs
/-! ## Theorems: the degrees of the end nodes of switch and transfer arcs -/

section BuiltDegrees

open GraphBuilder

variable {stations : t_stationmap} {lines : t_linemap} {cc sc : ℚ} {type : ProblemType}
  {preprocess : Bool} {b1 : GraphBuilder} {way back : NodeMap} {b2 : GraphBuilder}

/-- A node is the node of one line at one station. -/
theorem Built.map_unique (h : Built stations lines cc sc type preprocess b1 way back b2)
    {a a' S S' : String} {n : Nat} (h1 : way a S = some n ∨ back a S = some n)
    (h2 : way a' S' = some n ∨ back a' S' = some n) : a = a' ∧ S = S' := by
  obtain ⟨-, -, -, -, -, -, -, -, n1, n2, -⟩ := h.shape
  rcases h1 with h1 | h1 <;> rcases h2 with h2 | h2
  · obtain ⟨-, -, m3, m4⟩ := n1 _ _ _ h1
    obtain ⟨-, -, m3', -⟩ := n1 _ _ _ h2
    exact ⟨(m4 _ _ h2).symm, m3.symm.trans m3'⟩
  · have := (n1 _ _ _ h1).2.1
    have := (n2 _ _ _ h2).1
    omega
  · have := (n2 _ _ _ h1).1
    have := (n1 _ _ _ h2).2.1
    omega
  · obtain ⟨-, -, m3, m4⟩ := n2 _ _ _ h1
    obtain ⟨-, -, m3', -⟩ := n2 _ _ _ h2
    exact ⟨(m4 _ _ h2).symm, m3.symm.trans m3'⟩

/-- A travel arc lies on every node. -/
theorem Built.travel_at (h : Built stations lines cc sc type preprocess b1 way back b2)
    {n : Nat} (hn : n ∈ b2._g.nodes) :
    ∃ t ∈ b2._g.edges, b2._connection_arcs t.id = false ∧ (t.src = n ∨ t.tgt = n) := by
  obtain ⟨it, k, s, w, r, v, -, t1, -, -⟩ := h.node_info hn
  rcases t1.travel with ⟨e, he, ht, hf⟩ | ⟨e, he, hs, hf⟩
  · exact ⟨e, he, hf, Or.inr ht⟩
  · exact ⟨e, he, hf, Or.inl hs⟩

/-- Two travel arcs on a node: one enters the node and one leaves it. -/
theorem Built.travel_two (h : Built stations lines cc sc type preprocess b1 way back b2)
    {n : Nat} {t x : Edge} (ht : t ∈ b2._g.edges) (hx : x ∈ b2._g.edges)
    (hft : b2._connection_arcs t.id = false) (hfx : b2._connection_arcs x.id = false)
    (hne : t ≠ x) (it : t.src = n ∨ t.tgt = n) (ix : x.src = n ∨ x.tgt = n) :
    b2.HasIn n ∧ b2.HasOut n := by
  have st := h.travel_step ht hft
  have sx := h.travel_step hx hfx
  rcases it with it | it <;> rcases ix with ix | ix
  · exact absurd (h.travel_unique ht hx hft hfx (it.trans ix.symm)) hne
  · exact ⟨⟨x, hx, ix, hfx⟩, ⟨t, ht, it, hft⟩⟩
  · exact ⟨⟨t, ht, it, hft⟩, ⟨x, hx, ix, hfx⟩⟩
  · exact absurd (h.travel_unique ht hx hft hfx (by omega)) hne

/-- A node with an entering and a leaving travel arc and an arc to keep has
degree above two. -/
theorem Built.deg_interior (h : Built stations lines cc sc type preprocess b1 way back b2)
    {n : Nat} (hin : b2.HasIn n) (hout : b2.HasOut n) {e : Edge} (he : e ∈ b2._g.edges)
    (hk : b2._connection_arcs e.id = true) (hi : e.src = n ∨ e.tgt = n) :
    2 < b2._g.degree n := by
  obtain ⟨ein, hein, htgt, hfin⟩ := hin
  obtain ⟨eout, heout, hsrc, hfout⟩ := hout
  have h1 : ein ≠ eout := by
    intro heq
    subst heq
    exact h.no_loop hein (hsrc.trans htgt.symm)
  have h2 : ein ≠ e := by
    intro heq
    subst heq
    rw [hk] at hfin
    exact absurd hfin (by simp)
  have h3 : eout ≠ e := by
    intro heq
    subst heq
    rw [hk] at hfout
    exact absurd hfout (by simp)
  exact three_le_degree b2._g n ein eout e hein heout he h1 h2 h3 (Or.inr htgt) (Or.inl hsrc) hi

/-- A node with two arcs to keep has degree above two. -/
theorem Built.deg_three (h : Built stations lines cc sc type preprocess b1 way back b2)
    {n : Nat} (hn : n ∈ b2._g.nodes) {e e' : Edge} (he : e ∈ b2._g.edges)
    (he' : e' ∈ b2._g.edges) (hk : b2._connection_arcs e.id = true)
    (hk' : b2._connection_arcs e'.id = true) (hne : e ≠ e') (hi : e.src = n ∨ e.tgt = n)
    (hi' : e'.src = n ∨ e'.tgt = n) : 2 < b2._g.degree n := by
  obtain ⟨t, ht, hf, hti⟩ := h.travel_at hn
  have h1 : t ≠ e := by
    intro heq
    subst heq
    rw [hk] at hf
    exact absurd hf (by simp)
  have h2 : t ≠ e' := by
    intro heq
    subst heq
    rw [hk'] at hf
    exact absurd hf (by simp)
  exact three_le_degree b2._g n t e e' ht he he' h1 h2 hne hti hi hi'

/-- Without preprocessing and under the terminal rule a node has an entering
and a leaving travel arc, or a switch arc joins it to the other node of its stop. -/
theorem Built.switch_or_interior (h : Built stations lines cc sc type preprocess b1 way back b2)
    (hplan : preprocess = false ∨ type = .SEGMENT) {it : String × Line} {k : Nat} {s : String}
    {w r : Nat} (hs : b2.StopAt way back lines it k s w r) {n v : Nat}
    (hn : (n = w ∧ v = r) ∨ (n = r ∧ v = w)) :
    (b2.HasIn n ∧ b2.HasOut n) ∨
      ∃ y ∈ b2._g.edges, b2._connection_arcs y.id = true ∧
        ((y.src = n ∧ y.tgt = v) ∨ (y.src = v ∧ y.tgt = n)) := by
  have hk : k < it.2.stations.length := by
    by_contra hge
    have := hs.stop
    rw [List.getElem?_eq_none (by omega)] at this
    exact absurd this (by simp)
  by_cases hint : 0 < k ∧ k + 1 < it.2.stations.length
  · left
    rcases hn with ⟨rfl, -⟩ | ⟨rfl, -⟩
    · exact ⟨hs.way_in.2 hint.1, hs.way_out.2 hint.2⟩
    · exact ⟨hs.back_in.2 hint.2, hs.back_out.2 hint.1⟩
  · right
    have hterm : k = 0 ∨ k + 1 = it.2.stations.length := by omega
    have hc : preprocess = false ∨ ((k = 0 ∨ k + 1 = it.2.stations.length) ∧
        (type = .SEGMENT ∨ servesSeveralLines stations s = false)) := by
      rcases hplan with hp | ht
      · exact Or.inl hp
      · exact Or.inr ⟨hterm, Or.inl ht⟩
    obtain ⟨y, hy, hyk, hyo⟩ := h.switch_exists hs hc
    refine ⟨y, hy, hyk, ?_⟩
    rcases hn with ⟨rfl, rfl⟩ | ⟨rfl, rfl⟩
    · exact hyo
    · exact hyo.symm

/-- The two nodes of a stop joined by an arc to keep: if one has degree above
two, so has the other. -/
theorem Built.twin_degree (h : Built stations lines cc sc type preprocess b1 way back b2)
    {S a : String} {u v : Nat} (tu : b2.Twin way back S a u v) (tv : b2.Twin way back S a v u)
    (hu : u ∈ b2._g.nodes) (hv : v ∈ b2._g.nodes) {e : Edge} (he : e ∈ b2._g.edges)
    (hk : b2._connection_arcs e.id = true)
    (hi : (e.src = u ∧ e.tgt = v) ∨ (e.src = v ∧ e.tgt = u)) (hdeg : 2 < b2._g.degree u) :
    2 < b2._g.degree v := by
  have hev : e.src = v ∨ e.tgt = v := by omega
  obtain ⟨t, htm, htf, hti⟩ := h.travel_at hu
  obtain ⟨x, hx, hxi, hxe, hxt⟩ := third_arc b2._g h.edges_nodup u
    (fun e he => h.no_loop he) hdeg e t
  cases hxf : b2._connection_arcs x.id with
  | false =>
    obtain ⟨hin, hout⟩ := h.travel_two htm hx htf hxf (Ne.symm hxt) hti hxi
    exact h.deg_interior (tu.out_in.1 hout) (tu.in_out.1 hin) he hk hev
  | true =>
    rcases h.keep_cases hx hxf with hsw | ⟨htr, hxin, hxout⟩
    · obtain ⟨it', k', s', w', r', hs', ho, -⟩ := h.switch_stop _ hsw
      simp only at ho
      have hu' : u = w' ∨ u = r' := by omega
      obtain ⟨hname, hstn⟩ := h.node_of_map tu.left_map hs' hu'
      subst hname hstn
      have m1 := tu.mem_pair (Or.inl hs'.way_node)
      have m2 := tu.mem_pair (Or.inr hs'.back_node)
      have hnl := h.no_loop hx
      have hxv : x.src = v ∨ x.tgt = v := by omega
      exact h.deg_three hv he hx hk hxf (Ne.symm hxe) hev hxv
    · obtain ⟨st, hst, a', c', ha', hc', hac', hu', hv'⟩ := h.transfer_stop _ htr
      simp only at hu' hv' hxin hxout
      have key : ∀ d, d ∈ st.2.lines → a ∈ st.2.lines → d ≠ a → S = st.2.name →
          2 < b2._g.degree v := by
        intro d hd ha hda hS
        subst hS
        obtain ⟨vin, vout, hvin, hin, hvout, hout⟩ := h.listed_nodes hst hd ha hda
        rcases tv.travel with hvi | hvo
        · obtain ⟨y, hy, hyk, hys, hyt⟩ := h.transfer_exists hst ha hd (Ne.symm hda)
            tu.right_map hvout hvi hout
          have n1 := h.diff_line_nodes hda hvout tu.left_map
          have n2 := h.diff_line_nodes hda hvout tu.right_map
          have hne : e ≠ y := by
            intro heq
            subst heq
            omega
          exact h.deg_three hv he hy hk hyk hne hev (Or.inl hys)
        · obtain ⟨y, hy, hyk, hys, hyt⟩ := h.transfer_exists hst hd ha hda
            hvin tu.right_map hin hvo
          have n1 := h.diff_line_nodes hda hvin tu.left_map
          have n2 := h.diff_line_nodes hda hvin tu.right_map
          have hne : e ≠ y := by
            intro heq
            subst heq
            omega
          exact h.deg_three hv he hy hk hyk hne hev (Or.inr hyt)
      rcases hxi with hxs | hxt'
      · rw [hxs] at hu'
        obtain ⟨q1, q2⟩ := h.map_unique tu.left_map hu'
        subst q1
        exact key c' hc' ha' (Ne.symm hac') q2
      · rw [hxt'] at hv'
        obtain ⟨q1, q2⟩ := h.map_unique tu.left_map hv'
        subst q1
        exact key a' ha' hc' hac' q2

end BuiltDegrees
/-! ## Theorems: the graph before preprocessing is a graph of chains -/

section BuiltChainGraph

open GraphBuilder

variable {stations : t_stationmap} {lines : t_linemap} {cc sc : ℚ} {type : ProblemType}
  {preprocess : Bool} {b1 : GraphBuilder} {way back : NodeMap} {b2 : GraphBuilder}

/-- A transfer arc whose target has degree above two: its source has degree
above two. -/
theorem Built.transfer_left (h : Built stations lines cc sc type preprocess b1 way back b2)
    {st : String × Station} (hst : st ∈ stations)
    {ita : String × Line} {ka : Nat} {wa ra : Nat}
    (hsp : b2.StopAt way back lines ita ka st.2.name wa ra) {p p' : Nat}
    (hpo : (p = wa ∧ p' = ra) ∨ (p = ra ∧ p' = wa))
    {c : String} {q q' : Nat} (tq : b2.Twin way back st.2.name c q q')
    (ha : ita.2.name ∈ st.2.lines) (hc : c ∈ st.2.lines) (hac : ita.2.name ≠ c)
    (hpn : p ∈ b2._g.nodes) (hqn : q ∈ b2._g.nodes) {e : Edge} (he : e ∈ b2._g.edges)
    (hk : b2._connection_arcs e.id = true) (hs : e.src = p) (ht : e.tgt = q)
    (hinp : b2.HasIn p) (_houtq : b2.HasOut q) (hdeg : 2 < b2._g.degree q) :
    2 < b2._g.degree p := by
  have tp : b2.Twin way back st.2.name ita.2.name p p' := by
    obtain ⟨t1, t2⟩ := h.twins hsp
    rcases hpo with ⟨rfl, rfl⟩ | ⟨rfl, rfl⟩
    · exact t1
    · exact t2
  obtain ⟨t, htm, htf, hti⟩ := h.travel_at hqn
  obtain ⟨x, hx, hxi, hxe, hxt⟩ := third_arc b2._g h.edges_nodup q
    (fun e he => h.no_loop he) hdeg e t
  have hint : b2.HasIn q → 2 < b2._g.degree p := by
    intro hinq
    have hout' : b2.HasOut q' := tq.in_out.1 hinq
    obtain ⟨y, hy, hyk, hys, hyt⟩ := h.transfer_exists hst ha hc hac tp.left_map tq.right_map
      hinp hout'
    have hne : e ≠ y := by
      intro heq
      subst heq
      exact tq.ne (ht.symm.trans hyt)
    exact h.deg_three hpn he hy hk hyk hne (Or.inl hs) (Or.inl hys)
  cases hxf : b2._connection_arcs x.id with
  | false =>
    obtain ⟨hin, -⟩ := h.travel_two htm hx htf hxf (Ne.symm hxt) hti hxi
    exact hint hin
  | true =>
    rcases h.keep_cases hx hxf with hsw | ⟨htr, hxin, hxout⟩
    · obtain ⟨it', k', s', w', r', hs', ho, hres⟩ := h.switch_stop _ hsw
      simp only at ho
      have hq' : q = w' ∨ q = r' := by omega
      obtain ⟨-, hstn⟩ := h.node_of_map tq.left_map hs' hq'
      by_cases hplan : preprocess = false ∨ type = .SEGMENT
      · rcases h.switch_or_interior hplan hsp hpo with ⟨hi1, hi2⟩ | ⟨y, hy, hyk, hyo⟩
        · exact h.deg_interior hi1 hi2 he hk (Or.inl hs)
        · have n1 := h.diff_line_nodes hac tp.left_map tq.left_map
          have n2 := h.diff_line_nodes hac tp.right_map tq.left_map
          have hne : e ≠ y := by
            intro heq
            subst heq
            omega
          exact h.deg_three hpn he hy hk hyk hne (Or.inl hs) (by omega)
      · have hp1 : preprocess = true := by
          cases preprocess with
          | false => exact absurd (Or.inl rfl) hplan
          | true => rfl
        have hp2 : type ≠ .SEGMENT := fun hh => hplan (Or.inr hh)
        have hsev := hres hp1 hp2
        rw [hstn, servesSeveralLines_of_two h.keys hst ha hc hac] at hsev
        exact absurd hsev (by simp)
    · obtain ⟨st', hst', a', c', ha', hc', hac', hu', hv'⟩ := h.transfer_stop _ htr
      simp only at hu' hv' hxin hxout
      rcases hxi with hxs | hxt'
      · rw [hxs] at hxin
        exact hint hxin
      · rw [hxt'] at hv'
        obtain ⟨q1, q2⟩ := h.map_unique tq.left_map hv'
        have hsteq := h.station_unique hst hst' q2
        subst hsteq
        subst q1
        by_cases hda : a' = ita.2.name
        · rw [hda] at hu'
          rcases tp.mem_pair hu' with hup | hup
          · exact h.deg_three hpn he hx hk hxf (Ne.symm hxe) (Or.inl hs) (Or.inl hup)
          · rw [hup] at hxin
            exact h.deg_interior hinp (tp.out_in.2 hxin) he hk (Or.inl hs)
        · obtain ⟨vin, vout, hvin, hin, hvout, hout⟩ := h.listed_nodes hst ha' hc' hac'
          obtain ⟨y, hy, hyk, hys, hyt⟩ := h.transfer_exists hst ha ha' (Ne.symm hda)
            tp.left_map hvout hinp hout
          have n1 := h.diff_line_nodes hac' hvout tq.left_map
          have hne : e ≠ y := by
            intro heq
            subst heq
            omega
          exact h.deg_three hpn he hy hk hyk hne (Or.inl hs) (Or.inl hys)

/-- A transfer arc whose source has degree above two: its target has degree
above two. -/
theorem Built.transfer_right (h : Built stations lines cc sc type preprocess b1 way back b2)
    {st : String × Station} (hst : st ∈ stations)
    {itc : String × Line} {kc : Nat} {wc rc : Nat}
    (hsq : b2.StopAt way back lines itc kc st.2.name wc rc) {q q' : Nat}
    (hqo : (q = wc ∧ q' = rc) ∨ (q = rc ∧ q' = wc))
    {a : String} {p p' : Nat} (tp : b2.Twin way back st.2.name a p p')
    (ha : a ∈ st.2.lines) (hc : itc.2.name ∈ st.2.lines) (hac : a ≠ itc.2.name)
    (hpn : p ∈ b2._g.nodes) (hqn : q ∈ b2._g.nodes) {e : Edge} (he : e ∈ b2._g.edges)
    (hk : b2._connection_arcs e.id = true) (hs : e.src = p) (ht : e.tgt = q)
    (_hinp : b2.HasIn p) (houtq : b2.HasOut q) (hdeg : 2 < b2._g.degree p) :
    2 < b2._g.degree q := by
  have tq : b2.Twin way back st.2.name itc.2.name q q' := by
    obtain ⟨t1, t2⟩ := h.twins hsq
    rcases hqo with ⟨rfl, rfl⟩ | ⟨rfl, rfl⟩
    · exact t1
    · exact t2
  obtain ⟨t, htm, htf, hti⟩ := h.travel_at hpn
  obtain ⟨x, hx, hxi, hxe, hxt⟩ := third_arc b2._g h.edges_nodup p
    (fun e he => h.no_loop he) hdeg e t
  have hint : b2.HasOut p → 2 < b2._g.degree q := by
    intro houtp
    have hin' : b2.HasIn p' := tp.out_in.1 houtp
    obtain ⟨y, hy, hyk, hys, hyt⟩ := h.transfer_exists hst ha hc hac tp.right_map tq.left_map
      hin' houtq
    have hne : e ≠ y := by
      intro heq
      subst heq
      exact tp.ne (hs.symm.trans hys)
    exact h.deg_three hqn he hy hk hyk hne (Or.inr ht) (Or.inr hyt)
  cases hxf : b2._connection_arcs x.id with
  | false =>
    obtain ⟨-, hout⟩ := h.travel_two htm hx htf hxf (Ne.symm hxt) hti hxi
    exact hint hout
  | true =>
    rcases h.keep_cases hx hxf with hsw | ⟨htr, hxin, hxout⟩
    · obtain ⟨it', k', s', w', r', hs', ho, hres⟩ := h.switch_stop _ hsw
      simp only at ho
      have hp' : p = w' ∨ p = r' := by omega
      obtain ⟨-, hstn⟩ := h.node_of_map tp.left_map hs' hp'
      by_cases hplan : preprocess = false ∨ type = .SEGMENT
      · rcases h.switch_or_interior hplan hsq hqo with ⟨hi1, hi2⟩ | ⟨y, hy, hyk, hyo⟩
        · exact h.deg_interior hi1 hi2 he hk (Or.inr ht)
        · have n1 := h.diff_line_nodes hac tp.left_map tq.left_map
          have n2 := h.diff_line_nodes hac tp.left_map tq.right_map
          have hne : e ≠ y := by
            intro heq
            subst heq
            omega
          exact h.deg_three hqn he hy hk hyk hne (Or.inr ht) (by omega)
      · have hp1 : preprocess = true := by
          cases preprocess with
          | false => exact absurd (Or.inl rfl) hplan
          | true => rfl
        have hp2 : type ≠ .SEGMENT := fun hh => hplan (Or.inr hh)
        have hsev := hres hp1 hp2
        rw [hstn, servesSeveralLines_of_two h.keys hst ha hc hac] at hsev
        exact absurd hsev (by simp)
    · obtain ⟨st', hst', a', c', ha', hc', hac', hu', hv'⟩ := h.transfer_stop _ htr
      simp only at hu' hv' hxin hxout
      rcases hxi with hxs | hxt'
      · rw [hxs] at hu'
        obtain ⟨q1, q2⟩ := h.map_unique tp.left_map hu'
        have hsteq := h.station_unique hst hst' q2
        subst hsteq
        subst q1
        by_cases hdc : c' = itc.2.name
        · rw [hdc] at hv'
          rcases tq.mem_pair hv' with hvq | hvq
          · exact h.deg_three hqn he hx hk hxf (Ne.symm hxe) (Or.inr ht) (Or.inr hvq)
          · rw [hvq] at hxout
            exact h.deg_interior (tq.in_out.2 hxout) houtq he hk (Or.inr ht)
        · obtain ⟨vin, vout, hvin, hin, hvout, hout⟩ := h.listed_nodes hst hc' ha'
            (Ne.symm hac')
          obtain ⟨y, hy, hyk, hys, hyt⟩ := h.transfer_exists hst hc' hc hdc
            hvin tq.left_map hin houtq
          have n1 := h.diff_line_nodes (Ne.symm hac') hvin tp.left_map
          have hne : e ≠ y := by
            intro heq
            subst heq
            omega
          exact h.deg_three hqn he hy hk hyk hne (Or.inr ht) (Or.inr hyt)
      · rw [hxt'] at hxout
        exact hint hxout

/-- Every node of the graph before preprocessing has degree at least two. -/
theorem Built.degree_ge (h : Built stations lines cc sc type preprocess b1 way back b2)
    {n : Nat} (hn : n ∈ b2._g.nodes) : 2 ≤ b2._g.degree n := by
  obtain ⟨it, k, s, w, r, v, hs, tn, tv, ho⟩ := h.node_info hn
  obtain ⟨t, ht, hf, hti⟩ := h.travel_at hn
  have fin : ∀ y ∈ b2._g.edges, b2._connection_arcs y.id = true → (y.src = n ∨ y.tgt = n) →
      2 ≤ b2._g.degree n := by
    intro y hy hyk hyi
    have hne : t ≠ y := by
      intro heq
      subst heq
      rw [hyk] at hf
      exact absurd hf (by simp)
    exact two_le_degree b2._g n t y ht hy hne hti hyi
  obtain ⟨st, hst, hname, hline⟩ := h.valid.stops_known it hs.line s (List.getElem?_mem hs.stop)
  subst hname
  by_cases hsev : 1 < st.2.lines.length
  · have hex : ∃ d ∈ st.2.lines, d ≠ it.2.name := by
      have hnd := h.valid.lines_set st hst
      match hl : st.2.lines, hsev, hline, hnd with
      | [x], hsev, _, _ => simp at hsev
      | x :: y :: rest, _, _, hnd =>
        by_cases hx : x = it.2.name
        · refine ⟨y, by simp, ?_⟩
          intro hy
          rw [List.nodup_cons] at hnd
          exact hnd.1 (by rw [hx, ← hy]; simp)
        · exact ⟨x, by simp, hx⟩
    obtain ⟨d, hd, hda⟩ := hex
    obtain ⟨vin, vout, hvin, hin, hvout, hout⟩ := h.listed_nodes hst hd hline hda
    rcases tn.travel with hni | hno
    · obtain ⟨y, hy, hyk, hys, -⟩ := h.transfer_exists hst hline hd (Ne.symm hda)
        tn.left_map hvout hni hout
      exact fin y hy hyk (Or.inl hys)
    · obtain ⟨y, hy, hyk, -, hyt⟩ := h.transfer_exists hst hd hline hda
        hvin tn.left_map hin hno
      exact fin y hy hyk (Or.inr hyt)
  · have hsv : servesSeveralLines stations st.2.name = false := by
      rw [servesSeveralLines_of_mem h.keys hst]
      simpa using hsev
    by_cases hint : b2.HasIn n ∧ b2.HasOut n
    · obtain ⟨⟨ein, hein, htgt, hfin⟩, ⟨eout, heout, hsrc, hfout⟩⟩ := hint
      have hne : ein ≠ eout := by
        intro heq
        subst heq
        exact h.no_loop hein (hsrc.trans htgt.symm)
      exact two_le_degree b2._g n ein eout hein heout hne (Or.inr htgt) (Or.inl hsrc)
    · have hk : k < it.2.stations.length := by
        by_contra hge
        have := hs.stop
        rw [List.getElem?_eq_none (by omega)] at this
        exact absurd this (by simp)
      have hterm : k = 0 ∨ k + 1 = it.2.stations.length := by
        by_contra hno
        apply hint
        rcases ho with ⟨rfl, -⟩ | ⟨rfl, -⟩
        · exact ⟨hs.way_in.2 (by omega), hs.way_out.2 (by omega)⟩
        · exact ⟨hs.back_in.2 (by omega), hs.back_out.2 (by omega)⟩
      obtain ⟨y, hy, hyk, hyo⟩ := h.switch_exists hs (Or.inr ⟨hterm, Or.inr hsv⟩)
      exact fin y hy hyk (by omega)

/-- The graph before preprocessing is a graph of chains: the travel arcs form
paths, and the end nodes of an arc to keep have degree above two both or
neither. -/
theorem Built.chainGraph (h : Built stations lines cc sc type preprocess b1 way back b2) :
    ChainGraph b2._g b2._connection_arcs := by
  obtain ⟨switches, calls, -, -, -, -, -, p6, -, -, -, pc⟩ := h.shape
  refine ⟨by rw [p6]; exact List.nodup_range _, h.edges_nodup, pc,
    fun e he hf => h.travel_step he hf,
    fun e he e' he' hf hf' hs => h.travel_unique he he' hf hf' hs, ?_,
    fun n hn => h.degree_ge hn, ?_⟩
  · intro n hn
    obtain ⟨t, ht, hf, hti⟩ := h.travel_at hn
    exact ⟨t, ht, hf, hti⟩
  · intro e he hk
    obtain ⟨hpn, hqn⟩ := pc e he
    rcases h.keep_cases he hk with hsw | ⟨htr, hin, hout⟩
    · obtain ⟨it, k, s, w, r, hs, ho, -⟩ := h.switch_stop _ hsw
      simp only at ho
      obtain ⟨t1, t2⟩ := h.twins hs
      rcases ho with ⟨e1, e2⟩ | ⟨e1, e2⟩
      · rw [← e1, ← e2] at t1 t2
        exact ⟨h.twin_degree t1 t2 hpn hqn he hk (Or.inl ⟨rfl, rfl⟩),
          h.twin_degree t2 t1 hqn hpn he hk (Or.inr ⟨rfl, rfl⟩)⟩
      · rw [← e1, ← e2] at t1 t2
        exact ⟨h.twin_degree t2 t1 hpn hqn he hk (Or.inl ⟨rfl, rfl⟩),
          h.twin_degree t1 t2 hqn hpn he hk (Or.inr ⟨rfl, rfl⟩)⟩
    · obtain ⟨st, hst, a, c, ha, hc, hac, hu, hv⟩ := h.transfer_stop _ htr
      simp only at hu hv hin hout
      obtain ⟨itp, kp, sp, wp, rp, p', hsp, tp, -, hpo⟩ := h.node_info hpn
      obtain ⟨itq, kq, sq, wq, rq, q', hsq, tq, -, hqo⟩ := h.node_info hqn
      obtain ⟨np1, np2⟩ := h.node_of_map hu hsp (hpo.imp And.left And.left)
      obtain ⟨nq1, nq2⟩ := h.node_of_map hv hsq (hqo.imp And.left And.left)
      subst np1 np2 nq1
      rw [nq2] at hsq tq
      exact ⟨fun hd => h.transfer_right hst hsq hqo tp ha hc hac hpn hqn he hk rfl rfl hin hout hd,
        fun hd => h.transfer_left hst hsp hpo tq ha hc hac hpn hqn he hk rfl rfl hin hout hd⟩

end BuiltChainGraph
/-! ## Theorems: the chains of the graph before preprocessing -/

section BuiltChains

open GraphBuilder

variable {stations : t_stationmap} {lines : t_linemap} {cc sc : ℚ} {type : ProblemType}
  {preprocess : Bool} {b1 : GraphBuilder} {way back : NodeMap} {b2 : GraphBuilder}

/-- A travel arc of the lines belongs to one line, carries its name and leaves
a node of the line other than the last in its direction. -/
theorem travelArcs_cases (lines : t_linemap) (r : ArcRecord) (hr : r ∈ travelArcs lines) :
    ∃ pre it post j, lines = pre ++ it :: post ∧ j + 1 < it.2.stations.length ∧
      r.label = it.2.name ∧ r.tgt = r.src + 1 ∧
      (r.src = totalStops pre + j ∨ r.src = totalStops lines + totalStops pre + j) := by
  rw [travelArcs, List.mem_append] at hr
  rcases hr with h | h
  · obtain ⟨pre, it, post, hl, hm⟩ := (mem_allLineArcs forwardArcs r lines 0 0).1 h
    simp only [forwardArcs, List.mem_map, List.mem_range] at hm
    obtain ⟨j, hj, rfl⟩ := hm
    exact ⟨pre, it, post, j, hl, by omega, rfl, by simp only; omega, Or.inl (by simp only; omega)⟩
  · obtain ⟨pre, it, post, hl, hm⟩ := (mem_allLineArcs reverseArcs r lines _ _).1 h
    simp only [reverseArcs, List.mem_map, List.mem_range] at hm
    obtain ⟨j, hj, rfl⟩ := hm
    exact ⟨pre, it, post, j, hl, by omega, rfl, by simp only; omega, Or.inr (by simp only)⟩

/-- A travel arc of the graph before preprocessing with its attributes is a
travel arc of the lines. -/
theorem Built.travel_full_record
    (h : Built stations lines cc sc type preprocess b1 way back b2)
    {e : Edge} (he : e ∈ b2._g.edges) (hf : b2._connection_arcs e.id = false) :
    (⟨e.id, e.src, e.tgt, b2._dist e.id, b2._arc_names e.id, false⟩ : ArcRecord) ∈
      travelArcs lines := by
  obtain ⟨g1, g2, g3, g4, g5, g6, g7⟩ := createNodesAndTravelArcs_sound _ _ _ _ _ _ h.travel
    (sound_init stations lines cc sc) (mapIn_empty _) (mapIn_empty _)
  obtain ⟨switches, calls, -, -, k3, -, -⟩ :=
    addSpecialArcs_trace b1 way back type preprocess b2 g1 g2 g3 h.special
  obtain ⟨-, -, a3, a4⟩ := createNodesAndTravelArcs_nodes _ _ _ _ _ _ _ h.travel
  obtain ⟨s1, s2, s3, s4, s5, -⟩ := special_shape b1 b1._switch_cost b1._change_cost switches
    (calls.filter (transferGuard (b1.addArcs b1._switch_cost switches)))
  rw [← k3] at s1 s2 s3 s4 s5
  have he0 := he
  rw [s1] at he
  have he1 : e ∈ b1._g.edges := by
    rcases List.mem_append.1 he with h1 | h1
    · rcases List.mem_append.1 h1 with h2 | h2
      · exact h2
      · obtain ⟨-, hlo, hhi⟩ := pair_of_mem_arcsFrom _ _ _ h2
        rw [(s2 e.id hlo hhi).2] at hf
        exact absurd hf (by simp)
    · obtain ⟨-, hlo, hhi⟩ := pair_of_mem_arcsFrom _ _ _ h1
      rw [(s3 e.id hlo hhi).2] at hf
      exact absurd hf (by simp)
  have hlt : e.id < b1._g.nextEdge := g1.1.2 e he1
  have hr : (⟨e.id, e.src, e.tgt, b1._dist e.id, b1._arc_names e.id,
      b1._connection_arcs e.id⟩ : ArcRecord) ∈ b1.arcRecords :=
    List.mem_map.2 ⟨e, he1, rfl⟩
  rw [a3] at hr
  rw [s5, (s4 e.id hlt).1]
  have hfl : b1._connection_arcs e.id = false := by
    rw [← (s4 e.id hlt).2]; exact hf
  rw [hfl] at hr
  exact hr

/-- The label of a travel arc of the graph before preprocessing. -/
theorem Built.travel_label (h : Built stations lines cc sc type preprocess b1 way back b2)
    {e : Edge} (he : e ∈ b2._g.edges) (hf : b2._connection_arcs e.id = false) :
    ∃ pre it post j, lines = pre ++ it :: post ∧ j + 1 < it.2.stations.length ∧
      b2._arc_names e.id = it.2.name ∧ e.tgt = e.src + 1 ∧
      (e.src = totalStops pre + j ∨ e.src = totalStops lines + totalStops pre + j) :=
  travelArcs_cases lines _ (h.travel_full_record he hf)

/-- A travel arc that enters a node and a travel arc that leaves it carry the
same label, the name of a line. -/
theorem Built.label_eq (h : Built stations lines cc sc type preprocess b1 way back b2)
    {e e' : Edge} (he : e ∈ b2._g.edges) (he' : e' ∈ b2._g.edges)
    (hf : b2._connection_arcs e.id = false) (hf' : b2._connection_arcs e'.id = false)
    (hn : e.tgt = e'.src) :
    b2._arc_names e.id = b2._arc_names e'.id ∧
      ∃ it ∈ lines, it.2.name ≠ CHANGE_NAME ∧ b2._arc_names e.id = it.2.name := by
  obtain ⟨pre, it, post, j, hl, hj, hlab, hstep, hsrc⟩ := h.travel_label he hf
  obtain ⟨pre', it', post', j', hl', hj', hlab', hstep', hsrc'⟩ := h.travel_label he' hf'
  have hb := totalStops_block_le hl
  have hb' := totalStops_block_le hl'
  have hit : it ∈ lines := by rw [hl]; simp
  refine ⟨?_, it, hit, h.valid.reserved it hit, hlab⟩
  have key : it = it' := by
    rcases hsrc with hs | hs <;> rcases hsrc' with hs' | hs'
    · exact (block_unique pre pre' it it' post post' (hl.symm.trans hl') e.tgt
        (by omega) (by omega) (by omega) (by omega)).2.1
    · omega
    · omega
    · exact (block_unique pre pre' it it' post post' (hl.symm.trans hl')
        (e.tgt - totalStops lines) (by omega) (by omega) (by omega) (by omega)).2.1
  rw [hlab, hlab', key]

/-- Consecutive nodes with one entering and one leaving arc each, of the same
label, form a chain. -/
theorem chainFrom_range (b : GraphBuilder) :
    ∀ (len first : Nat) (ein : Edge), ein ∈ b._g.edges → ein.tgt = first →
      (∀ n ∈ List.range' first len, ∃ ei eo, b._g.inEdges n = [ei] ∧ b._g.outEdges n = [eo] ∧
        eo.tgt = n + 1 ∧ b._arc_names ei.id = b._arc_names eo.id) →
      ∃ outs, b.ChainFrom ein (List.range' first len) outs (first + len) := by
  intro len
  induction len with
  | zero =>
    intro first ein _ ht _
    exact ⟨[], by simpa [ChainFrom] using ht⟩
  | succ len ih =>
    intro first ein he ht hall
    obtain ⟨ei, eo, hin, hout, hto, hnm⟩ := hall first (by simp [List.range'_succ])
    have heq : ein = ei := eq_in_of_tgt b first ei ein hin he ht
    subst heq
    obtain ⟨outs, hch⟩ := ih (first + 1) eo (mem_of_outEdges b first eo hout).1 hto
      (fun n hn => hall n (by
        rw [List.range'_succ]
        exact List.mem_cons_of_mem _ hn))
    refine ⟨eo :: outs, ?_⟩
    rw [List.range'_succ]
    simp only [ChainFrom]
    refine ⟨hin, hout, hnm, ?_⟩
    have e1 : first + (len + 1) = first + 1 + len := by omega
    rw [e1]
    exact hch

/-- The chains of the graph before preprocessing: `computeDegree2Chains` returns
them; they are paths of consecutive nodes that share no node, each entered from
and left to a hidden node, with arcs of one line. -/
theorem Built.chains_data (h : Built stations lines cc sc type preprocess b1 way back b2) :
    ∃ chains, computeDegree2Chains b2._g b2._connection_arcs = .ok chains ∧
      chains.flatten.Nodup ∧
      (∀ n, n ∈ chains.flatten ↔
        n ∈ b2._g.nodes ∧ n ∉ hiddenNodes b2._g b2._connection_arcs) ∧
      ∀ c ∈ chains, ∃ first len ein outs, 0 < len ∧ c = List.range' first len ∧
        b2.ChainFrom ein c outs (first + len) ∧ ein.src + 1 = first ∧
        ein.src ∉ chains.flatten ∧ first + len ∉ chains.flatten ∧
        ∃ it ∈ lines, it.2.name ≠ CHANGE_NAME ∧ b2._arc_names ein.id = it.2.name := by
  have hcg := h.chainGraph
  obtain ⟨chains, hok, hnd, hmem, hch⟩ := hcg.chains_spec
  refine ⟨chains, hok, hnd, hmem, ?_⟩
  intro c hc
  obtain ⟨first, len, hlen, rfl, hpre, hpost⟩ := hch _ hc
  have hvis : ∀ n ∈ List.range' first len,
      n ∈ b2._g.nodes ∧ n ∉ hiddenNodes b2._g b2._connection_arcs := by
    intro n hn
    exact (hmem n).1 (List.mem_flatten.2 ⟨_, hc, hn⟩)
  have hfirst : first ∈ List.range' first len := by
    rw [List.mem_range']
    exact ⟨0, hlen, by omega⟩
  obtain ⟨-, ein, eout, hin, hout, hkin, hkout, hsrc, htgt⟩ :=
    hcg.visible_node first (hvis first hfirst).1 (hvis first hfirst).2
  obtain ⟨hein, heint⟩ := mem_of_inEdges b2 first ein hin
  obtain ⟨heout, heouts⟩ := mem_of_outEdges b2 first eout hout
  have hall : ∀ n ∈ List.range' first len, ∃ ei eo, b2._g.inEdges n = [ei] ∧
      b2._g.outEdges n = [eo] ∧ eo.tgt = n + 1 ∧
      b2._arc_names ei.id = b2._arc_names eo.id := by
    intro n hn
    obtain ⟨-, ei, eo, h1, h2, h3, h4, h5, h6⟩ := hcg.visible_node n (hvis n hn).1 (hvis n hn).2
    obtain ⟨m1, m2⟩ := mem_of_inEdges b2 n ei h1
    obtain ⟨m3, m4⟩ := mem_of_outEdges b2 n eo h2
    exact ⟨ei, eo, h1, h2, h6, (h.label_eq m1 m3 h3 h4 (m2.trans m4.symm)).1⟩
  obtain ⟨outs, hchain⟩ := chainFrom_range b2 len first ein hein heint hall
  refine ⟨first, len, ein, outs, hlen, rfl, hchain, hsrc, ?_, ?_,
    (h.label_eq hein heout hkin hkout (heint.trans heouts.symm)).2⟩
  · intro hm
    exact ((hmem _).1 hm).2 (hpre ein hein heint)
  · intro hm
    have hlast : first + len - 1 ∈ List.range' first len := by
      rw [List.mem_range']
      exact ⟨len - 1, by omega, by omega⟩
    obtain ⟨-, ei, eo, h1, h2, h3, h4, h5, h6⟩ :=
      hcg.visible_node _ (hvis _ hlast).1 (hvis _ hlast).2
    obtain ⟨m3, m4⟩ := mem_of_outEdges b2 _ eo h2
    have := hpost eo m3 m4
    have e1 : eo.tgt = first + len := by omega
    rw [e1] at this
    exact ((hmem _).1 hm).2 this

end BuiltChains
/-! ## Theorems: the loop of `preprocessGraph` over the chains -/

section ChainRun

open GraphBuilder

/-- The arcs that leave a node of a chain lead to a node of the chain or to the
node after the chain, and are arcs of the chain. -/
theorem chainFrom_arcs_out (b : GraphBuilder) (q : Nat) :
    ∀ (vs : List Nat) (outs : List Edge) (ein : Edge), b.ChainFrom ein vs outs q →
      ∀ e ∈ b._g.edges, e.src ∈ vs → e ∈ outs ∧ (e.tgt ∈ vs ∨ e.tgt = q) := by
  intro vs
  induction vs with
  | nil => intro outs ein _ e _ hs; simp at hs
  | cons v vs ih =>
    intro outs ein h e he hs
    cases outs with
    | nil => simp [ChainFrom] at h
    | cons o os =>
      simp only [ChainFrom] at h
      obtain ⟨h1, h2, h3, h4⟩ := h
      rcases List.mem_cons.1 hs with hv | hv
      · have heq := eq_out_of_src b v o e h2 he hv
        subst heq
        refine ⟨List.mem_cons_self _ _, ?_⟩
        cases vs with
        | nil =>
          cases os with
          | nil => simp only [ChainFrom] at h4; exact Or.inr h4
          | cons _ _ => simp [ChainFrom] at h4
        | cons w ws =>
          cases os with
          | nil => simp [ChainFrom] at h4
          | cons o2 os2 =>
            simp only [ChainFrom] at h4
            left
            rw [(mem_of_inEdges b w e h4.1).2]
            simp
      · obtain ⟨g1, g2⟩ := ih os o h4 e he hv
        exact ⟨List.mem_cons_of_mem _ g1, g2.imp (List.mem_cons_of_mem _) id⟩

/-- The arcs that enter a node of a chain are the arc that enters the chain and
arcs that leave nodes of the chain. -/
theorem chainFrom_arcs_in (b : GraphBuilder) (q : Nat) :
    ∀ (vs : List Nat) (outs : List Edge) (ein : Edge), b.ChainFrom ein vs outs q →
      ∀ e ∈ b._g.edges, e.tgt ∈ vs → e = ein ∨ e.src ∈ vs := by
  intro vs
  induction vs with
  | nil => intro outs ein _ e _ hs; simp at hs
  | cons v vs ih =>
    intro outs ein h e he hs
    cases outs with
    | nil => simp [ChainFrom] at h
    | cons o os =>
      simp only [ChainFrom] at h
      obtain ⟨h1, h2, h3, h4⟩ := h
      rcases List.mem_cons.1 hs with hv | hv
      · exact Or.inl (eq_in_of_tgt b v ein e h1 he hv)
      · rcases ih os o h4 e he hv with g | g
        · right
          rw [g, (mem_of_outEdges b v o h2).2]
          exact List.mem_cons_self _ _
        · exact Or.inr (List.mem_cons_of_mem _ g)

/-- The last arc of a chain leaves the last node of the chain and leads to the
node after the chain; no other arc of the chain leaves the chain. -/
theorem chainFrom_last (b : GraphBuilder) (q : Nat) :
    ∀ (vs : List Nat) (v : Nat) (outs : List Edge) (ein : Edge),
      b.ChainFrom ein (v :: vs) outs q → (v :: vs).Nodup → q ∉ v :: vs →
      ∃ last elast, (v :: vs).getLast? = some last ∧ b._g.outEdges last = [elast] ∧
        elast.tgt = q ∧ elast ∈ b._g.edges ∧ elast.src ∈ v :: vs ∧
        ∀ e ∈ b._g.edges, e.src ∈ v :: vs → e.tgt = q → e = elast := by
  intro vs
  induction vs with
  | nil =>
    intro v outs ein h _ _
    cases outs with
    | nil => simp [ChainFrom] at h
    | cons o os =>
      cases os with
      | cons _ _ => simp [ChainFrom] at h
      | nil =>
        simp only [ChainFrom] at h
        obtain ⟨h1, h2, h3, h4⟩ := h
        obtain ⟨m1, m2⟩ := mem_of_outEdges b v o h2
        refine ⟨v, o, rfl, h2, h4, m1, by rw [m2]; simp, ?_⟩
        intro e he hs _
        simp only [List.mem_singleton] at hs
        exact eq_out_of_src b v o e h2 he hs
  | cons w ws ih =>
    intro v outs ein h hnd hq
    cases outs with
    | nil => simp [ChainFrom] at h
    | cons o os =>
      have h0 := h
      simp only [ChainFrom] at h
      obtain ⟨h1, h2, h3, h4⟩ := h
      obtain ⟨last, elast, g1, g2, g3, g4, g5, g6⟩ := ih w os o h4 (List.nodup_cons.1 hnd).2
        (fun hm => hq (List.mem_cons_of_mem _ hm))
      refine ⟨last, elast, ?_, g2, g3, g4, List.mem_cons_of_mem _ g5, ?_⟩
      · rw [List.getLast?_cons_cons]; exact g1
      · intro e he hs ht
        rcases List.mem_cons.1 hs with hv | hv
        · have heq := eq_out_of_src b v o e h2 he hv
          subst heq
          exfalso
          have hw : e.tgt = w := by
            cases os with
            | nil => simp [ChainFrom] at h4
            | cons o2 os2 =>
              simp only [ChainFrom] at h4
              exact (mem_of_inEdges b w e h4.1).2
          apply hq
          rw [← ht, hw]
          simp
        · exact g6 e he hv ht

/-- A chain of a graph is a chain of a graph with the same arcs at the nodes of
the chain and the same labels of these arcs. -/
theorem chainFrom_congr (b0 b : GraphBuilder) (q : Nat)
    (hnames : ∀ e ∈ b0._g.edges, b._arc_names e.id = b0._arc_names e.id) :
    ∀ (vs : List Nat) (outs : List Edge) (ein : Edge), ein ∈ b0._g.edges →
      (∀ n ∈ vs, b._g.inEdges n = b0._g.inEdges n ∧ b._g.outEdges n = b0._g.outEdges n) →
      b0.ChainFrom ein vs outs q → b.ChainFrom ein vs outs q := by
  intro vs
  induction vs with
  | nil =>
    intro outs ein _ _ h
    cases outs with
    | nil => exact h
    | cons _ _ => simp [ChainFrom] at h
  | cons v vs ih =>
    intro outs ein he hsame h
    cases outs with
    | nil => simp [ChainFrom] at h
    | cons o os =>
      simp only [ChainFrom] at h ⊢
      obtain ⟨h1, h2, h3, h4⟩ := h
      obtain ⟨s1, s2⟩ := hsame v (List.mem_cons_self _ _)
      have ho := (mem_of_outEdges b0 v o h2).1
      refine ⟨s1.trans h1, s2.trans h2, ?_, ih os o ho
        (fun n hn => hsame n (List.mem_cons_of_mem _ hn)) h4⟩
      rw [hnames ein he, hnames o ho]
      exact h3

/-- All arcs of a chain carry the label of the arc that enters the chain. -/
theorem chainFrom_labels (b : GraphBuilder) (q : Nat) :
    ∀ (vs : List Nat) (outs : List Edge) (ein : Edge), b.ChainFrom ein vs outs q →
      ∀ e ∈ outs, b._arc_names e.id = b._arc_names ein.id := by
  intro vs
  induction vs with
  | nil =>
    intro outs ein h e he
    cases outs with
    | nil => simp at he
    | cons _ _ => simp [ChainFrom] at h
  | cons v vs ih =>
    intro outs ein h e he
    cases outs with
    | nil => simp at he
    | cons o os =>
      simp only [ChainFrom] at h
      obtain ⟨h1, h2, h3, h4⟩ := h
      rcases List.mem_cons.1 he with rfl | hm
      · exact h3.symm
      · rw [ih os o h4 e hm, h3]

/-- The first round on a chain of at least two nodes leaves the chain of the
other nodes, entered by the new arc. -/
theorem chainFrom_step (b : GraphBuilder) (q v v2 : Nat) (vs : List Nat) (ein eout eout2 : Edge)
    (os : List Edge) (hf : b.FreshIds)
    (hch : b.ChainFrom ein (v :: v2 :: vs) (eout :: eout2 :: os) q)
    (hnd : (v :: v2 :: vs).Nodup) (hp : ein.src ∉ v :: v2 :: vs) :
    (b.contractNode v ein eout).ChainFrom (Edge.mk b._g.nextEdge ein.src eout.tgt)
      (v2 :: vs) (eout2 :: os) q := by
  simp only [ChainFrom] at hch
  obtain ⟨hin, hout, hnm, hin2, hout2, hnm2, hrest⟩ := hch
  have hnd' : (v2 :: vs).Nodup := (List.nodup_cons.1 hnd).2
  have hv2 : v2 ≠ v := by
    intro h
    exact (List.nodup_cons.1 hnd).1 (by rw [h]; exact List.mem_cons_self _ _)
  have hpv : ein.src ≠ v := fun h => hp (by rw [h]; exact List.mem_cons_self _ _)
  have hp' : ein.src ∉ v2 :: vs := fun h => hp (List.mem_cons_of_mem _ h)
  have ht2 : eout.tgt = v2 := (mem_of_inEdges b v2 eout hin2).2
  have heout2 : eout2 ∈ b._g.edges := (mem_of_outEdges b v2 eout2 hout2).1
  simp only [ChainFrom]
  refine ⟨contract_inEdges_next b v v2 ein eout hout hin2 hv2 hpv, ?_, ?_, ?_⟩
  · rw [contract_outEdges_other b v v2 ein eout hin hv2
      (fun h => hp' (by rw [← h]; exact List.mem_cons_self _ _))]
    exact hout2
  · rw [(contractNode_old b v ein eout eout2.id (hf _ heout2)).2.1]
    simp only [contractNode, if_true]
    rw [hnm, hnm2]
  · apply chainFrom_contract b v ein eout hin hout hf q vs os eout2 heout2 hrest
    intro w hw
    refine ⟨?_, ?_, ?_⟩
    · intro h
      exact (List.nodup_cons.1 hnd).1 (by rw [← h]; exact List.mem_cons_of_mem _ hw)
    · rw [ht2]
      intro h
      exact (List.nodup_cons.1 hnd').1 (by rw [← h]; exact hw)
    · intro h
      exact hp' (by rw [← h]; exact List.mem_cons_of_mem _ hw)

/-- The rounds of the loop over the nodes of a chain of the label `l`. -/
theorem removeChain_labels (l : String) (q : Nat) :
    ∀ (vs : List Nat) (v : Nat) (b : GraphBuilder) (ein : Edge) (outs : List Edge)
      (red : List Nat), b.FreshIds → b.ChainFrom ein (v :: vs) outs q → (v :: vs).Nodup →
      ein.src ∉ v :: vs → b._arc_names ein.id = l →
      ∀ r, removeChain (v :: vs) (b, red) = .ok r → NodesTrace l (v :: vs) (b, red) r := by
  intro vs
  induction vs with
  | nil =>
    intro v b ein outs red hf hch _ hp hl r hr
    cases outs with
    | nil => simp [ChainFrom] at hch
    | cons eout os =>
      simp only [ChainFrom] at hch
      obtain ⟨hin, hout, hnm, -⟩ := hch
      rw [removeChain_cons_ok b v [] red ein eout hin hout hnm] at hr
      simp only [removeChain, Except.ok.injEq] at hr
      exact ⟨ein, eout, hin, hout, hl, hnm ▸ hl, by simp only [contractNode, if_true]; exact hl,
        by simp only [contractNode, if_true], hr.symm⟩
  | cons v2 vs ih =>
    intro v b ein outs red hf hch hnd hp hl r hr
    cases outs with
    | nil => simp [ChainFrom] at hch
    | cons eout os =>
      cases os with
      | nil => simp [ChainFrom] at hch
      | cons eout2 os' =>
        have hch1 := chainFrom_step b q v v2 vs ein eout eout2 os' hf hch hnd hp
        simp only [ChainFrom] at hch
        obtain ⟨hin, hout, hnm, -⟩ := hch
        rw [removeChain_cons_ok b v (v2 :: vs) red ein eout hin hout hnm] at hr
        refine ⟨ein, eout, hin, hout, hl, hnm ▸ hl, by simp only [contractNode, if_true]; exact hl,
          by simp only [contractNode, if_true], ?_⟩
        apply ih v2 (b.contractNode v ein eout) (Edge.mk b._g.nextEdge ein.src eout.tgt)
          (eout2 :: os') (red ++ [v]) (freshIds_contractNode b v ein eout hf) hch1
          (List.nodup_cons.1 hnd).2 (fun h => hp (List.mem_cons_of_mem _ h)) ?_ r hr
        simp only [contractNode, if_true]
        exact hl

end ChainRun
/-! ## Theorems: what contracting a chain leaves as it is -/

section ChainLoop

open GraphBuilder

theorem GraphBuilder.Contracted.freshIds_after {b b1 : GraphBuilder} {ein : Edge} {vs : List Nat}
    {outs : List Edge} {q : Nat} (hC : b.Contracted ein vs outs q b1) (hf : b.FreshIds)
    (hne : vs ≠ []) : b1.FreshIds := by
  intro e he
  rw [hC.edges] at he
  rw [hC.nextEdge]
  have hlen : 0 < vs.length := List.length_pos.2 hne
  rcases List.mem_append.1 he with h | h
  · have := hf e (List.mem_of_mem_filter h)
    omega
  · rw [List.mem_singleton] at h
    subst h
    simp only
    omega

theorem GraphBuilder.Contracted.nodup_after {b b1 : GraphBuilder} {ein : Edge} {vs : List Nat}
    {outs : List Edge} {q : Nat} (hC : b.Contracted ein vs outs q b1) (hf : b.FreshIds)
    (hnd : b._g.edges.Nodup) : b1._g.edges.Nodup := by
  rw [hC.edges]
  refine List.nodup_append.2 ⟨hnd.filter _, List.nodup_singleton _, ?_⟩
  intro e h1 h2
  rw [List.mem_singleton] at h2
  subst h2
  have := hf _ (List.mem_of_mem_filter h1)
  simp only at this
  omega

/-- Contracting a chain leaves the arcs that enter a node outside the chain,
other than the node after the chain. -/
theorem GraphBuilder.Contracted.inEdges_after {b b1 : GraphBuilder} {ein : Edge} {vs : List Nat}
    {outs : List Edge} {q : Nat} (hC : b.Contracted ein vs outs q b1)
    (hch : b.ChainFrom ein vs outs q) (n : Nat) (hn : n ∉ vs) (hq : n ≠ q) :
    b1._g.inEdges n = b._g.inEdges n := by
  unfold LGraph.inEdges
  rw [hC.edges, List.filter_append, List.filter_filter]
  have h2 : [Edge.mk (b._g.nextEdge + (vs.length - 1)) ein.src q].filter
      (fun e => e.tgt == n) = [] := by
    simp [Ne.symm hq]
  rw [h2, List.append_nil]
  apply List.filter_congr
  intro e he
  by_cases ht : e.tgt = n
  · have hs : e.src ∉ vs := by
      intro hm
      rcases (chainFrom_arcs_out b q vs outs ein hch e he hm).2 with g | g
      · exact hn (ht ▸ g)
      · exact hq (ht.symm.trans g)
    simp [ht, hs, hn]
  · simp [ht]

/-- Contracting a chain leaves the arcs that leave a node outside the chain,
other than the node before the chain. -/
theorem GraphBuilder.Contracted.outEdges_after {b b1 : GraphBuilder} {ein : Edge} {vs : List Nat}
    {outs : List Edge} {q : Nat} (hC : b.Contracted ein vs outs q b1)
    (hch : b.ChainFrom ein vs outs q) (n : Nat) (hn : n ∉ vs) (hp : n ≠ ein.src) :
    b1._g.outEdges n = b._g.outEdges n := by
  unfold LGraph.outEdges
  rw [hC.edges, List.filter_append, List.filter_filter]
  have h2 : [Edge.mk (b._g.nextEdge + (vs.length - 1)) ein.src q].filter
      (fun e => e.src == n) = [] := by
    simp [Ne.symm hp]
  rw [h2, List.append_nil]
  apply List.filter_congr
  intro e he
  by_cases hs : e.src = n
  · have ht : e.tgt ∉ vs := by
      intro hm
      rcases chainFrom_arcs_in b q vs outs ein hch e he hm with g | g
      · exact hp (hs.symm.trans (congrArg Edge.src g))
      · exact hn (hs ▸ g)
    simp [hs, ht, hn]
  · simp [hs]

/-- Contracting a chain leaves the in-degree of every node outside the chain. -/
theorem GraphBuilder.Contracted.indeg_after {b b1 : GraphBuilder} {ein : Edge} {v : Nat} {vs : List Nat}
    {outs : List Edge} {q : Nat} (hC : b.Contracted ein (v :: vs) outs q b1)
    (hch : b.ChainFrom ein (v :: vs) outs q) (hnd : (v :: vs).Nodup) (hE : b._g.edges.Nodup)
    (hq : q ∉ v :: vs) (n : Nat) (hn : n ∉ v :: vs) : b1._g.indeg n = b._g.indeg n := by
  by_cases hnq : n = q
  · subst hnq
    obtain ⟨last, elast, -, -, g3, g4, g5, g6⟩ := chainFrom_last b n vs v outs ein hch hnd hq
    unfold LGraph.indeg LGraph.inEdges
    rw [hC.edges, List.filter_append, List.filter_filter]
    have h2 : [Edge.mk (b._g.nextEdge + ((v :: vs).length - 1)) ein.src n].filter
        (fun e => e.tgt == n) = [Edge.mk (b._g.nextEdge + ((v :: vs).length - 1)) ein.src n] := by
      simp
    rw [h2, List.length_append, List.length_singleton]
    have h3 : b._g.edges.filter
        (fun a => (a.tgt == n) && decide (a.src ∉ v :: vs ∧ a.tgt ∉ v :: vs)) =
        (b._g.edges.filter (fun e => e.tgt == n)).filter (fun x => x != elast) := by
      rw [List.filter_filter]
      apply List.filter_congr
      intro e he
      by_cases ht : e.tgt = n
      · have hb : (e.tgt == n) = true := by simpa using ht
        by_cases hel : e = elast
        · have hd : decide (e.src ∉ v :: vs ∧ e.tgt ∉ v :: vs) = false := by
            rw [decide_eq_false_iff_not]
            intro hh
            exact hh.1 (hel ▸ g5)
          have hx : (e != elast) = false := by simpa using hel
          rw [hb, hd, hx]
          rfl
        · have hs : e.src ∉ v :: vs := fun hm => hel (g6 e he hm ht)
          have ht' : e.tgt ∉ v :: vs := by rw [ht]; exact hn
          have hd : decide (e.src ∉ v :: vs ∧ e.tgt ∉ v :: vs) = true := by
            rw [decide_eq_true_eq]
            exact ⟨hs, ht'⟩
          have hx : (e != elast) = true := by simpa using hel
          rw [hb, hd, hx]
      · have hb : (e.tgt == n) = false := by simpa using ht
        rw [hb, Bool.false_and, Bool.and_false]
    have hmem : elast ∈ b._g.edges.filter (fun e => e.tgt == n) :=
      List.mem_filter.2 ⟨g4, by simpa using g3⟩
    rw [h3, ← List.Nodup.erase_eq_filter (hE.filter _), List.length_erase_of_mem hmem]
    have := List.length_pos_of_mem hmem
    omega
  · unfold LGraph.indeg
    rw [hC.inEdges_after hch n hn hnq]

end ChainLoop
/-! ## Theorems: the loop of `preprocessGraph` over all chains -/

section ChainMaster

open GraphBuilder

/-- The test of `preprocessGraph` on a chain of the current graph. -/
theorem chainIsKept_chain (b : GraphBuilder) (q v : Nat) (vs : List Nat) (outs : List Edge)
    (ein : Edge) (hch : b.ChainFrom ein (v :: vs) outs q) (hnd : (v :: vs).Nodup)
    (hq : q ∉ v :: vs) :
    chainIsKept b (v :: vs) =
      .ok (decide (b._g.indeg ein.src > 1) && decide (b._g.indeg q > 1)) := by
  obtain ⟨last, elast, g1, g2, g3, -⟩ := chainFrom_last b q vs v outs ein hch hnd hq
  have hin : b._g.inEdges v = [ein] := by
    cases outs with
    | nil => simp [ChainFrom] at hch
    | cons o os =>
      simp only [ChainFrom] at hch
      exact hch.1
  unfold chainIsKept
  rw [g1]
  simp only [List.head?_cons, hin, g2, g3]

/-- The loop of `preprocessGraph` over chains that share no node, each entered
from and left to a node outside all chains, with arcs of one line: the loop
returns, and its rounds are those of `ChainsTrace` and of `LabelsTrace`. -/
theorem removeChains_run (lines : t_linemap) (type : ProblemType) (b0 : GraphBuilder)
    (V : List Nat) (hf0 : b0.FreshIds) :
    ∀ (rest : List (List Nat)) (b : GraphBuilder) (red : List Nat),
      (∀ c ∈ rest, ∃ ein outs q, c ≠ [] ∧ b0.ChainFrom ein c outs q ∧ ein.src ∉ V ∧ q ∉ V ∧
        (∀ n ∈ c, n ∈ V) ∧
        ∃ it ∈ lines, it.2.name ≠ CHANGE_NAME ∧ b0._arc_names ein.id = it.2.name) →
      rest.flatten.Nodup →
      b.FreshIds → b._g.edges.Nodup → b0._g.nextEdge ≤ b._g.nextEdge →
      (∀ i, i < b0._g.nextEdge → b._dist i = b0._dist i ∧ b._arc_names i = b0._arc_names i) →
      (∀ n ∈ rest.flatten,
        b._g.inEdges n = b0._g.inEdges n ∧ b._g.outEdges n = b0._g.outEdges n) →
      (∀ n, n ∉ V → b._g.indeg n = b0._g.indeg n) →
      ∃ r, removeChains type rest (b, red) = .ok r ∧ ChainsTrace type b0 rest (b, red) r ∧
        LabelsTrace lines type rest (b, red) r := by
  intro rest
  induction rest with
  | nil =>
    intro b red _ _ _ _ _ _ _ _
    exact ⟨(b, red), rfl, rfl, rfl⟩
  | cons c rest ih =>
    intro b red hdata hnd hf hE hle hold hsame hdeg
    obtain ⟨ein, outs, q, hne, hch0, hpV, hqV, hcV, it, hit, hres, hlab⟩ :=
      hdata c (List.mem_cons_self _ _)
    rw [List.flatten_cons, List.nodup_append] at hnd
    obtain ⟨hcnd, hrnd, hdisj⟩ := hnd
    have hpc : ein.src ∉ c := fun hm => hpV (hcV _ hm)
    have hqc : q ∉ c := fun hm => hqV (hcV _ hm)
    match c, hne with
    | v :: vs, _ =>
      have hin0 : b0._g.inEdges v = [ein] := by
        cases outs with
        | nil => simp [ChainFrom] at hch0
        | cons o os =>
          simp only [ChainFrom] at hch0
          exact hch0.1
      have hein : ein ∈ b0._g.edges := (mem_of_inEdges b0 v ein hin0).1
      have houts : ∀ e ∈ outs, e ∈ b0._g.edges := chainFrom_mem b0 q (v :: vs) outs ein hch0
      have hnames : ∀ e ∈ b0._g.edges, b._arc_names e.id = b0._arc_names e.id :=
        fun e he => (hold e.id (hf0 e he)).2
      have hchb : b.ChainFrom ein (v :: vs) outs q :=
        chainFrom_congr b0 b q hnames (v :: vs) outs ein hein
          (fun n hn => hsame n (by
            rw [List.flatten_cons]
            exact List.mem_append_left _ hn)) hch0
      have hkept := chainIsKept_chain b q v vs outs ein hchb hcnd hqc
      have i1 := hdeg _ hpV
      have i2 := hdeg _ hqV
      have hdist : ∀ e ∈ ein :: outs, b._dist e.id = b0._dist e.id := by
        intro e he
        rcases List.mem_cons.1 he with rfl | hm
        · exact (hold _ (hf0 _ hein)).1
        · exact (hold _ (hf0 _ (houts e hm))).1
      by_cases hk : KeptChain type b0 ein q
      · obtain ⟨hty, hk1, hk2⟩ := hk
        have hval : chainIsKept b (v :: vs) = .ok true := by
          rw [hkept, i1, i2]
          simp [hk1, hk2]
        obtain ⟨r, hr, tr1, tr2⟩ := ih b red
          (fun c' hc' => hdata c' (List.mem_cons_of_mem _ hc')) hrnd hf hE hle hold
          (fun n hn => hsame n (by
            rw [List.flatten_cons]
            exact List.mem_append_right _ hn)) hdeg
        refine ⟨r, ?_, ?_, ?_⟩
        · rw [removeChains]
          simp only [hty, if_true, hval]
          rw [hty] at hr
          exact hr
        · exact ⟨ein, outs, q, by simp, hch0, hchb, i1, i2, hdist,
            Or.inl ⟨⟨hty, hk1, hk2⟩, tr1⟩⟩
        · exact Or.inl ⟨hty, hval, tr2⟩
      · obtain ⟨b1, hrun, hC⟩ := removeChain_contracted q vs v b ein outs red hf hchb hcnd
          hpc hqc
        have htest : (if type = ProblemType.STATION then chainIsKept b (v :: vs)
            else .ok false) = .ok false := by
          by_cases hty : type = ProblemType.STATION
          · rw [if_pos hty, hkept, i1, i2]
            have : ¬ (1 < b0._g.indeg ein.src ∧ 1 < b0._g.indeg q) :=
              fun hh => hk ⟨hty, hh.1, hh.2⟩
            congr 1
            by_cases h1 : b0._g.indeg ein.src > 1
            · by_cases h2 : b0._g.indeg q > 1
              · exact absurd ⟨h1, h2⟩ this
              · simp [h2]
            · simp [h1]
          · rw [if_neg hty]
        have hf1 : b1.FreshIds := hC.freshIds_after hf (by simp)
        have hE1 : b1._g.edges.Nodup := hC.nodup_after hf hE
        have hle1 : b0._g.nextEdge ≤ b1._g.nextEdge := by
          rw [hC.nextEdge]
          omega
        have hold1 : ∀ i, i < b0._g.nextEdge →
            b1._dist i = b0._dist i ∧ b1._arc_names i = b0._arc_names i := by
          intro i hi
          obtain ⟨o1, o2, -⟩ := hC.old i (by omega)
          obtain ⟨p1, p2⟩ := hold i hi
          exact ⟨o1.trans p1, o2.trans p2⟩
        have hsame1 : ∀ n ∈ rest.flatten,
            b1._g.inEdges n = b0._g.inEdges n ∧ b1._g.outEdges n = b0._g.outEdges n := by
          intro n hn
          have hnc : n ∉ v :: vs := fun hm => hdisj hm hn
          have hnV : n ∈ V := by
            obtain ⟨c', hc', hnc'⟩ := List.mem_flatten.1 hn
            obtain ⟨_, _, _, _, _, _, _, hV', _⟩ := hdata c' (List.mem_cons_of_mem _ hc')
            exact hV' n hnc'
          have hnq : n ≠ q := fun hh => hqV (hh ▸ hnV)
          have hnp : n ≠ ein.src := fun hh => hpV (hh ▸ hnV)
          obtain ⟨s1, s2⟩ := hsame n (by
            rw [List.flatten_cons]
            exact List.mem_append_right _ hn)
          exact ⟨(hC.inEdges_after hchb n hnc hnq).trans s1,
            (hC.outEdges_after hchb n hnc hnp).trans s2⟩
        have hdeg1 : ∀ n, n ∉ V → b1._g.indeg n = b0._g.indeg n := by
          intro n hn
          have hnc : n ∉ v :: vs := fun hm => hn (hcV _ hm)
          exact (hC.indeg_after hchb hcnd hE hqc n hnc).trans (hdeg n hn)
        obtain ⟨r, hr, tr1, tr2⟩ := ih b1 (red ++ (v :: vs))
          (fun c' hc' => hdata c' (List.mem_cons_of_mem _ hc')) hrnd hf1 hE1 hle1 hold1
          hsame1 hdeg1
        refine ⟨r, ?_, ?_, ?_⟩
        · rw [removeChains]
          simp only [htest, hrun]
          exact hr
        · exact ⟨ein, outs, q, by simp, hch0, hchb, i1, i2, hdist,
            Or.inr ⟨hk, b1, hC, tr1⟩⟩
        · refine Or.inr ⟨it, hit, hres, (b1, red ++ (v :: vs)), ?_, tr2⟩
          exact removeChain_labels it.2.name q vs v b ein outs red hf hchb hcnd hpc
            ((hnames ein hein).trans hlab) _ hrun

end ChainMaster
/-! ## Theorems: the chains and their contraction in valid networks -/

section PreprocessClaims

open GraphBuilder

/-- The run of `preprocessGraph` on the graph before preprocessing: the chains
are computed, the loop over the chains returns, and its rounds are those of
`ChainsTrace` and of `LabelsTrace`. -/
theorem Built.preprocess_run {stations : t_stationmap} {lines : t_linemap} {cc sc : ℚ}
    {type : ProblemType} {preprocess : Bool} {b1 : GraphBuilder} {way back : NodeMap}
    {b2 : GraphBuilder} (h : Built stations lines cc sc type preprocess b1 way back b2) :
    ∃ chains r, computeDegree2Chains b2._g b2._connection_arcs = .ok chains ∧
      removeChains type chains (b2, []) = .ok r ∧
      b2.preprocessGraph type =
        .ok { r.1 with _station_nodes := cleanStations r.2 r.1._station_nodes } ∧
      ChainsTrace type b2 chains (b2, []) r ∧ LabelsTrace lines type chains (b2, []) r := by
  obtain ⟨chains, hok, hnd, hmem, hch⟩ := h.chains_data
  obtain ⟨-, -, -, -, -, -, -, -, -, -, hf, -⟩ := h.shape
  have hdata : ∀ c ∈ chains, ∃ ein outs q, c ≠ [] ∧ b2.ChainFrom ein c outs q ∧
      ein.src ∉ chains.flatten ∧ q ∉ chains.flatten ∧ (∀ n ∈ c, n ∈ chains.flatten) ∧
      ∃ it ∈ lines, it.2.name ≠ CHANGE_NAME ∧ b2._arc_names ein.id = it.2.name := by
    intro c hc
    obtain ⟨first, len, ein, outs, hlen, rfl, hchain, -, hp, hq, hit⟩ := hch c hc
    refine ⟨ein, outs, first + len, ?_, hchain, hp, hq,
      fun n hn => List.mem_flatten.2 ⟨_, hc, hn⟩, hit⟩
    intro hnil
    have := congrArg List.length hnil
    simp only [List.length_range', List.length_nil] at this
    omega
  obtain ⟨r, hr, tr1, tr2⟩ := removeChains_run lines type b2 chains.flatten hf chains b2 []
    hdata hnd hf h.edges_nodup (Nat.le_refl _) (fun _ _ => ⟨rfl, rfl⟩)
    (fun _ _ => ⟨rfl, rfl⟩) (fun _ _ => rfl)
  refine ⟨chains, r, hok, hr, ?_, tr1, tr2⟩
  obtain ⟨b', red⟩ := r
  simp only [preprocessGraph, hok, hr]

/-- C33: for the graph that `createNodesAndTravelArcs` and `addSpecialArcs`
build from a valid network (the reader's guarantees of `ValidNetwork` and
`StationKeys`, no line with a repeated station, every line with at least two
stops), `computeDegree2Chains` returns chains; every node of a chain has
in-degree 1 and out-degree 1 and degree 2 in the full graph and is no end node
of a switch or transfer arc; every chain is a path of consecutive nodes listed
in travel order, each joined to the next by a travel arc; no node is in two
chains or twice in one; every node of the graph has degree at least 2; and
`preprocessGraph` returns, so none of its assertions fails. -/
theorem computeDegree2Chains_paths {stations : t_stationmap} {lines : t_linemap} {cc sc : ℚ}
    {type : ProblemType} {preprocess : Bool} {b1 : GraphBuilder} {way back : NodeMap}
    {b2 : GraphBuilder} (h : Built stations lines cc sc type preprocess b1 way back b2) :
    ∃ chains, computeDegree2Chains b2._g b2._connection_arcs = .ok chains ∧
      (∀ c ∈ chains, ∀ n ∈ c, b2._g.indeg n = 1 ∧ b2._g.outdeg n = 1 ∧ b2._g.degree n = 2 ∧
        ∀ e ∈ b2._g.edges, b2._connection_arcs e.id = true → e.src ≠ n ∧ e.tgt ≠ n) ∧
      (∀ c ∈ chains, ∃ first len, 0 < len ∧ c = List.range' first len ∧
        ∀ i, i + 1 < len → ∃ e ∈ b2._g.edges, e.src = first + i ∧ e.tgt = first + i + 1 ∧
          b2._connection_arcs e.id = false) ∧
      chains.flatten.Nodup ∧
      (∀ n ∈ b2._g.nodes, 2 ≤ b2._g.degree n) ∧
      ∃ b3, b2.preprocessGraph type = .ok b3 := by
  have hcg := h.chainGraph
  obtain ⟨chains, hok, hnd, hmem, hch⟩ := h.chains_data
  obtain ⟨chains', r, hok', -, hpre, -, -⟩ := h.preprocess_run
  have hvis : ∀ c ∈ chains, ∀ n ∈ c,
      n ∈ b2._g.nodes ∧ n ∉ hiddenNodes b2._g b2._connection_arcs :=
    fun c hc n hn => (hmem n).1 (List.mem_flatten.2 ⟨c, hc, hn⟩)
  refine ⟨chains, hok, ?_, ?_, hnd, fun n hn => h.degree_ge hn, _, hpre⟩
  · intro c hc n hn
    obtain ⟨hdeg, ein, eout, hin, hout, hkin, hkout, -, -⟩ :=
      hcg.visible_node n (hvis c hc n hn).1 (hvis c hc n hn).2
    refine ⟨by simp [LGraph.indeg, hin], by simp [LGraph.outdeg, hout], hdeg, ?_⟩
    intro e he hk
    constructor
    · intro hs
      have := eq_out_of_src b2 n eout e hout he hs
      rw [this, hkout] at hk
      exact absurd hk (by simp)
    · intro ht
      have := eq_in_of_tgt b2 n ein e hin he ht
      rw [this, hkin] at hk
      exact absurd hk (by simp)
  · intro c hc
    obtain ⟨first, len, ein, outs, hlen, rfl, -⟩ := hch c hc
    refine ⟨first, len, hlen, rfl, ?_⟩
    intro i hi
    have hm : first + i ∈ List.range' first len := by
      rw [List.mem_range']
      exact ⟨i, by omega, by omega⟩
    obtain ⟨-, ei, eo, h1, h2, h3, h4, h5, h6⟩ :=
      hcg.visible_node _ (hvis _ hc _ hm).1 (hvis _ hc _ hm).2
    obtain ⟨m1, m2⟩ := mem_of_outEdges b2 _ eo h2
    exact ⟨eo, m1, m2, h6, h4⟩

/-- C33, witness: the single line of four stations in segment mode. -/
theorem computeDegree2Chains_paths_witness :
    Built chainStations chainLines 5 5 .SEGMENT true chainTravel.1 chainTravel.2.1
        chainTravel.2.2 chainSpecial ∧
      ∃ chains, computeDegree2Chains chainSpecial._g chainSpecial._connection_arcs = .ok chains ∧
        (∀ c ∈ chains, ∀ n ∈ c, chainSpecial._g.indeg n = 1 ∧ chainSpecial._g.outdeg n = 1 ∧
          chainSpecial._g.degree n = 2 ∧
          ∀ e ∈ chainSpecial._g.edges, chainSpecial._connection_arcs e.id = true →
            e.src ≠ n ∧ e.tgt ≠ n) ∧
        (∀ c ∈ chains, ∃ first len, 0 < len ∧ c = List.range' first len ∧
          ∀ i, i + 1 < len → ∃ e ∈ chainSpecial._g.edges, e.src = first + i ∧
            e.tgt = first + i + 1 ∧ chainSpecial._connection_arcs e.id = false) ∧
        chains.flatten.Nodup ∧
        (∀ n ∈ chainSpecial._g.nodes, 2 ≤ chainSpecial._g.degree n) ∧
        ∃ b3, chainSpecial.preprocessGraph .SEGMENT = .ok b3 :=
  ⟨⟨by decide, by decide, by decide, by rfl, by rfl⟩,
    computeDegree2Chains_paths
    (⟨by decide, by decide, by decide, by rfl, by rfl⟩ :
      Built chainStations chainLines 5 5 .SEGMENT true chainTravel.1 chainTravel.2.1
        chainTravel.2.2 chainSpecial)⟩

/-- C32: for the graph built from a valid network (as in C33) and either mode,
`preprocessGraph` returns, so the assertion that compares the names of the two
arcs never fails, and its rounds are those of `LabelsTrace`: every chain is
skipped, in station mode only, or removed node by node, and in the round of a
node the node has exactly one entering and exactly one leaving arc, both arcs
carry the name of one line of the network, which is not the label `<->` of the
transfer arcs, and the new arc carries this name. -/
theorem preprocessGraph_one_line {stations : t_stationmap} {lines : t_linemap} {cc sc : ℚ}
    {type : ProblemType} {preprocess : Bool} {b1 : GraphBuilder} {way back : NodeMap}
    {b2 : GraphBuilder} (h : Built stations lines cc sc type preprocess b1 way back b2) :
    ∃ chains r, computeDegree2Chains b2._g b2._connection_arcs = .ok chains ∧
      removeChains type chains (b2, []) = .ok r ∧
      b2.preprocessGraph type =
        .ok { r.1 with _station_nodes := cleanStations r.2 r.1._station_nodes } ∧
      LabelsTrace lines type chains (b2, []) r := by
  obtain ⟨chains, r, h1, h2, h3, -, h5⟩ := h.preprocess_run
  exact ⟨chains, r, h1, h2, h3, h5⟩

/-- C32, witness: the single line of four stations in segment mode. -/
theorem preprocessGraph_one_line_witness :
    Built chainStations chainLines 5 5 .SEGMENT true chainTravel.1 chainTravel.2.1
        chainTravel.2.2 chainSpecial ∧
      ∃ chains r, computeDegree2Chains chainSpecial._g chainSpecial._connection_arcs =
          .ok chains ∧
        removeChains .SEGMENT chains (chainSpecial, []) = .ok r ∧
        chainSpecial.preprocessGraph .SEGMENT =
          .ok { r.1 with _station_nodes := cleanStations r.2 r.1._station_nodes } ∧
        LabelsTrace chainLines .SEGMENT chains (chainSpecial, []) r :=
  ⟨⟨by decide, by decide, by decide, by rfl, by rfl⟩,
    preprocessGraph_one_line
    (⟨by decide, by decide, by decide, by rfl, by rfl⟩ :
      Built chainStations chainLines 5 5 .SEGMENT true chainTravel.1 chainTravel.2.1
        chainTravel.2.2 chainSpecial)⟩

end PreprocessClaims
/-! ## Theorems: the graph after the loop of `preprocessGraph` -/

section FinalGraph

open GraphBuilder

/-- The loop of `preprocessGraph` keeps the facts of `FinalInv`. -/
theorem chainsTrace_final (type : ProblemType) (b0 : GraphBuilder) (all : List (List Nat)) :
    ∀ (rest : List (List Nat)) (st r : GraphBuilder × List Nat),
      ChainsTrace type b0 rest st r → (∀ c ∈ rest, c ∈ all) → FinalInv all b0 st →
      FinalInv all b0 r := by
  intro rest
  induction rest with
  | nil =>
    intro st r htr _ hinv
    simp only [ChainsTrace] at htr
    rw [htr]
    exact hinv
  | cons c rest ih =>
    intro st r htr hall hinv
    simp only [ChainsTrace] at htr
    obtain ⟨ein, outs, q, hne, hch0, hch, -, -, -, hcase⟩ := htr
    rcases hcase with ⟨-, htr'⟩ | ⟨-, b1, hC, htr'⟩
    · exact ih st r htr' (fun c' hc' => hall c' (List.mem_cons_of_mem _ hc')) hinv
    · apply ih (b1, st.2 ++ c) r htr' (fun c' hc' => hall c' (List.mem_cons_of_mem _ hc'))
      have hmemE : ∀ e, e ∈ b1._g.edges ↔
          (e ∈ st.1._g.edges ∧ e.src ∉ c ∧ e.tgt ∉ c) ∨
            e = Edge.mk (st.1._g.nextEdge + (c.length - 1)) ein.src q := by
        intro e
        rw [hC.edges, List.mem_append, List.mem_filter, List.mem_singleton]
        simp only [decide_eq_true_eq]
      refine ⟨hC.freshIds_after hinv.fresh hne, ?_, ?_, ?_, ?_, ?_, ?_⟩
      · have := hinv.le
        rw [hC.nextEdge]
        omega
      · rw [hC.nodes, hinv.nodes, List.filter_filter]
        apply List.filter_congr
        intro n _
        simp only [List.mem_append, not_or, Bool.decide_and, Bool.and_comm]
      · intro e he hlt
        rcases (hmemE e).1 he with ⟨h1, h2, h3⟩ | h1
        · obtain ⟨g1, g2, g3⟩ := hinv.old e h1 hlt
          refine ⟨g1, ?_, ?_⟩
          · simp only [List.mem_append, not_or]
            exact ⟨g2, h2⟩
          · simp only [List.mem_append, not_or]
            exact ⟨g3, h3⟩
        · exfalso
          rw [h1] at hlt
          simp only at hlt
          have := hinv.le
          omega
      · intro e he hge
        rcases (hmemE e).1 he with ⟨h1, -, -⟩ | h1
        · obtain ⟨c', hc', ein', outs', k1, k2, k3, k4⟩ := hinv.synthetic e h1 hge
          exact ⟨c', hc', ein', outs', k1, k2, k3,
            fun m hm => List.mem_append_left _ (k4 m hm)⟩
        · rw [h1]
          exact ⟨c, hall c (List.mem_cons_self _ _), ein, outs, hne, hch0, rfl,
            fun m hm => List.mem_append_right _ hm⟩
      · intro n hn
        rcases List.mem_append.1 hn with h1 | h1
        · obtain ⟨c', hc', k1, k2⟩ := hinv.removed n h1
          exact ⟨c', hc', k1, fun m hm => List.mem_append_left _ (k2 m hm)⟩
        · exact ⟨c, hall c (List.mem_cons_self _ _), h1,
            fun m hm => List.mem_append_right _ hm⟩
      · rw [hC.clusters]
        exact hinv.clusters

theorem finalInv_start (all : List (List Nat)) (b0 : GraphBuilder) (hf : b0.FreshIds) :
    FinalInv all b0 (b0, []) := by
  refine ⟨hf, Nat.le_refl _, ?_, fun e he _ => ⟨he, by simp, by simp⟩, ?_, ?_, rfl⟩
  · simp
  · intro e he hge
    have := hf e he
    omega
  · intro n hn
    simp at hn

end FinalGraph
/-! ## Theorems: flow conservation at one node -/

section FlowLocal

/-- At a node with flow conservation, a selected arc that leaves the node comes
with a selected arc that enters it. -/
theorem exists_selected_in (g : LGraph) (x : Nat → ℚ) (v : Nat)
    (hbin : ∀ i, i < g.edges.length → x i = 0 ∨ x i = 1)
    (hflow : inFlow g x v = outFlow g x v)
    (hout : ∃ i e, g.edges[i]? = some e ∧ e.src = v ∧ x i = 1) :
    ∃ j e', g.edges[j]? = some e' ∧ e'.tgt = v ∧ x j = 1 := by
  obtain ⟨i, e, hie, hsrc, hxi⟩ := hout
  have hpos : ∀ p ∈ g.edges.enum, x p.1 = 0 ∨ x p.1 = 1 := by
    intro p hp
    exact hbin p.1 (List.mem_enum hp).1
  have hge : 1 ≤ outFlow g x v := by
    unfold outFlow
    apply one_le_sum_of_mem _ (fun p => x p.1) _ (a := (i, e)) _ hxi
    · intro p hp
      show 0 ≤ x p.1
      rcases hpos p (List.mem_of_mem_filter hp) with h0 | h1
      · rw [h0]
      · rw [h1]; norm_num
    · exact List.mem_filter.2 ⟨List.mk_mem_enum_iff_getElem?.2 hie, by simpa using hsrc⟩
  by_contra hno
  have hzero : inFlow g x v = 0 := by
    unfold inFlow
    apply List.sum_eq_zero
    intro t ht
    obtain ⟨p, hp, rfl⟩ := List.mem_map.1 ht
    obtain ⟨hp1, hp2⟩ := List.mem_filter.1 hp
    rcases hpos p hp1 with h0 | h1
    · exact h0
    · exfalso
      apply hno
      exact ⟨p.1, p.2, List.mk_mem_enum_iff_getElem?.1 hp1, by simpa using hp2, h1⟩
  rw [hflow] at hzero
  rw [hzero] at hge
  norm_num at hge

end FlowLocal
/-! ## Theorems: the switch arcs of the restricted rule, by direction -/

section RestrictedRule

open GraphBuilder

variable {stations : t_stationmap} {lines : t_linemap} {cc sc : ℚ}
  {b1 : GraphBuilder} {way back : NodeMap} {b2 : GraphBuilder}

/-- The restricted rule by direction: an arc from the forward to the reverse
node only at the last stop or before a station that serves several lines, an
arc from the reverse to the forward node only at the first stop or after a
station that serves several lines. -/
theorem mem_restrictedSwitchesAt_cases (sm : t_stationmap) (way back : NodeMap) (l : String)
    (sts : List String) (i : Nat) (s : String) (q : Option Nat × Option Nat)
    (hq : q ∈ restrictedSwitchesAt sm way back l sts i s) :
    servesSeveralLines sm s = false ∧
      ((q = (way l s, back l s) ∧
          (i + 1 = sts.length ∨ servesSeveralLines sm (sts.getD (i + 1) "") = true)) ∨
        (q = (back l s, way l s) ∧
          (i = 0 ∨ servesSeveralLines sm (sts.getD (i - 1) "") = true))) := by
  unfold restrictedSwitchesAt at hq
  by_cases h1 : servesSeveralLines sm s = true
  · rw [if_pos h1] at hq
    simp at hq
  · rw [if_neg h1] at hq
    refine ⟨by simpa using h1, ?_⟩
    by_cases h2 : isTerminalStation i sts = true
    · rw [if_pos h2, List.mem_singleton] at hq
      unfold terminalSwitch at hq
      simp only [isTerminalStation, Bool.or_eq_true, beq_iff_eq] at h2
      by_cases h0 : i = 0
      · rw [if_pos h0] at hq
        exact Or.inr ⟨hq, Or.inl h0⟩
      · rw [if_neg h0] at hq
        rcases h2 with h2 | h2
        · exact absurd h2 h0
        · exact Or.inl ⟨hq, Or.inl h2⟩
    · rw [if_neg h2] at hq
      split at hq
      · rcases List.mem_append.1 hq with hm | hm
        · split at hm
          · rename_i hn
            rw [List.mem_singleton] at hm
            exact Or.inl ⟨hm, Or.inr hn⟩
          · simp at hm
        · split at hm
          · rename_i hn
            rw [List.mem_singleton] at hm
            exact Or.inr ⟨hm, Or.inr hn⟩
          · simp at hm
      · simp at hq

/-- The restricted rule adds the arc from the reverse to the forward node at a
stop that is not terminal, at a station that does not serve several lines, with
a station that serves several lines right before it and one somewhere after it. -/
theorem restrictedSwitchesAt_back (sm : t_stationmap) (way back : NodeMap) (l : String)
    (sts : List String) (i : Nat) (s : String) (h1 : servesSeveralLines sm s = false)
    (h2 : isTerminalStation i sts = false)
    (h3 : (sts.take i).any (servesSeveralLines sm) = true)
    (h4 : (sts.drop (i + 1)).any (servesSeveralLines sm) = true)
    (h5 : servesSeveralLines sm (sts.getD (i - 1) "") = true) :
    (back l s, way l s) ∈ restrictedSwitchesAt sm way back l sts i s := by
  unfold restrictedSwitchesAt
  simp only [h1, h2, h3, h4, h5, Bool.false_eq_true, if_false, Bool.and_self, if_true,
    List.mem_append, List.mem_singleton, or_true]

/-- The stop of a line with a given index has its two nodes. -/
theorem Built.stop_at_index {type : ProblemType} {preprocess : Bool}
    (h : Built stations lines cc sc type preprocess b1 way back b2)
    {it : String × Line} (hit : it ∈ lines) {k : Nat} {s : String}
    (hk : it.2.stations[k]? = some s) :
    ∃ pre post, lines = pre ++ it :: post ∧
      b2.StopAt way back lines it k s (totalStops pre + k)
        (totalStops lines + totalStops pre + (it.2.stations.length - 1 - k)) := by
  obtain ⟨pre, post, hl⟩ := List.append_of_mem hit
  exact ⟨pre, post, hl, h.stopAt pre it post hl k s hk⟩

/-- The index of a stop is determined by its station. -/
theorem Built.stop_index {type : ProblemType} {preprocess : Bool}
    (h : Built stations lines cc sc type preprocess b1 way back b2)
    {it : String × Line} (hit : it ∈ lines) {k k' : Nat} {s : String}
    (hk : it.2.stations[k]? = some s) (hk' : it.2.stations[k']? = some s) : k = k' := by
  have hnd := h.valid.stops_nodup it hit
  have h1 : k < it.2.stations.length := by
    by_contra hge
    rw [List.getElem?_eq_none (by omega)] at hk
    exact absurd hk (by simp)
  have h2 : k' < it.2.stations.length := by
    by_contra hge
    rw [List.getElem?_eq_none (by omega)] at hk'
    exact absurd hk' (by simp)
  rw [List.getElem?_eq_getElem h1] at hk
  rw [List.getElem?_eq_getElem h2] at hk'
  exact (List.Nodup.getElem_inj_iff hnd).1 ((Option.some.inj hk).trans (Option.some.inj hk').symm)

/-- In station mode with preprocessing a switch arc joins the two nodes of a
stop at a station that does not serve several lines; it leads from the forward
node to the reverse node only at the last stop or before a station that serves
several lines, and from the reverse node to the forward node only at the first
stop or after such a station. -/
theorem Built.restricted_switch
    (h : Built stations lines cc sc .STATION true b1 way back b2) (p : Nat × Nat)
    (hp : somePair p ∈ switchingPlan stations way back lines .STATION true) :
    ∃ it k s w r, b2.StopAt way back lines it k s w r ∧
      servesSeveralLines stations s = false ∧
      ((p.1 = w ∧ p.2 = r ∧ (k + 1 = it.2.stations.length ∨
          servesSeveralLines stations (it.2.stations.getD (k + 1) "") = true)) ∨
        (p.1 = r ∧ p.2 = w ∧ (k = 0 ∨
          servesSeveralLines stations (it.2.stations.getD (k - 1) "") = true))) := by
  have hplan : switchingPlan stations way back lines .STATION true =
      restrictedPlan stations way back lines := by
    unfold switchingPlan
    simp
  rw [hplan, restrictedPlan_eq] at hp
  obtain ⟨it, hit, hq⟩ := List.mem_flatMap.1 hp
  obtain ⟨⟨i, s⟩, his, hq⟩ := List.mem_flatMap.1 hq
  obtain ⟨q1, q2⟩ := mem_restrictedSwitchesAt_cases _ _ _ _ _ _ _ _ hq
  obtain ⟨pre, post, hl, hst⟩ := h.stop_at_index hit (List.mk_mem_enum_iff_getElem?.1 his)
  refine ⟨it, i, s, _, _, hst, q1, ?_⟩
  rw [hst.way_node, hst.back_node] at q2
  simp only [somePair, Prod.mk.injEq, Option.some.injEq] at q2
  rcases q2 with ⟨⟨e1, e2⟩, hc⟩ | ⟨⟨e1, e2⟩, hc⟩
  · exact Or.inl ⟨e1, e2, hc⟩
  · exact Or.inr ⟨e1, e2, hc⟩

/-- In station mode with preprocessing the switch arc from the reverse to the
forward node exists at a stop that is not terminal, at a station that does not
serve several lines, right after a station that serves several lines and with
such a station somewhere after it. -/
theorem Built.restricted_back_exists
    (h : Built stations lines cc sc .STATION true b1 way back b2)
    {it : String × Line} {k : Nat} {s : String} {w r : Nat}
    (hs : b2.StopAt way back lines it k s w r)
    (h1 : servesSeveralLines stations s = false) (h2 : 0 < k)
    (h3 : k + 1 < it.2.stations.length)
    (h5 : servesSeveralLines stations (it.2.stations.getD (k - 1) "") = true)
    {j : Nat} (hj : k < j) (hjlen : j < it.2.stations.length)
    (h6 : servesSeveralLines stations (it.2.stations.getD j "") = true) :
    ∃ e ∈ b2._g.edges, b2._connection_arcs e.id = true ∧ e.src = r ∧ e.tgt = w := by
  have hplan : switchingPlan stations way back lines .STATION true =
      restrictedPlan stations way back lines := by
    unfold switchingPlan
    simp
  have hterm : isTerminalStation k it.2.stations = false := by
    simp only [isTerminalStation, Bool.or_eq_false_iff, beq_eq_false_iff_ne, ne_eq]
    constructor <;> omega
  have hpre : (it.2.stations.take k).any (servesSeveralLines stations) = true := by
    rw [List.any_eq_true]
    refine ⟨it.2.stations.getD (k - 1) "", ?_, h5⟩
    rw [List.getD_eq_getElem _ _ (by omega : k - 1 < it.2.stations.length)]
    rw [List.mem_take_iff_getElem]
    exact ⟨k - 1, by omega, rfl⟩
  have hpost : (it.2.stations.drop (k + 1)).any (servesSeveralLines stations) = true := by
    rw [List.any_eq_true]
    refine ⟨it.2.stations.getD j "", ?_, h6⟩
    rw [List.getD_eq_getElem _ _ hjlen]
    rw [List.mem_drop_iff_getElem]
    exact ⟨j - (k + 1), by omega, by
      have : k + 1 + (j - (k + 1)) = j := by omega
      simp only [this]⟩
  have hin : somePair (r, w) ∈ switchingPlan stations way back lines .STATION true := by
    rw [hplan, restrictedPlan_eq]
    refine List.mem_flatMap.2 ⟨it, hs.line, List.mem_flatMap.2 ⟨(k, s),
      List.mk_mem_enum_iff_getElem?.2 hs.stop, ?_⟩⟩
    have := restrictedSwitchesAt_back stations way back it.2.name it.2.stations k s h1 hterm
      hpre hpost h5
    rw [hs.way_node, hs.back_node] at this
    exact this
  obtain ⟨e, he, hf, e1, e2⟩ := h.edge_of_switch _ hin
  exact ⟨e, he, hf, e1, e2⟩

end RestrictedRule
/-! ## Theorems: the nodes of the chains of the graph before preprocessing -/

section VisibleNodes

open GraphBuilder

variable {stations : t_stationmap} {lines : t_linemap} {cc sc : ℚ} {type : ProblemType}
  {preprocess : Bool} {b1 : GraphBuilder} {way back : NodeMap} {b2 : GraphBuilder}

/-- A node that is not hidden has an entering and a leaving travel arc and no
other arc. -/
theorem Built.visible_arcs (h : Built stations lines cc sc type preprocess b1 way back b2)
    {n : Nat} (hn : n ∈ b2._g.nodes) (hv : n ∉ hiddenNodes b2._g b2._connection_arcs) :
    b2.HasIn n ∧ b2.HasOut n ∧
      ∀ e ∈ b2._g.edges, (e.src = n ∨ e.tgt = n) → b2._connection_arcs e.id = false := by
  obtain ⟨-, ein, eout, hin, hout, hkin, hkout, -, -⟩ := h.chainGraph.visible_node n hn hv
  obtain ⟨m1, m2⟩ := mem_of_inEdges b2 n ein hin
  obtain ⟨m3, m4⟩ := mem_of_outEdges b2 n eout hout
  refine ⟨⟨ein, m1, m2, hkin⟩, ⟨eout, m3, m4, hkout⟩, ?_⟩
  intro e he hi
  rcases hi with hs | ht
  · rw [eq_out_of_src b2 n eout e hout he hs]
    exact hkout
  · rw [eq_in_of_tgt b2 n ein e hin he ht]
    exact hkin

/-- A node with an entering and a leaving travel arc and no arc to keep is not
hidden. -/
theorem Built.visible_of (h : Built stations lines cc sc type preprocess b1 way back b2)
    {n : Nat} (hn : n ∈ b2._g.nodes) (hin : b2.HasIn n) (hout : b2.HasOut n)
    (hno : ∀ e ∈ b2._g.edges, (e.src = n ∨ e.tgt = n) → b2._connection_arcs e.id = false) :
    n ∉ hiddenNodes b2._g b2._connection_arcs := by
  intro hh
  rcases (h.chainGraph.hidden_iff n hn).1 hh with hdeg | ⟨e, he, hk, hi⟩
  · obtain ⟨ein, hein, htgt, hfin⟩ := hin
    obtain ⟨eout, heout, hsrc, hfout⟩ := hout
    obtain ⟨x, hx, hxi, hx1, hx2⟩ := third_arc b2._g h.edges_nodup n
      (fun e he => h.no_loop he) hdeg ein eout
    have hfx := hno x hx hxi
    rcases hxi with hs | ht
    · exact hx2 (h.travel_unique hx heout hfx hfout (hs.trans hsrc.symm))
    · have s1 := h.travel_step hx hfx
      have s2 := h.travel_step hein hfin
      exact hx1 (h.travel_unique hx hein hfx hfin (by omega))
  · rw [hno e he hi] at hk
    exact absurd hk (by simp)

/-- A node with an arc to keep is hidden. -/
theorem Built.hidden_of_keep (h : Built stations lines cc sc type preprocess b1 way back b2)
    {n : Nat} (hn : n ∈ b2._g.nodes) {e : Edge} (he : e ∈ b2._g.edges)
    (hk : b2._connection_arcs e.id = true) (hi : e.src = n ∨ e.tgt = n) :
    n ∈ hiddenNodes b2._g b2._connection_arcs :=
  (h.chainGraph.hidden_iff n hn).2 (Or.inr ⟨e, he, hk, hi⟩)

/-- A listed second line gives every node with a travel arc a transfer arc. -/
theorem Built.transfer_at (h : Built stations lines cc sc type preprocess b1 way back b2)
    {st : String × Station} (hst : st ∈ stations) {a d : String} (ha : a ∈ st.2.lines)
    (hd : d ∈ st.2.lines) (had : a ≠ d) {n : Nat}
    (hn : way a st.2.name = some n ∨ back a st.2.name = some n)
    (ht : b2.HasIn n ∨ b2.HasOut n) :
    ∃ e ∈ b2._g.edges, b2._connection_arcs e.id = true ∧ (e.src = n ∨ e.tgt = n) := by
  obtain ⟨vin, vout, hvin, hin, hvout, hout⟩ := h.listed_nodes hst hd ha (Ne.symm had)
  rcases ht with hi | ho
  · obtain ⟨y, hy, hyk, hys, -⟩ := h.transfer_exists hst ha hd had hn hvout hi hout
    exact ⟨y, hy, hyk, Or.inl hys⟩
  · obtain ⟨y, hy, hyk, -, hyt⟩ := h.transfer_exists hst hd ha (Ne.symm had) hvin hn hin ho
    exact ⟨y, hy, hyk, Or.inr hyt⟩

/-- The stop of a node that is not hidden is not terminal, and its station does
not serve several lines. -/
theorem Built.visible_stop (h : Built stations lines cc sc type preprocess b1 way back b2)
    {it : String × Line} {k : Nat} {s : String} {w r : Nat}
    (hs : b2.StopAt way back lines it k s w r) {n : Nat} (hwr : n = w ∨ n = r)
    (hn : n ∈ b2._g.nodes) (hv : n ∉ hiddenNodes b2._g b2._connection_arcs) :
    0 < k ∧ k + 1 < it.2.stations.length ∧ servesSeveralLines stations s = false := by
  obtain ⟨hin, hout, hno⟩ := h.visible_arcs hn hv
  have hint : 0 < k ∧ k + 1 < it.2.stations.length := by
    rcases hwr with rfl | rfl
    · exact ⟨hs.way_in.1 hin, hs.way_out.1 hout⟩
    · exact ⟨hs.back_out.1 hout, hs.back_in.1 hin⟩
  refine ⟨hint.1, hint.2, ?_⟩
  obtain ⟨st, hst, hname, hline⟩ := h.valid.stops_known it hs.line s (List.getElem?_mem hs.stop)
  subst hname
  rw [servesSeveralLines_of_mem h.keys hst]
  by_contra hsev
  have hsev' : 1 < st.2.lines.length := by simpa using hsev
  have hex : ∃ d ∈ st.2.lines, d ≠ it.2.name := by
    have hnd := h.valid.lines_set st hst
    match hl : st.2.lines, hsev', hline, hnd with
    | [x], hsev', _, _ => simp at hsev'
    | x :: y :: rest, _, _, hnd =>
      by_cases hx : x = it.2.name
      · refine ⟨y, by simp, ?_⟩
        intro hy
        rw [List.nodup_cons] at hnd
        exact hnd.1 (by rw [hx, ← hy]; simp)
      · exact ⟨x, by simp, hx⟩
  obtain ⟨d, hd, hda⟩ := hex
  have hmap : way it.2.name st.2.name = some n ∨ back it.2.name st.2.name = some n := by
    rcases hwr with rfl | rfl
    · exact Or.inl hs.way_node
    · exact Or.inr hs.back_node
  obtain ⟨y, hy, hyk, hyi⟩ := h.transfer_at hst hline hd (Ne.symm hda) hmap (Or.inl hin)
  rw [hno y hy hyi] at hyk
  exact absurd hyk (by simp)

/-- The other node of the stop of a node that is not hidden is not hidden. -/
theorem Built.twin_visible (h : Built stations lines cc sc type preprocess b1 way back b2)
    {S a : String} {u v : Nat} (tu : b2.Twin way back S a u v) (tv : b2.Twin way back S a v u)
    (hu : u ∈ b2._g.nodes) (hv : v ∈ b2._g.nodes)
    (hvis : u ∉ hiddenNodes b2._g b2._connection_arcs) :
    v ∉ hiddenNodes b2._g b2._connection_arcs := by
  obtain ⟨hin, hout, hno⟩ := h.visible_arcs hu hvis
  apply h.visible_of hv (tu.out_in.1 hout) (tu.in_out.1 hin)
  intro y hy hyi
  cases hyf : b2._connection_arcs y.id with
  | false => rfl
  | true =>
    exfalso
    rcases h.keep_cases hy hyf with hsw | ⟨htr, -, -⟩
    · obtain ⟨it', k', s', w', r', hs', ho, -⟩ := h.switch_stop _ hsw
      simp only at ho
      have hv' : v = w' ∨ v = r' := by omega
      obtain ⟨hname, hstn⟩ := h.node_of_map tv.left_map hs' hv'
      subst hname hstn
      have m1 := tu.mem_pair (Or.inl hs'.way_node)
      have m2 := tu.mem_pair (Or.inr hs'.back_node)
      have hnl := h.no_loop hy
      have hyu : y.src = u ∨ y.tgt = u := by omega
      rw [hno y hy hyu] at hyf
      exact absurd hyf (by simp)
    · obtain ⟨st, hst, a', c', ha', hc', hac', hu', hv'⟩ := h.transfer_stop _ htr
      simp only at hu' hv'
      have key : ∀ d, d ∈ st.2.lines → a ∈ st.2.lines → d ≠ a → S = st.2.name → False := by
        intro d hd ha hda hS
        subst hS
        obtain ⟨z, hz, hzk, hzi⟩ := h.transfer_at hst ha hd (Ne.symm hda) tu.left_map
          (Or.inl hin)
        rw [hno z hz hzi] at hzk
        exact absurd hzk (by simp)
      rcases hyi with hys | hyt
      · rw [hys] at hu'
        obtain ⟨q1, q2⟩ := h.map_unique tv.left_map hu'
        subst q1
        exact key c' hc' ha' (Ne.symm hac') q2
      · rw [hyt] at hv'
        obtain ⟨q1, q2⟩ := h.map_unique tv.left_map hv'
        subst q1
        exact key a' ha' hc' hac' q2

/-- The numbers of the two nodes of a stop. -/
theorem Built.stop_pos (h : Built stations lines cc sc type preprocess b1 way back b2)
    {it : String × Line} {k : Nat} {s : String} {w r : Nat}
    (hs : b2.StopAt way back lines it k s w r) :
    ∃ pre post, lines = pre ++ it :: post ∧ w = totalStops pre + k ∧
      r = totalStops lines + totalStops pre + (it.2.stations.length - 1 - k) ∧
      k < it.2.stations.length ∧ totalStops pre + it.2.stations.length ≤ totalStops lines := by
  obtain ⟨pre, post, hl⟩ := List.append_of_mem hs.line
  obtain ⟨m1, m2⟩ := createNodesAndTravelArcs_maps stations lines cc sc b1 way back h.travel
    h.valid.line_names h.valid.stops_nodup pre it post hl k s hs.stop
  have e1 := hs.way_node.symm.trans m1
  have e2 := hs.back_node.symm.trans m2
  have hk : k < it.2.stations.length := by
    by_contra hge
    have := hs.stop
    rw [List.getElem?_eq_none (by omega)] at this
    exact absurd this (by simp)
  exact ⟨pre, post, hl, Option.some.inj e1, Option.some.inj e2, hk, totalStops_block_le hl⟩

end VisibleNodes
/-! ## Theorems: the stops around a run of contracted stops, in station mode -/

section Boundary

open GraphBuilder

variable {stations : t_stationmap} {lines : t_linemap} {cc sc : ℚ}
  {b1 : GraphBuilder} {way back : NodeMap} {b2 : GraphBuilder}

/-- The nodes named after a station that does not serve several lines are the
two nodes of the stop of its line. -/
theorem Built.single_cluster {type : ProblemType} {preprocess : Bool}
    (h : Built stations lines cc sc type preprocess b1 way back b2)
    {it : String × Line} {k : Nat} {s : String} {w r : Nat}
    (hs : b2.StopAt way back lines it k s w r)
    (hsev : servesSeveralLines stations s = false) :
    ∀ n ∈ b2._g.nodes, b2._node_names n = s → n = w ∨ n = r := by
  intro n hn hname
  obtain ⟨it', k', s', w', r', hs', hwr⟩ := h.stop_of_node hn
  obtain ⟨-, -, -, n1, n2⟩ := h.stop_sides hs'
  have hss : s' = s := by
    rcases hwr with rfl | rfl
    · exact n1.symm.trans hname
    · exact n2.symm.trans hname
  subst hss
  obtain ⟨st, hst, hnm, hline⟩ := h.valid.stops_known it hs.line s' (List.getElem?_mem hs.stop)
  obtain ⟨st', hst', hnm', hline'⟩ :=
    h.valid.stops_known it' hs'.line s' (List.getElem?_mem hs'.stop)
  have hsteq := h.station_unique hst hst' (hnm.trans hnm'.symm)
  subst hsteq
  rw [← hnm, servesSeveralLines_of_mem h.keys hst] at hsev
  have hlen : st.2.lines.length ≤ 1 := by simpa using hsev
  have hnames : it.2.name = it'.2.name := by
    match hl : st.2.lines, hlen, hline, hline' with
    | [], _, hline, _ => simp at hline
    | [x], _, hline, hline' =>
      simp only [List.mem_singleton] at hline hline'
      exact hline.trans hline'.symm
    | _ :: _ :: _, hlen, _, _ => simp at hlen
  have hit := h.line_of_name hs.line hs'.line hnames
  subst hit
  have e1 := hs.way_node.symm.trans hs'.way_node
  have e2 := hs.back_node.symm.trans hs'.back_node
  simp only [Option.some.injEq] at e1 e2
  rcases hwr with rfl | rfl
  · exact Or.inl e1.symm
  · exact Or.inr e2.symm

/-- In station mode with preprocessing, at a stop whose station does not serve
several lines and whose next stop is not at a station serving several lines
either, every arc that leaves the forward node is the travel arc to the next
forward node, and every arc that enters the reverse node is the travel arc
from the previous reverse node. -/
theorem Built.quiet_before (h : Built stations lines cc sc .STATION true b1 way back b2)
    {it : String × Line} {k : Nat} {s : String} {w r : Nat}
    (hs : b2.StopAt way back lines it k s w r)
    (hsev : servesSeveralLines stations s = false) (hk : k + 1 < it.2.stations.length)
    (hnext : servesSeveralLines stations (it.2.stations.getD (k + 1) "") = false) :
    (∀ e ∈ b2._g.edges, e.src = w → e.tgt = w + 1) ∧
      ∀ e ∈ b2._g.edges, e.tgt = r → e.src + 1 = r := by
  obtain ⟨q1, q2, -⟩ := h.stop_sides hs
  have key : ∀ e ∈ b2._g.edges, (e.src = w ∨ e.tgt = r) →
      b2._connection_arcs e.id = false := by
    intro e he hi
    cases hf : b2._connection_arcs e.id with
    | false => rfl
    | true =>
      exfalso
      rcases h.keep_cases he hf with hsw | ⟨htr, -, -⟩
      · obtain ⟨it', k', s', w', r', hs', hsev', ho⟩ := h.restricted_switch _ hsw
        obtain ⟨p1, p2, -⟩ := h.stop_sides hs'
        simp only at ho
        rcases ho with ⟨e1, e2, hc⟩ | ⟨e1, e2, hc⟩
        · have hsame : w = w' ∨ r = r' := by omega
          obtain ⟨u1, u2, -, -⟩ := h.stop_unique hs hs' hsame
          subst u1 u2
          have hkk := h.stop_index hs.line hs.stop hs'.stop
          subst hkk
          rcases hc with hc | hc
          · omega
          · rw [hnext] at hc
            exact absurd hc (by simp)
        · omega
      · obtain ⟨st, hst, a', c', ha', hc', hac', hu', hv'⟩ := h.transfer_stop _ htr
        simp only at hu' hv'
        have hsv := servesSeveralLines_of_two h.keys hst ha' hc' hac'
        rcases hi with hi | hi
        · rw [hi] at hu'
          obtain ⟨-, hnm⟩ := h.node_of_map hu' hs (Or.inl rfl)
          rw [← hnm, hsev] at hsv
          exact absurd hsv (by simp)
        · rw [hi] at hv'
          obtain ⟨-, hnm⟩ := h.node_of_map hv' hs (Or.inr rfl)
          rw [← hnm, hsev] at hsv
          exact absurd hsv (by simp)
  constructor
  · intro e he hsrc
    have := h.travel_step he (key e he (Or.inl hsrc))
    omega
  · intro e he htgt
    have := h.travel_step he (key e he (Or.inr htgt))
    omega

/-- In station mode with preprocessing, at a stop other than the first whose
station does not serve several lines and whose previous stop is not at a station
serving several lines either, every arc that enters the forward node is the
travel arc from the previous forward node, and every arc that leaves the
reverse node is the travel arc to the next reverse node. -/
theorem Built.quiet_after (h : Built stations lines cc sc .STATION true b1 way back b2)
    {it : String × Line} {k : Nat} {s : String} {w r : Nat}
    (hs : b2.StopAt way back lines it k s w r)
    (hsev : servesSeveralLines stations s = false) (hk : 0 < k)
    (hprev : servesSeveralLines stations (it.2.stations.getD (k - 1) "") = false) :
    (∀ e ∈ b2._g.edges, e.tgt = w → e.src + 1 = w) ∧
      ∀ e ∈ b2._g.edges, e.src = r → e.tgt = r + 1 := by
  obtain ⟨q1, q2, -⟩ := h.stop_sides hs
  have key : ∀ e ∈ b2._g.edges, (e.tgt = w ∨ e.src = r) →
      b2._connection_arcs e.id = false := by
    intro e he hi
    cases hf : b2._connection_arcs e.id with
    | false => rfl
    | true =>
      exfalso
      rcases h.keep_cases he hf with hsw | ⟨htr, -, -⟩
      · obtain ⟨it', k', s', w', r', hs', hsev', ho⟩ := h.restricted_switch _ hsw
        obtain ⟨p1, p2, -⟩ := h.stop_sides hs'
        simp only at ho
        rcases ho with ⟨e1, e2, hc⟩ | ⟨e1, e2, hc⟩
        · omega
        · have hsame : w = w' ∨ r = r' := by omega
          obtain ⟨u1, u2, -, -⟩ := h.stop_unique hs hs' hsame
          subst u1 u2
          have hkk := h.stop_index hs.line hs.stop hs'.stop
          subst hkk
          rcases hc with hc | hc
          · omega
          · rw [hprev] at hc
            exact absurd hc (by simp)
      · obtain ⟨st, hst, a', c', ha', hc', hac', hu', hv'⟩ := h.transfer_stop _ htr
        simp only at hu' hv'
        have hsv := servesSeveralLines_of_two h.keys hst ha' hc' hac'
        rcases hi with hi | hi
        · rw [hi] at hv'
          obtain ⟨-, hnm⟩ := h.node_of_map hv' hs (Or.inl rfl)
          rw [← hnm, hsev] at hsv
          exact absurd hsv (by simp)
        · rw [hi] at hu'
          obtain ⟨-, hnm⟩ := h.node_of_map hu' hs (Or.inr rfl)
          rw [← hnm, hsev] at hsv
          exact absurd hsv (by simp)
  constructor
  · intro e he htgt
    have := h.travel_step he (key e he (Or.inl htgt))
    omega
  · intro e he hsrc
    have := h.travel_step he (key e he (Or.inr hsrc))
    omega

end Boundary
/-! ## Theorems: the two chains of a contracted stop and a stop next to them -/

section RunBoundary

open GraphBuilder

variable {stations : t_stationmap} {lines : t_linemap} {cc sc : ℚ}
  {b1 : GraphBuilder} {way back : NodeMap} {b2 : GraphBuilder}

/-- In station mode with preprocessing, let the forward node of a stop lie in
the chain `F` and its reverse node in the chain `R`.  Then one of the two stops
next to the run of stops of the chains is at a station that does not serve
several lines: the two nodes `zo`, `zi` of this stop are the only nodes named
after its station and lie in no chain, every arc that leaves `zo` leads into
one of the two chains and every arc that enters `zi` comes from the other. -/
theorem Built.run_boundary (h : Built stations lines cc sc .STATION true b1 way back b2)
    {chains : List (List Nat)}
    (hmem : ∀ n, n ∈ chains.flatten ↔
      n ∈ b2._g.nodes ∧ n ∉ hiddenNodes b2._g b2._connection_arcs)
    {it : String × Line} {k : Nat} {s : String} {w r : Nat}
    (hs : b2.StopAt way back lines it k s w r) {fF lF fR lR : Nat}
    (hF : ∀ n ∈ List.range' fF lF, n ∈ chains.flatten) (hwF : w ∈ List.range' fF lF)
    (hF1 : 0 < fF) (hFp : fF - 1 ∉ chains.flatten) (hFs : fF + lF ∉ chains.flatten)
    (hR : ∀ n ∈ List.range' fR lR, n ∈ chains.flatten) (hrR : r ∈ List.range' fR lR)
    (hR1 : 0 < fR) (hRp : fR - 1 ∉ chains.flatten) (hRs : fR + lR ∉ chains.flatten) :
    ∃ zo zi sB C1 C2,
      ((C1 = List.range' fF lF ∧ C2 = List.range' fR lR) ∨
        (C1 = List.range' fR lR ∧ C2 = List.range' fF lF)) ∧
      zo ∈ b2._g.nodes ∧ zi ∈ b2._g.nodes ∧ zo ∉ chains.flatten ∧ zi ∉ chains.flatten ∧
      b2._node_names zo = sB ∧
      (∀ n ∈ b2._g.nodes, b2._node_names n = sB → n = zo ∨ n = zi) ∧
      (∀ e ∈ b2._g.edges, e.src = zo → e.tgt ∈ C1) ∧
      (∀ e ∈ b2._g.edges, e.tgt = zi → e.src ∈ C2) := by
  obtain ⟨pre, post, hl, hw, hr, hk, hb⟩ := h.stop_pos hs
  obtain ⟨-, -, -, -, -, -, -, p6, -⟩ := h.shape
  have hnode : ∀ n, n ∈ b2._g.nodes ↔ n < 2 * totalStops lines := by
    intro n
    rw [p6, List.mem_range]
  have stopI : ∀ i (hi : i < it.2.stations.length),
      b2.StopAt way back lines it i it.2.stations[i] (totalStops pre + i)
        (totalStops lines + totalStops pre + (it.2.stations.length - 1 - i)) :=
    fun i hi => h.stopAt pre it post hl i _ (List.getElem?_eq_getElem hi)
  have twin : ∀ i, i < it.2.stations.length →
      (totalStops pre + i ∈ chains.flatten ↔
        totalStops lines + totalStops pre + (it.2.stations.length - 1 - i) ∈
          chains.flatten) := by
    intro i hi
    obtain ⟨t1, t2⟩ := h.twins (stopI i hi)
    have n1 : totalStops pre + i ∈ b2._g.nodes := (hnode _).2 (by omega)
    have n2 : totalStops lines + totalStops pre + (it.2.stations.length - 1 - i) ∈
        b2._g.nodes := (hnode _).2 (by omega)
    constructor
    · intro hm
      exact (hmem _).2 ⟨n2, h.twin_visible t1 t2 n1 n2 ((hmem _).1 hm).2⟩
    · intro hm
      exact (hmem _).2 ⟨n1, h.twin_visible t2 t1 n2 n1 ((hmem _).1 hm).2⟩
  have vis : ∀ i (hi : i < it.2.stations.length), totalStops pre + i ∈ chains.flatten →
      0 < i ∧ i + 1 < it.2.stations.length ∧
        servesSeveralLines stations (it.2.stations.getD i "") = false := by
    intro i hi hm
    obtain ⟨v1, v2, v3⟩ := h.visible_stop (stopI i hi) (Or.inl rfl) ((hmem _).1 hm).1
      ((hmem _).1 hm).2
    rw [List.getD_eq_getElem _ _ hi]
    exact ⟨v1, v2, v3⟩
  rw [List.mem_range'_1] at hwF hrR
  have hFm : ∀ n, fF ≤ n → n < fF + lF → n ∈ chains.flatten :=
    fun n h1 h2 => hF n (List.mem_range'_1.2 ⟨h1, h2⟩)
  have hRm : ∀ n, fR ≤ n → n < fR + lR → n ∈ chains.flatten :=
    fun n h1 h2 => hR n (List.mem_range'_1.2 ⟨h1, h2⟩)
  have b1' : totalStops pre < fF := by
    by_contra hcon
    have := vis 0 (by omega) (hFm _ (by omega) (by omega))
    omega
  have b2' : fF + lF ≤ totalStops pre + it.2.stations.length - 1 := by
    by_contra hcon
    have := vis (it.2.stations.length - 1) (by omega)
      (hFm _ (by omega) (by omega))
    omega
  have hvisF : ∀ i, fF - 1 - totalStops pre < i → i < fF + lF - totalStops pre →
      totalStops pre + i ∈ chains.flatten :=
    fun i h1 h2 => hFm _ (by omega) (by omega)
  have hvisR : ∀ i, fF - 1 - totalStops pre < i → i < fF + lF - totalStops pre →
      totalStops lines + totalStops pre + (it.2.stations.length - 1 - i) ∈ chains.flatten :=
    fun i h1 h2 => (twin i (by omega)).1 (hvisF i h1 h2)
  have hpF : totalStops pre + (fF - 1 - totalStops pre) ∉ chains.flatten := by
    have : totalStops pre + (fF - 1 - totalStops pre) = fF - 1 := by omega
    rw [this]
    exact hFp
  have hqF : totalStops pre + (fF + lF - totalStops pre) ∉ chains.flatten := by
    have : totalStops pre + (fF + lF - totalStops pre) = fF + lF := by omega
    rw [this]
    exact hFs
  have hpR := fun hm => hpF ((twin (fF - 1 - totalStops pre) (by omega)).2 hm)
  have hqR := fun hm => hqF ((twin (fF + lF - totalStops pre) (by omega)).2 hm)
  have c1 : fR - 1 = totalStops lines + totalStops pre +
      (it.2.stations.length - 1 - (fF + lF - totalStops pre)) := by
    have h1 : totalStops lines + totalStops pre +
        (it.2.stations.length - 1 - (fF + lF - totalStops pre)) < fR := by
      by_contra hcon
      exact hqR (hRm _ (by omega) (by omega))
    by_contra hne
    have := hvisR (totalStops lines + totalStops pre + (it.2.stations.length - 1) - (fR - 1))
      (by omega) (by omega)
    have e : totalStops lines + totalStops pre + (it.2.stations.length - 1 -
        (totalStops lines + totalStops pre + (it.2.stations.length - 1) - (fR - 1))) =
        fR - 1 := by omega
    rw [e] at this
    exact hRp this
  have c2 : fR + lR = totalStops lines + totalStops pre +
      (it.2.stations.length - 1 - (fF - 1 - totalStops pre)) := by
    have h1 : fR + lR ≤ totalStops lines + totalStops pre +
        (it.2.stations.length - 1 - (fF - 1 - totalStops pre)) := by
      by_contra hcon
      exact hpR (hRm _ (by omega) (by omega))
    by_contra hne
    have := hvisR (totalStops lines + totalStops pre + (it.2.stations.length - 1) - (fR + lR))
      (by omega) (by omega)
    have e : totalStops lines + totalStops pre + (it.2.stations.length - 1 -
        (totalStops lines + totalStops pre + (it.2.stations.length - 1) - (fR + lR))) =
        fR + lR := by omega
    rw [e] at this
    exact hRs this
  have hplen : fF - 1 - totalStops pre < it.2.stations.length := by omega
  have hqlen : fF + lF - totalStops pre < it.2.stations.length := by omega
  have hsp := stopI _ hplen
  have hsq := stopI _ hqlen
  have hnextp : servesSeveralLines stations
      (it.2.stations.getD (fF - 1 - totalStops pre + 1) "") = false :=
    (vis _ (by omega) (hvisF _ (by omega) (by omega))).2.2
  have hprevq : servesSeveralLines stations
      (it.2.stations.getD (fF + lF - totalStops pre - 1) "") = false :=
    (vis _ (by omega) (hvisF _ (by omega) (by omega))).2.2
  by_cases hsevp : servesSeveralLines stations
      it.2.stations[fF - 1 - totalStops pre] = true
  · have hsevq : servesSeveralLines stations
        it.2.stations[fF + lF - totalStops pre] = false := by
      by_contra hcon
      have hcon' : servesSeveralLines stations
          it.2.stations[fF + lF - totalStops pre] = true := by simpa using hcon
      obtain ⟨v1, v2, v3⟩ := vis (fF - 1 - totalStops pre + 1) (by omega)
        (hvisF _ (by omega) (by omega))
      rw [List.getD_eq_getElem _ _ (by omega)] at v3
      obtain ⟨e, he, hek, -, het⟩ := h.restricted_back_exists
        (stopI (fF - 1 - totalStops pre + 1) (by omega)) v3 v1 v2
        (by
          rw [List.getD_eq_getElem _ _ (by omega)]
          simp only [Nat.add_sub_cancel]
          exact hsevp)
        (by omega : fF - 1 - totalStops pre + 1 < fF + lF - totalStops pre) hqlen
        (by
          rw [List.getD_eq_getElem _ _ hqlen]
          exact hcon')
      have hm := hvisF (fF - 1 - totalStops pre + 1) (by omega) (by omega)
      exact ((hmem _).1 hm).2 (h.hidden_of_keep ((hmem _).1 hm).1 he hek (Or.inr het))
    obtain ⟨g1, g2⟩ := h.quiet_after hsq hsevq (by omega) hprevq
    obtain ⟨-, -, -, n1, -⟩ := h.stop_sides hsq
    refine ⟨_, _, _, List.range' fR lR, List.range' fF lF, Or.inr ⟨rfl, rfl⟩,
      (hnode _).2 (by omega), (hnode _).2 (by omega), hqR, hqF, (h.stop_sides hsq).2.2.2.2,
      ?_, ?_, ?_⟩
    · intro n hn hname
      exact (h.single_cluster hsq hsevq n hn hname).symm
    · intro e he hsrc
      rw [List.mem_range'_1, g2 e he hsrc]
      omega
    · intro e he htgt
      have := g1 e he htgt
      rw [List.mem_range'_1]
      omega
  · have hsevp' : servesSeveralLines stations
        it.2.stations[fF - 1 - totalStops pre] = false := by simpa using hsevp
    obtain ⟨g1, g2⟩ := h.quiet_before hsp hsevp' (by omega) hnextp
    refine ⟨_, _, _, List.range' fF lF, List.range' fR lR, Or.inl ⟨rfl, rfl⟩,
      (hnode _).2 (by omega), (hnode _).2 (by omega), hpF, hpR, (h.stop_sides hsp).2.2.2.1,
      ?_, ?_, ?_⟩
    · intro n hn hname
      exact h.single_cluster hsp hsevp' n hn hname
    · intro e he hsrc
      rw [List.mem_range'_1, g1 e he hsrc]
      omega
    · intro e he htgt
      have := g2 e he htgt
      rw [List.mem_range'_1]
      omega

end RunBoundary
/-! ## Theorems: the graph before preprocessing, for any network -/

section GeneralPhases

open GraphBuilder

variable {stations : t_stationmap} {lines : t_linemap} {cc sc : ℚ} {type : ProblemType}
  {preprocess : Bool} {b1 : GraphBuilder} {way back : NodeMap} {b2 : GraphBuilder}

theorem Built.phases (h : Built stations lines cc sc type preprocess b1 way back b2) :
    Phases stations lines cc sc type preprocess b1 way back b2 :=
  ⟨h.travel, h.special⟩

/-- The arcs and nodes of the graph before preprocessing. -/
theorem Phases.graph_shape (h : Phases stations lines cc sc type preprocess b1 way back b2) :
    ∃ (switches calls : List (Nat × Nat)),
      switches.map somePair = switchingPlan stations way back lines type preprocess ∧
      calls.map somePair = transferPlan way back stations ∧
      b2._g.edges = (travelArcs lines).map ArcRecord.toEdge ++
        arcsFrom (2 * totalSegments lines) switches ++
        arcsFrom (2 * totalSegments lines + switches.length)
          (calls.filter (fun p => decide (b2.HasIn p.1) && decide (b2.HasOut p.2))) ∧
      (∀ e ∈ b2._g.edges, b2._connection_arcs e.id = false ↔ e.id < 2 * totalSegments lines) ∧
      (∀ r ∈ travelArcs lines, r.id < 2 * totalSegments lines) ∧
      b2._g.nodes = List.range (2 * totalStops lines) ∧
      b2.Named 0 (totalStops lines) way ∧
      b2.Named (totalStops lines) (2 * totalStops lines) back ∧ b2.FreshIds ∧ b2.Closed := by
  obtain ⟨switches, calls, p1, p2, p3, -, -, p6, p7, p8, p9, p10⟩ :=
    specialGraph_spec stations lines cc sc type preprocess b1 way back b2 h.travel h.special
  obtain ⟨g1, g2, g3, g4, g5, g6, g7⟩ := createNodesAndTravelArcs_sound _ _ _ _ _ _ h.travel
    (sound_init stations lines cc sc) (mapIn_empty _) (mapIn_empty _)
  obtain ⟨sw0, calls0, -, -, k3, -, -⟩ :=
    addSpecialArcs_trace b1 way back type preprocess b2 g1 g2 g3 h.special
  obtain ⟨a1, -, a3, a4⟩ := createNodesAndTravelArcs_nodes _ _ _ _ _ _ _ h.travel
  obtain ⟨-, -, -, -, -, s6, -⟩ := special_shape b1 b1._switch_cost b1._change_cost sw0
    (calls0.filter (transferGuard (b1.addArcs b1._switch_cost sw0)))
  rw [← k3] at s6
  refine ⟨switches, calls, p1, p2, p3, p6, ?_, by rw [s6, a1], p7, p8, p9, p10⟩
  intro r hr
  rw [← a3] at hr
  obtain ⟨e, he, rfl⟩ := List.mem_map.1 hr
  have := g1.1.2 e he
  rw [a4] at this
  exact this

/-- The travel arcs of the graph before preprocessing are the travel arcs of the lines. -/
theorem Phases.travel_iff (h : Phases stations lines cc sc type preprocess b1 way back b2)
    (a c : Nat) :
    (∃ e ∈ b2._g.edges, b2._connection_arcs e.id = false ∧ e.src = a ∧ e.tgt = c) ↔
      ∃ r ∈ travelArcs lines, r.src = a ∧ r.tgt = c := by
  obtain ⟨switches, calls, -, -, p3, p4, p5, -⟩ := h.graph_shape
  constructor
  · rintro ⟨e, he, hflag, rfl, rfl⟩
    have hlt := (p4 e he).1 hflag
    rw [p3] at he
    rcases List.mem_append.1 he with h1 | h1
    · rcases List.mem_append.1 h1 with h2 | h2
      · obtain ⟨r, hr, rfl⟩ := List.mem_map.1 h2
        exact ⟨r, hr, rfl, rfl⟩
      · obtain ⟨-, hlo, -⟩ := pair_of_mem_arcsFrom _ _ _ h2
        omega
    · obtain ⟨-, hlo, -⟩ := pair_of_mem_arcsFrom _ _ _ h1
      omega
  · rintro ⟨r, hr, rfl, rfl⟩
    have hmem : r.toEdge ∈ b2._g.edges := by
      rw [p3]
      exact List.mem_append_left _ (List.mem_append_left _ (List.mem_map.2 ⟨r, hr, rfl⟩))
    exact ⟨r.toEdge, hmem, (p4 _ hmem).2 (p5 r hr), rfl, rfl⟩

/-- No arc of the graph before preprocessing is listed twice. -/
theorem Phases.arcs_nodup (h : Phases stations lines cc sc type preprocess b1 way back b2) :
    b2._g.edges.Nodup := by
  obtain ⟨switches, calls, -, -, p3, -⟩ := h.graph_shape
  apply List.Nodup.of_map Edge.id
  rw [p3, List.map_append, List.map_append, arcsFrom_ids, arcsFrom_ids, List.map_map]
  have : (Edge.id ∘ ArcRecord.toEdge) = ArcRecord.id := rfl
  rw [this, travelArcs_ids]
  have e0 := List.range'_append_1 0 (2 * totalSegments lines) switches.length
  rw [Nat.zero_add] at e0
  rw [e0]
  have e1 := List.range'_append_1 0 (switches.length + 2 * totalSegments lines)
    (calls.filter (fun p => decide (b2.HasIn p.1) && decide (b2.HasOut p.2))).length
  have e2 : 0 + (switches.length + 2 * totalSegments lines) =
      2 * totalSegments lines + switches.length := by omega
  rw [e2] at e1
  rw [e1]
  exact List.nodup_range' _ _

/-- A travel arc of the graph before preprocessing is a travel arc of a line. -/
theorem Phases.travel_rec (h : Phases stations lines cc sc type preprocess b1 way back b2)
    {e : Edge} (he : e ∈ b2._g.edges) (hf : b2._connection_arcs e.id = false) :
    ∃ r ∈ travelArcs lines, r.toEdge = e := by
  obtain ⟨switches, calls, -, -, p3, p4, p5, -⟩ := h.graph_shape
  have hlt := (p4 e he).1 hf
  rw [p3] at he
  rcases List.mem_append.1 he with h1 | h1
  · rcases List.mem_append.1 h1 with h2 | h2
    · exact List.mem_map.1 h2
    · obtain ⟨-, hlo, -⟩ := pair_of_mem_arcsFrom _ _ _ h2
      omega
  · obtain ⟨-, hlo, -⟩ := pair_of_mem_arcsFrom _ _ _ h1
    omega

/-- The graph before preprocessing has the structure of `PathGraph`, whatever
the network: a travel arc leads from a node to the next node, and no two travel
arcs leave the same node. -/
theorem Phases.path_graph (h : Phases stations lines cc sc type preprocess b1 way back b2) :
    PathGraph b2._g b2._connection_arcs := by
  obtain ⟨switches, calls, -, -, -, -, -, p6, -, -, -, pc⟩ := h.graph_shape
  refine ⟨by rw [p6]; exact List.nodup_range _, h.arcs_nodup, pc, ?_, ?_⟩
  · intro e he hf
    obtain ⟨it, -, -, hstep, -⟩ := specialGraph_travel stations lines cc sc type preprocess b1
      way back b2 h.travel h.special e he hf
    exact hstep
  · intro e he e' he' hf hf' hs
    obtain ⟨r, hr, rfl⟩ := h.travel_rec he hf
    obtain ⟨r', hr', rfl⟩ := h.travel_rec he' hf'
    rw [travelArcs_src_unique lines r r' hr hr' hs]

/-- A travel arc lies on every node of a line with at least two stops. -/
theorem Phases.travel_arc_at (h : Phases stations lines cc sc type preprocess b1 way back b2)
    (pre : t_linemap) (it : String × Line) (post : t_linemap) (hl : lines = pre ++ it :: post)
    (hlen : 2 ≤ it.2.stations.length) (k : Nat) (hk : k < it.2.stations.length) (n : Nat)
    (hn : n = totalStops pre + k ∨ n = totalStops lines + totalStops pre + k) :
    ∃ e ∈ b2._g.edges, b2._connection_arcs e.id = false ∧ (e.src = n ∨ e.tgt = n) := by
  by_cases hlast : k + 1 < it.2.stations.length
  · obtain ⟨e, he, hflag, hs, -⟩ := (h.travel_iff n (n + 1)).2
      ((travelArcs_endpoints lines n (n + 1)).2 ⟨pre, it, post, k, hl, hlast, rfl, hn⟩)
    exact ⟨e, he, hflag, Or.inl hs⟩
  · obtain ⟨e, he, hflag, -, ht⟩ := (h.travel_iff (n - 1) n).2
      ((travelArcs_endpoints lines (n - 1) n).2
        ⟨pre, it, post, k - 1, hl, by omega, by omega, by omega⟩)
    exact ⟨e, he, hflag, Or.inr ht⟩

/-- An entry of the node map after a visit of a line is an entry from before or
the node of a stop of the line. -/
theorem lineLoop_origin (lineName : String) (steps : List (String × Int)) :
    ∀ (last : Option Nat) (b : GraphBuilder) (m : NodeMap) (b' : GraphBuilder) (m' : NodeMap),
      lineLoop lineName steps last (b, m) = .ok (b', m') →
      ∀ l s n, m' l s = some n → m l s = some n ∨
        (l = lineName ∧ ∃ k, (steps.map Prod.fst)[k]? = some s ∧ n = b._g.nextNode + k) := by
  induction steps with
  | nil =>
    intro last b m b' m' h l s n hn
    simp only [lineLoop, Except.ok.injEq, Prod.mk.injEq] at h
    obtain ⟨rfl, rfl⟩ := h
    exact Or.inl hn
  | cons p rest ih =>
    intro last b m b' m' h
    obtain ⟨s0, tt⟩ := p
    have key : ∀ (b1 : GraphBuilder), b1._g.nextNode = b._g.nextNode + 1 →
        lineLoop lineName rest (some b._g.nextNode)
          (b1, m.set lineName s0 b._g.nextNode) = .ok (b', m') →
        ∀ l s n, m' l s = some n → m l s = some n ∨
          (l = lineName ∧ ∃ k, (((s0, tt) :: rest).map Prod.fst)[k]? = some s ∧
            n = b._g.nextNode + k) := by
      intro b1 hn1 hrun l s n hn
      rcases ih _ _ _ _ _ hrun l s n hn with h1 | ⟨h1, k, hk, hnk⟩
      · simp only [NodeMap.set] at h1
        split at h1
        · rename_i hls
          simp only [Option.some.injEq] at h1
          right
          refine ⟨hls.1, 0, ?_, by omega⟩
          simp [hls.2]
        · exact Or.inl h1
      · right
        refine ⟨h1, k + 1, ?_, by omega⟩
        simpa using hk
    cases last with
    | none =>
      rw [lineLoop_none] at h
      exact key _ rfl h
    | some last =>
      by_cases htt : 0 < tt
      · rw [lineLoop_some_pos _ _ _ _ _ _ _ htt] at h
        exact key _ rfl h
      · rw [lineLoop_some_neg _ _ _ _ _ _ _ htt] at h
        exact absurd h (by simp)

/-- An entry of the node map after a loop over all lines is an entry from
before or the node of a stop of a line with the name of the entry. -/
theorem linesLoop_origin (stops : Line → List String) (hlen : ∀ line, (stops line).length =
      line.stations.length)
    (loop : t_linemap → GraphBuilder × NodeMap → Except String (GraphBuilder × NodeMap))
    (hnil : ∀ st, loop [] st = .ok st)
    (hcons : ∀ it rest st r, loop (it :: rest) st = .ok r →
      ∃ steps st1, steps.map Prod.fst = stops it.2 ∧
        lineLoop it.2.name steps none st = .ok st1 ∧ loop rest st1 = .ok r) :
    ∀ (lines : t_linemap) (b : GraphBuilder) (m : NodeMap) (b' : GraphBuilder) (m' : NodeMap),
      loop lines (b, m) = .ok (b', m') → b.Fresh →
      ∀ l s n, m' l s = some n → m l s = some n ∨
        ∃ pre it post k, lines = pre ++ it :: post ∧ it.2.name = l ∧
          (stops it.2)[k]? = some s ∧ n = b._g.nextNode + totalStops pre + k := by
  intro lines
  induction lines with
  | nil =>
    intro b m b' m' h _ l s n hn
    rw [hnil] at h
    simp only [Except.ok.injEq, Prod.mk.injEq] at h
    obtain ⟨rfl, rfl⟩ := h
    exact Or.inl hn
  | cons it0 rest ih =>
    intro b m b' m' h hf l s n hn
    obtain ⟨steps, st1, hsteps, hrun, hrest⟩ := hcons it0 rest (b, m) (b', m') h
    obtain ⟨b1, m1⟩ := st1
    obtain ⟨f1, -, f3, -, -, -⟩ := lineLoop_shape _ _ _ _ _ _ _ hrun hf
    have hsl : steps.length = it0.2.stations.length := by
      rw [← hlen, ← hsteps, List.length_map]
    rw [hsl] at f3
    rcases ih b1 m1 b' m' hrest f1 l s n hn with h1 | ⟨pre, it, post, k, hl, hname, hk, hnk⟩
    · rcases lineLoop_origin _ _ _ _ _ _ _ hrun l s n h1 with h2 | ⟨h2, k, hk, hnk⟩
      · exact Or.inl h2
      · right
        refine ⟨[], it0, rest, k, rfl, h2.symm, by rw [← hsteps]; exact hk, ?_⟩
        simp [totalStops, hnk]
    · right
      refine ⟨it0 :: pre, it, post, k, by rw [hl]; rfl, hname, hk, ?_⟩
      rw [hnk, f3, totalStops_cons]
      omega

/-- Every entry of the node maps is the node of a stop of a line with the name
of the entry, at the station of the entry: the forward node of the stop in the
forward node map, its reverse node in the reverse node map. -/
theorem createNodesAndTravelArcs_origin (stations : t_stationmap) (lines : t_linemap)
    (cc sc : ℚ) (b : GraphBuilder) (way back : NodeMap)
    (h : createNodesAndTravelArcs (init stations lines cc sc) (fun _ _ => none)
      (fun _ _ => none) = .ok (b, way, back)) :
    (∀ l s n, way l s = some n → ∃ pre it post k, lines = pre ++ it :: post ∧ it.2.name = l ∧
      it.2.stations[k]? = some s ∧ n = totalStops pre + k) ∧
    (∀ l s n, back l s = some n → ∃ pre it post k, lines = pre ++ it :: post ∧ it.2.name = l ∧
      it.2.stations[k]? = some s ∧
      n = totalStops lines + totalStops pre + (it.2.stations.length - 1 - k)) := by
  simp only [createNodesAndTravelArcs] at h
  split at h
  · exact absurd h (by simp)
  · rename_i b1 way1 h1
    split at h
    · exact absurd h (by simp)
    · rename_i b2 back1 h2
      simp only [Except.ok.injEq, Prod.mk.injEq] at h
      obtain ⟨rfl, rfl, rfl⟩ := h
      have hs0 := sound_init stations lines cc sc
      have hl0 : (init stations lines cc sc)._lines = lines := rfl
      have hn0 : (init stations lines cc sc)._g.nextNode = 0 := rfl
      obtain ⟨-, -, -, -, hl, -, -⟩ := wayLines_sound _ _ _ _ _ h1 hs0 (mapIn_empty _)
      obtain ⟨f1, -, f3, -, -, -⟩ := wayLines_shape _ _ _ _ _ h1 hs0.1
      rw [hl0] at h1 f3
      rw [hl, hl0] at h2
      rw [hn0, Nat.zero_add] at f3
      constructor
      · intro l s n hn
        have key := linesLoop_origin (fun line => line.stations) (fun _ => rfl) wayLines
          (fun st => rfl) (by
            intro it rest st r hr
            simp only [wayLines] at hr
            split at hr
            · exact absurd hr (by simp)
            · rename_i st1 h1'
              rw [wayLoop_eq] at h1'
              exact ⟨_, st1, waySteps_fst _ _ _, h1', hr⟩) lines _ _ _ _ h1 hs0.1 l s n hn
        rcases key with hk | ⟨pre, it, post, k, hlines, hname, hk, hnk⟩
        · exact absurd hk (by simp)
        · exact ⟨pre, it, post, k, hlines, hname, hk, by rw [hnk, hn0, Nat.zero_add]⟩
      · intro l s n hn
        have key := linesLoop_origin (fun line => line.stations.reverse)
          (fun line => List.length_reverse _) backLines
          (fun st => rfl) (by
            intro it rest st r hr
            simp only [backLines] at hr
            split at hr
            · exact absurd hr (by simp)
            · rename_i st1 h1'
              rw [backLoop_eq] at h1'
              exact ⟨_, st1, backSteps_fst _ _ _, h1', hr⟩) lines _ _ _ _ h2 f1 l s n hn
        rcases key with hk | ⟨pre, it, post, k, hlines, hname, hk, hnk⟩
        · exact absurd hk (by simp)
        · have hklt : k < it.2.stations.length := by
            by_contra hge
            rw [List.getElem?_eq_none (by simp; omega)] at hk
            exact absurd hk (by simp)
          refine ⟨pre, it, post, it.2.stations.length - 1 - k, hlines, hname, ?_, ?_⟩
          · rw [List.getElem?_reverse hklt] at hk
            exact hk
          · rw [hnk, f3]
            have : it.2.stations.length - 1 - (it.2.stations.length - 1 - k) = k := by omega
            rw [this]

end GeneralPhases
/-! ## Theorems: the switch and transfer arcs of the graph before preprocessing,
for any network -/

section GeneralKeepArcs

open GraphBuilder

variable {stations : t_stationmap} {lines : t_linemap} {cc sc : ℚ} {type : ProblemType}
  {preprocess : Bool} {b1 : GraphBuilder} {way back : NodeMap} {b2 : GraphBuilder}

/-- An arc with connection flag is a switch arc of the switching plan or a
transfer arc whose guard holds. -/
theorem Phases.flag_cases (h : Phases stations lines cc sc type preprocess b1 way back b2)
    {e : Edge} (he : e ∈ b2._g.edges) (hk : b2._connection_arcs e.id = true) :
    somePair (e.src, e.tgt) ∈ switchingPlan stations way back lines type preprocess ∨
      (somePair (e.src, e.tgt) ∈ transferPlan way back stations ∧
        b2.HasIn e.src ∧ b2.HasOut e.tgt) := by
  obtain ⟨switches, calls, p1, p2, p3, p4, p5, -⟩ := h.graph_shape
  have hge : ¬ e.id < 2 * totalSegments lines := by
    intro hlt
    rw [(p4 e he).2 hlt] at hk
    exact absurd hk (by simp)
  rw [p3] at he
  rcases List.mem_append.1 he with h1 | h1
  · rcases List.mem_append.1 h1 with h2 | h2
    · obtain ⟨r, hr, rfl⟩ := List.mem_map.1 h2
      exact absurd (p5 r hr) hge
    · left
      rw [← p1]
      exact List.mem_map.2 ⟨_, (pair_of_mem_arcsFrom _ _ _ h2).1, rfl⟩
  · right
    have hm := (pair_of_mem_arcsFrom _ _ _ h1).1
    obtain ⟨hc, hg⟩ := List.mem_filter.1 hm
    simp only [Bool.and_eq_true, decide_eq_true_eq] at hg
    rw [← p2]
    exact ⟨List.mem_map.2 ⟨_, hc, rfl⟩, hg.1, hg.2⟩

theorem mem_enum_getElem? {α : Type} (l : List α) (i : Nat) (s : α) (h : (i, s) ∈ l.enum) :
    l[i]? = some s := by
  obtain ⟨j, hj⟩ := List.mem_iff_getElem?.1 h
  rw [List.enum, List.getElem?_enumFrom] at hj
  cases hget : l[j]? with
  | none => rw [hget] at hj; simp at hj
  | some x =>
    rw [hget] at hj
    simp only [Option.map_some', Option.some.injEq, Prod.mk.injEq, Nat.zero_add] at hj
    rw [← hj.1, ← hj.2]
    exact hget

theorem terminalPlanLine_entry (way back : NodeMap) (l : String) (sts : List String)
    (q : Option Nat × Option Nat) :
    ∀ (ps : List (Nat × String)), q ∈ terminalPlanLine way back l sts ps →
      ∃ i s, (i, s) ∈ ps ∧ q = terminalSwitch way back l i s := by
  intro ps
  induction ps with
  | nil => intro hq; simp [terminalPlanLine] at hq
  | cons x rest ih =>
    intro hq
    obtain ⟨i, s⟩ := x
    simp only [terminalPlanLine, List.mem_append] at hq
    rcases hq with hq | hq
    · split at hq
      · rw [List.mem_singleton] at hq
        exact ⟨i, s, List.mem_cons_self _ _, hq⟩
      · simp at hq
    · obtain ⟨i', s', hm, hq'⟩ := ih hq
      exact ⟨i', s', List.mem_cons_of_mem _ hm, hq'⟩

/-- The arcs of the switching rules with preprocessing: every call joins the
entries of the two node maps for a line and the station of one of its stops;
the call from the forward to the reverse node is made at a stop that is not the
first of its line. -/
theorem switchingPlan_entry (stations : t_stationmap) (way back : NodeMap) (lines : t_linemap)
    (type : ProblemType) (q : Option Nat × Option Nat)
    (hq : q ∈ switchingPlan stations way back lines type true) :
    ∃ it ∈ lines, ∃ i s, it.2.stations[i]? = some s ∧
      (q = (back it.2.name s, way it.2.name s) ∨
        (q = (way it.2.name s, back it.2.name s) ∧ 0 < i)) := by
  simp only [switchingPlan, Bool.not_true, Bool.false_eq_true, if_false] at hq
  split at hq
  · simp only [terminalPlan, List.mem_flatMap] at hq
    obtain ⟨it, hit, hq⟩ := hq
    obtain ⟨i, s, hm, rfl⟩ := terminalPlanLine_entry way back _ _ q _ hq
    refine ⟨it, hit, i, s, mem_enum_getElem? _ _ _ hm, ?_⟩
    simp only [terminalSwitch]
    split
    · exact Or.inl rfl
    · rename_i h0
      exact Or.inr ⟨rfl, by omega⟩
  · rw [restrictedPlan_eq] at hq
    simp only [List.mem_flatMap] at hq
    obtain ⟨it, hit, p, hp, hq⟩ := hq
    obtain ⟨i, s⟩ := p
    refine ⟨it, hit, i, s, mem_enum_getElem? _ _ _ hp, ?_⟩
    simp only [restrictedSwitchesAt] at hq
    split at hq
    · simp at hq
    · split at hq
      · rw [List.mem_singleton] at hq
        subst hq
        simp only [terminalSwitch]
        split
        · exact Or.inl rfl
        · rename_i h0
          exact Or.inr ⟨rfl, by omega⟩
      · rename_i ht
        have h0 : 0 < i := by
          simp only [isTerminalStation, Bool.or_eq_true, beq_iff_eq, not_or] at ht
          omega
        split at hq
        · rw [List.mem_append] at hq
          rcases hq with hq | hq
          · split at hq
            · rw [List.mem_singleton] at hq
              exact Or.inr ⟨hq, h0⟩
            · simp at hq
          · split at hq
            · rw [List.mem_singleton] at hq
              exact Or.inl hq
            · simp at hq
        · simp at hq

/-- Every call of a switching rule joins the entries of the two node maps for a
line and one of its stations. -/
theorem switchingPlan_mem (stations : t_stationmap) (way back : NodeMap) (lines : t_linemap)
    (type : ProblemType) (preprocess : Bool) (q : Option Nat × Option Nat)
    (hq : q ∈ switchingPlan stations way back lines type preprocess) :
    ∃ it ∈ lines, ∃ s ∈ it.2.stations,
      q = (way it.2.name s, back it.2.name s) ∨ q = (back it.2.name s, way it.2.name s) := by
  cases preprocess with
  | false =>
    simp only [switchingPlan, Bool.not_false, if_true] at hq
    exact (mem_allSwitchingPlan _ _ _ _).1 hq
  | true =>
    obtain ⟨it, hit, i, s, hs, hor⟩ := switchingPlan_entry stations way back lines type q hq
    refine ⟨it, hit, s, List.getElem?_mem hs, ?_⟩
    rcases hor with h1 | ⟨h1, -⟩
    · exact Or.inr h1
    · exact Or.inl h1

/-- In the graph before preprocessing a connection arc carries the reserved
label and joins two nodes named after the same station, whatever the network
and the build configuration. -/
theorem Phases.connection_names (h : Phases stations lines cc sc type preprocess b1 way back b2) :
    ∀ e ∈ b2._g.edges, b2._connection_arcs e.id = true →
      b2._arc_names e.id = CHANGE_NAME ∧ b2._node_names e.src = b2._node_names e.tgt := by
  have h1 := h.travel
  have h2 := h.special
  obtain ⟨g1, g2, g3, -⟩ := createNodesAndTravelArcs_sound _ _ _ _ _ _ h1
    (sound_init stations lines cc sc) (mapIn_empty _) (mapIn_empty _)
  obtain ⟨sw0, calls0, -, -, t3, -, -⟩ :=
    addSpecialArcs_trace b1 way back type preprocess b2 g1 g2 g3 h2
  obtain ⟨-, -, -, -, s5, -⟩ := special_shape b1 b1._switch_cost b1._change_cost sw0
    (calls0.filter (transferGuard (b1.addArcs b1._switch_cost sw0)))
  rw [← t3] at s5
  obtain ⟨-, -, -, a4⟩ := createNodesAndTravelArcs_nodes _ _ _ _ _ _ _ h1
  have hunset := createNodesAndTravelArcs_unset stations lines cc sc b1 way back h1
  obtain ⟨-, -, -, -, -, p4, -, -, k7, k8, -, -⟩ := h.graph_shape
  intro e he hflag
  have hid : ¬ e.id < 2 * totalSegments lines := by
    intro hlt
    have := (p4 e he).2 hlt
    rw [this] at hflag
    exact absurd hflag (by simp)
  refine ⟨?_, ?_⟩
  · rw [s5]
    exact hunset e.id (by rw [a4]; omega)
  · have hnm : ∀ (n : Nat) (l s : String), (some n = way l s ∨ some n = back l s) →
        b2._node_names n = s := by
      intro n l s hn
      rcases hn with hn | hn
      · exact (k7 l s n hn.symm).2.2.1
      · exact (k8 l s n hn.symm).2.2.1
    rcases h.flag_cases he hflag with hq | ⟨hq, -, -⟩
    · obtain ⟨it, -, s, -, hq⟩ := switchingPlan_mem _ _ _ _ _ _ _ hq
      simp only [somePair, Prod.mk.injEq] at hq
      rcases hq with ⟨q1, q2⟩ | ⟨q1, q2⟩
      · rw [hnm e.src _ s (Or.inl q1), hnm e.tgt _ s (Or.inr q2)]
      · rw [hnm e.src _ s (Or.inr q1), hnm e.tgt _ s (Or.inl q2)]
    · obtain ⟨st, -, p, -, hqp⟩ := (mem_transferPlan _ _ _ _).1 hq
      simp only [somePair] at hqp
      have hside : ∀ (n : Nat) (a c : String),
          some n ∈ [way a st.2.name, back a st.2.name] ∨
            some n ∈ [way c st.2.name, back c st.2.name] →
          b2._node_names n = st.2.name := by
        intro n a c hn
        simp only [List.mem_cons, List.mem_singleton, List.not_mem_nil, or_false] at hn
        rcases hn with hn | hn
        · exact hnm n a _ hn
        · exact hnm n c _ hn
      rcases (mem_connectionPairs _ _ _ _ _ _).1 hqp with ⟨m1, m2⟩ | ⟨m1, m2⟩
      · rw [hside e.src p.1 p.2 (Or.inl m1), hside e.tgt p.1 p.2 (Or.inr m2)]
      · rw [hside e.src p.1 p.2 (Or.inr m1), hside e.tgt p.1 p.2 (Or.inl m2)]

/-- A node with an entering arc, a leaving arc and a further arc has degree at
least three. -/
theorem degree_ge_three (g : LGraph) (n : Nat) (a o t : Edge)
    (ha : a ∈ g.edges) (ho : o ∈ g.edges) (ht : t ∈ g.edges) (hat : a.tgt = n)
    (hos : o.src = n) (hti : t.src = n ∨ t.tgt = n) (hta : t ≠ a) (hto : t ≠ o) :
    3 ≤ g.degree n := by
  have hin : a ∈ g.inEdges n := List.mem_filter.2 ⟨ha, by simpa using hat⟩
  have hout : o ∈ g.outEdges n := List.mem_filter.2 ⟨ho, by simpa using hos⟩
  have h1 : 1 ≤ (g.inEdges n).length := List.length_pos_of_mem hin
  have h2 : 1 ≤ (g.outEdges n).length := List.length_pos_of_mem hout
  simp only [LGraph.degree, LGraph.indeg, LGraph.outdeg]
  rcases hti with hs | htt
  · have htm : t ∈ g.outEdges n := List.mem_filter.2 ⟨ht, by simpa using hs⟩
    have hsub : [t, o] ⊆ g.outEdges n := by
      intro x hx
      simp only [List.mem_cons, List.mem_singleton, List.not_mem_nil, or_false] at hx
      rcases hx with rfl | rfl
      · exact htm
      · exact hout
    have := (List.subperm_of_subset (by simp [hto]) hsub).length_le
    simp only [List.length_cons, List.length_nil] at this
    omega
  · have htm : t ∈ g.inEdges n := List.mem_filter.2 ⟨ht, by simpa using htt⟩
    have hsub : [t, a] ⊆ g.inEdges n := by
      intro x hx
      simp only [List.mem_cons, List.mem_singleton, List.not_mem_nil, or_false] at hx
      rcases hx with rfl | rfl
      · exact htm
      · exact hin
    have := (List.subperm_of_subset (by simp [hta]) hsub).length_le
    simp only [List.length_cons, List.length_nil] at this
    omega

/-- In the graph built for preprocessing from lines with different names, a
node on which a connection arc enters and a connection arc leaves has a travel
arc as well, so it has at least three arcs. -/
theorem Phases.connection_pair (h : Phases stations lines cc sc type true b1 way back b2)
    (hnames : (lines.map (fun it => it.2.name)).Nodup) (n : Nat) (ein eout : Edge)
    (hein : ein ∈ b2._g.edges) (heout : eout ∈ b2._g.edges)
    (hkin : b2._connection_arcs ein.id = true) (hkout : b2._connection_arcs eout.id = true)
    (hin : ein.tgt = n) (hout : eout.src = n) : 3 ≤ b2._g.degree n := by
  obtain ⟨-, -, -, -, -, -, -, -, n1, n2, -, -⟩ := h.graph_shape
  obtain ⟨o1, o2⟩ := createNodesAndTravelArcs_origin stations lines cc sc b1 way back h.travel
  have hthird : ∀ t ∈ b2._g.edges, b2._connection_arcs t.id = false → (t.src = n ∨ t.tgt = n) →
      3 ≤ b2._g.degree n := by
    intro t ht hf hti
    refine degree_ge_three _ n ein eout t hein heout ht hin hout hti ?_ ?_
    · intro heq
      rw [heq, hkin] at hf
      exact absurd hf (by simp)
    · intro heq
      rw [heq, hkout] at hf
      exact absurd hf (by simp)
  have hline : ∀ (it it' : String × Line), it ∈ lines → it' ∈ lines → it.2.name = it'.2.name →
      it = it' := fun it it' hit hit' hn => List.inj_on_of_nodup_map hnames hit hit' hn
  rcases h.flag_cases hein hkin with hq1 | ⟨-, -, ho⟩
  · rcases h.flag_cases heout hkout with hq2 | ⟨-, hi, -⟩
    · obtain ⟨it1, hit1, i1, s1, hs1, hor1⟩ := switchingPlan_entry _ _ _ _ _ _ hq1
      obtain ⟨it2, hit2, i2, s2, hs2, hor2⟩ := switchingPlan_entry _ _ _ _ _ _ hq2
      simp only [somePair, Prod.mk.injEq] at hor1 hor2
      rw [hin] at hor1
      rw [hout] at hor2
      have hlen : ∀ (it : String × Line) (i : Nat) (s : String), it.2.stations[i]? = some s →
          0 < i → 2 ≤ it.2.stations.length := by
        intro it i s hs hi
        have : i < it.2.stations.length := by
          by_contra hge
          rw [List.getElem?_eq_none (by omega)] at hs
          exact absurd hs (by simp)
        omega
      by_cases hlow : n < totalStops lines
      · -- a forward node: the leaving arc is an arc from the forward to the reverse node
        rcases hor2 with ⟨q1, -⟩ | ⟨⟨q1, -⟩, hpos⟩
        · have := (n2 _ _ _ q1.symm).1
          omega
        · obtain ⟨pre, it, post, k, hl, hname, hk, hnk⟩ := o1 _ _ _ q1.symm
          have hit : it ∈ lines := by rw [hl]; simp
          have heq := hline it it2 hit hit2 hname
          subst heq
          have hklt : k < it.2.stations.length := by
            by_contra hge
            rw [List.getElem?_eq_none (by omega)] at hk
            exact absurd hk (by simp)
          obtain ⟨t, ht, hf, hti⟩ := h.travel_arc_at pre it post hl (hlen it i2 s2 hs2 hpos) k hklt n
            (Or.inl hnk)
          exact hthird t ht hf hti
      · -- a reverse node: the entering arc is an arc from the forward to the reverse node
        rcases hor1 with ⟨-, q2⟩ | ⟨⟨-, q2⟩, hpos⟩
        · have := (n1 _ _ _ q2.symm).2.1
          omega
        · obtain ⟨pre, it, post, k, hl, hname, hk, hnk⟩ := o2 _ _ _ q2.symm
          have hit : it ∈ lines := by rw [hl]; simp
          have heq := hline it it1 hit hit1 hname
          subst heq
          have hklt : k < it.2.stations.length := by
            by_contra hge
            rw [List.getElem?_eq_none (by omega)] at hk
            exact absurd hk (by simp)
          obtain ⟨t, ht, hf, hti⟩ := h.travel_arc_at pre it post hl (hlen it i1 s1 hs1 hpos)
            (it.2.stations.length - 1 - k) (by omega) n (Or.inr hnk)
          exact hthird t ht hf hti
    · obtain ⟨t, ht, htt, hf⟩ := hi
      rw [hout] at htt
      exact hthird t ht hf (Or.inr htt)
  · obtain ⟨t, ht, hts, hf⟩ := ho
    rw [hin] at hts
    exact hthird t ht hf (Or.inl hts)

end GeneralKeepArcs
/-! ## Theorems: the two kinds of arcs after preprocessing, for any network -/

section GeneralArcKinds

open GraphBuilder

theorem nodesToHide_degrees (g : LGraph) :
    ∀ (ns r : List Nat), nodesToHide g ns = .ok r → ∀ n ∈ ns, 2 ≤ g.degree n := by
  intro ns
  induction ns with
  | nil => intro r _ n hn; simp at hn
  | cons m rest ih =>
    intro r h n hn
    simp only [nodesToHide] at h
    split at h
    · exact absurd h (by simp)
    · rename_i hge
      simp only [not_not] at hge
      split at h
      · exact absurd h (by simp)
      · rename_i r' hr'
        rcases List.mem_cons.1 hn with rfl | hn
        · exact hge
        · exact ih r' hr' n hn

/-- If `computeDegree2Chains` returns, every node of the graph has at least two
arcs: its first assertion held at every node. -/
theorem computeDegree2Chains_degrees (g : LGraph) (keep : Nat → Bool) (chains : List (List Nat))
    (h : computeDegree2Chains g keep = .ok chains) : ∀ n ∈ g.nodes, 2 ≤ g.degree n := by
  unfold computeDegree2Chains at h
  split at h
  · exact absurd h (by simp)
  · rename_i r hr
    exact nodesToHide_degrees g _ r hr

/-- A fact about the builder that the contraction of a node of the chain keeps
is kept by the loop that removes the chain. -/
theorem removeChain_keeps_mem (P : GraphBuilder → Prop) (S : Nat → Prop)
    (hstep : ∀ (b : GraphBuilder) (n : Nat) (ein eout : Edge), P b → S n →
      b._g.inEdges n = [ein] → b._g.outEdges n = [eout] →
      b._arc_names ein.id = b._arc_names eout.id → P (b.contractNode n ein eout))
    (l : List Nat) :
    ∀ (b : GraphBuilder) (red : List Nat) (r : GraphBuilder × List Nat),
      removeChain l (b, red) = .ok r → (∀ n ∈ l, S n) → P b → P r.1 := by
  induction l with
  | nil =>
    intro b red r h _ hp
    simp only [removeChain, Except.ok.injEq] at h
    subst h
    exact hp
  | cons n ns ih =>
    intro b red r h hS hp
    obtain ⟨ein, eout, hin, hout, hnm, h1⟩ := removeChain_cons_inv b n ns red r h
    exact ih _ _ _ h1 (fun m hm => hS m (List.mem_cons_of_mem _ hm))
      (hstep b n ein eout hp (hS n (List.mem_cons_self _ _)) hin hout hnm)

/-- A fact about the builder that the contraction of a node of a chain keeps is
kept by the loop of `preprocessGraph` over the chains. -/
theorem removeChains_keeps_mem (P : GraphBuilder → Prop) (S : Nat → Prop)
    (hstep : ∀ (b : GraphBuilder) (n : Nat) (ein eout : Edge), P b → S n →
      b._g.inEdges n = [ein] → b._g.outEdges n = [eout] →
      b._arc_names ein.id = b._arc_names eout.id → P (b.contractNode n ein eout))
    (type : ProblemType) (chains : List (List Nat)) :
    ∀ (st r : GraphBuilder × List Nat), removeChains type chains st = .ok r →
      (∀ c ∈ chains, ∀ n ∈ c, S n) → P st.1 → P r.1 := by
  induction chains with
  | nil =>
    intro st r h _ hp
    simp only [removeChains, Except.ok.injEq] at h
    subst h
    exact hp
  | cons list rest ih =>
    intro st r h hS hp
    have hrest : ∀ c ∈ rest, ∀ n ∈ c, S n := fun c hc => hS c (List.mem_cons_of_mem _ hc)
    simp only [removeChains] at h
    split at h
    · exact absurd h (by simp)
    · exact ih st r h hrest hp
    · split at h
      · exact absurd h (by simp)
      · rename_i st1 h1
        obtain ⟨b, red⟩ := st
        exact ih st1 r h hrest
          (removeChain_keeps_mem P S hstep list b red st1 h1 (hS list (List.mem_cons_self _ _)) hp)

/-- The contraction of a node whose two arcs carry the same label and are not
both connection arcs keeps the two kinds of arcs: the two arcs are arcs of a
line, and so is the new arc, whose cost is the sum of their costs. -/
theorem arcKinds_contractNode {lines : t_linemap} {b : GraphBuilder} (hok : ArcKinds lines b)
    (n : Nat) (ein eout : Edge) (hin : b._g.inEdges n = [ein]) (hout : b._g.outEdges n = [eout])
    (hname : b._arc_names ein.id = b._arc_names eout.id)
    (hnot : ¬ (b._connection_arcs ein.id = true ∧ b._connection_arcs eout.id = true)) :
    ArcKinds lines (b.contractNode n ein eout) := by
  obtain ⟨hein, -⟩ := mem_of_inEdges b n ein hin
  obtain ⟨heout, -⟩ := mem_of_outEdges b n eout hout
  have hboth : (b._arc_names ein.id ≠ CHANGE_NAME ∧
      (∃ it ∈ lines, b._arc_names ein.id = it.2.name) ∧ 0 < b._dist ein.id) ∧
      0 < b._dist eout.id := by
    rcases hok.arcs ein hein with ⟨-, x2, x3, x4⟩ | ⟨x1, x2, -⟩
    · rcases hok.arcs eout heout with ⟨-, -, -, y4⟩ | ⟨-, y2, -⟩
      · exact ⟨⟨x2, x3, x4⟩, y4⟩
      · exact absurd (hname.trans y2) x2
    · rcases hok.arcs eout heout with ⟨-, y2, -⟩ | ⟨y1, -⟩
      · exact absurd (hname.symm.trans x2) y2
      · exact absurd ⟨x1, y1⟩ hnot
  refine ⟨freshIds_contractNode b n ein eout hok.fresh,
    closed_contractNode b n ein eout hok.closed hein heout, ?_⟩
  intro e he
  rw [mem_contractNode_edges] at he
  rcases he.1 with h | h
  · obtain ⟨o1, o2, o3⟩ := contractNode_old b n ein eout e.id (hok.fresh e h)
    rw [o1, o2, o3]
    exact hok.arcs e h
  · subst h
    left
    refine ⟨by simp [contractNode], ?_, ?_, ?_⟩
    · simpa [contractNode] using hboth.1.1
    · simpa [contractNode] using hboth.1.2.1
    · have : (b.contractNode n ein eout)._dist b._g.nextEdge =
          b._dist ein.id + b._dist eout.id := by simp [contractNode]
      show 0 < (b.contractNode n ein eout)._dist b._g.nextEdge
      rw [this]
      exact add_pos hboth.1.2.2 hboth.2

variable {stations : t_stationmap} {lines : t_linemap} {cc sc : ℚ} {type : ProblemType}
  {preprocess : Bool} {b1 : GraphBuilder} {way back : NodeMap} {b2 : GraphBuilder}

/-- The graph before preprocessing has the two kinds of arcs, if no line is
named by the reserved label. -/
theorem Phases.arcKinds (h : Phases stations lines cc sc type preprocess b1 way back b2)
    (hres : ∀ it ∈ lines, it.2.name ≠ CHANGE_NAME) : ArcKinds lines b2 := by
  obtain ⟨-, -, -, -, -, -, -, -, -, -, pf, pc⟩ := h.graph_shape
  refine ⟨pf, pc, ?_⟩
  intro e he
  cases hflag : b2._connection_arcs e.id with
  | false =>
    obtain ⟨it, hit, q1, -, q3⟩ := specialGraph_travel stations lines cc sc type preprocess b1
      way back b2 h.travel h.special e he hflag
    exact Or.inl ⟨rfl, by rw [q1]; exact hres it hit, ⟨it, hit, q1⟩, q3⟩
  | true =>
    obtain ⟨c1, c2⟩ := h.connection_names e he hflag
    exact Or.inr ⟨rfl, c1, c2⟩

/-- The graph after preprocessing, for any network whose lines have different
names, none the reserved label: every arc is of one of the two kinds, and the
graph arises from the graph before preprocessing by contraction of nodes.  A
contracted node has degree two before preprocessing, so its two arcs are not
both connection arcs. -/
theorem Phases.arcKinds_preprocess {b : GraphBuilder}
    (h : Phases stations lines cc sc type true b1 way back b2)
    (hnames : (lines.map (fun it => it.2.name)).Nodup)
    (hres : ∀ it ∈ lines, it.2.name ≠ CHANGE_NAME)
    (h3 : b2.preprocessGraph type = .ok b) : ArcKinds lines b ∧ After b2 b := by
  have hok2 := h.arcKinds hres
  obtain ⟨chains, b4, red, hch, hrem, rfl⟩ := preprocessGraph_inv b2 b type h3
  have hdeg := computeDegree2Chains_degrees _ _ _ hch
  obtain ⟨chains', hch', -, hmem, -⟩ := h.path_graph.chains_ranges hdeg
  rw [hch] at hch'
  simp only [Except.ok.injEq] at hch'
  subst hch'
  have key := removeChains_keeps_mem (fun x => ArcKinds lines x ∧ After b2 x)
    (fun n => n ∈ b2._g.nodes ∧ n ∉ hiddenNodes b2._g b2._connection_arcs)
    (fun x n ein eout hp hS hin hout hname => by
      obtain ⟨hein, htgt⟩ := mem_of_inEdges x n ein hin
      obtain ⟨heout, hsrc⟩ := mem_of_outEdges x n eout hout
      have hnot : ¬ (x._connection_arcs ein.id = true ∧ x._connection_arcs eout.id = true) := by
        rintro ⟨f1, f2⟩
        have old : ∀ e ∈ x._g.edges, x._connection_arcs e.id = true →
            e ∈ b2._g.edges ∧ b2._connection_arcs e.id = true := by
          intro e he hf
          have hlt : e.id < b2._g.nextEdge := by
            by_contra hge
            have := hp.2.new_flags e he (by omega)
            rw [this] at hf
            exact absurd hf (by simp)
          exact ⟨hp.2.old_edges e he hlt, by rw [← (hp.2.old e.id hlt).2.2]; exact hf⟩
        obtain ⟨i1, i2⟩ := old ein hein f1
        obtain ⟨o1, o2⟩ := old eout heout f2
        have h3 := h.connection_pair hnames n ein eout i1 o1 i2 o2 htgt hsrc
        exact hS.2 (hideKeepEndpoints_subset _ _ _ n
          (List.mem_filter.2 ⟨hS.1, by simpa using h3⟩))
      exact ⟨arcKinds_contractNode hp.1 n ein eout hin hout hname hnot,
        after_contractNode hp.2 hp.1.fresh n ein eout⟩)
    type chains (b2, []) (b4, red) hrem
    (fun c hc n hn => (hmem n).1 (List.mem_flatten.2 ⟨c, hc, hn⟩))
    ⟨hok2, after_refl _ hok2.fresh⟩
  exact ⟨⟨key.1.fresh, key.1.closed, key.1.arcs⟩,
    ⟨key.2.nextEdge_le, key.2.old, key.2.old_edges, key.2.new_flags, key.2.kept,
      key.2.node_names, key.2.nodes⟩⟩

end GeneralArcKinds
/-! ## Theorems: the costs and the flags of the arcs of a built graph -/

section BuiltArcKinds

open GraphBuilder

/-- C34: in every built graph an arc without connection flag, travel arc or
synthetic arc, has a positive cost.  A graph is built only if every delta of the
cumulative times of a line, as the code computes it, is positive.  Without
preprocessing this holds for every list of lines.  For a graph built with
preprocessing the lines are those of a line map a network provider returns: a
map keyed by the names of the lines, so the names differ, and none is the
reserved label `<->`, since `XmlReader::read` rejects such a line.  A line may
repeat a station and may have any number of stops. -/
theorem graphBuilder_positive_costs (stations : t_stationmap) (lines : t_linemap) (cc sc : ℚ)
    (type : ProblemType) (preprocess : Bool) (b : GraphBuilder)
    (hreader : preprocess = true →
      (lines.map (fun it => it.2.name)).Nodup ∧ ∀ it ∈ lines, it.2.name ≠ CHANGE_NAME)
    (h : GraphBuilder.new stations lines cc sc type preprocess = .ok b) :
    (∀ it ∈ lines, it.2.DeltasPositive) ∧
      ∀ e ∈ b._g.edges, b._connection_arcs e.id = false → 0 < b._dist e.id := by
  obtain ⟨b1, way, back, b2, h1, h2, h3, -⟩ := new_phases stations lines cc sc type preprocess b h
  have hpos : ∀ it ∈ lines, it.2.DeltasPositive :=
    ((createNodesAndTravelArcs_ok_iff (init stations lines cc sc) (fun _ _ => none)
      (fun _ _ => none) (sound_init stations lines cc sc) (mapIn_empty _)).1).1 ⟨_, h1⟩
  refine ⟨hpos, ?_⟩
  cases preprocess with
  | false =>
    simp only [Bool.false_eq_true, if_false] at h3
    subst h3
    intro e he hc
    obtain ⟨it, -, -, -, q⟩ :=
      specialGraph_travel stations lines cc sc type false b1 way back b h1 h2 e he hc
    exact q
  | true =>
    obtain ⟨hnames, hres⟩ := hreader rfl
    simp only [if_true] at h3
    have hph : Phases stations lines cc sc type true b1 way back b2 := ⟨h1, h2⟩
    obtain ⟨hok, -⟩ := hph.arcKinds_preprocess hnames hres h3
    intro e he hc
    rcases hok.arcs e he with ⟨-, -, -, x4⟩ | ⟨x1, -⟩
    · exact x4
    · rw [x1] at hc; exact absurd hc (by simp)

/-- C34, witness: the network in which the line `L` serves `Q`, `A`, `C`, `A`,
`U` builds in station mode with preprocessing; the line repeats the station
`A`.  Every arc without connection flag of the built graph has a positive
cost. -/
theorem graphBuilder_positive_costs_witness :
    (true = true → (detourLines.map (fun it => it.2.name)).Nodup ∧
      ∀ it ∈ detourLines, it.2.name ≠ CHANGE_NAME) ∧
    GraphBuilder.new detourStations detourLines 5 5 .STATION true = .ok detourBuilder ∧
    (∀ it ∈ detourLines, it.2.DeltasPositive) ∧
    ∀ e ∈ detourBuilder._g.edges, detourBuilder._connection_arcs e.id = false →
      0 < detourBuilder._dist e.id :=
  ⟨fun _ => ⟨by decide, by decide⟩, detourBuilder_new,
    graphBuilder_positive_costs detourStations detourLines 5 5 .STATION true detourBuilder
      (fun _ => ⟨by decide, by decide⟩) detourBuilder_new⟩

/-- C38: in a built graph an arc is flagged as connection arc exactly if it is
one of the switch arcs of the switching plan or one of the transfer arcs added
by `addConnectionEdge`; a connection arc carries the label `<->` and its two end
nodes lie in one cluster of the cluster index; an arc without the flag carries
the name of a line.  Hence no connection arc leaves a cluster, and
`createCplexModel` returns a model: its assertion does not fail.  Without
preprocessing this holds for every list of lines.  For a graph built with
preprocessing the lines are those of a line map a network provider returns: a
map keyed by the names of the lines, so the names differ, and none is the
reserved label `<->`, since `XmlReader::read` rejects such a line.  A line may
repeat a station and may have any number of stops. -/
theorem graphBuilder_connection_flags (stations : t_stationmap) (lines : t_linemap)
    (cc sc : ℚ) (type : ProblemType) (preprocess : Bool) (b : GraphBuilder)
    (hreader : preprocess = true →
      (lines.map (fun it => it.2.name)).Nodup ∧ ∀ it ∈ lines, it.2.name ≠ CHANGE_NAME)
    (h : GraphBuilder.new stations lines cc sc type preprocess = .ok b) :
    ∃ (b1 : GraphBuilder) (way back : NodeMap) (b2 : GraphBuilder)
      (switches calls : List (Nat × Nat)),
      createNodesAndTravelArcs (init stations lines cc sc) (fun _ _ => none) (fun _ _ => none)
        = .ok (b1, way, back) ∧
      b1.addSpecialArcs way back type preprocess = .ok b2 ∧
      switches.map somePair = switchingPlan stations way back lines type preprocess ∧
      calls.map somePair = transferPlan way back stations ∧
      (∀ e ∈ b._g.edges, b._connection_arcs e.id = true ↔
        e ∈ arcsFrom (2 * totalSegments lines) switches ++
          arcsFrom (2 * totalSegments lines + switches.length)
            (calls.filter (fun p => decide (b2.HasIn p.1) && decide (b2.HasOut p.2)))) ∧
      (∀ e ∈ b._g.edges, b._connection_arcs e.id = true →
        b._arc_names e.id = CHANGE_NAME ∧ ∃ p ∈ b._station_nodes, e.src ∈ p.2 ∧ e.tgt ∈ p.2) ∧
      (∀ e ∈ b._g.edges, b._connection_arcs e.id = false →
        ∃ it ∈ lines, b._arc_names e.id = it.2.name) ∧
      NoConnectionLeaves b._g b._station_nodes b._connection_arcs ∧
      ∃ m ev, createCplexModel b._g b._dist b._station_nodes b._connection_arcs
        = .ok (m, ev) := by
  obtain ⟨b1, way, back, b2, h1, h2, h3, -⟩ := new_phases stations lines cc sc type preprocess b h
  obtain ⟨g1, g2, g3, -⟩ := createNodesAndTravelArcs_sound _ _ _ _ _ _ h1
    (sound_init stations lines cc sc) (mapIn_empty _) (mapIn_empty _)
  obtain ⟨sw0, calls0, -, -, -, -, hs2⟩ :=
    addSpecialArcs_trace b1 way back type preprocess b2 g1 g2 g3 h2
  obtain ⟨-, -, a3, a4⟩ := createNodesAndTravelArcs_nodes _ _ _ _ _ _ _ h1
  obtain ⟨switches, calls, k1, k2, k3, k4, k5, k6, -, -, k9, k10⟩ :=
    specialGraph_spec stations lines cc sc type preprocess b1 way back b2 h1 h2
  have hph : Phases stations lines cc sc type preprocess b1 way back b2 := ⟨h1, h2⟩
  -- the facts of the two cases
  have hfacts : After b2 b ∧ b.Closed ∧
      (∃ red, b._g.nodes = b2._g.nodes.filter (fun n => decide (n ∉ red)) ∧
        b._station_nodes = cleanStations red b2._station_nodes) ∧
      (∀ e ∈ b._g.edges, b._connection_arcs e.id = true →
        b._arc_names e.id = CHANGE_NAME ∧ b._node_names e.src = b._node_names e.tgt) ∧
      (∀ e ∈ b._g.edges, b._connection_arcs e.id = false →
        ∃ it ∈ lines, b._arc_names e.id = it.2.name) := by
    cases preprocess with
    | false =>
      simp only [Bool.false_eq_true, if_false] at h3
      subst h3
      refine ⟨after_refl _ k9, k10, ⟨[], by simp, ?_⟩, ?_, ?_⟩
      · rw [cleanStations_nil]
        intro p hp
        exact (hs2.2.2.clusters p hp).2.1
      · exact hph.connection_names
      · intro e he hc
        obtain ⟨it, hit, q, -⟩ :=
          specialGraph_travel stations lines cc sc type false b1 way back b h1 h2 e he hc
        exact ⟨it, hit, q⟩
    | true =>
      obtain ⟨hnames, hres⟩ := hreader rfl
      simp only [if_true] at h3
      obtain ⟨hok, haft⟩ := hph.arcKinds_preprocess hnames hres h3
      obtain ⟨red, r1, r2, -⟩ := preprocessGraph_nodes b2 b type h3
      refine ⟨haft, hok.closed, ⟨red, r1, r2⟩, ?_, ?_⟩
      · intro e he hc
        rcases hok.arcs e he with ⟨x1, -⟩ | ⟨-, x2, x3⟩
        · rw [x1] at hc; exact absurd hc (by simp)
        · exact ⟨x2, x3⟩
      · intro e he hc
        rcases hok.arcs e he with ⟨-, -, x3, -⟩ | ⟨x1, -⟩
        · exact x3
        · rw [x1] at hc; exact absurd hc (by simp)
  obtain ⟨haft, hclosed, ⟨red, r1, r2⟩, hconn, hline⟩ := hfacts
  obtain ⟨c1, c2, c3⟩ := connection_clusters b2 b red hs2 hclosed r1 r2 haft.node_names
    (fun e he hc => (hconn e he hc).2)
  have hE1 : b1._g.edges = (travelArcs lines).map ArcRecord.toEdge := by
    rw [← a3, arcRecords_toEdge]
  refine ⟨b1, way, back, b2, switches, calls, h1, h2, k1, k2, ?_, ?_, hline, c2, c3⟩
  · intro e he
    constructor
    · intro hflag
      have hlt : e.id < b2._g.nextEdge := by
        by_contra hge
        have := haft.new_flags e he (by omega)
        rw [this] at hflag
        exact absurd hflag (by simp)
      have he2 := haft.old_edges e he hlt
      have hflag2 : b2._connection_arcs e.id = true := by
        rw [← (haft.old e.id hlt).2.2]; exact hflag
      rw [k3] at he2
      rcases List.mem_append.1 he2 with h | h
      · rcases List.mem_append.1 h with h | h
        · exfalso
          rw [← hE1] at h
          have hid := g1.1.2 e h
          rw [a4] at hid
          have := (k6 e (by rw [k3]; simp [← hE1, h])).2 hid
          rw [this] at hflag2
          exact absurd hflag2 (by simp)
        · exact List.mem_append_left _ h
      · exact List.mem_append_right _ h
    · intro hmem
      have he2 : e ∈ b2._g.edges := by
        rw [k3]
        rcases List.mem_append.1 hmem with h | h
        · exact List.mem_append_left _ (List.mem_append_right _ h)
        · exact List.mem_append_right _ h
      have hflag2 : b2._connection_arcs e.id = true := by
        rcases List.mem_append.1 hmem with h | h
        · exact (k4 e h).2
        · exact (k5 e h).2
      rw [(haft.old e.id (k9 e he2)).2.2]
      exact hflag2
  · intro e he hflag
    exact ⟨(hconn e he hflag).1, c1 e he hflag⟩

/-- C38, witness: the single line of four stations builds in segment mode with
preprocessing; the two connection arcs carry the label `<->` and stay inside
the clusters of `A` and `D`, the two synthetic arcs carry the name of the line,
and `createCplexModel` returns a model. -/
theorem graphBuilder_connection_flags_witness :
    (true = true → (chainLines.map (fun it => it.2.name)).Nodup ∧
      ∀ it ∈ chainLines, it.2.name ≠ CHANGE_NAME) ∧
    GraphBuilder.new chainStations chainLines 5 5 .SEGMENT true = .ok chainBuilder ∧
    (∀ e ∈ chainBuilder._g.edges, chainBuilder._connection_arcs e.id = true →
      chainBuilder._arc_names e.id = CHANGE_NAME ∧
        ∃ p ∈ chainBuilder._station_nodes, e.src ∈ p.2 ∧ e.tgt ∈ p.2) ∧
    (∀ e ∈ chainBuilder._g.edges, chainBuilder._connection_arcs e.id = false →
      ∃ it ∈ chainLines, chainBuilder._arc_names e.id = it.2.name) ∧
    NoConnectionLeaves chainBuilder._g chainBuilder._station_nodes
      chainBuilder._connection_arcs ∧
    ∃ m ev, createCplexModel chainBuilder._g chainBuilder._dist chainBuilder._station_nodes
      chainBuilder._connection_arcs = .ok (m, ev) :=
  match graphBuilder_connection_flags chainStations chainLines 5 5 .SEGMENT true chainBuilder
    (fun _ => ⟨by decide, by decide⟩) (by rfl) with
  | ⟨_, _, _, _, _, _, _, _, _, _, _, h6, h7, h8, h9⟩ =>
    ⟨fun _ => ⟨by decide, by decide⟩, by rfl, h6, h7, h8, h9⟩

end BuiltArcKinds
/-! ## Theorems: paths of nodes with one entering and one leaving arc -/

section Paths

open GraphBuilder

theorem pathFrom_of_chainFrom (b : GraphBuilder) (q : Nat) :
    ∀ (vs : List Nat) (outs : List Edge) (ein : Edge), b.ChainFrom ein vs outs q →
      b.PathFrom ein vs outs q := by
  intro vs
  induction vs with
  | nil =>
    intro outs ein h
    cases outs with
    | nil => simpa [ChainFrom, PathFrom] using h
    | cons _ _ => simp [ChainFrom] at h
  | cons v vs ih =>
    intro outs ein h
    cases outs with
    | nil => simp [ChainFrom] at h
    | cons o os =>
      simp only [ChainFrom] at h
      simp only [PathFrom]
      exact ⟨h.1, h.2.1, ih os o h.2.2.2⟩

/-- A path whose arcs carry one label is a chain; the graph may belong to
another builder. -/
theorem chainFrom_of_pathFrom (b b' : GraphBuilder) (hg : b'._g = b._g) (q : Nat) :
    ∀ (vs : List Nat) (outs : List Edge) (ein : Edge), b.PathFrom ein vs outs q →
      (∀ e ∈ outs, b'._arc_names e.id = b'._arc_names ein.id) →
      b'.ChainFrom ein vs outs q := by
  intro vs
  induction vs with
  | nil =>
    intro outs ein h _
    cases outs with
    | nil => simpa [ChainFrom, PathFrom] using h
    | cons _ _ => simp [PathFrom] at h
  | cons v vs ih =>
    intro outs ein h hl
    cases outs with
    | nil => simp [PathFrom] at h
    | cons o os =>
      simp only [PathFrom] at h
      simp only [ChainFrom]
      have ho := hl o (List.mem_cons_self _ _)
      refine ⟨by rw [hg]; exact h.1, by rw [hg]; exact h.2.1, ho.symm, ih os o h.2.2 ?_⟩
      intro e he
      rw [hl e (List.mem_cons_of_mem _ he), ho]

theorem pathFrom_congr (b0 b : GraphBuilder) (q : Nat) :
    ∀ (vs : List Nat) (outs : List Edge) (ein : Edge),
      (∀ n ∈ vs, b._g.inEdges n = b0._g.inEdges n ∧ b._g.outEdges n = b0._g.outEdges n) →
      b0.PathFrom ein vs outs q → b.PathFrom ein vs outs q := by
  intro vs
  induction vs with
  | nil =>
    intro outs ein _ h
    cases outs with
    | nil => simpa [PathFrom] using h
    | cons _ _ => simp [PathFrom] at h
  | cons v vs ih =>
    intro outs ein hs h
    cases outs with
    | nil => simp [PathFrom] at h
    | cons o os =>
      simp only [PathFrom] at h
      simp only [PathFrom]
      obtain ⟨s1, s2⟩ := hs v (List.mem_cons_self _ _)
      exact ⟨s1.trans h.1, s2.trans h.2.1,
        ih os o (fun n hn => hs n (List.mem_cons_of_mem _ hn)) h.2.2⟩

theorem pathFrom_mem (b : GraphBuilder) (q : Nat) :
    ∀ (vs : List Nat) (outs : List Edge) (e : Edge), b.PathFrom e vs outs q →
      ∀ x ∈ outs, x ∈ b._g.edges := by
  intro vs
  induction vs with
  | nil =>
    intro outs e h x hx
    cases outs with
    | nil => simp at hx
    | cons _ _ => simp [PathFrom] at h
  | cons v vs ih =>
    intro outs e h x hx
    cases outs with
    | nil => simp at hx
    | cons o os =>
      simp only [PathFrom] at h
      rcases List.mem_cons.1 hx with rfl | hm
      · exact (mem_of_outEdges b v _ h.2.1).1
      · exact ih os o h.2.2 x hm

theorem pathFrom_head (b : GraphBuilder) (q v : Nat) (vs : List Nat) (outs : List Edge)
    (ein : Edge) (h : b.PathFrom ein (v :: vs) outs q) : b._g.inEdges v = [ein] := by
  cases outs with
  | nil => simp [PathFrom] at h
  | cons o os =>
    simp only [PathFrom] at h
    exact h.1

/-- The test of `preprocessGraph` on a path of the current graph. -/
theorem chainIsKept_path (b : GraphBuilder) (q v : Nat) (vs : List Nat) (outs : List Edge)
    (ein : Edge) (hch : b.PathFrom ein (v :: vs) outs q) (hnd : (v :: vs).Nodup)
    (hq : q ∉ v :: vs) :
    chainIsKept b (v :: vs) =
      .ok (decide (b._g.indeg ein.src > 1) && decide (b._g.indeg q > 1)) := by
  have hc := chainFrom_of_pathFrom b { b with _arc_names := fun _ => "" } rfl q (v :: vs) outs
    ein hch (fun _ _ => rfl)
  exact chainIsKept_chain { b with _arc_names := fun _ => "" } q v vs outs ein hc hnd hq

/-- The first round on a path of at least two nodes leaves the path of the
other nodes, entered by the new arc. -/
theorem pathFrom_step (b : GraphBuilder) (q v v2 : Nat) (vs : List Nat) (ein eout eout2 : Edge)
    (os : List Edge) (hf : b.FreshIds)
    (hch : b.PathFrom ein (v :: v2 :: vs) (eout :: eout2 :: os) q)
    (hnd : (v :: v2 :: vs).Nodup) (hp : ein.src ∉ v :: v2 :: vs) :
    (b.contractNode v ein eout).PathFrom (Edge.mk b._g.nextEdge ein.src eout.tgt)
      (v2 :: vs) (eout2 :: os) q := by
  have hc := chainFrom_of_pathFrom b { b with _arc_names := fun _ => "" } rfl q _ _
    ein hch (fun _ _ => rfl)
  have hs := chainFrom_step { b with _arc_names := fun _ => "" } q v v2 vs ein eout eout2 os hf
    hc hnd hp
  have hp' := pathFrom_of_chainFrom _ q _ _ _ hs
  exact pathFrom_congr (GraphBuilder.contractNode { b with _arc_names := fun _ => "" } v ein eout)
    (b.contractNode v ein eout) q _ _ _ (fun _ _ => ⟨rfl, rfl⟩) hp'

/-- If the loop that removes a chain returns, every node of the chain has an
entering and a leaving arc in the graph on which the loop starts. -/
theorem removeChain_has_arcs :
    ∀ (ns : List Nat) (b : GraphBuilder) (red : List Nat) (r : GraphBuilder × List Nat),
      removeChain ns (b, red) = .ok r →
      ∀ w ∈ ns, (∃ e ∈ b._g.edges, e.tgt = w) ∧ (∃ e ∈ b._g.edges, e.src = w) := by
  intro ns
  induction ns with
  | nil => intro b red r _ w hw; simp at hw
  | cons n ns ih =>
    intro b red r h w hw
    obtain ⟨ein, eout, hin, hout, -, h1⟩ := removeChain_cons_inv b n ns red r h
    obtain ⟨hein, htgt⟩ := mem_of_inEdges b n ein hin
    obtain ⟨heout, hsrc⟩ := mem_of_outEdges b n eout hout
    by_cases hwn : w = n
    · subst hwn
      exact ⟨⟨ein, hein, htgt⟩, ⟨eout, heout, hsrc⟩⟩
    · have hw' : w ∈ ns := by
        rcases List.mem_cons.1 hw with h | h
        · exact absurd h hwn
        · exact h
      obtain ⟨⟨x, hx, hxt⟩, ⟨y, hy, hys⟩⟩ := ih _ _ r h1 w hw'
      rw [mem_contractNode_edges] at hx hy
      constructor
      · rcases hx.1 with hmem | rfl
        · exact ⟨x, hmem, hxt⟩
        · exact ⟨eout, heout, hxt⟩
      · rcases hy.1 with hmem | rfl
        · exact ⟨y, hmem, hys⟩
        · exact ⟨ein, hein, hys⟩

/-- If the loop that removes a path returns, the arcs of the path carry one
label: the assertion on the labels held in every round. -/
theorem chainFrom_of_removeChain (q : Nat) :
    ∀ (vs : List Nat) (b : GraphBuilder) (ein : Edge) (outs : List Edge) (red : List Nat)
      (r : GraphBuilder × List Nat), b.FreshIds → b.PathFrom ein vs outs q → vs.Nodup →
      ein.src ∉ vs → removeChain vs (b, red) = .ok r → b.ChainFrom ein vs outs q := by
  intro vs
  induction vs with
  | nil =>
    intro b ein outs red r _ hp _ _ _
    cases outs with
    | nil => simpa [ChainFrom, PathFrom] using hp
    | cons _ _ => simp [PathFrom] at hp
  | cons v vs ih =>
    intro b ein outs red r hf hp hnd hsrc h
    cases outs with
    | nil => simp [PathFrom] at hp
    | cons o os =>
      have hp0 := hp
      simp only [PathFrom] at hp
      obtain ⟨hin, hout, hrest⟩ := hp
      obtain ⟨ein', eout', hin', hout', hnm, h1⟩ := removeChain_cons_inv b v vs red r h
      rw [hin] at hin'
      rw [hout] at hout'
      simp only [List.cons.injEq, and_true] at hin' hout'
      subst hin'
      subst hout'
      simp only [ChainFrom]
      refine ⟨hin, hout, hnm, ?_⟩
      cases vs with
      | nil =>
        cases os with
        | nil => simpa [ChainFrom, PathFrom] using hrest
        | cons _ _ => simp [PathFrom] at hrest
      | cons v2 vs2 =>
        cases os with
        | nil => simp [PathFrom] at hrest
        | cons o2 os2 =>
          have hstep := pathFrom_step b q v v2 vs2 ein o o2 os2 hf hp0 hnd hsrc
          have hnd' : (v2 :: vs2).Nodup := (List.nodup_cons.1 hnd).2
          have hsrc' : (Edge.mk b._g.nextEdge ein.src o.tgt).src ∉ v2 :: vs2 :=
            fun hm => hsrc (List.mem_cons_of_mem _ hm)
          have hc := ih (b.contractNode v ein o) (Edge.mk b._g.nextEdge ein.src o.tgt)
            (o2 :: os2) (red ++ [v]) r (freshIds_contractNode b v ein o hf) hstep hnd' hsrc' h1
          have hlab := chainFrom_labels _ q _ _ _ hc
          have hmem := pathFrom_mem b q _ _ _ hrest
          apply chainFrom_of_pathFrom b b rfl q _ _ _ hrest
          intro e he
          have h2 := hlab e he
          rw [(contractNode_old b v ein o e.id (hf e (hmem e he))).2.1] at h2
          rw [h2, ← hnm]
          simp [contractNode]

/-- The arcs at the nodes of a list of consecutive nodes of degree two, each
joined to the next by an arc, with an arc entering the first node and an arc
leaving the last node. -/
theorem range_node_arcs (b : GraphBuilder) (first len : Nat)
    (hdeg : ∀ n ∈ List.range' first (len + 1), b._g.degree n = 2)
    (hstep : ∀ i, i < len → ∃ e ∈ b._g.edges, e.src = first + i ∧ e.tgt = first + i + 1)
    (hfirst : ∃ e ∈ b._g.edges, e.tgt = first)
    (hlast : ∃ e ∈ b._g.edges, e.src = first + len) :
    ∀ n ∈ List.range' first (len + 1), ∃ ei eo, b._g.inEdges n = [ei] ∧
      b._g.outEdges n = [eo] ∧ (n < first + len → eo.tgt = n + 1) := by
  intro n hn
  have hr := List.mem_range'_1.1 hn
  have hin : ∃ e ∈ b._g.edges, e.tgt = n := by
    by_cases h0 : n = first
    · rw [h0]; exact hfirst
    · obtain ⟨e, he, -, ht⟩ := hstep (n - first - 1) (by omega)
      exact ⟨e, he, by omega⟩
  have hout : ∃ e ∈ b._g.edges, e.src = n := by
    by_cases h0 : n = first + len
    · rw [h0]; exact hlast
    · obtain ⟨e, he, hs, -⟩ := hstep (n - first) (by omega)
      exact ⟨e, he, by omega⟩
  obtain ⟨a, ha, hat⟩ := hin
  obtain ⟨o, ho, hos⟩ := hout
  have ha' : a ∈ b._g.inEdges n := List.mem_filter.2 ⟨ha, by simpa using hat⟩
  have ho' : o ∈ b._g.outEdges n := List.mem_filter.2 ⟨ho, by simpa using hos⟩
  have h1 : 1 ≤ (b._g.inEdges n).length := List.length_pos_of_mem ha'
  have h2 : 1 ≤ (b._g.outEdges n).length := List.length_pos_of_mem ho'
  have hd := hdeg n hn
  simp only [LGraph.degree, LGraph.indeg, LGraph.outdeg] at hd
  obtain ⟨ei, hei⟩ := List.length_eq_one.1 (show (b._g.inEdges n).length = 1 by omega)
  obtain ⟨eo, heo⟩ := List.length_eq_one.1 (show (b._g.outEdges n).length = 1 by omega)
  refine ⟨ei, eo, hei, heo, ?_⟩
  intro hlt
  obtain ⟨e, he, hs, ht⟩ := hstep (n - first) (by omega)
  have := eq_out_of_src b n eo e heo he (by omega)
  rw [← this, ht]
  omega

/-- A list of consecutive nodes with one entering and one leaving arc each,
every arc leading to the next node, is a path. -/
theorem pathFrom_range (b : GraphBuilder) :
    ∀ (len first : Nat) (ein : Edge), ein ∈ b._g.edges → ein.tgt = first →
      (∀ n ∈ List.range' first (len + 1), ∃ ei eo, b._g.inEdges n = [ei] ∧
        b._g.outEdges n = [eo] ∧ (n < first + len → eo.tgt = n + 1)) →
      ∃ outs elast, b.PathFrom ein (List.range' first (len + 1)) outs elast.tgt ∧
        elast ∈ b._g.edges ∧ elast.src = first + len := by
  intro len
  induction len with
  | zero =>
    intro first ein hein htgt hn
    obtain ⟨ei, eo, hi, ho, -⟩ := hn first (by simp)
    have := eq_in_of_tgt b first ei ein hi hein htgt
    subst this
    obtain ⟨heo, hsrc⟩ := mem_of_outEdges b first eo ho
    refine ⟨[eo], eo, ?_, heo, by simpa using hsrc⟩
    show b.PathFrom ein [first] [eo] eo.tgt
    simp only [PathFrom]
    exact ⟨hi, ho, trivial⟩
  | succ len ih =>
    intro first ein hein htgt hn
    obtain ⟨ei, eo, hi, ho, ht⟩ := hn first (List.mem_range'_1.2 ⟨le_refl _, by omega⟩)
    have := eq_in_of_tgt b first ei ein hi hein htgt
    subst this
    obtain ⟨heo, hsrc⟩ := mem_of_outEdges b first eo ho
    obtain ⟨outs, elast, hpath, hel, hes⟩ := ih (first + 1) eo heo (ht (by omega)) (by
      intro n hnr
      have hr := List.mem_range'_1.1 hnr
      obtain ⟨ei', eo', a1, a2, a3⟩ := hn n (List.mem_range'_1.2 ⟨by omega, by omega⟩)
      exact ⟨ei', eo', a1, a2, fun hlt => a3 (by omega)⟩)
    refine ⟨eo :: outs, elast, ?_, hel, by omega⟩
    rw [List.range'_succ]
    simp only [PathFrom]
    exact ⟨hi, ho, hpath⟩

/-- If the test of `preprocessGraph` on a chain returns, an arc enters the
first node of the chain and an arc leaves its last node. -/
theorem chainIsKept_ends (b : GraphBuilder) (c : List Nat) (k : Bool)
    (h : chainIsKept b c = .ok k) :
    ∃ front last, c.head? = some front ∧ c.getLast? = some last ∧
      (∃ e ∈ b._g.edges, e.tgt = front) ∧ (∃ e ∈ b._g.edges, e.src = last) := by
  unfold chainIsKept at h
  split at h
  · rename_i front last hf hl
    split at h
    · rename_i ein eout hi ho
      have h1 := List.mem_of_mem_head? hi
      have h2 := List.mem_of_mem_head? ho
      have h1' := List.mem_filter.1 h1
      have h2' := List.mem_filter.1 h2
      exact ⟨front, last, hf, hl, ⟨ein, h1'.1, by simpa using h1'.2⟩,
        ⟨eout, h2'.1, by simpa using h2'.2⟩⟩
    · exact absurd h (by simp)
  · exact absurd h (by simp)

end Paths
/-! ## Theorems: the rounds of the loop of `preprocessGraph`, for any graph on
which the loop returns -/

section Rounds

open GraphBuilder

/-- The loop of `preprocessGraph` over chains of consecutive nodes of degree two
that share no node, each entered from and left to nodes outside all chains: if
the loop returns, its rounds are those of `RoundsTrace`. -/
theorem removeChains_rounds (type : ProblemType) (b0 : GraphBuilder) (V : List Nat)
    (hf0 : b0.FreshIds) :
    ∀ (rest : List (List Nat)) (b : GraphBuilder) (red : List Nat)
      (r : GraphBuilder × List Nat),
      (∀ c ∈ rest, ∃ first len, c = List.range' first (len + 1) ∧
        (∀ n ∈ c, n ∈ V ∧ b0._g.degree n = 2) ∧
        (∀ e ∈ b0._g.edges, e.tgt = first → e.src ∉ V) ∧
        (∀ e ∈ b0._g.edges, e.src = first + len → e.tgt ∉ V) ∧
        ∀ i, i < len → ∃ e ∈ b0._g.edges, e.src = first + i ∧ e.tgt = first + i + 1) →
      rest.flatten.Nodup →
      b.FreshIds → b._g.edges.Nodup → b0._g.nextEdge ≤ b._g.nextEdge →
      (∀ i, i < b0._g.nextEdge → b._dist i = b0._dist i ∧ b._arc_names i = b0._arc_names i) →
      (∀ n ∈ rest.flatten,
        b._g.inEdges n = b0._g.inEdges n ∧ b._g.outEdges n = b0._g.outEdges n) →
      (∀ n, n ∉ V → b._g.indeg n = b0._g.indeg n) →
      removeChains type rest (b, red) = .ok r →
      RoundsTrace type b0 rest (b, red) r := by
  intro rest
  induction rest with
  | nil =>
    intro b red r _ _ _ _ _ _ _ _ h
    simp only [removeChains, Except.ok.injEq] at h
    exact h.symm
  | cons c rest ih =>
    intro b red r hdata hnd hf hE hle hold hsame hdeg h
    obtain ⟨first, len, hc, hcV, hent, hleave, hstep⟩ := hdata c (List.mem_cons_self _ _)
    rw [List.flatten_cons, List.nodup_append] at hnd
    obtain ⟨hcnd, hrnd, hdisj⟩ := hnd
    have hsamec : ∀ n ∈ c,
        b._g.inEdges n = b0._g.inEdges n ∧ b._g.outEdges n = b0._g.outEdges n :=
      fun n hn => hsame n (by
        rw [List.flatten_cons]
        exact List.mem_append_left _ hn)
    have hfirstc : first ∈ c := by rw [hc]; exact List.mem_range'_1.2 ⟨le_refl _, by omega⟩
    have hlastc : first + len ∈ c := by rw [hc]; exact List.mem_range'_1.2 ⟨by omega, by omega⟩
    have hhead : c.head? = some first := by rw [hc, List.range'_succ]; rfl
    have hgetlast : c.getLast? = some (first + len) := by
      rw [hc, List.range'_concat, List.getLast?_append]
      simp
    -- an arc enters the first node and an arc leaves the last node
    have hends : (∃ e ∈ b0._g.edges, e.tgt = first) ∧ (∃ e ∈ b0._g.edges, e.src = first + len) := by
      have hb : (∃ e ∈ b._g.edges, e.tgt = first) ∧ (∃ e ∈ b._g.edges, e.src = first + len) := by
        by_cases hty : type = ProblemType.STATION
        · rw [removeChains] at h
          simp only [hty, if_true] at h
          cases hk : chainIsKept b c with
          | error m => rw [hk] at h; exact absurd h (by simp)
          | ok k =>
            obtain ⟨front, last, k1, k2, k3, k4⟩ := chainIsKept_ends b c k hk
            rw [hhead] at k1
            rw [hgetlast] at k2
            simp only [Option.some.injEq] at k1 k2
            rw [← k1] at k3
            rw [← k2] at k4
            exact ⟨k3, k4⟩
        · rw [removeChains] at h
          simp only [hty, if_false] at h
          cases hrun : removeChain c (b, red) with
          | error m => rw [hrun] at h; exact absurd h (by simp)
          | ok st1 =>
            exact ⟨(removeChain_has_arcs c b red st1 hrun first hfirstc).1,
              (removeChain_has_arcs c b red st1 hrun (first + len) hlastc).2⟩
      obtain ⟨⟨e1, he1, ht1⟩, ⟨e2, he2, hs2⟩⟩ := hb
      have m1 : e1 ∈ b._g.inEdges first := List.mem_filter.2 ⟨he1, by simpa using ht1⟩
      have m2 : e2 ∈ b._g.outEdges (first + len) := List.mem_filter.2 ⟨he2, by simpa using hs2⟩
      rw [(hsamec first hfirstc).1] at m1
      rw [(hsamec _ hlastc).2] at m2
      have m1' := List.mem_filter.1 m1
      have m2' := List.mem_filter.1 m2
      exact ⟨⟨e1, m1'.1, by simpa using m1'.2⟩, ⟨e2, m2'.1, by simpa using m2'.2⟩⟩
    have hnodes := range_node_arcs b0 first len
      (fun n hn => (hcV n (by rw [hc]; exact hn)).2) hstep hends.1 hends.2
    obtain ⟨ein, hein, heint⟩ := hends.1
    obtain ⟨outs, elast, hpath0, helast, hels⟩ := pathFrom_range b0 len first ein hein heint hnodes
    rw [← hc] at hpath0
    have hpV : ein.src ∉ V := hent ein hein heint
    have hqV : elast.tgt ∉ V := hleave elast helast hels
    have hpc : ein.src ∉ c := fun hm => hpV (hcV _ hm).1
    have hqc : elast.tgt ∉ c := fun hm => hqV (hcV _ hm).1
    have hpathb : b.PathFrom ein c outs elast.tgt :=
      pathFrom_congr b0 b _ c outs ein hsamec hpath0
    have houts : ∀ e ∈ outs, e ∈ b0._g.edges := pathFrom_mem b0 _ c outs ein hpath0
    have i1 := hdeg _ hpV
    have i2 := hdeg _ hqV
    have hdist : ∀ e ∈ ein :: outs, b._dist e.id = b0._dist e.id := by
      intro e he
      rcases List.mem_cons.1 he with rfl | hm
      · exact (hold _ (hf0 _ hein)).1
      · exact (hold _ (hf0 _ (houts e hm))).1
    have hne : c ≠ [] := by rw [hc, List.range'_succ]; simp
    match c, hne with
    | v :: vs, _ =>
      have hkept := chainIsKept_path b elast.tgt v vs outs ein hpathb hcnd hqc
      by_cases hk : KeptChain type b0 ein elast.tgt
      · obtain ⟨hty, hk1, hk2⟩ := hk
        have hval : chainIsKept b (v :: vs) = .ok true := by
          rw [hkept, i1, i2]
          simp [hk1, hk2]
        rw [removeChains] at h
        simp only [hty, if_true, hval] at h
        have tr := ih b red r (fun c' hc' => hdata c' (List.mem_cons_of_mem _ hc')) hrnd hf hE
          hle hold (fun n hn => hsame n (by
            rw [List.flatten_cons]
            exact List.mem_append_right _ hn)) hdeg (by rw [hty]; exact h)
        exact ⟨ein, outs, elast.tgt, by simp, hpath0, hpathb, hpc, hqc, i1, i2, hdist,
          Or.inl ⟨⟨hty, hk1, hk2⟩, tr⟩⟩
      · have htest : (if type = ProblemType.STATION then chainIsKept b (v :: vs)
            else .ok false) = .ok false := by
          by_cases hty : type = ProblemType.STATION
          · rw [if_pos hty, hkept, i1, i2]
            have : ¬ (1 < b0._g.indeg ein.src ∧ 1 < b0._g.indeg elast.tgt) :=
              fun hh => hk ⟨hty, hh.1, hh.2⟩
            congr 1
            by_cases h1 : b0._g.indeg ein.src > 1
            · by_cases h2 : b0._g.indeg elast.tgt > 1
              · exact absurd ⟨h1, h2⟩ this
              · simp [h2]
            · simp [h1]
          · rw [if_neg hty]
        rw [removeChains] at h
        simp only [htest] at h
        cases hrun0 : removeChain (v :: vs) (b, red) with
        | error m => rw [hrun0] at h; exact absurd h (by simp)
        | ok st1 =>
          rw [hrun0] at h
          simp only at h
          have hchb : b.ChainFrom ein (v :: vs) outs elast.tgt :=
            chainFrom_of_removeChain _ (v :: vs) b ein outs red st1 hf hpathb hcnd hpc hrun0
          have hch0 : b0.ChainFrom ein (v :: vs) outs elast.tgt := by
            apply chainFrom_of_pathFrom b0 b0 rfl _ _ _ _ hpath0
            intro e he
            have := chainFrom_labels b _ _ _ _ hchb e he
            rw [(hold _ (hf0 _ (houts e he))).2, (hold _ (hf0 _ hein)).2] at this
            exact this
          obtain ⟨b1, hrun, hC⟩ := removeChain_contracted elast.tgt vs v b ein outs red hf hchb
            hcnd hpc hqc
          rw [hrun0] at hrun
          simp only [Except.ok.injEq] at hrun
          subst hrun
          have hf1 : b1.FreshIds := hC.freshIds_after hf (by simp)
          have hE1 : b1._g.edges.Nodup := hC.nodup_after hf hE
          have hle1 : b0._g.nextEdge ≤ b1._g.nextEdge := by
            rw [hC.nextEdge]
            omega
          have hold1 : ∀ i, i < b0._g.nextEdge →
              b1._dist i = b0._dist i ∧ b1._arc_names i = b0._arc_names i := by
            intro i hi
            obtain ⟨o1, o2, -⟩ := hC.old i (by omega)
            obtain ⟨p1, p2⟩ := hold i hi
            exact ⟨o1.trans p1, o2.trans p2⟩
          have hsame1 : ∀ n ∈ rest.flatten,
              b1._g.inEdges n = b0._g.inEdges n ∧ b1._g.outEdges n = b0._g.outEdges n := by
            intro n hn
            have hnc : n ∉ v :: vs := fun hm => hdisj hm hn
            have hnV : n ∈ V := by
              obtain ⟨c', hc', hnc'⟩ := List.mem_flatten.1 hn
              obtain ⟨_, _, _, hV', _⟩ := hdata c' (List.mem_cons_of_mem _ hc')
              exact (hV' n hnc').1
            have hnq : n ≠ elast.tgt := fun hh => hqV (hh ▸ hnV)
            have hnp : n ≠ ein.src := fun hh => hpV (hh ▸ hnV)
            obtain ⟨s1, s2⟩ := hsame n (by
              rw [List.flatten_cons]
              exact List.mem_append_right _ hn)
            exact ⟨(hC.inEdges_after hchb n hnc hnq).trans s1,
              (hC.outEdges_after hchb n hnc hnp).trans s2⟩
          have hdeg1 : ∀ n, n ∉ V → b1._g.indeg n = b0._g.indeg n := by
            intro n hn
            have hnc : n ∉ v :: vs := fun hm => hn (hcV _ hm).1
            exact (hC.indeg_after hchb hcnd hE hqc n hnc).trans (hdeg n hn)
          have tr := ih b1 (red ++ (v :: vs)) r
            (fun c' hc' => hdata c' (List.mem_cons_of_mem _ hc')) hrnd hf1 hE1 hle1 hold1
            hsame1 hdeg1 h
          exact ⟨ein, outs, elast.tgt, by simp, hpath0, hpathb, hpc, hqc, i1, i2, hdist,
            Or.inr ⟨hk, hch0, b1, hC, tr⟩⟩

/-- In segment mode every round contracts its chain: the removed nodes are the
nodes of all chains. -/
theorem roundsTrace_segment (b0 : GraphBuilder) :
    ∀ (rest : List (List Nat)) (st r : GraphBuilder × List Nat),
      RoundsTrace ProblemType.SEGMENT b0 rest st r → r.2 = st.2 ++ rest.flatten := by
  intro rest
  induction rest with
  | nil =>
    intro st r h
    simp only [RoundsTrace] at h
    rw [h]
    simp
  | cons c rest ih =>
    intro st r h
    simp only [RoundsTrace] at h
    obtain ⟨ein, outs, q, -, -, -, -, -, -, -, -, hor⟩ := h
    rcases hor with ⟨hk, -⟩ | ⟨-, -, b1, -, tr⟩
    · exact absurd hk.1 (by decide)
    · rw [ih _ _ tr]
      simp

end Rounds
/-! ## Theorems: the chains `preprocessGraph` keeps and the chains it contracts -/

section KeptChains

open GraphBuilder

theorem bendTravel_ok :
    createNodesAndTravelArcs (init bendStations bendLines 5 5) (fun _ _ => none)
      (fun _ _ => none) = .ok bendTravel := by
  rfl

theorem bendSpecial_ok :
    bendTravel.1.addSpecialArcs bendTravel.2.1 bendTravel.2.2 .STATION true
      = .ok bendSpecial := by
  rfl

theorem bendPreprocessed_ok :
    bendSpecial.preprocessGraph .STATION = .ok bendPreprocessed := by
  rfl

/-- C31: let `b2` be the graph on which the constructor calls `preprocessGraph`,
built by `createNodesAndTravelArcs` and `addSpecialArcs` with preprocessing from
any station map and any list of lines, and let `preprocessGraph` return.  Then
the rounds of its loop over the chains are those of `RoundsTrace`: when its
round comes, every chain is still the path it is in `b2`, entered by one arc
from the node before its first node and left by one arc to the node after its
last node, and the in-degrees of these two nodes are as in `b2`; the round
leaves the chain in the graph exactly if the mode is the station mode and both
in-degrees are greater than 1 (`KeptChain`), and otherwise, so in segment mode
always, contracts the chain: the nodes of the chain and their arcs are removed
and one arc from the node before the chain to the node after it is added, with
the summed cost and the label of the arcs of the chain (`Contracted`).  In
segment mode the removed nodes are the nodes of all chains. -/
theorem preprocessGraph_kept_chains {stations : t_stationmap} {lines : t_linemap} {cc sc : ℚ}
    {type : ProblemType} {b1 : GraphBuilder} {way back : NodeMap} {b2 b : GraphBuilder}
    (h : Phases stations lines cc sc type true b1 way back b2)
    (h3 : b2.preprocessGraph type = .ok b) :
    ∃ chains r, computeDegree2Chains b2._g b2._connection_arcs = .ok chains ∧
      removeChains type chains (b2, []) = .ok r ∧
      b = { r.1 with _station_nodes := cleanStations r.2 r.1._station_nodes } ∧
      RoundsTrace type b2 chains (b2, []) r ∧
      (type = ProblemType.SEGMENT → r.2 = chains.flatten) := by
  obtain ⟨chains, b4, red, hch, hrem, hb⟩ := preprocessGraph_inv b2 b type h3
  have hdeg := computeDegree2Chains_degrees _ _ _ hch
  obtain ⟨chains', hch', hnd, hmem, hranges⟩ := h.path_graph.chains_ranges hdeg
  rw [hch] at hch'
  simp only [Except.ok.injEq] at hch'
  subst hch'
  obtain ⟨-, -, -, -, -, -, -, -, -, -, hf, -⟩ := h.graph_shape
  have hdata : ∀ c ∈ chains, ∃ first len, c = List.range' first (len + 1) ∧
      (∀ n ∈ c, n ∈ chains.flatten ∧ b2._g.degree n = 2) ∧
      (∀ e ∈ b2._g.edges, e.tgt = first → e.src ∉ chains.flatten) ∧
      (∀ e ∈ b2._g.edges, e.src = first + len → e.tgt ∉ chains.flatten) ∧
      ∀ i, i < len → ∃ e ∈ b2._g.edges, e.src = first + i ∧ e.tgt = first + i + 1 := by
    intro c hc
    obtain ⟨first, len, hlen, hcr, hent, hleave, hstep⟩ := hranges c hc
    obtain ⟨k, rfl⟩ : ∃ k, len = k + 1 := ⟨len - 1, by omega⟩
    refine ⟨first, k, hcr, ?_, ?_, ?_, ?_⟩
    · intro n hn
      have hfl : n ∈ chains.flatten := List.mem_flatten.2 ⟨c, hc, hn⟩
      obtain ⟨hnn, hnh⟩ := (hmem n).1 hfl
      refine ⟨hfl, ?_⟩
      have h1 := hdeg n hnn
      have h2 : ¬ 2 < b2._g.degree n := by
        intro hlt
        exact hnh (hideKeepEndpoints_subset _ _ _ n
          (List.mem_filter.2 ⟨hnn, by simpa using hlt⟩))
      omega
    · intro e he ht hm
      exact ((hmem _).1 hm).2 (hent e he ht)
    · intro e he hs hm
      exact ((hmem _).1 hm).2 (hleave e he (by omega))
    · intro i hi
      obtain ⟨e, he, -, hs, ht⟩ := hstep i (by omega)
      exact ⟨e, he, hs, ht⟩
  have tr := removeChains_rounds type b2 chains.flatten hf chains b2 [] (b4, red) hdata hnd hf
    h.arcs_nodup (Nat.le_refl _) (fun _ _ => ⟨rfl, rfl⟩) (fun _ _ => ⟨rfl, rfl⟩)
    (fun _ _ => rfl) hrem
  refine ⟨chains, (b4, red), hch, hrem, hb, tr, ?_⟩
  intro hty
  subst hty
  have := roundsTrace_segment b2 chains (b2, []) (b4, red) tr
  simpa using this

/-- C31, witness: the network in which `L0` serves `C`, `B`, `E` and `L1` serves
`E`, `C`, `A`, `C`, `B`, in station mode.  The chains are the node 4 and the
node 12.  The node 3 before the node 4 has in-degree 1: the chain is contracted,
the node 4 is removed and the new arc 24 leads from the node 3 to the node 5.
The nodes 11 and 13 before and after the node 12 have in-degree 2: the chain is
kept, the node 12 and its arcs 8 and 9 stay in the graph. -/
theorem preprocessGraph_kept_chains_witness :
    Phases bendStations bendLines 5 5 .STATION true bendTravel.1 bendTravel.2.1
        bendTravel.2.2 bendSpecial ∧
      bendSpecial.preprocessGraph .STATION = .ok bendPreprocessed ∧
      (∃ r, removeChains .STATION [[4], [12]] (bendSpecial, []) = .ok r ∧
        bendPreprocessed =
          { r.1 with _station_nodes := cleanStations r.2 r.1._station_nodes } ∧
        RoundsTrace .STATION bendSpecial [[4], [12]] (bendSpecial, []) r) ∧
      bendSpecial._g.inEdges 4 = [⟨2, 3, 4⟩] ∧ bendSpecial._g.outEdges 4 = [⟨3, 4, 5⟩] ∧
      ¬ KeptChain .STATION bendSpecial ⟨2, 3, 4⟩ 5 ∧
      bendSpecial._g.inEdges 12 = [⟨8, 11, 12⟩] ∧ bendSpecial._g.outEdges 12 = [⟨9, 12, 13⟩] ∧
      KeptChain .STATION bendSpecial ⟨8, 11, 12⟩ 13 ∧
      bendPreprocessed._g.nodes = [0, 1, 2, 3, 5, 6, 7, 8, 9, 10, 11, 12, 13, 14, 15] ∧
      (⟨24, 3, 5⟩ : Edge) ∈ bendPreprocessed._g.edges ∧
      (⟨8, 11, 12⟩ : Edge) ∈ bendPreprocessed._g.edges ∧
      (⟨9, 12, 13⟩ : Edge) ∈ bendPreprocessed._g.edges := by
  have hph : Phases bendStations bendLines 5 5 .STATION true bendTravel.1 bendTravel.2.1
      bendTravel.2.2 bendSpecial := ⟨bendTravel_ok, bendSpecial_ok⟩
  have hchains : computeDegree2Chains bendSpecial._g bendSpecial._connection_arcs
      = .ok [[4], [12]] := by rfl
  obtain ⟨chains, r, h1, h2, h3, h4, -⟩ := preprocessGraph_kept_chains hph bendPreprocessed_ok
  rw [hchains] at h1
  simp only [Except.ok.injEq] at h1
  subst h1
  exact ⟨hph, bendPreprocessed_ok, ⟨r, h2, h3, h4⟩, by decide, by decide, by decide, by decide,
    by decide, by decide, by decide, by decide, by decide, by decide⟩

end KeptChains
end Ubahn
